import Mathlib

/-! # A shallow embedding of the `ctl` JSON library (`js.c`) and its collaborators

Texts and stored strings are lists of byte values (`List Nat`, each byte below 256).
A C string is the part of such a list before its first zero byte; reading at or past
the end of a list yields the terminator `0`.  Heap allocation is taken to succeed, so
the `JS_ERR`/`NULL` paths that only an allocation failure reaches are not modelled.
Pointers into a text are modelled by the suffix of the text that starts at the pointer.
-/

set_option autoImplicit false

namespace Ctl

/-! ## Bytes and C strings -/

/-- The byte at a pointer, `p[0]`: the head of the suffix, `0` at the terminator. -/
def hd (p : List Nat) : Nat := p.headD 0

/-- The C string stored at a pointer: the bytes before the first zero byte. -/
def cstr : List Nat → List Nat
  | [] => []
  | c :: rest => if c = 0 then [] else c :: cstr rest

/-- Model of `strlen`. -/
def strlen (p : List Nat) : Nat := (cstr p).length

/-- The bytes of an ASCII string literal. -/
def bytes (s : String) : List Nat := s.toList.map Char.toNat

/-- Model of `strncmp(value, lit, n) == 0` for a literal `lit` of `n` non-zero bytes. -/
def startsWith : List Nat → List Nat → Bool
  | _, [] => true
  | [], _ :: _ => false
  | c :: value, d :: lit => c == d && startsWith value lit

/-! ## Decimal rendering (`%ld`) -/

/-- The decimal digits of `n` (most significant first) in front of `acc`, bounded by fuel. -/
def decimalAux : Nat → Nat → List Nat → List Nat
  | 0, _, acc => acc
  | fuel + 1, n, acc =>
    if n < 10 then (48 + n) :: acc else decimalAux fuel (n / 10) ((48 + n % 10) :: acc)

/-- The decimal digits of `n` as ASCII bytes, without leading zeros (`0` is one digit). -/
def decimal (n : Nat) : List Nat := decimalAux (n + 1) n []

/-- Model of the `%ld` conversion of `printf`. -/
def fmt_ld (n : Int) : List Nat :=
  if n < 0 then 45 :: decimal n.natAbs else decimal n.natAbs

/-- The last `w` decimal digits of `n`, most significant first, zero padded. -/
def padDecimal : Nat → Nat → List Nat
  | 0, _ => []
  | w + 1, n => padDecimal w (n / 10) ++ [48 + n % 10]

/-! ## Binary64 arithmetic

A `double` is modelled exactly: a finite value is `(-1)^neg * m * 2^e`, and every
operation rounds its exact result to the nearest binary64 value, ties to even
(IEEE 754 default rounding), with gradual underflow and overflow to infinity (the
largest finite value is `(2^53 - 1) * 2^971`). -/

/-- A binary64 value. -/
inductive Dbl where
  | fin (neg : Bool) (m : Nat) (e : Int)
  | inf (neg : Bool)
  | nan

namespace Dbl

/-- Floor of the binary logarithm, bounded by fuel. -/
def log2Aux : Nat → Nat → Nat
  | 0, _ => 0
  | fuel + 1, n => if n < 2 then 0 else log2Aux fuel (n / 2) + 1

/-- Floor of the binary logarithm of a positive number (`0` for `0`). -/
def log2 (n : Nat) : Nat := log2Aux n n

/-- Round the quotient `a / b` to the nearest integer, ties to even. -/
def rhe (a b : Nat) : Nat :=
  let q := a / b
  let r := a % b
  if 2 * r < b then q else if b < 2 * r then q + 1 else if q % 2 = 0 then q else q + 1

/-- The binary64 value nearest to `(-1)^neg * num / den` (`den` positive). -/
def round (neg : Bool) (num den : Nat) : Dbl :=
  if num = 0 then fin neg 0 0
  else
    let l : Int := (log2 num : Int) - (log2 den : Int)
    let fl : Int := if num * 2 ^ (-l).toNat < den * 2 ^ l.toNat then l - 1 else l
    let e : Int := max (fl - 52) (-1074)
    let m := rhe (num * 2 ^ (-e).toNat) (den * 2 ^ e.toNat)
    let m1 := if m = 2 ^ 53 then 2 ^ 52 else m
    let e1 := if m = 2 ^ 53 then e + 1 else e
    if 972 ≤ e1 then inf neg else fin neg m1 e1

/-- The numerator of the value `m * 2^e` over the denominator `den e`. -/
def num (m : Nat) (e : Int) : Nat := m * 2 ^ e.toNat

/-- The denominator `2^(-e)` (or `1`) of the value `m * 2^e`. -/
def den (e : Int) : Nat := 2 ^ (-e).toNat

/-- Conversion of an `int` to `double`. -/
def ofInt (i : Int) : Dbl := round (decide (i < 0)) i.natAbs 1

/-- Multiplication of doubles. -/
def mul : Dbl → Dbl → Dbl
  | nan, _ => nan
  | _, nan => nan
  | inf a, inf b => inf (a != b)
  | inf a, fin b m _ => if m = 0 then nan else inf (a != b)
  | fin a m _, inf b => if m = 0 then nan else inf (a != b)
  | fin a m e, fin b n f => round (a != b) (num m e * num n f) (den e * den f)

/-- Addition of doubles. -/
def add : Dbl → Dbl → Dbl
  | nan, _ => nan
  | _, nan => nan
  | inf a, inf b => if a = b then inf a else nan
  | inf a, fin _ _ _ => inf a
  | fin _ _ _, inf b => inf b
  | fin a m e, fin b n f =>
    let x : Int := (if a then -1 else 1) * ((num m e * den f : Nat) : Int)
    let y : Int := (if b then -1 else 1) * ((num n f * den e : Nat) : Int)
    let s := x + y
    if s = 0 then fin (a && b) 0 0 else round (decide (s < 0)) s.natAbs (den e * den f)

/-- Model of `pow(10.0, y)` for an integral `y`: the correctly rounded power. -/
def pow10 (y : Int) : Dbl :=
  if 0 ≤ y then round false (10 ^ y.toNat) 1 else round false 1 (10 ^ (-y).toNat)

/-- Model of `fabs(x) < fabs(y)` on doubles (false when either is a NaN). -/
def absLt : Dbl → Dbl → Bool
  | nan, _ => false
  | _, nan => false
  | inf _, _ => false
  | fin _ _ _, inf _ => true
  | fin _ m e, fin _ n f => decide (num m e * den f < num n f * den e)

/-- Model of the cast `(long)x`: truncation toward zero; a value outside the range of
`long` (undefined in C) yields the x86-64 result `LONG_MIN`. -/
def toLong : Dbl → Int
  | fin neg m e =>
    let t : Nat := num m e / den e
    let v : Int := if neg then -(t : Int) else (t : Int)
    if -(2 ^ 63 : Int) ≤ v ∧ v < 2 ^ 63 then v else -(2 ^ 63 : Int)
  | _ => -(2 ^ 63 : Int)

/-- The exponent `x` with `10^x ≤ a / b < 10^(x+1)`, searched downward with fuel. -/
def log10Neg : Nat → Nat → Nat → Nat → Nat
  | 0, _, _, k => k
  | fuel + 1, a, b, k => if b ≤ a * 10 ^ k then k else log10Neg fuel a b (k + 1)

/-- Floor of the decimal logarithm of the positive rational `a / b`. -/
def log10Floor (a b : Nat) : Int :=
  if b ≤ a then ((decimal (a / b)).length : Int) - 1 else -(log10Neg 400 a b 1 : Int)

/-- Model of the `%lf` conversion (six fractional digits, correctly rounded). -/
def fmt_lf : Dbl → List Nat
  | nan => [110, 97, 110]
  | inf neg => (if neg then [45] else []) ++ [105, 110, 102]
  | fin neg m e =>
    let n := rhe (num m e * 10 ^ 6) (den e)
    (if neg then [45] else []) ++ decimal (n / 10 ^ 6) ++ [46] ++ padDecimal 6 (n % 10 ^ 6)

/-- Model of the `%e` conversion (one digit, six fractional digits, exponent of at
least two digits, correctly rounded). -/
def fmt_e : Dbl → List Nat
  | nan => [110, 97, 110]
  | inf neg => (if neg then [45] else []) ++ [105, 110, 102]
  | fin neg m e =>
    let x0 : Int := if m = 0 then 0 else log10Floor (num m e) (den e)
    let n0 := rhe (num m e * 10 ^ (6 - x0).toNat) (den e * 10 ^ (x0 - 6).toNat)
    let x : Int := if 10 ^ 7 ≤ n0 then x0 + 1 else x0
    let n := if 10 ^ 7 ≤ n0 then 10 ^ 6 else n0
    (if neg then [45] else []) ++ decimal (n / 10 ^ 6) ++ [46] ++ padDecimal 6 (n % 10 ^ 6)
      ++ [101] ++ (if x < 0 then [45] else [43])
      ++ (if x.natAbs < 10 then [48] else []) ++ decimal x.natAbs

end Dbl

/-! ## The growable buffer of `js.c` (`jsBuffer`) -/

/-- A `jsBuffer`: the tracked length, the free capacity, and the `len` content bytes
(a zero byte follows them in memory). -/
structure jsBuffer where
  len : Nat
  free : Nat
  buf : List Nat

def JS_OK : Int := 1
def JS_ERR : Int := 0
def JS_FALSE : Int := 0
def JS_TRUE : Int := 1
def JS_BUFFER_SIZE_INIT : Nat := 4

def _js_buffer_new (size : Nat) : jsBuffer := ⟨0, size, []⟩

def _js_buffer_newlen (size : Nat) : jsBuffer := ⟨size, 0, List.replicate size 0⟩

def _js_buffer_renew (p : jsBuffer) (size : Nat) : jsBuffer :=
  if p.free < size then
    let buf_size := p.free + p.len
    let add_size := p.len + size
    let new_size := if buf_size * 2 > add_size + 8 then buf_size * 2 else add_size + 8
    { p with free := new_size - p.len }
  else p

def _js_buffer_len (p : jsBuffer) : Nat := p.len

def _js_buffer_cat (p : jsBuffer) (buf : List Nat) (len : Nat) : jsBuffer :=
  let q := _js_buffer_renew p len
  { len := q.len + len, free := q.free - len, buf := q.buf ++ buf.take len }

/-- The content of a zero-filled buffer of `len` bytes after `out` was written from its
start (`_js_buffer_newlen(len)` followed by the copy loop). -/
def fill (len : Nat) (out : List Nat) : List Nat :=
  (out ++ List.replicate (len - out.length) 0).take len

/-- An argument passed to a `printf`-style call. -/
inductive fmtArg where
  | str (s : List Nat)
  | long (n : Int)
  | dbl (d : Dbl)

/-- Model of `vasprintf`: the text produced for the C string `fmt` and the arguments.
`%%`, `%s`, `%ld` and `%e` are the conversions the library uses; `none` stands for a
call without a defined result (a conversion whose argument was not passed, an
incomplete or unknown conversion). -/
def vasprintf : List Nat → List fmtArg → Option (List Nat)
  | [], _ => some []
  | c :: rest, args =>
    if c = 0 then some []
    else if c ≠ 37 then (vasprintf rest args).map (fun t => c :: t)
    else
      match rest with
      | [] => none
      | d :: rest1 =>
        if d = 37 then (vasprintf rest1 args).map (fun t => 37 :: t)
        else if d = 115 then
          match args with
          | fmtArg.str s :: args1 => (vasprintf rest1 args1).map (fun t => cstr s ++ t)
          | _ => none
        else if d = 101 then
          match args with
          | fmtArg.dbl x :: args1 => (vasprintf rest1 args1).map (fun t => Dbl.fmt_e x ++ t)
          | _ => none
        else if d = 108 then
          match rest1 with
          | [] => none
          | d2 :: rest2 =>
            if d2 = 100 then
              match args with
              | fmtArg.long n :: args1 => (vasprintf rest2 args1).map (fun t => fmt_ld n ++ t)
              | _ => none
            else none
        else none

/-- Model of `_js_buffer_sprintf` (`_js_buffer_vsprintf` then `_js_buffer_cat`); `none`
is the `JS_ERR` return or an undefined `vasprintf` call. -/
def _js_buffer_sprintf (p : jsBuffer) (fmt : List Nat) (args : List fmtArg) :
    Option jsBuffer :=
  (vasprintf fmt args).map (fun t => _js_buffer_cat p t t.length)

/-! ## The chained hash table (`ht.c`)

The table is the list of its buckets, each bucket the list of its chain from the head.
A pointer to an entry is the pair of its bucket and its position in the chain.  The type
descriptor `ht->type` is fixed by `ht_create`, so it is an argument of the operations;
`key_dup`/`val_dup` are null in every table of the library. -/

structure htType (K : Type) where
  hash_function : K → Nat
  key_compare : K → K → Int

structure htEntry (K V : Type) where
  key : K
  val : V

structure htHandle (K V : Type) where
  table : List (List (htEntry K V))
  size : Nat
  mask : Nat
  used : Nat

/-- A pointer to an entry: bucket `index`, position `pos` from the head of the chain. -/
structure htEntryRef where
  index : Nat
  pos : Nat
deriving DecidableEq

structure htIterator where
  next : Option htEntryRef
  index : Nat

def HT_OK : Int := 1
def HT_ERR : Int := 0
def HT_INITIAL_SIZE : Nat := 4
def INT_MAX : Nat := 2147483647

section ht
variable {K V : Type}

/-- The entry a pointer designates. -/
def ht_entry (ht : htHandle K V) (he : htEntryRef) : Option (htEntry K V) :=
  (ht.table.getD he.index [])[he.pos]?

/-- The pointer `he->next`. -/
def ht_entry_next (ht : htHandle K V) (he : htEntryRef) : Option htEntryRef :=
  if he.pos + 1 < (ht.table.getD he.index []).length then some ⟨he.index, he.pos + 1⟩ else none

/-- The pointer `ht->table[index]`. -/
def ht_bucket_head (ht : htHandle K V) (index : Nat) : Option htEntryRef :=
  if (ht.table.getD index []).isEmpty then none else some ⟨index, 0⟩

def _ht_reset : htHandle K V := ⟨[], 0, 0, 0⟩

def ht_create : htHandle K V := _ht_reset

def _ht_next_power_loop : Nat → Nat → Nat → Nat
  | 0, _, i => i
  | fuel + 1, size, i =>
    if size ≤ i then i else _ht_next_power_loop fuel size (i * 2 % 4294967296)

def _ht_next_power (size : Nat) : Nat :=
  if INT_MAX ≤ size then INT_MAX else _ht_next_power_loop 32 size HT_INITIAL_SIZE

/-- Link `he` at the head of the chain of bucket `index` and count it. -/
def ht_link (ht : htHandle K V) (index : Nat) (he : htEntry K V) : htHandle K V :=
  { ht with table := ht.table.set index (he :: ht.table.getD index []), used := ht.used + 1 }

/-- The inner loop of `_ht_rehash`: move one chain into the new table. -/
def _ht_rehash_chain (type : htType K) :
    List (htEntry K V) → Nat → htHandle K V → Nat × htHandle K V
  | [], used, n => (used, n)
  | he :: next, used, n =>
    _ht_rehash_chain type next (used - 1) (ht_link n (type.hash_function he.key &&& n.mask) he)

/-- The outer loop of `_ht_rehash`: it runs while `ht->used` is not zero. -/
def _ht_rehash_loop (type : htType K) :
    List (List (htEntry K V)) → Nat → htHandle K V → Nat × htHandle K V
  | [], used, n => (used, n)
  | chain :: rest, used, n =>
    if used = 0 then (used, n)
    else
      let r := _ht_rehash_chain type chain used n
      _ht_rehash_loop type rest r.1 r.2

def _ht_rehash (type : htType K) (ht n : htHandle K V) : htHandle K V :=
  let r := _ht_rehash_loop type ht.table ht.used n
  if r.1 = 0 then r.2 else { ht with used := r.1 }

def _ht_expand (type : htType K) (ht : htHandle K V) (size : Nat) : Int × htHandle K V :=
  let realsize := _ht_next_power size
  if size < ht.used then (HT_ERR, ht)
  else if realsize = ht.size then (HT_ERR, ht)
  else
    let n : htHandle K V := ⟨List.replicate realsize [], realsize, realsize - 1, 0⟩
    if ht.table.isEmpty then (HT_OK, n) else (HT_OK, _ht_rehash type ht n)

def _ht_expand_if_needed (type : htType K) (ht : htHandle K V) : Int × htHandle K V :=
  if ht.size = 0 then _ht_expand type ht HT_INITIAL_SIZE
  else if ht.size ≤ ht.used then _ht_expand type ht (ht.used * 2)
  else (HT_OK, ht)

/-- The chain scan shared by `_ht_key_index` and `ht_find`: the position of the first
entry whose key compares equal to `key`. -/
def ht_chain_find (type : htType K) (key : K) : List (htEntry K V) → Option Nat
  | [] => none
  | he :: next =>
    if type.key_compare key he.key ≠ 0 then some 0
    else (ht_chain_find type key next).map (fun p => p + 1)

/-- The bucket for a new key, or `none` for `HT_INV`; the table may have been expanded. -/
def _ht_key_index (type : htType K) (ht : htHandle K V) (key : K) :
    Option Nat × htHandle K V :=
  let r := _ht_expand_if_needed type ht
  if r.1 = 0 then (none, r.2)
  else
    let index := type.hash_function key &&& r.2.mask
    match ht_chain_find type key (r.2.table.getD index []) with
    | some _ => (none, r.2)
    | none => (some index, r.2)

def ht_add_raw [Inhabited V] (type : htType K) (ht : htHandle K V) (key : K) :
    Option htEntryRef × htHandle K V :=
  match _ht_key_index type ht key with
  | (none, ht1) => (none, ht1)
  | (some index, ht1) => (some ⟨index, 0⟩, ht_link ht1 index ⟨key, default⟩)

/-- Rewrite the entry at position `pos` of a chain. -/
def ht_chain_update (f : htEntry K V → htEntry K V) : Nat → List (htEntry K V) →
    List (htEntry K V)
  | _, [] => []
  | 0, he :: next => f he :: next
  | pos + 1, he :: next => he :: ht_chain_update f pos next

/-- Rewrite the entry a pointer designates. -/
def ht_entry_update (ht : htHandle K V) (he : htEntryRef) (f : htEntry K V → htEntry K V) :
    htHandle K V :=
  let chain := ht_chain_update f he.pos (ht.table.getD he.index [])
  { ht with table := ht.table.set he.index chain }

/-- The macro `ht_set_val` (with `val_dup` null): store `val` in the entry. -/
def ht_set_val (ht : htHandle K V) (he : htEntryRef) (val : V) : htHandle K V :=
  ht_entry_update ht he (fun e => { e with val := val })

/-- The assignment `ht_get_key(he) = key`. -/
def ht_set_key (ht : htHandle K V) (he : htEntryRef) (key : K) : htHandle K V :=
  ht_entry_update ht he (fun e => { e with key := key })

def ht_add [Inhabited V] (type : htType K) (ht : htHandle K V) (key : K) (val : V) :
    Int × htHandle K V :=
  match ht_add_raw type ht key with
  | (none, ht1) => (HT_ERR, ht1)
  | (some he, ht1) => (HT_OK, ht_set_val ht1 he val)

def ht_find (type : htType K) (ht : htHandle K V) (key : K) : Option htEntryRef :=
  if ht.size = 0 then none
  else
    let index := type.hash_function key &&& ht.mask
    (ht_chain_find type key (ht.table.getD index [])).map (fun p => ⟨index, p⟩)

/-- Model of `ht_delete`.  An entry with a predecessor is unlinked from its chain; a
chain head is unlinked through `ht->table[hash & mask]`, which is its own bucket when the
entry lies in the chain of its key.  `none` stands for the calls outside that case (a
dangling pointer, or a head stored in a foreign bucket), where the C code corrupts the
chains. -/
def ht_delete (type : htType K) (ht : htHandle K V) (he : htEntryRef) :
    Option (htHandle K V) :=
  if ht.size = 0 then some ht
  else
    match ht_entry ht he with
    | none => none
    | some e =>
      let index := type.hash_function e.key &&& ht.mask
      if he.pos ≠ 0 ∨ index = he.index then
        let chain := (ht.table.getD he.index []).eraseIdx he.pos
        some { ht with table := ht.table.set he.index chain,
                       used := (ht.used + 4294967295) % 4294967296 }
      else none

def ht_create_iterator (ht : htHandle K V) : htIterator :=
  { next := if 0 < ht.size then ht_bucket_head ht 0 else none, index := 0 }

/-- The loop of `ht_next`, bounded by the number of buckets left to visit. -/
def ht_next_loop (ht : htHandle K V) : Nat → Option htEntryRef → Nat →
    Option htEntryRef × htIterator
  | 0, _, index => (none, ⟨none, index⟩)
  | fuel + 1, he, index =>
    match he with
    | some r => (some r, ⟨ht_entry_next ht r, index⟩)
    | none =>
      if ht.size ≤ index + 1 then (none, ⟨none, index + 1⟩)
      else ht_next_loop ht fuel (ht_bucket_head ht (index + 1)) (index + 1)

def ht_next (ht : htHandle K V) (iter : htIterator) : Option htEntryRef × htIterator :=
  ht_next_loop ht (ht.size + 1 - iter.index) iter.next iter.index

end ht

/-! ## The doubly linked list (`ls.c`) -/

/-- A list handle: the node values from head to tail, and the tracked length. -/
structure lsHandle (V : Type) where
  nodes : List V
  len : Nat

def ls_create {V : Type} : lsHandle V := ⟨[], 0⟩

def ls_add_tail {V : Type} (ls : lsHandle V) (val : V) : lsHandle V :=
  ⟨ls.nodes ++ [val], ls.len + 1⟩

/-! ## The general hash function of `ht.c` (MurmurHash2, seed 5381) -/

def ht_hash_function_seed : Nat := 5381

/-- Truncation to `unsigned int`. -/
def u32 (n : Nat) : Nat := n % 4294967296

/-- The word loop of `ht_gen_hash_function`: four bytes at a time (little endian load). -/
def ht_gen_hash_loop : Nat → List Nat → Nat → Nat → Nat × List Nat × Nat
  | 0, data, len, h => (h, data, len)
  | fuel + 1, data, len, h =>
    if 4 ≤ len then
      let k0 := data.getD 0 0 + 256 * data.getD 1 0 + 65536 * data.getD 2 0
        + 16777216 * data.getD 3 0
      let k1 := u32 (k0 * 1540483477)
      let k2 := k1 ^^^ (k1 >>> 24)
      let k3 := u32 (k2 * 1540483477)
      ht_gen_hash_loop fuel (data.drop 4) (len - 4) (u32 (h * 1540483477) ^^^ k3)
    else (h, data, len)

def ht_gen_hash_function (key : List Nat) (len : Nat) : Nat :=
  let r := ht_gen_hash_loop len key len (ht_hash_function_seed ^^^ u32 len)
  let data := r.2.1
  let h0 := r.1
  let h1 := if r.2.2 = 3 then h0 ^^^ (data.getD 2 0 <<< 16) else h0
  let h2 := if r.2.2 = 3 ∨ r.2.2 = 2 then h1 ^^^ (data.getD 1 0 <<< 8) else h1
  let h3 := if r.2.2 = 3 ∨ r.2.2 = 2 ∨ r.2.2 = 1 then u32 ((h2 ^^^ data.getD 0 0) * 1540483477)
    else h2
  let h4 := h3 ^^^ (h3 >>> 13)
  let h5 := u32 (h4 * 1540483477)
  h5 ^^^ (h5 >>> 15)

/-! ## The JSON value (`jsObject`) -/

/-- A `jsObject`: the tag `type` (with `idouble` for numbers) and the valid member of
the union.  String payloads are the bytes of their `jsBuffer`; member names are the
keys of the table, null once `js_replace` has moved them out. -/
inductive jsObject where
  | null
  | boolean (l64 : Int)
  | number_l64 (l64 : Int)
  | number_d64 (d64 : Dbl)
  | string (val : List Nat)
  | array (val : lsHandle jsObject)
  | object (val : htHandle (Option (List Nat)) (Option jsObject))

abbrev jsKey := Option (List Nat)
abbrev jsEntry := htEntry jsKey (Option jsObject)
abbrev jsTable := htHandle jsKey (Option jsObject)

/-- Model of `_js_hash_function`; a null key (dereferenced by `strlen` in C) is outside
the model and hashes to `0`. -/
def _js_hash_function : jsKey → Nat
  | none => 0
  | some key => ht_gen_hash_function key (strlen key)

/-- Model of `_js_hash_key_compare`: equal tracked lengths and equal bytes. -/
def _js_hash_key_compare : jsKey → jsKey → Int
  | some key1, some key2 =>
    if key1.length ≠ key2.length then HT_ERR else if key1 = key2 then 1 else 0
  | _, _ => 0

def htTypeJson : htType jsKey := ⟨_js_hash_function, _js_hash_key_compare⟩

def _js_object_set_object (value : jsTable) : jsObject := jsObject.object value
def _js_object_set_array (value : lsHandle jsObject) : jsObject := jsObject.array value
def _js_object_set_string (value : List Nat) : jsObject := jsObject.string value
def _js_object_set_bool (value : Int) : jsObject := jsObject.boolean value
def _js_object_set_null : jsObject := jsObject.null

def _js_object_set_number (value : Dbl) (idouble : Int) : jsObject :=
  if idouble ≠ 0 then jsObject.number_d64 value else jsObject.number_l64 value.toLong

/-- Model of `_js_object_add_object` on an Object: `name` is the pending `obj->name`
and `sub` the value the stored pointer designates. -/
def _js_object_add_object (obj : jsTable) (name : List Nat) (sub : jsObject) :
    Int × jsTable :=
  let r := ht_add htTypeJson obj (some name) (some sub)
  if r.1 = 0 then (JS_ERR, r.2) else (JS_OK, r.2)

/-! ## The serializer -/

/-- First pass of `_js_object_string_escape`: the length of the buffer it allocates. -/
def _js_object_string_escape_len : List Nat → Nat
  | [] => 0
  | c :: val =>
    if c = 0 then 0
    else (if c = 34 ∨ c = 92 ∨ c = 8 ∨ c = 12 ∨ c = 10 ∨ c = 13 ∨ c = 9 then 2 else 1)
      + _js_object_string_escape_len val

/-- Second pass of `_js_object_string_escape`: the bytes it writes. -/
def _js_object_string_escape_out : List Nat → List Nat
  | [] => []
  | c :: val =>
    if c = 0 then []
    else if 31 < c ∧ c ≠ 34 ∧ c ≠ 92 then c :: _js_object_string_escape_out val
    else if c = 34 then 92 :: 34 :: _js_object_string_escape_out val
    else if c = 92 then 92 :: 92 :: _js_object_string_escape_out val
    else if c = 8 then 92 :: 98 :: _js_object_string_escape_out val
    else if c = 12 then 92 :: 102 :: _js_object_string_escape_out val
    else if c = 10 then 92 :: 110 :: _js_object_string_escape_out val
    else if c = 13 then 92 :: 114 :: _js_object_string_escape_out val
    else if c = 9 then 92 :: 116 :: _js_object_string_escape_out val
    else 63 :: _js_object_string_escape_out val

/-- Model of `_js_object_string_escape`: the buffer that replaces `in[0]`. -/
def _js_object_string_escape (val : List Nat) : List Nat :=
  fill (_js_object_string_escape_len val) (_js_object_string_escape_out val)

/-- Model of `_js_object_string_print`: the stored string is replaced by its escaped
form, which is then passed to `_js_buffer_sprintf` as the format. -/
def _js_object_string_print (val : List Nat) (buf : jsBuffer) :
    Option (List Nat × jsBuffer) :=
  match _js_buffer_sprintf buf [34] [] with
  | none => none
  | some buf1 =>
    let val1 := _js_object_string_escape val
    match _js_buffer_sprintf buf1 val1 [] with
    | none => none
    | some buf2 =>
      match _js_buffer_sprintf buf2 [34] [] with
      | none => none
      | some buf3 => some (val1, buf3)

/-- The trimming step of `_js_object_number_print` on the text `num`. -/
def _js_number_trim (num : List Nat) : List Nat :=
  let s := cstr num
  if 46 ∈ s then
    let ip := s.takeWhile (fun c => c ≠ 46)
    let frac := ((s.dropWhile (fun c => c ≠ 46)).drop 1)
    let kept := ((frac.reverse).dropWhile (fun c => c = 48)).reverse
    let t : List Nat := ip ++ [46] ++ kept
    if t.getLast? = some 46 then t ++ [48] else t
  else s

def _js_object_number_print (obj : jsObject) (buf : jsBuffer) : Option jsBuffer :=
  match obj with
  | jsObject.number_d64 d64 =>
    if Dbl.absLt d64 (Dbl.pow10 (-6)) ∨ Dbl.absLt (Dbl.pow10 9) d64 then
      _js_buffer_sprintf buf [37, 101] [fmtArg.dbl d64]
    else
      _js_buffer_sprintf buf [37, 115] [fmtArg.str (_js_number_trim ((Dbl.fmt_lf d64).take 126))]
  | jsObject.number_l64 l64 => _js_buffer_sprintf buf [37, 108, 100] [fmtArg.long l64]
  | _ => none

def _js_object_boolean_print (l64 : Int) (buf : jsBuffer) : Option jsBuffer :=
  if l64 ≠ 0 then _js_buffer_sprintf buf [116, 114, 117, 101] []
  else _js_buffer_sprintf buf [102, 97, 108, 115, 101] []

def _js_object_null_print (buf : jsBuffer) : Option jsBuffer :=
  _js_buffer_sprintf buf [110, 117, 108, 108] []

/-- The separator step `if( n++ ) sprintf(",")` of the two container printers. -/
def _js_print_comma (n : Nat) (buf : jsBuffer) : Option jsBuffer :=
  if n ≠ 0 then _js_buffer_sprintf buf [44] [] else some buf

mutual

/-- The call `obj->print(obj, buf)`: the printer selected by `_js_object_set_type`.  The
result is the tree after the call (stored strings and member names are rewritten by the
escape routine) and the buffer; `none` is a `JS_ERR` return or an undefined call. -/
def jsObject.print : jsObject → jsBuffer → Option (jsObject × jsBuffer)
  | jsObject.null, buf => (_js_object_null_print buf).map (fun b => (jsObject.null, b))
  | jsObject.boolean l64, buf =>
    (_js_object_boolean_print l64 buf).map (fun b => (jsObject.boolean l64, b))
  | jsObject.number_l64 l64, buf =>
    (_js_object_number_print (jsObject.number_l64 l64) buf).map
      (fun b => (jsObject.number_l64 l64, b))
  | jsObject.number_d64 d64, buf =>
    (_js_object_number_print (jsObject.number_d64 d64) buf).map
      (fun b => (jsObject.number_d64 d64, b))
  | jsObject.string val, buf =>
    (_js_object_string_print val buf).map (fun r => (jsObject.string r.1, r.2))
  | jsObject.array ⟨nodes, len⟩, buf =>
    match _js_buffer_sprintf buf [91] [] with
    | none => none
    | some buf1 =>
      match _js_object_array_print_loop nodes 0 buf1 with
      | none => none
      | some (nodes1, buf2) =>
        (_js_buffer_sprintf buf2 [93] []).map (fun b => (jsObject.array ⟨nodes1, len⟩, b))
  | jsObject.object ⟨table, size, mask, used⟩, buf =>
    match _js_buffer_sprintf buf [123] [] with
    | none => none
    | some buf1 =>
      match _js_object_object_print_table table 0 buf1 with
      | none => none
      | some (table1, _, buf2) =>
        (_js_buffer_sprintf buf2 [125] []).map
          (fun b => (jsObject.object ⟨table1, size, mask, used⟩, b))

/-- The loop of `_js_object_array_print` over the nodes from the head; `n` counts the
elements already printed. -/
def _js_object_array_print_loop : List jsObject → Nat → jsBuffer →
    Option (List jsObject × jsBuffer)
  | [], _, buf => some ([], buf)
  | obj :: rest, n, buf =>
    match _js_print_comma n buf with
    | none => none
    | some buf1 =>
      match jsObject.print obj buf1 with
      | none => none
      | some (obj1, buf2) =>
        match _js_object_array_print_loop rest (n + 1) buf2 with
        | none => none
        | some (rest1, buf3) => some (obj1 :: rest1, buf3)

/-- The loop of `_js_object_object_print` over the buckets in iterator order. -/
def _js_object_object_print_table : List (List jsEntry) → Nat → jsBuffer →
    Option (List (List jsEntry) × Nat × jsBuffer)
  | [], n, buf => some ([], n, buf)
  | chain :: rest, n, buf =>
    match _js_object_object_print_chain chain n buf with
    | none => none
    | some (chain1, n1, buf1) =>
      match _js_object_object_print_table rest n1 buf1 with
      | none => none
      | some (rest1, n2, buf2) => some (chain1 :: rest1, n2, buf2)

/-- The loop of `_js_object_object_print` along one chain: separator, quoted escaped
key (escaped in place, then used as the format), colon, and the value if it is not null.
A null key (dereferenced in C) has no defined result. -/
def _js_object_object_print_chain : List jsEntry → Nat → jsBuffer →
    Option (List jsEntry × Nat × jsBuffer)
  | [], n, buf => some ([], n, buf)
  | ⟨none, _⟩ :: _, _, _ => none
  | ⟨some key, val⟩ :: next, n, buf =>
    match _js_print_comma n buf with
    | none => none
    | some buf1 =>
      match _js_buffer_sprintf buf1 [34] [] with
      | none => none
      | some buf2 =>
        match _js_buffer_sprintf buf2 (_js_object_string_escape key) [] with
        | none => none
        | some buf3 =>
          match _js_buffer_sprintf buf3 [34, 58] [] with
          | none => none
          | some buf4 =>
            match val with
            | none =>
              match _js_object_object_print_chain next (n + 1) buf4 with
              | none => none
              | some (next1, n1, buf5) =>
                some (⟨some (_js_object_string_escape key), none⟩ :: next1, n1, buf5)
            | some obj =>
              match jsObject.print obj buf4 with
              | none => none
              | some (obj1, buf5) =>
                match _js_object_object_print_chain next (n + 1) buf5 with
                | none => none
                | some (next1, n1, buf6) =>
                  some (⟨some (_js_object_string_escape key), some obj1⟩ :: next1, n1, buf6)

end

/-- Model of `_js_print`: the tree after the call, the text and its length. -/
def _js_print (obj : jsObject) : Option (jsObject × List Nat × Nat) :=
  match jsObject.print obj (_js_buffer_new JS_BUFFER_SIZE_INIT) with
  | none => none
  | some (obj1, buf) => some (obj1, buf.buf, _js_buffer_len buf)

def js_print (obj : jsObject) : Option (jsObject × List Nat × Nat) := _js_print obj

/-! ## The parser -/

def _js_skip : List Nat → List Nat
  | [] => []
  | c :: rest => if c ≠ 0 ∧ c ≤ 32 then _js_skip rest else c :: rest

/-- First pass of `_js_string_escape`: `(len, pos)`, the unescaped length and the
number of source bytes stepped over. -/
def _js_string_escape_len : List Nat → Nat × Nat
  | [] => (0, 0)
  | c :: val =>
    if c = 34 ∨ c = 0 then (0, 0)
    else if c = 92 then
      match val with
      | [] => (1, 2)
      | _ :: val1 => ((_js_string_escape_len val1).1 + 1, (_js_string_escape_len val1).2 + 2)
    else ((_js_string_escape_len val).1 + 1, (_js_string_escape_len val).2 + 1)

/-- The byte an escape sequence `\\x` stands for. -/
def _js_unescape (x : Nat) : Nat :=
  if x = 98 then 8 else if x = 102 then 12 else if x = 110 then 10
  else if x = 114 then 13 else if x = 116 then 9 else x

/-- Second pass of `_js_string_escape`: the bytes written. -/
def _js_string_escape_out : List Nat → List Nat
  | [] => []
  | c :: val =>
    if c = 34 ∨ c = 0 then []
    else if c ≠ 92 then c :: _js_string_escape_out val
    else
      match val with
      | [] => [0]
      | x :: val1 => _js_unescape x :: _js_string_escape_out val1

/-- Model of `_js_string_escape`: the new buffer and the count added to `pos`. -/
def _js_string_escape (val : List Nat) : List Nat × Nat :=
  (fill (_js_string_escape_len val).1 (_js_string_escape_out val), (_js_string_escape_len val).2)

/-- Model of `_js_parse_name`: the name and the position after it, or the failure
position. -/
def _js_parse_name (value : List Nat) : Except (List Nat) (List Nat × List Nat) :=
  if hd value ≠ 34 then Except.error value
  else
    let r := _js_string_escape (value.drop 1)
    let val := (value.drop 1).drop r.2
    Except.ok (r.1, if hd val = 34 then val.drop 1 else val)

def _js_parse_string (value : List Nat) : jsObject × List Nat :=
  let r := _js_string_escape (value.drop 1)
  let val := (value.drop 1).drop r.2
  (_js_object_set_string r.1, if hd val = 34 then val.drop 1 else val)

/-- Truncation to a 32-bit `int` (two's complement wrap-around). -/
def wrap32 (x : Int) : Int := (x + 2147483648) % 4294967296 - 2147483648

/-- The digit loop `num = num * 10.0 + (c - '0')`: the accumulated value, the number of
digits read and the position after them. -/
def _js_parse_digits : List Nat → Dbl → Nat → Dbl × Nat × List Nat
  | [], num, n => (num, n, [])
  | c :: value, num, n =>
    if 48 ≤ c ∧ c ≤ 57 then
      _js_parse_digits value (Dbl.add (Dbl.mul num (Dbl.ofInt 10)) (Dbl.ofInt (c - 48))) (n + 1)
    else (num, n, c :: value)

/-- The exponent loop `subscale = subscale * 10 + (c - '0')` on `int`. -/
def _js_parse_subscale : List Nat → Int → Int × List Nat
  | [], subscale => (subscale, [])
  | c :: value, subscale =>
    if 48 ≤ c ∧ c ≤ 57 then _js_parse_subscale value (wrap32 (subscale * 10 + (c - 48)))
    else (subscale, c :: value)

/-- The integer part of `_js_parse_number`: an optional `0`, then the digit loop when
a digit `1`..`9` follows. -/
def _js_number_int (value : List Nat) : Dbl × List Nat :=
  let v := if hd value = 48 then value.drop 1 else value
  if 49 ≤ hd v ∧ hd v ≤ 57 then
    ((_js_parse_digits v (Dbl.fin false 0 0) 0).1, (_js_parse_digits v (Dbl.fin false 0 0) 0).2.2)
  else (Dbl.fin false 0 0, v)

/-- The fraction part of `_js_parse_number`: a point followed by a digit starts the
digit loop, which also counts the digits (`scale--`). -/
def _js_number_frac (num : Dbl) (value : List Nat) : Dbl × Nat × List Nat :=
  if hd value = 46 ∧ 48 ≤ hd (value.drop 1) ∧ hd (value.drop 1) ≤ 57 then
    _js_parse_digits (value.drop 1) num 0
  else (num, 0, value)

/-- The exponent part of `_js_parse_number`: the product `subscale * signsubscale` and
the position after the exponent. -/
def _js_number_exp (value : List Nat) : Int × List Nat :=
  if hd value = 101 ∨ hd value = 69 then
    let v := value.drop 1
    let signsubscale : Int := if hd v = 43 then 1 else if hd v = 45 then -1 else 1
    let r := _js_parse_subscale (if hd v = 43 ∨ hd v = 45 then v.drop 1 else v) 0
    (wrap32 (r.1 * signsubscale), r.2)
  else (0, value)

/-- Model of `_js_parse_number`.  `scale` counts the fraction digits downward; it and
the exponent are small integers, held exactly by their C types. -/
def _js_parse_number (value : List Nat) : jsObject × List Nat :=
  let sign : Dbl := if hd value = 45 then Dbl.fin true 1 0 else Dbl.fin false 1 0
  let r1 := _js_number_int (if hd value = 45 then value.drop 1 else value)
  let r2 := _js_number_frac r1.1 r1.2
  let r3 := _js_number_exp r2.2.2
  let scale : Int := -(r2.2.1 : Int)
  let num := Dbl.mul (Dbl.mul sign r2.1) (Dbl.pow10 (scale + r3.1))
  (if scale = 0 then _js_object_set_number num 0 else _js_object_set_number num 1, r3.2)

/-- The outcome of a sub-parser: the value and the position after it, or a failure with
the position written to `pos[0]` (`none` when the failing path does not write it). -/
inductive jsParse where
  | ok (obj : jsObject) (rest : List Nat)
  | fail (pos : Option (List Nat))

mutual

/-- Model of `_js_parse_value`; the first argument bounds the recursion (`none` when it
is exhausted). -/
def _js_parse_value : Nat → List Nat → Option jsParse
  | 0, _ => none
  | fuel + 1, value =>
    if startsWith value [110, 117, 108, 108] then
      some (jsParse.ok _js_object_set_null (value.drop 4))
    else if startsWith value [102, 97, 108, 115, 101] then
      some (jsParse.ok (_js_object_set_bool JS_FALSE) (value.drop 5))
    else if startsWith value [116, 114, 117, 101] then
      some (jsParse.ok (_js_object_set_bool JS_TRUE) (value.drop 4))
    else if hd value = 34 then
      some (jsParse.ok (_js_parse_string value).1 (_js_parse_string value).2)
    else if hd value = 45 ∨ (48 ≤ hd value ∧ hd value ≤ 57) then
      some (jsParse.ok (_js_parse_number value).1 (_js_parse_number value).2)
    else if hd value = 91 then _js_parse_array fuel value
    else if hd value = 123 then _js_parse_object fuel value
    else some (jsParse.fail (some value))

/-- Model of `_js_parse_array` up to its first element. -/
def _js_parse_array : Nat → List Nat → Option jsParse
  | 0, _ => none
  | fuel + 1, value =>
    if hd (_js_skip (value.drop 1)) = 93 then
      some (jsParse.ok (_js_object_set_array ls_create) ((_js_skip (value.drop 1)).drop 1))
    else
      match _js_parse_value fuel (_js_skip (_js_skip (value.drop 1))) with
      | none => none
      | some (jsParse.fail pos) => some (jsParse.fail pos)
      | some (jsParse.ok sub rest) =>
        _js_parse_array_loop fuel (ls_add_tail ls_create sub) (_js_skip rest)

/-- The loop `while( ',' == value[0] )` of `_js_parse_array` and its exit. -/
def _js_parse_array_loop : Nat → lsHandle jsObject → List Nat → Option jsParse
  | 0, _, _ => none
  | fuel + 1, ls, value =>
    if hd value = 44 then
      match _js_parse_value fuel (_js_skip (value.drop 1)) with
      | none => none
      | some (jsParse.fail pos) => some (jsParse.fail pos)
      | some (jsParse.ok sub rest) =>
        _js_parse_array_loop fuel (ls_add_tail ls sub) (_js_skip rest)
    else if hd value = 93 then some (jsParse.ok (_js_object_set_array ls) (value.drop 1))
    else some (jsParse.fail (some value))

/-- Model of `_js_parse_object` up to its first member. -/
def _js_parse_object : Nat → List Nat → Option jsParse
  | 0, _ => none
  | fuel + 1, value =>
    if hd (_js_skip (value.drop 1)) = 125 then
      some (jsParse.ok (_js_object_set_object ht_create) ((_js_skip (value.drop 1)).drop 1))
    else _js_parse_object_member fuel ht_create (_js_skip (_js_skip (value.drop 1)))

/-- One member of `_js_parse_object`: the name, its insertion, the colon and the value.
The entry is inserted before the value is parsed and holds a pointer to it; the model
checks the insertion first and stores the parsed value. -/
def _js_parse_object_member : Nat → jsTable → List Nat → Option jsParse
  | 0, _, _ => none
  | fuel + 1, ht, value =>
    match _js_parse_name value with
    | Except.error pos => some (jsParse.fail (some pos))
    | Except.ok (name, rest) =>
      if (_js_object_add_object ht name jsObject.null).1 = 0 then some (jsParse.fail none)
      else if hd (_js_skip rest) ≠ 58 then some (jsParse.fail (some (_js_skip rest)))
      else
        match _js_parse_value fuel (_js_skip ((_js_skip rest).drop 1)) with
        | none => none
        | some (jsParse.fail pos) => some (jsParse.fail pos)
        | some (jsParse.ok sub rest1) =>
          _js_parse_object_loop fuel (_js_object_add_object ht name sub).2 (_js_skip rest1)

/-- The loop `while( ',' == value[0] )` of `_js_parse_object` and its exit. -/
def _js_parse_object_loop : Nat → jsTable → List Nat → Option jsParse
  | 0, _, _ => none
  | fuel + 1, ht, value =>
    if hd value = 44 then _js_parse_object_member fuel ht (_js_skip (value.drop 1))
    else if hd value = 125 then some (jsParse.ok (_js_object_set_object ht) (value.drop 1))
    else some (jsParse.fail (some value))

end

/-! ## The document handle and the API -/

/-- A `jsHandle`: `err` is the failure position as an offset into the parsed text. -/
structure jsHandle where
  err : Option Nat
  obj : Option jsObject

def _js_reset : jsHandle := ⟨none, none⟩

def js_create : jsHandle := _js_reset

/-- The test `JS_OBJECT == obj->type`. -/
def jsObject.isObject : jsObject → Bool
  | jsObject.object _ => true
  | _ => false

def _js_parse (js : jsHandle) (str : List Nat) : Int × jsHandle :=
  match _js_parse_value (2 * str.length + 1) (_js_skip str) with
  | some (jsParse.ok obj _) =>
    if obj.isObject then (JS_TRUE, { js with obj := some obj }) else (JS_ERR, js)
  | some (jsParse.fail (some pos)) => (JS_ERR, { js with err := some (str.length - pos.length) })
  | some (jsParse.fail none) => (JS_ERR, js)
  | none => (JS_ERR, js)

def js_parse (js : jsHandle) (str : List Nat) : Int × jsHandle := _js_parse js str

/-- The loop of `_js_replace` over the entries of `rep`, bounded by fuel: the entry of
`obj` with the same key is deleted, the pair is added to `obj`, and both slots of the
entry of `rep` are set to null.  `none` is an undefined `ht_delete`. -/
def _js_replace_loop : Nat → jsTable → jsTable → htIterator → Option (jsTable × jsTable)
  | 0, obj, rep, _ => some (obj, rep)
  | fuel + 1, obj, rep, rhi =>
    match ht_next rep rhi with
    | (none, _) => some (obj, rep)
    | (some rhe, rhi1) =>
      match ht_entry rep rhe with
      | none => none
      | some e =>
        let deleted : Option jsTable :=
          match ht_find htTypeJson obj e.key with
          | some he => ht_delete htTypeJson obj he
          | none => some obj
        match deleted with
        | none => none
        | some obj1 =>
          _js_replace_loop fuel (ht_add htTypeJson obj1 e.key e.val).2
            (ht_set_val (ht_set_key rep rhe none) rhe none) rhi1

/-- The number of entries stored in the chains of a table. -/
def ht_count {K V : Type} (ht : htHandle K V) : Nat := (ht.table.map List.length).sum

/-- Model of `_js_replace` on two Objects (other values have no table to merge). -/
def _js_replace (obj rep : jsObject) : Option (Int × jsObject × jsObject) :=
  match obj, rep with
  | jsObject.object d, jsObject.object s =>
    (_js_replace_loop (ht_count s + 1) d s (ht_create_iterator s)).map
      (fun r => (JS_OK, jsObject.object r.1, jsObject.object r.2))
  | _, _ => none

def js_replace (obj rep : jsObject) : Option (Int × jsObject × jsObject) := _js_replace obj rep

/-! ## Observations used in the statements -/

/-- The root a fresh document holds after parsing `str`. -/
def js_root (str : List Nat) : Option jsObject := (js_parse js_create str).2.obj

/-- The text `js_print` returns. -/
def js_print_text (obj : jsObject) : Option (List Nat) := (js_print obj).map (fun r => r.2.1)

/-- The tree `js_print` leaves behind. -/
def js_print_tree (obj : jsObject) : Option jsObject := (js_print obj).map (fun r => r.1)

/-- The double `d` has the sign `neg` and the magnitude `k`, a natural number. -/
def Dbl.Repr (d : Dbl) (neg : Bool) (k : Nat) : Prop :=
  ∃ m e, d = Dbl.fin neg m e ∧ Dbl.num m e = k * Dbl.den e

/-- The byte is an ASCII digit. -/
def isDigit (c : Nat) : Prop := 48 ≤ c ∧ c ≤ 57

instance (c : Nat) : Decidable (isDigit c) := by unfold isDigit; infer_instance

/-- The number a digit string denotes after the digits already read as `a`. -/
def digitsVal (a : Nat) (ds : List Nat) : Nat := ds.foldl (fun x c => x * 10 + (c - 48)) a

/-- The byte cannot continue a number literal. -/
def endsNumber (c : Nat) : Prop := ¬ isDigit c ∧ c ≠ 46 ∧ c ≠ 101 ∧ c ≠ 69

instance (c : Nat) : Decidable (endsNumber c) := by unfold endsNumber; infer_instance

/-- A number literal of the JSON grammar: an optional minus sign, the integer digits,
the fraction digits (empty when the literal has no decimal point) and the optional
exponent part (its marker `e` or `E`, its sign bytes and its digits). -/
structure jsNumberLit where
  minus : Bool
  int : List Nat
  frac : List Nat
  exp : Option (Nat × List Nat × List Nat)

/-- The bytes of the exponent part. -/
def jsNumberLit.expText : Option (Nat × List Nat × List Nat) → List Nat
  | none => []
  | some (m, sg, ds) => m :: (sg ++ ds)

/-- The bytes of a number literal. -/
def jsNumberLit.text (l : jsNumberLit) : List Nat :=
  (if l.minus then [45] else []) ++ (l.int ++ ((if l.frac = [] then [] else 46 :: l.frac)
    ++ jsNumberLit.expText l.exp))

/-- The exponent part is well formed: marker, optional sign, at least one digit. -/
def jsNumberLit.expWf : Option (Nat × List Nat × List Nat) → Prop
  | none => True
  | some (m, sg, ds) =>
    (m = 101 ∨ m = 69) ∧ (sg = [] ∨ sg = [43] ∨ sg = [45]) ∧ ds ≠ [] ∧ ∀ c ∈ ds, isDigit c

/-- The literal follows the grammar: the integer part is `0` or starts with `1`..`9`. -/
def jsNumberLit.wf (l : jsNumberLit) : Prop :=
  (l.int = [48] ∨ (l.int ≠ [] ∧ 49 ≤ hd l.int ∧ ∀ c ∈ l.int, isDigit c))
  ∧ (∀ c ∈ l.frac, isDigit c) ∧ jsNumberLit.expWf l.exp

/-- The value holds the floating-point payload (`idouble` set). -/
def jsObject.isDouble : jsObject → Bool
  | jsObject.number_d64 _ => true
  | _ => false

/-- The value holds the integer payload of a Number (`idouble` clear). -/
def jsObject.isInteger : jsObject → Bool
  | jsObject.number_l64 _ => true
  | _ => false

/-! ## Abstract views of a table, used in the statements -/

section ht_views
variable {K V : Type}

/-- The entries of a table in iteration order: bucket by bucket, each chain from its
head. -/
def ht_toList (ht : htHandle K V) : List (htEntry K V) := ht.table.flatten

/-- The keys of a table in iteration order. -/
def ht_keys (ht : htHandle K V) : List K := (ht_toList ht).map (fun e => e.key)

/-- The value stored for `key`: `ht_find` followed by `ht_get_val`. -/
def ht_lookup (type : htType K) (ht : htHandle K V) (key : K) : Option V :=
  (ht_find type ht key).bind (fun he => (ht_entry ht he).map (fun e => e.val))

/-- `key_compare` answers non-zero exactly on equal keys, for the keys in `good`. -/
def htType.lawful (type : htType K) (good : K → Prop) : Prop :=
  ∀ a b, good a → good b → (type.key_compare a b ≠ 0 ↔ a = b)

/-- The shape of a table: as many buckets as `size` says, a size that is 0 or a power of
two from 4 to 2^30, `mask = size - 1`, `used` equal to the number of stored entries, and
every entry in the chain of the bucket `hash(key) & mask`. -/
structure ht_inv (type : htType K) (ht : htHandle K V) : Prop where
  len : ht.table.length = ht.size
  size : ht.size = 0 ∨ ∃ k, 2 ≤ k ∧ k ≤ 30 ∧ ht.size = 2 ^ k
  mask : ht.mask = ht.size - 1
  used : ht.used = ht_count ht
  bucket : ∀ i e, e ∈ ht.table.getD i [] → type.hash_function e.key &&& ht.mask = i

/-- A well-formed table: the shape invariant, at most `size` entries, keys in `good` and
pairwise distinct. -/
structure ht_wf (type : htType K) (good : K → Prop) (ht : htHandle K V) : Prop where
  inv : ht_inv type ht
  le : ht.used ≤ ht.size
  good : ∀ e ∈ ht_toList ht, good e.key
  nodup : (ht_keys ht).Nodup

end ht_views

/-- A member name that is present (not the null pointer). -/
def jsKeyGood (key : jsKey) : Prop := key ≠ none

/-! ## Iteration order and the merge as a fold, used in the proofs -/

/-- The pointers to the entries of the chains `t`, the first of which is bucket `i`, in
iteration order. -/
def ht_refs_aux {α : Type} : List (List α) → Nat → List htEntryRef
  | [], _ => []
  | chain :: rest, i =>
    (List.range chain.length).map (fun p => (⟨i, p⟩ : htEntryRef)) ++ ht_refs_aux rest (i + 1)

/-- The pointers to all entries of a table in iteration order. -/
def ht_refs {K V : Type} (ht : htHandle K V) : List htEntryRef := ht_refs_aux ht.table 0

/-- The pointers an iterator has still to return: the rest of the current chain and the
chains of the buckets after `index`. -/
def ht_remaining {K V : Type} (ht : htHandle K V) (it : htIterator) : List htEntryRef :=
  (match it.next with
    | some r =>
      (List.range' r.pos ((ht.table.getD r.index []).length - r.pos)).map
        (fun p => (⟨r.index, p⟩ : htEntryRef))
    | none => [])
  ++ ht_refs_aux (ht.table.drop (it.index + 1)) (it.index + 1)

/-- The iterator points into the chain of its current bucket. -/
def ht_iter_ok {K V : Type} (ht : htHandle K V) (it : htIterator) : Prop :=
  ∀ r, it.next = some r → r.index = it.index ∧ r.pos < (ht.table.getD r.index []).length

/-- One round of the loop of `_js_replace` on the destination: delete the entry with the
same key, then add the pair. -/
def js_replace_step (obj : jsTable) (e : jsEntry) : Option jsTable :=
  (match ht_find htTypeJson obj e.key with
    | some he => ht_delete htTypeJson obj he
    | none => some obj).map (fun obj1 => (ht_add htTypeJson obj1 e.key e.val).2)

/-- The rounds of `_js_replace` for a list of source entries. -/
def js_replace_fold : jsTable → List jsEntry → Option jsTable
  | obj, [] => some obj
  | obj, e :: es => (js_replace_step obj e).bind (fun o => js_replace_fold o es)

/-- The source after the slots of the entries `rs` were set to null. -/
def js_null_slots (rep : jsTable) (rs : List htEntryRef) : jsTable :=
  rs.foldl (fun s r => ht_set_val (ht_set_key s r none) r none) rep

/-- The keys and values a table still owns: the non-null pointers that `_ht_clear` would
hand to `free` through `_js_hash_key_free` and `_js_hash_val_free`. -/
def js_table_owned (ht : jsTable) : List (List Nat) × List jsObject :=
  ((ht_toList ht).filterMap (fun e => e.key), (ht_toList ht).filterMap (fun e => e.val))

/-- The table of the Object parsed from `{"a":0,"c":3}`. -/
def js_example_dst : jsTable :=
  ⟨[[], [⟨some [99], some (jsObject.number_l64 3)⟩], [],
    [⟨some [97], some (jsObject.number_l64 0)⟩]], 4, 3, 2⟩

/-- The table of the Object parsed from `{"a":1,"b":2}`. -/
def js_example_src : jsTable :=
  ⟨[[], [], [],
    [⟨some [98], some (jsObject.number_l64 2)⟩, ⟨some [97], some (jsObject.number_l64 1)⟩]],
    4, 3, 2⟩

/-! ## Trees that print and parse back unchanged -/

/-- A string the printer writes and the parser reads back byte for byte: no zero byte,
no `%`, and no control byte other than backspace, tab, line feed, form feed and carriage
return. -/
def jsStrPlain (s : List Nat) : Prop :=
  ∀ c ∈ s, c ≠ 37 ∧ (31 < c ∨ c = 8 ∨ c = 9 ∨ c = 10 ∨ c = 12 ∨ c = 13)

/-- The text `_js_object_number_print` writes for a floating-point payload: the `%e`
conversion below 1e-6 and above 1e9, else the `%lf` conversion, cut to the buffer of 128
bytes and trimmed. -/
def jsDblText (d : Dbl) : List Nat :=
  if Dbl.absLt d (Dbl.pow10 (-6)) ∨ Dbl.absLt (Dbl.pow10 9) d then Dbl.fmt_e d
  else cstr (_js_number_trim ((Dbl.fmt_lf d).take 126))

/-- The floating-point payloads whose printed text is stable: the finite values that are
printed in fixed notation, of a magnitude from 1e-6 to 1e9, and zero. -/
def jsDblSteady : Dbl → Prop
  | Dbl.fin neg m e =>
    m = 0 ∨ (Dbl.absLt (Dbl.fin neg m e) (Dbl.pow10 (-6)) = false
      ∧ Dbl.absLt (Dbl.pow10 9) (Dbl.fin neg m e) = false)
  | _ => False

/-- The payload the number parser reads from the printed text of `d`. -/
def jsDblReread (d : Dbl) : Dbl :=
  match (_js_parse_number (jsDblText d)).1 with
  | jsObject.number_d64 x => x
  | _ => d

/-- A table in the shape parsing gives it: well-formed, fewer than 2^30 entries, the
size that the insertions of its entries into a fresh table lead to (0 when empty, else
`_ht_next_power(used)`), and no bucket shared by two names. -/
def jsTablePlain (ht : jsTable) : Prop :=
  ht_wf htTypeJson jsKeyGood ht ∧ ht.used < 2 ^ 30
  ∧ ht.size = (if ht.used = 0 then 0 else _ht_next_power ht.used)
  ∧ ∀ chain ∈ ht.table, chain.length ≤ 1

mutual

/-- The trees of the round trip: Null, Boolean payloads 0 and 1, integers of magnitude
at most 2^53, plain strings and names, arrays whose `len` is their node count, Objects
with plain tables whose entries hold a name and a value, and no double. -/
def jsObject.plain : jsObject → Prop
  | jsObject.null => True
  | jsObject.boolean l64 => l64 = 0 ∨ l64 = 1
  | jsObject.number_l64 l64 => l64.natAbs ≤ 2 ^ 53
  | jsObject.number_d64 _ => False
  | jsObject.string val => jsStrPlain val
  | jsObject.array ⟨nodes, len⟩ => len = nodes.length ∧ jsNodesPlain nodes
  | jsObject.object ⟨table, size, mask, used⟩ =>
    jsTablePlain ⟨table, size, mask, used⟩ ∧ jsChainsPlain table

def jsNodesPlain : List jsObject → Prop
  | [] => True
  | obj :: rest => obj.plain ∧ jsNodesPlain rest

def jsChainsPlain : List (List jsEntry) → Prop
  | [] => True
  | chain :: rest => jsChainPlain chain ∧ jsChainsPlain rest

def jsChainPlain : List jsEntry → Prop
  | [] => True
  | ⟨some key, some obj⟩ :: next => jsStrPlain key ∧ obj.plain ∧ jsChainPlain next
  | ⟨some _, none⟩ :: _ => False
  | ⟨none, _⟩ :: _ => False

end

mutual

/-- The text the printers append for a tree whose strings and member names are plain. -/
def jsObject.text : jsObject → List Nat
  | jsObject.null => [110, 117, 108, 108]
  | jsObject.boolean l64 => if l64 ≠ 0 then [116, 114, 117, 101] else [102, 97, 108, 115, 101]
  | jsObject.number_l64 l64 => fmt_ld l64
  | jsObject.number_d64 d64 => jsDblText d64
  | jsObject.string val => 34 :: _js_object_string_escape_out val ++ [34]
  | jsObject.array ⟨nodes, _⟩ => 91 :: (jsNodesText nodes).drop 1 ++ [93]
  | jsObject.object ⟨table, _, _, _⟩ => 123 :: (jsChainsText table).drop 1 ++ [125]

/-- The elements of an array, each after a comma. -/
def jsNodesText : List jsObject → List Nat
  | [] => []
  | obj :: rest => 44 :: obj.text ++ jsNodesText rest

def jsChainsText : List (List jsEntry) → List Nat
  | [] => []
  | chain :: rest => jsChainText chain ++ jsChainsText rest

/-- The members of a chain, each after a comma. -/
def jsChainText : List jsEntry → List Nat
  | [] => []
  | ⟨some key, some obj⟩ :: next =>
    44 :: 34 :: _js_object_string_escape_out key ++ 34 :: 58 :: obj.text ++ jsChainText next
  | ⟨some key, none⟩ :: next =>
    44 :: 34 :: _js_object_string_escape_out key ++ 34 :: 58 :: jsChainText next
  | ⟨none, _⟩ :: _ => []

end

mutual

/-- The trees whose printed text is stable under parsing and printing again: the plain
trees, and in addition floating-point payloads that are zero or finite and printed in
fixed notation (a magnitude from 1e-6 to 1e9). -/
def jsObject.steady : jsObject → Prop
  | jsObject.null => True
  | jsObject.boolean l64 => l64 = 0 ∨ l64 = 1
  | jsObject.number_l64 l64 => l64.natAbs ≤ 2 ^ 53
  | jsObject.number_d64 d64 => jsDblSteady d64
  | jsObject.string val => jsStrPlain val
  | jsObject.array ⟨nodes, len⟩ => len = nodes.length ∧ jsNodesSteady nodes
  | jsObject.object ⟨table, size, mask, used⟩ =>
    jsTablePlain ⟨table, size, mask, used⟩ ∧ jsChainsSteady table

def jsNodesSteady : List jsObject → Prop
  | [] => True
  | obj :: rest => obj.steady ∧ jsNodesSteady rest

def jsChainsSteady : List (List jsEntry) → Prop
  | [] => True
  | chain :: rest => jsChainSteady chain ∧ jsChainsSteady rest

def jsChainSteady : List jsEntry → Prop
  | [] => True
  | ⟨some key, some obj⟩ :: next => jsStrPlain key ∧ obj.steady ∧ jsChainSteady next
  | ⟨some _, none⟩ :: _ => False
  | ⟨none, _⟩ :: _ => False

end

mutual

/-- The tree with each floating-point payload replaced by the one the number parser reads
from its printed text; everything else, the order of the arrays and the layout of the
tables included, is kept. -/
def jsObject.reread : jsObject → jsObject
  | jsObject.null => jsObject.null
  | jsObject.boolean l64 => jsObject.boolean l64
  | jsObject.number_l64 l64 => jsObject.number_l64 l64
  | jsObject.number_d64 d64 => jsObject.number_d64 (jsDblReread d64)
  | jsObject.string val => jsObject.string val
  | jsObject.array ⟨nodes, len⟩ => jsObject.array ⟨jsNodesReread nodes, len⟩
  | jsObject.object ⟨table, size, mask, used⟩ =>
    jsObject.object ⟨jsChainsReread table, size, mask, used⟩

def jsNodesReread : List jsObject → List jsObject
  | [] => []
  | obj :: rest => obj.reread :: jsNodesReread rest

def jsChainsReread : List (List jsEntry) → List (List jsEntry)
  | [] => []
  | chain :: rest => jsChainReread chain :: jsChainsReread rest

def jsChainReread : List jsEntry → List jsEntry
  | [] => []
  | ⟨key, some obj⟩ :: next => ⟨key, some obj.reread⟩ :: jsChainReread next
  | ⟨key, none⟩ :: next => ⟨key, none⟩ :: jsChainReread next

end

/-- The insertions `_js_parse_object` makes for the members `es` in turn: each name is
first added with the pending value, and the parse fails when the Map refuses it. -/
def js_add_members : jsTable → List jsEntry → Option jsTable
  | ht, [] => some ht
  | ht, ⟨some name, some sub⟩ :: es =>
    if (_js_object_add_object ht name jsObject.null).1 = 0 then none
    else js_add_members (_js_object_add_object ht name sub).2 es
  | _, _ :: _ => none

/-- The tree of the round-trip example, parsed from
`{"a":[true,"x\"y",-12],"c":{"k":null}}`. -/
def js_example_tree : jsObject :=
  jsObject.object ⟨[[],
    [⟨some [99], some (jsObject.object
      ⟨[[], [], [⟨some [107], some jsObject.null⟩], []], 4, 3, 1⟩)⟩],
    [],
    [⟨some [97], some (jsObject.array
      ⟨[jsObject.boolean 1, jsObject.string [120, 34, 121], jsObject.number_l64 (-12)], 3⟩)⟩]],
    4, 3, 2⟩

/-- The buffer `q` is the buffer `p` with the text `t` appended. -/
def jsBufferAppended (p : jsBuffer) (t : List Nat) (q : jsBuffer) : Prop :=
  q.buf = p.buf ++ t ∧ q.len = p.len + t.length

/-! ## The growable buffer of `pb.c` (`pbHandle`)

The handle is modelled with its allocation: the header fields `len` and `free` and the
bytes of `buf[]`, `len + free + 1` of them in every buffer the library builds.  A byte
that `realloc` has added and nothing has written yet is indeterminate (`none`).  Sizes
are natural numbers; the C code computes them in `int`. -/

structure pbHandle where
  len : Nat
  free : Nat
  buf : List (Option Nat)

/-- The first `n` bytes read from `src`; a byte past the end of `src` is indeterminate. -/
def pb_read (src : List Nat) (n : Nat) : List (Option Nat) :=
  (List.range n).map (fun i => src.get? i)

/-- Model of `memcpy(dst + off, src, n)` inside the allocation `dst` (a copy that does
not fit is outside the model and leaves `dst` as it is). -/
def pb_memcpy (dst : List (Option Nat)) (off : Nat) (src : List Nat) (n : Nat) :
    List (Option Nat) :=
  if off + n ≤ dst.length then dst.take off ++ pb_read src n ++ dst.drop (off + n) else dst

/-- Model of `realloc` to `n` bytes: the old bytes are kept, new ones are indeterminate. -/
def pb_realloc (b : List (Option Nat)) (n : Nat) : List (Option Nat) :=
  b.take n ++ List.replicate (n - b.length) none

/-- Model of `pb_new` (`calloc` zero-fills the allocation). -/
def pb_new (size : Nat) : pbHandle := ⟨0, size, List.replicate (size + 1) (some 0)⟩

/-- Model of `pb_new_len`. -/
def pb_new_len (p : List Nat) (size : Nat) : pbHandle :=
  ⟨size, 0, (pb_memcpy (List.replicate (size + 1) (some 0)) 0 p size).set size (some 0)⟩

/-- Model of `pb_renew`. -/
def pb_renew (p : pbHandle) (size : Nat) : pbHandle :=
  if p.free < size then
    let buf_size := p.free + p.len
    let add_size := p.len + size
    let new_size := if buf_size * 2 > add_size + 8 then buf_size * 2 else add_size + 8
    { p with free := new_size - p.len, buf := pb_realloc p.buf (new_size + 1) }
  else p

def pb_size (p : pbHandle) : Nat := p.free + p.len

def pb_len (p : pbHandle) : Nat := p.len

/-- Model of `_pb_cat`: copy at `len`, move `len` bytes from `free` to `len`, terminate. -/
def _pb_cat (p : pbHandle) (buf : List Nat) (len : Nat) : pbHandle :=
  { len := p.len + len, free := p.free - len,
    buf := (pb_memcpy p.buf p.len buf len).set (p.len + len) (some 0) }

/-- Model of `pb_cat`. -/
def pb_cat (p : pbHandle) (buf : List Nat) (len : Nat) : pbHandle :=
  if len = 0 then p else _pb_cat (pb_renew p len) buf len

/-- The invariant of the buffers of `pb.c`: the allocation holds `len + free + 1` bytes
and the byte at index `len` is the terminator. -/
def pb_inv (p : pbHandle) : Prop :=
  p.buf.length = p.len + p.free + 1 ∧ p.buf.get? p.len = some (some 0)

/-- The logical content of a buffer: its first `len` bytes. -/
def pb_content (p : pbHandle) : List (Option Nat) := p.buf.take p.len

/-! ## The escape transforms as the specification words them -/

/-- The escape transform E in the words of the specification: the quote, the backslash
and the bytes 0x08, 0x0C, 0x0A, 0x0D, 0x09 become two-character forms, every other byte
is copied. -/
def jsEscapeSpec : List Nat → List Nat
  | [] => []
  | c :: s =>
    (if c = 34 then [92, 34] else if c = 92 then [92, 92] else if c = 8 then [92, 98]
      else if c = 12 then [92, 102] else if c = 10 then [92, 110]
      else if c = 13 then [92, 114] else if c = 9 then [92, 116] else [c])
    ++ jsEscapeSpec s

/-- An item of a string body in a JSON text: a byte that stands for itself, or a
backslash followed by the byte `x`. -/
inductive jsStrItem where
  | raw (c : Nat)
  | esc (x : Nat)

/-- The bytes of an item in the text. -/
def jsStrItem.text : jsStrItem → List Nat
  | jsStrItem.raw c => [c]
  | jsStrItem.esc x => [92, x]

/-- An item inside a string body: a raw byte is no quote, terminator or backslash, and
the byte after a backslash is no terminator. -/
def jsStrItem.wf : jsStrItem → Prop
  | jsStrItem.raw c => c ≠ 34 ∧ c ≠ 0 ∧ c ≠ 92
  | jsStrItem.esc x => x ≠ 0

/-- The byte an item decodes to in the words of the specification: `\b \f \n \r \t`
give 0x08 0x0C 0x0A 0x0D 0x09, a backslash followed by any other byte gives that byte,
a raw byte gives itself. -/
def jsStrItem.decodedSpec : jsStrItem → Nat
  | jsStrItem.raw c => c
  | jsStrItem.esc x =>
    if x = 98 then 8 else if x = 102 then 12 else if x = 110 then 10
    else if x = 114 then 13 else if x = 116 then 9 else x

/-- The text of a string body. -/
def jsStrBody (items : List jsStrItem) : List Nat := (items.map jsStrItem.text).flatten

/-- The text at a position starts a value, by the tests of `_js_parse_value`: one of the
three literals, a quote, a minus sign, a digit, `[` or `{`. -/
def jsStartsValue (value : List Nat) : Prop :=
  startsWith value [110, 117, 108, 108] = true
  ∨ startsWith value [102, 97, 108, 115, 101] = true
  ∨ startsWith value [116, 114, 117, 101] = true
  ∨ hd value = 34 ∨ (hd value = 45 ∨ (48 ≤ hd value ∧ hd value ≤ 57))
  ∨ hd value = 91 ∨ hd value = 123

/-- The offset in `str` of the position `pos`, a pointer into `str`. -/
def jsOffset (str pos : List Nat) : Nat := str.length - pos.length

/-- A position inside a text that is followed by its terminator and the memory `b`: the
bytes `a` of the text still to read, none of them zero and the last one no backslash, and
behind them the terminator. -/
def jsInText (b pos : List Nat) : Prop :=
  ∃ a, pos = a ++ 0 :: b ∧ (∀ c ∈ a, c ≠ 0) ∧ a.getLast? ≠ some 92


/-! ## Values of doubles and the fixed notation -/

/-- The magnitude `m * 2^e` of a finite double as a rational number. -/
def Dbl.mag (m : Nat) (e : Int) : ℚ := (Dbl.num m e : ℚ) / (Dbl.den e : ℚ)

/-- The fraction digits of the fixed notation: trailing zeros removed, one digit kept. -/
def jsFracTrim (frac : List Nat) : List Nat :=
  let kept := ((frac.reverse).dropWhile (fun c => c = 48)).reverse
  if kept = [] then [48] else kept


/-- The bytes of a decimal literal without exponent part: an optional minus sign, the
integer part `I` written without leading zeros, the point and the fraction digits. -/
def jsFixedText (minus : Bool) (I : Nat) (frac : List Nat) : List Nat :=
  (if minus then [45] else []) ++ (decimal I ++ 46 :: frac)

/-- The magnitude of the decimal literal with the integer part `I` and the fraction
digits `frac`. -/
def jsFixedMag (I : Nat) (frac : List Nat) : ℚ :=
  (I : ℚ) + (digitsVal 0 frac : ℚ) / 10 ^ frac.length


/-- The whitespace skip in the words of the specification: the position of the first
byte that is not in the range 0x01 to 0x20, which is the first byte above 0x20 or the
end of the text (its terminator). -/
def jsSkipSpec (str : List Nat) : List Nat :=
  str.dropWhile (fun c => decide (1 ≤ c ∧ c ≤ 32))


/-- The loop `while( dec < --end )` of the trimming step of `_js_object_number_print` on
the text `num`, with the pointers as indices: the argument is `end` before the
decrement, the result is `end` when the loop is left (at `dec`, or at a byte that is not
`0`). -/
def _js_number_trim_loop (num : List Nat) (dec : Nat) : Nat → Nat
  | 0 => 0
  | e + 1 =>
    if dec < e then
      if num.getD e 0 ≠ 48 ∨ num.getD e 0 = 46 then e else _js_number_trim_loop num dec e
    else e

/-- The trimming step of `_js_object_number_print` with its pointers as indices: `dec` is
`strchr(num,'.')`, `end` starts at `num + strlen(num)`, and after the loop a `0` is
written behind a point, then the terminator. -/
def _js_number_trim_scan (num : List Nat) : List Nat :=
  let s := cstr num
  if 46 ∈ s then
    let dec := s.indexOf 46
    let e := _js_number_trim_loop s dec s.length
    if s.getD e 0 = 46 then s.take (e + 1) ++ [48] else s.take (e + 1)
  else s


/-! ## The parser with the failure slot passed along

`_js_parse` hands `&js->err` to `_js_parse_value` as `pos`, and every production passes
it on.  These definitions follow the slot through the productions: each assignment
`pos[0] = value` is a write, every other path leaves the slot as it is. -/

/-- The content of the failure slot during a call: still what it held before the call,
or the position the call has written. -/
inductive jsSlot where
  | kept
  | written (pos : List Nat)

/-- The outcome of a production with the slot: the pointer it returns (`none` for NULL,
else the value built and the position after it) and the slot after the call. -/
abbrev jsSlotResult := Option (jsObject × List Nat) × jsSlot

mutual

/-- Model of `_js_parse_value` with the slot `pos`. -/
def _js_parse_value_slot : Nat → List Nat → jsSlot → Option jsSlotResult
  | 0, _, _ => none
  | fuel + 1, value, pos =>
    if startsWith value [110, 117, 108, 108] then
      some (some (_js_object_set_null, value.drop 4), pos)
    else if startsWith value [102, 97, 108, 115, 101] then
      some (some (_js_object_set_bool JS_FALSE, value.drop 5), pos)
    else if startsWith value [116, 114, 117, 101] then
      some (some (_js_object_set_bool JS_TRUE, value.drop 4), pos)
    else if hd value = 34 then
      some (some ((_js_parse_string value).1, (_js_parse_string value).2), pos)
    else if hd value = 45 ∨ (48 ≤ hd value ∧ hd value ≤ 57) then
      some (some ((_js_parse_number value).1, (_js_parse_number value).2), pos)
    else if hd value = 91 then _js_parse_array_slot fuel value pos
    else if hd value = 123 then _js_parse_object_slot fuel value pos
    else some (none, jsSlot.written value)

/-- Model of `_js_parse_array` up to its first element, with the slot. -/
def _js_parse_array_slot : Nat → List Nat → jsSlot → Option jsSlotResult
  | 0, _, _ => none
  | fuel + 1, value, pos =>
    if hd (_js_skip (value.drop 1)) = 93 then
      some (some (_js_object_set_array ls_create, (_js_skip (value.drop 1)).drop 1), pos)
    else
      match _js_parse_value_slot fuel (_js_skip (_js_skip (value.drop 1))) pos with
      | none => none
      | some (none, pos1) => some (none, pos1)
      | some (some (sub, rest), pos1) =>
        _js_parse_array_loop_slot fuel (ls_add_tail ls_create sub) (_js_skip rest) pos1

/-- The loop of `_js_parse_array` and its exit, with the slot. -/
def _js_parse_array_loop_slot : Nat → lsHandle jsObject → List Nat → jsSlot →
    Option jsSlotResult
  | 0, _, _, _ => none
  | fuel + 1, ls, value, pos =>
    if hd value = 44 then
      match _js_parse_value_slot fuel (_js_skip (value.drop 1)) pos with
      | none => none
      | some (none, pos1) => some (none, pos1)
      | some (some (sub, rest), pos1) =>
        _js_parse_array_loop_slot fuel (ls_add_tail ls sub) (_js_skip rest) pos1
    else if hd value = 93 then some (some (_js_object_set_array ls, value.drop 1), pos)
    else some (none, jsSlot.written value)

/-- Model of `_js_parse_object` up to its first member, with the slot. -/
def _js_parse_object_slot : Nat → List Nat → jsSlot → Option jsSlotResult
  | 0, _, _ => none
  | fuel + 1, value, pos =>
    if hd (_js_skip (value.drop 1)) = 125 then
      some (some (_js_object_set_object ht_create, (_js_skip (value.drop 1)).drop 1), pos)
    else _js_parse_object_member_slot fuel ht_create (_js_skip (_js_skip (value.drop 1))) pos

/-- One member of `_js_parse_object`, with the slot: `_js_parse_name` writes it when the
name does not start with a quote, a refused insertion does not, a missing colon does. -/
def _js_parse_object_member_slot : Nat → jsTable → List Nat → jsSlot → Option jsSlotResult
  | 0, _, _, _ => none
  | fuel + 1, ht, value, pos =>
    match _js_parse_name value with
    | Except.error p => some (none, jsSlot.written p)
    | Except.ok (name, rest) =>
      if (_js_object_add_object ht name jsObject.null).1 = 0 then some (none, pos)
      else if hd (_js_skip rest) ≠ 58 then some (none, jsSlot.written (_js_skip rest))
      else
        match _js_parse_value_slot fuel (_js_skip ((_js_skip rest).drop 1)) pos with
        | none => none
        | some (none, pos1) => some (none, pos1)
        | some (some (sub, rest1), pos1) =>
          _js_parse_object_loop_slot fuel (_js_object_add_object ht name sub).2
            (_js_skip rest1) pos1

/-- The loop of `_js_parse_object` and its exit, with the slot. -/
def _js_parse_object_loop_slot : Nat → jsTable → List Nat → jsSlot → Option jsSlotResult
  | 0, _, _, _ => none
  | fuel + 1, ht, value, pos =>
    if hd value = 44 then _js_parse_object_member_slot fuel ht (_js_skip (value.drop 1)) pos
    else if hd value = 125 then some (some (_js_object_set_object ht, value.drop 1), pos)
    else some (none, jsSlot.written value)

end

/-- The content of `js->err` after a call on the text `str`, as an offset. -/
def jsSlot.err (slot : jsSlot) (js : jsHandle) (str : List Nat) : Option Nat :=
  match slot with
  | jsSlot.kept => js.err
  | jsSlot.written pos => some (str.length - pos.length)

/-- Model of `_js_parse` with the slot `&js->err` handed to the value parser. -/
def _js_parse_slot (js : jsHandle) (str : List Nat) : Int × jsHandle :=
  match _js_parse_value_slot (2 * str.length + 1) (_js_skip str) jsSlot.kept with
  | some (some (obj, _), slot) =>
    if obj.isObject then (JS_TRUE, ⟨slot.err js str, some obj⟩)
    else (JS_ERR, ⟨slot.err js str, js.obj⟩)
  | some (none, slot) => (JS_ERR, ⟨slot.err js str, js.obj⟩)
  | none => (JS_ERR, js)

/-- The outcome of a production as the returned pointer and the slot after the call. -/
def jsParse.toSlot (r : jsParse) (pos : jsSlot) : jsSlotResult :=
  match r with
  | jsParse.ok obj rest => (some (obj, rest), pos)
  | jsParse.fail none => (none, pos)
  | jsParse.fail (some p) => (none, jsSlot.written p)


/-! ## Runs of calls on a table, used in the statements -/

section ht_runs
variable {K V : Type}

/-- Successive `ht_next` calls on an iterator, at most `fuel` of them: the pointers
returned before the first NULL. -/
def ht_next_all (ht : htHandle K V) : Nat → htIterator → List htEntryRef
  | 0, _ => []
  | fuel + 1, it =>
    match ht_next ht it with
    | (none, _) => []
    | (some he, it1) => he :: ht_next_all ht fuel it1

/-- Successive `ht_add` calls for a list of pairs: the return values and the table. -/
def ht_add_all [Inhabited V] (type : htType K) : htHandle K V → List (K × V) →
    List Int × htHandle K V
  | ht, [] => ([], ht)
  | ht, kv :: rest =>
    ((ht_add type ht kv.1 kv.2).1 :: (ht_add_all type (ht_add type ht kv.1 kv.2).2 rest).1,
      (ht_add_all type (ht_add type ht kv.1 kv.2).2 rest).2)

/-- Model of `ht_resize`: `int minimal = ht->used`, raised to `HT_INITIAL_SIZE`, handed to
`_ht_expand` as `unsigned int`. -/
def ht_resize (type : htType K) (ht : htHandle K V) : Int × htHandle K V :=
  let minimal : Int := wrap32 (ht.used : Int)
  let minimal1 : Int := if (HT_INITIAL_SIZE : Int) > minimal then (HT_INITIAL_SIZE : Int) else minimal
  _ht_expand type ht (minimal1 % 4294967296).toNat

/-- The tables reached from `ht_create` by calls of `ht_add` (on a table with fewer than
2^30 entries), `ht_delete` (of an entry stored in the table) and `ht_resize`. -/
inductive ht_reachable [Inhabited V] (type : htType K) : htHandle K V → Prop where
  | create : ht_reachable type ht_create
  | add (ht : htHandle K V) (key : K) (val : V) : ht_reachable type ht → ht.used < 2 ^ 30 →
      ht_reachable type (ht_add type ht key val).2
  | delete (ht ht1 : htHandle K V) (he : htEntryRef) (e : htEntry K V) :
      ht_reachable type ht → ht_entry ht he = some e → ht_delete type ht he = some ht1 →
      ht_reachable type ht1
  | resize (ht : htHandle K V) : ht_reachable type ht →
      ht_reachable type (ht_resize type ht).2

end ht_runs


/-! ## The doubly linked list of `ls.c` with its nodes in memory

The Arrays of the JSON model use the list of node values (`lsHandle`).  Here the nodes
are records with their `prev` and `next` pointers, a pointer is the address of a node in
`mem` (`none` for NULL), and `malloc` returns the next fresh address.  A result `none` of
an operation stands for a read or write through NULL or a dangling pointer. -/

/-- A node of the list (`lsNode`). -/
structure lsNode (V : Type) where
  prev : Option Nat
  next : Option Nat
  value : V

/-- The list handle (`lsHandle`) together with the memory that holds its nodes. -/
structure lsMem (V : Type) where
  mem : List (lsNode V)
  head : Option Nat
  tail : Option Nat
  len : Nat

structure lsIterator where
  next : Option Nat
  direction : Nat

def LS_START_HEAD : Nat := 0
def LS_START_TAIL : Nat := 1

namespace lsMem
variable {V : Type}

def _ls_reset : lsMem V := ⟨[], none, none, 0⟩

def ls_create : lsMem V := _ls_reset

/-- Model of `ls_add_head`. -/
def ls_add_head (ls : lsMem V) (val : V) : Option (lsMem V) :=
  let node := ls.mem.length
  if ls.len = 0 then
    some ⟨ls.mem ++ [⟨none, none, val⟩], some node, some node, (ls.len + 1) % 4294967296⟩
  else
    match ls.head with
    | none => none
    | some h =>
      match ls.mem[h]? with
      | none => none
      | some n =>
        some ⟨ls.mem.set h { n with prev := some node } ++ [⟨none, some h, val⟩],
          some node, ls.tail, (ls.len + 1) % 4294967296⟩

/-- Model of `ls_add_tail`. -/
def ls_add_tail (ls : lsMem V) (val : V) : Option (lsMem V) :=
  let node := ls.mem.length
  if ls.len = 0 then
    some ⟨ls.mem ++ [⟨none, none, val⟩], some node, some node, (ls.len + 1) % 4294967296⟩
  else
    match ls.tail with
    | none => none
    | some t =>
      match ls.mem[t]? with
      | none => none
      | some n =>
        some ⟨ls.mem.set t { n with next := some node } ++ [⟨some t, none, val⟩],
          ls.head, some node, (ls.len + 1) % 4294967296⟩

/-- The macro `ls_length`. -/
def ls_length (ls : lsMem V) : Nat := ls.len

/-- The macro `ls_value` on the node at address `a`. -/
def ls_value (ls : lsMem V) (a : Nat) : Option V := (ls.mem[a]?).map (fun n => n.value)

def ls_create_iterator (ls : lsMem V) (direction : Nat) : lsIterator :=
  ⟨if direction = LS_START_HEAD then ls.head else ls.tail, direction⟩

/-- Model of `ls_next`: the node returned (`none` for NULL) and the iterator after the
call. -/
def ls_next (ls : lsMem V) (iter : lsIterator) : Option (Option Nat × lsIterator) :=
  match iter.next with
  | none => some (none, iter)
  | some a =>
    (ls.mem[a]?).map (fun n =>
      (some a, ⟨if iter.direction = LS_START_HEAD then n.next else n.prev, iter.direction⟩))

/-- Successive `ls_next` calls, at most `fuel` of them: the values of the nodes returned
before the first NULL. -/
def ls_next_all (ls : lsMem V) : Nat → lsIterator → Option (List V)
  | 0, _ => some []
  | fuel + 1, iter =>
    match ls_next ls iter with
    | none => none
    | some (none, _) => some []
    | some (some a, iter1) =>
      match ls_value ls a, ls_next_all ls fuel iter1 with
      | some v, some vs => some (v :: vs)
      | _, _ => none

end lsMem

/-- A call that adds a value to a list. -/
inductive lsCall (V : Type) where
  | add_head (val : V)
  | add_tail (val : V)

/-- The value of a call that adds at the head. -/
def lsCall.headVal {V : Type} : lsCall V → Option V
  | lsCall.add_head v => some v
  | lsCall.add_tail _ => none

/-- The value of a call that adds at the tail. -/
def lsCall.tailVal {V : Type} : lsCall V → Option V
  | lsCall.add_head _ => none
  | lsCall.add_tail v => some v

/-- The value a call adds. -/
def lsCall.val {V : Type} : lsCall V → V
  | lsCall.add_head v => v
  | lsCall.add_tail v => v

/-- A sequence of calls on a list. -/
def ls_run {V : Type} : lsMem V → List (lsCall V) → Option (lsMem V)
  | ls, [] => some ls
  | ls, lsCall.add_head val :: calls => (lsMem.ls_add_head ls val).bind (fun l => ls_run l calls)
  | ls, lsCall.add_tail val :: calls => (lsMem.ls_add_tail ls val).bind (fun l => ls_run l calls)

/-- The order the specification gives for a sequence of calls: the values added at the
head in reverse order of addition, then the values added at the tail in order of
addition. -/
def lsOrderSpec {V : Type} (calls : List (lsCall V)) : List V :=
  (calls.filterMap lsCall.headVal).reverse ++ calls.filterMap lsCall.tailVal

/-- The memory holds the list: the node at `addrs[i]` has the value `vals[i]` and points
to its neighbours, `head` and `tail` are the ends, and `len` is the number of nodes. -/
def lsRepr {V : Type} (ls : lsMem V) (addrs : List Nat) (vals : List V) : Prop :=
  addrs.length = vals.length ∧ addrs.Nodup
  ∧ ls.head = addrs.head? ∧ ls.tail = addrs.getLast? ∧ ls.len = addrs.length
  ∧ ∀ i a, addrs[i]? = some a → ∃ v, vals[i]? = some v
      ∧ ls.mem[a]? = some (lsNode.mk (if i = 0 then none else addrs[i - 1]?) addrs[i + 1]? v)


/-! ## The reference definition of the serializer, per variant

The texts the specification gives for the containers, from the texts of their parts. -/

/-- An Array prints `[`, the prints of its elements joined by `,`, and `]`. -/
def jsArrayRef (ts : List (List Nat)) : List Nat := 91 :: List.intercalate [44] ts ++ [93]

/-- A member prints the quoted escaped key, a colon and the print of the value. -/
def jsMemberRef (key t : List Nat) : List Nat := 34 :: jsEscapeSpec key ++ 34 :: 58 :: t

/-- An Object prints `\x7b`, its members joined by `,`, and `\x7d`. -/
def jsObjectRef (ms : List (List Nat)) : List Nat := 123 :: List.intercalate [44] ms ++ [125]

/-- The entry `e` holds a name without `%` and without control bytes other than the five
escaped ones, and a value whose print is `t`; `m` is the member text for them. -/
def jsEntryPrints (e : jsEntry) (m : List Nat) : Prop :=
  ∃ key obj t, e = ⟨some key, some obj⟩ ∧ jsStrPlain key ∧ js_print_text obj = some t
    ∧ m = jsMemberRef key t

/-- The items `ts`, each after a comma, without the comma of the first item when `n`
items were printed before. -/
def jsSepText (n : Nat) (ts : List (List Nat)) : List Nat :=
  ((ts.map (fun t => 44 :: t)).flatten).drop (if n = 0 then 1 else 0)


/-! ## The escape routine of the serializer on every byte, as the specification words it -/

/-- The bytes the escape routine has to double: the quote, the backslash and the five
control bytes with a two-character form. -/
def jsEscapeDoubled (c : Nat) : Bool :=
  c = 34 || c = 92 || c = 8 || c = 12 || c = 10 || c = 13 || c = 9

/-- What the escape routine emits for one byte: the two-character form of a doubled byte,
`?` for every other byte below 0x20, the byte itself otherwise. -/
def jsEscapeByte (c : Nat) : List Nat :=
  if c = 34 then [92, 34] else if c = 92 then [92, 92] else if c = 8 then [92, 98]
  else if c = 12 then [92, 102] else if c = 10 then [92, 110]
  else if c = 13 then [92, 114] else if c = 9 then [92, 116]
  else if c < 32 then [63] else [c]


/-! ## The stack of `st.c` with its nodes in memory

As for the list of `ls.c`: a pointer is the address of a node in `mem` (`none` for NULL),
`malloc` returns the next fresh address, and a result `none` stands for a read or write
through NULL or a dangling pointer.  `st_pop` does not free the node it returns. -/

/-- A node of the stack (`stNode`). -/
structure stNode (V : Type) where
  prev : Option Nat
  next : Option Nat
  value : V

/-- The stack handle (`stHandle`) together with the memory that holds its nodes. -/
structure stMem (V : Type) where
  mem : List (stNode V)
  top : Option Nat
  len : Nat

structure stIterator where
  next : Option Nat

section st_model
variable {V : Type}

def _st_reset : stMem V := ⟨[], none, 0⟩

def st_create : stMem V := _st_reset

/-- Model of `st_push`. -/
def st_push (st : stMem V) (val : V) : Option (stMem V) :=
  let node := st.mem.length
  if st.len = 0 then
    some ⟨st.mem ++ [⟨none, none, val⟩], some node, (st.len + 1) % 4294967296⟩
  else
    match st.top with
    | none => none
    | some t =>
      match st.mem[t]? with
      | none => none
      | some n =>
        some ⟨st.mem.set t { n with prev := some node } ++ [⟨none, some t, val⟩],
          some node, (st.len + 1) % 4294967296⟩

/-- Model of `st_pop`: the node returned (`none` for NULL) and the stack after the
call. -/
def st_pop (st : stMem V) : Option (Option Nat × stMem V) :=
  match st.top with
  | none => some (none, st)
  | some a =>
    match st.mem[a]? with
    | none => none
    | some node =>
      let r1 : Option (List (stNode V) × Option Nat) :=
        match node.prev with
        | some p =>
          match st.mem[p]? with
          | none => none
          | some pn => some (st.mem.set p { pn with next := node.next }, st.top)
        | none => some (st.mem, node.next)
      match r1 with
      | none => none
      | some (mem1, top1) =>
        let r2 : Option (List (stNode V)) :=
          match node.next with
          | some n =>
            match mem1[n]? with
            | none => none
            | some nn => some (mem1.set n { nn with prev := node.prev })
          | none => some mem1
        match r2 with
        | none => none
        | some mem2 => some (some a, ⟨mem2, top1, (st.len + 4294967295) % 4294967296⟩)

/-- The macro `st_length`. -/
def st_length (st : stMem V) : Nat := st.len

/-- The macro `st_value` on the node at address `a`. -/
def st_value (st : stMem V) (a : Nat) : Option V := (st.mem[a]?).map (fun n => n.value)

def st_create_iterator (st : stMem V) : stIterator := ⟨st.top⟩

/-- Model of `st_next`: the node returned (`none` for NULL) and the iterator after the
call. -/
def st_next (st : stMem V) (iter : stIterator) : Option (Option Nat × stIterator) :=
  match iter.next with
  | none => some (none, iter)
  | some a => (st.mem[a]?).map (fun n => (some a, ⟨n.next⟩))

/-- Successive `st_next` calls, at most `fuel` of them: the values of the nodes returned
before the first NULL. -/
def st_next_all (st : stMem V) : Nat → stIterator → Option (List V)
  | 0, _ => some []
  | fuel + 1, iter =>
    match st_next st iter with
    | none => none
    | some (none, _) => some []
    | some (some a, iter1) =>
      match st_value st a, st_next_all st fuel iter1 with
      | some v, some vs => some (v :: vs)
      | _, _ => none

/-- The memory holds the stack: the node at `addrs[i]` has the value `vals[i]` and points
to its neighbours, `top` is the first node, and `len` is the number of nodes. -/
def stRepr (st : stMem V) (addrs : List Nat) (vals : List V) : Prop :=
  addrs.length = vals.length ∧ addrs.Nodup
  ∧ st.top = addrs.head? ∧ st.len = addrs.length
  ∧ ∀ i a, addrs[i]? = some a → ∃ v, vals[i]? = some v
      ∧ st.mem[a]? = some (stNode.mk (if i = 0 then none else addrs[i - 1]?) addrs[i + 1]? v)

end st_model


/-! ## `pb_mov` and `pb_set_len` -/

/-- Model of `pb_set_len`; the callers in the library pass a length within the capacity. -/
def pb_set_len (p : pbHandle) (len : Nat) : pbHandle :=
  { len := len, free := p.free + p.len - len, buf := p.buf.set len (some 0) }

/-- Model of `memmove(buf + dst, buf + src, n)` inside the allocation `buf` (a move that
does not fit is outside the model and leaves `buf` as it is). -/
def pb_memmove (buf : List (Option Nat)) (dst src n : Nat) : List (Option Nat) :=
  if src + n ≤ buf.length ∧ dst + n ≤ buf.length then
    buf.take dst ++ (buf.drop src).take n ++ buf.drop (dst + n)
  else buf

/-- The index computation of `pb_mov` for a buffer of length `len`: the final values of
`begin` and `new_len`.  The sums are `int` sums; `(end - begin) + 1` is the only one that
can leave the range of `int` and is truncated. -/
def pb_mov_range (len begin endv : Int) : Int × Int :=
  let begin1 := if begin < 0 then (if begin + len < 0 then 0 else begin + len) else begin
  let end1 := if endv < 0 then (if endv + len < 0 then 0 else endv + len) else endv
  let new_len := if begin1 > end1 then 0 else wrap32 (wrap32 (end1 - begin1) + 1)
  if new_len ≠ 0 then
    if begin1 ≥ len then (begin1, 0)
    else if end1 ≥ len then
      (begin1, if begin1 > len - 1 then 0 else wrap32 (wrap32 (len - 1 - begin1) + 1))
    else (begin1, new_len)
  else (0, 0)

/-- Model of `pb_mov`. -/
def pb_mov (p : pbHandle) (begin endv : Int) : pbHandle :=
  if p.len = 0 then p
  else
    let r := pb_mov_range p.len begin endv
    let buf := if r.1 ≠ 0 ∧ r.2 ≠ 0 then pb_memmove p.buf 0 r.1.toNat r.2.toNat else p.buf
    pb_set_len { p with buf := buf } r.2.toNat

/-- An index of `pb_mov` as the specification normalises it: the length is added to a
negative index, and a result that is still negative becomes 0. -/
def pbIndexSpec (len : Nat) (i : Int) : Nat :=
  if i < 0 then (if i + len < 0 then 0 else (i + len).toNat) else i.toNat

/-- The inclusive range `b .. min(e, L - 1)` of a content of length `L`, empty unless
`b ≤ e` and `b < L`. -/
def pbMovSpec {α : Type} (content : List α) (b e : Nat) : List α :=
  if b ≤ e ∧ b < content.length then
    (content.drop b).take (min e (content.length - 1) - b + 1)
  else []


/-! ## `pl_replace` (`pl.c`)

The three strings are C strings, read up to their terminator.  The lengths and the size
of the allocation are `int` values, truncated as the code truncates them.  The result
records the size passed to `pl_calloc`, which is taken to return a zero-filled buffer of
that many bytes, and the bytes the loop then writes from the start of the buffer, whether
they fit or not.  A NULL from `pl_calloc`, after which `pl_replace` returns NULL as well,
is an outcome of the allocator and not of the arithmetic of this function; it is left out,
so a buffer result says which size is requested and which bytes are written when the
allocator serves the request. -/

/-- Model of `strstr(hay, needle)`: the offset of the first occurrence of `needle`, `none`
for NULL. -/
def strstr : List Nat → List Nat → Option Nat
  | [], needle => if needle = [] then some 0 else none
  | c :: hay, needle =>
    if startsWith (c :: hay) needle = true then some 0
    else (strstr hay needle).map (fun i => i + 1)

/-- The buffer `pl_replace` returns: the `int` it passes to `pl_calloc` as the size of the
allocation, and the bytes it then writes from the start of the buffer. -/
structure plBuffer where
  size : Int
  written : List Nat

/-- The outcomes of `pl_replace`: the NULL return, the buffer, and the case the model of
the loop leaves out, a string of 2^31 bytes or more, whose length the `int` that receives
it does not hold. -/
inductive plResult where
  | null : plResult
  | buffer : plBuffer → plResult
  | overlong : plResult

/-- The loop of `pl_replace` from the position `top`, followed by the final copy of the
rest: the bytes written at `ptr`, in order. -/
def pl_replace_loop (org rep : List Nat) : Nat → List Nat → List Nat
  | 0, top => top
  | fuel + 1, top =>
    if top = [] then []
    else
      match strstr top org with
      | none => top
      | some len =>
        top.take len ++ rep ++ pl_replace_loop org rep fuel (top.drop (len + org.length))

/-- Model of `pl_replace`.  `srclen`, `orglen`, `replen` and `len` are the `int` variables
of the code: the lengths converted to `int`, `srclen + 1`, and the product
`replen * (srclen / orglen + 1)` computed in `int`. -/
def pl_replace (src org rep : List Nat) : plResult :=
  let srclen : Int := wrap32 (strlen src)
  let orglen : Int := wrap32 (strlen org)
  let replen : Int := wrap32 (strlen rep)
  let len : Int := wrap32 (srclen + 1)
  if srclen = 0 ∨ orglen = 0 then plResult.null
  else
    let len : Int :=
      if orglen < replen then wrap32 (replen * wrap32 (Int.tdiv srclen orglen + 1)) else len
    if INT_MAX < strlen src ∨ INT_MAX < strlen org ∨ INT_MAX < strlen rep then
      plResult.overlong
    else
      plResult.buffer ⟨len, pl_replace_loop (cstr org) (cstr rep) (strlen src + 1) (cstr src)⟩

/-- The replacement as the specification words it, at most `fuel` steps: scanning from the
left, an occurrence of `org` becomes `rep` and the scan goes on behind it, every other byte
is kept. -/
def plReplaceSteps (org rep : List Nat) : Nat → List Nat → List Nat
  | 0, s => s
  | _ + 1, [] => []
  | fuel + 1, c :: s =>
    if startsWith (c :: s) org = true then
      rep ++ plReplaceSteps org rep fuel ((c :: s).drop org.length)
    else c :: plReplaceSteps org rep fuel s

/-- The string `s` with every occurrence of `org`, found from left to right without
overlap, replaced by `rep`. -/
def plReplaceSpec (org rep s : List Nat) : List Nat := plReplaceSteps org rep s.length s


/-! ## Trees with distinct member names, and equality up to the order of the Map -/

mutual

/-- The trees whose print is parsed back up to the order of the Map: Null, Boolean
payloads 0 and 1, integers of magnitude at most 2^53, strings and member names without
`%`, zero byte or control bytes other than the five escaped ones, arrays, and Objects whose
entries hold pairwise distinct names (fewer than 2^30 of them) and a value each; no
double. -/
def jsObject.named : jsObject → Prop
  | jsObject.null => True
  | jsObject.boolean l64 => l64 = 0 ∨ l64 = 1
  | jsObject.number_l64 l64 => l64.natAbs ≤ 2 ^ 53
  | jsObject.number_d64 _ => False
  | jsObject.string val => jsStrPlain val
  | jsObject.array ⟨nodes, _⟩ => jsNodesNamed nodes
  | jsObject.object ⟨table, _, _, _⟩ =>
    (table.flatten.map (fun e => e.key)).Nodup ∧ table.flatten.length < 2 ^ 30
    ∧ jsChainsNamed table

def jsNodesNamed : List jsObject → Prop
  | [] => True
  | obj :: rest => obj.named ∧ jsNodesNamed rest

def jsChainsNamed : List (List jsEntry) → Prop
  | [] => True
  | chain :: rest => jsChainNamed chain ∧ jsChainsNamed rest

def jsChainNamed : List jsEntry → Prop
  | [] => True
  | ⟨some key, some obj⟩ :: next => jsStrPlain key ∧ obj.named ∧ jsChainNamed next
  | ⟨some _, none⟩ :: _ => False
  | ⟨none, _⟩ :: _ => False

end

mutual

/-- The tree the parser builds from the text of a tree: the leaves as they are, the
elements of an array in their order, and the members of an Object inserted into a fresh
Map in the order of the text. -/
def jsObject.reparsed : jsObject → jsObject
  | jsObject.null => jsObject.null
  | jsObject.boolean l64 => jsObject.boolean l64
  | jsObject.number_l64 l64 => jsObject.number_l64 l64
  | jsObject.number_d64 d64 => jsObject.number_d64 d64
  | jsObject.string val => jsObject.string val
  | jsObject.array ⟨nodes, _⟩ => jsObject.array ⟨jsNodesReparsed nodes, nodes.length⟩
  | jsObject.object ⟨table, _, _, _⟩ =>
    jsObject.object ((js_add_members ht_create (jsChainsReparsed table)).getD ht_create)

def jsNodesReparsed : List jsObject → List jsObject
  | [] => []
  | obj :: rest => obj.reparsed :: jsNodesReparsed rest

def jsChainsReparsed : List (List jsEntry) → List jsEntry
  | [] => []
  | chain :: rest => jsChainReparsed chain ++ jsChainsReparsed rest

def jsChainReparsed : List jsEntry → List jsEntry
  | [] => []
  | ⟨key, some obj⟩ :: next => ⟨key, some obj.reparsed⟩ :: jsChainReparsed next
  | ⟨key, none⟩ :: next => ⟨key, none⟩ :: jsChainReparsed next

end

mutual

/-- Equality of trees up to the order of the Map, in the words of the specification: equal
leaves, arrays with equal elements in the same order, and Objects with the same member
names, each mapped to an equal value. -/
def jsObject.sameAs : jsObject → jsObject → Prop
  | jsObject.null, o => o = jsObject.null
  | jsObject.boolean l64, o => o = jsObject.boolean l64
  | jsObject.number_l64 l64, o => o = jsObject.number_l64 l64
  | jsObject.number_d64 d64, o => o = jsObject.number_d64 d64
  | jsObject.string val, o => o = jsObject.string val
  | jsObject.array ⟨nodes, _⟩, o =>
    ∃ nodes1 len1, o = jsObject.array ⟨nodes1, len1⟩ ∧ jsNodesSame nodes nodes1
  | jsObject.object ⟨table, _, _, _⟩, o =>
    ∃ ht1, o = jsObject.object ht1
      ∧ (ht_keys ht1).Perm (table.flatten.map (fun e => e.key))
      ∧ jsChainsSame table ht1

def jsNodesSame : List jsObject → List jsObject → Prop
  | [], l => l = []
  | obj :: rest, l => ∃ obj1 rest1, l = obj1 :: rest1 ∧ obj.sameAs obj1 ∧ jsNodesSame rest rest1

def jsChainsSame : List (List jsEntry) → jsTable → Prop
  | [], _ => True
  | chain :: rest, ht1 => jsChainSame chain ht1 ∧ jsChainsSame rest ht1

/-- Every member of the chain is found in `ht1` under its name, with an equal value. -/
def jsChainSame : List jsEntry → jsTable → Prop
  | [], _ => True
  | ⟨some key, some obj⟩ :: next, ht1 =>
    (∃ r obj1, ht_find htTypeJson ht1 (some key) = some r
        ∧ ht_entry ht1 r = some ⟨some key, some obj1⟩ ∧ obj.sameAs obj1)
    ∧ jsChainSame next ht1
  | ⟨some _, none⟩ :: _, _ => False
  | ⟨none, _⟩ :: _, _ => False

end

/-! ## Trees in which every Object holds each name once -/

mutual

/-- The trees in which every Object, at any depth, holds each member name once: the Map
of every Object is well-formed, so its names are pairwise distinct and `used` counts its
entries. -/
def jsObject.distinct : jsObject → Prop
  | jsObject.null => True
  | jsObject.boolean _ => True
  | jsObject.number_l64 _ => True
  | jsObject.number_d64 _ => True
  | jsObject.string _ => True
  | jsObject.array ⟨nodes, _⟩ => jsNodesDistinct nodes
  | jsObject.object ⟨table, size, mask, used⟩ =>
    ht_wf htTypeJson jsKeyGood ⟨table, size, mask, used⟩ ∧ jsChainsDistinct table

def jsNodesDistinct : List jsObject → Prop
  | [] => True
  | obj :: rest => obj.distinct ∧ jsNodesDistinct rest

def jsChainsDistinct : List (List jsEntry) → Prop
  | [] => True
  | chain :: rest => jsChainDistinct chain ∧ jsChainsDistinct rest

def jsChainDistinct : List jsEntry → Prop
  | [] => True
  | ⟨_, some obj⟩ :: next => obj.distinct ∧ jsChainDistinct next
  | ⟨_, none⟩ :: next => jsChainDistinct next

end

/-! ## The calls of the value parser -/

/-- A call of one of the functions of the value parser, with its arguments: the recursion
bound of the model, the table or the list built so far, and the position in the text. -/
inductive jsCall where
  | value (fuel : Nat) (value : List Nat)
  | array (fuel : Nat) (value : List Nat)
  | arrayLoop (fuel : Nat) (ls : lsHandle jsObject) (value : List Nat)
  | object (fuel : Nat) (value : List Nat)
  | member (fuel : Nat) (ht : jsTable) (value : List Nat)
  | memberLoop (fuel : Nat) (ht : jsTable) (value : List Nat)

/-- What a call returns. -/
def jsCall.run : jsCall → Option jsParse
  | jsCall.value f v => _js_parse_value f v
  | jsCall.array f v => _js_parse_array f v
  | jsCall.arrayLoop f ls v => _js_parse_array_loop f ls v
  | jsCall.object f v => _js_parse_object f v
  | jsCall.member f ht v => _js_parse_object_member f ht v
  | jsCall.memberLoop f ht v => _js_parse_object_loop f ht v

/-- The calls the parser makes: `jsCall.calls c c1` says that the call `c` makes the call
`c1`, one rule for each call in the bodies of the six functions, under the tests that lead
to it. -/
inductive jsCall.calls : jsCall → jsCall → Prop
  | value_array (fuel : Nat) (value : List Nat) : hd value = 91 →
    jsCall.calls (jsCall.value (fuel + 1) value) (jsCall.array fuel value)
  | value_object (fuel : Nat) (value : List Nat) : hd value = 123 →
    jsCall.calls (jsCall.value (fuel + 1) value) (jsCall.object fuel value)
  | array_value (fuel : Nat) (value : List Nat) : hd (_js_skip (value.drop 1)) ≠ 93 →
    jsCall.calls (jsCall.array (fuel + 1) value)
      (jsCall.value fuel (_js_skip (_js_skip (value.drop 1))))
  | array_loop (fuel : Nat) (value : List Nat) (sub : jsObject) (rest : List Nat) :
    hd (_js_skip (value.drop 1)) ≠ 93 →
    _js_parse_value fuel (_js_skip (_js_skip (value.drop 1))) = some (jsParse.ok sub rest) →
    jsCall.calls (jsCall.array (fuel + 1) value)
      (jsCall.arrayLoop fuel (ls_add_tail ls_create sub) (_js_skip rest))
  | loop_value (fuel : Nat) (ls : lsHandle jsObject) (value : List Nat) : hd value = 44 →
    jsCall.calls (jsCall.arrayLoop (fuel + 1) ls value)
      (jsCall.value fuel (_js_skip (value.drop 1)))
  | loop_loop (fuel : Nat) (ls : lsHandle jsObject) (value : List Nat) (sub : jsObject)
    (rest : List Nat) : hd value = 44 →
    _js_parse_value fuel (_js_skip (value.drop 1)) = some (jsParse.ok sub rest) →
    jsCall.calls (jsCall.arrayLoop (fuel + 1) ls value)
      (jsCall.arrayLoop fuel (ls_add_tail ls sub) (_js_skip rest))
  | object_member (fuel : Nat) (value : List Nat) : hd (_js_skip (value.drop 1)) ≠ 125 →
    jsCall.calls (jsCall.object (fuel + 1) value)
      (jsCall.member fuel ht_create (_js_skip (_js_skip (value.drop 1))))
  | member_value (fuel : Nat) (ht : jsTable) (value name rest : List Nat) :
    _js_parse_name value = Except.ok (name, rest) →
    (_js_object_add_object ht name jsObject.null).1 ≠ 0 → hd (_js_skip rest) = 58 →
    jsCall.calls (jsCall.member (fuel + 1) ht value)
      (jsCall.value fuel (_js_skip ((_js_skip rest).drop 1)))
  | member_loop (fuel : Nat) (ht : jsTable) (value name rest : List Nat) (sub : jsObject)
    (rest1 : List Nat) :
    _js_parse_name value = Except.ok (name, rest) →
    (_js_object_add_object ht name jsObject.null).1 ≠ 0 → hd (_js_skip rest) = 58 →
    _js_parse_value fuel (_js_skip ((_js_skip rest).drop 1)) = some (jsParse.ok sub rest1) →
    jsCall.calls (jsCall.member (fuel + 1) ht value)
      (jsCall.memberLoop fuel (_js_object_add_object ht name sub).2 (_js_skip rest1))
  | loop_member (fuel : Nat) (ht : jsTable) (value : List Nat) : hd value = 44 →
    jsCall.calls (jsCall.memberLoop (fuel + 1) ht value)
      (jsCall.member fuel ht (_js_skip (value.drop 1)))

/-- The calls on a text shorter than 2^30 bytes: the text that is left is that short, and
the table of an Object under construction is well-formed and has room for the names the
text that is left can hold. -/
def jsCall.good : jsCall → Prop
  | jsCall.value _ v => v.length < 2 ^ 30
  | jsCall.array _ v => v.length < 2 ^ 30
  | jsCall.arrayLoop _ _ v => v.length < 2 ^ 30
  | jsCall.object _ v => v.length < 2 ^ 30
  | jsCall.member _ ht v => ht_wf htTypeJson jsKeyGood ht ∧ ht.used + v.length < 2 ^ 30
  | jsCall.memberLoop _ ht v => ht_wf htTypeJson jsKeyGood ht ∧ ht.used + v.length < 2 ^ 30

/-! # Theorems -/

set_option maxRecDepth 100000

/-! ## Concrete runs: the claims that the code contradicts -/

/-- C3 (the code at the failing input): the root parsed from `{"k":"a\"b"}` prints as
`{"k":"a\"b"}` the first time and as `{"k":"a\\\"b"}` the second time: the first call
left the escaped string in the tree and the second call escapes it again. -/
theorem js_print_second_call_differs :
    ∃ tree tree1 tree2 : jsObject,
      js_root (bytes "\x7b\"k\":\"a\\\"b\"\x7d") = some tree
      ∧ js_print tree = some (tree1, bytes "\x7b\"k\":\"a\\\"b\"\x7d", 12)
      ∧ js_print tree1 = some (tree2, bytes "\x7b\"k\":\"a\\\\\\\"b\"\x7d", 14) :=
  ⟨_, _, _, rfl, rfl, rfl⟩

/-- C4 (the code at the failing input): `js_print` rewrites the strings it prints.  A
String holding the three bytes `a"b` holds the four bytes `a\"b` after the call, and the
member name `q"` of the Object parsed from `{"q\"":1}` is `q\"` after the call. -/
theorem js_print_rewrites_stored_bytes :
    js_print_tree (jsObject.string [97, 34, 98]) = some (jsObject.string [97, 92, 34, 98])
    ∧ js_root (bytes "\x7b\"q\\\"\":1\x7d")
      = some (jsObject.object ⟨[[], [], [], [⟨some [113, 34], some (jsObject.number_l64 1)⟩]],
          4, 3, 1⟩)
    ∧ (js_root (bytes "\x7b\"q\\\"\":1\x7d")).bind js_print_tree
      = some (jsObject.object
          ⟨[[], [], [], [⟨some [113, 92, 34], some (jsObject.number_l64 1)⟩]], 4, 3, 1⟩) := by
  refine ⟨rfl, rfl, rfl⟩

/-- C5 (the code at the failing input): the String `%%` (two bytes, both at least 0x20)
is printed as `"%"`, because the escaped string is handed to `printf` as the format,
and parsing that text yields the one-byte String `%`. -/
theorem js_print_percent_lost :
    js_print_text (jsObject.string [37, 37]) = some [34, 37, 34]
    ∧ _js_parse_value 1 [34, 37, 34] = some (jsParse.ok (jsObject.string [37]) [])
    ∧ jsObject.string [37] ≠ jsObject.string [37, 37] := by
  refine ⟨rfl, rfl, ?_⟩
  intro h
  injection h with h1
  exact absurd h1 (by decide)

/-- C8 (counterexample): parsing `{"a":1,"a":2}` does not succeed: the second `a` is
refused by the Map, `js_parse` returns `JS_ERR` and the fresh document stays empty. -/
theorem js_parse_duplicate_name_fails :
    js_parse js_create (bytes "\x7b\"a\":1,\"a\":2\x7d") = (JS_ERR, js_create)
    ∧ JS_ERR ≠ JS_TRUE := by
  refine ⟨rfl, by decide⟩

/-- C9 (counterexample): the literal `1e2` has an exponent, and the parser stores the
integer payload `100` for it; `1e-2` is stored as the integer `0`. -/
theorem js_parse_number_exponent_only_is_integer :
    _js_parse_number (bytes "1e2") = (jsObject.number_l64 100, [])
    ∧ _js_parse_number (bytes "1e-2") = (jsObject.number_l64 0, []) := by
  refine ⟨rfl, rfl⟩

/-- C10 (counterexample): the literal `9007199254740993` (2^53 + 1, inside the signed
64-bit range) parsed as a member value prints as `9007199254740992`. -/
theorem js_parse_print_large_integer_rounds :
    (js_root (bytes "\x7b\"n\":9007199254740993\x7d")).bind js_print_text
      = some (bytes "\x7b\"n\":9007199254740992\x7d")
    ∧ bytes "\x7b\"n\":9007199254740993\x7d" ≠ bytes "\x7b\"n\":9007199254740992\x7d" := by
  refine ⟨rfl, by decide⟩

/-! ## Exact integer arithmetic in binary64 -/

namespace Dbl

theorem log2Aux_spec : ∀ fuel n, n ≤ fuel → 0 < n →
    2 ^ log2Aux fuel n ≤ n ∧ n < 2 ^ (log2Aux fuel n + 1)
  | 0, n, h, hp => by omega
  | fuel + 1, n, h, hp => by
    unfold log2Aux
    by_cases h2 : n < 2
    · simp [h2]; omega
    · simp only [h2, if_false]
      have ih := log2Aux_spec fuel (n / 2) (by omega) (by omega)
      have e1 : 2 ^ (log2Aux fuel (n / 2) + 1) = 2 * 2 ^ log2Aux fuel (n / 2) := by
        rw [pow_succ]; ring
      have e2 : 2 ^ (log2Aux fuel (n / 2) + 1 + 1) = 2 * 2 ^ (log2Aux fuel (n / 2) + 1) := by
        rw [pow_succ]; ring
      omega

theorem log2_spec (n : Nat) (hp : 0 < n) : 2 ^ log2 n ≤ n ∧ n < 2 ^ (log2 n + 1) :=
  log2Aux_spec n n (le_refl n) hp

theorem log2_unique {n j : Nat} (h1 : 2 ^ j ≤ n) (h2 : n < 2 ^ (j + 1)) : log2 n = j := by
  have hp : 0 < n := lt_of_lt_of_le (by positivity) h1
  have hs := log2_spec n hp
  have a : j < log2 n + 1 := by
    by_contra hc
    have : 2 ^ (log2 n + 1) ≤ 2 ^ j := Nat.pow_le_pow_right (by norm_num) (by omega)
    omega
  have b : log2 n < j + 1 := by
    by_contra hc
    have : 2 ^ (j + 1) ≤ 2 ^ log2 n := Nat.pow_le_pow_right (by norm_num) (by omega)
    omega
  omega

theorem rhe_scale (a b c : Nat) (hc : 0 < c) : rhe (a * c) (b * c) = rhe a b := by
  unfold rhe
  have h1 : a * c / (b * c) = a / b := Nat.mul_div_mul_right a b hc
  have h2 : a * c % (b * c) = a % b * c := Nat.mul_mod_mul_right c a b
  simp only [h1, h2]
  have e1 : (2 * (a % b * c) < b * c) ↔ (2 * (a % b) < b) := by
    constructor
    · intro h; by_contra hn; push_neg at hn
      have : b * c ≤ 2 * (a % b) * c := Nat.mul_le_mul_right c hn
      nlinarith
    · intro h
      have : 2 * (a % b) * c < b * c := Nat.mul_lt_mul_of_pos_right h hc
      nlinarith
  have e2 : (b * c < 2 * (a % b * c)) ↔ (b < 2 * (a % b)) := by
    constructor
    · intro h; by_contra hn; push_neg at hn
      have : 2 * (a % b) * c ≤ b * c := Nat.mul_le_mul_right c hn
      nlinarith
    · intro h
      have : b * c < 2 * (a % b) * c := Nat.mul_lt_mul_of_pos_right h hc
      nlinarith
  simp only [e1, e2]

theorem log2_one : log2 1 = 0 := rfl

theorem log2_mul_cases (k c : Nat) (hk : 0 < k) (hc : 0 < c) :
    log2 (k * c) = log2 k + log2 c ∨ log2 (k * c) = log2 k + log2 c + 1 := by
  have sk := log2_spec k hk
  have sc := log2_spec c hc
  have lo : 2 ^ (log2 k + log2 c) ≤ k * c := by
    rw [pow_add]; exact Nat.mul_le_mul sk.1 sc.1
  have hi : k * c < 2 ^ (log2 k + log2 c + 1 + 1) := by
    have : k * c < 2 ^ (log2 k + 1) * 2 ^ (log2 c + 1) :=
      Nat.mul_lt_mul'' sk.2 sc.2
    have e : 2 ^ (log2 k + 1) * 2 ^ (log2 c + 1) = 2 ^ (log2 k + log2 c + 1 + 1) := by
      rw [← pow_add]; congr 1; omega
    omega
  by_cases h : k * c < 2 ^ (log2 k + log2 c + 1)
  · left; exact log2_unique lo h
  · right; exact log2_unique (by omega) hi

/-- The exponent `round` selects depends on the quotient only. -/
theorem round_scale (neg : Bool) (k c : Nat) (hk : 0 < k) (hc : 0 < c) :
    round neg (k * c) c = round neg k 1 := by
  have sk := log2_spec k hk
  have hkc : k * c ≠ 0 := Nat.mul_ne_zero (by omega) (by omega)
  have hk0 : k ≠ 0 := by omega
  have flk : (if k * 2 ^ (-((log2 k : Int) - (log2 1 : Int))).toNat
        < 1 * 2 ^ ((log2 k : Int) - (log2 1 : Int)).toNat
      then (log2 k : Int) - (log2 1 : Int) - 1 else (log2 k : Int) - (log2 1 : Int))
      = (log2 k : Int) := by
    rw [log2_one]
    have a1 : (-((log2 k : Int) - ((0 : Nat) : Int))).toNat = 0 := by omega
    have a2 : ((log2 k : Int) - ((0 : Nat) : Int)).toNat = log2 k := by omega
    rw [a1, a2]
    have : ¬ (k * 2 ^ 0 < 1 * 2 ^ log2 k) := by simp; exact sk.1
    simp only [this, if_false]; omega
  have flc : (if k * c * 2 ^ (-((log2 (k * c) : Int) - (log2 c : Int))).toNat
        < c * 2 ^ ((log2 (k * c) : Int) - (log2 c : Int)).toNat
      then (log2 (k * c) : Int) - (log2 c : Int) - 1 else (log2 (k * c) : Int) - (log2 c : Int))
      = (log2 k : Int) := by
    rcases log2_mul_cases k c hk hc with h | h
    · rw [h]
      have a1 : (-(((log2 k + log2 c : Nat) : Int) - (log2 c : Int))).toNat = 0 := by omega
      have a2 : (((log2 k + log2 c : Nat) : Int) - (log2 c : Int)).toNat = log2 k := by omega
      rw [a1, a2]
      have : ¬ (k * c * 2 ^ 0 < c * 2 ^ log2 k) := by
        simp only [pow_zero, mul_one, not_lt]
        calc c * 2 ^ log2 k = 2 ^ log2 k * c := by ring
          _ ≤ k * c := Nat.mul_le_mul_right c sk.1
      simp only [this, if_false]; omega
    · rw [h]
      have a1 : (-(((log2 k + log2 c + 1 : Nat) : Int) - (log2 c : Int))).toNat = 0 := by omega
      have a2 : (((log2 k + log2 c + 1 : Nat) : Int) - (log2 c : Int)).toNat = log2 k + 1 := by
        omega
      rw [a1, a2]
      have : k * c * 2 ^ 0 < c * 2 ^ (log2 k + 1) := by
        simp only [pow_zero, mul_one]
        calc k * c < 2 ^ (log2 k + 1) * c := Nat.mul_lt_mul_of_pos_right sk.2 hc
          _ = c * 2 ^ (log2 k + 1) := by ring
      simp only [this, if_true]; omega
  unfold round
  simp only [hkc, hk0, if_false]
  rw [flk, flc]
  have hr : rhe (k * c * 2 ^ (-(max ((log2 k : Int) - 52) (-1074))).toNat)
      (c * 2 ^ (max ((log2 k : Int) - 52) (-1074)).toNat)
      = rhe (k * 2 ^ (-(max ((log2 k : Int) - 52) (-1074))).toNat)
      (1 * 2 ^ (max ((log2 k : Int) - 52) (-1074)).toNat) := by
    have := rhe_scale (k * 2 ^ (-(max ((log2 k : Int) - 52) (-1074))).toNat)
      (1 * 2 ^ (max ((log2 k : Int) - 52) (-1074)).toNat) c hc
    rw [← this]; congr 1 <;> ring
  rw [hr]

theorem round_zero (neg : Bool) (c : Nat) : round neg 0 c = fin neg 0 0 := by
  unfold round; simp

theorem rhe_one (a : Nat) : rhe a 1 = a := by
  unfold rhe; simp [Nat.mod_one]

theorem round_repr (neg : Bool) (k : Nat) (hk : k ≤ 2 ^ 53) : Repr (round neg k 1) neg k := by
  by_cases hz : k = 0
  · subst hz; rw [round_zero]; exact ⟨0, 0, rfl, by simp [num, den]⟩
  have hp : 0 < k := by omega
  have sk := log2_spec k hp
  have hL : log2 k ≤ 53 := by
    by_contra hc
    have : 2 ^ 54 ≤ 2 ^ log2 k := Nat.pow_le_pow_right (by norm_num) (by omega)
    omega
  have flk : (if k * 2 ^ (-((log2 k : Int) - (log2 1 : Int))).toNat
        < 1 * 2 ^ ((log2 k : Int) - (log2 1 : Int)).toNat
      then (log2 k : Int) - (log2 1 : Int) - 1 else (log2 k : Int) - (log2 1 : Int))
      = (log2 k : Int) := by
    rw [log2_one]
    have a1 : (-((log2 k : Int) - ((0 : Nat) : Int))).toNat = 0 := by omega
    have a2 : ((log2 k : Int) - ((0 : Nat) : Int)).toNat = log2 k := by omega
    rw [a1, a2]
    have : ¬ (k * 2 ^ 0 < 1 * 2 ^ log2 k) := by simp; exact sk.1
    simp only [this, if_false]; omega
  unfold round
  simp only [hz, if_false]
  rw [flk]
  have he : max ((log2 k : Int) - 52) (-1074) = (log2 k : Int) - 52 := by omega
  rw [he]
  by_cases h53 : log2 k = 53
  · have hk53 : k = 2 ^ 53 := by rw [h53] at sk; omega
    rw [h53, hk53]
    refine ⟨2 ^ 52, 1, ?_, ?_⟩
    · rfl
    · decide
  · have hle : log2 k ≤ 52 := by omega
    have a1 : (-((log2 k : Int) - 52)).toNat = 52 - log2 k := by omega
    have a2 : ((log2 k : Int) - 52).toNat = 0 := by omega
    rw [a1, a2]
    simp only [pow_zero, mul_one, rhe_one]
    have hlt : k * 2 ^ (52 - log2 k) < 2 ^ 53 := by
      have : k * 2 ^ (52 - log2 k) < 2 ^ (log2 k + 1) * 2 ^ (52 - log2 k) :=
        Nat.mul_lt_mul_of_pos_right sk.2 (by positivity)
      have e : 2 ^ (log2 k + 1) * 2 ^ (52 - log2 k) = 2 ^ 53 := by
        rw [← pow_add]; congr 1; omega
      omega
    have hne : k * 2 ^ (52 - log2 k) ≠ 2 ^ 53 := by omega
    simp only [hne, if_false]
    have h972 : ¬ ((972 : Int) ≤ (log2 k : Int) - 52) := by omega
    simp only [h972, if_false]
    refine ⟨k * 2 ^ (52 - log2 k), (log2 k : Int) - 52, rfl, ?_⟩
    unfold num den
    rw [a1, a2]; simp

theorem den_pos (e : Int) : 0 < den e := by unfold den; positivity

theorem mul_repr {d1 d2 : Dbl} {a b : Bool} {x y : Nat} (h1 : Repr d1 a x) (h2 : Repr d2 b y) :
    mul d1 d2 = round (a != b) (x * y) 1 := by
  obtain ⟨m, e, rfl, hm⟩ := h1
  obtain ⟨n, f, rfl, hn⟩ := h2
  show round (a != b) (num m e * num n f) (den e * den f) = _
  rw [hm, hn]
  have e1 : x * den e * (y * den f) = (x * y) * (den e * den f) := by ring
  rw [e1]
  by_cases hz : x * y = 0
  · rw [hz]; simp [round_zero]
  · exact round_scale _ _ _ (by omega) (Nat.mul_pos (den_pos e) (den_pos f))

theorem add_repr {d1 d2 : Dbl} {x y : Nat} (h1 : Repr d1 false x) (h2 : Repr d2 false y) :
    add d1 d2 = round false (x + y) 1 := by
  obtain ⟨m, e, rfl, hm⟩ := h1
  obtain ⟨n, f, rfl, hn⟩ := h2
  show (let x : Int := (if false then -1 else 1) * ((num m e * den f : Nat) : Int)
    let y : Int := (if false then -1 else 1) * ((num n f * den e : Nat) : Int)
    let s := x + y
    if s = 0 then fin (false && false) 0 0 else round (decide (s < 0)) s.natAbs (den e * den f)) = _
  simp only [hm, hn]
  have hs : ((if false = true then (-1 : Int) else 1) * ((x * den e * den f : Nat) : Int)
      + (if false = true then (-1 : Int) else 1) * ((y * den f * den e : Nat) : Int))
      = (((x + y) * (den e * den f) : Nat) : Int) := by
    simp; ring
  rw [hs]
  by_cases hz : x + y = 0
  · have hx : x = 0 := by omega
    have hy : y = 0 := by omega
    subst hx; subst hy
    simp [round_zero]
  · have hpos : 0 < (x + y) * (den e * den f) :=
      Nat.mul_pos (by omega) (Nat.mul_pos (den_pos e) (den_pos f))
    have hne : ¬ ((((x + y) * (den e * den f) : Nat) : Int) = 0) := by
      exact_mod_cast (by omega : (x + y) * (den e * den f) ≠ 0)
    have hnn : ¬ ((((x + y) * (den e * den f) : Nat) : Int) < 0) := by
      exact_mod_cast (by omega : ¬ ((x + y) * (den e * den f) < 0))
    simp only [hne, if_false, hnn, decide_False, Int.natAbs_ofNat]
    exact round_scale _ _ _ (by omega) (Nat.mul_pos (den_pos e) (den_pos f))

theorem toLong_repr {d : Dbl} {neg : Bool} {k : Nat} (h : Repr d neg k) (hk : k < 2 ^ 63) :
    toLong d = if neg then -(k : Int) else (k : Int) := by
  obtain ⟨m, e, rfl, hm⟩ := h
  unfold toLong
  simp only [hm]
  rw [Nat.mul_div_cancel _ (den_pos e)]
  cases neg
  · simp only [Bool.false_eq_true, if_false]
    have : -(2 ^ 63 : Int) ≤ (k : Int) ∧ (k : Int) < 2 ^ 63 := by
      constructor
      · have : (0 : Int) ≤ (k : Int) := Int.ofNat_nonneg k
        omega
      · exact_mod_cast hk
    simp only [this, and_self, if_true]
  · simp only [if_true]
    have : -(2 ^ 63 : Int) ≤ -(k : Int) ∧ -(k : Int) < 2 ^ 63 := by
      have h1 : (k : Int) < 2 ^ 63 := by exact_mod_cast hk
      have h2 : (0 : Int) ≤ (k : Int) := Int.ofNat_nonneg k
      constructor <;> omega
    simp only [this, and_self, if_true]

end Dbl


/-! ### Decimal digits -/

theorem hd_cons (c : Nat) (l : List Nat) : hd (c :: l) = c := rfl

theorem hd_nil : hd [] = 0 := rfl

theorem hd_append_of_ne_nil {a : List Nat} (b : List Nat) (h : a ≠ []) : hd (a ++ b) = hd a := by
  cases a with
  | nil => exact absurd rfl h
  | cons c l => rfl

theorem decimalAux_acc : ∀ (n fuel : Nat) (acc : List Nat), n < fuel →
    decimalAux fuel n acc = decimalAux (n + 1) n [] ++ acc := by
  intro n
  induction n using Nat.strong_induction_on with
  | _ n ih =>
    intro fuel acc hf
    obtain ⟨f, rfl⟩ : ∃ f, fuel = f + 1 := ⟨fuel - 1, by omega⟩
    by_cases h10 : n < 10
    · simp [decimalAux, h10]
    · have hlt : n / 10 < n := Nat.div_lt_self (by omega) (by norm_num)
      rw [decimalAux, if_neg h10, decimalAux, if_neg h10]
      rw [ih (n / 10) hlt f _ (by omega), ih (n / 10) hlt n _ hlt]
      simp

theorem decimal_lt {n : Nat} (h : n < 10) : decimal n = [48 + n] := by
  simp [decimal, decimalAux, h]

theorem decimal_ge {n : Nat} (h : 10 ≤ n) : decimal n = decimal (n / 10) ++ [48 + n % 10] := by
  have hlt : n / 10 < n := Nat.div_lt_self (by omega) (by norm_num)
  unfold decimal
  rw [decimalAux, if_neg (by omega), decimalAux_acc (n / 10) n _ hlt]

theorem decimal_ne_nil (n : Nat) : decimal n ≠ [] := by
  by_cases h : n < 10
  · rw [decimal_lt h]; simp
  · rw [decimal_ge (by omega)]; simp

theorem decimal_digits (n : Nat) : ∀ c ∈ decimal n, isDigit c := by
  induction n using Nat.strong_induction_on with
  | _ n ih =>
    by_cases h : n < 10
    · rw [decimal_lt h]; intro c hc
      simp at hc; subst hc; unfold isDigit; omega
    · rw [decimal_ge (by omega)]
      intro c hc
      rcases List.mem_append.mp hc with hc | hc
      · exact ih (n / 10) (Nat.div_lt_self (by omega) (by norm_num)) c hc
      · simp at hc; subst hc; unfold isDigit; omega

theorem decimal_hd (n : Nat) (hn : 0 < n) : 49 ≤ hd (decimal n) ∧ hd (decimal n) ≤ 57 := by
  induction n using Nat.strong_induction_on with
  | _ n ih =>
    by_cases h : n < 10
    · rw [decimal_lt h, hd_cons]; omega
    · rw [decimal_ge (by omega), hd_append_of_ne_nil _ (decimal_ne_nil _)]
      exact ih (n / 10) (Nat.div_lt_self (by omega) (by norm_num)) (by omega)

theorem digitsVal_append (a : Nat) (xs ys : List Nat) :
    digitsVal a (xs ++ ys) = digitsVal (digitsVal a xs) ys := by
  simp [digitsVal, List.foldl_append]

theorem digitsVal_decimal (n : Nat) : digitsVal 0 (decimal n) = n := by
  induction n using Nat.strong_induction_on with
  | _ n ih =>
    by_cases h : n < 10
    · rw [decimal_lt h]; simp [digitsVal]
    · rw [decimal_ge (by omega), digitsVal_append,
        ih (n / 10) (Nat.div_lt_self (by omega) (by norm_num))]
      simp [digitsVal]; omega

theorem le_digitsVal : ∀ (ds : List Nat) (a : Nat), a ≤ digitsVal a ds
  | [], a => by simp [digitsVal]
  | c :: ds, a => by
    have := le_digitsVal ds (a * 10 + (c - 48))
    simp only [digitsVal, List.foldl_cons] at this ⊢
    omega

/-! ### The digit loops of the number parser -/

theorem ofInt_digit (c : Nat) (h : 48 ≤ c) :
    Dbl.ofInt ((c : Int) - 48) = Dbl.round false (c - 48) 1 := by
  unfold Dbl.ofInt
  have h1 : ¬ ((c : Int) - 48 < 0) := by omega
  have h2 : ((c : Int) - 48).natAbs = c - 48 := by omega
  simp only [h1, decide_False, h2]

theorem ofInt_ten : Dbl.ofInt 10 = Dbl.round false 10 1 := rfl

theorem parse_digits_exact : ∀ (ds rest : List Nat) (a n : Nat),
    (∀ c ∈ ds, isDigit c) → ¬ isDigit (hd rest) → digitsVal a ds ≤ 2 ^ 53 →
    _js_parse_digits (ds ++ rest) (Dbl.round false a 1) n
      = (Dbl.round false (digitsVal a ds) 1, n + ds.length, rest)
  | [], rest, a, n, _, hr, _ => by
    cases rest with
    | nil => simp [_js_parse_digits, digitsVal]
    | cons c r =>
      have : ¬ (48 ≤ c ∧ c ≤ 57) := hr
      simp [_js_parse_digits, digitsVal, this]
  | c :: ds, rest, a, n, hd, hr, hb => by
    have hc : 48 ≤ c ∧ c ≤ 57 := hd c (List.mem_cons_self _ _)
    have hb1 : digitsVal (a * 10 + (c - 48)) ds ≤ 2 ^ 53 := by
      simpa [digitsVal] using hb
    have hb2 : a * 10 + (c - 48) ≤ 2 ^ 53 := le_trans (le_digitsVal ds _) hb1
    have hmul : Dbl.mul (Dbl.round false a 1) (Dbl.ofInt 10) = Dbl.round false (a * 10) 1 := by
      rw [ofInt_ten]
      have := Dbl.mul_repr (Dbl.round_repr false a (by omega)) (Dbl.round_repr false 10 (by norm_num))
      simpa using this
    have hadd : Dbl.add (Dbl.mul (Dbl.round false a 1) (Dbl.ofInt 10)) (Dbl.ofInt ((c : Int) - 48))
        = Dbl.round false (a * 10 + (c - 48)) 1 := by
      rw [hmul, ofInt_digit c hc.1]
      exact Dbl.add_repr (Dbl.round_repr false _ (by omega)) (Dbl.round_repr false _ (by omega))
    have ih := parse_digits_exact ds rest (a * 10 + (c - 48)) (n + 1)
      (fun x hx => hd x (List.mem_cons_of_mem _ hx)) hr hb1
    have e : digitsVal a (c :: ds) = digitsVal (a * 10 + (c - 48)) ds := rfl
    show _js_parse_digits (c :: (ds ++ rest)) _ n = _
    rw [_js_parse_digits, if_pos hc, hadd, ih, e, List.length_cons]
    simp only [Prod.mk.injEq, true_and, and_true]
    omega


theorem number_int_decimal (k : Nat) (rest : List Nat) (hk : k ≤ 2 ^ 53)
    (hr : ¬ isDigit (hd rest)) :
    _js_number_int (decimal k ++ rest) = (Dbl.round false k 1, rest) := by
  by_cases hz : k = 0
  · subst hz
    have hr1 : ¬ (49 ≤ hd rest ∧ hd rest ≤ 57) := fun h => hr ⟨by omega, h.2⟩
    rw [decimal_lt (by norm_num), Dbl.round_zero]
    simp [_js_number_int, hd_cons, hr1]
  · have hh := decimal_hd k (by omega)
    have hhead : hd (decimal k ++ rest) = hd (decimal k) :=
      hd_append_of_ne_nil _ (decimal_ne_nil k)
    have h48 : ¬ (hd (decimal k) = 48) := by omega
    have hpd := parse_digits_exact (decimal k) rest 0 0 (decimal_digits k) hr
      (by rw [digitsVal_decimal]; exact hk)
    rw [Dbl.round_zero, digitsVal_decimal] at hpd
    unfold _js_number_int
    simp only [h48, if_false, hhead, hh, and_self, if_true, hpd]

theorem number_frac_none (num : Dbl) (rest : List Nat) (h : hd rest ≠ 46) :
    _js_number_frac num rest = (num, 0, rest) := by
  simp [_js_number_frac, h]

theorem number_exp_none (rest : List Nat) (h1 : hd rest ≠ 101) (h2 : hd rest ≠ 69) :
    _js_number_exp rest = (0, rest) := by
  simp [_js_number_exp, h1, h2]

theorem repr_sign (neg : Bool) : Dbl.Repr (Dbl.fin neg 1 0) neg 1 :=
  ⟨1, 0, rfl, by decide⟩

theorem pow10_zero : Dbl.pow10 0 = Dbl.round false 1 1 := rfl

/-- The value computed for an integer literal of magnitude `k`. -/
theorem number_value_integer (neg : Bool) (k : Nat) (hk : k ≤ 2 ^ 53) :
    Dbl.toLong (Dbl.mul (Dbl.mul (Dbl.fin neg 1 0) (Dbl.round false k 1)) (Dbl.pow10 0))
      = if neg then -(k : Int) else (k : Int) := by
  have h1 := Dbl.mul_repr (repr_sign neg) (Dbl.round_repr false k hk)
  simp only [one_mul, Bool.bne_false] at h1
  have h2 := Dbl.mul_repr (Dbl.round_repr neg k hk) (Dbl.round_repr false 1 (by norm_num))
  simp only [mul_one, Bool.bne_false] at h2
  rw [h1, pow10_zero, h2]
  exact Dbl.toLong_repr (Dbl.round_repr neg k hk) (by omega)

theorem decimal_hd_ne_minus (k : Nat) : hd (decimal k) ≠ 45 := by
  by_cases hz : k = 0
  · subst hz; decide
  · have := decimal_hd k (by omega); omega

theorem parse_number_integer (n : Int) (rest : List Nat) (hn : n.natAbs ≤ 2 ^ 53)
    (hr : endsNumber (hd rest)) :
    _js_parse_number (fmt_ld n ++ rest) = (jsObject.number_l64 n, rest) := by
  obtain ⟨hr1, hr2, hr3, hr4⟩ := hr
  by_cases hneg : n < 0
  · have hint := number_int_decimal n.natAbs rest hn hr1
    have hval := number_value_integer true n.natAbs hn
    have hnat : -((n.natAbs : Nat) : Int) = n := by omega
    simp only [if_true, hnat] at hval
    unfold _js_parse_number fmt_ld
    simp only [hneg, if_true, List.cons_append, hd_cons, List.drop_succ_cons, List.drop_zero,
      hint, number_frac_none _ _ hr2, number_exp_none _ hr3 hr4, Nat.cast_zero, neg_zero,
      add_zero, _js_object_set_number, ne_eq, not_true_eq_false, if_false, hval]
  · have hint := number_int_decimal n.natAbs rest hn hr1
    have hval := number_value_integer false n.natAbs hn
    have hnat : ((n.natAbs : Nat) : Int) = n := by omega
    simp only [Bool.false_eq_true, if_false, hnat] at hval
    have hh : hd (decimal n.natAbs ++ rest) ≠ 45 := by
      rw [hd_append_of_ne_nil _ (decimal_ne_nil _)]; exact decimal_hd_ne_minus _
    unfold _js_parse_number fmt_ld
    simp only [hneg, if_false, hh, hint, number_frac_none _ _ hr2, number_exp_none _ hr3 hr4,
      Nat.cast_zero, neg_zero, add_zero, _js_object_set_number, ne_eq, not_true_eq_false,
      hval, if_true]

theorem startsWith_cons_ne {c d : Nat} (value lit : List Nat) (h : c ≠ d) :
    startsWith (c :: value) (d :: lit) = false := by
  simp [startsWith, h]

theorem fmt_ld_cases (n : Int) :
    ∃ c t, fmt_ld n = c :: t ∧ (c = 45 ∨ isDigit c) := by
  unfold fmt_ld
  by_cases hneg : n < 0
  · simp only [hneg, if_true]; exact ⟨45, _, rfl, Or.inl rfl⟩
  · simp only [hneg, if_false]
    cases hdec : decimal n.natAbs with
    | nil => exact absurd hdec (decimal_ne_nil _)
    | cons c t =>
      refine ⟨c, t, rfl, Or.inr ?_⟩
      exact decimal_digits n.natAbs c (by rw [hdec]; exact List.mem_cons_self _ _)

theorem parse_value_integer (n : Int) (rest : List Nat) (fuel : Nat) (hn : n.natAbs ≤ 2 ^ 53)
    (hr : endsNumber (hd rest)) :
    _js_parse_value (fuel + 1) (fmt_ld n ++ rest)
      = some (jsParse.ok (jsObject.number_l64 n) rest) := by
  have hpn := parse_number_integer n rest hn hr
  obtain ⟨c, t, hct, hc⟩ := fmt_ld_cases n
  rw [hct] at hpn ⊢
  have hc1 : c ≠ 110 ∧ c ≠ 102 ∧ c ≠ 116 ∧ c ≠ 34 := by
    rcases hc with h | h
    · subst h; decide
    · unfold isDigit at h; omega
  have hc2 : c = 45 ∨ (48 ≤ c ∧ c ≤ 57) := hc
  simp only [_js_parse_value, List.cons_append, startsWith_cons_ne _ _ hc1.1,
    startsWith_cons_ne _ _ hc1.2.1, startsWith_cons_ne _ _ hc1.2.2.1, hd_cons, hc1.2.2.2,
    Bool.false_eq_true, if_false, hc2, if_true]
  rw [List.cons_append] at hpn
  rw [hpn]

theorem vasprintf_ld (n : Int) : vasprintf [37, 108, 100] [fmtArg.long n] = some (fmt_ld n) := by
  simp [vasprintf]

theorem js_print_integer (n : Int) :
    js_print (jsObject.number_l64 n) = some (jsObject.number_l64 n, fmt_ld n, (fmt_ld n).length) := by
  simp [js_print, _js_print, jsObject.print, _js_object_number_print, _js_buffer_sprintf,
    vasprintf_ld, _js_buffer_cat, _js_buffer_renew, _js_buffer_new, _js_buffer_len,
    JS_BUFFER_SIZE_INIT]
  split <;> simp

/-- C10 (amended): for every integer `n` of magnitude at most 2^53, the literal that is
the decimal rendering of `n` (optional minus sign, digits, no leading zero, so `-0` is
not among them), parsed as a value in front of any byte that cannot continue a number,
yields the integer payload `n`, and printing that value yields exactly the same digits,
none of them a decimal point.  The literal `-0` is parsed to the integer 0 and prints
as `0`. -/
theorem js_integer_literal_prints_same_digits (n : Int) (rest : List Nat) (fuel : Nat)
    (hn : n.natAbs ≤ 2 ^ 53) (hrest : endsNumber (hd rest)) :
    _js_parse_value (fuel + 1) (fmt_ld n ++ rest)
      = some (jsParse.ok (jsObject.number_l64 n) rest)
    ∧ js_print (jsObject.number_l64 n)
      = some (jsObject.number_l64 n, fmt_ld n, (fmt_ld n).length)
    ∧ (∀ c ∈ fmt_ld n, c = 45 ∨ isDigit c)
    ∧ (js_root (bytes "\x7b\"n\":-0\x7d")).bind js_print_text
      = some (bytes "\x7b\"n\":0\x7d") := by
  refine ⟨parse_value_integer n rest fuel hn hrest, js_print_integer n, ?_, rfl⟩
  intro c hc
  unfold fmt_ld at hc
  by_cases hneg : n < 0
  · simp only [hneg, if_true, List.mem_cons] at hc
    rcases hc with h | h
    · exact Or.inl h
    · exact Or.inr (decimal_digits _ c h)
  · simp only [hneg, if_false] at hc
    exact Or.inr (decimal_digits _ c hc)

/-- C10 (witness): the literals `123456789012` and `100` in front of a closing brace. -/
theorem js_integer_literal_prints_same_digits_witness :
    _js_parse_value 1 (bytes "123456789012\x7d")
      = some (jsParse.ok (jsObject.number_l64 123456789012) [125])
    ∧ js_print (jsObject.number_l64 123456789012)
      = some (jsObject.number_l64 123456789012, bytes "123456789012", 12)
    ∧ js_print (jsObject.number_l64 100) = some (jsObject.number_l64 100, bytes "100", 3) :=
  ⟨(js_integer_literal_prints_same_digits 123456789012 [125] 0 (by decide) (by decide)).1,
   (js_integer_literal_prints_same_digits 123456789012 [125] 0 (by decide) (by decide)).2.1,
   (js_integer_literal_prints_same_digits 100 [125] 0 (by decide) (by decide)).2.1⟩

/-! ## The payload kind of a number literal -/


theorem parse_digits_rest : ∀ (ds rest : List Nat) (num : Dbl) (n : Nat),
    (∀ c ∈ ds, isDigit c) → ¬ isDigit (hd rest) →
    (_js_parse_digits (ds ++ rest) num n).2 = (n + ds.length, rest)
  | [], rest, num, n, _, hr => by
    cases rest with
    | nil => simp [_js_parse_digits]
    | cons c r =>
      have : ¬ (48 ≤ c ∧ c ≤ 57) := hr
      simp [_js_parse_digits, this]
  | c :: ds, rest, num, n, hd, hr => by
    have hc : 48 ≤ c ∧ c ≤ 57 := hd c (List.mem_cons_self _ _)
    have ih := parse_digits_rest ds rest
      (Dbl.add (Dbl.mul num (Dbl.ofInt 10)) (Dbl.ofInt ((c : Int) - 48))) (n + 1)
      (fun x hx => hd x (List.mem_cons_of_mem _ hx)) hr
    show (_js_parse_digits (c :: (ds ++ rest)) _ n).2 = _
    rw [_js_parse_digits, if_pos hc, ih, List.length_cons]
    simp only [Prod.mk.injEq, and_true]
    omega

theorem parse_subscale_rest : ∀ (ds rest : List Nat) (s : Int),
    (∀ c ∈ ds, isDigit c) → ¬ isDigit (hd rest) →
    (_js_parse_subscale (ds ++ rest) s).2 = rest
  | [], rest, s, _, hr => by
    cases rest with
    | nil => simp [_js_parse_subscale]
    | cons c r =>
      have : ¬ (48 ≤ c ∧ c ≤ 57) := hr
      simp [_js_parse_subscale, this]
  | c :: ds, rest, s, hd, hr => by
    have hc : 48 ≤ c ∧ c ≤ 57 := hd c (List.mem_cons_self _ _)
    have ih := parse_subscale_rest ds rest (wrap32 (s * 10 + ((c : Int) - 48)))
      (fun x hx => hd x (List.mem_cons_of_mem _ hx)) hr
    show (_js_parse_subscale (c :: (ds ++ rest)) s).2 = _
    rw [_js_parse_subscale, if_pos hc, ih]

theorem hd_digits_isDigit {ds : List Nat} (hne : ds ≠ []) (h : ∀ c ∈ ds, isDigit c) :
    isDigit (hd ds) := by
  cases ds with
  | nil => exact absurd rfl hne
  | cons c t => exact h c (List.mem_cons_self _ _)

theorem number_int_rest (int tail : List Nat)
    (hint : int = [48] ∨ (int ≠ [] ∧ 49 ≤ hd int ∧ ∀ c ∈ int, isDigit c))
    (ht : ¬ isDigit (hd tail)) :
    (_js_number_int (int ++ tail)).2 = tail := by
  rcases hint with h | ⟨hne, h49, hall⟩
  · subst h
    have ht1 : ¬ (49 ≤ hd tail ∧ hd tail ≤ 57) := fun h => ht ⟨by omega, h.2⟩
    simp [_js_number_int, hd_cons, ht1]
  · have hh : hd (int ++ tail) = hd int := hd_append_of_ne_nil _ hne
    have hdig := hd_digits_isDigit hne hall
    have h48 : ¬ (hd int = 48) := by omega
    have hc : 49 ≤ hd int ∧ hd int ≤ 57 := ⟨h49, hdig.2⟩
    have hpd := parse_digits_rest int tail (Dbl.fin false 0 0) 0 hall ht
    unfold _js_number_int
    simp only [hh, h48, if_false, hc, and_self, if_true, hpd]

theorem number_frac_some (num : Dbl) (frac tail : List Nat) (hne : frac ≠ [])
    (hall : ∀ c ∈ frac, isDigit c) (ht : ¬ isDigit (hd tail)) :
    (_js_number_frac num (46 :: (frac ++ tail))).2 = (frac.length, tail) := by
  have hh : hd (frac ++ tail) = hd frac := hd_append_of_ne_nil _ hne
  have hdig : 48 ≤ hd frac ∧ hd frac ≤ 57 := hd_digits_isDigit hne hall
  have hpd := parse_digits_rest frac tail num 0 hall ht
  unfold _js_number_frac
  simp only [hd_cons, List.drop_succ_cons, List.drop_zero, hh, hdig, and_self, if_true, hpd,
    zero_add]

theorem number_exp_some (m : Nat) (sg ds tail : List Nat) (hm : m = 101 ∨ m = 69)
    (hsg : sg = [] ∨ sg = [43] ∨ sg = [45]) (hne : ds ≠ []) (hall : ∀ c ∈ ds, isDigit c)
    (ht : ¬ isDigit (hd tail)) :
    (_js_number_exp (m :: (sg ++ ds ++ tail))).2 = tail := by
  have hh : hd (ds ++ tail) = hd ds := hd_append_of_ne_nil _ hne
  have hdig : 48 ≤ hd ds ∧ hd ds ≤ 57 := hd_digits_isDigit hne hall
  have hps := fun s => parse_subscale_rest ds tail s hall ht
  unfold _js_number_exp
  rcases hsg with h | h | h
  · subst h
    have h1 : ¬ (hd ds = 43) := by omega
    have h2 : ¬ (hd ds = 45) := by omega
    simp only [hd_cons, hm, if_true, List.drop_succ_cons, List.drop_zero, List.nil_append, hh,
      h1, h2, or_self, if_false, hps]
  · subst h
    simp only [hd_cons, hm, if_true, List.drop_succ_cons, List.drop_zero, List.cons_append,
      List.nil_append, true_or, hps]
  · subst h
    simp only [hd_cons, hm, if_true, List.drop_succ_cons, List.drop_zero, List.cons_append,
      List.nil_append, or_true, hps]

theorem expText_tail (exp : Option (Nat × List Nat × List Nat)) (rest : List Nat)
    (hwf : jsNumberLit.expWf exp) (hr : endsNumber (hd rest)) :
    ¬ isDigit (hd (jsNumberLit.expText exp ++ rest))
    ∧ hd (jsNumberLit.expText exp ++ rest) ≠ 46
    ∧ (_js_number_exp (jsNumberLit.expText exp ++ rest)).2 = rest := by
  obtain ⟨hr1, hr2, hr3, hr4⟩ := hr
  cases exp with
  | none =>
    simp only [jsNumberLit.expText, List.nil_append]
    exact ⟨hr1, hr2, by rw [number_exp_none _ hr3 hr4]⟩
  | some t =>
    obtain ⟨m, sg, ds⟩ := t
    obtain ⟨hm, hsg, hne, hall⟩ := hwf
    simp only [jsNumberLit.expText, List.cons_append, hd_cons, List.append_assoc]
    refine ⟨?_, ?_, ?_⟩
    · unfold isDigit; rcases hm with h | h <;> omega
    · rcases hm with h | h <;> omega
    · have := number_exp_some m sg ds rest hm hsg hne hall hr1
      rwa [List.append_assoc] at this

/-- C9 (amended): for every number literal of the JSON grammar, followed by a byte that
cannot continue it, `_js_parse_number` consumes exactly the literal and stores the
floating-point payload if and only if the literal has a fraction part (a decimal point
followed by digits); a literal without a fraction part gets the 64-bit integer payload,
whether or not it has an exponent part. -/
theorem js_parse_number_payload_kind (l : jsNumberLit) (rest : List Nat) (hwf : l.wf)
    (hr : endsNumber (hd rest)) :
    (_js_parse_number (l.text ++ rest)).2 = rest
    ∧ ((_js_parse_number (l.text ++ rest)).1.isDouble = true ↔ l.frac ≠ [])
    ∧ ((_js_parse_number (l.text ++ rest)).1.isInteger = true ↔ l.frac = []) := by
  obtain ⟨hint, hfrac, hexp⟩ := hwf
  obtain ⟨he1, he2, he3⟩ := expText_tail l.exp rest hexp hr
  -- the text after the sign
  have hsign : ∃ sign : Dbl, ∀ tail : List Nat, hd (l.int ++ tail) ≠ 45 →
      _js_parse_number ((if l.minus then [45] else []) ++ (l.int ++ tail))
        = (let r1 := _js_number_int (l.int ++ tail)
           let r2 := _js_number_frac r1.1 r1.2
           let r3 := _js_number_exp r2.2.2
           let scale : Int := -(r2.2.1 : Int)
           let num := Dbl.mul (Dbl.mul sign r2.1) (Dbl.pow10 (scale + r3.1))
           (if scale = 0 then _js_object_set_number num 0 else _js_object_set_number num 1,
            r3.2)) := by
    cases l.minus
    · refine ⟨Dbl.fin false 1 0, fun tail ht => ?_⟩
      simp only [Bool.false_eq_true, if_false, List.nil_append, _js_parse_number, ht]
    · refine ⟨Dbl.fin true 1 0, fun tail _ => ?_⟩
      simp only [if_true, List.cons_append, List.nil_append, _js_parse_number, hd_cons,
        List.drop_succ_cons, List.drop_zero]
  obtain ⟨sign, hsign⟩ := hsign
  have hint45 : ∀ tail, hd (l.int ++ tail) ≠ 45 := by
    intro tail
    rcases hint with h | ⟨hne, h49, hall⟩
    · rw [h]; simp [hd_cons]
    · rw [hd_append_of_ne_nil _ hne]
      have := (hd_digits_isDigit hne hall).2
      omega
  unfold jsNumberLit.text
  rw [List.append_assoc, List.append_assoc, List.append_assoc, hsign _ (hint45 _)]
  by_cases hf : l.frac = []
  · -- no fraction: scale stays 0
    simp only [hf, if_true, List.nil_append]
    have hi := number_int_rest l.int (jsNumberLit.expText l.exp ++ rest) hint he1
    have hfr := number_frac_none (_js_number_int (l.int ++ (jsNumberLit.expText l.exp ++ rest))).1
      (jsNumberLit.expText l.exp ++ rest) he2
    simp only [hi, hfr, he3, Nat.cast_zero, neg_zero, if_true, _js_object_set_number,
      ne_eq, not_true_eq_false, if_false, jsObject.isDouble, jsObject.isInteger,
      Bool.false_eq_true, not_false_eq_true, true_and, iff_self, and_self]
  · -- a fraction: scale is negative
    simp only [hf, if_false, List.cons_append]
    have ht : ¬ isDigit (hd (46 :: (l.frac ++ (jsNumberLit.expText l.exp ++ rest)))) := by
      rw [hd_cons]; unfold isDigit; omega
    have hi := number_int_rest l.int (46 :: (l.frac ++ (jsNumberLit.expText l.exp ++ rest)))
      hint ht
    have hfr := number_frac_some
      (_js_number_int (l.int ++ 46 :: (l.frac ++ (jsNumberLit.expText l.exp ++ rest)))).1
      l.frac (jsNumberLit.expText l.exp ++ rest) hf hfrac he1
    have hlen : l.frac.length ≠ 0 := by
      intro h; exact hf (List.length_eq_zero.mp h)
    have hscale : ¬ (-(l.frac.length : Int) = 0) := by omega
    simp only [hi, hfr, he3, hscale, if_false, _js_object_set_number, ne_eq, one_ne_zero,
      not_false_eq_true, if_true, jsObject.isDouble, jsObject.isInteger, Bool.false_eq_true,
      true_and, iff_self, and_self, iff_false, not_true_eq_false]
    exact ⟨⟨fun _ => hf, fun _ => trivial⟩, trivial⟩

/-- C9 (witness): `1e2` (exponent, no fraction) gets the integer payload and `1.5e2` the
floating-point payload. -/
theorem js_parse_number_payload_kind_witness :
    jsNumberLit.text ⟨false, [49], [], some (101, [], [50])⟩ = bytes "1e2"
    ∧ (_js_parse_number (bytes "1e2" ++ [125])).1.isInteger = true
    ∧ (_js_parse_number (bytes "1.5e2" ++ [125])).1.isDouble = true :=
  ⟨rfl,
   ((js_parse_number_payload_kind ⟨false, [49], [], some (101, [], [50])⟩ [125]
      ⟨Or.inr ⟨by decide, by decide, by decide⟩, by decide,
        ⟨Or.inl rfl, Or.inl rfl, by decide, by decide⟩⟩ (by decide)).2.2).mpr rfl,
   ((js_parse_number_payload_kind ⟨false, [49], [53], some (101, [], [50])⟩ [125]
      ⟨Or.inr ⟨by decide, by decide, by decide⟩, by decide,
        ⟨Or.inl rfl, Or.inl rfl, by decide, by decide⟩⟩ (by decide)).2.1).mpr (by decide)⟩

/-! ## Lists of chains -/

section chains
variable {α : Type}

theorem flatten_set : ∀ (t : List (List α)) (i : Nat) (c : List α), i < t.length →
    (t.set i c).flatten = (t.take i).flatten ++ c ++ (t.drop (i + 1)).flatten
  | [], i, c, h => by simp at h
  | x :: t, 0, c, _ => by simp
  | x :: t, i + 1, c, h => by
    have ih := flatten_set t i c (by simpa using h)
    simp [ih, List.append_assoc]

theorem flatten_split : ∀ (t : List (List α)) (i : Nat), i < t.length →
    t.flatten = (t.take i).flatten ++ t.getD i [] ++ (t.drop (i + 1)).flatten
  | [], i, h => by simp at h
  | x :: t, 0, _ => by simp
  | x :: t, i + 1, h => by
    have ih := flatten_split t i (by simpa using h)
    simp only [List.flatten_cons, List.take_succ_cons, List.drop_succ_cons, List.append_assoc]
    rw [ih]
    simp [List.append_assoc]

theorem getD_set_self (t : List (List α)) (i : Nat) (c : List α) (h : i < t.length) :
    (t.set i c).getD i [] = c := by
  simp [List.getD_eq_getElem?_getD, List.getElem?_set_self, h]

theorem getD_set_ne (t : List (List α)) (i j : Nat) (c : List α) (h : i ≠ j) :
    (t.set i c).getD j [] = t.getD j [] := by
  simp [List.getD_eq_getElem?_getD, List.getElem?_set_ne h]

theorem mem_flatten_getD {t : List (List α)} {e : α} :
    e ∈ t.flatten ↔ ∃ i, i < t.length ∧ e ∈ t.getD i [] := by
  constructor
  · intro h
    obtain ⟨l, hl, he⟩ := List.mem_flatten.mp h
    obtain ⟨i, hi, rfl⟩ := List.getElem_of_mem hl
    exact ⟨i, hi, by simpa [List.getD_eq_getElem?_getD, List.getElem?_eq_getElem hi] using he⟩
  · rintro ⟨i, hi, he⟩
    refine List.mem_flatten.mpr ⟨t[i], List.getElem_mem _, ?_⟩
    simpa [List.getD_eq_getElem?_getD, List.getElem?_eq_getElem hi] using he

theorem getD_nil_of_le {t : List (List α)} {i : Nat} (h : t.length ≤ i) : t.getD i [] = [] := by
  simp [List.getD_eq_getElem?_getD, List.getElem?_eq_none h]

theorem flatten_set_cons_perm (t : List (List α)) (i : Nat) (e : α) (h : i < t.length) :
    (t.set i (e :: t.getD i [])).flatten.Perm (e :: t.flatten) := by
  rw [flatten_set t i _ h, flatten_split t i h]
  simp only [List.append_assoc, List.cons_append]
  exact List.perm_middle

theorem perm_cons_eraseIdx : ∀ (l : List α) (p : Nat) (e : α), l[p]? = some e →
    (e :: l.eraseIdx p).Perm l
  | [], p, e, h => by simp at h
  | x :: l, 0, e, h => by
    simp at h; subst h; simp
  | x :: l, p + 1, e, h => by
    have ih := perm_cons_eraseIdx l p e (by simpa using h)
    simp only [List.eraseIdx_cons_succ]
    exact (List.Perm.swap x e _).trans (List.Perm.cons x ih)

theorem flatten_set_eraseIdx_perm (t : List (List α)) (i p : Nat) (e : α) (h : i < t.length)
    (he : (t.getD i [])[p]? = some e) :
    (e :: (t.set i ((t.getD i []).eraseIdx p)).flatten).Perm t.flatten := by
  rw [flatten_set t i _ h]
  conv_rhs => rw [flatten_split t i h]
  have hp := perm_cons_eraseIdx (t.getD i []) p e he
  have h1 : (e :: ((t.take i).flatten ++ (t.getD i []).eraseIdx p ++ (t.drop (i + 1)).flatten)).Perm
      ((t.take i).flatten ++ (e :: (t.getD i []).eraseIdx p) ++ (t.drop (i + 1)).flatten) := by
    simp only [List.append_assoc, List.cons_append]
    exact List.perm_middle.symm
  exact h1.trans ((hp.append_left _).append_right _)

end chains

/-! ## The hash table: shape invariant, search, insertion, expansion, deletion -/

section ht_theory
variable {K V : Type}

theorem ht_count_eq (ht : htHandle K V) : ht_count ht = (ht_toList ht).length := by
  simp [ht_count, ht_toList]

theorem ht_inv_index_lt {type : htType K} {ht : htHandle K V} (h : ht_inv type ht)
    (hs : ht.size ≠ 0) (x : Nat) : x &&& ht.mask < ht.table.length := by
  rw [h.len, h.mask]
  have := @Nat.and_le_right x (ht.size - 1)
  omega

theorem ht_link_toList (ht : htHandle K V) (i : Nat) (e : htEntry K V)
    (hi : i < ht.table.length) : (ht_toList (ht_link ht i e)).Perm (e :: ht_toList ht) :=
  flatten_set_cons_perm ht.table i e hi

theorem ht_link_inv {type : htType K} {ht : htHandle K V} (h : ht_inv type ht)
    (hs : ht.size ≠ 0) (e : htEntry K V) :
    ht_inv type (ht_link ht (type.hash_function e.key &&& ht.mask) e) := by
  have hi := ht_inv_index_lt h hs (type.hash_function e.key)
  refine ⟨?_, h.size, h.mask, ?_, ?_⟩
  · simp [ht_link, h.len]
  · have hp := (ht_link_toList ht _ e hi).length_eq
    rw [ht_count_eq]
    simp only [List.length_cons] at hp
    rw [hp, ← ht_count_eq, ← h.used]
    rfl
  · intro j e1 he1
    by_cases hj : type.hash_function e.key &&& ht.mask = j
    · subst hj
      simp only [ht_link] at he1
      rw [getD_set_self _ _ _ hi] at he1
      rcases List.mem_cons.mp he1 with h1 | h1
      · subst h1; rfl
      · exact h.bucket _ e1 h1
    · simp only [ht_link] at he1
      rw [getD_set_ne _ _ _ _ hj] at he1
      exact h.bucket j e1 he1

theorem ht_chain_find_none {type : htType K} {key : K} :
    ∀ {chain : List (htEntry K V)},
      ht_chain_find type key chain = none ↔ ∀ e ∈ chain, type.key_compare key e.key = 0
  | [] => by simp [ht_chain_find]
  | he :: next => by
    have ih := @ht_chain_find_none type key next
    by_cases hc : type.key_compare key he.key = 0
    · simp [ht_chain_find, hc, ih]
    · simp [ht_chain_find, hc]

theorem ht_chain_find_some {type : htType K} {key : K} :
    ∀ {chain : List (htEntry K V)} {p : Nat}, ht_chain_find type key chain = some p →
      ∃ e, chain[p]? = some e ∧ type.key_compare key e.key ≠ 0
  | [], p, h => by simp [ht_chain_find] at h
  | he :: next, p, h => by
    by_cases hc : type.key_compare key he.key = 0
    · simp only [ht_chain_find, hc, ne_eq, not_true_eq_false, if_false, Option.map_eq_some'] at h
      obtain ⟨q, hq, rfl⟩ := h
      obtain ⟨e, he1, he2⟩ := ht_chain_find_some hq
      exact ⟨e, by simpa using he1, he2⟩
    · simp only [ht_chain_find, ne_eq, hc, not_false_eq_true, if_true, Option.some.injEq] at h
      subst h
      exact ⟨he, by simp, hc⟩

theorem ht_toList_mem_bucket {type : htType K} {ht : htHandle K V} (h : ht_inv type ht)
    {e : htEntry K V} (he : e ∈ ht_toList ht) :
    ht.size ≠ 0 ∧ e ∈ ht.table.getD (type.hash_function e.key &&& ht.mask) [] := by
  obtain ⟨i, hi, hmem⟩ := mem_flatten_getD.mp he
  have hb := h.bucket i e hmem
  rw [hb]
  exact ⟨by rw [← h.len]; omega, hmem⟩

theorem ht_bucket_mem_toList {ht : htHandle K V} {i : Nat} {e : htEntry K V}
    (he : e ∈ ht.table.getD i []) : e ∈ ht_toList ht := by
  by_cases hi : i < ht.table.length
  · exact mem_flatten_getD.mpr ⟨i, hi, he⟩
  · rw [getD_nil_of_le (by omega)] at he
    exact absurd he (List.not_mem_nil _)

theorem ht_chain_find_none_iff {type : htType K} {good : K → Prop} (hl : type.lawful good)
    {ht : htHandle K V} (h : ht_wf type good ht) {key : K} (hk : good key) :
    ht_chain_find type key (ht.table.getD (type.hash_function key &&& ht.mask) []) = none
      ↔ key ∉ ht_keys ht := by
  rw [ht_chain_find_none]
  constructor
  · intro hall hmem
    obtain ⟨e, he, rfl⟩ := List.mem_map.mp hmem
    have hb := (ht_toList_mem_bucket h.inv he).2
    have := hall e hb
    exact ((hl e.key e.key hk hk).mpr rfl) this
  · intro hn e he
    by_contra hc
    have hg := h.good e (ht_bucket_mem_toList he)
    have := (hl key e.key hk hg).mp hc
    exact hn (List.mem_map.mpr ⟨e, ht_bucket_mem_toList he, this.symm⟩)

theorem ht_find_none_iff {type : htType K} {good : K → Prop} (hl : type.lawful good)
    {ht : htHandle K V} (h : ht_wf type good ht) {key : K} (hk : good key) :
    ht_find type ht key = none ↔ key ∉ ht_keys ht := by
  unfold ht_find
  by_cases hs : ht.size = 0
  · simp only [hs, if_true, true_iff]
    have : ht.table = [] := List.length_eq_zero.mp (by rw [h.inv.len, hs])
    simp [ht_keys, ht_toList, this]
  · simp only [hs, if_false, Option.map_eq_none']
    exact ht_chain_find_none_iff hl h hk

theorem ht_find_some {type : htType K} {good : K → Prop} (hl : type.lawful good)
    {ht : htHandle K V} (h : ht_wf type good ht) {key : K} (hk : good key) {he : htEntryRef}
    (hf : ht_find type ht key = some he) :
    ∃ e, ht_entry ht he = some e ∧ e.key = key ∧ e ∈ ht_toList ht := by
  unfold ht_find at hf
  by_cases hs : ht.size = 0
  · simp [hs] at hf
  · simp only [hs, if_false, Option.map_eq_some'] at hf
    obtain ⟨p, hp, rfl⟩ := hf
    obtain ⟨e, he1, he2⟩ := ht_chain_find_some hp
    have hmem : e ∈ ht.table.getD (type.hash_function key &&& ht.mask) [] :=
      List.getElem?_mem he1
    have hin := ht_bucket_mem_toList hmem
    refine ⟨e, he1, ?_, hin⟩
    exact ((hl key e.key hk (h.good e hin)).mp he2).symm

theorem ht_keys_inj {ht : htHandle K V} (hn : (ht_keys ht).Nodup) {e1 e2 : htEntry K V}
    (h1 : e1 ∈ ht_toList ht) (h2 : e2 ∈ ht_toList ht) (hk : e1.key = e2.key) : e1 = e2 :=
  List.inj_on_of_nodup_map hn h1 h2 hk

theorem ht_lookup_eq_some {type : htType K} {good : K → Prop} (hl : type.lawful good)
    {ht : htHandle K V} (h : ht_wf type good ht) {key : K} (hk : good key) (v : V) :
    ht_lookup type ht key = some v ↔ (⟨key, v⟩ : htEntry K V) ∈ ht_toList ht := by
  unfold ht_lookup
  constructor
  · intro hlk
    cases hf : ht_find type ht key with
    | none => simp [hf] at hlk
    | some he =>
      obtain ⟨e, he1, he2, he3⟩ := ht_find_some hl h hk hf
      simp only [hf, Option.some_bind, he1, Option.map_some', Option.some.injEq] at hlk
      have : e = ⟨key, v⟩ := by cases e; simp_all
      rw [← this]; exact he3
  · intro hmem
    cases hf : ht_find type ht key with
    | none =>
      have := (ht_find_none_iff hl h hk).mp hf
      exact absurd (List.mem_map.mpr ⟨_, hmem, rfl⟩) this
    | some he =>
      obtain ⟨e, he1, he2, he3⟩ := ht_find_some hl h hk hf
      have := ht_keys_inj h.nodup he3 hmem he2
      simp [he1, this]

theorem ht_lookup_eq_none {type : htType K} {good : K → Prop} (hl : type.lawful good)
    {ht : htHandle K V} (h : ht_wf type good ht) {key : K} (hk : good key) :
    ht_lookup type ht key = none ↔ key ∉ ht_keys ht := by
  constructor
  · intro hlk hmem
    obtain ⟨e, he, rfl⟩ := List.mem_map.mp hmem
    have := (ht_lookup_eq_some hl h hk e.val).mpr he
    rw [hlk] at this
    exact absurd this (by simp)
  · intro hn
    unfold ht_lookup
    rw [(ht_find_none_iff hl h hk).mpr hn]
    rfl

end ht_theory

section ht_grow
variable {K V : Type}

theorem _ht_next_power_pow (k : Nat) (h2 : 2 ≤ k) (h30 : k ≤ 30) :
    _ht_next_power (2 ^ k) = 2 ^ k := by
  interval_cases k <;> rfl

/-- The step of the rehash loops: link the entry into the bucket of its key. -/
theorem _ht_rehash_chain_eq (type : htType K) :
    ∀ (chain : List (htEntry K V)) (used : Nat) (n : htHandle K V),
      _ht_rehash_chain type chain used n
        = (used - chain.length,
           chain.foldl (fun m e => ht_link m (type.hash_function e.key &&& m.mask) e) n)
  | [], used, n => by simp [_ht_rehash_chain]
  | he :: next, used, n => by
    rw [_ht_rehash_chain, _ht_rehash_chain_eq type next]
    simp only [List.length_cons, List.foldl_cons, Prod.mk.injEq, and_true]
    omega

theorem sum_length_eq_zero : ∀ (t : List (List (htEntry K V))),
    (t.map List.length).sum = 0 → t.flatten = []
  | [], _ => rfl
  | c :: t, h => by
    simp only [List.map_cons, List.sum_cons] at h
    have hc : c = [] := List.length_eq_zero.mp (by omega)
    have := sum_length_eq_zero t (by omega)
    simp [hc, this]

theorem _ht_rehash_loop_eq (type : htType K) :
    ∀ (table : List (List (htEntry K V))) (used : Nat) (n : htHandle K V),
      used = (table.map List.length).sum →
      _ht_rehash_loop type table used n
        = (0, table.flatten.foldl
            (fun m e => ht_link m (type.hash_function e.key &&& m.mask) e) n)
  | [], used, n, h => by simp at h; simp [_ht_rehash_loop, h]
  | chain :: rest, used, n, h => by
    by_cases hu : used = 0
    · have hz := sum_length_eq_zero (chain :: rest) (by rw [← h, hu])
      simp [_ht_rehash_loop, hu, hz]
    · simp only [List.map_cons, List.sum_cons] at h
      rw [_ht_rehash_loop, if_neg hu]
      simp only [_ht_rehash_chain_eq]
      rw [_ht_rehash_loop_eq type rest _ _ (by omega)]
      simp [List.foldl_append]

theorem foldl_link_spec (type : htType K) :
    ∀ (es : List (htEntry K V)) (n : htHandle K V), ht_inv type n → n.size ≠ 0 →
      let r := es.foldl (fun m e => ht_link m (type.hash_function e.key &&& m.mask) e) n
      ht_inv type r ∧ r.size = n.size ∧ (ht_toList r).Perm (es ++ ht_toList n)
  | [], n, h, _ => ⟨h, rfl, List.Perm.refl _⟩
  | e :: es, n, h, hs => by
    have h1 := ht_link_inv h hs e
    have hs1 : (ht_link n (type.hash_function e.key &&& n.mask) e).size ≠ 0 := hs
    have ih := foldl_link_spec type es _ h1 hs1
    refine ⟨ih.1, ih.2.1, ?_⟩
    have hp := ht_link_toList n _ e (ht_inv_index_lt h hs (type.hash_function e.key))
    refine ih.2.2.trans ?_
    refine (List.Perm.append_left es hp).trans ?_
    simp only [List.cons_append]
    exact List.perm_middle

theorem ht_empty_inv (type : htType K) (k : Nat) (h2 : 2 ≤ k) (h30 : k ≤ 30) :
    ht_inv type (⟨List.replicate (2 ^ k) [], 2 ^ k, 2 ^ k - 1, 0⟩ : htHandle K V) := by
  refine ⟨by simp, Or.inr ⟨k, h2, h30, rfl⟩, rfl, ?_, ?_⟩
  · simp [ht_count]
  · intro i e he
    simp only [List.getD_eq_getElem?_getD] at he
    by_cases hi : i < (List.replicate (2 ^ k) ([] : List (htEntry K V))).length
    · rw [List.getElem?_eq_getElem hi] at he
      simp at he
    · rw [List.getElem?_eq_none (by omega)] at he
      simp at he

theorem ht_empty_toList (n : Nat) :
    ht_toList (⟨List.replicate n [], n, n - 1, 0⟩ : htHandle K V) = [] := by
  induction n with
  | zero => rfl
  | succ n ih =>
    simp only [ht_toList] at ih ⊢
    rw [List.replicate_succ, List.flatten_cons, ih]
    rfl

theorem ht_wf_of_perm {type : htType K} {good : K → Prop} {ht ht1 : htHandle K V}
    (h : ht_wf type good ht) (hi : ht_inv type ht1) (hp : (ht_toList ht1).Perm (ht_toList ht))
    (hle : ht1.used ≤ ht1.size) : ht_wf type good ht1 := by
  refine ⟨hi, hle, ?_, ?_⟩
  · intro e he; exact h.good e (hp.mem_iff.mp he)
  · exact (List.Perm.nodup_iff (hp.map _)).mpr h.nodup

theorem ht_wf_size_pos {type : htType K} {good : K → Prop} {ht : htHandle K V}
    (h : ht_wf type good ht) (hs : ht.size ≠ 0) : ∃ k, 2 ≤ k ∧ k ≤ 30 ∧ ht.size = 2 ^ k := by
  rcases h.inv.size with h0 | h1
  · exact absurd h0 hs
  · exact h1

/-- `_ht_expand_if_needed` on a well-formed table with fewer than 2^30 entries succeeds
and leaves a well-formed table with the same entries and a free slot. -/
theorem _ht_expand_if_needed_wf {type : htType K} {good : K → Prop} {ht : htHandle K V}
    (h : ht_wf type good ht) (hu : ht.used < 2 ^ 30) :
    (_ht_expand_if_needed type ht).1 = HT_OK
    ∧ ht_wf type good (_ht_expand_if_needed type ht).2
    ∧ (ht_toList (_ht_expand_if_needed type ht).2).Perm (ht_toList ht)
    ∧ (_ht_expand_if_needed type ht).2.used < (_ht_expand_if_needed type ht).2.size := by
  unfold _ht_expand_if_needed
  by_cases hs : ht.size = 0
  · have hused : ht.used = 0 := by have := h.le; omega
    have htab : ht.table = [] := List.length_eq_zero.mp (by rw [h.inv.len, hs])
    have hnp : _ht_next_power HT_INITIAL_SIZE = 4 := rfl
    simp only [hs, if_true, _ht_expand, hnp, hused, htab, List.isEmpty_nil]
    have hlt : ¬ (HT_INITIAL_SIZE < 0) := by omega
    simp only [hlt, if_false, show ¬ ((4 : Nat) = 0) by omega]
    have hinv := ht_empty_inv (V := V) type 2 (le_refl 2) (by norm_num)
    have hnil := ht_empty_toList (K := K) (V := V) 4
    have hnil0 : ht_toList ht = [] := by simp [ht_toList, htab]
    refine ⟨by first | rfl | trivial, ?_, ?_, ?_⟩
    · refine ht_wf_of_perm h hinv ?_ (by simp)
      rw [hnil0]; exact (List.perm_nil.mpr hnil)
    · rw [hnil0]; exact (List.perm_nil.mpr hnil)
    · show 0 < 4; omega
  · simp only [hs, if_false]
    by_cases hfull : ht.size ≤ ht.used
    · obtain ⟨k, hk2, hk30, hk⟩ := ht_wf_size_pos h hs
      have hused : ht.used = 2 ^ k := by have := h.le; omega
      have hk29 : k ≤ 29 := by
        by_contra hc
        have hk30' : k = 30 := by omega
        rw [hk30'] at hused
        omega
      have hdbl : ht.used * 2 = 2 ^ (k + 1) := by rw [hused, pow_succ]
      have hnp : _ht_next_power (ht.used * 2) = 2 ^ (k + 1) := by
        rw [hdbl]; exact _ht_next_power_pow (k + 1) (by omega) (by omega)
      have hne : ¬ (2 ^ (k + 1) = ht.size) := by
        rw [hk, pow_succ]
        have : 0 < 2 ^ k := by positivity
        omega
      have hnlt : ¬ (ht.used * 2 < ht.used) := by omega
      have htab : ht.table.isEmpty = false := by
        cases hc : ht.table with
        | nil =>
          have := h.inv.len
          rw [hc] at this
          exact absurd this.symm hs
        | cons c t => rfl
      simp only [hfull, if_true, _ht_expand, hnp, hnlt, if_false, hne, htab,
        Bool.false_eq_true]
      have hinv := ht_empty_inv (V := V) type (k + 1) (by omega) (by omega)
      have hspec := foldl_link_spec type ht.table.flatten
        (⟨List.replicate (2 ^ (k + 1)) [], 2 ^ (k + 1), 2 ^ (k + 1) - 1, 0⟩ : htHandle K V) hinv
        (by simp)
      have hloop := _ht_rehash_loop_eq type ht.table ht.used
        (⟨List.replicate (2 ^ (k + 1)) [], 2 ^ (k + 1), 2 ^ (k + 1) - 1, 0⟩ : htHandle K V)
        h.inv.used
      simp only [_ht_rehash, hloop, if_true]
      simp only [ht_empty_toList, List.append_nil] at hspec
      obtain ⟨hi, hsz, hp⟩ := hspec
      have hp : (ht_toList (List.foldl
          (fun m e => ht_link m (type.hash_function e.key &&& m.mask) e)
          (⟨List.replicate (2 ^ (k + 1)) [], 2 ^ (k + 1), 2 ^ (k + 1) - 1, 0⟩ : htHandle K V)
          ht.table.flatten)).Perm (ht_toList ht) := hp
      have hlen := hp.length_eq
      have hu1 : (List.foldl (fun m e => ht_link m (type.hash_function e.key &&& m.mask) e)
          (⟨List.replicate (2 ^ (k + 1)) [], 2 ^ (k + 1), 2 ^ (k + 1) - 1, 0⟩ : htHandle K V)
          ht.table.flatten).used = ht.used := by
        rw [hi.used, ht_count_eq, h.inv.used, ht_count_eq]; exact hlen
      have hlt : ht.used < 2 ^ (k + 1) := by
        rw [hused, pow_succ]
        have : 0 < 2 ^ k := by positivity
        omega
      refine ⟨by first | rfl | trivial, ?_, hp, ?_⟩
      · refine ht_wf_of_perm h hi hp ?_
        rw [hu1, hsz]; omega
      · rw [hu1, hsz]; exact hlt
    · simp only [hfull, if_false]
      exact ⟨by first | rfl | trivial, h, List.Perm.refl _, by omega⟩

end ht_grow

section ht_update
variable {K V : Type}

theorem ht_add_eq_link [Inhabited V] (type : htType K) (ht : htHandle K V) (key : K) (val : V)
    (index : Nat) (ht1 : htHandle K V) (hki : _ht_key_index type ht key = (some index, ht1))
    (hi : index < ht1.table.length) :
    ht_add type ht key val = (HT_OK, ht_link ht1 index ⟨key, val⟩) := by
  unfold ht_add ht_add_raw
  rw [hki]
  simp only [ht_set_val, ht_entry_update, ht_link, Prod.mk.injEq, true_and]
  rw [getD_set_self _ _ _ hi]
  simp [ht_chain_update, List.set_set]

theorem _ht_key_index_new {type : htType K} {good : K → Prop} (hl : type.lawful good)
    {ht : htHandle K V} (h : ht_wf type good ht) {key : K} (hk : good key)
    (hu : ht.used < 2 ^ 30) (hn : key ∉ ht_keys ht) :
    _ht_key_index type ht key
      = (some (type.hash_function key &&& (_ht_expand_if_needed type ht).2.mask),
         (_ht_expand_if_needed type ht).2) := by
  obtain ⟨h1, h2, h3, h4⟩ := _ht_expand_if_needed_wf h hu
  have hn2 : key ∉ ht_keys (_ht_expand_if_needed type ht).2 := by
    intro hm; exact hn ((h3.map _).mem_iff.mp hm)
  have hcf := (ht_chain_find_none_iff hl h2 hk).mpr hn2
  unfold _ht_key_index
  simp only [h1, HT_OK, one_ne_zero, if_false, hcf]

theorem _ht_key_index_old {type : htType K} {good : K → Prop} (hl : type.lawful good)
    {ht : htHandle K V} (h : ht_wf type good ht) {key : K} (hk : good key)
    (hu : ht.used < 2 ^ 30) (hn : key ∈ ht_keys ht) :
    _ht_key_index type ht key = (none, (_ht_expand_if_needed type ht).2) := by
  obtain ⟨h1, h2, h3, h4⟩ := _ht_expand_if_needed_wf h hu
  have hn2 : key ∈ ht_keys (_ht_expand_if_needed type ht).2 := (h3.map _).mem_iff.mpr hn
  have hcf : ht_chain_find type key ((_ht_expand_if_needed type ht).2.table.getD
      (type.hash_function key &&& (_ht_expand_if_needed type ht).2.mask) []) ≠ none := by
    intro hc; exact ((ht_chain_find_none_iff hl h2 hk).mp hc) hn2
  unfold _ht_key_index
  simp only [h1, HT_OK, one_ne_zero, if_false]
  cases hc : ht_chain_find type key ((_ht_expand_if_needed type ht).2.table.getD
      (type.hash_function key &&& (_ht_expand_if_needed type ht).2.mask) []) with
  | none => exact absurd hc hcf
  | some p => rfl

/-- `ht_add` of a key that is not stored: the pair is added and nothing else changes. -/
theorem ht_add_new [Inhabited V] {type : htType K} {good : K → Prop} (hl : type.lawful good)
    {ht : htHandle K V} (h : ht_wf type good ht) {key : K} (hk : good key)
    (hu : ht.used < 2 ^ 30) (hn : key ∉ ht_keys ht) (val : V) :
    ∃ ht1, ht_add type ht key val = (HT_OK, ht1) ∧ ht_wf type good ht1
      ∧ (ht_toList ht1).Perm (⟨key, val⟩ :: ht_toList ht) := by
  obtain ⟨h1, h2, h3, h4⟩ := _ht_expand_if_needed_wf h hu
  have hs : (_ht_expand_if_needed type ht).2.size ≠ 0 := by omega
  have hi := ht_inv_index_lt h2.inv hs (type.hash_function key)
  have hadd := ht_add_eq_link type ht key val _ _ (_ht_key_index_new hl h hk hu hn) hi
  have hp := ht_link_toList (_ht_expand_if_needed type ht).2 _ (⟨key, val⟩ : htEntry K V) hi
  have hp2 : (ht_toList (ht_link (_ht_expand_if_needed type ht).2
      (type.hash_function key &&& (_ht_expand_if_needed type ht).2.mask) ⟨key, val⟩)).Perm
      (⟨key, val⟩ :: ht_toList ht) := hp.trans (List.Perm.cons _ h3)
  refine ⟨_, hadd, ⟨ht_link_inv h2.inv hs ⟨key, val⟩, ?_, ?_, ?_⟩, hp2⟩
  · show (_ht_expand_if_needed type ht).2.used + 1 ≤ (_ht_expand_if_needed type ht).2.size
    omega
  · intro e he
    rcases List.mem_cons.mp (hp2.mem_iff.mp he) with h5 | h5
    · subst h5; exact hk
    · exact h.good e h5
  · have hkp := hp2.map (fun e => e.key)
    refine (List.Perm.nodup_iff hkp).mpr ?_
    simp only [List.map_cons]
    exact List.nodup_cons.mpr ⟨hn, h.nodup⟩

/-- `ht_add` of a key that is already stored returns `HT_ERR` and stores nothing. -/
theorem ht_add_old [Inhabited V] {type : htType K} {good : K → Prop} (hl : type.lawful good)
    {ht : htHandle K V} (h : ht_wf type good ht) {key : K} (hk : good key)
    (hu : ht.used < 2 ^ 30) (hn : key ∈ ht_keys ht) (val : V) :
    ∃ ht1, ht_add type ht key val = (HT_ERR, ht1) ∧ ht_wf type good ht1
      ∧ (ht_toList ht1).Perm (ht_toList ht) ∧ ht1.used = ht.used := by
  obtain ⟨h1, h2, h3, h4⟩ := _ht_expand_if_needed_wf h hu
  refine ⟨(_ht_expand_if_needed type ht).2, ?_, h2, h3, ?_⟩
  · unfold ht_add ht_add_raw
    rw [_ht_key_index_old hl h hk hu hn]
  · rw [h2.inv.used, h.inv.used, ht_count_eq, ht_count_eq]
    exact h3.length_eq

theorem ht_entry_mem {ht : htHandle K V} {he : htEntryRef} {e : htEntry K V}
    (h : ht_entry ht he = some e) :
    he.index < ht.table.length ∧ e ∈ ht.table.getD he.index [] ∧ e ∈ ht_toList ht := by
  have hmem : e ∈ ht.table.getD he.index [] := List.getElem?_mem h
  refine ⟨?_, hmem, ht_bucket_mem_toList hmem⟩
  by_contra hc
  rw [getD_nil_of_le (by omega)] at hmem
  exact absurd hmem (List.not_mem_nil _)

/-- `ht_delete` of a stored entry unlinks exactly that entry. -/
theorem ht_delete_wf {type : htType K} {good : K → Prop} {ht : htHandle K V}
    (h : ht_wf type good ht) {he : htEntryRef} {e : htEntry K V}
    (hent : ht_entry ht he = some e) :
    ∃ ht1, ht_delete type ht he = some ht1 ∧ ht_wf type good ht1
      ∧ (e :: ht_toList ht1).Perm (ht_toList ht) := by
  obtain ⟨hi, hmem, hin⟩ := ht_entry_mem hent
  have hs : ht.size ≠ 0 := by rw [← h.inv.len]; omega
  have hb := h.inv.bucket he.index e hmem
  have hp := flatten_set_eraseIdx_perm ht.table he.index he.pos e hi hent
  have hcount : ht_count ht = (ht_toList ht).length := ht_count_eq ht
  have hlen := hp.length_eq
  simp only [List.length_cons] at hlen
  obtain ⟨k, hk2, hk30, hk⟩ := ht_wf_size_pos h hs
  have hsz : ht.size ≤ 2 ^ 30 := by rw [hk]; exact Nat.pow_le_pow_right (by norm_num) hk30
  have hused1 : 1 ≤ ht.used := by
    rw [h.inv.used, hcount]
    exact List.length_pos_of_mem hin
  have hmod : (ht.used + 4294967295) % 4294967296 = ht.used - 1 := by
    have := h.le
    omega
  refine ⟨{ ht with table := ht.table.set he.index ((ht.table.getD he.index []).eraseIdx he.pos),
                    used := (ht.used + 4294967295) % 4294967296 }, ?_, ?_, hp⟩
  · unfold ht_delete
    simp only [hs, if_false, hent, hb, or_true, if_true]
  · have hinv : ht_inv type { ht with
        table := ht.table.set he.index ((ht.table.getD he.index []).eraseIdx he.pos),
        used := (ht.used + 4294967295) % 4294967296 } := by
      refine ⟨by simp [h.inv.len], h.inv.size, h.inv.mask, ?_, ?_⟩
      · show (ht.used + 4294967295) % 4294967296 = _
        rw [hmod, ht_count_eq, h.inv.used, hcount]
        show _ = (ht.table.set he.index ((ht.table.getD he.index []).eraseIdx he.pos)).flatten.length
        simp only [ht_toList] at hlen ⊢
        omega
      · intro j e1 he1
        by_cases hj : he.index = j
        · subst hj
          simp only [getD_set_self _ _ _ hi] at he1
          exact h.inv.bucket _ e1 (List.mem_of_mem_eraseIdx he1)
        · simp only [getD_set_ne _ _ _ _ hj] at he1
          exact h.inv.bucket j e1 he1
    refine ⟨hinv, ?_, ?_, ?_⟩
    · show (ht.used + 4294967295) % 4294967296 ≤ ht.size
      have := h.le
      omega
    · intro e1 he1
      exact h.good e1 (hp.mem_iff.mp (List.mem_cons_of_mem _ he1))
    · have hkp := hp.map (fun e => e.key)
      have := (List.Perm.nodup_iff hkp).mpr h.nodup
      simp only [List.map_cons] at this
      exact (List.nodup_cons.mp this).2

end ht_update

/-! ## The iterator -/

section ht_iter
variable {K V : Type}

theorem getD_drop_head {α : Type} {t rest : List (List α)} {chain : List α} {i : Nat}
    (h : t.drop i = chain :: rest) : i < t.length ∧ t.getD i [] = chain ∧ t.drop (i + 1) = rest := by
  have hi : i < t.length := by
    by_contra hc
    rw [List.drop_eq_nil_of_le (by omega)] at h
    exact absurd h (by simp)
  refine ⟨hi, ?_, ?_⟩
  · have := List.drop_eq_getElem_cons hi
    rw [this] at h
    simp only [List.cons.injEq] at h
    simp [List.getD_eq_getElem?_getD, List.getElem?_eq_getElem hi, h.1]
  · have := List.drop_eq_getElem_cons hi
    rw [this] at h
    simp only [List.cons.injEq] at h
    exact h.2

theorem range'_pos_cons (p n : Nat) (h : p < n) :
    List.range' p (n - p) = p :: List.range' (p + 1) (n - (p + 1)) := by
  have : n - p = (n - (p + 1)) + 1 := by omega
  rw [this, List.range'_succ]

theorem ht_next_loop_scan (ht : htHandle K V) (hlen : ht.table.length = ht.size) :
    ∀ (rest : List (List (htEntry K V))) (fuel index : Nat),
      ht.table.drop (index + 1) = rest → rest.length < fuel →
      (ht_refs_aux rest (index + 1) = [] → (ht_next_loop ht fuel none index).1 = none)
      ∧ (∀ r rs, ht_refs_aux rest (index + 1) = r :: rs →
          (ht_next_loop ht fuel none index).1 = some r
          ∧ ht_iter_ok ht (ht_next_loop ht fuel none index).2
          ∧ ht_remaining ht (ht_next_loop ht fuel none index).2 = rs)
  | [], fuel, index, hd, hf => by
    obtain ⟨f, rfl⟩ : ∃ f, fuel = f + 1 := ⟨fuel - 1, by omega⟩
    have hsz : ht.size ≤ index + 1 := by
      rw [← hlen]
      by_contra hc
      have := List.drop_eq_nil_iff.mp hd
      omega
    constructor
    · intro _; simp [ht_next_loop, hsz]
    · intro r rs h; simp [ht_refs_aux] at h
  | chain :: rest, fuel, index, hd, hf => by
    obtain ⟨f, rfl⟩ : ∃ f, fuel = f + 1 := ⟨fuel - 1, by omega⟩
    obtain ⟨hi, hget, hdrop⟩ := getD_drop_head hd
    have hsz : ¬ (ht.size ≤ index + 1) := by rw [← hlen]; omega
    have ih := ht_next_loop_scan ht hlen rest f (index + 1) hdrop
      (by simp only [List.length_cons] at hf; omega)
    cases hc : chain with
    | nil =>
      have hhead : ht_bucket_head ht (index + 1) = none := by
        unfold ht_bucket_head; rw [hget, hc]; rfl
      have hrefs : ht_refs_aux (chain :: rest) (index + 1) = ht_refs_aux rest (index + 1 + 1) := by
        simp [ht_refs_aux, hc]
      rw [← hc, hrefs]
      have hstep : ht_next_loop ht (f + 1) none index = ht_next_loop ht f none (index + 1) := by
        rw [ht_next_loop]; simp only [hsz, if_false, hhead]
      rw [hstep]
      exact ih
    | cons e es =>
      have hhead : ht_bucket_head ht (index + 1) = some ⟨index + 1, 0⟩ := by
        unfold ht_bucket_head; rw [hget, hc]; rfl
      have hstep : ht_next_loop ht (f + 1) none index
          = ht_next_loop ht f (some ⟨index + 1, 0⟩) (index + 1) := by
        rw [ht_next_loop]; simp only [hsz, if_false, hhead]
      obtain ⟨g, rfl⟩ : ∃ g, f = g + 1 := ⟨f - 1, by simp only [List.length_cons] at hf; omega⟩
      have hres : ht_next_loop ht (g + 1) (some ⟨index + 1, 0⟩) (index + 1)
          = (some ⟨index + 1, 0⟩, ⟨ht_entry_next ht ⟨index + 1, 0⟩, index + 1⟩) := by
        rw [ht_next_loop]
      rw [hstep, hres]
      constructor
      · intro h; simp [ht_refs_aux, List.range_succ_eq_map] at h
      · intro r rs h
        have hrange : List.range (e :: es).length = 0 :: List.range' 1 es.length := by
          rw [List.length_cons, List.range_eq_range', List.range'_succ]
        simp only [ht_refs_aux, hrange, List.map_cons, List.cons_append, List.cons.injEq] at h
        obtain ⟨h1, h2⟩ := h
        refine ⟨by rw [h1], ?_, ?_⟩
        · intro r1 hr1
          simp only [ht_entry_next] at hr1
          split at hr1
          · next hlt =>
            simp only [Option.some.injEq] at hr1
            subst hr1
            exact ⟨rfl, hlt⟩
          · exact absurd hr1 (by simp)
        · rw [← h2]
          simp only [ht_remaining, ht_entry_next, hget, hc, List.length_cons, hdrop]
          by_cases hes : 0 + 1 < es.length + 1
          · simp only [hes, if_true, Nat.zero_add]
            rw [hget, hc]
            simp only [List.length_cons, Nat.add_sub_cancel]
          · simp only [hes, if_false]
            have : es.length = 0 := by omega
            simp [this]

theorem ht_create_iterator_remaining (ht : htHandle K V) (hlen : ht.table.length = ht.size) :
    ht_iter_ok ht (ht_create_iterator ht)
    ∧ ht_remaining ht (ht_create_iterator ht) = ht_refs ht := by
  cases htab : ht.table with
  | nil =>
    have hs : ht.size = 0 := by rw [← hlen, htab]; rfl
    constructor
    · intro r hr; simp [ht_create_iterator, hs] at hr
    · simp [ht_remaining, ht_create_iterator, hs, ht_refs, htab, ht_refs_aux]
  | cons chain rest =>
    have hs : 0 < ht.size := by rw [← hlen, htab]; simp
    cases hc : chain with
    | nil =>
      constructor
      · intro r hr
        simp [ht_create_iterator, hs, ht_bucket_head, htab, hc] at hr
      · simp [ht_remaining, ht_create_iterator, hs, ht_bucket_head, htab, hc, ht_refs,
          ht_refs_aux]
    | cons e es =>
      constructor
      · intro r hr
        simp only [ht_create_iterator, hs, if_true, ht_bucket_head, htab, hc,
          List.getD_cons_zero, List.isEmpty_cons, Bool.false_eq_true, if_false,
          Option.some.injEq] at hr
        subst hr
        refine ⟨rfl, ?_⟩
        simp only [htab, hc, List.getD_cons_zero, List.length_cons]
        omega
      · simp only [ht_remaining, ht_create_iterator, hs, if_true, ht_bucket_head, htab, hc,
          List.getD_cons_zero, List.isEmpty_cons, Bool.false_eq_true, if_false, ht_refs,
          ht_refs_aux, List.drop_succ_cons, List.drop_zero, Nat.sub_zero, zero_add]
        rw [List.range_eq_range']

/-- `ht_next` returns the first of the remaining pointers and keeps the rest. -/
theorem ht_next_spec (ht : htHandle K V) (hlen : ht.table.length = ht.size) (it : htIterator)
    (hok : ht_iter_ok ht it) :
    (ht_remaining ht it = [] → (ht_next ht it).1 = none)
    ∧ (∀ r rs, ht_remaining ht it = r :: rs →
        (ht_next ht it).1 = some r ∧ ht_iter_ok ht (ht_next ht it).2
        ∧ ht_remaining ht (ht_next ht it).2 = rs) := by
  obtain ⟨next, index⟩ := it
  cases next with
  | some r0 =>
    obtain ⟨hidx, hpos⟩ := hok r0 rfl
    simp only at hidx
    have hfuel : ht.size + 1 - index = (ht.size - index) + 1 := by
      have : index < ht.size := by
        rw [← hlen, ← hidx]
        by_contra hc
        rw [getD_nil_of_le (by omega)] at hpos
        simp at hpos
      omega
    have hres : ht_next ht ⟨some r0, index⟩ = (some r0, ⟨ht_entry_next ht r0, index⟩) := by
      simp only [ht_next, hfuel, ht_next_loop]
    have hrem : ht_remaining ht ⟨some r0, index⟩
        = r0 :: ht_remaining ht ⟨ht_entry_next ht r0, index⟩ := by
      simp only [ht_remaining]
      rw [range'_pos_cons _ _ hpos]
      simp only [List.map_cons, List.cons_append, ht_entry_next]
      by_cases hlt : r0.pos + 1 < (ht.table.getD r0.index []).length
      · simp only [hlt, if_true]
      · simp only [hlt, if_false]
        have : (ht.table.getD r0.index []).length - (r0.pos + 1) = 0 := by omega
        simp only [this, List.range'_zero, List.map_nil, List.nil_append]
    rw [hres, hrem]
    constructor
    · intro h; exact absurd h (by simp)
    · intro r rs h
      simp only [List.cons.injEq] at h
      refine ⟨by rw [h.1], ?_, h.2⟩
      intro r1 hr1
      simp only [ht_entry_next] at hr1
      split at hr1
      · next hlt =>
        simp only [Option.some.injEq] at hr1
        subst hr1
        exact ⟨hidx, hlt⟩
      · exact absurd hr1 (by simp)
  | none =>
    have hrem : ht_remaining ht ⟨none, index⟩
        = ht_refs_aux (ht.table.drop (index + 1)) (index + 1) := by
      simp [ht_remaining]
    rw [hrem]
    by_cases hix : index ≤ ht.size
    · have hfuel : (ht.table.drop (index + 1)).length < ht.size + 1 - index := by
        rw [List.length_drop, hlen]; omega
      exact ht_next_loop_scan ht hlen _ _ index rfl hfuel
    · have hnil : ht.table.drop (index + 1) = [] :=
        List.drop_eq_nil_of_le (by rw [hlen]; omega)
      have hfuel : ht.size + 1 - index = 0 := by omega
      rw [hnil]
      constructor
      · intro _; simp only [ht_next, hfuel, ht_next_loop]
      · intro r rs h; simp [ht_refs_aux] at h

end ht_iter

/-! ## Pointers, shapes and slot updates -/

section ht_refs
variable {K V : Type}

theorem filterMap_getElem?_range {α : Type} (l : List α) :
    (List.range l.length).filterMap (fun p => l[p]?) = l := by
  induction l using List.reverseRecOn with
  | nil => rfl
  | append_singleton l a ih =>
    rw [List.length_append, List.length_singleton, List.range_succ, List.filterMap_append]
    have h1 : (List.range l.length).filterMap (fun p => (l ++ [a])[p]?)
        = (List.range l.length).filterMap (fun p => l[p]?) := by
      apply List.filterMap_congr
      intro p hp
      rw [List.getElem?_append_left (List.mem_range.mp hp)]
    rw [h1, ih]
    simp

theorem ht_refs_aux_entries {α : Type} : ∀ (t pre : List (List α)),
    (ht_refs_aux t pre.length).filterMap (fun r => ((pre ++ t).getD r.index [])[r.pos]?)
      = t.flatten
  | [], pre => rfl
  | chain :: rest, pre => by
    have ih := ht_refs_aux_entries rest (pre ++ [chain])
    simp only [List.length_append, List.length_singleton, List.append_assoc,
      List.singleton_append] at ih
    simp only [ht_refs_aux, List.filterMap_append, List.flatten_cons, ih]
    congr 1
    rw [List.filterMap_map]
    have hget : (pre ++ chain :: rest).getD pre.length [] = chain := by
      rw [List.getD_eq_getElem?_getD, List.getElem?_append_right (le_refl _)]
      simp
    have : ((fun r : htEntryRef => ((pre ++ chain :: rest).getD r.index [])[r.pos]?)
        ∘ fun p => (⟨pre.length, p⟩ : htEntryRef)) = fun p => chain[p]? := by
      funext p
      simp only [Function.comp, hget]
    rw [this, filterMap_getElem?_range]

theorem ht_refs_entries (ht : htHandle K V) :
    (ht_refs ht).filterMap (ht_entry ht) = ht_toList ht := by
  have := ht_refs_aux_entries ht.table []
  simp only [List.length_nil, List.nil_append] at this
  exact this

theorem mem_ht_refs_aux {α : Type} : ∀ (t : List (List α)) (i : Nat) (r : htEntryRef),
    r ∈ ht_refs_aux t i ↔ i ≤ r.index ∧ r.pos < (t.getD (r.index - i) []).length
  | [], i, r => by simp [ht_refs_aux]
  | chain :: rest, i, r => by
    have ih := mem_ht_refs_aux rest (i + 1) r
    simp only [ht_refs_aux, List.mem_append, List.mem_map, List.mem_range, ih]
    constructor
    · rintro (⟨p, hp, rfl⟩ | ⟨h1, h2⟩)
      · simpa using hp
      · refine ⟨by omega, ?_⟩
        have : r.index - i = (r.index - (i + 1)) + 1 := by omega
        rw [this, List.getD_cons_succ]
        exact h2
    · rintro ⟨h1, h2⟩
      by_cases hi : r.index = i
      · left
        refine ⟨r.pos, ?_, ?_⟩
        · rw [hi] at h2; simpa using h2
        · cases r; simp_all
      · right
        refine ⟨by omega, ?_⟩
        have : r.index - i = (r.index - (i + 1)) + 1 := by omega
        rw [this, List.getD_cons_succ] at h2
        exact h2

theorem mem_ht_refs (ht : htHandle K V) (r : htEntryRef) :
    r ∈ ht_refs ht ↔ ∃ e, ht_entry ht r = some e := by
  rw [ht_refs, mem_ht_refs_aux]
  simp only [Nat.zero_le, true_and, Nat.sub_zero, ht_entry]
  constructor
  · intro h; exact ⟨_, List.getElem?_eq_getElem h⟩
  · rintro ⟨e, he⟩
    by_contra hc
    rw [List.getElem?_eq_none (by omega)] at he
    exact absurd he (by simp)

theorem ht_refs_aux_nodup {α : Type} : ∀ (t : List (List α)) (i : Nat), (ht_refs_aux t i).Nodup
  | [], i => by simp [ht_refs_aux]
  | chain :: rest, i => by
    have ih := ht_refs_aux_nodup rest (i + 1)
    simp only [ht_refs_aux]
    refine List.Nodup.append ?_ ih ?_
    · refine List.Nodup.map ?_ (List.nodup_range _)
      intro a b hab
      simpa using hab
    · intro r h1 h2
      obtain ⟨p, _, rfl⟩ := List.mem_map.mp h1
      have := ((mem_ht_refs_aux rest (i + 1) _).mp h2).1
      simp at this

theorem ht_refs_length (ht : htHandle K V) : (ht_refs ht).length = ht_count ht := by
  have h1 := congrArg List.length (ht_refs_entries ht)
  have h2 : ((ht_refs ht).filterMap (ht_entry ht)).length = (ht_refs ht).length := by
    have hall : ∀ r ∈ ht_refs ht, ∃ e, ht_entry ht r = some e :=
      fun r hr => (mem_ht_refs ht r).mp hr
    generalize ht_refs ht = rs at hall
    induction rs with
    | nil => rfl
    | cons r rs ih =>
      obtain ⟨e, he⟩ := hall r (List.mem_cons_self _ _)
      rw [List.filterMap_cons_some he]
      simp only [List.length_cons]
      rw [ih (fun r1 h1 => hall r1 (List.mem_cons_of_mem _ h1))]
  rw [← h2, h1, ht_count_eq]

/-! ### Updating a slot -/

theorem ht_chain_update_length (f : htEntry K V → htEntry K V) :
    ∀ (p : Nat) (chain : List (htEntry K V)), (ht_chain_update f p chain).length = chain.length
  | p, [] => by cases p <;> rfl
  | 0, _ :: _ => rfl
  | p + 1, _ :: next => by simp [ht_chain_update, ht_chain_update_length f p next]

theorem ht_chain_update_getElem? (f : htEntry K V → htEntry K V) :
    ∀ (p q : Nat) (chain : List (htEntry K V)),
      (ht_chain_update f p chain)[q]? = if q = p then chain[q]?.map f else chain[q]?
  | _, q, [] => by simp [ht_chain_update]
  | 0, 0, e :: next => by simp [ht_chain_update]
  | 0, q + 1, e :: next => by simp [ht_chain_update]
  | p + 1, 0, e :: next => by simp [ht_chain_update]
  | p + 1, q + 1, e :: next => by
    have := ht_chain_update_getElem? f p q next
    simp [ht_chain_update, this]

theorem ht_entry_update_shape (ht : htHandle K V) (r : htEntryRef)
    (f : htEntry K V → htEntry K V) :
    (ht_entry_update ht r f).size = ht.size ∧ (ht_entry_update ht r f).mask = ht.mask
    ∧ (ht_entry_update ht r f).used = ht.used
    ∧ (ht_entry_update ht r f).table.length = ht.table.length
    ∧ ∀ i, ((ht_entry_update ht r f).table.getD i []).length = (ht.table.getD i []).length := by
  refine ⟨rfl, rfl, rfl, by simp [ht_entry_update], ?_⟩
  intro i
  simp only [ht_entry_update]
  by_cases hi : r.index = i
  · subst hi
    by_cases hlt : r.index < ht.table.length
    · rw [getD_set_self _ _ _ hlt, ht_chain_update_length]
    · rw [getD_nil_of_le (by simp; omega), getD_nil_of_le (by omega)]
  · rw [getD_set_ne _ _ _ _ hi]

theorem ht_entry_update_entry (ht : htHandle K V) (r r1 : htEntryRef)
    (f : htEntry K V → htEntry K V) :
    ht_entry (ht_entry_update ht r f) r1
      = if r1 = r then (ht_entry ht r1).map f else ht_entry ht r1 := by
  simp only [ht_entry, ht_entry_update]
  by_cases hi : r.index = r1.index
  · by_cases hlt : r.index < ht.table.length
    · rw [← hi, getD_set_self _ _ _ hlt, ht_chain_update_getElem?]
      by_cases hp : r1.pos = r.pos
      · have : r1 = r := by cases r; cases r1; simp_all
        simp [hp, this]
      · have : r1 ≠ r := by intro h; exact hp (by rw [h])
        simp [hp, this]
    · rw [← hi, getD_nil_of_le (by simp; omega), getD_nil_of_le (by omega)]
      simp
  · have : r1 ≠ r := by intro h; exact hi (by rw [h])
    rw [getD_set_ne _ _ _ _ hi]
    simp [this]

end ht_refs

/-! ## The iterator only reads the shape of the table -/

section ht_shape
variable {K V : Type}

theorem getD_length_eq_map {α : Type} (t : List (List α)) (i : Nat) :
    (t.getD i []).length = (t.map List.length).getD i 0 := by
  simp only [List.getD_eq_getElem?_getD, List.getElem?_map]
  cases t[i]? <;> rfl

theorem map_length_eq_of_getD {α : Type} {t t1 : List (List α)} (hl : t1.length = t.length)
    (hc : ∀ i, (t1.getD i []).length = (t.getD i []).length) :
    t1.map List.length = t.map List.length := by
  apply List.ext_getElem
  · simp [hl]
  · intro i h1 h2
    have := hc i
    simp only [List.length_map] at h1 h2
    simp only [List.getD_eq_getElem?_getD, List.getElem?_eq_getElem h1,
      List.getElem?_eq_getElem h2, Option.getD_some] at this
    simpa using this

theorem ht_refs_aux_congr {α : Type} : ∀ (t t1 : List (List α)) (i : Nat),
    t1.map List.length = t.map List.length → ht_refs_aux t1 i = ht_refs_aux t i
  | [], [], _, _ => rfl
  | [], _ :: _, _, h => by simp at h
  | _ :: _, [], _, h => by simp at h
  | c :: t, c1 :: t1, i, h => by
    simp only [List.map_cons, List.cons.injEq] at h
    simp only [ht_refs_aux, h.1, ht_refs_aux_congr t t1 (i + 1) h.2]

theorem ht_next_congr (ht ht1 : htHandle K V) (hs : ht1.size = ht.size)
    (hm : ht1.table.map List.length = ht.table.map List.length) (it : htIterator) :
    ht_next ht1 it = ht_next ht it
    ∧ ht_remaining ht1 it = ht_remaining ht it
    ∧ (ht_iter_ok ht it → ht_iter_ok ht1 it) := by
  have hc : ∀ i, (ht1.table.getD i []).length = (ht.table.getD i []).length := by
    intro i; rw [getD_length_eq_map, getD_length_eq_map, hm]
  have hhead : ∀ i, ht_bucket_head ht1 i = ht_bucket_head ht i := by
    intro i
    have := hc i
    unfold ht_bucket_head
    cases h1 : ht1.table.getD i [] <;> cases h2 : ht.table.getD i [] <;>
      rw [h1, h2] at this <;> first | rfl | (simp at this)
  have hnext : ∀ r, ht_entry_next ht1 r = ht_entry_next ht r := by
    intro r; unfold ht_entry_next; rw [hc]
  have hloop : ∀ fuel he index, ht_next_loop ht1 fuel he index = ht_next_loop ht fuel he index := by
    intro fuel
    induction fuel with
    | zero => intro he index; rfl
    | succ f ih =>
      intro he index
      cases he with
      | some r => simp only [ht_next_loop, hnext]
      | none => simp only [ht_next_loop, hs, hhead, ih]
  refine ⟨?_, ?_, ?_⟩
  · simp only [ht_next, hs, hloop]
  · simp only [ht_remaining, hc]
    congr 1
    apply ht_refs_aux_congr
    rw [List.map_drop, List.map_drop, hm]
  · intro hok r hr
    have := hok r hr
    rw [hc]; exact this

/-- Setting both slots of an entry to null. -/
theorem js_null_one_shape (s : jsTable) (r : htEntryRef) :
    (ht_set_val (ht_set_key s r none) r none).size = s.size
    ∧ (ht_set_val (ht_set_key s r none) r none).mask = s.mask
    ∧ (ht_set_val (ht_set_key s r none) r none).used = s.used
    ∧ (ht_set_val (ht_set_key s r none) r none).table.length = s.table.length
    ∧ (ht_set_val (ht_set_key s r none) r none).table.map List.length
        = s.table.map List.length := by
  have h1 := ht_entry_update_shape s r (fun e => { e with key := none })
  have h2 := ht_entry_update_shape (ht_entry_update s r (fun e => { e with key := none })) r
    (fun e => { e with val := none })
  refine ⟨?_, ?_, ?_, ?_, ?_⟩
  · exact h2.1.trans h1.1
  · exact h2.2.1.trans h1.2.1
  · exact h2.2.2.1.trans h1.2.2.1
  · exact h2.2.2.2.1.trans h1.2.2.2.1
  · apply map_length_eq_of_getD (h2.2.2.2.1.trans h1.2.2.2.1)
    intro i
    exact (h2.2.2.2.2 i).trans (h1.2.2.2.2 i)

theorem js_null_one_entry (s : jsTable) (r r1 : htEntryRef) :
    ht_entry (ht_set_val (ht_set_key s r none) r none) r1
      = if r1 = r then (ht_entry s r1).map (fun _ => ⟨none, none⟩) else ht_entry s r1 := by
  simp only [ht_set_val, ht_set_key, ht_entry_update_entry]
  by_cases h : r1 = r
  · simp only [h, if_true, Option.map_map]
    rfl
  · simp only [h, if_false]

theorem js_null_slots_shape : ∀ (rs : List htEntryRef) (s : jsTable),
    (js_null_slots s rs).size = s.size ∧ (js_null_slots s rs).mask = s.mask
    ∧ (js_null_slots s rs).used = s.used
    ∧ (js_null_slots s rs).table.length = s.table.length
    ∧ (js_null_slots s rs).table.map List.length = s.table.map List.length
  | [], s => ⟨rfl, rfl, rfl, rfl, rfl⟩
  | r :: rs, s => by
    have ih := js_null_slots_shape rs (ht_set_val (ht_set_key s r none) r none)
    have h1 := js_null_one_shape s r
    simp only [js_null_slots, List.foldl_cons] at ih ⊢
    exact ⟨ih.1.trans h1.1, ih.2.1.trans h1.2.1, ih.2.2.1.trans h1.2.2.1,
      ih.2.2.2.1.trans h1.2.2.2.1, ih.2.2.2.2.trans h1.2.2.2.2⟩

theorem js_null_slots_entry : ∀ (rs : List htEntryRef) (s : jsTable) (r1 : htEntryRef),
    ht_entry (js_null_slots s rs) r1
      = if r1 ∈ rs then (ht_entry s r1).map (fun _ => ⟨none, none⟩) else ht_entry s r1
  | [], s, r1 => by simp [js_null_slots]
  | r :: rs, s, r1 => by
    have ih := js_null_slots_entry rs (ht_set_val (ht_set_key s r none) r none) r1
    simp only [js_null_slots, List.foldl_cons] at ih ⊢
    rw [ih, js_null_one_entry]
    by_cases h1 : r1 = r
    · subst h1
      by_cases h2 : r1 ∈ rs
      · simp only [h2, if_true, List.mem_cons, true_or, Option.map_map]
        rfl
      · simp [h2]
    · by_cases h2 : r1 ∈ rs
      · simp [h1, h2]
      · simp [h1, h2]

end ht_shape

/-! ## The loop of `_js_replace` -/

theorem _js_replace_loop_spec : ∀ (rs : List htEntryRef) (fuel : Nat) (obj rep : jsTable)
    (rhi : htIterator),
    rep.table.length = rep.size → ht_iter_ok rep rhi → ht_remaining rep rhi = rs →
    rs.Nodup → rs.length < fuel → (∀ r ∈ rs, ∃ e, ht_entry rep r = some e) →
    _js_replace_loop fuel obj rep rhi
      = (js_replace_fold obj (rs.filterMap (ht_entry rep))).map
          (fun o => (o, js_null_slots rep rs))
  | [], fuel, obj, rep, rhi, hlen, hok, hrem, _, hf, _ => by
    obtain ⟨f, rfl⟩ : ∃ f, fuel = f + 1 := ⟨fuel - 1, by omega⟩
    have h1 := (ht_next_spec rep hlen rhi hok).1 hrem
    have h2 : ht_next rep rhi = (none, (ht_next rep rhi).2) := by
      rw [← h1]
    rw [_js_replace_loop, h2]
    simp [js_replace_fold, js_null_slots]
  | r :: rs, fuel, obj, rep, rhi, hlen, hok, hrem, hnd, hf, hent => by
    obtain ⟨f, rfl⟩ : ∃ f, fuel = f + 1 := ⟨fuel - 1, by omega⟩
    obtain ⟨h1, hok1, hrem1⟩ := (ht_next_spec rep hlen rhi hok).2 r rs hrem
    have h2 : ht_next rep rhi = (some r, (ht_next rep rhi).2) := by
      rw [← h1]
    obtain ⟨e, he⟩ := hent r (List.mem_cons_self _ _)
    obtain ⟨hr, hnd1⟩ := List.nodup_cons.mp hnd
    have hsh := js_null_one_shape rep r
    have hcg := ht_next_congr rep (ht_set_val (ht_set_key rep r none) r none) hsh.1 hsh.2.2.2.2
      (ht_next rep rhi).2
    have hentries : rs.filterMap (ht_entry (ht_set_val (ht_set_key rep r none) r none))
        = rs.filterMap (ht_entry rep) := by
      apply List.filterMap_congr
      intro r1 hr1
      rw [js_null_one_entry]
      have : r1 ≠ r := by intro h; exact hr (h ▸ hr1)
      simp [this]
    have hent1 : ∀ r1 ∈ rs, ∃ e1, ht_entry (ht_set_val (ht_set_key rep r none) r none) r1
        = some e1 := by
      intro r1 hr1
      obtain ⟨e1, he1⟩ := hent r1 (List.mem_cons_of_mem _ hr1)
      refine ⟨e1, ?_⟩
      rw [js_null_one_entry]
      have : r1 ≠ r := by intro h; exact hr (h ▸ hr1)
      simp [this, he1]
    have ih := fun o => _js_replace_loop_spec rs f o (ht_set_val (ht_set_key rep r none) r none)
      (ht_next rep rhi).2 (by rw [hsh.2.2.2.1, hsh.1]; exact hlen) (hcg.2.2 hok1)
      (by rw [hcg.2.1]; exact hrem1) hnd1 (by simp only [List.length_cons] at hf; omega) hent1
    rw [_js_replace_loop, h2]
    simp only [he, List.filterMap_cons_some he, js_replace_fold, js_replace_step]
    cases hdel : (match ht_find htTypeJson obj e.key with
      | some he => ht_delete htTypeJson obj he
      | none => some obj) with
    | none => simp
    | some obj1 =>
      simp only [Option.map_some', Option.some_bind]
      rw [ih, hentries]
      simp [js_null_slots]

/-! ## `js_replace` -/

theorem htTypeJson_lawful : htTypeJson.lawful jsKeyGood := by
  intro a b ha hb
  cases a with
  | none => exact absurd rfl ha
  | some k1 =>
    cases b with
    | none => exact absurd rfl hb
    | some k2 =>
      show _js_hash_key_compare (some k1) (some k2) ≠ 0 ↔ _
      simp only [_js_hash_key_compare, HT_ERR]
      by_cases h : k1 = k2
      · subst h; simp
      · have : ¬ (some k1 = some k2) := fun hc => h (Option.some.inj hc)
        simp only [h, this, if_false, iff_false, not_not]
        split <;> rfl

theorem js_compare_ne_zero {a b : jsKey} (h : htTypeJson.key_compare a b ≠ 0) : a = b := by
  cases a with
  | none => exact absurd rfl h
  | some k1 =>
    cases b with
    | none => exact absurd rfl h
    | some k2 =>
      by_contra hc
      have hne : ¬ (k1 = k2) := fun h1 => hc (by rw [h1])
      apply h
      show _js_hash_key_compare (some k1) (some k2) = 0
      simp only [_js_hash_key_compare, HT_ERR, hne, if_false]
      split <;> rfl

theorem _js_replace_eq (d s : jsTable) (hlen : s.table.length = s.size) :
    _js_replace (jsObject.object d) (jsObject.object s)
      = (js_replace_fold d (ht_toList s)).map
          (fun o => (JS_OK, jsObject.object o, jsObject.object (js_null_slots s (ht_refs s)))) := by
  obtain ⟨hok, hrem⟩ := ht_create_iterator_remaining s hlen
  have hspec := _js_replace_loop_spec (ht_refs s) (ht_count s + 1) d s (ht_create_iterator s)
    hlen hok hrem (ht_refs_aux_nodup _ _) (by rw [ht_refs_length]; omega)
    (fun r hr => (mem_ht_refs s r).mp hr)
  rw [ht_refs_entries] at hspec
  simp only [_js_replace, hspec, Option.map_map]
  rfl

/-- The deletion in a round of `_js_replace` is always defined: the entry found for a key
lies in the bucket of that key. -/
theorem js_replace_step_defined (d : jsTable) (e : jsEntry) :
    ∃ d1, js_replace_step d e = some d1 := by
  unfold js_replace_step
  cases hf : ht_find htTypeJson d e.key with
  | none => exact ⟨_, rfl⟩
  | some he =>
    unfold ht_find at hf
    by_cases hs : d.size = 0
    · simp [hs] at hf
    · simp only [hs, if_false, Option.map_eq_some'] at hf
      obtain ⟨p, hp, rfl⟩ := hf
      obtain ⟨e1, he1, he2⟩ := ht_chain_find_some hp
      have hk := js_compare_ne_zero he2
      have hent : ht_entry d ⟨htTypeJson.hash_function e.key &&& d.mask, p⟩ = some e1 := he1
      simp only [ht_delete, hs, if_false, hent, ← hk, or_true, if_true, Option.map_some']
      exact ⟨_, rfl⟩

theorem js_replace_fold_defined : ∀ (es : List jsEntry) (d : jsTable),
    ∃ d1, js_replace_fold d es = some d1
  | [], d => ⟨d, rfl⟩
  | e :: es, d => by
    obtain ⟨d1, h1⟩ := js_replace_step_defined d e
    obtain ⟨d2, h2⟩ := js_replace_fold_defined es d1
    exact ⟨d2, by simp [js_replace_fold, h1, h2]⟩

theorem ht_toList_entry {K V : Type} {ht : htHandle K V} {e : htEntry K V}
    (h : e ∈ ht_toList ht) : ∃ r, ht_entry ht r = some e := by
  obtain ⟨i, _, hmem⟩ := mem_flatten_getD.mp h
  obtain ⟨p, hp⟩ := List.getElem?_of_mem hmem
  exact ⟨⟨i, p⟩, hp⟩

/-- C7: after `js_replace(D, S)` on a source whose table has its `size` buckets and whose
keys are not null, the call returns `JS_OK`, every entry of S has its key slot and its
value slot set to null, the entry count, the size and the chains of S are as before, and
S owns no key and no value any more: destroying S frees nothing. -/
theorem js_replace_clears_source (d s : jsTable) (hlen : s.table.length = s.size)
    (_hkeys : ∀ e ∈ ht_toList s, e.key ≠ none) :
    ∃ d1 s1, js_replace (jsObject.object d) (jsObject.object s)
        = some (JS_OK, jsObject.object d1, jsObject.object s1)
      ∧ s1.used = s.used ∧ s1.size = s.size ∧ s1.mask = s.mask
      ∧ s1.table.map List.length = s.table.map List.length
      ∧ (∀ e ∈ ht_toList s1, e.key = none ∧ e.val = none)
      ∧ js_table_owned s1 = ([], []) := by
  obtain ⟨d1, hd1⟩ := js_replace_fold_defined (ht_toList s) d
  have hsh := js_null_slots_shape (ht_refs s) s
  have hall : ∀ e ∈ ht_toList (js_null_slots s (ht_refs s)), e.key = none ∧ e.val = none := by
    intro e he
    obtain ⟨r, hr⟩ := ht_toList_entry he
    rw [js_null_slots_entry] at hr
    by_cases hmem : r ∈ ht_refs s
    · simp only [hmem, if_true, Option.map_eq_some'] at hr
      obtain ⟨_, _, rfl⟩ := hr
      exact ⟨rfl, rfl⟩
    · simp only [hmem, if_false] at hr
      exact absurd ((mem_ht_refs s r).mpr ⟨e, hr⟩) hmem
  refine ⟨d1, js_null_slots s (ht_refs s), ?_, hsh.2.2.1, hsh.1, hsh.2.1, hsh.2.2.2.2, hall, ?_⟩
  · show _js_replace _ _ = _
    rw [_js_replace_eq d s hlen, hd1]
    rfl
  · unfold js_table_owned
    have h1 : (ht_toList (js_null_slots s (ht_refs s))).filterMap (fun e => e.key) = [] := by
      apply List.filterMap_eq_nil_iff.mpr
      intro e he; exact (hall e he).1
    have h2 : (ht_toList (js_null_slots s (ht_refs s))).filterMap (fun e => e.val) = [] := by
      apply List.filterMap_eq_nil_iff.mpr
      intro e he; exact (hall e he).2
    rw [h1, h2]

/-- C7 (witness): merging the Object parsed from `{"a":1,"b":2}` into the one parsed from
`{"a":0,"c":3}`. -/
theorem js_replace_clears_source_witness :
    js_root (bytes "\x7b\"a\":1,\"b\":2\x7d") = some (jsObject.object js_example_src)
    ∧ ∃ d1 s1, js_replace (jsObject.object js_example_dst) (jsObject.object js_example_src)
        = some (JS_OK, jsObject.object d1, jsObject.object s1)
      ∧ s1.used = js_example_src.used ∧ s1.size = js_example_src.size
      ∧ s1.mask = js_example_src.mask
      ∧ s1.table.map List.length = js_example_src.table.map List.length
      ∧ (∀ e ∈ ht_toList s1, e.key = none ∧ e.val = none)
      ∧ js_table_owned s1 = ([], []) :=
  ⟨rfl, js_replace_clears_source js_example_dst js_example_src rfl
    (by intro e he; simp [ht_toList, js_example_src] at he; rcases he with h | h <;> simp [h])⟩

theorem ht_wf_used_eq {K V : Type} {type : htType K} {good : K → Prop} {ht : htHandle K V}
    (h : ht_wf type good ht) : ht.used = (ht_toList ht).length := by
  rw [h.inv.used, ht_count_eq]

theorem js_example_dst_wf : ht_wf htTypeJson jsKeyGood js_example_dst := by
  refine ⟨⟨rfl, Or.inr ⟨2, by decide, by decide, rfl⟩, rfl, rfl, ?_⟩, by decide, ?_, ?_⟩
  · intro i e he
    rcases i with _ | _ | _ | _ | i
    · simp [js_example_dst] at he
    · simp [js_example_dst] at he; subst he; rfl
    · simp [js_example_dst] at he
    · simp [js_example_dst] at he; subst he; rfl
    · simp [js_example_dst] at he
  · intro e he
    simp [ht_toList, js_example_dst] at he
    rcases he with h | h <;> simp [h, jsKeyGood]
  · simp [ht_keys, ht_toList, js_example_dst]

/-- A member whose name the Object already holds is refused.  For a well-formed Object
table with fewer than 2^30 entries that holds `name`, the insertion
`_js_object_add_object` returns `JS_ERR` and leaves the entries and their count as they
were, each name held once; the member parser then returns NULL without writing a
position, whatever follows the name, and so does the member loop at a comma. -/
theorem parse_member_duplicate (fuel : Nat) (ht : jsTable)
    (value rest name : List Nat)
    (hwf : ht_wf htTypeJson jsKeyGood ht) (hu : ht.used < 2 ^ 30)
    (hname : _js_parse_name (_js_skip value) = Except.ok (name, rest))
    (hdup : some name ∈ ht_keys ht) :
    (∀ sub, ∃ ht1, _js_object_add_object ht name sub = (JS_ERR, ht1)
      ∧ (ht_toList ht1).Perm (ht_toList ht) ∧ ht1.used = ht.used
      ∧ some name ∈ ht_keys ht1 ∧ (ht_keys ht1).Nodup)
    ∧ _js_parse_object_member (fuel + 1) ht (_js_skip value) = some (jsParse.fail none)
    ∧ _js_parse_object_loop (fuel + 2) ht (44 :: value) = some (jsParse.fail none) := by
  have hadd : ∀ sub, ∃ ht1, _js_object_add_object ht name sub = (JS_ERR, ht1)
      ∧ (ht_toList ht1).Perm (ht_toList ht) ∧ ht1.used = ht.used
      ∧ some name ∈ ht_keys ht1 ∧ (ht_keys ht1).Nodup := by
    intro sub
    obtain ⟨ht1, h1, h2, h3, h4⟩ := ht_add_old htTypeJson_lawful hwf
      (show jsKeyGood (some name) by simp [jsKeyGood]) hu hdup (some sub)
    refine ⟨ht1, ?_, h3, h4, ((h3.map (fun e => e.key)).mem_iff).mpr hdup, h2.nodup⟩
    unfold _js_object_add_object
    rw [h1]
    rfl
  have hmember : _js_parse_object_member (fuel + 1) ht (_js_skip value)
      = some (jsParse.fail none) := by
    obtain ⟨ht1, h1, _⟩ := hadd jsObject.null
    rw [_js_parse_object_member, hname]
    simp only [h1]
    rfl
  refine ⟨hadd, hmember, ?_⟩
  rw [_js_parse_object_loop]
  simp only [hd_cons, if_true, List.drop_succ_cons, List.drop_zero]
  exact hmember

/-! ## The round trip of plain trees -/

theorem vasprintf_plain : ∀ (fmt : List Nat), (∀ c ∈ fmt, c ≠ 0 ∧ c ≠ 37) →
    vasprintf fmt [] = some fmt
  | [], _ => rfl
  | c :: rest, h => by
    have hc := h c (List.mem_cons_self _ _)
    have ih := vasprintf_plain rest (fun x hx => h x (List.mem_cons_of_mem _ hx))
    unfold vasprintf
    rw [if_neg hc.1, if_pos hc.2, ih]
    rfl

theorem _js_buffer_cat_buf (p : jsBuffer) (t : List Nat) :
    (_js_buffer_cat p t t.length).buf = p.buf ++ t
    ∧ (_js_buffer_cat p t t.length).len = p.len + t.length := by
  unfold _js_buffer_cat _js_buffer_renew
  by_cases h : p.free < t.length
  · simp [h]
  · simp [h]

/-- A format without conversions is appended as it is. -/
theorem sprintf_plain (p : jsBuffer) (fmt : List Nat) (h : ∀ c ∈ fmt, c ≠ 0 ∧ c ≠ 37) :
    ∃ q, _js_buffer_sprintf p fmt [] = some q ∧ jsBufferAppended p fmt q := by
  refine ⟨_js_buffer_cat p fmt fmt.length, ?_, _js_buffer_cat_buf p fmt⟩
  unfold _js_buffer_sprintf
  rw [vasprintf_plain fmt h]
  rfl

theorem sprintf_ld (p : jsBuffer) (n : Int) :
    ∃ q, _js_buffer_sprintf p [37, 108, 100] [fmtArg.long n] = some q
      ∧ jsBufferAppended p (fmt_ld n) q := by
  refine ⟨_js_buffer_cat p (fmt_ld n) (fmt_ld n).length, ?_, _js_buffer_cat_buf p _⟩
  unfold _js_buffer_sprintf
  rw [vasprintf_ld]
  rfl

theorem jsBufferAppended.trans {p q r : jsBuffer} {t u : List Nat}
    (h1 : jsBufferAppended p t q) (h2 : jsBufferAppended q u r) :
    jsBufferAppended p (t ++ u) r := by
  refine ⟨?_, ?_⟩
  · rw [h2.1, h1.1, List.append_assoc]
  · rw [h2.2, h1.2, List.length_append, Nat.add_assoc]

theorem jsBufferAppended.nil (p : jsBuffer) : jsBufferAppended p [] p :=
  ⟨by simp, by simp⟩

theorem jsStrPlain_cons {c : Nat} {s : List Nat} (h : jsStrPlain (c :: s)) :
    (c ≠ 37 ∧ (31 < c ∨ c = 8 ∨ c = 9 ∨ c = 10 ∨ c = 12 ∨ c = 13)) ∧ jsStrPlain s :=
  ⟨h c (List.mem_cons_self _ _), fun x hx => h x (List.mem_cons_of_mem _ hx)⟩

theorem fill_self (out : List Nat) : fill out.length out = out := by
  simp [fill]

theorem escape_len_plain : ∀ (s : List Nat), jsStrPlain s →
    _js_object_string_escape_len s = (_js_object_string_escape_out s).length
  | [], _ => rfl
  | c :: s, h => by
    obtain ⟨⟨_, hc⟩, hs⟩ := jsStrPlain_cons h
    have ih := escape_len_plain s hs
    have h0 : c ≠ 0 := by omega
    rw [_js_object_string_escape_len, _js_object_string_escape_out, if_neg h0, if_neg h0, ih]
    by_cases h34 : c = 34
    · subst h34; simp; omega
    by_cases h92 : c = 92
    · subst h92; simp; omega
    by_cases h31 : 31 < c
    · have hn : ¬ (c = 34 ∨ c = 92 ∨ c = 8 ∨ c = 12 ∨ c = 10 ∨ c = 13 ∨ c = 9) := by omega
      rw [if_neg hn, if_pos ⟨h31, h34, h92⟩]
      simp; omega
    · have hp : c = 34 ∨ c = 92 ∨ c = 8 ∨ c = 12 ∨ c = 10 ∨ c = 13 ∨ c = 9 := by omega
      rw [if_pos hp]
      rcases hc with hc | hc | hc | hc | hc | hc
      · exact absurd hc h31
      all_goals (subst hc; simp; omega)

theorem escape_plain (s : List Nat) (h : jsStrPlain s) :
    _js_object_string_escape s = _js_object_string_escape_out s := by
  unfold _js_object_string_escape
  rw [escape_len_plain s h, fill_self]

theorem escape_out_plain : ∀ (s : List Nat), jsStrPlain s →
    ∀ c ∈ _js_object_string_escape_out s, c ≠ 0 ∧ c ≠ 37
  | [], _ => by intro c hc; simp [_js_object_string_escape_out] at hc
  | c :: s, h => by
    obtain ⟨⟨h37, hc⟩, hs⟩ := jsStrPlain_cons h
    have ih := escape_out_plain s hs
    have h0 : c ≠ 0 := by omega
    intro x hx
    rw [_js_object_string_escape_out, if_neg h0] at hx
    by_cases h34 : c = 34
    · subst h34
      simp at hx
      rcases hx with hx | hx | hx
      · omega
      · omega
      · exact ih x hx
    by_cases h92 : c = 92
    · subst h92
      simp at hx
      rcases hx with hx | hx
      · omega
      · exact ih x hx
    by_cases h31 : 31 < c
    · rw [if_pos ⟨h31, h34, h92⟩] at hx
      rcases List.mem_cons.mp hx with hx | hx
      · omega
      · exact ih x hx
    · rcases hc with hc | hc | hc | hc | hc | hc
      · exact absurd hc h31
      all_goals
        subst hc
        simp at hx
        rcases hx with hx | hx | hx
        · omega
        · omega
        · exact ih x hx

/-- The parser's unescaping undoes the printer's escaping up to the closing quote. -/
theorem string_escape_inverse : ∀ (s rest : List Nat), jsStrPlain s →
    _js_string_escape_len (_js_object_string_escape_out s ++ 34 :: rest)
        = (s.length, (_js_object_string_escape_out s).length)
    ∧ _js_string_escape_out (_js_object_string_escape_out s ++ 34 :: rest) = s
  | [], rest, _ => by
    constructor
    · show _js_string_escape_len (34 :: rest) = _
      unfold _js_string_escape_len
      rw [if_pos (Or.inl rfl)]
      rfl
    · show _js_string_escape_out (34 :: rest) = _
      unfold _js_string_escape_out
      rw [if_pos (Or.inl rfl)]
  | c :: s, rest, h => by
    obtain ⟨⟨_, hc⟩, hs⟩ := jsStrPlain_cons h
    obtain ⟨ih1, ih2⟩ := string_escape_inverse s rest hs
    have h0 : c ≠ 0 := by omega
    rw [_js_object_string_escape_out, if_neg h0]
    by_cases h34 : c = 34
    · subst h34
      simp [_js_string_escape_len, _js_string_escape_out, _js_unescape, ih1, ih2]
    by_cases h92 : c = 92
    · subst h92
      simp [_js_string_escape_len, _js_string_escape_out, _js_unescape, ih1, ih2]
    by_cases h31 : 31 < c
    · rw [if_pos ⟨h31, h34, h92⟩]
      have hq : ¬ (c = 34 ∨ c = 0) := by omega
      constructor
      · show _js_string_escape_len (c :: _) = _
        unfold _js_string_escape_len
        rw [if_neg hq, if_neg h92]
        show ((_js_string_escape_len (_js_object_string_escape_out s ++ 34 :: rest)).1 + 1,
          (_js_string_escape_len (_js_object_string_escape_out s ++ 34 :: rest)).2 + 1) = _
        rw [ih1]
        rfl
      · show _js_string_escape_out (c :: _) = _
        unfold _js_string_escape_out
        rw [if_neg hq, if_pos h92]
        show c :: _js_string_escape_out (_js_object_string_escape_out s ++ 34 :: rest) = _
        rw [ih2]
    · rcases hc with hc | hc | hc | hc | hc | hc
      · exact absurd hc h31
      all_goals
        subst hc
        simp [_js_string_escape_len, _js_string_escape_out, _js_unescape, ih1, ih2]

theorem _js_string_escape_plain (s rest : List Nat) (h : jsStrPlain s) :
    _js_string_escape (_js_object_string_escape_out s ++ 34 :: rest)
      = (s, (_js_object_string_escape_out s).length) := by
  obtain ⟨h1, h2⟩ := string_escape_inverse s rest h
  unfold _js_string_escape
  rw [h1, h2, fill_self]

theorem _js_parse_string_plain (s rest : List Nat) (h : jsStrPlain s) :
    _js_parse_string (34 :: _js_object_string_escape_out s ++ 34 :: rest)
      = (jsObject.string s, rest) := by
  unfold _js_parse_string
  simp only [List.cons_append, List.drop_succ_cons, List.drop_zero]
  rw [_js_string_escape_plain s rest h]
  simp [_js_object_set_string, hd]

theorem _js_parse_name_plain (s rest : List Nat) (h : jsStrPlain s) :
    _js_parse_name (34 :: _js_object_string_escape_out s ++ 34 :: rest)
      = Except.ok (s, rest) := by
  unfold _js_parse_name
  simp only [List.cons_append, List.drop_succ_cons, List.drop_zero]
  rw [_js_string_escape_plain s rest h]
  simp [hd]

theorem _js_skip_of_lt {c : Nat} (rest : List Nat) (h : 32 < c) :
    _js_skip (c :: rest) = c :: rest := by
  rw [_js_skip, if_neg (by omega)]

theorem _js_skip_ends (rest : List Nat) (h : hd rest = 0 ∨ 32 < hd rest) :
    _js_skip rest = rest := by
  cases rest with
  | nil => rfl
  | cons c r =>
    simp only [hd_cons] at h
    rw [_js_skip, if_neg (by omega)]

theorem drop_one_append {α : Type} (a b : List α) (h : a ≠ []) :
    (a ++ b).drop 1 = a.drop 1 ++ b := by
  cases a with
  | nil => exact absurd rfl h
  | cons x a => rfl

/-- The separator step: a comma unless the item is the first. -/
theorem print_comma_spec (n : Nat) (buf : jsBuffer) :
    ∃ q, _js_print_comma n buf = some q
      ∧ jsBufferAppended buf (if n = 0 then [] else [44]) q := by
  unfold _js_print_comma
  by_cases hn : n = 0
  · subst hn
    exact ⟨buf, by simp, jsBufferAppended.nil buf⟩
  · obtain ⟨q, h1, h2⟩ := sprintf_plain buf [44] (by decide)
    refine ⟨q, by rw [if_pos hn, h1], ?_⟩
    rw [if_neg hn]; exact h2

theorem print_leaf_null (buf : jsBuffer) :
    ∃ o1 q, jsObject.null.print buf = some (o1, q)
      ∧ jsBufferAppended buf jsObject.null.text q := by
  obtain ⟨q, h1, h2⟩ := sprintf_plain buf [110, 117, 108, 108] (by decide)
  refine ⟨jsObject.null, q, ?_, h2⟩
  rw [jsObject.print, _js_object_null_print, h1]
  rfl

theorem print_leaf_boolean (l64 : Int) (buf : jsBuffer) :
    ∃ o1 q, (jsObject.boolean l64).print buf = some (o1, q)
      ∧ jsBufferAppended buf (jsObject.boolean l64).text q := by
  rw [jsObject.print, _js_object_boolean_print, jsObject.text]
  by_cases h : l64 ≠ 0
  · obtain ⟨q, h1, h2⟩ := sprintf_plain buf [116, 114, 117, 101] (by decide)
    refine ⟨jsObject.boolean l64, q, ?_, ?_⟩
    · rw [if_pos h, h1]; rfl
    · rw [if_pos h]; exact h2
  · obtain ⟨q, h1, h2⟩ := sprintf_plain buf [102, 97, 108, 115, 101] (by decide)
    refine ⟨jsObject.boolean l64, q, ?_, ?_⟩
    · rw [if_neg h, h1]; rfl
    · rw [if_neg h]; exact h2

theorem print_leaf_integer (l64 : Int) (buf : jsBuffer) :
    ∃ o1 q, (jsObject.number_l64 l64).print buf = some (o1, q)
      ∧ jsBufferAppended buf (jsObject.number_l64 l64).text q := by
  obtain ⟨q, h1, h2⟩ := sprintf_ld buf l64
  refine ⟨jsObject.number_l64 l64, q, ?_, h2⟩
  rw [jsObject.print, _js_object_number_print, h1]
  rfl

/-- The opening quote and the escaped bytes of a plain string or name. -/
theorem print_quoted (s : List Nat) (hs : jsStrPlain s) (buf : jsBuffer) :
    ∃ q, _js_buffer_sprintf buf [34] [] = some q
      ∧ ∃ q1, _js_buffer_sprintf q (_js_object_string_escape s) [] = some q1
        ∧ jsBufferAppended buf (34 :: _js_object_string_escape_out s) q1 := by
  obtain ⟨q, h1, h2⟩ := sprintf_plain buf [34] (by decide)
  obtain ⟨q1, h4, h5⟩ := sprintf_plain q (_js_object_string_escape_out s)
    (fun c hc => escape_out_plain s hs c hc)
  exact ⟨q, h1, q1, by rw [escape_plain s hs, h4], h2.trans h5⟩

theorem print_leaf_string (s : List Nat) (hs : jsStrPlain s) (buf : jsBuffer) :
    ∃ o1 q, (jsObject.string s).print buf = some (o1, q)
      ∧ jsBufferAppended buf (jsObject.string s).text q := by
  obtain ⟨q, h1, q1, h2, h3⟩ := print_quoted s hs buf
  obtain ⟨q2, h5, h6⟩ := sprintf_plain q1 [34] (by decide)
  refine ⟨jsObject.string (_js_object_string_escape s), q2, ?_, ?_⟩
  · rw [jsObject.print, _js_object_string_print, h1]
    simp only [h2, h5]
    rfl
  · have := h3.trans h6
    rw [jsObject.text]
    simpa using this

mutual

theorem print_text : ∀ (o : jsObject) (buf : jsBuffer), o.plain →
    ∃ o1 q, o.print buf = some (o1, q) ∧ jsBufferAppended buf o.text q
  | jsObject.null, buf, _ => print_leaf_null buf
  | jsObject.boolean l64, buf, _ => print_leaf_boolean l64 buf
  | jsObject.number_l64 l64, buf, _ => print_leaf_integer l64 buf
  | jsObject.number_d64 _, _, h => by rw [jsObject.plain] at h; exact absurd h id
  | jsObject.string s, buf, h => by
    rw [jsObject.plain] at h
    exact print_leaf_string s h buf
  | jsObject.array ⟨nodes, len⟩, buf, h => by
    rw [jsObject.plain] at h
    obtain ⟨q1, e1, a1⟩ := sprintf_plain buf [91] (by decide)
    obtain ⟨nodes1, q2, e2, a2⟩ := print_nodes nodes 0 q1 h.2
    obtain ⟨q3, e3, a3⟩ := sprintf_plain q2 [93] (by decide)
    refine ⟨jsObject.array ⟨nodes1, len⟩, q3, ?_, ?_⟩
    · rw [jsObject.print, e1]
      simp only [e2, e3]
      rfl
    · have := (a1.trans a2).trans a3
      rw [jsObject.text]
      simpa using this
  | jsObject.object ⟨table, size, mask, used⟩, buf, h => by
    rw [jsObject.plain] at h
    obtain ⟨q1, e1, a1⟩ := sprintf_plain buf [123] (by decide)
    obtain ⟨table1, n1, q2, e2, a2⟩ := print_chains table 0 q1 h.2
    obtain ⟨q3, e3, a3⟩ := sprintf_plain q2 [125] (by decide)
    refine ⟨jsObject.object ⟨table1, size, mask, used⟩, q3, ?_, ?_⟩
    · rw [jsObject.print, e1]
      simp only [e2, e3]
      rfl
    · have := (a1.trans a2.2).trans a3
      rw [jsObject.text]
      simpa using this

theorem print_nodes : ∀ (nodes : List jsObject) (n : Nat) (buf : jsBuffer),
    jsNodesPlain nodes →
    ∃ nodes1 q, _js_object_array_print_loop nodes n buf = some (nodes1, q)
      ∧ jsBufferAppended buf ((jsNodesText nodes).drop (if n = 0 then 1 else 0)) q
  | [], n, buf, _ => by
    refine ⟨[], buf, by rw [_js_object_array_print_loop], ?_⟩
    rw [jsNodesText]
    simpa using jsBufferAppended.nil buf
  | obj :: rest, n, buf, h => by
    rw [jsNodesPlain] at h
    obtain ⟨q1, e1, a1⟩ := print_comma_spec n buf
    obtain ⟨obj1, q2, e2, a2⟩ := print_text obj q1 h.1
    obtain ⟨rest1, q3, e3, a3⟩ := print_nodes rest (n + 1) q2 h.2
    refine ⟨obj1 :: rest1, q3, ?_, ?_⟩
    · rw [_js_object_array_print_loop, e1]
      simp only [e2, e3]
    · have := (a1.trans a2).trans a3
      rw [jsNodesText]
      by_cases hn : n = 0
      · simpa [hn] using this
      · simpa [hn] using this

theorem print_chains : ∀ (table : List (List jsEntry)) (n : Nat) (buf : jsBuffer),
    jsChainsPlain table →
    ∃ table1 n1 q, _js_object_object_print_table table n buf = some (table1, n1, q)
      ∧ (n = 0 ∧ jsChainsText table = [] ↔ n1 = 0)
      ∧ jsBufferAppended buf ((jsChainsText table).drop (if n = 0 then 1 else 0)) q
  | [], n, buf, _ => by
    refine ⟨[], n, buf, by rw [_js_object_object_print_table], ?_, ?_⟩
    · rw [jsChainsText]; simp
    · rw [jsChainsText]
      simpa using jsBufferAppended.nil buf
  | chain :: rest, n, buf, h => by
    rw [jsChainsPlain] at h
    obtain ⟨chain1, n1, q1, e1, c1, a1⟩ := print_chain chain n buf h.1
    obtain ⟨rest1, n2, q2, e2, c2, a2⟩ := print_chains rest n1 q1 h.2
    refine ⟨chain1 :: rest1, n2, q2, ?_, ?_, ?_⟩
    · rw [_js_object_object_print_table, e1]
      simp only [e2]
    · rw [jsChainsText, ← c2, ← c1]
      simp [and_assoc]
    · have := a1.trans a2
      rw [jsChainsText]
      by_cases hn : n = 0
      · by_cases hc : jsChainText chain = []
        · have hn1 : n1 = 0 := c1.mp ⟨hn, hc⟩
          simpa [hn, hc, hn1] using this
        · have hn1 : n1 ≠ 0 := fun h0 => hc (c1.mpr h0).2
          rw [if_pos hn, drop_one_append _ _ hc]
          simpa [hn, hn1] using this
      · have hn1 : n1 ≠ 0 := fun h0 => hn (c1.mpr h0).1
        simpa [hn, hn1] using this

theorem print_chain : ∀ (chain : List jsEntry) (n : Nat) (buf : jsBuffer),
    jsChainPlain chain →
    ∃ chain1 n1 q, _js_object_object_print_chain chain n buf = some (chain1, n1, q)
      ∧ (n = 0 ∧ jsChainText chain = [] ↔ n1 = 0)
      ∧ jsBufferAppended buf ((jsChainText chain).drop (if n = 0 then 1 else 0)) q
  | [], n, buf, _ => by
    refine ⟨[], n, buf, by rw [_js_object_object_print_chain], ?_, ?_⟩
    · rw [jsChainText]; simp
    · rw [jsChainText]
      simpa using jsBufferAppended.nil buf
  | ⟨none, _⟩ :: _, _, _, h => by rw [jsChainPlain] at h; exact absurd h id
  | ⟨some _, none⟩ :: _, _, _, h => by rw [jsChainPlain] at h; exact absurd h id
  | ⟨some key, some obj⟩ :: next, n, buf, h => by
    rw [jsChainPlain] at h
    obtain ⟨q1, e1, a1⟩ := print_comma_spec n buf
    obtain ⟨q2, e2, q3, e3, a3⟩ := print_quoted key h.1 q1
    obtain ⟨q4, e4, a4⟩ := sprintf_plain q3 [34, 58] (by decide)
    obtain ⟨obj1, q5, e5, a5⟩ := print_text obj q4 h.2.1
    obtain ⟨next1, n1, q6, e6, c6, a6⟩ := print_chain next (n + 1) q5 h.2.2
    refine ⟨⟨some (_js_object_string_escape key), some obj1⟩ :: next1, n1, q6, ?_, ?_, ?_⟩
    · rw [_js_object_object_print_chain, e1]
      simp only [e2, e3, e4, e5, e6]
    · rw [jsChainText]
      have hn1 : n1 ≠ 0 := fun h0 => absurd (c6.mpr h0).1 (by omega)
      simp [hn1]
    · have := (((a1.trans a3).trans a4).trans a5).trans a6
      rw [jsChainText]
      by_cases hn : n = 0
      · simpa [hn] using this
      · simpa [hn] using this

end

section ht_shape
variable {K V : Type}

/-- The size `_ht_expand_if_needed` leaves: 4 for a fresh table, twice the size for a
full one, the same size otherwise. -/
theorem _ht_expand_if_needed_size {type : htType K} {good : K → Prop} {ht : htHandle K V}
    (h : ht_wf type good ht) (hu : ht.used < 2 ^ 30) :
    (_ht_expand_if_needed type ht).2.size
      = if ht.size = 0 then 4 else if ht.size ≤ ht.used then 2 * ht.size else ht.size := by
  unfold _ht_expand_if_needed
  by_cases hs : ht.size = 0
  · have hused : ht.used = 0 := by have := h.le; omega
    have htab : ht.table = [] := List.length_eq_zero.mp (by rw [h.inv.len, hs])
    have hnp : _ht_next_power HT_INITIAL_SIZE = 4 := rfl
    simp only [hs, if_true, _ht_expand, hnp, hused, htab, List.isEmpty_nil]
    have hlt : ¬ (HT_INITIAL_SIZE < 0) := by omega
    simp only [hlt, if_false, show ¬ ((4 : Nat) = 0) by omega]
  · simp only [hs, if_false]
    by_cases hfull : ht.size ≤ ht.used
    · obtain ⟨k, hk2, hk30, hk⟩ := ht_wf_size_pos h hs
      have hused : ht.used = 2 ^ k := by have := h.le; omega
      have hk29 : k ≤ 29 := by
        by_contra hc
        have hk30' : k = 30 := by omega
        rw [hk30'] at hused
        omega
      have hdbl : ht.used * 2 = 2 ^ (k + 1) := by rw [hused, pow_succ]
      have hnp : _ht_next_power (ht.used * 2) = 2 ^ (k + 1) := by
        rw [hdbl]; exact _ht_next_power_pow (k + 1) (by omega) (by omega)
      have hne : ¬ (2 ^ (k + 1) = ht.size) := by
        rw [hk, pow_succ]
        have : 0 < 2 ^ k := by positivity
        omega
      have hnlt : ¬ (ht.used * 2 < ht.used) := by omega
      have htab : ht.table.isEmpty = false := by
        cases hc : ht.table with
        | nil =>
          have := h.inv.len
          rw [hc] at this
          exact absurd this.symm hs
        | cons c t => rfl
      simp only [hfull, if_true, _ht_expand, hnp, hnlt, if_false, hne, htab,
        Bool.false_eq_true]
      have hinv := ht_empty_inv (V := V) type (k + 1) (by omega) (by omega)
      have hspec := foldl_link_spec type ht.table.flatten
        (⟨List.replicate (2 ^ (k + 1)) [], 2 ^ (k + 1), 2 ^ (k + 1) - 1, 0⟩ : htHandle K V) hinv
        (by simp)
      have hloop := _ht_rehash_loop_eq type ht.table ht.used
        (⟨List.replicate (2 ^ (k + 1)) [], 2 ^ (k + 1), 2 ^ (k + 1) - 1, 0⟩ : htHandle K V)
        h.inv.used
      simp only [_ht_rehash, hloop, if_true]
      rw [hspec.2.1, hk]
      show 2 ^ (k + 1) = 2 * 2 ^ k
      rw [pow_succ]
      omega
    · simp only [hfull, if_false]

/-- The size after `ht_add` of a new key is the size `_ht_expand_if_needed` leaves. -/
theorem ht_add_new_size [Inhabited V] {type : htType K} {good : K → Prop}
    (hl : type.lawful good) {ht : htHandle K V} (h : ht_wf type good ht) {key : K}
    (hk : good key) (hu : ht.used < 2 ^ 30) (hn : key ∉ ht_keys ht) (val : V) :
    (ht_add type ht key val).2.size
      = if ht.size = 0 then 4 else if ht.size ≤ ht.used then 2 * ht.size else ht.size := by
  obtain ⟨h1, h2, h3, h4⟩ := _ht_expand_if_needed_wf h hu
  have hs : (_ht_expand_if_needed type ht).2.size ≠ 0 := by omega
  have hi := ht_inv_index_lt h2.inv hs (type.hash_function key)
  have hadd := ht_add_eq_link type ht key val _ _ (_ht_key_index_new hl h hk hu hn) hi
  rw [hadd, ← _ht_expand_if_needed_size h hu]
  rfl

theorem _ht_next_power_loop_spec : ∀ (fuel size j : Nat), 2 ≤ j → j ≤ 30 → 32 ≤ fuel + j →
    size ≤ 2 ^ 30 → (j = 2 ∨ 2 ^ (j - 1) < size) →
    ∃ k, 2 ≤ k ∧ k ≤ 30 ∧ _ht_next_power_loop fuel size (2 ^ j) = 2 ^ k ∧ size ≤ 2 ^ k
      ∧ (k = 2 ∨ 2 ^ (k - 1) < size)
  | 0, _, j, _, h30, hf, _, _ => by omega
  | fuel + 1, size, j, h2, h30, hf, hs, hj => by
    rw [_ht_next_power_loop]
    by_cases hle : size ≤ 2 ^ j
    · rw [if_pos hle]
      exact ⟨j, h2, h30, rfl, hle, hj⟩
    · rw [if_neg hle]
      have hlt : j < 30 := by
        by_contra hc
        have : j = 30 := by omega
        rw [this] at hle
        exact hle hs
      have hpow : 2 ^ j * 2 % 4294967296 = 2 ^ (j + 1) := by
        rw [← pow_succ]
        apply Nat.mod_eq_of_lt
        calc 2 ^ (j + 1) ≤ 2 ^ 30 := Nat.pow_le_pow_right (by omega) (by omega)
          _ < 4294967296 := by norm_num
      rw [hpow]
      exact _ht_next_power_loop_spec fuel size (j + 1) (by omega) (by omega) (by omega) hs
        (Or.inr (by simpa using Nat.lt_of_not_le hle))

/-- The value of `_ht_next_power` up to 2^30: the least power of two from 4 that is not
below the argument. -/
theorem _ht_next_power_spec (size : Nat) (hs : size ≤ 2 ^ 30) :
    ∃ k, 2 ≤ k ∧ k ≤ 30 ∧ _ht_next_power size = 2 ^ k ∧ size ≤ 2 ^ k
      ∧ (k = 2 ∨ 2 ^ (k - 1) < size) := by
  unfold _ht_next_power
  rw [if_neg (by unfold INT_MAX; omega)]
  exact _ht_next_power_loop_spec 32 size 2 (le_refl 2) (by omega) (by omega) hs (Or.inl rfl)

theorem pow_bracket_unique {n j k : Nat} (hj : 2 ≤ j) (hk : 2 ≤ k) (hnj : n ≤ 2 ^ j)
    (hnk : n ≤ 2 ^ k) (hj1 : j = 2 ∨ 2 ^ (j - 1) < n) (hk1 : k = 2 ∨ 2 ^ (k - 1) < n) :
    j = k := by
  by_contra hne
  rcases Nat.lt_or_gt_of_ne hne with hlt | hgt
  · rcases hk1 with hk1 | hk1
    · omega
    · have : 2 ^ j ≤ 2 ^ (k - 1) := Nat.pow_le_pow_right (by omega) (by omega)
      omega
  · rcases hj1 with hj1 | hj1
    · omega
    · have : 2 ^ k ≤ 2 ^ (j - 1) := Nat.pow_le_pow_right (by omega) (by omega)
      omega

end ht_shape

/-- A table of the parsing shape keeps that shape when a new key is added. -/
theorem ht_size_step {K V : Type} {type : htType K} {good : K → Prop} {ht : htHandle K V}
    (h : ht_wf type good ht) (hu : ht.used < 2 ^ 30)
    (hc : ht.size = (if ht.used = 0 then 0 else _ht_next_power ht.used)) :
    (if ht.size = 0 then 4 else if ht.size ≤ ht.used then 2 * ht.size else ht.size)
      = _ht_next_power (ht.used + 1) := by
  by_cases hs : ht.size = 0
  · have hused : ht.used = 0 := by have := h.le; omega
    rw [if_pos hs, hused]
    rfl
  · rw [if_neg hs]
    have hu0 : ht.used ≠ 0 := by
      intro h0; rw [if_pos h0] at hc; exact hs hc
    rw [if_neg hu0] at hc
    obtain ⟨k, hk2, hk30, hk, hle, hmin⟩ := _ht_next_power_spec ht.used (by omega)
    obtain ⟨j, hj2, hj30, hj, hle1, hmin1⟩ := _ht_next_power_spec (ht.used + 1) (by omega)
    rw [hj]
    rw [hk] at hc
    by_cases hfull : ht.size ≤ ht.used
    · rw [if_pos hfull]
      have hused : ht.used = 2 ^ k := by have := h.le; omega
      have hkj : k + 1 = j := by
        refine pow_bracket_unique (by omega) hj2 ?_ hle1 (Or.inr ?_) hmin1
        · rw [pow_succ]; omega
        · simp only [Nat.add_sub_cancel]; omega
      rw [hc, ← hkj, pow_succ]
      omega
    · rw [if_neg hfull]
      have hkj : k = j := by
        refine pow_bracket_unique hk2 hj2 (by omega) hle1 ?_ hmin1
        rcases hmin with h1 | h1
        · exact Or.inl h1
        · exact Or.inr (by omega)
      rw [hc, hkj]

theorem ht_create_wf {K V : Type} (type : htType K) (good : K → Prop) :
    ht_wf type good (ht_create : htHandle K V) := by
  refine ⟨⟨rfl, Or.inl rfl, rfl, rfl, ?_⟩, Nat.le_refl _, ?_, ?_⟩
  · intro i e he
    simp [ht_create, _ht_reset] at he
  · intro e he
    simp [ht_create, _ht_reset, ht_toList] at he
  · simp [ht_create, _ht_reset, ht_keys, ht_toList]

/-- The insertions of the parser into a table of the parsing shape: every member with a
new name is stored, and the table keeps the shape. -/
theorem js_add_members_spec : ∀ (es : List jsEntry) (ht : jsTable),
    ht_wf htTypeJson jsKeyGood ht →
    ht.size = (if ht.used = 0 then 0 else _ht_next_power ht.used) →
    (∀ e ∈ es, ∃ name sub, e = ⟨some name, some sub⟩) →
    (es.map (fun e => e.key)).Nodup → (∀ e ∈ es, e.key ∉ ht_keys ht) →
    ht.used + es.length < 2 ^ 30 →
    ∃ ht1, js_add_members ht es = some ht1 ∧ ht_wf htTypeJson jsKeyGood ht1
      ∧ ht1.size = (if ht1.used = 0 then 0 else _ht_next_power ht1.used)
      ∧ (ht_toList ht1).Perm (es ++ ht_toList ht)
  | [], ht, hwf, hc, _, _, _, _ => ⟨ht, rfl, hwf, hc, List.Perm.refl _⟩
  | e :: es, ht, hwf, hc, hsh, hnd, hnew, hu => by
    obtain ⟨name, sub, rfl⟩ := hsh _ (List.mem_cons_self _ _)
    simp only [List.length_cons] at hu
    have hgood : jsKeyGood (some name) := by simp [jsKeyGood]
    have hnk : (some name : jsKey) ∉ ht_keys ht := hnew _ (List.mem_cons_self _ _)
    obtain ⟨ht0, hadd0, _, _⟩ := ht_add_new htTypeJson_lawful hwf hgood (by omega) hnk
      (some jsObject.null)
    obtain ⟨ht1, hadd1, hwf1, hperm1⟩ := ht_add_new htTypeJson_lawful hwf hgood (by omega) hnk
      (some sub)
    have hsize1 := ht_add_new_size htTypeJson_lawful hwf hgood (by omega) hnk (some sub)
    rw [hadd1, ht_size_step hwf (by omega) hc] at hsize1
    have hused1 : ht1.used = ht.used + 1 := by
      rw [ht_wf_used_eq hwf1, ht_wf_used_eq hwf, hperm1.length_eq, List.length_cons]
    have hc1 : ht1.size = (if ht1.used = 0 then 0 else _ht_next_power ht1.used) := by
      rw [hused1, if_neg (by omega)]
      exact hsize1
    simp only [List.map_cons] at hnd
    obtain ⟨hne, hnd1⟩ := List.nodup_cons.mp hnd
    have hnew1 : ∀ x ∈ es, x.key ∉ ht_keys ht1 := by
      intro x hx hm
      have hm1 := ((hperm1.map (fun e => e.key)).mem_iff).mp hm
      simp only [List.map_cons] at hm1
      rcases List.mem_cons.mp hm1 with h1 | h1
      · exact hne (List.mem_map.mpr ⟨x, hx, h1⟩)
      · exact hnew x (List.mem_cons_of_mem _ hx) h1
    obtain ⟨ht2, hadd2, hwf2, hc2, hperm2⟩ := js_add_members_spec es ht1 hwf1 hc1
      (fun x hx => hsh x (List.mem_cons_of_mem _ hx)) hnd1 hnew1 (by omega)
    refine ⟨ht2, ?_, hwf2, hc2, ?_⟩
    · rw [js_add_members]
      simp only [_js_object_add_object, hadd0, hadd1, HT_OK, one_ne_zero, if_false]
      exact hadd2
    · refine hperm2.trans ?_
      refine (List.Perm.append_left es hperm1).trans ?_
      simp only [List.cons_append]
      exact List.perm_middle

theorem list_eq_of_length_le_one {α : Type} {a b : List α} (ha : a.length ≤ 1)
    (hb : b.length ≤ 1) (h : ∀ x, x ∈ a ↔ x ∈ b) : a = b := by
  match a, b, ha, hb, h with
  | [], [], _, _, _ => rfl
  | [], y :: _, _, _, h => exact absurd ((h y).mpr (List.mem_cons_self _ _)) (List.not_mem_nil _)
  | x :: _, [], _, _, h => exact absurd ((h x).mp (List.mem_cons_self _ _)) (List.not_mem_nil _)
  | [x], [y], _, _, h =>
    have := (h x).mp (List.mem_cons_self _ _)
    simp at this
    rw [this]
  | _ :: _ :: _, _, ha, _, _ => simp at ha
  | _, _ :: _ :: _, _, hb, _ => simp at hb

/-- Two well-formed tables of the same size with the same entries are the same table
when no bucket of one of them holds two entries. -/
theorem ht_eq_of_perm {K V : Type} {type : htType K} {good : K → Prop} {a b : htHandle K V}
    (ha : ht_wf type good a) (hb : ht_wf type good b) (hsize : a.size = b.size)
    (hp : (ht_toList a).Perm (ht_toList b)) (hone : ∀ chain ∈ b.table, chain.length ≤ 1) :
    a = b := by
  have hmask : a.mask = b.mask := by rw [ha.inv.mask, hb.inv.mask, hsize]
  have hused : a.used = b.used := by
    rw [ht_wf_used_eq ha, ht_wf_used_eq hb, hp.length_eq]
  have hlen : a.table.length = b.table.length := by rw [ha.inv.len, hb.inv.len, hsize]
  have hnd : (ht_toList a).Nodup := List.Nodup.of_map _ ha.nodup
  have htab : a.table = b.table := by
    apply List.ext_getElem hlen
    intro i h1 h2
    have hga : a.table.getD i [] = a.table[i] := by
      rw [List.getD_eq_getElem?_getD, List.getElem?_eq_getElem h1]; rfl
    have hgb : b.table.getD i [] = b.table[i] := by
      rw [List.getD_eq_getElem?_getD, List.getElem?_eq_getElem h2]; rfl
    have hmem : ∀ x, x ∈ a.table[i] ↔ x ∈ b.table[i] := by
      intro x
      constructor
      · intro hx
        have hx1 : x ∈ a.table.getD i [] := by rw [hga]; exact hx
        have hi := ha.inv.bucket i x hx1
        have hx2 := (ht_toList_mem_bucket hb.inv (hp.mem_iff.mp (ht_bucket_mem_toList hx1))).2
        rw [← hmask, hi, hgb] at hx2
        exact hx2
      · intro hx
        have hx1 : x ∈ b.table.getD i [] := by rw [hgb]; exact hx
        have hi := hb.inv.bucket i x hx1
        have hx2 := (ht_toList_mem_bucket ha.inv (hp.mem_iff.mpr (ht_bucket_mem_toList hx1))).2
        rw [hmask, hi, hga] at hx2
        exact hx2
    have hb1 : (b.table[i]).length ≤ 1 := hone _ (List.getElem_mem _)
    have hnda : (a.table[i]).Nodup :=
      (List.nodup_flatten.mp hnd).1 _ (List.getElem_mem _)
    have ha1 : (a.table[i]).length ≤ 1 :=
      le_trans (List.subperm_of_subset hnda (fun x hx => (hmem x).mp hx)).length_le hb1
    exact list_eq_of_length_le_one ha1 hb1 hmem
  cases a
  cases b
  simp only at htab hsize hmask hused
  subst htab hsize hmask hused
  rfl

theorem jsChainPlain_shape : ∀ (chain : List jsEntry), jsChainPlain chain →
    ∀ e ∈ chain, ∃ name sub, e = ⟨some name, some sub⟩
  | [], _ => by intro e he; exact absurd he (List.not_mem_nil _)
  | ⟨none, _⟩ :: _, h => by rw [jsChainPlain] at h; exact absurd h id
  | ⟨some _, none⟩ :: _, h => by rw [jsChainPlain] at h; exact absurd h id
  | ⟨some key, some obj⟩ :: next, h => by
    rw [jsChainPlain] at h
    intro e he
    rcases List.mem_cons.mp he with h1 | h1
    · exact ⟨key, obj, h1⟩
    · exact jsChainPlain_shape next h.2.2 e h1

theorem jsChainsPlain_shape : ∀ (table : List (List jsEntry)), jsChainsPlain table →
    ∀ e ∈ table.flatten, ∃ name sub, e = ⟨some name, some sub⟩
  | [], _ => by intro e he; simp at he
  | chain :: rest, h => by
    rw [jsChainsPlain] at h
    intro e he
    rw [List.flatten_cons] at he
    rcases List.mem_append.mp he with h1 | h1
    · exact jsChainPlain_shape chain h.1 e h1
    · exact jsChainsPlain_shape rest h.2 e h1

/-- Inserting the entries of a plain table into a fresh table, in iteration order, gives
the table back. -/
theorem js_add_members_plain (t : jsTable) (h : jsTablePlain t) (hc : jsChainsPlain t.table) :
    js_add_members ht_create (ht_toList t) = some t := by
  obtain ⟨hwf, hu, hsize, hone⟩ := h
  obtain ⟨t1, hadd, hwf1, hc1, hperm⟩ := js_add_members_spec (ht_toList t) ht_create
    (ht_create_wf htTypeJson jsKeyGood) rfl (jsChainsPlain_shape t.table hc) hwf.nodup
    (by intro e _ hm; simp [ht_create, _ht_reset, ht_keys, ht_toList] at hm)
    (by rw [← ht_wf_used_eq hwf]; simpa [ht_create, _ht_reset] using hu)
  have hperm1 : (ht_toList t1).Perm (ht_toList t) := by
    simpa [ht_create, _ht_reset, ht_toList] using hperm
  have hused : t1.used = t.used := by
    rw [ht_wf_used_eq hwf1, ht_wf_used_eq hwf, hperm1.length_eq]
  rw [hadd, ht_eq_of_perm hwf1 hwf (by rw [hc1, hsize, hused]) hperm1 hone]

theorem parse_value_null (fuel : Nat) (rest : List Nat) :
    _js_parse_value (fuel + 1) ([110, 117, 108, 108] ++ rest)
      = some (jsParse.ok jsObject.null rest) := by
  simp [_js_parse_value, startsWith, _js_object_set_null]

theorem parse_value_true (fuel : Nat) (rest : List Nat) :
    _js_parse_value (fuel + 1) ([116, 114, 117, 101] ++ rest)
      = some (jsParse.ok (jsObject.boolean 1) rest) := by
  simp [_js_parse_value, startsWith, _js_object_set_bool, JS_TRUE]

theorem parse_value_false (fuel : Nat) (rest : List Nat) :
    _js_parse_value (fuel + 1) ([102, 97, 108, 115, 101] ++ rest)
      = some (jsParse.ok (jsObject.boolean 0) rest) := by
  simp [_js_parse_value, startsWith, _js_object_set_bool, JS_FALSE]

theorem parse_value_string (fuel : Nat) (v : List Nat) :
    _js_parse_value (fuel + 1) (34 :: v)
      = some (jsParse.ok (_js_parse_string (34 :: v)).1 (_js_parse_string (34 :: v)).2) := by
  simp [_js_parse_value, startsWith, hd]

theorem parse_value_array (fuel : Nat) (v : List Nat) :
    _js_parse_value (fuel + 1) (91 :: v) = _js_parse_array fuel (91 :: v) := by
  simp [_js_parse_value, startsWith, hd]

theorem parse_value_object (fuel : Nat) (v : List Nat) :
    _js_parse_value (fuel + 1) (123 :: v) = _js_parse_object fuel (123 :: v) := by
  simp [_js_parse_value, startsWith, hd]

theorem parse_array_loop_end (fuel : Nat) (ls : lsHandle jsObject) (rest : List Nat) :
    _js_parse_array_loop (fuel + 1) ls (93 :: rest)
      = some (jsParse.ok (jsObject.array ls) rest) := by
  simp [_js_parse_array_loop, hd, _js_object_set_array]

theorem parse_object_loop_end (fuel : Nat) (ht : jsTable) (rest : List Nat) :
    _js_parse_object_loop (fuel + 1) ht (125 :: rest)
      = some (jsParse.ok (jsObject.object ht) rest) := by
  simp [_js_parse_object_loop, hd, _js_object_set_object]

theorem parse_object_loop_comma (fuel : Nat) (ht : jsTable) (v : List Nat) :
    _js_parse_object_loop (fuel + 1) ht (44 :: v)
      = _js_parse_object_member fuel ht (_js_skip v) := by
  simp [_js_parse_object_loop, hd]

/-- The first byte of the text of a plain tree starts a value and is no separator. -/
theorem text_head (o : jsObject) (h : o.plain) :
    ∃ c t, o.text = c :: t ∧ 32 < c ∧ c ≠ 44 ∧ c ≠ 93 ∧ c ≠ 125 := by
  cases o with
  | null => exact ⟨110, _, rfl, by decide⟩
  | boolean l64 =>
    rw [jsObject.text]
    by_cases hb : l64 ≠ 0
    · rw [if_pos hb]; exact ⟨116, _, rfl, by decide⟩
    · rw [if_neg hb]; exact ⟨102, _, rfl, by decide⟩
  | number_l64 l64 =>
    obtain ⟨c, t, hct, hc⟩ := fmt_ld_cases l64
    refine ⟨c, t, by rw [jsObject.text, hct], ?_⟩
    rcases hc with hc | hc
    · subst hc; decide
    · unfold isDigit at hc; omega
  | number_d64 d64 => rw [jsObject.plain] at h; exact absurd h id
  | string val => exact ⟨34, _, by rw [jsObject.text]; rfl, by decide⟩
  | array val => cases val; exact ⟨91, _, by rw [jsObject.text]; rfl, by decide⟩
  | object val => cases val; exact ⟨123, _, by rw [jsObject.text]; rfl, by decide⟩

theorem jsChainText_shape : ∀ (chain : List jsEntry), jsChainPlain chain →
    2 * chain.length ≤ (jsChainText chain).length
    ∧ (chain = [] ∨ ∃ t, jsChainText chain = 44 :: 34 :: t)
  | [], _ => ⟨by simp, Or.inl rfl⟩
  | ⟨none, _⟩ :: _, h => by rw [jsChainPlain] at h; exact absurd h id
  | ⟨some _, none⟩ :: _, h => by rw [jsChainPlain] at h; exact absurd h id
  | ⟨some key, some obj⟩ :: next, h => by
    rw [jsChainPlain] at h
    have ih := (jsChainText_shape next h.2.2).1
    rw [jsChainText]
    refine ⟨?_, Or.inr ⟨_, rfl⟩⟩
    simp only [List.length_cons, List.length_append]
    omega

theorem jsChainsText_shape : ∀ (table : List (List jsEntry)), jsChainsPlain table →
    2 * table.flatten.length ≤ (jsChainsText table).length
    ∧ ((table.flatten = [] ∧ jsChainsText table = []) ∨ ∃ t, jsChainsText table = 44 :: 34 :: t)
  | [], _ => ⟨by simp, Or.inl ⟨rfl, by rw [jsChainsText]⟩⟩
  | chain :: rest, h => by
    rw [jsChainsPlain] at h
    obtain ⟨h1, h2⟩ := jsChainText_shape chain h.1
    obtain ⟨h3, h4⟩ := jsChainsText_shape rest h.2
    rw [jsChainsText, List.flatten_cons]
    refine ⟨?_, ?_⟩
    · simp only [List.length_append]; omega
    · rcases h2 with h2 | ⟨t, h2⟩
      · subst h2
        rw [jsChainText]
        simpa using h4
      · exact Or.inr ⟨t ++ jsChainsText rest, by rw [h2]; rfl⟩

theorem hd_append_sep {a tail : List Nat}
    (ha : a = [] ∨ ∃ t, a = 44 :: t) (ht : hd tail = 44 ∨ hd tail = 93 ∨ hd tail = 125) :
    hd (a ++ tail) = 44 ∨ hd (a ++ tail) = 93 ∨ hd (a ++ tail) = 125 := by
  rcases ha with ha | ⟨t, ha⟩
  · subst ha; exact ht
  · subst ha; exact Or.inl rfl

theorem endsNumber_sep {tail : List Nat} (h : hd tail = 44 ∨ hd tail = 93 ∨ hd tail = 125) :
    endsNumber (hd tail) ∧ _js_skip tail = tail := by
  refine ⟨?_, _js_skip_ends tail (by omega)⟩
  unfold endsNumber isDigit
  omega

theorem js_add_members_append : ∀ (a b : List jsEntry) (ht : jsTable),
    js_add_members ht (a ++ b) = (js_add_members ht a).bind (fun h => js_add_members h b)
  | [], b, ht => rfl
  | ⟨none, _⟩ :: a, b, ht => rfl
  | ⟨some _, none⟩ :: a, b, ht => rfl
  | ⟨some name, some sub⟩ :: a, b, ht => by
    simp only [List.cons_append, js_add_members]
    by_cases h : (_js_object_add_object ht name jsObject.null).1 = 0
    · rw [if_pos h, if_pos h]; rfl
    · rw [if_neg h, if_neg h]
      exact js_add_members_append a b _

/-- One member of an object text in front of the parser: name, colon and value. -/
theorem parse_object_member_plain (fuel : Nat) (ht : jsTable) (key v : List Nat)
    (hk : jsStrPlain key) (hv : hd v ≠ 0 → 32 < hd v) :
    _js_parse_object_member (fuel + 1) ht
        (34 :: _js_object_string_escape_out key ++ 34 :: 58 :: v)
      = if (_js_object_add_object ht key jsObject.null).1 = 0 then some (jsParse.fail none)
        else
          match _js_parse_value fuel v with
          | none => none
          | some (jsParse.fail pos) => some (jsParse.fail pos)
          | some (jsParse.ok sub rest1) =>
            _js_parse_object_loop fuel (_js_object_add_object ht key sub).2 (_js_skip rest1) := by
  have hskip : _js_skip v = v := _js_skip_ends v (by omega)
  rw [_js_parse_object_member, _js_parse_name_plain key (58 :: v) hk]
  simp only [_js_skip_of_lt v (show 32 < 58 by decide), hd_cons, ne_eq, not_true_eq_false,
    if_false, List.drop_succ_cons, List.drop_zero, hskip]

theorem jsNodesText_shape (nodes : List jsObject) :
    jsNodesText nodes = [] ∨ ∃ t, jsNodesText nodes = 44 :: t := by
  cases nodes with
  | nil => exact Or.inl (by rw [jsNodesText])
  | cons o r => exact Or.inr ⟨_, by rw [jsNodesText]; rfl⟩

mutual

/-- The parser reads the text of a plain tree back as that tree, given fuel above the
length of the text and a following byte that cannot continue a number. -/
theorem parse_text : ∀ (o : jsObject) (fuel : Nat) (rest : List Nat), o.plain →
    o.text.length + 1 ≤ fuel → endsNumber (hd rest) →
    _js_parse_value fuel (o.text ++ rest) = some (jsParse.ok o rest)
  | jsObject.null, fuel, rest, _, hf, _ => by
    obtain ⟨f, rfl⟩ : ∃ f, fuel = f + 1 := ⟨fuel - 1, by omega⟩
    exact parse_value_null f rest
  | jsObject.boolean l64, fuel, rest, h, hf, _ => by
    obtain ⟨f, rfl⟩ : ∃ f, fuel = f + 1 := ⟨fuel - 1, by omega⟩
    rw [jsObject.plain] at h
    rcases h with h | h
    · subst h; exact parse_value_false f rest
    · subst h; exact parse_value_true f rest
  | jsObject.number_l64 l64, fuel, rest, h, hf, hr => by
    obtain ⟨f, rfl⟩ : ∃ f, fuel = f + 1 := ⟨fuel - 1, by omega⟩
    rw [jsObject.plain] at h
    rw [jsObject.text]
    exact parse_value_integer l64 rest f h hr
  | jsObject.number_d64 _, _, _, h, _, _ => by rw [jsObject.plain] at h; exact absurd h id
  | jsObject.string s, fuel, rest, h, hf, _ => by
    obtain ⟨f, rfl⟩ : ∃ f, fuel = f + 1 := ⟨fuel - 1, by omega⟩
    rw [jsObject.plain] at h
    have hs := _js_parse_string_plain s rest h
    rw [jsObject.text]
    simp only [List.cons_append, List.append_assoc, List.singleton_append,
      List.nil_append] at hs ⊢
    rw [parse_value_string, hs]
  | jsObject.array ⟨nodes, len⟩, fuel, rest, h, hf, _ => by
    rw [jsObject.plain] at h
    obtain ⟨hlen, hnodes⟩ := h
    rw [jsObject.text] at hf ⊢
    cases nodes with
    | nil =>
      rw [jsNodesText] at hf ⊢
      simp only [List.drop_nil, List.length_cons, List.length_append, List.length_nil] at hf
      obtain ⟨f, rfl⟩ : ∃ f, fuel = f + 2 := ⟨fuel - 2, by omega⟩
      subst hlen
      simp [parse_value_array, _js_parse_array, hd, _js_skip, _js_object_set_array, ls_create]
    | cons o r =>
      rw [jsNodesPlain] at hnodes
      rw [jsNodesText] at hf ⊢
      simp only [List.cons_append, List.drop_succ_cons, List.drop_zero, List.length_cons,
        List.length_append, List.length_nil] at hf
      obtain ⟨f, rfl⟩ : ∃ f, fuel = f + 2 := ⟨fuel - 2, by omega⟩
      obtain ⟨c, t, hct, hc⟩ := text_head o hnodes.1
      have hsep := hd_append_sep (jsNodesText_shape r)
        (show hd (93 :: rest) = 44 ∨ hd (93 :: rest) = 93 ∨ hd (93 :: rest) = 125 from
          Or.inr (Or.inl rfl))
      have hshape : 91 :: List.drop 1 (44 :: (o.text ++ jsNodesText r)) ++ [93] ++ rest
          = 91 :: (o.text ++ (jsNodesText r ++ 93 :: rest)) := by simp
      have hskip : _js_skip (o.text ++ (jsNodesText r ++ 93 :: rest))
          = o.text ++ (jsNodesText r ++ 93 :: rest) := by
        rw [hct]; exact _js_skip_of_lt _ hc.1
      have hhd : hd (o.text ++ (jsNodesText r ++ 93 :: rest)) ≠ 93 := by
        rw [hct]; exact hc.2.2.1
      simp only [List.cons_append] at hshape ⊢
      rw [hshape, parse_value_array, _js_parse_array]
      simp only [List.drop_succ_cons, List.drop_zero, hskip, hhd, if_false]
      rw [parse_text o f _ hnodes.1 (by omega) (endsNumber_sep hsep).1]
      simp only []
      rw [(endsNumber_sep hsep).2, parse_nodes r f _ rest hnodes.2 (by omega)]
      subst hlen
      simp [ls_add_tail, ls_create]
      omega
  | jsObject.object ⟨table, size, mask, used⟩, fuel, rest, h, hf, _ => by
    rw [jsObject.plain] at h
    obtain ⟨htab, hchains⟩ := h
    obtain ⟨hlen2, hshape⟩ := jsChainsText_shape table hchains
    have hmem := js_add_members_plain ⟨table, size, mask, used⟩ htab hchains
    rw [jsObject.text] at hf ⊢
    rcases hshape with ⟨hflat, htext⟩ | ⟨t, htext⟩
    · rw [htext] at hf ⊢
      simp only [List.drop_nil, List.length_cons, List.length_append, List.length_nil] at hf
      obtain ⟨f, rfl⟩ : ∃ f, fuel = f + 2 := ⟨fuel - 2, by omega⟩
      have hnil : ht_toList (⟨table, size, mask, used⟩ : jsTable) = [] := hflat
      rw [hnil] at hmem
      have heq : (ht_create : jsTable) = ⟨table, size, mask, used⟩ := by
        simpa [js_add_members] using hmem
      rw [← heq]
      simp [parse_value_object, _js_parse_object, hd, _js_skip, _js_object_set_object]
    · rw [htext] at hf hlen2 ⊢
      simp only [List.drop_succ_cons, List.drop_zero, List.length_cons, List.length_append,
        List.length_nil] at hf hlen2
      obtain ⟨f, rfl⟩ : ∃ f, fuel = f + 2 := ⟨fuel - 2, by omega⟩
      have hshape : 123 :: List.drop 1 (44 :: 34 :: t) ++ [125] ++ rest
          = 123 :: 34 :: (t ++ 125 :: rest) := by simp
      rw [hshape, parse_value_object, _js_parse_object]
      simp only [List.drop_succ_cons, List.drop_zero,
        _js_skip_of_lt (t ++ 125 :: rest) (show 32 < 34 by decide), hd_cons,
        show ¬ ((34 : Nat) = 125) by decide, if_false]
      have hloop := parse_object_loop_comma f ht_create (34 :: (t ++ 125 :: rest))
      rw [_js_skip_of_lt _ (show 32 < 34 by decide)] at hloop
      rw [← hloop]
      have hfuel : f + 1 = (f + 1 - 2 * table.flatten.length) + 2 * table.flatten.length := by
        omega
      have hchain := parse_chains table (f + 1 - 2 * table.flatten.length) ht_create
        (125 :: rest) hchains (by rw [htext]; simp only [List.length_cons]; omega)
        (Or.inr (Or.inr rfl))
      rw [← hfuel, htext] at hchain
      have hmem1 : js_add_members ht_create table.flatten
          = some (⟨table, size, mask, used⟩ : jsTable) := hmem
      simp only [List.cons_append] at hchain
      rw [hchain, hmem1]
      simp only []
      obtain ⟨g, hg⟩ : ∃ g, f + 1 - 2 * table.flatten.length = g + 1 :=
        ⟨f - 2 * table.flatten.length, by omega⟩
      rw [hg, parse_object_loop_end]

theorem parse_nodes : ∀ (nodes : List jsObject) (fuel : Nat) (ls : lsHandle jsObject)
    (rest : List Nat), jsNodesPlain nodes → (jsNodesText nodes).length + 1 ≤ fuel →
    _js_parse_array_loop fuel ls (jsNodesText nodes ++ 93 :: rest)
      = some (jsParse.ok (jsObject.array ⟨ls.nodes ++ nodes, ls.len + nodes.length⟩) rest)
  | [], fuel, ls, rest, _, hf => by
    obtain ⟨f, rfl⟩ : ∃ f, fuel = f + 1 := ⟨fuel - 1, by omega⟩
    rw [jsNodesText]
    simp only [List.nil_append]
    rw [parse_array_loop_end]
    cases ls
    simp
  | o :: r, fuel, ls, rest, h, hf => by
    rw [jsNodesPlain] at h
    rw [jsNodesText] at hf ⊢
    simp only [List.length_cons, List.length_append] at hf
    obtain ⟨f, rfl⟩ : ∃ f, fuel = f + 1 := ⟨fuel - 1, by omega⟩
    obtain ⟨c, t, hct, hc⟩ := text_head o h.1
    have hsep := hd_append_sep (jsNodesText_shape r)
      (show hd (93 :: rest) = 44 ∨ hd (93 :: rest) = 93 ∨ hd (93 :: rest) = 125 from
        Or.inr (Or.inl rfl))
    have hshape : 44 :: o.text ++ jsNodesText r ++ 93 :: rest
        = 44 :: (o.text ++ (jsNodesText r ++ 93 :: rest)) := by simp
    have hskip : _js_skip (o.text ++ (jsNodesText r ++ 93 :: rest))
        = o.text ++ (jsNodesText r ++ 93 :: rest) := by
      rw [hct]; exact _js_skip_of_lt _ hc.1
    rw [hshape, _js_parse_array_loop]
    simp only [hd_cons, if_true, List.drop_succ_cons, List.drop_zero, hskip]
    rw [parse_text o f _ h.1 (by omega) (endsNumber_sep hsep).1]
    simp only []
    rw [(endsNumber_sep hsep).2, parse_nodes r f _ rest h.2 (by omega)]
    simp [ls_add_tail]
    omega

theorem parse_chains : ∀ (table : List (List jsEntry)) (fuel : Nat) (ht : jsTable)
    (tail : List Nat), jsChainsPlain table →
    (jsChainsText table).length + 1 ≤ fuel + 2 * table.flatten.length →
    (hd tail = 44 ∨ hd tail = 93 ∨ hd tail = 125) →
    _js_parse_object_loop (fuel + 2 * table.flatten.length) ht (jsChainsText table ++ tail)
      = match js_add_members ht table.flatten with
        | none => some (jsParse.fail none)
        | some ht1 => _js_parse_object_loop fuel ht1 tail
  | [], fuel, ht, tail, _, _, _ => by
    rw [jsChainsText]
    rfl
  | chain :: rest, fuel, ht, tail, h, hf, hsep => by
    rw [jsChainsPlain] at h
    rw [jsChainsText] at hf ⊢
    rw [List.flatten_cons, List.length_append] at hf ⊢
    rw [List.length_append] at hf
    obtain ⟨hc1, hc2⟩ := jsChainText_shape chain h.1
    obtain ⟨hr1, hr2⟩ := jsChainsText_shape rest h.2
    have hsep1 : hd (jsChainsText rest ++ tail) = 44 ∨ hd (jsChainsText rest ++ tail) = 93
        ∨ hd (jsChainsText rest ++ tail) = 125 := by
      refine hd_append_sep ?_ hsep
      rcases hr2 with ⟨_, h0⟩ | ⟨t, h0⟩
      · exact Or.inl h0
      · exact Or.inr ⟨_, h0⟩
    have h1 := parse_chain chain (fuel + 2 * rest.flatten.length) ht
      (jsChainsText rest ++ tail) h.1 (by omega) hsep1
    have hfuel : fuel + 2 * (chain.length + rest.flatten.length)
        = fuel + 2 * rest.flatten.length + 2 * chain.length := by omega
    rw [List.append_assoc, hfuel, h1, js_add_members_append]
    cases js_add_members ht chain with
    | none => rfl
    | some ht1 =>
      simp only [Option.bind]
      exact parse_chains rest fuel ht1 tail h.2 (by omega) hsep

theorem parse_chain : ∀ (chain : List jsEntry) (fuel : Nat) (ht : jsTable)
    (tail : List Nat), jsChainPlain chain →
    (jsChainText chain).length + 1 ≤ fuel + 2 * chain.length →
    (hd tail = 44 ∨ hd tail = 93 ∨ hd tail = 125) →
    _js_parse_object_loop (fuel + 2 * chain.length) ht (jsChainText chain ++ tail)
      = match js_add_members ht chain with
        | none => some (jsParse.fail none)
        | some ht1 => _js_parse_object_loop fuel ht1 tail
  | [], fuel, ht, tail, _, _, _ => by
    rw [jsChainText]
    rfl
  | ⟨none, _⟩ :: _, _, _, _, h, _, _ => by rw [jsChainPlain] at h; exact absurd h id
  | ⟨some _, none⟩ :: _, _, _, _, h, _, _ => by rw [jsChainPlain] at h; exact absurd h id
  | ⟨some key, some obj⟩ :: next, fuel, ht, tail, h, hf, hsep => by
    rw [jsChainPlain] at h
    rw [jsChainText] at hf ⊢
    simp only [List.length_cons, List.length_append] at hf
    obtain ⟨c, t, hct, hc⟩ := text_head obj h.2.1
    obtain ⟨hn1, hn2⟩ := jsChainText_shape next h.2.2
    have hsep1 : hd (jsChainText next ++ tail) = 44 ∨ hd (jsChainText next ++ tail) = 93
        ∨ hd (jsChainText next ++ tail) = 125 := by
      refine hd_append_sep ?_ hsep
      rcases hn2 with h0 | ⟨t, h0⟩
      · subst h0; exact Or.inl (by rw [jsChainText])
      · exact Or.inr ⟨_, h0⟩
    have hshape : 44 :: 34 :: _js_object_string_escape_out key ++ 34 :: 58 :: obj.text
          ++ jsChainText next ++ tail
        = 44 :: 34 :: (_js_object_string_escape_out key
            ++ 34 :: 58 :: (obj.text ++ (jsChainText next ++ tail))) := by simp
    have hfuel : fuel + 2 * (next.length + 1) = (fuel + 2 * next.length) + 1 + 1 := by omega
    have hv : hd (obj.text ++ (jsChainText next ++ tail)) ≠ 0 →
        32 < hd (obj.text ++ (jsChainText next ++ tail)) := by
      intro _; rw [hct]; exact hc.1
    have hmember := parse_object_member_plain (fuel + 2 * next.length) ht key _ h.1 hv
    simp only [List.cons_append] at hmember
    rw [List.length_cons, hshape, hfuel, parse_object_loop_comma,
      _js_skip_of_lt _ (show 32 < 34 by decide), hmember, js_add_members]
    by_cases hadd : (_js_object_add_object ht key jsObject.null).1 = 0
    · rw [if_pos hadd, if_pos hadd]
    · rw [if_neg hadd, if_neg hadd,
        parse_text obj _ _ h.2.1 (by omega) (endsNumber_sep hsep1).1]
      simp only []
      rw [(endsNumber_sep hsep1).2]
      exact parse_chain next fuel _ tail h.2.2 (by omega) hsep

end

theorem js_example_tree_plain : js_example_tree.plain := by
  have hk : jsStrPlain [107] := by intro c hc; simp at hc; subst hc; decide
  have ha : jsStrPlain [97] := by intro c hc; simp at hc; subst hc; decide
  have hcc : jsStrPlain [99] := by intro c hc; simp at hc; subst hc; decide
  have hx : jsStrPlain [120, 34, 121] := by
    intro c hc; simp at hc; rcases hc with h | h | h <;> subst h <;> decide
  have hinner : jsTablePlain
      ⟨[[], [], [⟨some [107], some jsObject.null⟩], []], 4, 3, 1⟩ := by
    refine ⟨⟨⟨rfl, Or.inr ⟨2, by decide, by decide, rfl⟩, rfl, rfl, ?_⟩, by decide, ?_, ?_⟩,
      by decide, rfl, ?_⟩
    · intro i e he
      rcases i with _ | _ | _ | _ | i
      · simp at he
      · simp at he
      · simp at he; subst he; rfl
      · simp at he
      · simp at he
    · intro e he
      simp [ht_toList] at he
      simp [he, jsKeyGood]
    · simp [ht_keys, ht_toList]
    · intro chain hchain
      simp only [List.mem_cons, List.mem_singleton] at hchain
      rcases hchain with h | h | h | h | h <;>
        first | (subst h; simp) | exact absurd h (List.not_mem_nil _)
  unfold js_example_tree
  rw [jsObject.plain]
  refine ⟨⟨⟨⟨rfl, Or.inr ⟨2, by decide, by decide, rfl⟩, rfl, rfl, ?_⟩, by decide, ?_, ?_⟩,
      by decide, rfl, ?_⟩, ?_⟩
  · intro i e he
    rcases i with _ | _ | _ | _ | i
    · simp at he
    · simp at he; subst he; rfl
    · simp at he
    · simp at he; subst he; rfl
    · simp at he
  · intro e he
    simp [ht_toList] at he
    rcases he with h | h <;> simp [h, jsKeyGood]
  · simp [ht_keys, ht_toList]
  · intro chain hchain
    simp only [List.mem_cons, List.mem_singleton] at hchain
    rcases hchain with h | h | h | h | h <;>
      first | (subst h; simp) | exact absurd h (List.not_mem_nil _)
  · simp only [jsChainsPlain, jsChainPlain, jsObject.plain, jsNodesPlain]
    exact ⟨trivial, ⟨hcc, ⟨hinner, trivial, trivial, ⟨hk, trivial, trivial⟩, trivial, trivial⟩,
      trivial⟩, trivial, ⟨ha, ⟨rfl, Or.inr trivial, hx, by decide, trivial⟩, trivial⟩, trivial⟩

/-! ## A repeated member name -/

theorem jsChainPlain_key : ∀ (chain : List jsEntry), jsChainPlain chain →
    ∀ e ∈ chain, ∀ k, e.key = some k → jsStrPlain k
  | [], _ => by intro e he; exact absurd he (List.not_mem_nil _)
  | ⟨none, _⟩ :: _, h => by rw [jsChainPlain] at h; exact absurd h id
  | ⟨some _, none⟩ :: _, h => by rw [jsChainPlain] at h; exact absurd h id
  | ⟨some key, some obj⟩ :: next, h => by
    rw [jsChainPlain] at h
    intro e he k hk
    rcases List.mem_cons.mp he with h1 | h1
    · subst h1
      simp only [Option.some.injEq] at hk
      subst hk
      exact h.1
    · exact jsChainPlain_key next h.2.2 e h1 k hk

theorem jsChainsPlain_key : ∀ (table : List (List jsEntry)), jsChainsPlain table →
    ∀ e ∈ table.flatten, ∀ k, e.key = some k → jsStrPlain k
  | [], _ => by intro e he; simp at he
  | chain :: rest, h => by
    rw [jsChainsPlain] at h
    intro e he
    rw [List.flatten_cons] at he
    rcases List.mem_append.mp he with h1 | h1
    · exact jsChainPlain_key chain h.1 e h1
    · exact jsChainsPlain_key rest h.2 e h1

/-- The text `js_print` returns for a plain tree. -/
theorem js_print_text_plain (o : jsObject) (h : o.plain) : js_print_text o = some o.text := by
  obtain ⟨o1, q, hp, hbuf, _⟩ := print_text o (_js_buffer_new JS_BUFFER_SIZE_INIT) h
  have hbuf1 : q.buf = o.text := by rw [hbuf]; rfl
  unfold js_print_text js_print _js_print
  rw [hp]
  simp only [Option.map, hbuf1]

/-- A repeated name behind the printed members of a plain Object.  For every plain Object
table `t` and every name it holds, `js_print` returns a text `{members}` for `t`, and the
text made of `{members`, a comma and that name in quotes, followed by any bytes `more`,
makes `js_parse` return `JS_ERR` and leave the document as it was, with no error position
written; the Map refuses the insertion of the name (`JS_ERR` from `_js_object_add_object`)
and keeps its entries, their count, and one entry per name. -/
theorem parse_repeat_plain (js : jsHandle) (t : jsTable) (name more : List Nat)
    (hplain : (jsObject.object t).plain) (hdup : some name ∈ ht_keys t) :
    ∃ members, js_print_text (jsObject.object t) = some (123 :: members ++ [125])
      ∧ js_parse js (123 :: members
          ++ 44 :: 34 :: _js_object_string_escape_out name ++ 34 :: more) = (JS_ERR, js)
      ∧ (∀ sub, ∃ t1, _js_object_add_object t name sub = (JS_ERR, t1)
          ∧ (ht_toList t1).Perm (ht_toList t) ∧ t1.used = t.used
          ∧ some name ∈ ht_keys t1 ∧ (ht_keys t1).Nodup) := by
  refine ⟨(jsChainsText t.table).drop 1, ?_, ?_⟩
  · rw [js_print_text_plain _ hplain]
    cases t
    rw [jsObject.text]
  obtain ⟨table, size, mask, used⟩ := t
  rw [jsObject.plain] at hplain
  obtain ⟨htab, hchains⟩ := hplain
  obtain ⟨e, he, hek⟩ := List.mem_map.mp hdup
  have hname : jsStrPlain name := jsChainsPlain_key table hchains e he name hek
  have hskipv : _js_skip (34 :: _js_object_string_escape_out name ++ 34 :: more)
      = 34 :: _js_object_string_escape_out name ++ 34 :: more :=
    _js_skip_of_lt _ (show 32 < 34 by decide)
  have hpn : _js_parse_name (_js_skip (34 :: _js_object_string_escape_out name ++ 34 :: more))
      = Except.ok (name, more) := by
    rw [hskipv]; exact _js_parse_name_plain name more hname
  obtain ⟨hlen2, hshape⟩ := jsChainsText_shape table hchains
  have hmem : js_add_members ht_create table.flatten
      = some (⟨table, size, mask, used⟩ : jsTable) :=
    js_add_members_plain ⟨table, size, mask, used⟩ htab hchains
  rcases hshape with ⟨hflat, _⟩ | ⟨tt, htext⟩
  · have : e ∈ ([] : List jsEntry) := by rw [← hflat]; exact he
    exact absurd this (List.not_mem_nil _)
  · refine ⟨?_, ?_⟩
    · show js_parse js (123 :: (jsChainsText table).drop 1
        ++ 44 :: 34 :: _js_object_string_escape_out name ++ 34 :: more) = (JS_ERR, js)
      rw [htext] at hlen2 ⊢
      simp only [List.length_cons] at hlen2
      have hstr : 123 :: List.drop 1 (44 :: 34 :: tt)
            ++ 44 :: 34 :: _js_object_string_escape_out name ++ 34 :: more
          = 123 :: 34 :: (tt ++ 44 :: (34 :: _js_object_string_escape_out name ++ 34 :: more)) := by
        simp
      rw [hstr]
      unfold js_parse _js_parse
      rw [_js_skip_of_lt _ (show 32 < 123 by decide)]
      have hlenstr : (123 :: 34 :: (tt ++ 44 :: (34 :: _js_object_string_escape_out name
          ++ 34 :: more))).length
          = tt.length + (_js_object_string_escape_out name).length + more.length + 5 := by
        simp only [List.length_cons, List.length_append]; omega
      rw [hlenstr]
      obtain ⟨g, hg⟩ : ∃ g, 2 * (tt.length + (_js_object_string_escape_out name).length
          + more.length + 5) + 1 = (g + 2 + 2 * table.flatten.length) + 1 + 1 :=
        ⟨2 * (tt.length + (_js_object_string_escape_out name).length + more.length + 5) + 1
          - 2 * table.flatten.length - 4, by omega⟩
      rw [hg, parse_value_object, _js_parse_object]
      simp only [List.drop_succ_cons, List.drop_zero,
        _js_skip_of_lt _ (show 32 < 34 by decide), hd_cons,
        show ¬ ((34 : Nat) = 125) by decide, if_false]
      have hloop := parse_object_loop_comma (g + 2 + 2 * table.flatten.length) ht_create
        (34 :: (tt ++ 44 :: (34 :: _js_object_string_escape_out name ++ 34 :: more)))
      rw [_js_skip_of_lt _ (show 32 < 34 by decide)] at hloop
      have hchain := parse_chains table (g + 2 + 1) ht_create
        (44 :: (34 :: _js_object_string_escape_out name ++ 34 :: more)) hchains
        (by rw [htext]; simp only [List.length_cons]; omega) (Or.inl rfl)
      rw [htext, hmem] at hchain
      simp only [List.cons_append] at hchain hloop
      have hfuel : g + 2 + 1 + 2 * table.flatten.length
          = g + 2 + 2 * table.flatten.length + 1 := by omega
      rw [hfuel] at hchain
      have hdupl := (parse_member_duplicate (g + 1) ⟨table, size, mask, used⟩
        (34 :: _js_object_string_escape_out name ++ 34 :: more) more name htab.1 htab.2.1
        hpn hdup).2.2
      simp only [List.cons_append] at hdupl ⊢
      rw [← hloop, hchain, hdupl]
    · exact (parse_member_duplicate 0 ⟨table, size, mask, used⟩
        (34 :: _js_object_string_escape_out name ++ 34 :: more) more name htab.1 htab.2.1
        hpn hdup).1

theorem js_example_dst_plain : (jsObject.object js_example_dst).plain := by
  have ha : jsStrPlain [97] := by intro c hc; simp at hc; subst hc; decide
  have hc : jsStrPlain [99] := by intro c hc; simp at hc; subst hc; decide
  unfold js_example_dst
  rw [jsObject.plain]
  refine ⟨⟨js_example_dst_wf, by decide, rfl, ?_⟩, ?_⟩
  · intro chain hchain
    simp only [List.mem_cons, List.mem_singleton] at hchain
    rcases hchain with h | h | h | h | h <;>
      first | (subst h; simp) | exact absurd h (List.not_mem_nil _)
  · simp only [jsChainsPlain, jsChainPlain, jsObject.plain]
    exact ⟨trivial, ⟨hc, by decide, trivial⟩, trivial, ⟨ha, by decide, trivial⟩, trivial⟩

/-! ## The parser always answers within its recursion bound -/

theorem _js_skip_length : ∀ (v : List Nat), (_js_skip v).length ≤ v.length
  | [] => Nat.le_refl _
  | c :: rest => by
    rw [_js_skip]
    by_cases h : c ≠ 0 ∧ c ≤ 32
    · rw [if_pos h]
      have := _js_skip_length rest
      simp only [List.length_cons]
      omega
    · rw [if_neg h]

theorem ne_nil_of_hd_ne_zero {v : List Nat} (h : hd v ≠ 0) : v ≠ [] := by
  intro h0; subst h0; exact h rfl

theorem length_pos_of_hd {v : List Nat} (h : hd v ≠ 0) : 0 < v.length :=
  List.length_pos.mpr (ne_nil_of_hd_ne_zero h)

theorem startsWith_length : ∀ (value lit : List Nat), startsWith value lit = true →
    lit.length ≤ value.length
  | _, [], _ => Nat.zero_le _
  | [], _ :: _, h => by simp [startsWith] at h
  | c :: value, d :: lit, h => by
    simp only [startsWith, Bool.and_eq_true] at h
    have := startsWith_length value lit h.2
    simp only [List.length_cons]
    omega

theorem _js_parse_digits_length : ∀ (v : List Nat) (num : Dbl) (n : Nat),
    (_js_parse_digits v num n).2.2.length ≤ v.length
  | [], _, _ => Nat.le_refl _
  | c :: v, num, n => by
    rw [_js_parse_digits]
    by_cases h : 48 ≤ c ∧ c ≤ 57
    · rw [if_pos h]
      have := _js_parse_digits_length v
        (Dbl.add (Dbl.mul num (Dbl.ofInt 10)) (Dbl.ofInt (c - 48))) (n + 1)
      simp only [List.length_cons]
      omega
    · rw [if_neg h]

theorem _js_parse_digits_length_lt (v : List Nat) (num : Dbl) (n : Nat)
    (h : 48 ≤ hd v ∧ hd v ≤ 57) : (_js_parse_digits v num n).2.2.length < v.length := by
  cases v with
  | nil => simp [hd] at h
  | cons c v =>
    simp only [hd_cons] at h
    rw [_js_parse_digits, if_pos h]
    have := _js_parse_digits_length v
      (Dbl.add (Dbl.mul num (Dbl.ofInt 10)) (Dbl.ofInt (c - 48))) (n + 1)
    simp only [List.length_cons]
    omega

theorem _js_parse_subscale_length : ∀ (v : List Nat) (s : Int),
    (_js_parse_subscale v s).2.length ≤ v.length
  | [], _ => Nat.le_refl _
  | c :: v, s => by
    rw [_js_parse_subscale]
    by_cases h : 48 ≤ c ∧ c ≤ 57
    · rw [if_pos h]
      have := _js_parse_subscale_length v (wrap32 (s * 10 + (c - 48)))
      simp only [List.length_cons]
      omega
    · rw [if_neg h]

theorem _js_number_int_length (v : List Nat) :
    (_js_number_int v).2.length ≤ v.length
    ∧ (48 ≤ hd v ∧ hd v ≤ 57 → (_js_number_int v).2.length < v.length) := by
  unfold _js_number_int
  by_cases h0 : hd v = 48
  · have hpos := length_pos_of_hd (show hd v ≠ 0 by omega)
    simp only [h0, if_true]
    by_cases h1 : 49 ≤ hd (v.drop 1) ∧ hd (v.drop 1) ≤ 57
    · rw [if_pos h1]
      have := _js_parse_digits_length (v.drop 1) (Dbl.fin false 0 0) 0
      simp only [List.length_drop] at this ⊢
      constructor <;> intros <;> omega
    · rw [if_neg h1]
      simp only [List.length_drop]
      constructor <;> intros <;> omega
  · simp only [h0, if_false]
    by_cases h1 : 49 ≤ hd v ∧ hd v ≤ 57
    · rw [if_pos h1]
      have := _js_parse_digits_length_lt v (Dbl.fin false 0 0) 0 ⟨by omega, h1.2⟩
      simp only []
      constructor <;> intros <;> omega
    · rw [if_neg h1]
      constructor
      · exact Nat.le_refl _
      · intro h; omega

theorem _js_number_frac_length (num : Dbl) (v : List Nat) :
    (_js_number_frac num v).2.2.length ≤ v.length := by
  unfold _js_number_frac
  by_cases h : hd v = 46 ∧ 48 ≤ hd (v.drop 1) ∧ hd (v.drop 1) ≤ 57
  · rw [if_pos h]
    have := _js_parse_digits_length (v.drop 1) num 0
    simp only [List.length_drop] at this
    omega
  · rw [if_neg h]

theorem _js_number_exp_length (v : List Nat) : (_js_number_exp v).2.length ≤ v.length := by
  unfold _js_number_exp
  by_cases h : hd v = 101 ∨ hd v = 69
  · rw [if_pos h]
    simp only []
    by_cases h1 : hd (v.drop 1) = 43 ∨ hd (v.drop 1) = 45
    · rw [if_pos h1]
      have := _js_parse_subscale_length ((v.drop 1).drop 1) 0
      simp only [List.length_drop] at this
      omega
    · rw [if_neg h1]
      have := _js_parse_subscale_length (v.drop 1) 0
      simp only [List.length_drop] at this
      omega
  · rw [if_neg h]

/-- A number literal is at least one byte long. -/
theorem _js_parse_number_length (v : List Nat) (h : hd v = 45 ∨ (48 ≤ hd v ∧ hd v ≤ 57)) :
    (_js_parse_number v).2.length < v.length := by
  have hpos := length_pos_of_hd (show hd v ≠ 0 by omega)
  unfold _js_parse_number
  simp only []
  have h3 := _js_number_exp_length
    (_js_number_frac (_js_number_int (if hd v = 45 then v.drop 1 else v)).1
      (_js_number_int (if hd v = 45 then v.drop 1 else v)).2).2.2
  have h2 := _js_number_frac_length (_js_number_int (if hd v = 45 then v.drop 1 else v)).1
    (_js_number_int (if hd v = 45 then v.drop 1 else v)).2
  have h1 := _js_number_int_length (if hd v = 45 then v.drop 1 else v)
  by_cases hm : hd v = 45
  · simp only [hm, if_true] at h1 h2 h3 ⊢
    have := h1.1
    simp only [List.length_drop] at this
    omega
  · simp only [hm, if_false] at h1 h2 h3 ⊢
    have := h1.2 (by omega)
    omega

theorem _js_parse_string_length (v : List Nat) (h : v ≠ []) :
    (_js_parse_string v).2.length < v.length := by
  have hpos := List.length_pos.mpr h
  unfold _js_parse_string
  simp only []
  split
  · simp only [List.length_drop]; omega
  · simp only [List.length_drop]; omega

theorem _js_parse_name_length (v name rest : List Nat)
    (h : _js_parse_name v = Except.ok (name, rest)) : rest.length < v.length := by
  unfold _js_parse_name at h
  by_cases h34 : hd v ≠ 34
  · rw [if_pos h34] at h; exact absurd h (by intro hc; cases hc)
  · rw [if_neg h34] at h
    have hpos := length_pos_of_hd (show hd v ≠ 0 by omega)
    simp only [Except.ok.injEq, Prod.mk.injEq] at h
    rw [← h.2]
    split
    · simp only [List.length_drop]; omega
    · simp only [List.length_drop]; omega

mutual

/-- With fuel above twice the length of the text the value parser returns an answer, and
a parsed value is at least one byte long. -/
theorem parse_value_total : ∀ (fuel : Nat) (value : List Nat), 2 * value.length + 1 ≤ fuel →
    ∃ r, _js_parse_value fuel value = some r
      ∧ ∀ obj rest, r = jsParse.ok obj rest → rest.length < value.length
  | 0, _, h => by omega
  | fuel + 1, value, h => by
    rw [_js_parse_value]
    by_cases h1 : startsWith value [110, 117, 108, 108] = true
    · rw [if_pos h1]
      refine ⟨_, rfl, ?_⟩
      intro obj rest hr
      simp only [jsParse.ok.injEq] at hr
      have := startsWith_length _ _ h1
      rw [← hr.2, List.length_drop]
      simp only [List.length_cons, List.length_nil] at this
      omega
    rw [if_neg h1]
    by_cases h2 : startsWith value [102, 97, 108, 115, 101] = true
    · rw [if_pos h2]
      refine ⟨_, rfl, ?_⟩
      intro obj rest hr
      simp only [jsParse.ok.injEq] at hr
      have := startsWith_length _ _ h2
      rw [← hr.2, List.length_drop]
      simp only [List.length_cons, List.length_nil] at this
      omega
    rw [if_neg h2]
    by_cases h3 : startsWith value [116, 114, 117, 101] = true
    · rw [if_pos h3]
      refine ⟨_, rfl, ?_⟩
      intro obj rest hr
      simp only [jsParse.ok.injEq] at hr
      have := startsWith_length _ _ h3
      rw [← hr.2, List.length_drop]
      simp only [List.length_cons, List.length_nil] at this
      omega
    rw [if_neg h3]
    by_cases h4 : hd value = 34
    · rw [if_pos h4]
      refine ⟨_, rfl, ?_⟩
      intro obj rest hr
      simp only [jsParse.ok.injEq] at hr
      rw [← hr.2]
      exact _js_parse_string_length value (ne_nil_of_hd_ne_zero (by omega))
    rw [if_neg h4]
    by_cases h5 : hd value = 45 ∨ (48 ≤ hd value ∧ hd value ≤ 57)
    · rw [if_pos h5]
      refine ⟨_, rfl, ?_⟩
      intro obj rest hr
      simp only [jsParse.ok.injEq] at hr
      rw [← hr.2]
      exact _js_parse_number_length value h5
    rw [if_neg h5]
    by_cases h6 : hd value = 91
    · rw [if_pos h6]
      exact parse_array_total fuel value (ne_nil_of_hd_ne_zero (by omega)) (by omega)
    rw [if_neg h6]
    by_cases h7 : hd value = 123
    · rw [if_pos h7]
      exact parse_object_total fuel value (ne_nil_of_hd_ne_zero (by omega)) (by omega)
    rw [if_neg h7]
    exact ⟨_, rfl, by intro obj rest hr; cases hr⟩

theorem parse_array_total : ∀ (fuel : Nat) (value : List Nat), value ≠ [] →
    2 * value.length ≤ fuel →
    ∃ r, _js_parse_array fuel value = some r
      ∧ ∀ obj rest, r = jsParse.ok obj rest → rest.length < value.length
  | 0, value, hne, h => by
    have := List.length_pos.mpr hne
    omega
  | fuel + 1, value, hne, h => by
    have hpos := List.length_pos.mpr hne
    have hs1 := _js_skip_length (value.drop 1)
    have hs2 := _js_skip_length (_js_skip (value.drop 1))
    simp only [List.length_drop] at hs1
    rw [_js_parse_array]
    by_cases h93 : hd (_js_skip (value.drop 1)) = 93
    · rw [if_pos h93]
      refine ⟨_, rfl, ?_⟩
      intro obj rest hr
      simp only [jsParse.ok.injEq] at hr
      rw [← hr.2, List.length_drop]
      omega
    · rw [if_neg h93]
      obtain ⟨r, hr, hlen⟩ := parse_value_total fuel (_js_skip (_js_skip (value.drop 1)))
        (by omega)
      rw [hr]
      cases r with
      | fail pos => exact ⟨_, rfl, by intro obj rest h0; cases h0⟩
      | ok sub rest =>
        have hl := hlen sub rest rfl
        have hs3 := _js_skip_length rest
        obtain ⟨r2, hr2, hlen2⟩ := parse_array_loop_total fuel (ls_add_tail ls_create sub)
          (_js_skip rest) (by omega)
        refine ⟨r2, hr2, ?_⟩
        intro obj rest1 h0
        have := hlen2 obj rest1 h0
        omega

theorem parse_array_loop_total : ∀ (fuel : Nat) (ls : lsHandle jsObject) (value : List Nat),
    2 * value.length + 1 ≤ fuel →
    ∃ r, _js_parse_array_loop fuel ls value = some r
      ∧ ∀ obj rest, r = jsParse.ok obj rest → rest.length ≤ value.length
  | 0, _, _, h => by omega
  | fuel + 1, ls, value, h => by
    rw [_js_parse_array_loop]
    by_cases h44 : hd value = 44
    · rw [if_pos h44]
      have hpos := length_pos_of_hd (show hd value ≠ 0 by omega)
      have hs1 := _js_skip_length (value.drop 1)
      simp only [List.length_drop] at hs1
      obtain ⟨r, hr, hlen⟩ := parse_value_total fuel (_js_skip (value.drop 1)) (by omega)
      rw [hr]
      cases r with
      | fail pos => exact ⟨_, rfl, by intro obj rest h0; cases h0⟩
      | ok sub rest =>
        have hl := hlen sub rest rfl
        have hs3 := _js_skip_length rest
        obtain ⟨r2, hr2, hlen2⟩ := parse_array_loop_total fuel (ls_add_tail ls sub)
          (_js_skip rest) (by omega)
        refine ⟨r2, hr2, ?_⟩
        intro obj rest1 h0
        have := hlen2 obj rest1 h0
        omega
    · rw [if_neg h44]
      by_cases h93 : hd value = 93
      · rw [if_pos h93]
        refine ⟨_, rfl, ?_⟩
        intro obj rest hr
        simp only [jsParse.ok.injEq] at hr
        rw [← hr.2, List.length_drop]
        omega
      · rw [if_neg h93]
        exact ⟨_, rfl, by intro obj rest hr; cases hr⟩

theorem parse_object_total : ∀ (fuel : Nat) (value : List Nat), value ≠ [] →
    2 * value.length ≤ fuel →
    ∃ r, _js_parse_object fuel value = some r
      ∧ ∀ obj rest, r = jsParse.ok obj rest → rest.length < value.length
  | 0, value, hne, h => by
    have := List.length_pos.mpr hne
    omega
  | fuel + 1, value, hne, h => by
    have hpos := List.length_pos.mpr hne
    have hs1 := _js_skip_length (value.drop 1)
    have hs2 := _js_skip_length (_js_skip (value.drop 1))
    simp only [List.length_drop] at hs1
    rw [_js_parse_object]
    by_cases h125 : hd (_js_skip (value.drop 1)) = 125
    · rw [if_pos h125]
      refine ⟨_, rfl, ?_⟩
      intro obj rest hr
      simp only [jsParse.ok.injEq] at hr
      rw [← hr.2, List.length_drop]
      omega
    · rw [if_neg h125]
      obtain ⟨r, hr, hlen⟩ := parse_object_member_total fuel ht_create
        (_js_skip (_js_skip (value.drop 1))) (by omega)
      refine ⟨r, hr, ?_⟩
      intro obj rest h0
      have := hlen obj rest h0
      omega

theorem parse_object_member_total : ∀ (fuel : Nat) (ht : jsTable) (value : List Nat),
    2 * value.length + 1 ≤ fuel →
    ∃ r, _js_parse_object_member fuel ht value = some r
      ∧ ∀ obj rest, r = jsParse.ok obj rest → rest.length ≤ value.length
  | 0, _, _, h => by omega
  | fuel + 1, ht, value, h => by
    rw [_js_parse_object_member]
    cases hn : _js_parse_name value with
    | error pos => exact ⟨_, rfl, by intro obj rest hr; cases hr⟩
    | ok p =>
      obtain ⟨name, rest⟩ := p
      have hl := _js_parse_name_length value name rest hn
      simp only []
      by_cases hadd : (_js_object_add_object ht name jsObject.null).1 = 0
      · rw [if_pos hadd]
        exact ⟨_, rfl, by intro obj rest hr; cases hr⟩
      rw [if_neg hadd]
      by_cases h58 : hd (_js_skip rest) ≠ 58
      · rw [if_pos h58]
        exact ⟨_, rfl, by intro obj rest hr; cases hr⟩
      rw [if_neg h58]
      have h58' : hd (_js_skip rest) = 58 := by omega
      have hpos := length_pos_of_hd (show hd (_js_skip rest) ≠ 0 by omega)
      have hs1 := _js_skip_length rest
      have hs2 := _js_skip_length ((_js_skip rest).drop 1)
      simp only [List.length_drop] at hs2
      obtain ⟨r, hr, hlen⟩ := parse_value_total fuel (_js_skip ((_js_skip rest).drop 1))
        (by omega)
      rw [hr]
      cases r with
      | fail pos => exact ⟨_, rfl, by intro obj rest h0; cases h0⟩
      | ok sub rest1 =>
        have hl1 := hlen sub rest1 rfl
        have hs3 := _js_skip_length rest1
        obtain ⟨r2, hr2, hlen2⟩ := parse_object_loop_total fuel
          (_js_object_add_object ht name sub).2 (_js_skip rest1) (by omega)
        refine ⟨r2, hr2, ?_⟩
        intro obj rest2 h0
        have := hlen2 obj rest2 h0
        omega

theorem parse_object_loop_total : ∀ (fuel : Nat) (ht : jsTable) (value : List Nat),
    2 * value.length + 1 ≤ fuel →
    ∃ r, _js_parse_object_loop fuel ht value = some r
      ∧ ∀ obj rest, r = jsParse.ok obj rest → rest.length ≤ value.length
  | 0, _, _, h => by omega
  | fuel + 1, ht, value, h => by
    rw [_js_parse_object_loop]
    by_cases h44 : hd value = 44
    · rw [if_pos h44]
      have hpos := length_pos_of_hd (show hd value ≠ 0 by omega)
      have hs1 := _js_skip_length (value.drop 1)
      simp only [List.length_drop] at hs1
      obtain ⟨r, hr, hlen⟩ := parse_object_member_total fuel ht (_js_skip (value.drop 1))
        (by omega)
      refine ⟨r, hr, ?_⟩
      intro obj rest h0
      have := hlen obj rest h0
      omega
    · rw [if_neg h44]
      by_cases h125 : hd value = 125
      · rw [if_pos h125]
        refine ⟨_, rfl, ?_⟩
        intro obj rest hr
        simp only [jsParse.ok.injEq] at hr
        rw [← hr.2, List.length_drop]
        omega
      · rw [if_neg h125]
        exact ⟨_, rfl, by intro obj rest hr; cases hr⟩

end

/-- The bound `_js_parse` passes is never reached: the parser always answers. -/
theorem _js_parse_answers (str : List Nat) :
    ∃ r, _js_parse_value (2 * str.length + 1) (_js_skip str) = some r := by
  have := _js_skip_length str
  obtain ⟨r, hr, _⟩ := parse_value_total (2 * str.length + 1) (_js_skip str) (by omega)
  exact ⟨r, hr⟩

/-! ## C1: only an Object root is accepted -/

/-- C1: for every input text the parser answers (the recursion bound of the model is
never reached), and `js_parse` reports success only if the parsed root value is an
Object, which it then stores; a root of any other variant is rejected and the document
left as it was, and a parsed Object root is accepted.  The texts `"hello"`, `[1,2,3]`, `42` and `true` are rejected, and
`{"a":1}` is accepted with a root Object whose single member is `a = Int 1`. -/
theorem js_parse_root_must_be_object (js : jsHandle) (str : List Nat) :
    (∃ r, _js_parse_value (2 * str.length + 1) (_js_skip str) = some r)
    ∧ ((js_parse js str).1 = JS_TRUE →
      ∃ ht rest,
        _js_parse_value (2 * str.length + 1) (_js_skip str)
          = some (jsParse.ok (jsObject.object ht) rest)
        ∧ (js_parse js str).2.obj = some (jsObject.object ht))
    ∧ (∀ obj rest,
        _js_parse_value (2 * str.length + 1) (_js_skip str) = some (jsParse.ok obj rest) →
        obj.isObject = false → js_parse js str = (JS_ERR, js))
    ∧ (∀ ht rest,
        _js_parse_value (2 * str.length + 1) (_js_skip str)
          = some (jsParse.ok (jsObject.object ht) rest) →
        js_parse js str = (JS_TRUE, ⟨js.err, some (jsObject.object ht)⟩))
    ∧ js_parse js_create (bytes "\"hello\"") = (JS_ERR, js_create)
    ∧ js_parse js_create (bytes "[1,2,3]") = (JS_ERR, js_create)
    ∧ js_parse js_create (bytes "42") = (JS_ERR, js_create)
    ∧ js_parse js_create (bytes "true") = (JS_ERR, js_create)
    ∧ js_parse js_create (bytes "\x7b\"a\":1\x7d")
      = (JS_TRUE, ⟨none, some (jsObject.object
          ⟨[[], [], [], [⟨some [97], some (jsObject.number_l64 1)⟩]], 4, 3, 1⟩)⟩) := by
  refine ⟨_js_parse_answers str, ?_, ?_, ?_, rfl, rfl, rfl, rfl, rfl⟩
  · intro h
    unfold js_parse _js_parse at h ⊢
    cases hp : _js_parse_value (2 * str.length + 1) (_js_skip str) with
    | none => simp [hp, JS_ERR, JS_TRUE] at h
    | some r =>
      cases r with
      | fail pos => cases pos <;> simp [hp, JS_ERR, JS_TRUE] at h
      | ok obj rest =>
        cases obj with
        | object ht => exact ⟨ht, rest, rfl, rfl⟩
        | _ => simp [hp, JS_ERR, JS_TRUE, jsObject.isObject] at h
  · intro obj rest hp hobj
    unfold js_parse _js_parse
    rw [hp]
    simp [hobj]
  · intro ht rest hp
    unfold js_parse _js_parse
    rw [hp]
    rfl

/-! ## The growable buffers: `ensureFree` and `append` -/

theorem pb_realloc_length (b : List (Option Nat)) (n : Nat) : (pb_realloc b n).length = n := by
  unfold pb_realloc
  simp only [List.length_append, List.length_take, List.length_replicate]
  omega

theorem pb_realloc_take (b : List (Option Nat)) (n k : Nat) (hk : k ≤ b.length) (hn : k ≤ n) :
    (pb_realloc b n).take k = b.take k := by
  unfold pb_realloc
  rw [List.take_append_of_le_length (by simp only [List.length_take]; omega), List.take_take]
  congr 1
  omega

theorem pb_realloc_get (b : List (Option Nat)) (n k : Nat) (hk : k < b.length) (hn : k < n) :
    (pb_realloc b n).get? k = b.get? k := by
  unfold pb_realloc
  simp only [List.get?_eq_getElem?]
  rw [List.getElem?_append_left (by simp only [List.length_take]; omega), List.getElem?_take]
  simp [hn]

/-- The size `pb_renew` and `_js_buffer_renew` reallocate to. -/
theorem renew_new_size (l f n : Nat) :
    (if (f + l) * 2 > l + n + 8 then (f + l) * 2 else l + n + 8)
      = max (2 * (l + f)) (l + n + 8) := by
  by_cases h : (f + l) * 2 > l + n + 8
  · rw [if_pos h]; omega
  · rw [if_neg h]; omega

/-- `pb_renew` on a buffer in its invariant. -/
theorem pb_renew_spec (p : pbHandle) (n : Nat) (hinv : pb_inv p) :
    (n ≤ p.free → pb_renew p n = p)
    ∧ (p.free < n →
        (pb_renew p n).len = p.len
        ∧ pb_size (pb_renew p n) = max (2 * (p.len + p.free)) (p.len + n + 8)
        ∧ pb_content (pb_renew p n) = pb_content p)
    ∧ n ≤ (pb_renew p n).free
    ∧ pb_inv (pb_renew p n) := by
  obtain ⟨hlen, hterm⟩ := hinv
  have hpn : p.free < n → pb_renew p n
      = { p with free := max (2 * (p.len + p.free)) (p.len + n + 8) - p.len,
                 buf := pb_realloc p.buf (max (2 * (p.len + p.free)) (p.len + n + 8) + 1) } := by
    intro h
    unfold pb_renew
    rw [if_pos h]
    simp only [renew_new_size]
  refine ⟨?_, ?_, ?_, ?_⟩
  · intro h
    unfold pb_renew
    rw [if_neg (by omega)]
  · intro h
    rw [hpn h]
    refine ⟨rfl, ?_, ?_⟩
    · show max (2 * (p.len + p.free)) (p.len + n + 8) - p.len + p.len = _
      omega
    · show (pb_realloc p.buf _).take p.len = p.buf.take p.len
      exact pb_realloc_take _ _ _ (by omega) (by omega)
  · by_cases h : p.free < n
    · rw [hpn h]
      show n ≤ max (2 * (p.len + p.free)) (p.len + n + 8) - p.len
      omega
    · unfold pb_renew
      rw [if_neg h]
      omega
  · by_cases h : p.free < n
    · rw [hpn h]
      refine ⟨?_, ?_⟩
      · show (pb_realloc p.buf _).length = _
        rw [pb_realloc_length]
        show _ = p.len + (max (2 * (p.len + p.free)) (p.len + n + 8) - p.len) + 1
        omega
      · show (pb_realloc p.buf _).get? p.len = _
        rw [pb_realloc_get _ _ _ (by omega) (by omega)]
        exact hterm
    · unfold pb_renew
      rw [if_neg h]
      exact ⟨hlen, hterm⟩

/-- `_js_buffer_renew` on any buffer. -/
theorem _js_buffer_renew_spec (q : jsBuffer) (n : Nat) :
    (n ≤ q.free → _js_buffer_renew q n = q)
    ∧ (q.free < n →
        (_js_buffer_renew q n).len = q.len
        ∧ (_js_buffer_renew q n).free + (_js_buffer_renew q n).len
            = max (2 * (q.len + q.free)) (q.len + n + 8)
        ∧ (_js_buffer_renew q n).buf = q.buf)
    ∧ n ≤ (_js_buffer_renew q n).free := by
  have hqn : q.free < n → _js_buffer_renew q n
      = { q with free := max (2 * (q.len + q.free)) (q.len + n + 8) - q.len } := by
    intro h
    unfold _js_buffer_renew
    rw [if_pos h]
    simp only [renew_new_size]
  refine ⟨?_, ?_, ?_⟩
  · intro h
    unfold _js_buffer_renew
    rw [if_neg (by omega)]
  · intro h
    rw [hqn h]
    refine ⟨rfl, ?_, rfl⟩
    show max (2 * (q.len + q.free)) (q.len + n + 8) - q.len + q.len = _
    omega
  · by_cases h : q.free < n
    · rw [hqn h]
      show n ≤ max (2 * (q.len + q.free)) (q.len + n + 8) - q.len
      omega
    · unfold _js_buffer_renew
      rw [if_neg h]
      omega

/-- C18: `ensureFree(n)` (`pb_renew`, `_js_buffer_renew`) on a buffer with length L and
free capacity F, all sizes within the range of `int`.  When `F >= n` the buffer is
unchanged; otherwise the length and the first L bytes are kept and the capacity
`len + free` becomes `max(2*(L+F), L+n+8)`; in both cases the free capacity afterwards is
at least `n`, and the `pb.c` buffer keeps its allocation of `len + free + 1` bytes and
its terminator. -/
theorem renew_ensures_free (p : pbHandle) (q : jsBuffer) (n : Nat) (hinv : pb_inv p)
    (_hp : 2 * (p.len + p.free) ≤ INT_MAX ∧ p.len + n + 8 ≤ INT_MAX)
    (_hq : 2 * (q.len + q.free) ≤ INT_MAX ∧ q.len + n + 8 ≤ INT_MAX) :
    (n ≤ p.free → pb_renew p n = p)
    ∧ (p.free < n →
        (pb_renew p n).len = p.len
        ∧ pb_size (pb_renew p n) = max (2 * (p.len + p.free)) (p.len + n + 8)
        ∧ pb_content (pb_renew p n) = pb_content p)
    ∧ n ≤ (pb_renew p n).free
    ∧ pb_inv (pb_renew p n)
    ∧ (n ≤ q.free → _js_buffer_renew q n = q)
    ∧ (q.free < n →
        (_js_buffer_renew q n).len = q.len
        ∧ (_js_buffer_renew q n).free + (_js_buffer_renew q n).len
            = max (2 * (q.len + q.free)) (q.len + n + 8)
        ∧ (_js_buffer_renew q n).buf = q.buf)
    ∧ n ≤ (_js_buffer_renew q n).free :=
  ⟨(pb_renew_spec p n hinv).1, (pb_renew_spec p n hinv).2.1, (pb_renew_spec p n hinv).2.2.1,
    (pb_renew_spec p n hinv).2.2.2, (_js_buffer_renew_spec q n).1,
    (_js_buffer_renew_spec q n).2.1, (_js_buffer_renew_spec q n).2.2⟩

/-- C18 (witness): a buffer of length 3 and free capacity 1 asked for 10 free bytes gets
the capacity 21. -/
theorem renew_ensures_free_witness :
    pb_size (pb_renew ⟨3, 1, [some 97, some 98, some 99, some 0, some 0]⟩ 10) = 21
    ∧ pb_content (pb_renew ⟨3, 1, [some 97, some 98, some 99, some 0, some 0]⟩ 10)
        = [some 97, some 98, some 99]
    ∧ 10 ≤ (pb_renew ⟨3, 1, [some 97, some 98, some 99, some 0, some 0]⟩ 10).free
    ∧ (_js_buffer_renew ⟨3, 1, [97, 98, 99]⟩ 10).free = 18 :=
  have h := renew_ensures_free ⟨3, 1, [some 97, some 98, some 99, some 0, some 0]⟩
    ⟨3, 1, [97, 98, 99]⟩ 10 ⟨rfl, rfl⟩ (by decide) (by decide)
  ⟨(h.2.1 (by decide)).2.1, (h.2.1 (by decide)).2.2, h.2.2.1, rfl⟩

theorem pb_read_length (src : List Nat) (n : Nat) : (pb_read src n).length = n := by
  simp [pb_read]

theorem pb_read_eq (src : List Nat) (n : Nat) (h : n ≤ src.length) :
    pb_read src n = (src.take n).map some := by
  apply List.ext_getElem?
  intro i
  unfold pb_read
  simp only [List.getElem?_map, List.getElem?_range, List.get?_eq_getElem?, List.getElem?_take]
  by_cases hi : i < n
  · have hi2 : i < src.length := by omega
    simp [hi, List.getElem?_eq_getElem hi2, List.getElem?_range hi]
  · simp [hi, List.getElem?_eq_none (show (List.range n).length ≤ i by simp; omega)]

theorem pb_memcpy_length (dst : List (Option Nat)) (off : Nat) (src : List Nat) (n : Nat) :
    (pb_memcpy dst off src n).length = dst.length := by
  unfold pb_memcpy
  by_cases h : off + n ≤ dst.length
  · rw [if_pos h]
    simp only [List.length_append, List.length_take, List.length_drop, pb_read_length]
    omega
  · rw [if_neg h]

theorem take_set_self {α : Type} (l : List α) (n : Nat) (a : α) :
    (l.set n a).take n = l.take n :=
  List.ext_getElem? fun i => by
    rw [List.getElem?_take, List.getElem?_take]
    split
    · rw [List.getElem?_set_ne (by omega)]
    · rfl

/-- The copy of `_pb_cat` and its terminator: the first `off` bytes stay, the `n` bytes of
`src` follow, and the byte after them is zero. -/
theorem pb_memcpy_set (dst : List (Option Nat)) (off : Nat) (src : List Nat) (n : Nat)
    (h : off + n < dst.length) (hn : n ≤ src.length) :
    ((pb_memcpy dst off src n).set (off + n) (some 0)).take (off + n)
        = dst.take off ++ (src.take n).map some
    ∧ ((pb_memcpy dst off src n).set (off + n) (some 0)).get? (off + n) = some (some 0)
    ∧ ((pb_memcpy dst off src n).set (off + n) (some 0)).length = dst.length := by
  refine ⟨?_, ?_, ?_⟩
  · rw [take_set_self]
    unfold pb_memcpy
    rw [if_pos (by omega), pb_read_eq src n hn]
    apply List.take_left'
    simp only [List.length_append, List.length_take, List.length_map]
    omega
  · rw [List.get?_eq_getElem?, List.getElem?_set_self (by rw [pb_memcpy_length]; exact h)]
  · rw [List.length_set, pb_memcpy_length]

theorem pb_new_inv (c : Nat) : pb_inv (pb_new c) := by
  unfold pb_inv pb_new
  refine ⟨by simp, ?_⟩
  simp [List.getElem?_replicate]

theorem pb_new_len_spec (bytes : List Nat) (n : Nat) (hn : n ≤ bytes.length) :
    pb_content (pb_new_len bytes n) = (bytes.take n).map some ∧ pb_inv (pb_new_len bytes n) := by
  have h := pb_memcpy_set (List.replicate (n + 1) (some 0)) 0 bytes n (by simp) hn
  simp only [Nat.zero_add, List.take_zero, List.nil_append, List.length_replicate] at h
  unfold pb_content pb_inv pb_new_len
  exact ⟨h.1, by simpa using h.2.2, h.2.1⟩

theorem _pb_cat_spec (q : pbHandle) (bytes : List Nat) (n : Nat) (hq : pb_inv q)
    (hfree : n ≤ q.free) (hn : n ≤ bytes.length) :
    (_pb_cat q bytes n).len = q.len + n
    ∧ pb_content (_pb_cat q bytes n) = pb_content q ++ (bytes.take n).map some
    ∧ pb_inv (_pb_cat q bytes n) := by
  obtain ⟨hlen, _⟩ := hq
  have h := pb_memcpy_set q.buf q.len bytes n (by omega) hn
  unfold pb_content pb_inv _pb_cat
  refine ⟨rfl, h.1, ?_, h.2.1⟩
  show ((pb_memcpy q.buf q.len bytes n).set (q.len + n) (some 0)).length
    = q.len + n + (q.free - n) + 1
  rw [h.2.2, hlen]
  omega

/-- C19: the tracked length of the buffers of `pb.c` is authoritative.  `pb_new(c)` has
length 0 and free capacity `c`; `pb_new_len(bytes, n)` has length `n`, no free capacity
and the content `bytes[0..n)`; `pb_cat(p, bytes, n)` on a buffer in its invariant has the
length `len + n`, the old content followed by the `n` appended bytes, an allocation of
`len + free + 1` bytes (length plus free is the capacity `pb_size`) and the terminator
zero at index `len`.  All sizes are within the range of `int`, and `bytes` holds at
least `n` bytes. -/
theorem pb_append_keeps_length (p : pbHandle) (bytes : List Nat) (c n : Nat)
    (hinv : pb_inv p) (hn : n ≤ bytes.length)
    (_hint : 2 * (p.len + p.free) ≤ INT_MAX ∧ p.len + n + 8 ≤ INT_MAX ∧ c < INT_MAX) :
    (pb_len (pb_new c) = 0 ∧ (pb_new c).free = c ∧ pb_inv (pb_new c))
    ∧ (pb_len (pb_new_len bytes n) = n ∧ (pb_new_len bytes n).free = 0
        ∧ pb_content (pb_new_len bytes n) = (bytes.take n).map some
        ∧ pb_inv (pb_new_len bytes n))
    ∧ (pb_len (pb_cat p bytes n) = pb_len p + n
        ∧ pb_content (pb_cat p bytes n) = pb_content p ++ (bytes.take n).map some
        ∧ (pb_cat p bytes n).buf.length = pb_size (pb_cat p bytes n) + 1
        ∧ pb_size (pb_cat p bytes n) = (pb_cat p bytes n).len + (pb_cat p bytes n).free
        ∧ (pb_cat p bytes n).buf.get? (pb_cat p bytes n).len = some (some 0)) := by
  refine ⟨⟨rfl, rfl, pb_new_inv c⟩, ⟨rfl, rfl, (pb_new_len_spec bytes n hn).1,
    (pb_new_len_spec bytes n hn).2⟩, ?_⟩
  by_cases h0 : n = 0
  · subst h0
    unfold pb_cat
    rw [if_pos rfl]
    refine ⟨rfl, by simp, ?_, ?_, hinv.2⟩
    · rw [hinv.1]; unfold pb_size; omega
    · unfold pb_size; omega
  · obtain ⟨_, hr2, hr3, hr4⟩ := pb_renew_spec p n hinv
    have hlenr : (pb_renew p n).len = p.len := by
      by_cases h : p.free < n
      · exact (hr2 h).1
      · unfold pb_renew; rw [if_neg h]
    have hcr : pb_content (pb_renew p n) = pb_content p := by
      by_cases h : p.free < n
      · exact (hr2 h).2.2
      · unfold pb_renew; rw [if_neg h]
    obtain ⟨hc1, hc2, hc3⟩ := _pb_cat_spec (pb_renew p n) bytes n hr4 hr3 hn
    unfold pb_cat
    rw [if_neg h0]
    refine ⟨?_, ?_, ?_, ?_, hc3.2⟩
    · show (_pb_cat (pb_renew p n) bytes n).len = p.len + n
      rw [hc1, hlenr]
    · rw [hc2, hcr]
    · rw [hc3.1]; unfold pb_size; omega
    · unfold pb_size; omega

/-- C19 (witness): three bytes appended to a fresh buffer of capacity 2. -/
theorem pb_append_keeps_length_witness :
    pb_cat (pb_new 2) [104, 105, 33, 0] 3
        = ⟨3, 8, [some 104, some 105, some 33, some 0, none, none, none, none, none, none, none,
            none]⟩
    ∧ pb_len (pb_cat (pb_new 2) [104, 105, 33, 0] 3) = pb_len (pb_new 2) + 3
    ∧ pb_content (pb_cat (pb_new 2) [104, 105, 33, 0] 3)
        = pb_content (pb_new 2) ++ ([104, 105, 33, 0].take 3).map some :=
  have h := pb_append_keeps_length (pb_new 2) [104, 105, 33, 0] 2 3 (pb_new_inv 2) (by decide)
    (by decide)
  ⟨rfl, h.2.2.1, h.2.2.2.1⟩

/-! ## The string transforms of the parser and the serializer -/

theorem jsStrBody_cons (it : jsStrItem) (items : List jsStrItem) :
    jsStrBody (it :: items) = it.text ++ jsStrBody items := by
  simp [jsStrBody]

/-- The two passes of `_js_string_escape` on a string body in front of its closing quote
or of the terminator. -/
theorem string_escape_body : ∀ (items : List jsStrItem) (tail : List Nat),
    (∀ it ∈ items, it.wf) → (hd tail = 34 ∨ hd tail = 0) →
    _js_string_escape_len (jsStrBody items ++ tail)
        = (items.length, (jsStrBody items).length)
    ∧ _js_string_escape_out (jsStrBody items ++ tail) = items.map jsStrItem.decodedSpec
  | [], tail, _, ht => by
    have hq : hd tail = 34 ∨ hd tail = 0 := ht
    cases tail with
    | nil => exact ⟨rfl, rfl⟩
    | cons c tail =>
      simp only [hd_cons] at hq
      constructor
      · show _js_string_escape_len (c :: tail) = _
        unfold _js_string_escape_len
        rw [if_pos hq]
        rfl
      · show _js_string_escape_out (c :: tail) = _
        unfold _js_string_escape_out
        rw [if_pos hq]
        rfl
  | jsStrItem.raw c :: items, tail, h, ht => by
    have hc : c ≠ 34 ∧ c ≠ 0 ∧ c ≠ 92 := h _ (List.mem_cons_self _ _)
    obtain ⟨ih1, ih2⟩ := string_escape_body items tail
      (fun it hit => h it (List.mem_cons_of_mem _ hit)) ht
    have hq : ¬ (c = 34 ∨ c = 0) := by omega
    rw [jsStrBody_cons]
    constructor
    · show _js_string_escape_len (c :: (jsStrBody items ++ tail)) = _
      unfold _js_string_escape_len
      rw [if_neg hq, if_neg hc.2.2]
      show ((_js_string_escape_len (jsStrBody items ++ tail)).1 + 1,
        (_js_string_escape_len (jsStrBody items ++ tail)).2 + 1) = _
      rw [ih1]
      rfl
    · show _js_string_escape_out (c :: (jsStrBody items ++ tail)) = _
      unfold _js_string_escape_out
      rw [if_neg hq, if_pos hc.2.2]
      show c :: _js_string_escape_out (jsStrBody items ++ tail) = _
      rw [ih2]
      rfl
  | jsStrItem.esc x :: items, tail, h, ht => by
    obtain ⟨ih1, ih2⟩ := string_escape_body items tail
      (fun it hit => h it (List.mem_cons_of_mem _ hit)) ht
    have hq : ¬ ((92 : Nat) = 34 ∨ (92 : Nat) = 0) := by omega
    rw [jsStrBody_cons]
    constructor
    · show _js_string_escape_len (92 :: x :: (jsStrBody items ++ tail)) = _
      unfold _js_string_escape_len
      rw [if_neg hq, if_pos rfl]
      show ((_js_string_escape_len (jsStrBody items ++ tail)).1 + 1,
        (_js_string_escape_len (jsStrBody items ++ tail)).2 + 2) = _
      rw [ih1]
      rfl
    · show _js_string_escape_out (92 :: x :: (jsStrBody items ++ tail)) = _
      unfold _js_string_escape_out
      rw [if_neg hq, if_neg (by simp)]
      show _js_unescape x :: _js_string_escape_out (jsStrBody items ++ tail) = _
      rw [ih2]
      rfl

/-- C17: the string unescape of the parser.  For every string body made of raw bytes
(no quote, backslash or terminator) and of backslash pairs, in front of its closing
quote: `_js_string_escape` steps over the whole body and returns one byte per item, a raw
byte as itself, `\b \f \n \r \t` as 0x08 0x0C 0x0A 0x0D 0x09 and a backslash followed by
any other byte X as X, so an escaped quote does not end the string; `_js_parse_string`
and `_js_parse_name` return these bytes and the position after the closing quote.  The
body `\u0041` decodes to the five bytes `u0041` and `a\"b` to `a"b`. -/
theorem js_string_unescape (items : List jsStrItem) (rest : List Nat)
    (hwf : ∀ it ∈ items, it.wf) :
    _js_string_escape (jsStrBody items ++ 34 :: rest)
        = (items.map jsStrItem.decodedSpec, (jsStrBody items).length)
    ∧ _js_parse_string (34 :: jsStrBody items ++ 34 :: rest)
        = (jsObject.string (items.map jsStrItem.decodedSpec), rest)
    ∧ _js_parse_name (34 :: jsStrBody items ++ 34 :: rest)
        = Except.ok (items.map jsStrItem.decodedSpec, rest)
    ∧ _js_parse_string (bytes "\"\\u0041\"") = (jsObject.string (bytes "u0041"), [])
    ∧ _js_parse_string (bytes "\"a\\\"b\",") = (jsObject.string (bytes "a\"b"), [44]) := by
  obtain ⟨h1, h2⟩ := string_escape_body items (34 :: rest) hwf (Or.inl rfl)
  have hesc : _js_string_escape (jsStrBody items ++ 34 :: rest)
      = (items.map jsStrItem.decodedSpec, (jsStrBody items).length) := by
    unfold _js_string_escape
    rw [h1, h2]
    simp only []
    have := fill_self (items.map jsStrItem.decodedSpec)
    rw [List.length_map] at this
    rw [this]
  refine ⟨hesc, ?_, ?_, rfl, rfl⟩
  · unfold _js_parse_string
    simp only [List.cons_append, List.drop_succ_cons, List.drop_zero]
    rw [hesc]
    simp [_js_object_set_string, hd]
  · unfold _js_parse_name
    simp only [List.cons_append, List.drop_succ_cons, List.drop_zero]
    rw [hesc]
    simp [hd]

/-- C17 (witness): the body `x\ty\/z` (a tab escape and an escaped slash). -/
theorem js_string_unescape_witness :
    _js_parse_string (bytes "\"x\\ty\\/z\"]")
      = (jsObject.string [120, 9, 121, 47, 122], [93]) :=
  (js_string_unescape
    [jsStrItem.raw 120, jsStrItem.esc 116, jsStrItem.raw 121, jsStrItem.esc 47,
      jsStrItem.raw 122] [93]
    (by
      intro it hit
      simp only [List.mem_cons, List.mem_singleton, List.not_mem_nil, or_false] at hit
      rcases hit with h | h | h | h | h <;> subst h <;> simp [jsStrItem.wf])).2.1

/-- On bytes that are at least 0x20 or one of the five escaped control bytes, the second
pass of `_js_object_string_escape` is the transform E of the specification. -/
theorem escape_out_eq_spec : ∀ (s : List Nat),
    (∀ c ∈ s, 31 < c ∨ c = 8 ∨ c = 9 ∨ c = 10 ∨ c = 12 ∨ c = 13) →
    _js_object_string_escape_out s = jsEscapeSpec s
  | [], _ => rfl
  | c :: s, h => by
    have hc := h c (List.mem_cons_self _ _)
    have ih := escape_out_eq_spec s (fun x hx => h x (List.mem_cons_of_mem _ hx))
    have h0 : c ≠ 0 := by omega
    rw [_js_object_string_escape_out, jsEscapeSpec, if_neg h0, ih]
    by_cases h34 : c = 34
    · subst h34; simp
    by_cases h92 : c = 92
    · subst h92; simp
    by_cases h31 : 31 < c
    · rw [if_pos ⟨h31, h34, h92⟩]
      have h8 : c ≠ 8 := by omega
      have h12 : c ≠ 12 := by omega
      have h10 : c ≠ 10 := by omega
      have h13 : c ≠ 13 := by omega
      have h9 : c ≠ 9 := by omega
      simp [h34, h92, h8, h12, h10, h13, h9]
    · rcases hc with hc | hc | hc | hc | hc | hc
      · exact absurd hc h31
      all_goals (subst hc; simp)

/-- C16 (the code on strings without `%`, and at the failing input): for every String
whose bytes are at least 0x20 or one of the five escaped control bytes and none of which
is `%`, `js_print` emits a quote, E(s) and a quote.  A `%` is not copied: the escaped
string is the `printf` format, so the String `5%%` is printed as `"5%"` although E
leaves it unchanged, and for the String `%s` the call has no defined result. -/
theorem js_string_print_escape (s : List Nat) (h : jsStrPlain s) :
    js_print_text (jsObject.string s) = some (34 :: jsEscapeSpec s ++ [34])
    ∧ jsEscapeSpec (bytes "5%%") = bytes "5%%"
    ∧ js_print_text (jsObject.string (bytes "5%%")) = some (bytes "\"5%\"")
    ∧ js_print_text (jsObject.string (bytes "%s")) = none := by
  refine ⟨?_, rfl, rfl, rfl⟩
  have hp : (jsObject.string s).plain := by rw [jsObject.plain]; exact h
  rw [js_print_text_plain _ hp, jsObject.text, escape_out_eq_spec s (fun c hc => (h c hc).2)]

/-- C16 (witness): the String `a"b\` followed by a tab and the byte 0xC3. -/
theorem js_string_print_escape_witness :
    js_print_text (jsObject.string [97, 34, 98, 92, 9, 195])
      = some [34, 97, 92, 34, 98, 92, 92, 92, 116, 195, 34] :=
  (js_string_print_escape [97, 34, 98, 92, 9, 195]
    (by
      intro c hc
      simp only [List.mem_cons, List.mem_singleton, List.not_mem_nil, or_false] at hc
      rcases hc with h | h | h | h | h | h <;> subst h <;> decide)).1

/-! ## Arrays keep the order of their elements -/

/-- The array loop of the parser only appends: whatever the text, the Sequence of a
parsed array starts with the nodes collected so far, in their order. -/
theorem parse_array_loop_appends : ∀ (fuel : Nat) (ls : lsHandle jsObject) (value : List Nat)
    (obj : jsObject) (rest : List Nat),
    _js_parse_array_loop fuel ls value = some (jsParse.ok obj rest) →
    ∃ more, obj = jsObject.array ⟨ls.nodes ++ more, ls.len + more.length⟩
  | 0, _, _, _, _, h => by rw [_js_parse_array_loop] at h; cases h
  | fuel + 1, ls, value, obj, rest, h => by
    rw [_js_parse_array_loop] at h
    by_cases h44 : hd value = 44
    · rw [if_pos h44] at h
      cases hv : _js_parse_value fuel (_js_skip (value.drop 1)) with
      | none => rw [hv] at h; cases h
      | some r =>
        cases r with
        | fail pos => rw [hv] at h; cases h
        | ok sub rest1 =>
          rw [hv] at h
          obtain ⟨more, hm⟩ := parse_array_loop_appends fuel (ls_add_tail ls sub)
            (_js_skip rest1) obj rest h
          refine ⟨sub :: more, ?_⟩
          rw [hm]
          simp only [ls_add_tail, List.append_assoc, List.singleton_append, List.length_cons]
          congr 2
          omega
    · rw [if_neg h44] at h
      by_cases h93 : hd value = 93
      · rw [if_pos h93] at h
        simp only [Option.some.injEq, jsParse.ok.injEq, _js_object_set_array] at h
        refine ⟨[], ?_⟩
        rw [← h.1]
        cases ls
        simp
      · rw [if_neg h93] at h
        cases h

theorem jsNodesText_intercalate : ∀ (nodes : List jsObject),
    (jsNodesText nodes).drop 1 = List.intercalate [44] (nodes.map jsObject.text)
  | [] => by rw [jsNodesText]; rfl
  | [o] => by
    rw [jsNodesText, jsNodesText]
    simp [List.intercalate]
  | o :: p :: r => by
    have ih := jsNodesText_intercalate (p :: r)
    rw [jsNodesText] at ih ⊢
    rw [jsNodesText]
    simp only [List.cons_append, List.drop_succ_cons, List.drop_zero, List.map_cons] at ih ⊢
    rw [ih]
    simp [List.intercalate]

theorem jsNodesPlain_mem : ∀ (nodes : List jsObject), jsNodesPlain nodes →
    ∀ o ∈ nodes, o.plain
  | [], _ => by intro o ho; exact absurd ho (List.not_mem_nil _)
  | p :: r, h => by
    rw [jsNodesPlain] at h
    intro o ho
    rcases List.mem_cons.mp ho with h1 | h1
    · rw [h1]; exact h.1
    · exact jsNodesPlain_mem r h.2 o h1

/-- C12: array order is preserved end to end.  The array loop of the parser appends
each element it parses at the tail of the Sequence, for every text.  For every list of
plain values `v1,...,vn`, each `vi` prints as its own text, the array of these nodes
prints as `[`, the texts in list order separated by commas, and `]`, and parsing that
text returns the array with the nodes in the same order.  `[3,1,2]` parses to the
elements 3, 1, 2 and the parsed array prints as `[3,1,2]`. -/
theorem js_array_order_preserved (nodes : List jsObject) (fuel : Nat) (rest : List Nat)
    (hplain : jsNodesPlain nodes) (hrest : endsNumber (hd rest)) :
    (∀ f ls value obj rest1,
        _js_parse_array_loop f ls value = some (jsParse.ok obj rest1) →
        ∃ more, obj = jsObject.array ⟨ls.nodes ++ more, ls.len + more.length⟩)
    ∧ (∀ o ∈ nodes, js_print_text o = some o.text)
    ∧ js_print_text (jsObject.array ⟨nodes, nodes.length⟩)
        = some (91 :: List.intercalate [44] (nodes.map jsObject.text) ++ [93])
    ∧ _js_parse_value
          ((91 :: List.intercalate [44] (nodes.map jsObject.text) ++ [93]).length + 1 + fuel)
          (91 :: List.intercalate [44] (nodes.map jsObject.text) ++ [93] ++ rest)
        = some (jsParse.ok (jsObject.array ⟨nodes, nodes.length⟩) rest)
    ∧ _js_parse_value 5 (bytes "[3,1,2]")
        = some (jsParse.ok (jsObject.array
            ⟨[jsObject.number_l64 3, jsObject.number_l64 1, jsObject.number_l64 2], 3⟩) [])
    ∧ js_print_text (jsObject.array
          ⟨[jsObject.number_l64 3, jsObject.number_l64 1, jsObject.number_l64 2], 3⟩)
        = some (bytes "[3,1,2]") := by
  have hp : (jsObject.array ⟨nodes, nodes.length⟩).plain := by
    rw [jsObject.plain]; exact ⟨rfl, hplain⟩
  have htext : (jsObject.array ⟨nodes, nodes.length⟩).text
      = 91 :: List.intercalate [44] (nodes.map jsObject.text) ++ [93] := by
    rw [jsObject.text, jsNodesText_intercalate]
  refine ⟨parse_array_loop_appends, ?_, ?_, ?_, rfl, rfl⟩
  · intro o ho
    exact js_print_text_plain o (jsNodesPlain_mem nodes hplain o ho)
  · rw [js_print_text_plain _ hp, htext]
  · rw [← htext]
    exact parse_text _ _ rest hp (by omega) hrest

/-- C12 (witness): the array of a String, an array and an Object parsed from
`{"k":["b",[2,1],{}]}`. -/
theorem js_array_order_preserved_witness :
    js_root (bytes "\x7b\"k\":[\"b\",[2,1],\x7b\x7d]\x7d")
      = some (jsObject.object ⟨[[], [], [⟨some [107], some (jsObject.array
          ⟨[jsObject.string [98],
            jsObject.array ⟨[jsObject.number_l64 2, jsObject.number_l64 1], 2⟩,
            jsObject.object ht_create], 3⟩)⟩], []], 4, 3, 1⟩)
    ∧ js_print_text (jsObject.array
          ⟨[jsObject.string [98],
            jsObject.array ⟨[jsObject.number_l64 2, jsObject.number_l64 1], 2⟩,
            jsObject.object ht_create], 3⟩)
        = some (bytes "[\"b\",[2,1],\x7b\x7d]") :=
  ⟨rfl, (js_array_order_preserved
    [jsObject.string [98],
      jsObject.array ⟨[jsObject.number_l64 2, jsObject.number_l64 1], 2⟩,
      jsObject.object ht_create] 0 []
    (by
      have hb : jsStrPlain [98] := by intro c hc; simp at hc; subst hc; decide
      have hempty : jsTablePlain (ht_create : jsTable) :=
        ⟨ht_create_wf htTypeJson jsKeyGood, by decide, rfl,
          by intro chain hc; exact absurd hc (List.not_mem_nil _)⟩
      simp only [jsNodesPlain, jsObject.plain, ht_create, _ht_reset, jsChainsPlain]
      exact ⟨hb, ⟨rfl, by decide, by decide, trivial⟩, ⟨hempty, trivial⟩, trivial⟩)
    (by decide)).2.2.1⟩

/-! ## Positions are pointers into the text -/

theorem _js_skip_suffix : ∀ (v : List Nat), _js_skip v <:+ v
  | [] => List.suffix_refl _
  | c :: rest => by
    rw [_js_skip]
    by_cases h : c ≠ 0 ∧ c ≤ 32
    · rw [if_pos h]
      exact (_js_skip_suffix rest).trans (List.suffix_cons c rest)
    · rw [if_neg h]

theorem _js_parse_digits_suffix : ∀ (v : List Nat) (num : Dbl) (n : Nat),
    (_js_parse_digits v num n).2.2 <:+ v
  | [], _, _ => List.suffix_refl _
  | c :: v, num, n => by
    rw [_js_parse_digits]
    by_cases h : 48 ≤ c ∧ c ≤ 57
    · rw [if_pos h]
      exact (_js_parse_digits_suffix v _ _).trans (List.suffix_cons c v)
    · rw [if_neg h]

theorem _js_parse_subscale_suffix : ∀ (v : List Nat) (s : Int),
    (_js_parse_subscale v s).2 <:+ v
  | [], _ => List.suffix_refl _
  | c :: v, s => by
    rw [_js_parse_subscale]
    by_cases h : 48 ≤ c ∧ c ≤ 57
    · rw [if_pos h]
      exact (_js_parse_subscale_suffix v _).trans (List.suffix_cons c v)
    · rw [if_neg h]

theorem _js_number_int_suffix (v : List Nat) : (_js_number_int v).2 <:+ v := by
  unfold _js_number_int
  by_cases h0 : hd v = 48
  · simp only [h0, if_true]
    by_cases h1 : 49 ≤ hd (v.drop 1) ∧ hd (v.drop 1) ≤ 57
    · rw [if_pos h1]
      exact (_js_parse_digits_suffix _ _ _).trans (List.drop_suffix 1 v)
    · rw [if_neg h1]
      exact List.drop_suffix 1 v
  · simp only [h0, if_false]
    by_cases h1 : 49 ≤ hd v ∧ hd v ≤ 57
    · rw [if_pos h1]
      exact _js_parse_digits_suffix _ _ _
    · rw [if_neg h1]

theorem _js_number_frac_suffix (num : Dbl) (v : List Nat) :
    (_js_number_frac num v).2.2 <:+ v := by
  unfold _js_number_frac
  split
  · exact (_js_parse_digits_suffix _ _ _).trans (List.drop_suffix 1 v)
  · exact List.suffix_refl v

theorem _js_number_exp_suffix (v : List Nat) : (_js_number_exp v).2 <:+ v := by
  unfold _js_number_exp
  split
  · simp only []
    split
    · exact (_js_parse_subscale_suffix _ _).trans
        ((List.drop_suffix 1 _).trans (List.drop_suffix 1 v))
    · exact (_js_parse_subscale_suffix _ _).trans (List.drop_suffix 1 v)
  · exact List.suffix_refl v

theorem _js_parse_number_suffix (v : List Nat) : (_js_parse_number v).2 <:+ v := by
  unfold _js_parse_number
  simp only []
  refine (_js_number_exp_suffix _).trans ((_js_number_frac_suffix _ _).trans
    ((_js_number_int_suffix _).trans ?_))
  split
  · exact List.drop_suffix 1 v
  · exact List.suffix_refl v

theorem _js_parse_string_suffix (v : List Nat) : (_js_parse_string v).2 <:+ v := by
  unfold _js_parse_string
  simp only []
  split
  · exact (List.drop_suffix 1 _).trans ((List.drop_suffix _ _).trans (List.drop_suffix 1 v))
  · exact (List.drop_suffix _ _).trans (List.drop_suffix 1 v)

theorem _js_parse_name_suffix (v name rest : List Nat)
    (h : _js_parse_name v = Except.ok (name, rest)) : rest <:+ v := by
  unfold _js_parse_name at h
  by_cases h34 : hd v ≠ 34
  · rw [if_pos h34] at h; cases h
  · rw [if_neg h34] at h
    simp only [Except.ok.injEq, Prod.mk.injEq] at h
    rw [← h.2]
    split
    · exact (List.drop_suffix 1 _).trans ((List.drop_suffix _ _).trans (List.drop_suffix 1 v))
    · exact (List.drop_suffix _ _).trans (List.drop_suffix 1 v)

theorem _js_parse_name_error (v pos : List Nat)
    (h : _js_parse_name v = Except.error pos) : pos = v ∧ hd v ≠ 34 := by
  unfold _js_parse_name at h
  by_cases h34 : hd v ≠ 34
  · rw [if_pos h34] at h
    simp only [Except.error.injEq] at h
    exact ⟨h.symm, h34⟩
  · rw [if_neg h34] at h; cases h

/-- The offset of a suffix designates it. -/
theorem jsOffset_drop {str pos : List Nat} (h : pos <:+ str) :
    str.drop (jsOffset str pos) = pos ∧ jsOffset str pos ≤ str.length := by
  obtain ⟨t, rfl⟩ := h
  unfold jsOffset
  simp

theorem startsWith_hd (value : List Nat) (c : Nat) (lit : List Nat)
    (h : startsWith value (c :: lit) = true) : hd value = c := by
  cases value with
  | nil => simp [startsWith] at h
  | cons d value =>
    simp only [startsWith, Bool.and_eq_true, beq_iff_eq] at h
    exact h.1

mutual

/-- Every position the value parser returns, on success or on failure, is a pointer into
the text it was given. -/
theorem parse_value_suffix : ∀ (fuel : Nat) (value : List Nat) (r : jsParse),
    _js_parse_value fuel value = some r →
    (∀ obj rest, r = jsParse.ok obj rest → rest <:+ value)
    ∧ (∀ pos, r = jsParse.fail (some pos) → pos <:+ value)
  | 0, _, _, h => by rw [_js_parse_value] at h; cases h
  | fuel + 1, value, r, h => by
    rw [_js_parse_value] at h
    by_cases h1 : startsWith value [110, 117, 108, 108] = true
    · rw [if_pos h1] at h
      simp only [Option.some.injEq] at h
      subst h
      refine ⟨?_, by intro pos hp; cases hp⟩
      intro obj rest hr
      simp only [jsParse.ok.injEq] at hr
      rw [← hr.2]; exact List.drop_suffix _ _
    rw [if_neg h1] at h
    by_cases h2 : startsWith value [102, 97, 108, 115, 101] = true
    · rw [if_pos h2] at h
      simp only [Option.some.injEq] at h
      subst h
      refine ⟨?_, by intro pos hp; cases hp⟩
      intro obj rest hr
      simp only [jsParse.ok.injEq] at hr
      rw [← hr.2]; exact List.drop_suffix _ _
    rw [if_neg h2] at h
    by_cases h3 : startsWith value [116, 114, 117, 101] = true
    · rw [if_pos h3] at h
      simp only [Option.some.injEq] at h
      subst h
      refine ⟨?_, by intro pos hp; cases hp⟩
      intro obj rest hr
      simp only [jsParse.ok.injEq] at hr
      rw [← hr.2]; exact List.drop_suffix _ _
    rw [if_neg h3] at h
    by_cases h4 : hd value = 34
    · rw [if_pos h4] at h
      simp only [Option.some.injEq] at h
      subst h
      refine ⟨?_, by intro pos hp; cases hp⟩
      intro obj rest hr
      simp only [jsParse.ok.injEq] at hr
      rw [← hr.2]; exact _js_parse_string_suffix value
    rw [if_neg h4] at h
    by_cases h5 : hd value = 45 ∨ (48 ≤ hd value ∧ hd value ≤ 57)
    · rw [if_pos h5] at h
      simp only [Option.some.injEq] at h
      subst h
      refine ⟨?_, by intro pos hp; cases hp⟩
      intro obj rest hr
      simp only [jsParse.ok.injEq] at hr
      rw [← hr.2]; exact _js_parse_number_suffix value
    rw [if_neg h5] at h
    by_cases h6 : hd value = 91
    · rw [if_pos h6] at h
      exact parse_array_suffix fuel value r h
    rw [if_neg h6] at h
    by_cases h7 : hd value = 123
    · rw [if_pos h7] at h
      exact parse_object_suffix fuel value r h
    rw [if_neg h7] at h
    simp only [Option.some.injEq] at h
    subst h
    refine ⟨(by intro obj rest hr; cases hr), ?_⟩
    intro pos hp
    simp only [jsParse.fail.injEq, Option.some.injEq] at hp
    rw [← hp]

theorem parse_array_suffix : ∀ (fuel : Nat) (value : List Nat) (r : jsParse),
    _js_parse_array fuel value = some r →
    (∀ obj rest, r = jsParse.ok obj rest → rest <:+ value)
    ∧ (∀ pos, r = jsParse.fail (some pos) → pos <:+ value)
  | 0, _, _, h => by rw [_js_parse_array] at h; cases h
  | fuel + 1, value, r, h => by
    have hs1 : _js_skip (value.drop 1) <:+ value :=
      (_js_skip_suffix _).trans (List.drop_suffix 1 value)
    have hs2 : _js_skip (_js_skip (value.drop 1)) <:+ value := (_js_skip_suffix _).trans hs1
    rw [_js_parse_array] at h
    by_cases h93 : hd (_js_skip (value.drop 1)) = 93
    · rw [if_pos h93] at h
      simp only [Option.some.injEq] at h
      subst h
      refine ⟨?_, by intro pos hp; cases hp⟩
      intro obj rest hr
      simp only [jsParse.ok.injEq] at hr
      rw [← hr.2]; exact (List.drop_suffix _ _).trans hs1
    · rw [if_neg h93] at h
      cases hv : _js_parse_value fuel (_js_skip (_js_skip (value.drop 1))) with
      | none => rw [hv] at h; cases h
      | some r1 =>
        obtain ⟨ho, hf⟩ := parse_value_suffix fuel _ r1 hv
        rw [hv] at h
        cases r1 with
        | fail pos1 =>
          simp only [Option.some.injEq] at h
          subst h
          refine ⟨(by intro obj rest hr; cases hr), ?_⟩
          intro pos hp
          exact (hf pos hp).trans hs2
        | ok sub rest1 =>
          have hr1 : _js_skip rest1 <:+ value :=
            (_js_skip_suffix _).trans ((ho sub rest1 rfl).trans hs2)
          obtain ⟨ho2, hf2⟩ := parse_array_loop_suffix fuel _ (_js_skip rest1) r h
          exact ⟨fun obj rest hr => (ho2 obj rest hr).trans hr1,
            fun pos hp => (hf2 pos hp).trans hr1⟩

theorem parse_array_loop_suffix : ∀ (fuel : Nat) (ls : lsHandle jsObject) (value : List Nat)
    (r : jsParse), _js_parse_array_loop fuel ls value = some r →
    (∀ obj rest, r = jsParse.ok obj rest → rest <:+ value)
    ∧ (∀ pos, r = jsParse.fail (some pos) → pos <:+ value)
  | 0, _, _, _, h => by rw [_js_parse_array_loop] at h; cases h
  | fuel + 1, ls, value, r, h => by
    rw [_js_parse_array_loop] at h
    by_cases h44 : hd value = 44
    · rw [if_pos h44] at h
      have hs1 : _js_skip (value.drop 1) <:+ value :=
        (_js_skip_suffix _).trans (List.drop_suffix 1 value)
      cases hv : _js_parse_value fuel (_js_skip (value.drop 1)) with
      | none => rw [hv] at h; cases h
      | some r1 =>
        obtain ⟨ho, hf⟩ := parse_value_suffix fuel _ r1 hv
        rw [hv] at h
        cases r1 with
        | fail pos1 =>
          simp only [Option.some.injEq] at h
          subst h
          refine ⟨(by intro obj rest hr; cases hr), ?_⟩
          intro pos hp
          exact (hf pos hp).trans hs1
        | ok sub rest1 =>
          have hr1 : _js_skip rest1 <:+ value :=
            (_js_skip_suffix _).trans ((ho sub rest1 rfl).trans hs1)
          obtain ⟨ho2, hf2⟩ := parse_array_loop_suffix fuel _ (_js_skip rest1) r h
          exact ⟨fun obj rest hr => (ho2 obj rest hr).trans hr1,
            fun pos hp => (hf2 pos hp).trans hr1⟩
    · rw [if_neg h44] at h
      by_cases h93 : hd value = 93
      · rw [if_pos h93] at h
        simp only [Option.some.injEq] at h
        subst h
        refine ⟨?_, by intro pos hp; cases hp⟩
        intro obj rest hr
        simp only [jsParse.ok.injEq] at hr
        rw [← hr.2]; exact List.drop_suffix _ _
      · rw [if_neg h93] at h
        simp only [Option.some.injEq] at h
        subst h
        refine ⟨(by intro obj rest hr; cases hr), ?_⟩
        intro pos hp
        simp only [jsParse.fail.injEq, Option.some.injEq] at hp
        rw [← hp]

theorem parse_object_suffix : ∀ (fuel : Nat) (value : List Nat) (r : jsParse),
    _js_parse_object fuel value = some r →
    (∀ obj rest, r = jsParse.ok obj rest → rest <:+ value)
    ∧ (∀ pos, r = jsParse.fail (some pos) → pos <:+ value)
  | 0, _, _, h => by rw [_js_parse_object] at h; cases h
  | fuel + 1, value, r, h => by
    have hs1 : _js_skip (value.drop 1) <:+ value :=
      (_js_skip_suffix _).trans (List.drop_suffix 1 value)
    have hs2 : _js_skip (_js_skip (value.drop 1)) <:+ value := (_js_skip_suffix _).trans hs1
    rw [_js_parse_object] at h
    by_cases h125 : hd (_js_skip (value.drop 1)) = 125
    · rw [if_pos h125] at h
      simp only [Option.some.injEq] at h
      subst h
      refine ⟨?_, by intro pos hp; cases hp⟩
      intro obj rest hr
      simp only [jsParse.ok.injEq] at hr
      rw [← hr.2]; exact (List.drop_suffix _ _).trans hs1
    · rw [if_neg h125] at h
      obtain ⟨ho, hf⟩ := parse_object_member_suffix fuel ht_create _ r h
      exact ⟨fun obj rest hr => (ho obj rest hr).trans hs2,
        fun pos hp => (hf pos hp).trans hs2⟩

theorem parse_object_member_suffix : ∀ (fuel : Nat) (ht : jsTable) (value : List Nat)
    (r : jsParse), _js_parse_object_member fuel ht value = some r →
    (∀ obj rest, r = jsParse.ok obj rest → rest <:+ value)
    ∧ (∀ pos, r = jsParse.fail (some pos) → pos <:+ value)
  | 0, _, _, _, h => by rw [_js_parse_object_member] at h; cases h
  | fuel + 1, ht, value, r, h => by
    rw [_js_parse_object_member] at h
    cases hn : _js_parse_name value with
    | error pos0 =>
      rw [hn] at h
      simp only [Option.some.injEq] at h
      subst h
      refine ⟨(by intro obj rest hr; cases hr), ?_⟩
      intro pos hp
      simp only [jsParse.fail.injEq, Option.some.injEq] at hp
      rw [← hp, (_js_parse_name_error value pos0 hn).1]
    | ok p =>
      obtain ⟨name, rest0⟩ := p
      have hl := _js_parse_name_suffix value name rest0 hn
      rw [hn] at h
      simp only [] at h
      by_cases hadd : (_js_object_add_object ht name jsObject.null).1 = 0
      · rw [if_pos hadd] at h
        simp only [Option.some.injEq] at h
        subst h
        exact ⟨(by intro obj rest hr; cases hr), by intro pos hp; cases hp⟩
      rw [if_neg hadd] at h
      have hs0 : _js_skip rest0 <:+ value := (_js_skip_suffix _).trans hl
      by_cases h58 : hd (_js_skip rest0) ≠ 58
      · rw [if_pos h58] at h
        simp only [Option.some.injEq] at h
        subst h
        refine ⟨(by intro obj rest hr; cases hr), ?_⟩
        intro pos hp
        simp only [jsParse.fail.injEq, Option.some.injEq] at hp
        rw [← hp]; exact hs0
      rw [if_neg h58] at h
      have hs1 : _js_skip ((_js_skip rest0).drop 1) <:+ value :=
        (_js_skip_suffix _).trans ((List.drop_suffix 1 _).trans hs0)
      cases hv : _js_parse_value fuel (_js_skip ((_js_skip rest0).drop 1)) with
      | none => rw [hv] at h; cases h
      | some r1 =>
        obtain ⟨ho, hf⟩ := parse_value_suffix fuel _ r1 hv
        rw [hv] at h
        cases r1 with
        | fail pos1 =>
          simp only [Option.some.injEq] at h
          subst h
          refine ⟨(by intro obj rest hr; cases hr), ?_⟩
          intro pos hp
          exact (hf pos hp).trans hs1
        | ok sub rest1 =>
          have hr1 : _js_skip rest1 <:+ value :=
            (_js_skip_suffix _).trans ((ho sub rest1 rfl).trans hs1)
          obtain ⟨ho2, hf2⟩ := parse_object_loop_suffix fuel _ (_js_skip rest1) r h
          exact ⟨fun obj rest hr => (ho2 obj rest hr).trans hr1,
            fun pos hp => (hf2 pos hp).trans hr1⟩

theorem parse_object_loop_suffix : ∀ (fuel : Nat) (ht : jsTable) (value : List Nat)
    (r : jsParse), _js_parse_object_loop fuel ht value = some r →
    (∀ obj rest, r = jsParse.ok obj rest → rest <:+ value)
    ∧ (∀ pos, r = jsParse.fail (some pos) → pos <:+ value)
  | 0, _, _, _, h => by rw [_js_parse_object_loop] at h; cases h
  | fuel + 1, ht, value, r, h => by
    rw [_js_parse_object_loop] at h
    by_cases h44 : hd value = 44
    · rw [if_pos h44] at h
      have hs1 : _js_skip (value.drop 1) <:+ value :=
        (_js_skip_suffix _).trans (List.drop_suffix 1 value)
      obtain ⟨ho, hf⟩ := parse_object_member_suffix fuel ht _ r h
      exact ⟨fun obj rest hr => (ho obj rest hr).trans hs1,
        fun pos hp => (hf pos hp).trans hs1⟩
    · rw [if_neg h44] at h
      by_cases h125 : hd value = 125
      · rw [if_pos h125] at h
        simp only [Option.some.injEq] at h
        subst h
        refine ⟨?_, by intro pos hp; cases hp⟩
        intro obj rest hr
        simp only [jsParse.ok.injEq] at hr
        rw [← hr.2]; exact List.drop_suffix _ _
      · rw [if_neg h125] at h
        simp only [Option.some.injEq] at h
        subst h
        refine ⟨(by intro obj rest hr; cases hr), ?_⟩
        intro pos hp
        simp only [jsParse.fail.injEq, Option.some.injEq] at hp
        rw [← hp]

end

mutual

/-- A failure without a position comes from a refused insertion only. -/
theorem parse_value_fail_none : ∀ (fuel : Nat) (value : List Nat),
    _js_parse_value fuel value = some (jsParse.fail none) →
    ∃ ht name, (_js_object_add_object ht name jsObject.null).1 = 0
  | 0, _, h => by rw [_js_parse_value] at h; cases h
  | fuel + 1, value, h => by
    rw [_js_parse_value] at h
    by_cases h1 : startsWith value [110, 117, 108, 108] = true
    · rw [if_pos h1] at h; cases h
    rw [if_neg h1] at h
    by_cases h2 : startsWith value [102, 97, 108, 115, 101] = true
    · rw [if_pos h2] at h; cases h
    rw [if_neg h2] at h
    by_cases h3 : startsWith value [116, 114, 117, 101] = true
    · rw [if_pos h3] at h; cases h
    rw [if_neg h3] at h
    by_cases h4 : hd value = 34
    · rw [if_pos h4] at h; cases h
    rw [if_neg h4] at h
    by_cases h5 : hd value = 45 ∨ (48 ≤ hd value ∧ hd value ≤ 57)
    · rw [if_pos h5] at h; cases h
    rw [if_neg h5] at h
    by_cases h6 : hd value = 91
    · rw [if_pos h6] at h
      exact parse_array_fail_none fuel value h
    rw [if_neg h6] at h
    by_cases h7 : hd value = 123
    · rw [if_pos h7] at h
      exact parse_object_fail_none fuel value h
    rw [if_neg h7] at h
    cases h

theorem parse_array_fail_none : ∀ (fuel : Nat) (value : List Nat),
    _js_parse_array fuel value = some (jsParse.fail none) →
    ∃ ht name, (_js_object_add_object ht name jsObject.null).1 = 0
  | 0, _, h => by rw [_js_parse_array] at h; cases h
  | fuel + 1, value, h => by
    rw [_js_parse_array] at h
    by_cases h93 : hd (_js_skip (value.drop 1)) = 93
    · rw [if_pos h93] at h; cases h
    · rw [if_neg h93] at h
      cases hv : _js_parse_value fuel (_js_skip (_js_skip (value.drop 1))) with
      | none => rw [hv] at h; cases h
      | some r1 =>
        rw [hv] at h
        cases r1 with
        | fail pos1 =>
          simp only [Option.some.injEq, jsParse.fail.injEq] at h
          subst h
          exact parse_value_fail_none fuel _ hv
        | ok sub rest1 => exact parse_array_loop_fail_none fuel _ _ h

theorem parse_array_loop_fail_none : ∀ (fuel : Nat) (ls : lsHandle jsObject)
    (value : List Nat), _js_parse_array_loop fuel ls value = some (jsParse.fail none) →
    ∃ ht name, (_js_object_add_object ht name jsObject.null).1 = 0
  | 0, _, _, h => by rw [_js_parse_array_loop] at h; cases h
  | fuel + 1, ls, value, h => by
    rw [_js_parse_array_loop] at h
    by_cases h44 : hd value = 44
    · rw [if_pos h44] at h
      cases hv : _js_parse_value fuel (_js_skip (value.drop 1)) with
      | none => rw [hv] at h; cases h
      | some r1 =>
        rw [hv] at h
        cases r1 with
        | fail pos1 =>
          simp only [Option.some.injEq, jsParse.fail.injEq] at h
          subst h
          exact parse_value_fail_none fuel _ hv
        | ok sub rest1 => exact parse_array_loop_fail_none fuel _ _ h
    · rw [if_neg h44] at h
      by_cases h93 : hd value = 93
      · rw [if_pos h93] at h; cases h
      · rw [if_neg h93] at h; cases h

theorem parse_object_fail_none : ∀ (fuel : Nat) (value : List Nat),
    _js_parse_object fuel value = some (jsParse.fail none) →
    ∃ ht name, (_js_object_add_object ht name jsObject.null).1 = 0
  | 0, _, h => by rw [_js_parse_object] at h; cases h
  | fuel + 1, value, h => by
    rw [_js_parse_object] at h
    by_cases h125 : hd (_js_skip (value.drop 1)) = 125
    · rw [if_pos h125] at h; cases h
    · rw [if_neg h125] at h
      exact parse_object_member_fail_none fuel _ _ h

theorem parse_object_member_fail_none : ∀ (fuel : Nat) (ht : jsTable) (value : List Nat),
    _js_parse_object_member fuel ht value = some (jsParse.fail none) →
    ∃ ht name, (_js_object_add_object ht name jsObject.null).1 = 0
  | 0, _, _, h => by rw [_js_parse_object_member] at h; cases h
  | fuel + 1, ht, value, h => by
    rw [_js_parse_object_member] at h
    cases hn : _js_parse_name value with
    | error pos0 => rw [hn] at h; cases h
    | ok p =>
      obtain ⟨name, rest0⟩ := p
      rw [hn] at h
      simp only [] at h
      by_cases hadd : (_js_object_add_object ht name jsObject.null).1 = 0
      · exact ⟨ht, name, hadd⟩
      rw [if_neg hadd] at h
      by_cases h58 : hd (_js_skip rest0) ≠ 58
      · rw [if_pos h58] at h; cases h
      rw [if_neg h58] at h
      cases hv : _js_parse_value fuel (_js_skip ((_js_skip rest0).drop 1)) with
      | none => rw [hv] at h; cases h
      | some r1 =>
        rw [hv] at h
        cases r1 with
        | fail pos1 =>
          simp only [Option.some.injEq, jsParse.fail.injEq] at h
          subst h
          exact parse_value_fail_none fuel _ hv
        | ok sub rest1 => exact parse_object_loop_fail_none fuel _ _ h

theorem parse_object_loop_fail_none : ∀ (fuel : Nat) (ht : jsTable) (value : List Nat),
    _js_parse_object_loop fuel ht value = some (jsParse.fail none) →
    ∃ ht name, (_js_object_add_object ht name jsObject.null).1 = 0
  | 0, _, _, h => by rw [_js_parse_object_loop] at h; cases h
  | fuel + 1, ht, value, h => by
    rw [_js_parse_object_loop] at h
    by_cases h44 : hd value = 44
    · rw [if_pos h44] at h
      exact parse_object_member_fail_none fuel _ _ h
    · rw [if_neg h44] at h
      by_cases h125 : hd value = 125
      · rw [if_pos h125] at h; cases h
      · rw [if_neg h125] at h; cases h

end

/-- The three ways `js_parse` fails, and what each leaves in the document. -/
theorem js_parse_failure_cases (js : jsHandle) (str : List Nat)
    (hfail : (js_parse js str).1 = JS_ERR) :
    (∃ pos, _js_parse_value (2 * str.length + 1) (_js_skip str) = some (jsParse.fail (some pos))
        ∧ pos <:+ str ∧ js_parse js str = (JS_ERR, ⟨some (jsOffset str pos), js.obj⟩))
    ∨ (_js_parse_value (2 * str.length + 1) (_js_skip str) = some (jsParse.fail none)
        ∧ (∃ ht name, (_js_object_add_object ht name jsObject.null).1 = 0)
        ∧ js_parse js str = (JS_ERR, js))
    ∨ (∃ obj rest, _js_parse_value (2 * str.length + 1) (_js_skip str)
          = some (jsParse.ok obj rest)
        ∧ obj.isObject = false ∧ js_parse js str = (JS_ERR, js)) := by
  obtain ⟨r, hr⟩ := _js_parse_answers str
  unfold js_parse _js_parse at hfail ⊢
  rw [hr] at hfail ⊢
  cases r with
  | fail pos =>
    cases pos with
    | none =>
      exact Or.inr (Or.inl ⟨rfl, parse_value_fail_none _ _ hr, rfl⟩)
    | some pos =>
      refine Or.inl ⟨pos, rfl, ?_, rfl⟩
      exact ((parse_value_suffix _ _ _ hr).2 pos rfl).trans (_js_skip_suffix str)
  | ok obj rest =>
    by_cases ho : obj.isObject = true
    · simp [ho, JS_TRUE, JS_ERR] at hfail
    · refine Or.inr (Or.inr ⟨obj, rest, rfl, by simpa using ho, ?_⟩)
      simp [ho]

/-! ## What a failed parse leaves in the document -/

theorem parse_value_no_start (fuel : Nat) (value : List Nat) (h : ¬ jsStartsValue value) :
    _js_parse_value (fuel + 1) value = some (jsParse.fail (some value)) := by
  unfold jsStartsValue at h
  have h1 : ¬ startsWith value [110, 117, 108, 108] = true := fun x => h (Or.inl x)
  have h2 : ¬ startsWith value [102, 97, 108, 115, 101] = true :=
    fun x => h (Or.inr (Or.inl x))
  have h3 : ¬ startsWith value [116, 114, 117, 101] = true :=
    fun x => h (Or.inr (Or.inr (Or.inl x)))
  have h4 : ¬ hd value = 34 := fun x => h (Or.inr (Or.inr (Or.inr (Or.inl x))))
  have h5 : ¬ (hd value = 45 ∨ (48 ≤ hd value ∧ hd value ≤ 57)) :=
    fun x => h (Or.inr (Or.inr (Or.inr (Or.inr (Or.inl x)))))
  have h6 : ¬ hd value = 91 :=
    fun x => h (Or.inr (Or.inr (Or.inr (Or.inr (Or.inr (Or.inl x))))))
  have h7 : ¬ hd value = 123 :=
    fun x => h (Or.inr (Or.inr (Or.inr (Or.inr (Or.inr (Or.inr x))))))
  rw [_js_parse_value, if_neg h1, if_neg h2, if_neg h3, if_neg h4, if_neg h5, if_neg h6,
    if_neg h7]

/-- The result of `_js_parse` when the value parser stops at `pos`. -/
theorem _js_parse_fail_at (js : jsHandle) (str pos : List Nat)
    (h : _js_parse_value (2 * str.length + 1) (_js_skip str) = some (jsParse.fail (some pos))) :
    js_parse js str = (JS_ERR, ⟨some (jsOffset str pos), js.obj⟩)
    ∧ str.drop (jsOffset str pos) = pos ∧ jsOffset str pos ≤ str.length := by
  have hsuf : pos <:+ str :=
    ((parse_value_suffix _ _ _ h).2 pos rfl).trans (_js_skip_suffix str)
  refine ⟨?_, jsOffset_drop hsuf⟩
  unfold js_parse _js_parse
  rw [h]
  rfl

/-- C13: a value expected at a byte that starts no value.  `_js_parse_value` at such a
position fails and writes that position; the enclosing array, array loop and object
member return the failure of their value with its position unchanged; and `js_parse`
stores the offset of that position in the text and returns `JS_ERR`.  So a text whose
first non-blank byte starts no value fails at the offset of that byte, `{"a":}` fails at
offset 5 (the closing brace), and `{"a":[1,{"b": x}]}` at offset 14 (the `x`). -/
theorem js_parse_value_expected_offset (js : jsHandle) :
    (∀ fuel value, ¬ jsStartsValue value →
        _js_parse_value (fuel + 1) value = some (jsParse.fail (some value)))
    ∧ (∀ fuel value pos, hd (_js_skip (value.drop 1)) ≠ 93 →
        _js_parse_value fuel (_js_skip (_js_skip (value.drop 1))) = some (jsParse.fail pos) →
        _js_parse_array (fuel + 1) value = some (jsParse.fail pos))
    ∧ (∀ fuel ls value pos, hd value = 44 →
        _js_parse_value fuel (_js_skip (value.drop 1)) = some (jsParse.fail pos) →
        _js_parse_array_loop (fuel + 1) ls value = some (jsParse.fail pos))
    ∧ (∀ fuel ht value name rest pos, _js_parse_name value = Except.ok (name, rest) →
        (_js_object_add_object ht name jsObject.null).1 ≠ 0 → hd (_js_skip rest) = 58 →
        _js_parse_value fuel (_js_skip ((_js_skip rest).drop 1)) = some (jsParse.fail pos) →
        _js_parse_object_member (fuel + 1) ht value = some (jsParse.fail pos))
    ∧ (∀ str pos,
        _js_parse_value (2 * str.length + 1) (_js_skip str) = some (jsParse.fail (some pos)) →
        js_parse js str = (JS_ERR, ⟨some (jsOffset str pos), js.obj⟩)
        ∧ str.drop (jsOffset str pos) = pos ∧ jsOffset str pos ≤ str.length)
    ∧ (∀ str, ¬ jsStartsValue (_js_skip str) →
        js_parse js str = (JS_ERR, ⟨some (jsOffset str (_js_skip str)), js.obj⟩)
        ∧ str.drop (jsOffset str (_js_skip str)) = _js_skip str)
    ∧ js_parse js (bytes "\x7b\"a\":\x7d") = (JS_ERR, ⟨some 5, js.obj⟩)
    ∧ js_parse js (bytes "\x7b\"a\":[1,\x7b\"b\": x\x7d]\x7d") = (JS_ERR, ⟨some 14, js.obj⟩) := by
  refine ⟨parse_value_no_start, ?_, ?_, ?_, _js_parse_fail_at js, ?_, rfl, rfl⟩
  · intro fuel value pos h93 hv
    rw [_js_parse_array, if_neg h93, hv]
  · intro fuel ls value pos h44 hv
    rw [_js_parse_array_loop, if_pos h44, hv]
  · intro fuel ht value name rest pos hn hadd h58 hv
    rw [_js_parse_object_member, hn]
    simp only []
    rw [if_neg hadd, if_neg (by omega), hv]
  · intro str hns
    have h := parse_value_no_start (2 * str.length) (_js_skip str) hns
    exact ⟨(_js_parse_fail_at js str _ h).1, (_js_parse_fail_at js str _ h).2.1⟩

/-- C14 (counterexample): the document that holds the root parsed from `{"a":1}` still
holds that root after `js_parse` has failed on `42`. -/
theorem js_parse_failure_keeps_earlier_root :
    ∃ doc root, js_parse js_create (bytes "\x7b\"a\":1\x7d") = (JS_TRUE, doc)
      ∧ doc.obj = some root
      ∧ js_parse doc (bytes "42") = (JS_ERR, doc)
      ∧ (js_parse doc (bytes "42")).2.obj ≠ none :=
  ⟨_, _, rfl, rfl, rfl, by intro h; cases h⟩

/-- C14 (amended): for every text on which `js_parse` fails, the root of the document is
what it was before the call: no root in a fresh document (`js_create`), and the earlier
root in a document that held one. -/
theorem js_parse_failure_leaves_root (js : jsHandle) (str : List Nat)
    (hfail : (js_parse js str).1 = JS_ERR) :
    (js_parse js str).2.obj = js.obj
    ∧ (js.obj = none → (js_parse js str).2.obj = none)
    ∧ js_create.obj = none := by
  have hobj : (js_parse js str).2.obj = js.obj := by
    rcases js_parse_failure_cases js str hfail with ⟨pos, _, _, h⟩ | ⟨_, _, h⟩ | ⟨_, _, _, _, h⟩
    · rw [h]
    · rw [h]
    · rw [h]
  exact ⟨hobj, fun h => by rw [hobj, h], rfl⟩

theorem js_parse_failure_leaves_root_witness :
    (js_parse ⟨none, some (jsObject.object ht_create)⟩ (bytes "[1,")).2.obj
      = some (jsObject.object ht_create) :=
  (js_parse_failure_leaves_root ⟨none, some (jsObject.object ht_create)⟩ (bytes "[1,") rfl).1

/-! ## A trailing comma -/

theorem _js_skip_blanks : ∀ (ws : List Nat) (c : Nat) (rest : List Nat),
    (∀ b ∈ ws, b ≠ 0 ∧ b ≤ 32) → 32 < c → _js_skip (ws ++ c :: rest) = c :: rest
  | [], c, rest, _, hc => _js_skip_of_lt rest hc
  | b :: ws, c, rest, h, hc => by
    have hb := h b (List.mem_cons_self _ _)
    rw [List.cons_append, _js_skip, if_pos hb]
    exact _js_skip_blanks ws c rest (fun x hx => h x (List.mem_cons_of_mem _ hx)) hc

/-- The array loop of the parser on the texts of plain elements, each after a comma. -/
theorem parse_array_loop_nodes : ∀ (nodes : List jsObject) (fuel : Nat)
    (ls : lsHandle jsObject) (tail : List Nat), jsNodesPlain nodes →
    (jsNodesText nodes).length + 1 ≤ fuel + nodes.length →
    (hd tail = 44 ∨ hd tail = 93 ∨ hd tail = 125) →
    _js_parse_array_loop (fuel + nodes.length) ls (jsNodesText nodes ++ tail)
      = _js_parse_array_loop fuel ⟨ls.nodes ++ nodes, ls.len + nodes.length⟩ tail
  | [], fuel, ls, tail, _, _, _ => by
    rw [jsNodesText]
    cases ls
    simp
  | o :: r, fuel, ls, tail, h, hf, ht => by
    rw [jsNodesPlain] at h
    rw [jsNodesText] at hf ⊢
    simp only [List.length_cons, List.length_append] at hf
    obtain ⟨c, t, hct, hc⟩ := text_head o h.1
    have hsep := hd_append_sep (jsNodesText_shape r) ht
    have hshape : 44 :: o.text ++ jsNodesText r ++ tail
        = 44 :: (o.text ++ (jsNodesText r ++ tail)) := by simp
    have hskip : _js_skip (o.text ++ (jsNodesText r ++ tail))
        = o.text ++ (jsNodesText r ++ tail) := by
      rw [hct]; exact _js_skip_of_lt _ hc.1
    have hfuel : fuel + (r.length + 1) = fuel + r.length + 1 := by omega
    rw [List.length_cons, hshape, hfuel, _js_parse_array_loop]
    simp only [hd_cons, if_true, List.drop_succ_cons, List.drop_zero, hskip]
    rw [parse_text o _ _ h.1 (by omega) (endsNumber_sep hsep).1]
    simp only []
    rw [(endsNumber_sep hsep).2, parse_array_loop_nodes r fuel _ tail h.2 (by omega) ht]
    simp only [ls_add_tail, List.append_assoc, List.singleton_append]
    congr 2
    omega

/-- The array loop at a comma that is followed by blanks and the closing bracket. -/
theorem parse_array_loop_trailing (fuel : Nat) (ls : lsHandle jsObject) (ws rest : List Nat)
    (hws : ∀ b ∈ ws, b ≠ 0 ∧ b ≤ 32) :
    _js_parse_array_loop (fuel + 2) ls (44 :: ws ++ 93 :: rest)
      = some (jsParse.fail (some (93 :: rest))) := by
  rw [List.cons_append, _js_parse_array_loop]
  simp only [hd_cons, if_true, List.drop_succ_cons, List.drop_zero]
  rw [_js_skip_blanks ws 93 rest hws (by decide),
    parse_value_no_start fuel (93 :: rest) (by unfold jsStartsValue; simp [startsWith, hd])]

/-- The member loop at a comma that is followed by blanks and the closing brace. -/
theorem parse_object_loop_trailing (fuel : Nat) (ht : jsTable) (ws rest : List Nat)
    (hws : ∀ b ∈ ws, b ≠ 0 ∧ b ≤ 32) :
    _js_parse_object_loop (fuel + 2) ht (44 :: ws ++ 125 :: rest)
      = some (jsParse.fail (some (125 :: rest))) := by
  rw [List.cons_append, parse_object_loop_comma, _js_skip_blanks ws 125 rest hws (by decide),
    _js_parse_object_member]
  rfl

theorem jsNodesText_length : ∀ (nodes : List jsObject),
    nodes.length ≤ (jsNodesText nodes).length
  | [] => Nat.zero_le _
  | o :: r => by
    have := jsNodesText_length r
    rw [jsNodesText]
    simp only [List.length_cons, List.length_append]
    omega

/-- An array text of plain elements whose last element is followed by a comma, blanks
and the closing bracket: the value parser stops at the bracket. -/
theorem parse_array_trailing (o : jsObject) (r : List jsObject) (ws rest : List Nat)
    (fuel : Nat) (hnodes : jsNodesPlain (o :: r)) (hws : ∀ b ∈ ws, b ≠ 0 ∧ b ≤ 32) :
    _js_parse_value ((jsNodesText (o :: r)).length + 3 + fuel)
        (91 :: (jsNodesText (o :: r)).drop 1 ++ 44 :: ws ++ 93 :: rest)
      = some (jsParse.fail (some (93 :: rest))) := by
  rw [jsNodesPlain] at hnodes
  obtain ⟨c, t, hct, hc⟩ := text_head o hnodes.1
  have hlen := jsNodesText_length r
  have htail : hd (44 :: (ws ++ 93 :: rest)) = 44 ∨ hd (44 :: (ws ++ 93 :: rest)) = 93
      ∨ hd (44 :: (ws ++ 93 :: rest)) = 125 := Or.inl rfl
  have hsep := hd_append_sep (jsNodesText_shape r) htail
  rw [jsNodesText]
  have hshape : 91 :: List.drop 1 (44 :: o.text ++ jsNodesText r) ++ 44 :: ws ++ 93 :: rest
      = 91 :: (o.text ++ (jsNodesText r ++ 44 :: (ws ++ 93 :: rest))) := by simp
  have hskip : _js_skip (o.text ++ (jsNodesText r ++ 44 :: (ws ++ 93 :: rest)))
      = o.text ++ (jsNodesText r ++ 44 :: (ws ++ 93 :: rest)) := by
    rw [hct]; exact _js_skip_of_lt _ hc.1
  have hhd : hd (o.text ++ (jsNodesText r ++ 44 :: (ws ++ 93 :: rest))) ≠ 93 := by
    rw [hct]; exact hc.2.2.1
  obtain ⟨g, hg⟩ : ∃ g, (44 :: o.text ++ jsNodesText r).length + 3 + fuel
      = (g + 2 + r.length) + 1 + 1 :=
    ⟨(44 :: o.text ++ jsNodesText r).length + 3 + fuel - r.length - 4, by
      simp only [List.length_cons, List.length_append]; omega⟩
  have hgb : o.text.length + (jsNodesText r).length ≤ g + r.length := by
    simp only [List.length_cons, List.length_append] at hg; omega
  rw [hshape, hg, parse_value_array, _js_parse_array]
  simp only [List.drop_succ_cons, List.drop_zero, hskip, hhd, if_false]
  rw [parse_text o _ _ hnodes.1 (by omega) (endsNumber_sep hsep).1]
  simp only []
  rw [(endsNumber_sep hsep).2,
    parse_array_loop_nodes r (g + 2) _ _ hnodes.2 (by omega) htail]
  have := parse_array_loop_trailing g
    ⟨(ls_add_tail ls_create o).nodes ++ r, (ls_add_tail ls_create o).len + r.length⟩ ws rest hws
  rw [List.cons_append] at this
  exact this

/-- C20: a trailing comma is rejected.  At a comma that is followed by blanks and the
closing bracket the array loop stops at `]` and the member loop at `\x7d`.  For every
non-empty list of plain values, the text `[` elements `,` blanks `]` makes the value
parser fail at the `]`; for every non-empty plain Object, the text `\x7b` members `,`
blanks `\x7d` makes `js_parse` return `JS_ERR` with the offset of the `\x7d` in the
failure slot.  `\x7b"a":1,\x7d` fails at offset 7 and `\x7b"a":[1,]\x7d` at offset 8. -/
theorem js_trailing_comma_rejected (js : jsHandle) (o : jsObject) (r : List jsObject)
    (t : jsTable) (ws rest : List Nat) (fuel : Nat)
    (hnodes : jsNodesPlain (o :: r)) (hplain : (jsObject.object t).plain)
    (hne : ht_toList t ≠ []) (hws : ∀ b ∈ ws, b ≠ 0 ∧ b ≤ 32) :
    (∀ f ls, _js_parse_array_loop (f + 2) ls (44 :: ws ++ 93 :: rest)
        = some (jsParse.fail (some (93 :: rest))))
    ∧ (∀ f ht, _js_parse_object_loop (f + 2) ht (44 :: ws ++ 125 :: rest)
        = some (jsParse.fail (some (125 :: rest))))
    ∧ (∃ elems, js_print_text (jsObject.array ⟨o :: r, r.length + 1⟩)
          = some (91 :: elems ++ [93])
        ∧ _js_parse_value (elems.length + 4 + fuel) (91 :: elems ++ 44 :: ws ++ 93 :: rest)
          = some (jsParse.fail (some (93 :: rest))))
    ∧ (∃ members, js_print_text (jsObject.object t) = some (123 :: members ++ [125])
        ∧ js_parse js (123 :: members ++ 44 :: ws ++ 125 :: rest)
          = (JS_ERR, ⟨some (members.length + ws.length + 2), js.obj⟩)
        ∧ (123 :: members ++ 44 :: ws ++ 125 :: rest).drop (members.length + ws.length + 2)
          = 125 :: rest)
    ∧ js_parse js (bytes "\x7b\"a\":1,\x7d") = (JS_ERR, ⟨some 7, js.obj⟩)
    ∧ js_parse js (bytes "\x7b\"a\":[1,]\x7d") = (JS_ERR, ⟨some 8, js.obj⟩) := by
  refine ⟨fun f ls => parse_array_loop_trailing f ls ws rest hws,
    fun f ht => parse_object_loop_trailing f ht ws rest hws, ?_, ?_, rfl, rfl⟩
  · refine ⟨(jsNodesText (o :: r)).drop 1, ?_, ?_⟩
    · have hp : (jsObject.array ⟨o :: r, r.length + 1⟩).plain := by
        rw [jsObject.plain]; exact ⟨rfl, hnodes⟩
      rw [js_print_text_plain _ hp, jsObject.text]
    · have h := parse_array_trailing o r ws rest fuel hnodes hws
      have hl : ((jsNodesText (o :: r)).drop 1).length + 4 + fuel
          = (jsNodesText (o :: r)).length + 3 + fuel := by
        rw [jsNodesText]
        simp only [List.cons_append, List.drop_succ_cons, List.drop_zero, List.length_cons]
      rw [hl]
      exact h
  · refine ⟨(jsChainsText t.table).drop 1, ?_, ?_⟩
    · rw [js_print_text_plain _ hplain]
      cases t
      rw [jsObject.text]
    obtain ⟨table, size, mask, used⟩ := t
    rw [jsObject.plain] at hplain
    obtain ⟨htab, hchains⟩ := hplain
    obtain ⟨hlen2, hshape⟩ := jsChainsText_shape table hchains
    have hmem : js_add_members ht_create table.flatten
        = some (⟨table, size, mask, used⟩ : jsTable) :=
      js_add_members_plain ⟨table, size, mask, used⟩ htab hchains
    rcases hshape with ⟨hflat, _⟩ | ⟨tt, htext⟩
    · exact absurd hflat hne
    · show js_parse js (123 :: (jsChainsText table).drop 1 ++ 44 :: ws ++ 125 :: rest)
          = (JS_ERR, ⟨some (((jsChainsText table).drop 1).length + ws.length + 2), js.obj⟩)
        ∧ (123 :: (jsChainsText table).drop 1 ++ 44 :: ws ++ 125 :: rest).drop
            (((jsChainsText table).drop 1).length + ws.length + 2) = 125 :: rest
      rw [htext] at hlen2 ⊢
      simp only [List.length_cons] at hlen2
      have hstr : 123 :: List.drop 1 (44 :: 34 :: tt) ++ 44 :: ws ++ 125 :: rest
          = 123 :: 34 :: (tt ++ 44 :: (ws ++ 125 :: rest)) := by simp
      have hlenstr : (123 :: 34 :: (tt ++ 44 :: (ws ++ 125 :: rest))).length
          = tt.length + ws.length + rest.length + 4 := by
        simp only [List.length_cons, List.length_append]; omega
      obtain ⟨g, hg⟩ : ∃ g, 2 * (tt.length + ws.length + rest.length + 4) + 1
          = (g + 2 + 2 * table.flatten.length) + 1 + 1 :=
        ⟨2 * (tt.length + ws.length + rest.length + 4) + 1 - 2 * table.flatten.length - 4,
          by omega⟩
      have hparse : _js_parse_value (2 * (123 :: 34 :: (tt ++ 44 :: (ws ++ 125 :: rest))).length
            + 1) (_js_skip (123 :: 34 :: (tt ++ 44 :: (ws ++ 125 :: rest))))
          = some (jsParse.fail (some (125 :: rest))) := by
        rw [_js_skip_of_lt _ (show 32 < 123 by decide), hlenstr, hg, parse_value_object,
          _js_parse_object]
        simp only [List.drop_succ_cons, List.drop_zero,
          _js_skip_of_lt _ (show 32 < 34 by decide), hd_cons,
          show ¬ ((34 : Nat) = 125) by decide, if_false]
        have hloop := parse_object_loop_comma (g + 2 + 2 * table.flatten.length) ht_create
          (34 :: (tt ++ 44 :: (ws ++ 125 :: rest)))
        rw [_js_skip_of_lt _ (show 32 < 34 by decide)] at hloop
        have hchain := parse_chains table (g + 2 + 1) ht_create
          (44 :: (ws ++ 125 :: rest)) hchains
          (by rw [htext]; simp only [List.length_cons]; omega) (Or.inl rfl)
        rw [htext, hmem] at hchain
        simp only [List.cons_append] at hchain hloop
        have hfuel : g + 2 + 1 + 2 * table.flatten.length
            = g + 2 + 2 * table.flatten.length + 1 := by omega
        rw [hfuel] at hchain
        have htr := parse_object_loop_trailing (g + 1) ⟨table, size, mask, used⟩ ws rest hws
        simp only [List.cons_append] at htr
        rw [← hloop, hchain, htr]
      have hfa := _js_parse_fail_at js _ _ hparse
      have hoff : jsOffset (123 :: 34 :: (tt ++ 44 :: (ws ++ 125 :: rest))) (125 :: rest)
          = (List.drop 1 (44 :: 34 :: tt)).length + ws.length + 2 := by
        unfold jsOffset
        simp only [List.length_cons, List.length_append, List.drop_succ_cons, List.drop_zero]
        omega
      rw [hstr, ← hoff]
      exact ⟨hfa.1, hfa.2.1⟩

/-- C20 (witness): the array of 3 and `"x"` and the Object parsed from `\x7b"a":0,"c":3\x7d`,
with one blank before the closing bracket. -/
theorem js_trailing_comma_rejected_witness :
    _js_parse_array_loop 2 ls_create [44, 32, 93] = some (jsParse.fail (some [93]))
    ∧ _js_parse_object_loop 2 ht_create [44, 32, 125] = some (jsParse.fail (some [125]))
    ∧ _js_parse_value 11 (bytes "[3,\"x\", ]") = some (jsParse.fail (some (bytes "]")))
    ∧ js_parse js_create (bytes "\x7b\"c\":3,\"a\":0, \x7d") = (JS_ERR, ⟨some 14, none⟩) :=
  have hx : jsStrPlain [120] := by intro c hc; simp at hc; subst hc; decide
  have h := js_trailing_comma_rejected js_create (jsObject.number_l64 3)
    [jsObject.string [120]] js_example_dst [32] [] 1
    (by simp only [jsNodesPlain, jsObject.plain]; exact ⟨by decide, hx, trivial⟩)
    js_example_dst_plain (by simp [ht_toList, js_example_dst])
    (by intro b hb; simp at hb; subst hb; decide)
  ⟨h.1 0 ls_create, h.2.1 0 ht_create, rfl, rfl⟩

/-! ## Rounding error of the binary64 operations -/

namespace Dbl

theorem two_zpow_split (z : Int) :
    ((2 : ℚ) ^ z.toNat) / (2 : ℚ) ^ (-z).toNat = (2 : ℚ) ^ z := by
  cases z with
  | ofNat n =>
    have h1 : (Int.ofNat n).toNat = n := rfl
    have h2 : (-(Int.ofNat n)).toNat = 0 := by
      have : -(Int.ofNat n) ≤ 0 := by simp
      exact Int.toNat_eq_zero.mpr this
    rw [h1, h2]; simp
  | negSucc n =>
    have h1 : (Int.negSucc n).toNat = 0 := rfl
    have h2 : (-(Int.negSucc n)).toNat = n + 1 := rfl
    rw [h1, h2, zpow_negSucc]; simp

theorem mag_eq (m : Nat) (e : Int) : mag m e = (m : ℚ) * (2 : ℚ) ^ e := by
  unfold mag num den
  rw [← two_zpow_split e]
  push_cast
  ring

theorem rhe_cases (a b : Nat) : rhe a b = a / b ∨ rhe a b = a / b + 1 := by
  unfold rhe
  simp only []
  split_ifs <;> simp

theorem rhe_near (a b : Nat) (hb : 0 < b) :
    |((rhe a b : Nat) : ℚ) - (a : ℚ) / (b : ℚ)| ≤ 1 / 2 := by
  have hbq : (0 : ℚ) < (b : ℚ) := by exact_mod_cast hb
  have hdm : (a : ℚ) = (b : ℚ) * ((a / b : Nat) : ℚ) + ((a % b : Nat) : ℚ) := by
    exact_mod_cast (Nat.div_add_mod a b).symm
  have hr : (a % b : Nat) < b := Nat.mod_lt a hb
  have hrq : ((a % b : Nat) : ℚ) < (b : ℚ) := by exact_mod_cast hr
  have hr0 : (0 : ℚ) ≤ ((a % b : Nat) : ℚ) := Nat.cast_nonneg _
  have hdiv : (a : ℚ) / (b : ℚ) = ((a / b : Nat) : ℚ) + ((a % b : Nat) : ℚ) / (b : ℚ) := by
    rw [hdm]; field_simp; ring
  rw [hdiv, abs_le]
  unfold rhe
  simp only []
  by_cases h1 : 2 * (a % b) < b
  · rw [if_pos h1]
    have h1q : 2 * ((a % b : Nat) : ℚ) < (b : ℚ) := by exact_mod_cast h1
    have : ((a % b : Nat) : ℚ) / (b : ℚ) < 1 / 2 := by
      rw [div_lt_iff₀ hbq]; linarith
    have : 0 ≤ ((a % b : Nat) : ℚ) / (b : ℚ) := div_nonneg hr0 hbq.le
    constructor <;> linarith
  · rw [if_neg h1]
    have h1q : (b : ℚ) ≤ 2 * ((a % b : Nat) : ℚ) := by exact_mod_cast (not_lt.mp h1)
    have hge : 1 / 2 ≤ ((a % b : Nat) : ℚ) / (b : ℚ) := by
      rw [le_div_iff₀ hbq]; linarith
    have hlt : ((a % b : Nat) : ℚ) / (b : ℚ) < 1 := by
      rw [div_lt_iff₀ hbq]; linarith
    by_cases h2 : b < 2 * (a % b)
    · rw [if_pos h2]
      push_cast
      constructor <;> linarith
    · rw [if_neg h2]
      have heq : 2 * (a % b) = b := by omega
      have heqq : 2 * ((a % b : Nat) : ℚ) = (b : ℚ) := by exact_mod_cast heq
      have hhalf : ((a % b : Nat) : ℚ) / (b : ℚ) = 1 / 2 := by
        rw [div_eq_iff hbq.ne']; linarith
      split_ifs
      · constructor <;> linarith
      · push_cast; constructor <;> linarith

/-- A quotient close enough to a natural number is rounded to it. -/
theorem rhe_eq_of_near (a b t : Nat) (hb : 0 < b)
    (h : |(a : ℚ) / (b : ℚ) - (t : ℚ)| < 1 / 2) : rhe a b = t := by
  have hn := rhe_near a b hb
  have : |((rhe a b : Nat) : ℚ) - (t : ℚ)| < 1 := by
    have := abs_sub_lt_iff.mp h
    have := abs_le.mp hn
    rw [abs_sub_lt_iff]; constructor <;> linarith
  have h2 : |((rhe a b : Nat) : Int) - (t : Int)| < 1 := by
    have e : ((((rhe a b : Nat) : Int) - (t : Int) : Int) : ℚ)
        = ((rhe a b : Nat) : ℚ) - (t : ℚ) := by push_cast; ring
    have : |((((rhe a b : Nat) : Int) - (t : Int) : Int) : ℚ)| < 1 := by rw [e]; exact this
    exact_mod_cast this
  have := abs_lt.mp h2
  omega

end Dbl

namespace Dbl

/-- The scaled quotient of `round` as a rational number. -/
theorem scaled_quot (a b : Nat) (hb : 0 < b) (e : Int) :
    ((a * 2 ^ (-e).toNat : Nat) : ℚ) / ((b * 2 ^ e.toNat : Nat) : ℚ)
      = (a : ℚ) / (b : ℚ) / (2 : ℚ) ^ e := by
  have hbq : (0 : ℚ) < (b : ℚ) := by exact_mod_cast hb
  rw [← two_zpow_split e]
  push_cast
  field_simp

/-- The exponent `round` selects is the floor of the binary logarithm of the quotient. -/
theorem round_floor (a b : Nat) (ha : 0 < a) (hb : 0 < b) :
    let l : Int := (log2 a : Int) - (log2 b : Int)
    let fl : Int := if a * 2 ^ (-l).toNat < b * 2 ^ l.toNat then l - 1 else l
    (2 : ℚ) ^ fl ≤ (a : ℚ) / (b : ℚ) ∧ (a : ℚ) / (b : ℚ) < (2 : ℚ) ^ (fl + 1) := by
  intro l fl
  have hbq : (0 : ℚ) < (b : ℚ) := by exact_mod_cast hb
  have haq : (0 : ℚ) < (a : ℚ) := by exact_mod_cast ha
  obtain ⟨sa1, sa2⟩ := log2_spec a ha
  obtain ⟨sb1, sb2⟩ := log2_spec b hb
  have qa1 : (2 : ℚ) ^ (log2 a : Int) ≤ (a : ℚ) := by
    rw [zpow_natCast]; exact_mod_cast sa1
  have qa2 : (a : ℚ) < (2 : ℚ) ^ ((log2 a : Int) + 1) := by
    have : (a : ℚ) < (2 : ℚ) ^ (log2 a + 1) := by exact_mod_cast sa2
    rw [show ((log2 a : Int) + 1) = ((log2 a + 1 : Nat) : Int) by push_cast; ring, zpow_natCast]
    exact this
  have qb1 : (2 : ℚ) ^ (log2 b : Int) ≤ (b : ℚ) := by
    rw [zpow_natCast]; exact_mod_cast sb1
  have qb2 : (b : ℚ) < (2 : ℚ) ^ ((log2 b : Int) + 1) := by
    have : (b : ℚ) < (2 : ℚ) ^ (log2 b + 1) := by exact_mod_cast sb2
    rw [show ((log2 b : Int) + 1) = ((log2 b + 1 : Nat) : Int) by push_cast; ring, zpow_natCast]
    exact this
  have h2 : (0 : ℚ) < 2 := by norm_num
  have hlow : (2 : ℚ) ^ (l - 1) < (a : ℚ) / (b : ℚ) := by
    rw [lt_div_iff₀ hbq]
    have e : (2 : ℚ) ^ (l - 1) * (2 : ℚ) ^ ((log2 b : Int) + 1) = (2 : ℚ) ^ (log2 a : Int) := by
      rw [← zpow_add₀ (by norm_num : (2 : ℚ) ≠ 0)]; congr 1; simp only [l]; ring
    calc (2 : ℚ) ^ (l - 1) * (b : ℚ) < (2 : ℚ) ^ (l - 1) * (2 : ℚ) ^ ((log2 b : Int) + 1) :=
          mul_lt_mul_of_pos_left qb2 (zpow_pos h2 _)
      _ = (2 : ℚ) ^ (log2 a : Int) := e
      _ ≤ (a : ℚ) := qa1
  have hupp : (a : ℚ) / (b : ℚ) < (2 : ℚ) ^ (l + 1) := by
    rw [div_lt_iff₀ hbq]
    have e : (2 : ℚ) ^ (l + 1) * (2 : ℚ) ^ (log2 b : Int) = (2 : ℚ) ^ ((log2 a : Int) + 1) := by
      rw [← zpow_add₀ (by norm_num : (2 : ℚ) ≠ 0)]; congr 1; simp only [l]; ring
    calc (a : ℚ) < (2 : ℚ) ^ ((log2 a : Int) + 1) := qa2
      _ = (2 : ℚ) ^ (l + 1) * (2 : ℚ) ^ (log2 b : Int) := e.symm
      _ ≤ (2 : ℚ) ^ (l + 1) * (b : ℚ) := mul_le_mul_of_nonneg_left qb1 (zpow_pos h2 _).le
  have htest : (a * 2 ^ (-l).toNat < b * 2 ^ l.toNat) ↔ (a : ℚ) / (b : ℚ) < (2 : ℚ) ^ l := by
    have hp : (0 : ℚ) < (2 : ℚ) ^ (-l).toNat := by positivity
    rw [← two_zpow_split l, div_lt_div_iff₀ hbq hp]
    constructor
    · intro h
      have : a * 2 ^ (-l).toNat < 2 ^ l.toNat * b := by rw [Nat.mul_comm (2 ^ l.toNat)]; exact h
      exact_mod_cast this
    · intro h
      have : a * 2 ^ (-l).toNat < 2 ^ l.toNat * b := by exact_mod_cast h
      rw [Nat.mul_comm b]; exact this
  by_cases ht : a * 2 ^ (-l).toNat < b * 2 ^ l.toNat
  · have hfl : fl = l - 1 := by simp only [fl, if_pos ht]
    rw [hfl]
    refine ⟨hlow.le, ?_⟩
    rw [show l - 1 + 1 = l by ring]
    exact htest.mp ht
  · have hfl : fl = l := by simp only [fl, if_neg ht]
    rw [hfl]
    refine ⟨?_, hupp⟩
    exact not_lt.mp (fun h => ht (htest.mpr h))

theorem rhe_lower (a b n : Nat) (h : n * b ≤ a) (hb : 0 < b) : n ≤ rhe a b := by
  have : n ≤ a / b := (Nat.le_div_iff_mul_le hb).mpr h
  rcases rhe_cases a b with h1 | h1 <;> omega

theorem rhe_upper (a b n : Nat) (h : a ≤ n * b) (hb : 0 < b) : rhe a b ≤ n := by
  by_cases he : a = n * b
  · subst he
    unfold rhe
    simp [Nat.mul_mod_left, Nat.mul_div_cancel _ hb, hb]
  · have hlt : a < n * b := by omega
    have : a / b < n := (Nat.div_lt_iff_lt_mul hb).mpr hlt
    rcases rhe_cases a b with h1 | h1 <;> omega

/-- In the normal range `round` returns a finite value within the relative distance
`2^-53` of the quotient. -/
theorem round_near (neg : Bool) (a b : Nat) (ha : 0 < a) (hb : 0 < b)
    (hlo : (b : ℚ) ≤ (a : ℚ) * 2 ^ 64) (hhi : (a : ℚ) < (b : ℚ) * 2 ^ 64) :
    ∃ m e, round neg a b = fin neg m e
      ∧ |mag m e - (a : ℚ) / (b : ℚ)| * 2 ^ 53 ≤ (a : ℚ) / (b : ℚ) := by
  have hbq : (0 : ℚ) < (b : ℚ) := by exact_mod_cast hb
  have haq : (0 : ℚ) < (a : ℚ) := by exact_mod_cast ha
  have h2 : (0 : ℚ) < 2 := by norm_num
  have h2n : (2 : ℚ) ≠ 0 := by norm_num
  have h12 : (1 : ℚ) < 2 := by norm_num
  have hfloor := round_floor a b ha hb
  simp only [] at hfloor
  generalize hfl : (if a * 2 ^ (-((log2 a : Int) - (log2 b : Int))).toNat
      < b * 2 ^ ((log2 a : Int) - (log2 b : Int)).toNat
      then (log2 a : Int) - (log2 b : Int) - 1 else (log2 a : Int) - (log2 b : Int)) = fl
    at hfloor
  obtain ⟨hf1, hf2⟩ := hfloor
  have hxlo : (2 : ℚ) ^ (-64 : Int) ≤ (a : ℚ) / (b : ℚ) := by
    rw [le_div_iff₀ hbq, zpow_neg, show (2 : ℚ) ^ (64 : Int) = (2 : ℚ) ^ (64 : Nat) by norm_cast,
      inv_mul_le_iff₀ (by positivity)]
    linarith
  have hxhi : (a : ℚ) / (b : ℚ) < (2 : ℚ) ^ (64 : Int) := by
    rw [div_lt_iff₀ hbq, show (2 : ℚ) ^ (64 : Int) = (2 : ℚ) ^ (64 : Nat) by norm_cast]
    linarith
  have hflo : -64 ≤ fl := by
    have : (2 : ℚ) ^ (-64 : Int) < (2 : ℚ) ^ (fl + 1) := lt_of_le_of_lt hxlo hf2
    have := (zpow_lt_zpow_iff_right₀ h12).mp this
    omega
  have hfhi : fl < 64 := by
    have : (2 : ℚ) ^ fl < (2 : ℚ) ^ (64 : Int) := lt_of_le_of_lt hf1 hxhi
    exact (zpow_lt_zpow_iff_right₀ h12).mp this
  have he : max (fl - 52) (-1074) = fl - 52 := by omega
  have hB : 0 < b * 2 ^ (fl - 52).toNat := Nat.mul_pos hb (by positivity)
  have hBq : (0 : ℚ) < ((b * 2 ^ (fl - 52).toNat : Nat) : ℚ) := by exact_mod_cast hB
  have hq := scaled_quot a b hb (fl - 52)
  have hpe : (0 : ℚ) < (2 : ℚ) ^ (fl - 52) := zpow_pos h2 _
  -- the scaled quotient lies in [2^52, 2^53)
  have hq1 : ((2 ^ 52 : Nat) : ℚ) ≤ ((a * 2 ^ (-(fl - 52)).toNat : Nat) : ℚ)
      / ((b * 2 ^ (fl - 52).toNat : Nat) : ℚ) := by
    rw [hq, le_div_iff₀ hpe]
    have : ((2 ^ 52 : Nat) : ℚ) * (2 : ℚ) ^ (fl - 52) = (2 : ℚ) ^ fl := by
      rw [show ((2 ^ 52 : Nat) : ℚ) = (2 : ℚ) ^ (52 : Int) by norm_cast,
        ← zpow_add₀ h2n]; congr 1; ring
    rw [this]; exact hf1
  have hq2 : ((a * 2 ^ (-(fl - 52)).toNat : Nat) : ℚ)
      / ((b * 2 ^ (fl - 52).toNat : Nat) : ℚ) < ((2 ^ 53 : Nat) : ℚ) := by
    rw [hq, div_lt_iff₀ hpe]
    have : ((2 ^ 53 : Nat) : ℚ) * (2 : ℚ) ^ (fl - 52) = (2 : ℚ) ^ (fl + 1) := by
      rw [show ((2 ^ 53 : Nat) : ℚ) = (2 : ℚ) ^ (53 : Int) by norm_cast,
        ← zpow_add₀ h2n]; congr 1; ring
    rw [this]; exact hf2
  have hm1 : 2 ^ 52 ≤ rhe (a * 2 ^ (-(fl - 52)).toNat) (b * 2 ^ (fl - 52).toNat) := by
    apply rhe_lower _ _ _ _ hB
    have := (le_div_iff₀ hBq).mp hq1
    exact_mod_cast this
  have hm2 : rhe (a * 2 ^ (-(fl - 52)).toNat) (b * 2 ^ (fl - 52).toNat) ≤ 2 ^ 53 := by
    apply rhe_upper _ _ _ _ hB
    have := ((div_lt_iff₀ hBq).mp hq2).le
    exact_mod_cast this
  have hnear := rhe_near (a * 2 ^ (-(fl - 52)).toNat) (b * 2 ^ (fl - 52).toNat) hB
  rw [hq] at hnear
  generalize hm0 : rhe (a * 2 ^ (-(fl - 52)).toNat) (b * 2 ^ (fl - 52).toNat) = m0
    at hm1 hm2 hnear
  -- the distance of `m0 * 2^e` from the quotient
  have hdist : |(m0 : ℚ) * (2 : ℚ) ^ (fl - 52) - (a : ℚ) / (b : ℚ)| * 2 ^ 53
      ≤ (a : ℚ) / (b : ℚ) := by
    have e1 : (m0 : ℚ) * (2 : ℚ) ^ (fl - 52) - (a : ℚ) / (b : ℚ)
        = ((m0 : ℚ) - (a : ℚ) / (b : ℚ) / (2 : ℚ) ^ (fl - 52)) * (2 : ℚ) ^ (fl - 52) := by
      field_simp; ring
    rw [e1, abs_mul, abs_of_pos hpe]
    have e2 : (2 : ℚ) ^ (fl - 52) * 2 ^ 53 = 2 * (2 : ℚ) ^ fl := by
      rw [show (2 : ℚ) ^ 53 = (2 : ℚ) ^ (53 : Int) by norm_cast, ← zpow_add₀ h2n,
        show fl - 52 + 53 = 1 + fl by ring, zpow_add₀ h2n, zpow_one]
    calc |(m0 : ℚ) - (a : ℚ) / (b : ℚ) / (2 : ℚ) ^ (fl - 52)| * (2 : ℚ) ^ (fl - 52) * 2 ^ 53
        = |(m0 : ℚ) - (a : ℚ) / (b : ℚ) / (2 : ℚ) ^ (fl - 52)| * (2 * (2 : ℚ) ^ fl) := by
          rw [mul_assoc, e2]
      _ ≤ 1 / 2 * (2 * (2 : ℚ) ^ fl) :=
          mul_le_mul_of_nonneg_right hnear (by positivity)
      _ = (2 : ℚ) ^ fl := by ring
      _ ≤ (a : ℚ) / (b : ℚ) := hf1
  have hne : a ≠ 0 := by omega
  unfold round
  simp only [hne, if_false, hfl, he, hm0]
  by_cases h53 : m0 = 2 ^ 53
  · simp only [h53, if_true]
    have h972 : ¬ ((972 : Int) ≤ fl - 52 + 1) := by omega
    simp only [h972, if_false]
    refine ⟨2 ^ 52, fl - 52 + 1, rfl, ?_⟩
    rw [mag_eq]
    have e3 : ((2 ^ 52 : Nat) : ℚ) * (2 : ℚ) ^ (fl - 52 + 1)
        = (m0 : ℚ) * (2 : ℚ) ^ (fl - 52) := by
      rw [h53, zpow_add₀ h2n, zpow_one]; push_cast; ring
    rw [e3]; exact hdist
  · simp only [h53, if_false]
    have h972 : ¬ ((972 : Int) ≤ fl - 52) := by omega
    simp only [h972, if_false]
    refine ⟨m0, fl - 52, rfl, ?_⟩
    rw [mag_eq]; exact hdist

end Dbl

/-! ## Literals with a fraction part -/

theorem digitsVal_split : ∀ (ds : List Nat) (a : Nat),
    digitsVal a ds = a * 10 ^ ds.length + digitsVal 0 ds
  | [], a => by simp [digitsVal]
  | c :: ds, a => by
    have e1 : digitsVal a (c :: ds) = digitsVal (a * 10 + (c - 48)) ds := rfl
    have e2 : digitsVal 0 (c :: ds) = digitsVal (0 * 10 + (c - 48)) ds := rfl
    rw [e1, e2, digitsVal_split ds (a * 10 + (c - 48)), digitsVal_split ds (0 * 10 + (c - 48)),
      List.length_cons, pow_succ]
    ring

/-- The value `_js_parse_number` computes for a literal with a fraction part and no
exponent part. -/
theorem parse_number_fraction (minus : Bool) (I : Nat) (frac rest : List Nat)
    (hne : frac ≠ []) (hall : ∀ c ∈ frac, isDigit c) (hN : digitsVal I frac ≤ 2 ^ 53)
    (hr : endsNumber (hd rest)) :
    _js_parse_number ((if minus then [45] else []) ++ (decimal I ++ 46 :: (frac ++ rest)))
      = (jsObject.number_d64 (Dbl.mul (Dbl.round minus (digitsVal I frac) 1)
          (Dbl.pow10 (-(frac.length : Int)))), rest) := by
  obtain ⟨hr1, hr2, hr3, hr4⟩ := hr
  have hI : I ≤ 2 ^ 53 := le_trans (le_digitsVal frac I) hN
  have h46 : ¬ isDigit (hd (46 :: (frac ++ rest))) := by
    rw [hd_cons]; unfold isDigit; omega
  have hint := number_int_decimal I (46 :: (frac ++ rest)) hI h46
  have hh : hd (frac ++ rest) = hd frac := hd_append_of_ne_nil _ hne
  have hdig : 48 ≤ hd frac ∧ hd frac ≤ 57 := hd_digits_isDigit hne hall
  have hpd := parse_digits_exact frac rest I 0 hall hr1 hN
  have hfrac : _js_number_frac (Dbl.round false I 1) (46 :: (frac ++ rest))
      = (Dbl.round false (digitsVal I frac) 1, frac.length, rest) := by
    unfold _js_number_frac
    simp only [hd_cons, List.drop_succ_cons, List.drop_zero, hh, hdig, and_self, if_true, hpd,
      zero_add]
  have hexp := number_exp_none rest hr3 hr4
  have hlen : frac.length ≠ 0 := fun h => hne (List.length_eq_zero.mp h)
  have hscale : ¬ (-(frac.length : Int) = 0) := by omega
  have hmul : ∀ sign : Bool, Dbl.mul (Dbl.fin sign 1 0) (Dbl.round false (digitsVal I frac) 1)
      = Dbl.round sign (digitsVal I frac) 1 := by
    intro sign
    have h1 := Dbl.mul_repr (repr_sign sign) (Dbl.round_repr false (digitsVal I frac) hN)
    simpa only [one_mul, Bool.bne_false] using h1
  have h45 : hd (decimal I ++ 46 :: (frac ++ rest)) ≠ 45 := by
    rw [hd_append_of_ne_nil _ (decimal_ne_nil I)]; exact decimal_hd_ne_minus I
  cases minus
  · simp only [Bool.false_eq_true, if_false, List.nil_append, _js_parse_number, h45, hint,
      hfrac, hexp, hscale, add_zero, _js_object_set_number, ne_eq, one_ne_zero,
      not_false_eq_true, if_true, hmul]
  · simp only [if_true, List.cons_append, List.nil_append, _js_parse_number, hd_cons,
      List.drop_succ_cons, List.drop_zero, hint, hfrac, hexp, hscale, add_zero,
      _js_object_set_number, ne_eq, one_ne_zero, not_false_eq_true, hmul, if_false]

namespace Dbl

theorem abs_scaled {x y : ℚ} (h : |x| * 2 ^ 53 ≤ y) :
    -y ≤ x * 2 ^ 53 ∧ x * 2 ^ 53 ≤ y := by
  have hp : (0 : ℚ) < 2 ^ 53 := by positivity
  have h1 : |x * 2 ^ 53| ≤ y := by rw [abs_mul, abs_of_pos hp]; exact h
  exact abs_le.mp h1

theorem pow10_neg (k : Nat) (hk : 1 ≤ k) :
    pow10 (-(k : Int)) = round false 1 (10 ^ k) := by
  unfold pow10
  have h1 : ¬ ((0 : Int) ≤ -(k : Int)) := by omega
  have h2 : (- -(k : Int)).toNat = k := by omega
  rw [if_neg h1, h2]

/-- The double computed for the digits `N` scaled by `10^-k`: finite, within the relative
distance `3 * 2^-53` of `N / 10^k`. -/
theorem mul_pow10_near (neg : Bool) (N k : Nat) (hN : 0 < N) (hN2 : N < 10 ^ 15)
    (hk1 : 1 ≤ k) (hk : k ≤ 6) :
    ∃ m e, mul (round neg N 1) (pow10 (-(k : Int))) = fin neg m e
      ∧ |mag m e - (N : ℚ) / (10 : ℚ) ^ k| * 2 ^ 53 ≤ 3 * ((N : ℚ) / (10 : ℚ) ^ k) := by
  obtain ⟨m1, e1, h1, hm1⟩ := round_repr neg N (by omega : N ≤ 2 ^ 53)
  have hNq : (1 : ℚ) ≤ (N : ℚ) := by exact_mod_cast hN
  have hN2q : (N : ℚ) < 10 ^ 15 := by exact_mod_cast hN2
  -- the power of ten
  have ht1 : (10 : ℚ) ≤ (10 : ℚ) ^ k := by
    calc (10 : ℚ) = (10 : ℚ) ^ 1 := by norm_num
      _ ≤ (10 : ℚ) ^ k := pow_le_pow_right₀ (by norm_num) hk1
  have ht2 : (10 : ℚ) ^ k ≤ (10 : ℚ) ^ 6 := pow_le_pow_right₀ (by norm_num) hk
  have htp : (0 : ℚ) < (10 : ℚ) ^ k := by positivity
  have hcast : ((10 ^ k : Nat) : ℚ) = (10 : ℚ) ^ k := by push_cast; rfl
  obtain ⟨mk, ek, hp, hpn⟩ := round_near false 1 (10 ^ k) (by norm_num) (by positivity)
    (by rw [hcast]; push_cast; linarith [show (10 : ℚ) ^ 6 ≤ 1 * 2 ^ 64 by norm_num])
    (by rw [hcast]; push_cast; nlinarith [show (1 : ℚ) < 2 ^ 64 by norm_num])
  rw [hcast] at hpn
  simp only [Nat.cast_one] at hpn
  obtain ⟨hp1, hp2⟩ := abs_scaled hpn
  -- bounds on the power as a double
  have hc : (0 : ℚ) < 1 / (10 : ℚ) ^ k := by positivity
  have hc1 : 1 / (10 : ℚ) ^ 6 ≤ 1 / (10 : ℚ) ^ k := one_div_le_one_div_of_le htp ht2
  have hc2 : 1 / (10 : ℚ) ^ k ≤ 1 / 10 := one_div_le_one_div_of_le (by norm_num) ht1
  have hplo : 1 / (10 : ℚ) ^ 7 ≤ mag mk ek := by
    have : (1 / (10 : ℚ) ^ 6) * (2 ^ 53 - 1) ≤ mag mk ek * 2 ^ 53 := by nlinarith
    have h2 : (1 / (10 : ℚ) ^ 7) * 2 ^ 53 ≤ (1 / (10 : ℚ) ^ 6) * (2 ^ 53 - 1) := by norm_num
    have := le_trans h2 this
    exact le_of_mul_le_mul_right this (by positivity)
  have hphi : mag mk ek ≤ 1 := by
    have : mag mk ek * 2 ^ 53 ≤ (1 / 10) * (2 ^ 53 + 1) := by nlinarith
    have h2 : (1 / 10 : ℚ) * (2 ^ 53 + 1) ≤ 1 * 2 ^ 53 := by norm_num
    have := le_trans this h2
    exact le_of_mul_le_mul_right this (by positivity)
  have hmk : 0 < num mk ek := by
    rcases Nat.eq_zero_or_pos (num mk ek) with h0 | h0
    · exfalso
      have : mag mk ek = 0 := by unfold mag; rw [h0]; simp
      rw [this] at hplo
      norm_num at hplo
    · exact h0
  have hd1 : (0 : ℚ) < (den e1 : ℚ) := by exact_mod_cast den_pos e1
  have hdk : (0 : ℚ) < (den ek : ℚ) := by exact_mod_cast den_pos ek
  have hquot : ((num m1 e1 * num mk ek : Nat) : ℚ) / ((den e1 * den ek : Nat) : ℚ)
      = (N : ℚ) * mag mk ek := by
    rw [hm1]; unfold mag; push_cast; field_simp; ring
  have hapos : 0 < num m1 e1 * num mk ek := by
    rw [hm1]; exact Nat.mul_pos (Nat.mul_pos hN (den_pos e1)) hmk
  have hbpos : 0 < den e1 * den ek := Nat.mul_pos (den_pos e1) (den_pos ek)
  have hbq : (0 : ℚ) < ((den e1 * den ek : Nat) : ℚ) := by exact_mod_cast hbpos
  have hX1 : (1 : ℚ) / 10 ^ 7 ≤ (N : ℚ) * mag mk ek := by nlinarith
  have hX2 : (N : ℚ) * mag mk ek < 10 ^ 15 := by nlinarith
  obtain ⟨m, e, hr, hrn⟩ := round_near (neg != false) (num m1 e1 * num mk ek)
    (den e1 * den ek) hapos hbpos
    (by
      have : (1 : ℚ) ≤ ((num m1 e1 * num mk ek : Nat) : ℚ) / ((den e1 * den ek : Nat) : ℚ)
          * 2 ^ 64 := by
        rw [hquot]
        calc (1 : ℚ) ≤ 1 / 10 ^ 7 * 2 ^ 64 := by norm_num
          _ ≤ (N : ℚ) * mag mk ek * 2 ^ 64 := mul_le_mul_of_nonneg_right hX1 (by positivity)
      rw [div_mul_eq_mul_div, le_div_iff₀ hbq] at this
      linarith)
    (by
      have : ((num m1 e1 * num mk ek : Nat) : ℚ) / ((den e1 * den ek : Nat) : ℚ)
          < 2 ^ 64 := by
        rw [hquot]
        have : (10 : ℚ) ^ 15 < 2 ^ 64 := by norm_num
        linarith
      rw [div_lt_iff₀ hbq] at this
      linarith)
  rw [hquot] at hrn
  obtain ⟨hr1, hr2⟩ := abs_scaled hrn
  refine ⟨m, e, ?_, ?_⟩
  · rw [h1, pow10_neg k hk1, hp]
    show round (neg != false) (num m1 e1 * num mk ek) (den e1 * den ek) = fin neg m e
    rw [hr]; simp
  · have hV : (N : ℚ) / (10 : ℚ) ^ k = (N : ℚ) * (1 / (10 : ℚ) ^ k) := by ring
    rw [hV]
    have hN0 : (0 : ℚ) ≤ (N : ℚ) := by linarith
    have hx1 : -((N : ℚ) * (1 / (10 : ℚ) ^ k))
        ≤ ((N : ℚ) * mag mk ek - (N : ℚ) * (1 / (10 : ℚ) ^ k)) * 2 ^ 53 := by
      have := mul_le_mul_of_nonneg_left hp1 hN0
      linarith
    have hx2 : ((N : ℚ) * mag mk ek - (N : ℚ) * (1 / (10 : ℚ) ^ k)) * 2 ^ 53
        ≤ (N : ℚ) * (1 / (10 : ℚ) ^ k) := by
      have := mul_le_mul_of_nonneg_left hp2 hN0
      linarith
    have hVpos : (0 : ℚ) ≤ (N : ℚ) * (1 / (10 : ℚ) ^ k) := by positivity
    have hp53 : (0 : ℚ) < 2 ^ 53 := by positivity
    have : |(mag m e - (N : ℚ) * (1 / (10 : ℚ) ^ k)) * 2 ^ 53|
        ≤ 3 * ((N : ℚ) * (1 / (10 : ℚ) ^ k)) := by
      rw [abs_le]
      clear hX1 hX2 hquot hrn hpn hplo hphi hc hc1 hc2 hp1 hp2 hV
      generalize (N : ℚ) * mag mk ek = X at hx1 hx2 hr1 hr2
      generalize (N : ℚ) * (1 / (10 : ℚ) ^ k) = V at hx1 hx2 hVpos ⊢
      generalize mag m e = D at hr1 hr2 ⊢
      constructor <;> linarith
    rwa [abs_mul, abs_of_pos hp53] at this

end Dbl

namespace Dbl

theorem absLt_fin (a b : Bool) (m n : Nat) (e f : Int) :
    absLt (fin a m e) (fin b n f) = true ↔ mag m e < mag n f := by
  have hde : (0 : ℚ) < (den e : ℚ) := by exact_mod_cast den_pos e
  have hdf : (0 : ℚ) < (den f : ℚ) := by exact_mod_cast den_pos f
  unfold absLt mag
  rw [decide_eq_true_iff, div_lt_div_iff₀ hde hdf]
  constructor
  · intro h; exact_mod_cast h
  · intro h; exact_mod_cast h

theorem pow10_neg_six : pow10 (-6) = fin false 4722366482869645 (-72) := rfl

theorem pow10_nine : pow10 9 = fin false 8388608000000000 (-23) := rfl

theorem mag_pow10_neg_six : mag 4722366482869645 (-72) = 4722366482869645 / 2 ^ 72 := by
  show ((4722366482869645 * 2 ^ 0 : Nat) : ℚ) / ((2 ^ 72 : Nat) : ℚ) = _
  norm_num

theorem mag_pow10_nine : mag 8388608000000000 (-23) = 10 ^ 9 := by
  show ((8388608000000000 * 2 ^ 0 : Nat) : ℚ) / ((2 ^ 23 : Nat) : ℚ) = _
  norm_num

/-- A double within the relative distance `3 * 2^-53` of `T / 10^6`, for an integer `T`
from 2 to below `10^15`, is in the range of the fixed notation and its `%lf` conversion
shows the digits of `T`. -/
theorem fixed_of_near (neg : Bool) (m : Nat) (e : Int) (T : Nat) (hT : 2 ≤ T)
    (hT2 : T < 10 ^ 15)
    (h : |mag m e - (T : ℚ) / 10 ^ 6| * 2 ^ 53 ≤ 3 * ((T : ℚ) / 10 ^ 6)) :
    absLt (fin neg m e) (pow10 (-6)) = false
    ∧ absLt (pow10 9) (fin neg m e) = false
    ∧ fmt_lf (fin neg m e) = (if neg then [45] else []) ++ decimal (T / 10 ^ 6) ++ [46]
        ++ padDecimal 6 (T % 10 ^ 6) := by
  have hTq : (2 : ℚ) ≤ (T : ℚ) := by exact_mod_cast hT
  have hT2q : (T : ℚ) ≤ 10 ^ 15 - 1 := by
    have : T + 1 ≤ 10 ^ 15 := hT2
    have : ((T + 1 : Nat) : ℚ) ≤ ((10 ^ 15 : Nat) : ℚ) := by exact_mod_cast this
    push_cast at this; linarith
  obtain ⟨h1, h2⟩ := abs_scaled h
  refine ⟨?_, ?_, ?_⟩
  · rw [pow10_neg_six, ← Bool.not_eq_true, absLt_fin, mag_pow10_neg_six]
    generalize mag m e = D at h1 h2
    intro hlt
    have e72 : (2 : ℚ) ^ 72 = 4722366482869645213696 := by norm_num
    have e53 : (2 : ℚ) ^ 53 = 9007199254740992 := by norm_num
    rw [e72] at hlt
    rw [e53] at h1
    linarith
  · rw [pow10_nine, ← Bool.not_eq_true, absLt_fin, mag_pow10_nine]
    generalize mag m e = D at h1 h2
    intro hlt
    have e53 : (2 : ℚ) ^ 53 = 9007199254740992 := by norm_num
    rw [e53] at h2
    linarith
  · have hde : (0 : ℚ) < (den e : ℚ) := by exact_mod_cast den_pos e
    have hrhe : rhe (num m e * 10 ^ 6) (den e) = T := by
      apply rhe_eq_of_near _ _ _ (den_pos e)
      have e1 : ((num m e * 10 ^ 6 : Nat) : ℚ) / (den e : ℚ) - (T : ℚ)
          = (mag m e - (T : ℚ) / 10 ^ 6) * 10 ^ 6 := by
        unfold mag; push_cast; field_simp; ring
      rw [e1, abs_lt]
      generalize mag m e = D at h1 h2
      have e53 : (2 : ℚ) ^ 53 = 9007199254740992 := by norm_num
      rw [e53] at h1 h2
      constructor <;> linarith
    unfold fmt_lf
    simp only [hrhe]

end Dbl

/-! ## The digits of the fixed notation -/

theorem cstr_of_ne_zero : ∀ (l : List Nat), (∀ c ∈ l, c ≠ 0) → cstr l = l
  | [], _ => rfl
  | c :: l, h => by
    have hc : c ≠ 0 := h c (List.mem_cons_self _ _)
    rw [cstr, if_neg hc, cstr_of_ne_zero l (fun x hx => h x (List.mem_cons_of_mem _ hx))]

theorem digitsVal_snoc (a : Nat) (ds : List Nat) (c : Nat) :
    digitsVal a (ds ++ [c]) = digitsVal a ds * 10 + (c - 48) := by
  unfold digitsVal
  rw [List.foldl_append]
  rfl

theorem padDecimal_digits (ds : List Nat) : ∀ (a : Nat), (∀ c ∈ ds, isDigit c) →
    padDecimal ds.length (digitsVal a ds) = ds := by
  induction ds using List.reverseRecOn with
  | nil => intro a _; rfl
  | append_singleton ds c ih =>
    intro a h
    have hc : isDigit c := h c (by simp)
    have hds : ∀ x ∈ ds, isDigit x := fun x hx => h x (by simp [hx])
    unfold isDigit at hc
    rw [List.length_append, List.length_singleton, padDecimal, digitsVal_snoc]
    have e1 : (digitsVal a ds * 10 + (c - 48)) / 10 = digitsVal a ds := by omega
    have e2 : 48 + (digitsVal a ds * 10 + (c - 48)) % 10 = c := by omega
    rw [e1, e2, ih a hds]

theorem padDecimal_zeros (w n : Nat) : ∀ (j : Nat),
    padDecimal (w + j) (n * 10 ^ j) = padDecimal w n ++ List.replicate j 48
  | 0 => by simp
  | j + 1 => by
    have e1 : n * 10 ^ (j + 1) / 10 = n * 10 ^ j := by
      rw [pow_succ, ← Nat.mul_assoc]; exact Nat.mul_div_cancel _ (by norm_num)
    have e2 : n * 10 ^ (j + 1) % 10 = 0 := by
      rw [pow_succ, ← Nat.mul_assoc]; exact Nat.mul_mod_left _ _
    show padDecimal (w + j + 1) (n * 10 ^ (j + 1)) = _
    rw [padDecimal, e1, e2, padDecimal_zeros w n j, List.append_assoc,
      List.replicate_succ']

theorem digitsVal_lt : ∀ (ds : List Nat), (∀ c ∈ ds, isDigit c) →
    digitsVal 0 ds < 10 ^ ds.length := by
  intro ds
  induction ds using List.reverseRecOn with
  | nil => intro _; simp [digitsVal]
  | append_singleton ds c ih =>
    intro h
    have hc : isDigit c := h c (by simp)
    have hds : ∀ x ∈ ds, isDigit x := fun x hx => h x (by simp [hx])
    unfold isDigit at hc
    have := ih hds
    rw [List.length_append, List.length_singleton, digitsVal_snoc, pow_succ]
    omega

theorem decimal_length : ∀ (j n : Nat), n < 10 ^ (j + 1) → (decimal n).length ≤ j + 1
  | 0, n, h => by
    rw [decimal_lt (by simpa using h)]; simp
  | j + 1, n, h => by
    by_cases h10 : n < 10
    · rw [decimal_lt h10]; simp
    · rw [decimal_ge (by omega), List.length_append, List.length_singleton]
      have : n / 10 < 10 ^ (j + 1) := by
        rw [Nat.div_lt_iff_lt_mul (by norm_num)]
        calc n < 10 ^ (j + 1 + 1) := h
          _ = 10 ^ (j + 1) * 10 := by rw [pow_succ]
      have := decimal_length j (n / 10) this
      omega

theorem takeWhile_sep : ∀ (pre post : List Nat), (∀ c ∈ pre, c ≠ 46) →
    (pre ++ 46 :: post).takeWhile (fun c => decide (c ≠ 46)) = pre
  | [], post, _ => by simp
  | c :: pre, post, h => by
    have hc : c ≠ 46 := h c (List.mem_cons_self _ _)
    rw [List.cons_append, List.takeWhile_cons_of_pos (by simpa using hc),
      takeWhile_sep pre post (fun x hx => h x (List.mem_cons_of_mem _ hx))]

theorem dropWhile_sep : ∀ (pre post : List Nat), (∀ c ∈ pre, c ≠ 46) →
    (pre ++ 46 :: post).dropWhile (fun c => decide (c ≠ 46)) = 46 :: post
  | [], post, _ => by simp
  | c :: pre, post, h => by
    have hc : c ≠ 46 := h c (List.mem_cons_self _ _)
    rw [List.cons_append, List.dropWhile_cons_of_pos (by simpa using hc),
      dropWhile_sep pre post (fun x hx => h x (List.mem_cons_of_mem _ hx))]

theorem dropWhile_zeros (l : List Nat) : ∀ (j : Nat),
    (List.replicate j 48 ++ l).dropWhile (fun c => decide (c = 48))
      = l.dropWhile (fun c => decide (c = 48))
  | 0 => by simp
  | j + 1 => by
    rw [List.replicate_succ, List.cons_append, List.dropWhile_cons_of_pos (by simp),
      dropWhile_zeros l j]

/-- The trimming step on a `%lf` text: the trailing zeros of the fraction go, one digit
stays. -/
theorem number_trim_fixed (pre frac : List Nat) (j : Nat)
    (hpre : ∀ c ∈ pre, c ≠ 0 ∧ c ≠ 46) (hfrac : ∀ c ∈ frac, isDigit c) :
    _js_number_trim (pre ++ [46] ++ (frac ++ List.replicate j 48))
      = pre ++ 46 :: jsFracTrim frac := by
  have hnz : ∀ c ∈ pre ++ [46] ++ (frac ++ List.replicate j 48), c ≠ 0 := by
    intro c hc
    simp only [List.mem_append, List.mem_singleton, List.mem_replicate] at hc
    rcases hc with (h | h) | h | h
    · exact (hpre c h).1
    · omega
    · have := hfrac c h; unfold isDigit at this; omega
    · omega
  have hshape : pre ++ [46] ++ (frac ++ List.replicate j 48)
      = pre ++ 46 :: (frac ++ List.replicate j 48) := by simp
  have hmem : 46 ∈ pre ++ 46 :: (frac ++ List.replicate j 48) := by simp
  have hkept : ((frac ++ List.replicate j 48).reverse.dropWhile (fun c => decide (c = 48)))
      = frac.reverse.dropWhile (fun c => decide (c = 48)) := by
    rw [List.reverse_append, List.reverse_replicate, dropWhile_zeros]
  unfold _js_number_trim
  simp only [cstr_of_ne_zero _ hnz]
  rw [hshape]
  simp only [hmem, if_true, takeWhile_sep pre _ (fun c hc => (hpre c hc).2),
    dropWhile_sep pre _ (fun c hc => (hpre c hc).2), List.drop_succ_cons, List.drop_zero, hkept]
  unfold jsFracTrim
  simp only []
  by_cases hk : (frac.reverse.dropWhile (fun c => decide (c = 48))).reverse = []
  · rw [hk, if_pos rfl]
    simp
  · rw [if_neg hk]
    have hlast : (pre ++ [46] ++ (frac.reverse.dropWhile (fun c => decide (c = 48))).reverse).getLast?
        ≠ some 46 := by
      rw [List.getLast?_append_of_ne_nil _ hk]
      intro h46
      have hm : 46 ∈ (frac.reverse.dropWhile (fun c => decide (c = 48))).reverse :=
        List.mem_of_getLast?_eq_some h46
      rw [List.mem_reverse] at hm
      have hm2 : 46 ∈ frac.reverse := (List.dropWhile_sublist _).subset hm
      rw [List.mem_reverse] at hm2
      have := hfrac 46 hm2
      unfold isDigit at this; omega
    rw [if_neg hlast]
    simp

/-! ## Printing a floating-point payload -/

theorem vasprintf_s (s : List Nat) :
    vasprintf [37, 115] [fmtArg.str s] = some (cstr s) := by
  simp [vasprintf]

theorem vasprintf_e (d : Dbl) :
    vasprintf [37, 101] [fmtArg.dbl d] = some (Dbl.fmt_e d) := by
  simp [vasprintf]

/-- Outside the range of the fixed notation the payload is printed by `%e`. -/
theorem js_print_d64_scientific (d : Dbl)
    (h : Dbl.absLt d (Dbl.pow10 (-6)) = true ∨ Dbl.absLt (Dbl.pow10 9) d = true) :
    js_print_text (jsObject.number_d64 d) = some (Dbl.fmt_e d) := by
  simp only [js_print_text, js_print, _js_print, jsObject.print, _js_object_number_print, h,
    if_true, _js_buffer_sprintf, vasprintf_e, Option.map_some', _js_buffer_cat,
    _js_buffer_renew, _js_buffer_new, JS_BUFFER_SIZE_INIT]
  split <;> simp

/-- In the range of the fixed notation the payload is printed by `%lf` and trimmed. -/
theorem js_print_d64_fixed (d : Dbl) (h1 : Dbl.absLt d (Dbl.pow10 (-6)) = false)
    (h2 : Dbl.absLt (Dbl.pow10 9) d = false) :
    js_print_text (jsObject.number_d64 d)
      = some (cstr (_js_number_trim ((Dbl.fmt_lf d).take 126))) := by
  simp only [js_print_text, js_print, _js_print, jsObject.print, _js_object_number_print, h1,
    h2, Bool.false_eq_true, or_self, if_false, _js_buffer_sprintf, vasprintf_s,
    Option.map_some', _js_buffer_cat, _js_buffer_renew, _js_buffer_new, JS_BUFFER_SIZE_INIT]
  split <;> simp

theorem jsFracTrim_digits (frac : List Nat) (h : ∀ c ∈ frac, isDigit c) :
    ∀ c ∈ jsFracTrim frac, isDigit c := by
  intro c hc
  unfold jsFracTrim at hc
  simp only [] at hc
  split_ifs at hc with hk
  · simp only [List.mem_singleton] at hc; subst hc; decide
  · rw [List.mem_reverse] at hc
    have : c ∈ frac.reverse := (List.dropWhile_sublist _).subset hc
    exact h c (List.mem_reverse.mp this)

theorem fixed_digits_split (I F k : Nat) (hk : k ≤ 6) (hF : F < 10 ^ k) :
    (I * 10 ^ k + F) * 10 ^ (6 - k) / 10 ^ 6 = I
    ∧ (I * 10 ^ k + F) * 10 ^ (6 - k) % 10 ^ 6 = F * 10 ^ (6 - k) := by
  have hp : 10 ^ k * 10 ^ (6 - k) = 10 ^ 6 := by
    rw [← pow_add]; congr 1; omega
  have hB : 0 < 10 ^ (6 - k) := by positivity
  have hlt : F * 10 ^ (6 - k) < 10 ^ 6 := by
    rw [← hp]; exact Nat.mul_lt_mul_of_pos_right hF hB
  have e : (I * 10 ^ k + F) * 10 ^ (6 - k) = F * 10 ^ (6 - k) + I * 10 ^ 6 := by
    rw [← hp]; ring
  rw [e]
  constructor
  · rw [Nat.add_mul_div_right _ _ (by norm_num), Nat.div_eq_of_lt hlt, Nat.zero_add]
  · rw [Nat.add_mul_mod_self_right, Nat.mod_eq_of_lt hlt]

/-- The smallest literal of the fixed range, `0.000001`. -/
theorem number_fixed_smallest (minus : Bool) :
    js_print_text (jsObject.number_d64 (Dbl.mul (Dbl.round minus 1 1) (Dbl.pow10 (-((6 : Nat) : Int)))))
      = some ((if minus then [45] else []) ++ (decimal 0 ++ 46 :: jsFracTrim (padDecimal 6 1))) := by
  cases minus <;> rfl

/-- A decimal literal of the fixed range, parsed and printed: the digits come back with
the trailing zeros of the fraction removed. -/
theorem number_fixed_round_trip (minus : Bool) (I : Nat) (frac rest : List Nat)
    (hne : frac ≠ []) (hlen : frac.length ≤ 6) (hall : ∀ c ∈ frac, isDigit c)
    (hlo : 1 / 10 ^ 6 ≤ jsFixedMag I frac) (hhi : jsFixedMag I frac < 10 ^ 9)
    (hrest : endsNumber (hd rest)) :
    ∃ d, _js_parse_number (jsFixedText minus I frac ++ rest) = (jsObject.number_d64 d, rest)
      ∧ js_print_text (jsObject.number_d64 d)
        = some ((if minus then [45] else []) ++ (decimal I ++ 46 :: jsFracTrim frac)) := by
  have hk1 : 1 ≤ frac.length := by
    rcases Nat.eq_zero_or_pos frac.length with h | h
    · exact absurd (List.length_eq_zero.mp h) hne
    · exact h
  have hF : digitsVal 0 frac < 10 ^ frac.length := digitsVal_lt frac hall
  have hsplit := digitsVal_split frac I
  have htp : (0 : ℚ) < (10 : ℚ) ^ frac.length := by positivity
  have ht6 : (10 : ℚ) ^ frac.length ≤ (10 : ℚ) ^ 6 := pow_le_pow_right₀ (by norm_num) hlen
  have hmag : jsFixedMag I frac = (digitsVal I frac : ℚ) / (10 : ℚ) ^ frac.length := by
    unfold jsFixedMag; rw [hsplit]; push_cast; field_simp
  rw [hmag] at hlo hhi
  -- the bounds on the digits
  have hNq : (digitsVal I frac : ℚ) < 10 ^ 15 := by
    rw [div_lt_iff₀ htp] at hhi
    calc (digitsVal I frac : ℚ) < 10 ^ 9 * (10 : ℚ) ^ frac.length := hhi
      _ ≤ 10 ^ 9 * (10 : ℚ) ^ 6 := mul_le_mul_of_nonneg_left ht6 (by norm_num)
      _ = 10 ^ 15 := by norm_num
  have hN : digitsVal I frac < 10 ^ 15 := by exact_mod_cast hNq
  have hp : 10 ^ frac.length * 10 ^ (6 - frac.length) = 10 ^ 6 := by
    rw [← pow_add]; congr 1; omega
  have hpq : (10 : ℚ) ^ frac.length * (10 : ℚ) ^ (6 - frac.length) = 10 ^ 6 := by
    exact_mod_cast hp
  have hTq : ((digitsVal I frac * 10 ^ (6 - frac.length) : Nat) : ℚ) / 10 ^ 6
      = (digitsVal I frac : ℚ) / (10 : ℚ) ^ frac.length := by
    rw [← hpq]; push_cast; field_simp; ring
  have hT1 : 1 ≤ digitsVal I frac * 10 ^ (6 - frac.length) := by
    rw [← hTq, le_div_iff₀ (by norm_num)] at hlo
    have : (1 : ℚ) ≤ ((digitsVal I frac * 10 ^ (6 - frac.length) : Nat) : ℚ) := by
      have e : (1 : ℚ) / 10 ^ 6 * 10 ^ 6 = 1 := by norm_num
      rw [e] at hlo; exact hlo
    exact_mod_cast this
  have hT2 : digitsVal I frac * 10 ^ (6 - frac.length) < 10 ^ 15 := by
    have : ((digitsVal I frac * 10 ^ (6 - frac.length) : Nat) : ℚ) < 10 ^ 15 := by
      have h1 := hhi
      rw [← hTq, div_lt_iff₀ (by norm_num)] at h1
      calc ((digitsVal I frac * 10 ^ (6 - frac.length) : Nat) : ℚ) < 10 ^ 9 * 10 ^ 6 := h1
        _ = 10 ^ 15 := by norm_num
    exact_mod_cast this
  have hNpos : 0 < digitsVal I frac := by
    rcases Nat.eq_zero_or_pos (digitsVal I frac) with h | h
    · rw [h] at hT1; omega
    · exact h
  have hI : I < 10 ^ 9 := by
    have h1 : (I : ℚ) * (10 : ℚ) ^ frac.length ≤ (digitsVal I frac : ℚ) := by
      rw [hsplit]; push_cast
      have : (0 : ℚ) ≤ (digitsVal 0 frac : ℚ) := Nat.cast_nonneg _
      linarith
    rw [div_lt_iff₀ htp] at hhi
    have h2 : (I : ℚ) * (10 : ℚ) ^ frac.length < 10 ^ 9 * (10 : ℚ) ^ frac.length :=
      lt_of_le_of_lt h1 hhi
    have h3 : (I : ℚ) < 10 ^ 9 := lt_of_mul_lt_mul_right h2 htp.le
    exact_mod_cast h3
  -- the parsed value
  have hparse := parse_number_fraction minus I frac rest hne hall (by omega) hrest
  have htext : jsFixedText minus I frac ++ rest
      = (if minus then [45] else []) ++ (decimal I ++ 46 :: (frac ++ rest)) := by
    unfold jsFixedText; simp [List.append_assoc]
  rw [htext]
  refine ⟨_, hparse, ?_⟩
  by_cases hT : digitsVal I frac * 10 ^ (6 - frac.length) = 1
  · -- the literal `0.000001`
    have hN1 : digitsVal I frac = 1 := Nat.eq_one_of_mul_eq_one_right hT
    have hB1 : 10 ^ (6 - frac.length) = 1 := Nat.eq_one_of_mul_eq_one_left hT
    have hk6 : frac.length = 6 := by
      rcases Nat.eq_zero_or_pos (6 - frac.length) with h | h
      · omega
      · exfalso
        have : 10 ^ 1 ≤ 10 ^ (6 - frac.length) := Nat.pow_le_pow_right (by norm_num) h
        omega
    have hpos : 0 < 10 ^ frac.length := by positivity
    have hbig : 2 ≤ 10 ^ frac.length := by rw [hk6]; norm_num
    have hI0 : I = 0 := by
      rcases Nat.eq_zero_or_pos I with h | h
      · exact h
      · exfalso
        have : 10 ^ frac.length ≤ I * 10 ^ frac.length := Nat.le_mul_of_pos_left _ h
        omega
    have hF1 : digitsVal 0 frac = 1 := by rw [hI0] at hN1; exact hN1
    have hfrac : frac = padDecimal 6 1 := by
      have := padDecimal_digits frac 0 hall
      rw [hk6, hF1] at this
      exact this.symm
    rw [hN1, hk6, hI0, hfrac]
    exact number_fixed_smallest minus
  · have hT2' : 2 ≤ digitsVal I frac * 10 ^ (6 - frac.length) := by omega
    obtain ⟨m, e, hd, hnear⟩ := Dbl.mul_pow10_near minus (digitsVal I frac) frac.length hNpos hN
      hk1 hlen
    rw [← hTq] at hnear
    obtain ⟨c1, c2, hfmt⟩ := Dbl.fixed_of_near minus m e _ hT2' hT2 hnear
    rw [hd, js_print_d64_fixed _ c1 c2, hfmt]
    obtain ⟨hq, hr⟩ := fixed_digits_split I (digitsVal 0 frac) frac.length hlen hF
    rw [← hsplit] at hq hr
    rw [hq, hr]
    have hpad : padDecimal 6 (digitsVal 0 frac * 10 ^ (6 - frac.length))
        = frac ++ List.replicate (6 - frac.length) 48 := by
      have h6 : 6 = frac.length + (6 - frac.length) := by omega
      have := padDecimal_zeros frac.length (digitsVal 0 frac) (6 - frac.length)
      rw [← h6, padDecimal_digits frac 0 hall] at this
      exact this
    rw [hpad]
    have hpre : ∀ c ∈ (if minus then [45] else []) ++ decimal I, c ≠ 0 ∧ c ≠ 46 := by
      intro c hc
      rw [List.mem_append] at hc
      rcases hc with h | h
      · cases minus
        · simp at h
        · simp at h; subst h; decide
      · have := decimal_digits I c h
        unfold isDigit at this; omega
    have hlenI := decimal_length 8 I (by norm_num; exact hI)
    have hlenS : (if minus then [45] else ([] : List Nat)).length ≤ 1 := by
      cases minus <;> simp
    have htake : List.take 126 ((if minus then [45] else []) ++ decimal I ++ [46]
        ++ (frac ++ List.replicate (6 - frac.length) 48))
        = (if minus then [45] else []) ++ decimal I ++ [46]
        ++ (frac ++ List.replicate (6 - frac.length) 48) := by
      apply List.take_of_length_le
      simp only [List.length_append, List.length_replicate, List.length_singleton]
      omega
    rw [htake, number_trim_fixed _ frac _ hpre hall, cstr_of_ne_zero, List.append_assoc]
    intro c hc
    simp only [List.mem_append, List.mem_cons] at hc
    rcases hc with h | h | h
    · exact (hpre c (List.mem_append.mpr h)).1
    · omega
    · have := jsFracTrim_digits frac hall c h
      unfold isDigit at this; omega

theorem parse_value_number (fuel : Nat) (c : Nat) (t : List Nat) (hc : c = 45 ∨ isDigit c) :
    _js_parse_value (fuel + 1) (c :: t)
      = some (jsParse.ok (_js_parse_number (c :: t)).1 (_js_parse_number (c :: t)).2) := by
  have hc1 : c ≠ 110 ∧ c ≠ 102 ∧ c ≠ 116 ∧ c ≠ 34 := by
    rcases hc with h | h
    · subst h; decide
    · unfold isDigit at h; omega
  have hc2 : c = 45 ∨ (48 ≤ c ∧ c ≤ 57) := hc
  simp only [_js_parse_value, startsWith_cons_ne _ _ hc1.1,
    startsWith_cons_ne _ _ hc1.2.1, startsWith_cons_ne _ _ hc1.2.2.1, hd_cons, hc1.2.2.2,
    Bool.false_eq_true, if_false, hc2, if_true]

theorem jsFixedText_cases (minus : Bool) (I : Nat) (frac : List Nat) :
    ∃ c t, jsFixedText minus I frac = c :: t ∧ (c = 45 ∨ isDigit c) := by
  unfold jsFixedText
  cases minus
  · simp only [Bool.false_eq_true, if_false, List.nil_append]
    cases hdec : decimal I with
    | nil => exact absurd hdec (decimal_ne_nil _)
    | cons c t =>
      refine ⟨c, _, rfl, Or.inr ?_⟩
      exact decimal_digits I c (by rw [hdec]; exact List.mem_cons_self _ _)
  · simp only [if_true]; exact ⟨45, _, rfl, Or.inl rfl⟩

set_option exponentiation.threshold 2048

/-- C11 (counterexample): two values of the claimed ranges that do not print as claimed.
The literal `1000000000.00000` has five fraction digits and the magnitude 1e9, the upper
end of the fixed range, but the double computed for it is the next one above 1e9 and
prints in scientific notation; the literal `1.5e309` is parsed to the floating-point
payload infinity, whose magnitude is above 1e9, and prints as `inf`. -/
theorem js_number_print_range_ends :
    jsFixedText false 1000000000 [48, 48, 48, 48, 48] = bytes "1000000000.00000"
    ∧ jsFixedMag 1000000000 [48, 48, 48, 48, 48] = 10 ^ 9
    ∧ (js_root (bytes "\x7b\"x\":1000000000.00000\x7d")).bind js_print_text
      = some (bytes "\x7b\"x\":1.000000e+09\x7d")
    ∧ (_js_parse_number (bytes "1.5e309")).1 = jsObject.number_d64 (Dbl.inf false)
    ∧ Dbl.absLt (Dbl.pow10 9) (Dbl.inf false) = true
    ∧ (js_root (bytes "\x7b\"x\":1.5e309\x7d")).bind js_print_text
      = some (bytes "\x7b\"x\":inf\x7d") := by
  refine ⟨rfl, ?_, rfl, rfl, rfl, rfl⟩
  norm_num [jsFixedMag, digitsVal]

/-- C11 (amended): for every decimal literal without exponent part (optional minus sign,
integer part without leading zeros, point, one to six fraction digits) whose magnitude is
at least 1e-6 and below 1e9, followed by a byte that cannot continue a number, the parser
yields a floating-point payload and printing it yields the sign, the integer digits, the
point and the fraction digits of the literal with the trailing zeros removed and at least
one digit kept.  Every floating-point payload whose magnitude is below 1e-6 or above 1e9
prints as its `%e` conversion, which for a finite value is a mantissa with six fraction
digits, the letter `e`, a sign and the exponent.  `1.5` prints as `1.5`, `2.0` as `2.0`
and `1.23e-10` as `1.230000e-10`. -/
theorem js_number_prints_fixed (minus : Bool) (I : Nat) (frac rest : List Nat) (fuel : Nat)
    (hne : frac ≠ []) (hlen : frac.length ≤ 6) (hall : ∀ c ∈ frac, isDigit c)
    (hlo : 1 / 10 ^ 6 ≤ jsFixedMag I frac) (hhi : jsFixedMag I frac < 10 ^ 9)
    (hrest : endsNumber (hd rest)) :
    (∃ d, _js_parse_value (fuel + 1) (jsFixedText minus I frac ++ rest)
          = some (jsParse.ok (jsObject.number_d64 d) rest)
        ∧ js_print_text (jsObject.number_d64 d)
          = some ((if minus then [45] else []) ++ (decimal I ++ 46 :: jsFracTrim frac)))
    ∧ (∀ d, Dbl.absLt d (Dbl.pow10 (-6)) = true ∨ Dbl.absLt (Dbl.pow10 9) d = true →
        js_print_text (jsObject.number_d64 d) = some (Dbl.fmt_e d))
    ∧ (∀ neg m e, ∃ (n : Nat) (x : Int), Dbl.fmt_e (Dbl.fin neg m e)
        = (if neg then [45] else []) ++ decimal (n / 10 ^ 6) ++ [46]
          ++ padDecimal 6 (n % 10 ^ 6) ++ [101] ++ (if x < 0 then [45] else [43])
          ++ (if x.natAbs < 10 then [48] else []) ++ decimal x.natAbs)
    ∧ (js_root (bytes "\x7b\"x\":1.5\x7d")).bind js_print_text
      = some (bytes "\x7b\"x\":1.5\x7d")
    ∧ (js_root (bytes "\x7b\"x\":2.0\x7d")).bind js_print_text
      = some (bytes "\x7b\"x\":2.0\x7d")
    ∧ (js_root (bytes "\x7b\"x\":1.23e-10\x7d")).bind js_print_text
      = some (bytes "\x7b\"x\":1.230000e-10\x7d") := by
  refine ⟨?_, fun d h => js_print_d64_scientific d h, fun neg m e => ⟨_, _, rfl⟩,
    rfl, rfl, rfl⟩
  obtain ⟨d, hparse, hprint⟩ :=
    number_fixed_round_trip minus I frac rest hne hlen hall hlo hhi hrest
  obtain ⟨c, t, hct, hc⟩ := jsFixedText_cases minus I frac
  refine ⟨d, ?_, hprint⟩
  rw [hct] at hparse ⊢
  rw [List.cons_append] at hparse ⊢
  rw [parse_value_number fuel c _ hc, hparse]

/-- C11 (witness): the literal `-12.500` in front of a comma prints as `-12.5`. -/
theorem js_number_prints_fixed_witness :
    jsFixedText true 12 [53, 48, 48] = bytes "-12.500"
    ∧ jsFracTrim [53, 48, 48] = bytes "5"
    ∧ ∃ d, _js_parse_value 1 (bytes "-12.500,") = some (jsParse.ok (jsObject.number_d64 d) [44])
        ∧ js_print_text (jsObject.number_d64 d) = some (bytes "-12.5") :=
  ⟨rfl, rfl,
    (js_number_prints_fixed true 12 [53, 48, 48] [44] 0 (by decide) (by decide)
      (by decide) (by norm_num [jsFixedMag, digitsVal])
      (by norm_num [jsFixedMag, digitsVal]) (by decide)).1⟩

/-! ## The whitespace skip and the two passes of the string routine -/

theorem _js_skip_eq_spec : ∀ (str : List Nat), _js_skip str = jsSkipSpec str
  | [] => rfl
  | c :: rest => by
    unfold jsSkipSpec
    rw [_js_skip]
    by_cases h : c ≠ 0 ∧ c ≤ 32
    · have h1 : 1 ≤ c ∧ c ≤ 32 := ⟨by omega, h.2⟩
      rw [if_pos h, List.dropWhile_cons_of_pos (by simpa using h1)]
      exact _js_skip_eq_spec rest
    · have h1 : ¬ (1 ≤ c ∧ c ≤ 32) := fun hc => h ⟨by omega, hc.2⟩
      rw [if_neg h, List.dropWhile_cons_of_neg (by simpa using h1)]

theorem _js_skip_split : ∀ (str : List Nat),
    ∃ ws, str = ws ++ _js_skip str ∧ (∀ b ∈ ws, 1 ≤ b ∧ b ≤ 32)
      ∧ (hd (_js_skip str) = 0 ∨ 32 < hd (_js_skip str))
  | [] => ⟨[], rfl, by simp, Or.inl rfl⟩
  | c :: rest => by
    rw [_js_skip]
    by_cases h : c ≠ 0 ∧ c ≤ 32
    · rw [if_pos h]
      obtain ⟨ws, h1, h2, h3⟩ := _js_skip_split rest
      refine ⟨c :: ws, by rw [List.cons_append, ← h1], ?_, h3⟩
      intro b hb
      rcases List.mem_cons.mp hb with hb | hb
      · subst hb; exact ⟨by omega, h.2⟩
      · exact h2 b hb
    · rw [if_neg h]
      refine ⟨[], rfl, by simp, ?_⟩
      rw [hd_cons]
      by_cases h0 : c = 0
      · exact Or.inl h0
      · right
        by_contra hc
        exact h ⟨h0, by omega⟩

/-- C26: the whitespace skip.  For every text `_js_skip` returns the position of the
first byte that is not in the range 0x01 to 0x20: the text is the skipped bytes, all of
them from 0x01 to 0x20, followed by the returned position, which is the end of the text
(the terminator) or starts with a byte above 0x20.  A byte from 0x01 to 0x20 is always
stepped over, and a byte above 0x20 (also one of 0x80 and above) never. -/
theorem js_skip_first_above_space :
    (∀ str, _js_skip str = jsSkipSpec str)
    ∧ (∀ str, ∃ ws, str = ws ++ _js_skip str ∧ (∀ b ∈ ws, 1 ≤ b ∧ b ≤ 32)
        ∧ (hd (_js_skip str) = 0 ∨ 32 < hd (_js_skip str)))
    ∧ (∀ c rest, 1 ≤ c → c ≤ 32 → _js_skip (c :: rest) = _js_skip rest)
    ∧ (∀ c rest, 32 < c → _js_skip (c :: rest) = c :: rest)
    ∧ (∀ rest, _js_skip (0 :: rest) = 0 :: rest)
    ∧ _js_skip [] = []
    ∧ _js_skip [32, 9, 10, 13, 1, 11, 31, 33, 32, 120] = [33, 32, 120]
    ∧ _js_skip [32, 200, 32] = [200, 32]
    ∧ _js_skip [9, 32, 10] = [] := by
  refine ⟨_js_skip_eq_spec, _js_skip_split, ?_, ?_, ?_, rfl, by decide, by decide, by decide⟩
  · intro c rest h1 h2
    rw [_js_skip, if_pos ⟨by omega, h2⟩]
  · intro c rest h
    exact _js_skip_of_lt rest h
  · intro rest
    rw [_js_skip, if_neg (by simp)]

theorem string_escape_len_out : ∀ (val : List Nat),
    (_js_string_escape_len val).1 = (_js_string_escape_out val).length
  | [] => rfl
  | [c] => by
    unfold _js_string_escape_len _js_string_escape_out
    by_cases h : c = 34 ∨ c = 0
    · rw [if_pos h, if_pos h]; rfl
    · rw [if_neg h, if_neg h]
      by_cases h92 : c = 92
      · rw [if_pos h92, if_neg (by simpa using h92)]; rfl
      · rw [if_neg h92, if_pos h92]; rfl
  | c :: x :: val1 => by
    have ih1 := string_escape_len_out val1
    have ih2 := string_escape_len_out (x :: val1)
    unfold _js_string_escape_len _js_string_escape_out
    by_cases h : c = 34 ∨ c = 0
    · rw [if_pos h, if_pos h]; rfl
    · rw [if_neg h, if_neg h]
      by_cases h92 : c = 92
      · rw [if_pos h92, if_neg (by simpa using h92)]
        simp only [List.length_cons]
        rw [ih1]
      · rw [if_neg h92, if_pos h92]
        simp only [List.length_cons]
        rw [ih2]

/-- C25: the first scan of the parser's string routine computes exactly the unescaped
length.  For every text the length it computes is the number of bytes the second pass
writes, so the buffer of that length holds exactly the written bytes.  For every string
body of raw bytes and backslash pairs in front of its closing quote, the count of
consumed bytes is the length of the body, the byte at that offset is the closing quote,
and `_js_parse_string` and `_js_parse_name` return the position just past it. -/
theorem js_string_scan_exact (items : List jsStrItem) (rest : List Nat)
    (hwf : ∀ it ∈ items, it.wf) :
    (∀ val, (_js_string_escape_len val).1 = (_js_string_escape_out val).length)
    ∧ (∀ val, (_js_string_escape val).1 = _js_string_escape_out val
        ∧ (_js_string_escape val).1.length = (_js_string_escape_len val).1)
    ∧ (_js_string_escape (jsStrBody items ++ 34 :: rest)).2 = (jsStrBody items).length
    ∧ (jsStrBody items ++ 34 :: rest).drop (_js_string_escape (jsStrBody items ++ 34 :: rest)).2
        = 34 :: rest
    ∧ (_js_parse_string (34 :: jsStrBody items ++ 34 :: rest)).2 = rest
    ∧ (∃ name, _js_parse_name (34 :: jsStrBody items ++ 34 :: rest)
        = Except.ok (name, rest)) := by
  have hfill : ∀ val, (_js_string_escape val).1 = _js_string_escape_out val := by
    intro val
    unfold _js_string_escape
    simp only []
    rw [string_escape_len_out val, fill_self]
  obtain ⟨h1, _⟩ := string_escape_body items (34 :: rest) hwf (Or.inl rfl)
  have hpos : (_js_string_escape (jsStrBody items ++ 34 :: rest)).2
      = (jsStrBody items).length := by
    unfold _js_string_escape
    simp only [h1]
  refine ⟨string_escape_len_out, ?_, hpos, ?_, ?_, ?_⟩
  · intro val
    refine ⟨hfill val, ?_⟩
    rw [hfill val, string_escape_len_out val]
  · rw [hpos, List.drop_left]
  · unfold _js_parse_string
    simp only [List.cons_append, List.drop_succ_cons, List.drop_zero]
    rw [hpos, List.drop_left]
    simp [hd]
  · refine ⟨(_js_string_escape (jsStrBody items ++ 34 :: rest)).1, ?_⟩
    unfold _js_parse_name
    simp only [List.cons_append, List.drop_succ_cons, List.drop_zero]
    rw [hpos, List.drop_left]
    simp [hd]

/-- C25 (witness): the body `a\"b\\` (an escaped quote and an escaped backslash, six
source bytes, four unescaped bytes) in front of its closing quote. -/
theorem js_string_scan_exact_witness :
    jsStrBody [jsStrItem.raw 97, jsStrItem.esc 34, jsStrItem.raw 98, jsStrItem.esc 92]
      = bytes "a\\\"b\\\\"
    ∧ _js_string_escape_len (bytes "a\\\"b\\\\\",1") = (4, 6)
    ∧ (_js_string_escape (bytes "a\\\"b\\\\\",1")).2 = 6
    ∧ (_js_parse_string (bytes "\"a\\\"b\\\\\",1")).2 = bytes ",1" :=
  have h := js_string_scan_exact
    [jsStrItem.raw 97, jsStrItem.esc 34, jsStrItem.raw 98, jsStrItem.esc 92] (bytes ",1")
    (by
      intro it hit
      simp only [List.mem_cons, List.mem_singleton, List.not_mem_nil, or_false] at hit
      rcases hit with h | h | h | h <;> subst h <;> simp [jsStrItem.wf])
  ⟨rfl, rfl, h.2.2.1, h.2.2.2.2.1⟩

/-! ## The trimming step of the number printer -/

theorem takeWhile_zeros : ∀ (l : List Nat),
    l.takeWhile (fun c => decide (c = 48)) = List.replicate (l.takeWhile (fun c => decide (c = 48))).length 48
  | [] => rfl
  | c :: l => by
    by_cases h : c = 48
    · subst h
      rw [List.takeWhile_cons_of_pos (by simp), List.length_cons, List.replicate_succ,
        ← takeWhile_zeros l]
    · rw [List.takeWhile_cons_of_neg (by simpa using h)]
      rfl

/-- A list is its part without the trailing zeros, followed by zeros. -/
theorem strip_zeros_split (l : List Nat) :
    ∃ j, l = (l.reverse.dropWhile (fun c => decide (c = 48))).reverse ++ List.replicate j 48
      ∧ (l.reverse.dropWhile (fun c => decide (c = 48))).reverse.getLast? ≠ some 48 := by
  refine ⟨(l.reverse.takeWhile (fun c => decide (c = 48))).length, ?_, ?_⟩
  · have h := List.takeWhile_append_dropWhile (fun c => decide (c = 48)) l.reverse
    have h2 := congrArg List.reverse h
    rw [List.reverse_append, List.reverse_reverse] at h2
    rw [← h2]
    congr 1
    · rw [h2]
    · rw [h2, takeWhile_zeros l.reverse, List.reverse_replicate, List.length_replicate]
  · rw [List.getLast?_reverse]
    intro hc
    cases hd : l.reverse.dropWhile (fun c => decide (c = 48)) with
    | nil => rw [hd] at hc; simp at hc
    | cons c t =>
      rw [hd] at hc
      simp only [List.head?_cons, Option.some.injEq] at hc
      have := List.head_dropWhile_not (fun c => decide (c = 48)) l.reverse (by rw [hd]; simp)
      simp only [hd, List.head_cons, hc, decide_True, Bool.not_true] at this
      exact absurd this (by simp)

theorem trim_loop_zeros (pre : List Nat) (dec : Nat) (hdec : dec < pre.length)
    (hlast : pre.length = dec + 1 ∨ pre.getD (pre.length - 1) 0 ≠ 48) :
    ∀ (j : Nat), _js_number_trim_loop (pre ++ List.replicate j 48) dec (pre.length + j)
      = pre.length - 1
  | 0 => by
    obtain ⟨e, he⟩ : ∃ e, pre.length = e + 1 := ⟨pre.length - 1, by omega⟩
    simp only [List.replicate_zero, List.append_nil, Nat.add_zero]
    rw [he, _js_number_trim_loop]
    by_cases hd : dec < e
    · rw [if_pos hd]
      have : pre.getD e 0 ≠ 48 := by
        rcases hlast with h | h
        · omega
        · rw [he] at h; simpa using h
      rw [if_pos (Or.inl this)]
      rfl
    · rw [if_neg hd]; rfl
  | j + 1 => by
    have ih := trim_loop_zeros pre dec hdec hlast j
    show _js_number_trim_loop (pre ++ List.replicate (j + 1) 48) dec (pre.length + j + 1) = _
    rw [_js_number_trim_loop, if_pos (by omega)]
    have hget : (pre ++ List.replicate (j + 1) 48).getD (pre.length + j) 0 = 48 := by
      rw [List.getD_eq_getElem?_getD, List.getElem?_append_right (by omega)]
      simp
    rw [hget, if_neg (by simp)]
    -- the zeros behind `end` are not read again
    have hsame : ∀ (n : Nat), n ≤ pre.length + j →
        _js_number_trim_loop (pre ++ List.replicate (j + 1) 48) dec n
          = _js_number_trim_loop (pre ++ List.replicate j 48) dec n := by
      intro n
      induction n with
      | zero => intro _; rfl
      | succ n ihn =>
        intro hn
        rw [_js_number_trim_loop, _js_number_trim_loop]
        have hlt : n < (pre ++ List.replicate j 48).length := by
          rw [List.length_append, List.length_replicate]; omega
        have hg : (pre ++ List.replicate (j + 1) 48).getD n 0
            = (pre ++ List.replicate j 48).getD n 0 := by
          rw [List.replicate_succ', ← List.append_assoc, List.getD_eq_getElem?_getD,
            List.getD_eq_getElem?_getD, List.getElem?_append_left hlt]
        rw [hg, ihn (by omega)]
    rw [hsame _ (le_refl _), ih]

theorem indexOf_sep : ∀ (pre post : List Nat), (∀ c ∈ pre, c ≠ 46) →
    (pre ++ 46 :: post).indexOf 46 = pre.length
  | [], post, _ => by simp
  | c :: pre, post, h => by
    have hc : c ≠ 46 := h c (List.mem_cons_self _ _)
    rw [List.cons_append, List.indexOf_cons_ne _ hc,
      indexOf_sep pre post (fun x hx => h x (List.mem_cons_of_mem _ hx))]
    rfl

theorem split_at_sep : ∀ (s : List Nat), 46 ∈ s →
    ∃ pre post, s = pre ++ 46 :: post ∧ ∀ c ∈ pre, c ≠ 46
  | [], h => absurd h (List.not_mem_nil _)
  | c :: s, h => by
    by_cases hc : c = 46
    · exact ⟨[], s, by rw [hc]; rfl, by simp⟩
    · have hs : 46 ∈ s := by
        rcases List.mem_cons.mp h with h1 | h1
        · exact absurd h1.symm hc
        · exact h1
      obtain ⟨pre, post, h1, h2⟩ := split_at_sep s hs
      refine ⟨c :: pre, post, by rw [h1]; rfl, ?_⟩
      intro x hx
      rcases List.mem_cons.mp hx with h3 | h3
      · rw [h3]; exact hc
      · exact h2 x h3

theorem getD_last (t : List Nat) (hne : t ≠ []) :
    t.getLast? = some (t.getD (t.length - 1) 0) := by
  rw [List.getLast?_eq_getElem?, List.getD_eq_getElem?_getD]
  have : t.length - 1 < t.length := by
    have := List.length_pos.mpr hne; omega
  rw [List.getElem?_eq_getElem this]
  rfl

/-- The trimming step with its pointers is the trimming step on lists, for every text. -/
theorem _js_number_trim_scan_eq (num : List Nat) :
    _js_number_trim_scan num = _js_number_trim num := by
  unfold _js_number_trim_scan _js_number_trim
  simp only []
  by_cases hmem : 46 ∈ cstr num
  · rw [if_pos hmem, if_pos hmem]
    obtain ⟨ip, frac, hs, hip⟩ := split_at_sep (cstr num) hmem
    rw [hs]
    rw [indexOf_sep ip frac hip, takeWhile_sep ip frac hip, dropWhile_sep ip frac hip]
    simp only [List.drop_succ_cons, List.drop_zero]
    obtain ⟨j, hj, hlast⟩ := strip_zeros_split frac
    generalize hk : (frac.reverse.dropWhile (fun c => decide (c = 48))).reverse = kept
      at hj hlast
    have hpre : ip ++ 46 :: frac = (ip ++ 46 :: kept) ++ List.replicate j 48 := by
      rw [hj]; simp
    have hlen : (ip ++ 46 :: frac).length = (ip ++ 46 :: kept).length + j := by
      rw [hpre, List.length_append, List.length_replicate]
    have hne : ip ++ 46 :: kept ≠ [] := by simp
    have hcond : (ip ++ 46 :: kept).length = ip.length + 1
        ∨ (ip ++ 46 :: kept).getD ((ip ++ 46 :: kept).length - 1) 0 ≠ 48 := by
      cases kept with
      | nil => left; simp
      | cons c t =>
        right
        intro h48
        apply hlast
        have h1 := getD_last (ip ++ 46 :: c :: t) hne
        rw [h48] at h1
        have h2 : (ip ++ 46 :: c :: t).getLast? = (c :: t).getLast? := by
          rw [show ip ++ 46 :: c :: t = (ip ++ [46]) ++ (c :: t) by simp,
            List.getLast?_append_of_ne_nil _ (by simp)]
        rw [← h2, h1]
    have hloop := trim_loop_zeros (ip ++ 46 :: kept) ip.length
      (by simp only [List.length_append, List.length_cons]; omega) hcond j
    rw [hlen]
    rw [hpre, hloop]
    have hcut : ((ip ++ 46 :: kept) ++ List.replicate j 48).take
        ((ip ++ 46 :: kept).length - 1 + 1) = ip ++ 46 :: kept := by
      have : (ip ++ 46 :: kept).length - 1 + 1 = (ip ++ 46 :: kept).length := by
        have := List.length_pos.mpr hne; omega
      rw [this, List.take_left]
    have hget : ((ip ++ 46 :: kept) ++ List.replicate j 48).getD
        ((ip ++ 46 :: kept).length - 1) 0
        = (ip ++ 46 :: kept).getD ((ip ++ 46 :: kept).length - 1) 0 := by
      have : (ip ++ 46 :: kept).length - 1 < (ip ++ 46 :: kept).length := by
        have := List.length_pos.mpr hne; omega
      rw [List.getD_eq_getElem?_getD, List.getD_eq_getElem?_getD,
        List.getElem?_append_left this]
    rw [hcut, hget]
    have hl := getD_last (ip ++ 46 :: kept) hne
    have hshape : ip ++ [46] ++ kept = ip ++ 46 :: kept := by simp
    rw [hshape, hl]
    simp only [Option.some.injEq]
  · rw [if_neg hmem, if_neg hmem]

/-- C24: the trimming step of the number printer on a text `digits . digits` with at
least one fraction digit (the integer part may be any bytes other than the point and the
terminator, so a minus sign is covered).  The result is the integer part, the point and
the fraction digits without their trailing zeros, except that one digit stays when all
of them are zeros: the removed bytes are zeros only, the kept fraction is not empty and
does not end in `0` unless it is the single digit `0`, the result does not end in the
point, and the bytes before the point are unchanged.  `2.000000` becomes `2.0` and
`1.500000` becomes `1.5`. -/
theorem js_number_trim_keeps_one_digit (ip frac : List Nat)
    (hip : ∀ c ∈ ip, c ≠ 0 ∧ c ≠ 46) (hfrac : ∀ c ∈ frac, isDigit c) (hne : frac ≠ []) :
    _js_number_trim_scan (ip ++ 46 :: frac) = ip ++ 46 :: jsFracTrim frac
    ∧ _js_number_trim (ip ++ 46 :: frac) = ip ++ 46 :: jsFracTrim frac
    ∧ (∃ j, frac = jsFracTrim frac ++ List.replicate j 48)
    ∧ jsFracTrim frac ≠ []
    ∧ ((jsFracTrim frac).getLast? ≠ some 48 ∨ jsFracTrim frac = [48])
    ∧ (ip ++ 46 :: jsFracTrim frac).getLast? ≠ some 46
    ∧ (ip ++ 46 :: jsFracTrim frac).takeWhile (fun c => decide (c ≠ 46)) = ip
    ∧ _js_number_trim_scan (bytes "2.000000") = bytes "2.0"
    ∧ _js_number_trim_scan (bytes "1.500000") = bytes "1.5" := by
  have htrim : _js_number_trim (ip ++ 46 :: frac) = ip ++ 46 :: jsFracTrim frac := by
    have := number_trim_fixed ip frac 0 hip hfrac
    simpa using this
  obtain ⟨j, hj, hlast⟩ := strip_zeros_split frac
  have hne2 : jsFracTrim frac ≠ [] := by
    unfold jsFracTrim
    simp only []
    split_ifs with h
    · simp
    · exact h
  refine ⟨by rw [_js_number_trim_scan_eq]; exact htrim, htrim, ?_, hne2, ?_, ?_,
    takeWhile_sep ip _ (fun c hc => (hip c hc).2), by decide, by decide⟩
  · unfold jsFracTrim
    simp only []
    by_cases hk : (frac.reverse.dropWhile (fun c => decide (c = 48))).reverse = []
    · rw [if_pos hk]
      rw [hk, List.nil_append] at hj
      cases j with
      | zero => exact absurd hj hne
      | succ j => exact ⟨j, by rw [hj, List.replicate_succ]; rfl⟩
    · rw [if_neg hk]
      exact ⟨j, hj⟩
  · unfold jsFracTrim
    simp only []
    by_cases hk : (frac.reverse.dropWhile (fun c => decide (c = 48))).reverse = []
    · rw [if_pos hk]; exact Or.inr rfl
    · rw [if_neg hk]; exact Or.inl hlast
  · rw [show ip ++ 46 :: jsFracTrim frac = (ip ++ [46]) ++ jsFracTrim frac by simp,
      List.getLast?_append_of_ne_nil _ hne2]
    intro h46
    have hm := List.mem_of_getLast?_eq_some h46
    have := jsFracTrim_digits frac hfrac 46 hm
    unfold isDigit at this
    omega

/-- C24 (witness): `-0.250000` becomes `-0.25`. -/
theorem js_number_trim_keeps_one_digit_witness :
    _js_number_trim_scan (bytes "-0.250000") = bytes "-0.25"
    ∧ jsFracTrim (bytes "250000") = bytes "25" :=
  ⟨(js_number_trim_keeps_one_digit (bytes "-0") (bytes "250000") (by decide) (by decide)
      (by decide)).1, rfl⟩

/-! ## The failure slot is written on failing paths only -/

mutual

theorem parse_value_slot : ∀ (fuel : Nat) (value : List Nat) (pos : jsSlot),
    _js_parse_value_slot fuel value pos
      = (_js_parse_value fuel value).map (fun r => r.toSlot pos)
  | 0, _, _ => by rw [_js_parse_value_slot, _js_parse_value]; rfl
  | fuel + 1, value, pos => by
    rw [_js_parse_value_slot, _js_parse_value]
    split_ifs
    · rfl
    · rfl
    · rfl
    · rfl
    · rfl
    · exact parse_array_slot fuel value pos
    · exact parse_object_slot fuel value pos
    · rfl

theorem parse_array_slot : ∀ (fuel : Nat) (value : List Nat) (pos : jsSlot),
    _js_parse_array_slot fuel value pos
      = (_js_parse_array fuel value).map (fun r => r.toSlot pos)
  | 0, _, _ => by rw [_js_parse_array_slot, _js_parse_array]; rfl
  | fuel + 1, value, pos => by
    rw [_js_parse_array_slot, _js_parse_array]
    split_ifs
    · rfl
    · rw [parse_value_slot fuel _ pos]
      cases h : _js_parse_value fuel (_js_skip (_js_skip (value.drop 1))) with
      | none => rfl
      | some r =>
        cases r with
        | ok sub rest =>
          simp only [Option.map_some', jsParse.toSlot]
          exact parse_array_loop_slot fuel _ _ pos
        | fail p =>
          cases p with
          | none => rfl
          | some p => rfl

theorem parse_array_loop_slot : ∀ (fuel : Nat) (ls : lsHandle jsObject) (value : List Nat)
    (pos : jsSlot),
    _js_parse_array_loop_slot fuel ls value pos
      = (_js_parse_array_loop fuel ls value).map (fun r => r.toSlot pos)
  | 0, _, _, _ => by rw [_js_parse_array_loop_slot, _js_parse_array_loop]; rfl
  | fuel + 1, ls, value, pos => by
    rw [_js_parse_array_loop_slot, _js_parse_array_loop]
    split_ifs
    · rw [parse_value_slot fuel _ pos]
      cases h : _js_parse_value fuel (_js_skip (value.drop 1)) with
      | none => rfl
      | some r =>
        cases r with
        | ok sub rest =>
          simp only [Option.map_some', jsParse.toSlot]
          exact parse_array_loop_slot fuel _ _ pos
        | fail p =>
          cases p with
          | none => rfl
          | some p => rfl
    · rfl
    · rfl

theorem parse_object_slot : ∀ (fuel : Nat) (value : List Nat) (pos : jsSlot),
    _js_parse_object_slot fuel value pos
      = (_js_parse_object fuel value).map (fun r => r.toSlot pos)
  | 0, _, _ => by rw [_js_parse_object_slot, _js_parse_object]; rfl
  | fuel + 1, value, pos => by
    rw [_js_parse_object_slot, _js_parse_object]
    split_ifs
    · rfl
    · exact parse_object_member_slot fuel _ _ pos

theorem parse_object_member_slot : ∀ (fuel : Nat) (ht : jsTable) (value : List Nat)
    (pos : jsSlot),
    _js_parse_object_member_slot fuel ht value pos
      = (_js_parse_object_member fuel ht value).map (fun r => r.toSlot pos)
  | 0, _, _, _ => by rw [_js_parse_object_member_slot, _js_parse_object_member]; rfl
  | fuel + 1, ht, value, pos => by
    rw [_js_parse_object_member_slot, _js_parse_object_member]
    cases hn : _js_parse_name value with
    | error p => rfl
    | ok nr =>
      obtain ⟨name, rest⟩ := nr
      simp only []
      split_ifs
      · rfl
      · rfl
      · rw [parse_value_slot fuel _ pos]
        cases h : _js_parse_value fuel (_js_skip ((_js_skip rest).drop 1)) with
        | none => rfl
        | some r =>
          cases r with
          | ok sub rest1 =>
            simp only [Option.map_some', jsParse.toSlot]
            exact parse_object_loop_slot fuel _ _ pos
          | fail p =>
            cases p with
            | none => rfl
            | some p => rfl

theorem parse_object_loop_slot : ∀ (fuel : Nat) (ht : jsTable) (value : List Nat)
    (pos : jsSlot),
    _js_parse_object_loop_slot fuel ht value pos
      = (_js_parse_object_loop fuel ht value).map (fun r => r.toSlot pos)
  | 0, _, _, _ => by rw [_js_parse_object_loop_slot, _js_parse_object_loop]; rfl
  | fuel + 1, ht, value, pos => by
    rw [_js_parse_object_loop_slot, _js_parse_object_loop]
    split_ifs
    · exact parse_object_member_slot fuel _ _ pos
    · rfl
    · rfl

end

/-- The parser with the slot passed along is the parser that returns the written
position with its failure. -/
theorem _js_parse_slot_eq (js : jsHandle) (str : List Nat) :
    _js_parse_slot js str = _js_parse js str := by
  unfold _js_parse_slot _js_parse
  rw [parse_value_slot]
  cases h : _js_parse_value (2 * str.length + 1) (_js_skip str) with
  | none => rfl
  | some r =>
    cases r with
    | ok obj rest =>
      simp only [Option.map_some', jsParse.toSlot, jsSlot.err]
    | fail p =>
      cases p with
      | none => rfl
      | some p => rfl

/-- C27: the failure slot is written only on failure.  In the parser that is handed the
slot, every production that returns a value returns the slot it was given, whatever
recursion bound and text; so for every text on which `js_parse` succeeds, the failure
slot of the document holds after the call what it held before it, and the root is the
parsed Object.  The parser with the slot and `js_parse` are the same function. -/
theorem js_parse_success_keeps_slot (js : jsHandle) (str : List Nat)
    (hok : (js_parse js str).1 = JS_TRUE) :
    (∀ fuel value pos obj rest pos1,
        _js_parse_value_slot fuel value pos = some (some (obj, rest), pos1) → pos1 = pos)
    ∧ _js_parse_slot js str = js_parse js str
    ∧ (js_parse js str).2.err = js.err
    ∧ (∃ obj, (js_parse js str).2.obj = some obj ∧ obj.isObject = true) := by
  refine ⟨?_, _js_parse_slot_eq js str, ?_, ?_⟩
  · intro fuel value pos obj rest pos1 h
    rw [parse_value_slot] at h
    cases hr : _js_parse_value fuel value with
    | none => rw [hr] at h; cases h
    | some r =>
      rw [hr] at h
      cases r with
      | ok o rs =>
        simp only [Option.map_some', jsParse.toSlot, Option.some.injEq, Prod.mk.injEq] at h
        exact h.2.symm
      | fail p =>
        cases p with
        | none => simp [jsParse.toSlot] at h
        | some p => simp [jsParse.toSlot] at h
  · have hok' : (_js_parse js str).1 = JS_TRUE := hok
    show (_js_parse js str).2.err = js.err
    unfold _js_parse at hok' ⊢
    generalize _js_parse_value (2 * str.length + 1) (_js_skip str) = r at hok' ⊢
    cases r with
    | none => simp [JS_ERR, JS_TRUE] at hok'
    | some r =>
      cases r with
      | ok o rs =>
        simp only [] at hok' ⊢
        split_ifs <;> rfl
      | fail p =>
        cases p with
        | none => simp [JS_ERR, JS_TRUE] at hok'
        | some p => simp [JS_ERR, JS_TRUE] at hok'
  · have hok' : (_js_parse js str).1 = JS_TRUE := hok
    show ∃ obj, (_js_parse js str).2.obj = some obj ∧ obj.isObject = true
    unfold _js_parse at hok' ⊢
    generalize _js_parse_value (2 * str.length + 1) (_js_skip str) = r at hok' ⊢
    cases r with
    | none => simp [JS_ERR, JS_TRUE] at hok'
    | some r =>
      cases r with
      | ok o rs =>
        simp only [] at hok' ⊢
        by_cases ho : o.isObject = true
        · rw [if_pos ho]; exact ⟨o, rfl, ho⟩
        · rw [if_neg ho] at hok'; simp [JS_ERR, JS_TRUE] at hok'
      | fail p =>
        cases p with
        | none => simp [JS_ERR, JS_TRUE] at hok'
        | some p => simp [JS_ERR, JS_TRUE] at hok'

/-- C27 (witness): a document whose failure slot holds the offset 5 from the failure on
`\x7b"a":\x7d` still holds 5 after the successful parse of `\x7b"a":[1,2]\x7d`. -/
theorem js_parse_success_keeps_slot_witness :
    (js_parse js_create (bytes "\x7b\"a\":\x7d")).2 = ⟨some 5, none⟩
    ∧ (js_parse ⟨some 5, none⟩ (bytes "\x7b\"a\":[1,2]\x7d")).1 = JS_TRUE
    ∧ (js_parse ⟨some 5, none⟩ (bytes "\x7b\"a\":[1,2]\x7d")).2.err = some 5 :=
  ⟨rfl, rfl,
    (js_parse_success_keeps_slot ⟨some 5, none⟩ (bytes "\x7b\"a\":[1,2]\x7d") rfl).2.2.1⟩

/-! ## Iteration over a whole table -/

section ht_all
variable {K V : Type}

theorem ht_next_all_remaining (ht : htHandle K V) (hlen : ht.table.length = ht.size) :
    ∀ (fuel : Nat) (it : htIterator), ht_iter_ok ht it →
      ht_next_all ht fuel it = (ht_remaining ht it).take fuel
  | 0, it, _ => by simp [ht_next_all]
  | fuel + 1, it, hok => by
    obtain ⟨h1, h2⟩ := ht_next_spec ht hlen it hok
    cases hr : ht_remaining ht it with
    | nil =>
      have hn := h1 hr
      rw [ht_next_all]
      cases hx : ht_next ht it with
      | mk a b =>
        rw [hx] at hn
        simp only at hn
        subst hn
        rfl
    | cons r rs =>
      obtain ⟨hn, hok1, hrem⟩ := h2 r rs hr
      rw [ht_next_all]
      cases hx : ht_next ht it with
      | mk a b =>
        rw [hx] at hn hok1 hrem
        simp only at hn hok1 hrem
        subst hn
        simp only [List.take_succ_cons]
        rw [ht_next_all_remaining ht hlen fuel b hok1, hrem]

/-- C29: map iteration.  For every table whose bucket array has `size` slots (a table
with zero slots included) and whose `used` counts its entries, the first `n` calls of
`ht_next` on a fresh iterator return the first `n` pointers of the list of all entry
pointers and every later call returns none; that list holds no pointer twice, every
pointer in it designates a stored entry, every stored entry is designated by one of
them, and its length is `used`. -/
theorem ht_next_returns_each_entry_once (ht : htHandle K V)
    (hlen : ht.table.length = ht.size) (hused : ht.used = ht_count ht) :
    (∀ n, ht_next_all ht n (ht_create_iterator ht) = (ht_refs ht).take n)
    ∧ (∀ n, ht.used ≤ n → ht_next_all ht n (ht_create_iterator ht) = ht_refs ht)
    ∧ (ht_refs ht).Nodup
    ∧ (∀ r, r ∈ ht_refs ht ↔ ∃ e, ht_entry ht r = some e)
    ∧ (ht_refs ht).filterMap (ht_entry ht) = ht_toList ht
    ∧ (ht_refs ht).length = ht.used
    ∧ (ht.size = 0 → (ht_next ht (ht_create_iterator ht)).1 = none) := by
  obtain ⟨hok, hrem⟩ := ht_create_iterator_remaining ht hlen
  have hall : ∀ n, ht_next_all ht n (ht_create_iterator ht) = (ht_refs ht).take n := by
    intro n
    rw [ht_next_all_remaining ht hlen n _ hok, hrem]
  have hl : (ht_refs ht).length = ht.used := by rw [ht_refs_length, hused]
  refine ⟨hall, ?_, ht_refs_aux_nodup _ _, mem_ht_refs ht, ht_refs_entries ht, hl, ?_⟩
  · intro n hn
    rw [hall n, List.take_of_length_le (by omega)]
  · intro hs
    have htab : ht.table = [] := List.length_eq_zero.mp (by rw [hlen, hs])
    have hnil : ht_remaining ht (ht_create_iterator ht) = [] := by
      rw [hrem]; unfold ht_refs; rw [htab]; rfl
    exact (ht_next_spec ht hlen _ hok).1 hnil

end ht_all

/-- C29 (witness): the table of the Object parsed from `\x7b"a":1,"b":2\x7d` has both
entries in bucket 3; three calls return them and then none. -/
theorem ht_next_returns_each_entry_once_witness :
    ht_next_all js_example_src 3 (ht_create_iterator js_example_src) = [⟨3, 0⟩, ⟨3, 1⟩]
    ∧ (ht_refs js_example_src).length = 2
    ∧ ht_next_all (ht_create : jsTable) 1 (ht_create_iterator (ht_create : jsTable)) = [] :=
  have h := ht_next_returns_each_entry_once js_example_src rfl rfl
  ⟨(h.2.1 3 (by decide)).trans rfl, h.2.2.2.2.2.1,
    (ht_next_returns_each_entry_once (ht_create : jsTable) rfl rfl).1 1⟩

/-! ## Insert, find and delete -/

section ht_contract
variable {K V : Type}

/-- In a well-formed table every stored entry is the one `ht_find` returns for its key. -/
theorem ht_find_entry {type : htType K} {good : K → Prop} (hl : type.lawful good)
    {ht : htHandle K V} (h : ht_wf type good ht) {e : htEntry K V} (he : e ∈ ht_toList ht) :
    ∃ r, ht_find type ht e.key = some r ∧ ht_entry ht r = some e := by
  have hk : good e.key := h.good e he
  have hmem : e.key ∈ ht_keys ht := List.mem_map.mpr ⟨e, he, rfl⟩
  cases hf : ht_find type ht e.key with
  | none => exact absurd hmem ((ht_find_none_iff hl h hk).mp hf)
  | some r =>
    obtain ⟨e1, h1, h2, h3⟩ := ht_find_some hl h hk hf
    have : e1 = e := ht_keys_inj h.nodup h3 he h2
    exact ⟨r, rfl, by rw [h1, this]⟩

/-- C28: map delete.  For every well-formed table (the shape `ht_add` and `ht_delete`
maintain, keys pairwise distinct, a key comparison that answers non-zero exactly on
equal keys) and every entry `e` stored in it, `ht_delete` is defined and afterwards
`ht_find` of the key of `e` returns none, the entry count is one less, and every other
stored entry is still the one `ht_find` returns for its key; the lookup of every other
key is unchanged. -/
theorem ht_delete_removes_entry {type : htType K} {good : K → Prop} (hl : type.lawful good)
    {ht : htHandle K V} (h : ht_wf type good ht) {he : htEntryRef} {e : htEntry K V}
    (hent : ht_entry ht he = some e) :
    ∃ ht1, ht_delete type ht he = some ht1
      ∧ ht_find type ht1 e.key = none
      ∧ ht1.used + 1 = ht.used
      ∧ (ht_toList ht1).length + 1 = (ht_toList ht).length
      ∧ (∀ e1 ∈ ht_toList ht, e1.key ≠ e.key →
          ∃ r, ht_find type ht1 e1.key = some r ∧ ht_entry ht1 r = some e1)
      ∧ (∀ k, good k → k ≠ e.key → ht_lookup type ht1 k = ht_lookup type ht k)
      ∧ ht_wf type good ht1 := by
  obtain ⟨ht1, hdel, hwf1, hperm⟩ := ht_delete_wf h hent
  have hin : e ∈ ht_toList ht := (ht_entry_mem hent).2.2
  have hk : good e.key := h.good e hin
  have hkeys := hperm.map (fun x => x.key)
  have hnd : (e.key :: ht_keys ht1).Nodup := (List.Perm.nodup_iff hkeys).mpr h.nodup
  have hnot : e.key ∉ ht_keys ht1 := (List.nodup_cons.mp hnd).1
  have hlen := hperm.length_eq
  simp only [List.length_cons] at hlen
  refine ⟨ht1, hdel, (ht_find_none_iff hl hwf1 hk).mpr hnot, ?_, hlen, ?_, ?_, hwf1⟩
  · rw [ht_wf_used_eq hwf1, ht_wf_used_eq h]; exact hlen
  · intro e1 he1 hne
    have hmem : e1 ∈ e :: ht_toList ht1 := hperm.mem_iff.mpr he1
    rcases List.mem_cons.mp hmem with h1 | h1
    · exact absurd (by rw [h1]) hne
    · exact ht_find_entry hl hwf1 h1
  · intro k hgk hne
    apply Option.ext
    intro v
    show ht_lookup type ht1 k = some v ↔ ht_lookup type ht k = some v
    rw [ht_lookup_eq_some hl hwf1 hgk, ht_lookup_eq_some hl h hgk]
    constructor
    · intro hm; exact hperm.mem_iff.mp (List.mem_cons_of_mem _ hm)
    · intro hm
      rcases List.mem_cons.mp (hperm.mem_iff.mpr hm) with h1 | h1
      · exact absurd (by rw [← h1]) hne
      · exact h1

theorem ht_add_all_spec [Inhabited V] {type : htType K} {good : K → Prop}
    (hl : type.lawful good) :
    ∀ (pairs : List (K × V)) (ht : htHandle K V), ht_wf type good ht →
      (∀ kv ∈ pairs, good kv.1) → (pairs.map Prod.fst).Nodup →
      (∀ kv ∈ pairs, kv.1 ∉ ht_keys ht) → ht.used + pairs.length ≤ 2 ^ 30 →
      (ht_add_all type ht pairs).1 = List.replicate pairs.length HT_OK
      ∧ ht_wf type good (ht_add_all type ht pairs).2
      ∧ (ht_toList (ht_add_all type ht pairs).2).Perm
          (pairs.map (fun kv => (⟨kv.1, kv.2⟩ : htEntry K V)) ++ ht_toList ht)
  | [], ht, hwf, _, _, _, _ => ⟨rfl, hwf, List.Perm.refl _⟩
  | kv :: rest, ht, hwf, hg, hnd, hnew, hu => by
    simp only [List.length_cons] at hu
    simp only [List.map_cons, List.nodup_cons] at hnd
    obtain ⟨ht1, hadd, hwf1, hperm1⟩ := ht_add_new hl hwf (hg kv (List.mem_cons_self _ _))
      (by omega) (hnew kv (List.mem_cons_self _ _)) kv.2
    have hused1 : ht1.used = ht.used + 1 := by
      rw [ht_wf_used_eq hwf1, ht_wf_used_eq hwf, hperm1.length_eq, List.length_cons]
    have hnew1 : ∀ x ∈ rest, x.1 ∉ ht_keys ht1 := by
      intro x hx hm
      have hm2 := (hperm1.map (fun e => e.key)).mem_iff.mp hm
      simp only [List.map_cons, List.mem_cons] at hm2
      rcases hm2 with h1 | h1
      · exact hnd.1 (by rw [← h1]; exact List.mem_map.mpr ⟨x, hx, rfl⟩)
      · exact hnew x (List.mem_cons_of_mem _ hx) h1
    obtain ⟨ih1, ih2, ih3⟩ := ht_add_all_spec hl rest ht1 hwf1
      (fun x hx => hg x (List.mem_cons_of_mem _ hx)) hnd.2 hnew1 (by omega)
    rw [ht_add_all]
    simp only [hadd]
    refine ⟨by rw [ih1, List.length_cons, List.replicate_succ], ih2, ?_⟩
    refine ih3.trans ?_
    refine (List.Perm.append_left _ hperm1).trans ?_
    simp only [List.map_cons, List.cons_append]
    exact List.perm_middle

/-- C21: map insert and find.  For every list of pairs with pairwise distinct keys, at
most 2^30 of them, and a key comparison that answers non-zero exactly on equal keys:
the `ht_add` calls on a table from `ht_create` all return `HT_OK`, whatever expansions
they trigger; afterwards `ht_find` of every inserted key returns the entry that holds
the key and its value, `ht_find` of every other key returns none, and `used` is the
number of pairs. -/
theorem ht_add_all_then_find [Inhabited V] {type : htType K} {good : K → Prop}
    (hl : type.lawful good) (pairs : List (K × V)) (hgood : ∀ kv ∈ pairs, good kv.1)
    (hnd : (pairs.map Prod.fst).Nodup) (hn : pairs.length ≤ 2 ^ 30) :
    (ht_add_all type ht_create pairs).1 = List.replicate pairs.length HT_OK
    ∧ (∀ kv ∈ pairs, ∃ r, ht_find type (ht_add_all type ht_create pairs).2 kv.1 = some r
        ∧ ht_entry (ht_add_all type ht_create pairs).2 r = some ⟨kv.1, kv.2⟩)
    ∧ (∀ k, good k → k ∉ pairs.map Prod.fst →
        ht_find type (ht_add_all type ht_create pairs).2 k = none)
    ∧ (ht_add_all type ht_create pairs).2.used = pairs.length
    ∧ ht_wf type good (ht_add_all type ht_create pairs).2 := by
  have hwf0 : ht_wf type good (ht_create : htHandle K V) := ht_create_wf type good
  have hnil : ht_toList (ht_create : htHandle K V) = [] := rfl
  obtain ⟨h1, h2, h3⟩ := ht_add_all_spec hl pairs ht_create hwf0 hgood hnd
    (by intro kv _ hm; simp [ht_keys, hnil] at hm)
    (by show 0 + pairs.length ≤ 2 ^ 30; omega)
  rw [hnil, List.append_nil] at h3
  refine ⟨h1, ?_, ?_, ?_, h2⟩
  · intro kv hkv
    have hm : (⟨kv.1, kv.2⟩ : htEntry K V) ∈ ht_toList (ht_add_all type ht_create pairs).2 :=
      h3.mem_iff.mpr (List.mem_map.mpr ⟨kv, hkv, rfl⟩)
    exact ht_find_entry hl h2 hm
  · intro k hk hnot
    rw [ht_find_none_iff hl h2 hk]
    intro hm
    have hm2 := (h3.map (fun e => e.key)).mem_iff.mp hm
    simp only [List.map_map] at hm2
    exact hnot hm2
  · rw [ht_wf_used_eq h2, h3.length_eq, List.length_map]

end ht_contract

/-- C28 (witness): deleting the entry of `c` from the table of `\x7b"a":0,"c":3\x7d`
leaves `a` with its value and `c` absent. -/
theorem ht_delete_removes_entry_witness :
    ∃ ht1, ht_delete htTypeJson js_example_dst ⟨1, 0⟩ = some ht1
      ∧ ht_find htTypeJson ht1 (some [99]) = none
      ∧ ht1.used + 1 = js_example_dst.used
      ∧ ht_lookup htTypeJson ht1 (some [97]) = some (some (jsObject.number_l64 0)) := by
  obtain ⟨ht1, h1, h2, h3, _, _, h6, _⟩ :=
    ht_delete_removes_entry htTypeJson_lawful js_example_dst_wf
      (show ht_entry js_example_dst ⟨1, 0⟩ = some ⟨some [99], some (jsObject.number_l64 3)⟩
        from rfl)
  refine ⟨ht1, h1, h2, h3, ?_⟩
  rw [h6 (some [97]) (by simp [jsKeyGood]) (by simp)]
  rfl

/-- C21 (witness): five names are added to a fresh table, which expands from 4 to 8
slots on the fifth; each is found with its value and a sixth name is not. -/
theorem ht_add_all_then_find_witness :
    (ht_add_all htTypeJson (ht_create : jsTable)
        [(some [97], none), (some [98], none), (some [99], none), (some [100], none),
          (some [101], some jsObject.null)]).1 = [1, 1, 1, 1, 1]
    ∧ (ht_add_all htTypeJson (ht_create : jsTable)
        [(some [97], none), (some [98], none), (some [99], none), (some [100], none),
          (some [101], some jsObject.null)]).2.size = 8
    ∧ (∃ r, ht_find htTypeJson (ht_add_all htTypeJson (ht_create : jsTable)
          [(some [97], none), (some [98], none), (some [99], none), (some [100], none),
            (some [101], some jsObject.null)]).2 (some [101]) = some r
        ∧ ht_entry (ht_add_all htTypeJson (ht_create : jsTable)
          [(some [97], none), (some [98], none), (some [99], none), (some [100], none),
            (some [101], some jsObject.null)]).2 r
          = some ⟨some [101], some jsObject.null⟩)
    ∧ ht_find htTypeJson (ht_add_all htTypeJson (ht_create : jsTable)
          [(some [97], none), (some [98], none), (some [99], none), (some [100], none),
            (some [101], some jsObject.null)]).2 (some [102]) = none :=
  have h := ht_add_all_then_find htTypeJson_lawful
    [((some [97] : jsKey), (none : Option jsObject)), (some [98], none), (some [99], none),
      (some [100], none), (some [101], some jsObject.null)]
    (by intro kv hkv; simp at hkv; rcases hkv with h | h | h | h | h <;> simp [h, jsKeyGood])
    (by simp) (by simp)
  ⟨h.1, rfl, h.2.1 (some [101], some jsObject.null) (by simp),
    h.2.2.1 (some [102]) (by simp [jsKeyGood]) (by simp)⟩

/-! ## The shape of every table the calls reach -/

section ht_shape
variable {K V : Type}

/-- `_ht_expand` to a size that holds the entries keeps the shape and the entries; it
installs a table of `_ht_next_power size` slots unless the table has that size. -/
theorem _ht_expand_shape {type : htType K} {ht : htHandle K V} (hi : ht_inv type ht)
    (sz : Nat) (hu : ht.used ≤ sz) (hs : sz ≤ 2 ^ 30) :
    ht_inv type (_ht_expand type ht sz).2
    ∧ (ht_toList (_ht_expand type ht sz).2).Perm (ht_toList ht)
    ∧ (_ht_expand type ht sz).2.used = ht.used
    ∧ ((_ht_expand type ht sz).2.size = ht.size
        ∨ (_ht_expand type ht sz).2.size = _ht_next_power sz)
    ∧ (_ht_next_power sz ≠ ht.size →
        (_ht_expand type ht sz).1 = HT_OK
        ∧ (_ht_expand type ht sz).2.size = _ht_next_power sz) := by
  obtain ⟨k, hk2, hk30, hk, hle, _⟩ := _ht_next_power_spec sz hs
  unfold _ht_expand
  simp only []
  rw [if_neg (by omega)]
  by_cases hsame : _ht_next_power sz = ht.size
  · rw [if_pos hsame]
    exact ⟨hi, List.Perm.refl _, rfl, Or.inl rfl, fun h => absurd hsame h⟩
  · rw [if_neg hsame, hk]
    have hinv := ht_empty_inv (V := V) type k hk2 hk30
    by_cases hemp : ht.table.isEmpty = true
    · rw [if_pos hemp]
      have htab : ht.table = [] := List.isEmpty_iff.mp hemp
      have hnil0 : ht_toList ht = [] := by simp [ht_toList, htab]
      have hused : ht.used = 0 := by rw [hi.used, ht_count_eq, hnil0]; rfl
      refine ⟨hinv, ?_, hused.symm, Or.inr rfl, fun _ => ⟨rfl, rfl⟩⟩
      rw [hnil0, ht_empty_toList]
    · rw [if_neg hemp]
      have hspec := foldl_link_spec type ht.table.flatten
        (⟨List.replicate (2 ^ k) [], 2 ^ k, 2 ^ k - 1, 0⟩ : htHandle K V) hinv
        (by show 2 ^ k ≠ 0; positivity)
      have hloop := _ht_rehash_loop_eq type ht.table ht.used
        (⟨List.replicate (2 ^ k) [], 2 ^ k, 2 ^ k - 1, 0⟩ : htHandle K V) hi.used
      simp only [_ht_rehash, hloop, if_true]
      simp only [ht_empty_toList, List.append_nil] at hspec
      obtain ⟨hi1, hsz, hp⟩ := hspec
      have hp : (ht_toList (List.foldl
          (fun m e => ht_link m (type.hash_function e.key &&& m.mask) e)
          (⟨List.replicate (2 ^ k) [], 2 ^ k, 2 ^ k - 1, 0⟩ : htHandle K V)
          ht.table.flatten)).Perm (ht_toList ht) := hp
      have hu1 : (List.foldl (fun m e => ht_link m (type.hash_function e.key &&& m.mask) e)
          (⟨List.replicate (2 ^ k) [], 2 ^ k, 2 ^ k - 1, 0⟩ : htHandle K V)
          ht.table.flatten).used = ht.used := by
        rw [hi1.used, ht_count_eq, hi.used, ht_count_eq]; exact hp.length_eq
      exact ⟨hi1, hp, hu1, Or.inr hsz, fun _ => ⟨by first | rfl | trivial, hsz⟩⟩

theorem ht_inv_size_le {type : htType K} {ht : htHandle K V} (hi : ht_inv type ht) :
    ht.size ≤ 2 ^ 30 := by
  rcases hi.size with h | ⟨k, _, hk30, hk⟩
  · rw [h]; positivity
  · rw [hk]; exact Nat.pow_le_pow_right (by norm_num) hk30

theorem _ht_expand_if_needed_shape {type : htType K} {ht : htHandle K V}
    (hi : ht_inv type ht) (hle : ht.used ≤ ht.size) (hu : ht.used < 2 ^ 30) :
    (_ht_expand_if_needed type ht).1 = HT_OK
    ∧ ht_inv type (_ht_expand_if_needed type ht).2
    ∧ (ht_toList (_ht_expand_if_needed type ht).2).Perm (ht_toList ht)
    ∧ (_ht_expand_if_needed type ht).2.used = ht.used
    ∧ (_ht_expand_if_needed type ht).2.used < (_ht_expand_if_needed type ht).2.size := by
  unfold _ht_expand_if_needed
  by_cases hs : ht.size = 0
  · rw [if_pos hs]
    have hnp : _ht_next_power HT_INITIAL_SIZE = 4 := rfl
    obtain ⟨h1, h2, h3, _, h5⟩ := _ht_expand_shape hi HT_INITIAL_SIZE
      (by show ht.used ≤ 4; omega) (by show 4 ≤ 2 ^ 30; norm_num)
    obtain ⟨h6, h7⟩ := h5 (by rw [hnp, hs]; omega)
    refine ⟨h6, h1, h2, h3, ?_⟩
    rw [h3, h7, hnp]; omega
  · rw [if_neg hs]
    by_cases hfull : ht.size ≤ ht.used
    · rw [if_pos hfull]
      obtain ⟨k, hk2, hk30, hk⟩ : ∃ k, 2 ≤ k ∧ k ≤ 30 ∧ ht.size = 2 ^ k := by
        rcases hi.size with h0 | h1
        · exact absurd h0 hs
        · exact h1
      have hused : ht.used = 2 ^ k := by omega
      have hk29 : k ≤ 29 := by
        by_contra hc
        have hk30' : k = 30 := by omega
        rw [hk30'] at hused
        omega
      have hdbl : ht.used * 2 = 2 ^ (k + 1) := by rw [hused, pow_succ]
      have hnp : _ht_next_power (ht.used * 2) = 2 ^ (k + 1) := by
        rw [hdbl]; exact _ht_next_power_pow (k + 1) (by omega) (by omega)
      have hpos : 0 < 2 ^ k := by positivity
      have hlt : 2 ^ k < 2 ^ (k + 1) := by rw [pow_succ]; omega
      obtain ⟨h1, h2, h3, _, h5⟩ := _ht_expand_shape hi (ht.used * 2) (by omega)
        (by rw [hdbl]; exact Nat.pow_le_pow_right (by norm_num) (by omega))
      obtain ⟨h6, h7⟩ := h5 (by rw [hnp, hk]; omega)
      refine ⟨h6, h1, h2, h3, ?_⟩
      rw [h3, h7, hnp, hused]; exact hlt
    · rw [if_neg hfull]
      refine ⟨rfl, hi, List.Perm.refl _, rfl, ?_⟩
      show ht.used < ht.size
      omega

/-- `ht_add` on a table in its shape with fewer than 2^30 entries leaves a table in its
shape, whether or not the key was stored. -/
theorem ht_add_shape [Inhabited V] {type : htType K} {ht : htHandle K V}
    (hi : ht_inv type ht) (hle : ht.used ≤ ht.size) (hu : ht.used < 2 ^ 30) (key : K)
    (val : V) :
    ht_inv type (ht_add type ht key val).2
    ∧ (ht_add type ht key val).2.used ≤ (ht_add type ht key val).2.size := by
  obtain ⟨h1, h2, h3, h4, h5⟩ := _ht_expand_if_needed_shape hi hle hu
  have hs : (_ht_expand_if_needed type ht).2.size ≠ 0 := by omega
  have hidx := ht_inv_index_lt h2 hs (type.hash_function key)
  cases hc : ht_chain_find type key ((_ht_expand_if_needed type ht).2.table.getD
      (type.hash_function key &&& (_ht_expand_if_needed type ht).2.mask) []) with
  | some p =>
    have hki : _ht_key_index type ht key = (none, (_ht_expand_if_needed type ht).2) := by
      unfold _ht_key_index
      simp only [h1, HT_OK, one_ne_zero, if_false, hc]
    have hadd : ht_add type ht key val = (HT_ERR, (_ht_expand_if_needed type ht).2) := by
      unfold ht_add ht_add_raw
      rw [hki]
    rw [hadd]
    refine ⟨h2, ?_⟩
    show (_ht_expand_if_needed type ht).2.used ≤ (_ht_expand_if_needed type ht).2.size
    omega
  | none =>
    have hki : _ht_key_index type ht key
        = (some (type.hash_function key &&& (_ht_expand_if_needed type ht).2.mask),
           (_ht_expand_if_needed type ht).2) := by
      unfold _ht_key_index
      simp only [h1, HT_OK, one_ne_zero, if_false, hc]
    rw [ht_add_eq_link type ht key val _ _ hki hidx]
    refine ⟨ht_link_inv h2 hs ⟨key, val⟩, ?_⟩
    show (_ht_expand_if_needed type ht).2.used + 1 ≤ (_ht_expand_if_needed type ht).2.size
    omega

/-- `ht_delete` of a stored entry of a table in its shape is defined and leaves a table
in its shape without that entry. -/
theorem ht_delete_shape {type : htType K} {ht : htHandle K V} (hi : ht_inv type ht)
    (hle : ht.used ≤ ht.size) {he : htEntryRef} {e : htEntry K V}
    (hent : ht_entry ht he = some e) :
    ∃ ht1, ht_delete type ht he = some ht1 ∧ ht_inv type ht1 ∧ ht1.used ≤ ht1.size
      ∧ (e :: ht_toList ht1).Perm (ht_toList ht) := by
  obtain ⟨hidx, hmem, hin⟩ := ht_entry_mem hent
  have hs : ht.size ≠ 0 := by rw [← hi.len]; omega
  have hb := hi.bucket he.index e hmem
  have hp := flatten_set_eraseIdx_perm ht.table he.index he.pos e hidx hent
  have hcount : ht_count ht = (ht_toList ht).length := ht_count_eq ht
  have hlen := hp.length_eq
  simp only [List.length_cons] at hlen
  have hsz := ht_inv_size_le hi
  have hused1 : 1 ≤ ht.used := by
    rw [hi.used, hcount]
    exact List.length_pos_of_mem hin
  have hmod : (ht.used + 4294967295) % 4294967296 = ht.used - 1 := by omega
  refine ⟨{ ht with table := ht.table.set he.index ((ht.table.getD he.index []).eraseIdx he.pos),
                    used := (ht.used + 4294967295) % 4294967296 }, ?_, ?_, ?_, hp⟩
  · unfold ht_delete
    simp only [hs, if_false, hent, hb, or_true, if_true]
  · refine ⟨by simp [hi.len], hi.size, hi.mask, ?_, ?_⟩
    · show (ht.used + 4294967295) % 4294967296 = _
      rw [hmod, ht_count_eq, hi.used, hcount]
      show _ = (ht.table.set he.index ((ht.table.getD he.index []).eraseIdx he.pos)).flatten.length
      simp only [ht_toList] at hlen ⊢
      omega
    · intro j e1 he1
      by_cases hj : he.index = j
      · subst hj
        simp only [getD_set_self _ _ _ hidx] at he1
        exact hi.bucket _ e1 (List.mem_of_mem_eraseIdx he1)
      · simp only [getD_set_ne _ _ _ _ hj] at he1
        exact hi.bucket j e1 he1
  · show (ht.used + 4294967295) % 4294967296 ≤ ht.size
    omega

theorem wrap32_small (n : Nat) (h : n ≤ 1073741824) : wrap32 (n : Int) = (n : Int) := by
  unfold wrap32
  omega

/-- `ht_resize` asks `_ht_expand` for `used` slots, at least four. -/
theorem ht_resize_size {type : htType K} {ht : htHandle K V} (h : ht.used ≤ 1073741824) :
    ht_resize type ht = _ht_expand type ht (if ht.used < 4 then 4 else ht.used) := by
  unfold ht_resize
  simp only []
  rw [wrap32_small ht.used h]
  congr 1
  by_cases h4 : ht.used < 4
  · have hc : ((HT_INITIAL_SIZE : Nat) : Int) > (ht.used : Int) := by
      show ((4 : Nat) : Int) > (ht.used : Int)
      omega
    rw [if_pos hc, if_pos h4]
    rfl
  · have hc : ¬ (((HT_INITIAL_SIZE : Nat) : Int) > (ht.used : Int)) := by
      show ¬ (((4 : Nat) : Int) > (ht.used : Int))
      omega
    rw [if_neg hc, if_neg h4]
    omega

/-- `ht_resize` on a table in its shape leaves a table in its shape. -/
theorem ht_resize_shape {type : htType K} {ht : htHandle K V} (hi : ht_inv type ht)
    (hle : ht.used ≤ ht.size) :
    ht_inv type (ht_resize type ht).2
    ∧ (ht_resize type ht).2.used ≤ (ht_resize type ht).2.size
    ∧ (ht_toList (ht_resize type ht).2).Perm (ht_toList ht) := by
  have hsz := ht_inv_size_le hi
  have h30 : (2 : Nat) ^ 30 = 1073741824 := by norm_num
  rw [h30] at hsz
  have hb1 : ht.used ≤ (if ht.used < 4 then 4 else ht.used) := by
    by_cases h4 : ht.used < 4
    · rw [if_pos h4]; omega
    · rw [if_neg h4]
  have hb2 : (if ht.used < 4 then 4 else ht.used) ≤ 2 ^ 30 := by
    rw [h30]
    by_cases h4 : ht.used < 4
    · rw [if_pos h4]; omega
    · rw [if_neg h4]; omega
  rw [ht_resize_size (by omega)]
  obtain ⟨h1, h2, h3, h4, _⟩ := _ht_expand_shape hi _ hb1 hb2
  refine ⟨h1, ?_, h2⟩
  rw [h3]
  rcases h4 with h | h
  · rw [h]; exact hle
  · rw [h]
    obtain ⟨k, _, _, hk, hle2, _⟩ := _ht_next_power_spec _ hb2
    rw [hk]
    exact le_trans hb1 hle2

theorem ht_reachable_shape [Inhabited V] {type : htType K} {ht : htHandle K V}
    (h : ht_reachable type ht) : ht_inv type ht ∧ ht.used ≤ ht.size := by
  induction h with
  | create =>
    have := ht_create_wf (V := V) type (fun _ => True)
    exact ⟨this.inv, this.le⟩
  | add ht key val _ hu ih => exact ht_add_shape ih.1 ih.2 hu key val
  | delete ht ht1 he e _ hent hdel ih =>
    obtain ⟨ht2, h1, h2, h3, _⟩ := @ht_delete_shape K V type _ ih.1 ih.2 _ _ hent
    rw [hdel] at h1
    cases h1
    exact ⟨h2, h3⟩
  | resize ht _ ih =>
    obtain ⟨h1, h2, _⟩ := @ht_resize_shape K V type _ ih.1 ih.2
    exact ⟨h1, h2⟩

/-- C30: the shape of a hash table.  In every table reached from `ht_create` by calls of
`ht_add` (on a table with fewer than 2^30 entries), `ht_delete` (of a stored entry) and
`ht_resize`: the bucket array has `size` slots, `size` is 0 or a power of two from 4 to
2^30, `mask` is `size - 1` when `size` is positive, `used` is the number of stored
entries and at most `size`, and every entry lies in the chain of the bucket
`hash(key) & mask`; `ht_delete` of a stored entry is defined there. -/
theorem ht_reachable_invariant [Inhabited V] {type : htType K} {ht : htHandle K V}
    (h : ht_reachable type ht) :
    ht.table.length = ht.size
    ∧ (ht.size = 0 ∨ ∃ k, 2 ≤ k ∧ k ≤ 30 ∧ ht.size = 2 ^ k)
    ∧ (0 < ht.size → ht.mask = ht.size - 1)
    ∧ ht.used = (ht_toList ht).length
    ∧ ht.used ≤ ht.size
    ∧ (∀ i e, e ∈ ht.table.getD i [] → type.hash_function e.key &&& ht.mask = i)
    ∧ (∀ he e, ht_entry ht he = some e → ∃ ht1, ht_delete type ht he = some ht1) := by
  obtain ⟨hi, hle⟩ := ht_reachable_shape h
  refine ⟨hi.len, hi.size, fun _ => hi.mask, ?_, hle, hi.bucket, ?_⟩
  · rw [hi.used, ht_count_eq]
  · intro he e hent
    obtain ⟨ht1, h1, _⟩ := @ht_delete_shape K V type _ hi hle _ _ hent
    exact ⟨ht1, h1⟩

end ht_shape

/-- C30 (witness): the table after `ht_add` of `a` and of `c`, then `ht_delete` of the
entry of `c`, then `ht_resize`. -/
theorem ht_reachable_invariant_witness :
    ∃ ht1, ht_delete htTypeJson
        (ht_add htTypeJson (ht_add htTypeJson (ht_create : jsTable) (some [97]) none).2
          (some [99]) none).2 ⟨1, 0⟩ = some ht1
      ∧ (ht_resize htTypeJson ht1).2.used ≤ (ht_resize htTypeJson ht1).2.size
      ∧ (ht_resize htTypeJson ht1).2.used = (ht_toList (ht_resize htTypeJson ht1).2).length
      ∧ ((ht_resize htTypeJson ht1).2.size = 0
          ∨ ∃ k, 2 ≤ k ∧ k ≤ 30 ∧ (ht_resize htTypeJson ht1).2.size = 2 ^ k) := by
  have hr : ht_reachable htTypeJson
      (ht_add htTypeJson (ht_add htTypeJson (ht_create : jsTable) (some [97]) none).2
        (some [99]) none).2 :=
    ht_reachable.add _ _ _ (ht_reachable.add _ _ _ ht_reachable.create (by decide)) (by decide)
  obtain ⟨ht1, hdel⟩ := (ht_reachable_invariant hr).2.2.2.2.2.2 ⟨1, 0⟩ ⟨some [99], none⟩ rfl
  have h := ht_reachable_invariant
    (ht_reachable.resize _ (ht_reachable.delete _ ht1 ⟨1, 0⟩ ⟨some [99], none⟩ hr rfl hdel))
  exact ⟨ht1, hdel, h.2.2.2.2.1, h.2.2.2.1, h.2.1⟩

/-! ## The order of a list built by `ls_add_head` and `ls_add_tail` -/

section ls_order
variable {V : Type}

theorem lsRepr_lt {ls : lsMem V} {addrs : List Nat} {vals : List V}
    (h : lsRepr ls addrs vals) : ∀ a ∈ addrs, a < ls.mem.length := by
  intro a ha
  obtain ⟨i, hi⟩ := List.getElem?_of_mem ha
  obtain ⟨v, _, hm⟩ := h.2.2.2.2.2 i a hi
  by_contra hc
  rw [List.getElem?_eq_none (by omega)] at hm
  cases hm

theorem lsRepr_index {addrs : List Nat} (hnd : addrs.Nodup) {i j : Nat} {a : Nat}
    (hi : addrs[i]? = some a) (hj : addrs[j]? = some a) : i = j := by
  have hil : i < addrs.length := by
    by_contra hc; rw [List.getElem?_eq_none (by omega)] at hi; cases hi
  have hjl : j < addrs.length := by
    by_contra hc; rw [List.getElem?_eq_none (by omega)] at hj; cases hj
  rw [List.getElem?_eq_getElem hil] at hi
  rw [List.getElem?_eq_getElem hjl] at hj
  have : addrs[i] = addrs[j] := by
    rw [Option.some.injEq] at hi hj; rw [hi, hj]
  exact (List.Nodup.getElem_inj_iff hnd).mp this

theorem ls_next_all_null (ls : lsMem V) (d : Nat) :
    ∀ fuel, lsMem.ls_next_all ls fuel ⟨none, d⟩ = some []
  | 0 => rfl
  | fuel + 1 => rfl

/-- From the node at position `i` towards the tail the iterator returns the values from
`vals[i]` on. -/
theorem ls_next_all_head {ls : lsMem V} {addrs : List Nat} {vals : List V}
    (h : lsRepr ls addrs vals) :
    ∀ (fuel i : Nat), lsMem.ls_next_all ls fuel ⟨addrs[i]?, LS_START_HEAD⟩
      = some ((vals.drop i).take fuel)
  | 0, i => by simp [lsMem.ls_next_all]
  | fuel + 1, i => by
    cases ha : addrs[i]? with
    | none =>
      have hi : addrs.length ≤ i := by
        by_contra hc
        rw [List.getElem?_eq_getElem (by omega)] at ha
        cases ha
      rw [ls_next_all_null, List.drop_eq_nil_of_le (by rw [← h.1]; exact hi)]
      rfl
    | some a =>
      obtain ⟨v, hv, hm⟩ := h.2.2.2.2.2 i a ha
      have ih := ls_next_all_head h fuel (i + 1)
      have hil : i < vals.length := by
        by_contra hc
        rw [List.getElem?_eq_none (by omega)] at hv
        cases hv
      have hd : vals.drop i = v :: vals.drop (i + 1) := by
        rw [List.drop_eq_getElem_cons hil]
        rw [List.getElem?_eq_getElem hil] at hv
        cases hv
        rfl
      rw [lsMem.ls_next_all]
      simp only [lsMem.ls_next, hm, Option.map_some', lsMem.ls_value, if_true, ih, hd,
        List.take_succ_cons]

/-- From the node at position `j` towards the head the iterator returns the values
`vals[j]` down to `vals[0]`. -/
theorem ls_next_all_tail {ls : lsMem V} {addrs : List Nat} {vals : List V}
    (h : lsRepr ls addrs vals) :
    ∀ (fuel j : Nat), j < addrs.length →
      lsMem.ls_next_all ls fuel ⟨addrs[j]?, LS_START_TAIL⟩
        = some (((vals.take (j + 1)).reverse).take fuel)
  | 0, j, _ => by simp [lsMem.ls_next_all]
  | fuel + 1, j, hj => by
    have ha : addrs[j]? = some addrs[j] := List.getElem?_eq_getElem hj
    obtain ⟨v, hv, hm⟩ := h.2.2.2.2.2 j _ ha
    have hjl : j < vals.length := by rw [← h.1]; exact hj
    have hvj : vals[j] = v := by
      rw [List.getElem?_eq_getElem hjl] at hv
      cases hv
      rfl
    have htake : (vals.take (j + 1)).reverse = v :: (vals.take j).reverse := by
      rw [List.take_succ, List.getElem?_eq_getElem hjl, hvj]
      simp
    have hdir : ¬ (LS_START_TAIL = LS_START_HEAD) := by decide
    rw [lsMem.ls_next_all, ha]
    simp only [lsMem.ls_next, hm, Option.map_some', lsMem.ls_value, hdir, if_false, htake,
      List.take_succ_cons]
    by_cases h0 : j = 0
    · subst h0
      simp only [if_true, ls_next_all_null, List.take_zero, List.reverse_nil, List.take_nil]
    · obtain ⟨k, rfl⟩ : ∃ k, j = k + 1 := ⟨j - 1, by omega⟩
      simp only [Nat.add_one_ne_zero, if_false, Nat.add_sub_cancel]
      rw [ls_next_all_tail h fuel k (by omega)]

theorem ls_add_head_repr {ls : lsMem V} {addrs : List Nat} {vals : List V}
    (h : lsRepr ls addrs vals) (hlen : addrs.length + 1 < 4294967296) (val : V) :
    ∃ ls1, lsMem.ls_add_head ls val = some ls1
      ∧ lsRepr ls1 (ls.mem.length :: addrs) (val :: vals) := by
  have hlt := lsRepr_lt h
  obtain ⟨h1, h2, h3, h4, h5, h6⟩ := h
  have hfresh : ls.mem.length ∉ addrs := fun hm => by have := hlt _ hm; omega
  have hmod : (ls.len + 1) % 4294967296 = addrs.length + 1 := by rw [h5]; omega
  cases addrs with
  | nil =>
    have hl0 : ls.len = 0 := h5
    have hv : vals = [] := List.length_eq_zero.mp h1.symm
    subst hv
    have hadd : lsMem.ls_add_head ls val
        = some ⟨ls.mem ++ [⟨none, none, val⟩], some ls.mem.length, some ls.mem.length,
            (ls.len + 1) % 4294967296⟩ := by
      unfold lsMem.ls_add_head; simp only [hl0, if_true]
    refine ⟨_, hadd, ?_⟩
    refine ⟨rfl, by simp, rfl, rfl, by rw [hl0]; rfl, ?_⟩
    intro i a hi
    cases i with
    | zero =>
      simp only [List.getElem?_cons_zero, Option.some.injEq] at hi
      subst hi
      exact ⟨val, by simp, by simp⟩
    | succ i => simp at hi
  | cons hd tl =>
    have hl0 : ls.len ≠ 0 := by rw [h5]; simp
    have hhead : ls.head = some hd := h3
    obtain ⟨v0, hv0, hm0⟩ := h6 0 hd (by simp)
    simp only [if_true] at hm0
    have hhd : hd < ls.mem.length := hlt hd (List.mem_cons_self _ _)
    have hadd : lsMem.ls_add_head ls val
        = some ⟨ls.mem.set hd ⟨some ls.mem.length, (hd :: tl)[0 + 1]?, v0⟩
              ++ [⟨none, some hd, val⟩],
            some ls.mem.length, ls.tail, (ls.len + 1) % 4294967296⟩ := by
      unfold lsMem.ls_add_head; simp only [hl0, if_false, hhead, hm0]
    refine ⟨_, hadd, ?_⟩
    refine ⟨by simp [h1], List.nodup_cons.mpr ⟨hfresh, h2⟩, rfl, ?_, ?_, ?_⟩
    · show ls.tail = _
      rw [h4]; simp [List.getLast?_cons_cons]
    · show (ls.len + 1) % 4294967296 = _
      rw [hmod]; rfl
    · intro i a hi
      cases i with
      | zero =>
        simp only [List.getElem?_cons_zero, Option.some.injEq] at hi
        subst hi
        refine ⟨val, by simp, ?_⟩
        show (ls.mem.set hd _ ++ [_])[ls.mem.length]? = _
        rw [List.getElem?_append_right (by simp)]
        simp
      | succ k =>
        have hk : (hd :: tl)[k]? = some a := by simpa using hi
        obtain ⟨v, hv, hm⟩ := h6 k a hk
        have hal : a < ls.mem.length := hlt a (List.getElem?_mem hk)
        refine ⟨v, by simpa using hv, ?_⟩
        show (ls.mem.set hd _ ++ [_])[a]? = _
        rw [List.getElem?_append_left (by simp; exact hal)]
        by_cases hah : a = hd
        · have hk0 : k = 0 := lsRepr_index h2 hk (by rw [hah]; simp)
          subst hk0
          subst hah
          rw [List.getElem?_set_self hhd]
          rw [hm0] at hm
          simp only [if_true, Option.some.injEq, lsNode.mk.injEq, true_and] at hm
          subst hm
          simp
        · have hk0 : k ≠ 0 := by
            intro hk0; subst hk0
            simp only [List.getElem?_cons_zero, Option.some.injEq] at hk
            exact hah hk.symm
          rw [List.getElem?_set_ne (fun hc => hah hc.symm), hm]
          obtain ⟨k1, rfl⟩ : ∃ k1, k = k1 + 1 := ⟨k - 1, by omega⟩
          simp

theorem ls_add_tail_repr {ls : lsMem V} {addrs : List Nat} {vals : List V}
    (h : lsRepr ls addrs vals) (hlen : addrs.length + 1 < 4294967296) (val : V) :
    ∃ ls1, lsMem.ls_add_tail ls val = some ls1
      ∧ lsRepr ls1 (addrs ++ [ls.mem.length]) (vals ++ [val]) := by
  have hlt := lsRepr_lt h
  obtain ⟨h1, h2, h3, h4, h5, h6⟩ := h
  have hfresh : ls.mem.length ∉ addrs := fun hm => by have := hlt _ hm; omega
  have hmod : (ls.len + 1) % 4294967296 = addrs.length + 1 := by rw [h5]; omega
  have hnd : (addrs ++ [ls.mem.length]).Nodup := by
    rw [List.nodup_append]
    refine ⟨h2, by simp, ?_⟩
    intro a ha hb
    simp only [List.mem_singleton] at hb
    subst hb
    exact hfresh ha
  rcases List.eq_nil_or_concat addrs with hn | ⟨pre, t, hn⟩ <;>
    try rw [List.concat_eq_append] at hn
  · subst hn
    have hl0 : ls.len = 0 := h5
    have hv : vals = [] := List.length_eq_zero.mp h1.symm
    subst hv
    have hadd : lsMem.ls_add_tail ls val
        = some ⟨ls.mem ++ [⟨none, none, val⟩], some ls.mem.length, some ls.mem.length,
            (ls.len + 1) % 4294967296⟩ := by
      unfold lsMem.ls_add_tail; simp only [hl0, if_true]
    refine ⟨_, hadd, ?_⟩
    refine ⟨rfl, by simp, rfl, rfl, by rw [hl0]; rfl, ?_⟩
    intro i a hi
    cases i with
    | zero =>
      simp only [List.nil_append, List.getElem?_cons_zero, Option.some.injEq] at hi
      subst hi
      exact ⟨val, by simp, by simp⟩
    | succ i => simp at hi
  · subst hn
    have hl0 : ls.len ≠ 0 := by rw [h5]; simp
    have htail : ls.tail = some t := by rw [h4]; simp
    have hgt : (pre ++ [t])[pre.length]? = some t := by simp
    obtain ⟨vt, hvt, hmt⟩ := h6 pre.length t hgt
    have hnone : (pre ++ [t])[pre.length + 1]? = none :=
      List.getElem?_eq_none (by simp)
    rw [hnone] at hmt
    have htl : t < ls.mem.length := hlt t (by simp)
    have hadd : lsMem.ls_add_tail ls val
        = some ⟨ls.mem.set t
              ⟨if pre.length = 0 then none else (pre ++ [t])[pre.length - 1]?,
                some ls.mem.length, vt⟩ ++ [⟨some t, none, val⟩],
            ls.head, some ls.mem.length, (ls.len + 1) % 4294967296⟩ := by
      unfold lsMem.ls_add_tail; simp only [hl0, if_false, htail, hmt]
    refine ⟨_, hadd, ?_⟩
    have hlenv : vals.length = pre.length + 1 := by rw [← h1]; simp
    refine ⟨by simp [hlenv], hnd, ?_, by simp, ?_, ?_⟩
    · show ls.head = _
      rw [h3]
      exact (List.head?_append_of_ne_nil (pre ++ [t]) (by simp)).symm
    · show (ls.len + 1) % 4294967296 = _
      rw [hmod]; simp
    · intro i a hi
      by_cases hil : i < pre.length + 1
      · have hk : (pre ++ [t])[i]? = some a := by
          rw [List.getElem?_append_left (by simp; omega)] at hi; exact hi
        obtain ⟨v, hv, hm⟩ := h6 i a hk
        have hal : a < ls.mem.length := hlt a (List.getElem?_mem hk)
        refine ⟨v, by rw [List.getElem?_append_left (by omega)]; exact hv, ?_⟩
        show (ls.mem.set t _ ++ [_])[a]? = _
        rw [List.getElem?_append_left (by simp; exact hal)]
        have hprev : (if i = 0 then (none : Option Nat)
              else (pre ++ [t] ++ [ls.mem.length])[i - 1]?)
            = (if i = 0 then none else (pre ++ [t])[i - 1]?) := by
          by_cases h0 : i = 0
          · simp [h0]
          · simp only [h0, if_false]
            rw [List.getElem?_append_left (by simp; omega)]
        rw [hprev]
        by_cases hat : a = t
        · have hi1 : i = pre.length := lsRepr_index h2 hk (by rw [hat]; exact hgt)
          subst hat
          subst hi1
          rw [List.getElem?_set_self htl]
          have hnx : (pre ++ [a] ++ [ls.mem.length])[pre.length + 1]? = some ls.mem.length := by
            rw [List.getElem?_append_right (by simp)]
            simp
          rw [hnx]
          rw [hmt] at hm
          simp only [Option.some.injEq, lsNode.mk.injEq, true_and] at hm
          rw [hm.2]
        · have hi1 : i < pre.length := by
            by_contra hc
            have hi2 : i = pre.length := by omega
            rw [hi2, hgt] at hk
            simp only [Option.some.injEq] at hk
            exact hat hk.symm
          have hnx : (pre ++ [t] ++ [ls.mem.length])[i + 1]? = (pre ++ [t])[i + 1]? :=
            List.getElem?_append_left
              (by simp only [List.length_append, List.length_singleton]; omega)
          rw [List.getElem?_set_ne (fun hc => hat hc.symm), hm, hnx]
      · have hie : i = pre.length + 1 := by
          by_contra hc
          rw [List.getElem?_eq_none (by simp; omega)] at hi
          cases hi
        subst hie
        rw [List.getElem?_append_right (by simp)] at hi
        simp only [List.length_append, List.length_singleton, Nat.sub_self,
          List.getElem?_cons_zero, Option.some.injEq] at hi
        subst hi
        refine ⟨val, by rw [List.getElem?_append_right (by omega)]; simp [hlenv], ?_⟩
        show (ls.mem.set t _ ++ [_])[ls.mem.length]? = _
        rw [List.getElem?_append_right (by simp)]
        have hp : (pre ++ [t] ++ [ls.mem.length])[pre.length + 1 - 1]? = some t := by
          rw [List.getElem?_append_left (by simp)]; simp
        have hn2 : (pre ++ [t] ++ [ls.mem.length])[pre.length + 1 + 1]? = none :=
          List.getElem?_eq_none (by simp)
        rw [hn2, if_neg (Nat.succ_ne_zero _), hp]
        simp


theorem lsRepr_create : lsRepr (lsMem.ls_create : lsMem V) [] [] := by
  refine ⟨rfl, List.nodup_nil, rfl, rfl, rfl, ?_⟩
  intro i a hi
  simp at hi

/-- Running calls on a list held in memory: every call succeeds, the values added at the
head end up in front in reverse order and the values added at the tail behind in order. -/
theorem ls_run_repr : ∀ (calls : List (lsCall V)) (ls : lsMem V) (addrs : List Nat)
    (vals : List V), lsRepr ls addrs vals → addrs.length + calls.length < 4294967296 →
    ∃ ls1 addrs1, ls_run ls calls = some ls1
      ∧ lsRepr ls1 addrs1
          ((calls.filterMap lsCall.headVal).reverse ++ vals ++ calls.filterMap lsCall.tailVal)
      ∧ addrs1.length = addrs.length + calls.length
  | [], ls, addrs, vals, h, _ => ⟨ls, addrs, rfl, by simpa using h, rfl⟩
  | lsCall.add_head v :: calls, ls, addrs, vals, h, hlen => by
    simp only [List.length_cons] at hlen
    obtain ⟨ls1, hadd, hrep⟩ := ls_add_head_repr h (by omega) v
    obtain ⟨ls2, addrs2, hrun, hrep2, hl2⟩ :=
      ls_run_repr calls ls1 _ _ hrep (by simp only [List.length_cons]; omega)
    refine ⟨ls2, addrs2, ?_, ?_, ?_⟩
    · rw [ls_run, hadd]; exact hrun
    · have he : ((lsCall.add_head v :: calls).filterMap lsCall.headVal).reverse ++ vals
          ++ (lsCall.add_head v :: calls).filterMap lsCall.tailVal
          = (calls.filterMap lsCall.headVal).reverse ++ (v :: vals)
            ++ calls.filterMap lsCall.tailVal := by
        simp [lsCall.headVal, lsCall.tailVal]
      rw [he]; exact hrep2
    · rw [hl2]; simp only [List.length_cons]; omega
  | lsCall.add_tail v :: calls, ls, addrs, vals, h, hlen => by
    simp only [List.length_cons] at hlen
    obtain ⟨ls1, hadd, hrep⟩ := ls_add_tail_repr h (by omega) v
    obtain ⟨ls2, addrs2, hrun, hrep2, hl2⟩ :=
      ls_run_repr calls ls1 _ _ hrep
        (by simp only [List.length_append, List.length_singleton]; omega)
    refine ⟨ls2, addrs2, ?_, ?_, ?_⟩
    · rw [ls_run, hadd]; exact hrun
    · have he : ((lsCall.add_tail v :: calls).filterMap lsCall.headVal).reverse ++ vals
          ++ (lsCall.add_tail v :: calls).filterMap lsCall.tailVal
          = (calls.filterMap lsCall.headVal).reverse ++ (vals ++ [v])
            ++ calls.filterMap lsCall.tailVal := by
        simp [lsCall.headVal, lsCall.tailVal]
      rw [he]; exact hrep2
    · rw [hl2]
      simp only [List.length_append, List.length_singleton, List.length_cons, List.length_nil]
      omega

/-- Iterating a list held in memory from its head yields its values in order, from its
tail in reverse order. -/
theorem ls_iterate_repr {ls : lsMem V} {addrs : List Nat} {vals : List V}
    (h : lsRepr ls addrs vals) (n : Nat) :
    lsMem.ls_next_all ls n (lsMem.ls_create_iterator ls LS_START_HEAD) = some (vals.take n)
    ∧ lsMem.ls_next_all ls n (lsMem.ls_create_iterator ls LS_START_TAIL)
        = some (vals.reverse.take n) := by
  constructor
  · have h0 := ls_next_all_head h n 0
    rw [List.drop_zero] at h0
    rw [← h0]
    unfold lsMem.ls_create_iterator
    rw [if_pos rfl, h.2.2.1, List.head?_eq_getElem?]
  · have hdir : ¬ (LS_START_TAIL = LS_START_HEAD) := by decide
    unfold lsMem.ls_create_iterator
    rw [if_neg hdir, h.2.2.2.1]
    by_cases he : addrs = []
    · have hv : vals = [] := by
        apply List.length_eq_zero.mp
        rw [← h.1, he]; rfl
      subst he; subst hv
      rw [List.getLast?_nil, ls_next_all_null]
      simp
    · have hpos : 0 < addrs.length := List.length_pos.mpr he
      have ht := ls_next_all_tail h n (addrs.length - 1) (by omega)
      rw [List.getLast?_eq_getElem?, ht]
      have hk : addrs.length - 1 + 1 = vals.length := by rw [← h.1]; omega
      rw [hk, List.take_length]

theorem lsOrderSpec_tails : ∀ (calls : List (lsCall V)),
    (∀ c ∈ calls, lsCall.headVal c = none) → lsOrderSpec calls = calls.map lsCall.val
  | [], _ => rfl
  | lsCall.add_head v :: calls, h => by
    have := h (lsCall.add_head v) (List.mem_cons_self _ _)
    simp [lsCall.headVal] at this
  | lsCall.add_tail v :: calls, h => by
    have ih := lsOrderSpec_tails calls (fun c hc => h c (List.mem_cons_of_mem _ hc))
    have hh : calls.filterMap lsCall.headVal = [] := by
      rw [List.filterMap_eq_nil_iff]
      exact fun c hc => h c (List.mem_cons_of_mem _ hc)
    unfold lsOrderSpec at ih ⊢
    rw [hh] at ih
    simp only [List.reverse_nil, List.nil_append] at ih
    simp [lsCall.headVal, lsCall.tailVal, lsCall.val, hh, ih]

theorem lsOrderSpec_length : ∀ (calls : List (lsCall V)),
    (lsOrderSpec calls).length = calls.length
  | [] => rfl
  | lsCall.add_head v :: calls => by
    have ih := lsOrderSpec_length calls
    unfold lsOrderSpec at ih ⊢
    simp only [List.length_append, List.length_reverse] at ih
    simp [lsCall.headVal, lsCall.tailVal]
    omega
  | lsCall.add_tail v :: calls => by
    have ih := lsOrderSpec_length calls
    unfold lsOrderSpec at ih ⊢
    simp only [List.length_append, List.length_reverse] at ih
    simp [lsCall.headVal, lsCall.tailVal]
    omega

/-- C22: for a list built from the empty list by any sequence of fewer than 2^32
`ls_add_head` and `ls_add_tail` calls, every call succeeds; iterating from the head yields
the values added at the head in reverse order of addition followed by the values added at
the tail in order of addition (with `ls_add_tail` only: the values in insertion order);
iterating from the tail yields the reverse of that sequence; and `ls_length` is the number
of values. -/
theorem ls_order_of_calls (calls : List (lsCall V)) (h : calls.length < 4294967296) :
    ∃ ls, ls_run lsMem.ls_create calls = some ls
      ∧ lsMem.ls_length ls = calls.length
      ∧ (lsOrderSpec calls).length = calls.length
      ∧ (∀ n, lsMem.ls_next_all ls n (lsMem.ls_create_iterator ls LS_START_HEAD)
            = some ((lsOrderSpec calls).take n))
      ∧ (∀ n, lsMem.ls_next_all ls n (lsMem.ls_create_iterator ls LS_START_TAIL)
            = some ((lsOrderSpec calls).reverse.take n))
      ∧ ((∀ c ∈ calls, lsCall.headVal c = none) → lsOrderSpec calls = calls.map lsCall.val) := by
  obtain ⟨ls, addrs, hrun, hrep, hl⟩ :=
    ls_run_repr calls lsMem.ls_create [] [] lsRepr_create (by simpa using h)
  rw [List.append_nil] at hrep
  refine ⟨ls, hrun, ?_, lsOrderSpec_length calls,
    fun n => (ls_iterate_repr hrep n).1, fun n => (ls_iterate_repr hrep n).2,
    lsOrderSpec_tails calls⟩
  show ls.len = _
  rw [hrep.2.2.2.2.1, hl]
  simp

theorem ls_order_of_calls_witness :
    ∃ ls, ls_run (lsMem.ls_create : lsMem Nat)
        [lsCall.add_tail 1, lsCall.add_head 2, lsCall.add_tail 3, lsCall.add_head 4] = some ls
      ∧ lsMem.ls_length ls = 4
      ∧ ([4, 2, 1, 3] : List Nat).length = 4
      ∧ (∀ n, lsMem.ls_next_all ls n (lsMem.ls_create_iterator ls LS_START_HEAD)
            = some (([4, 2, 1, 3] : List Nat).take n))
      ∧ (∀ n, lsMem.ls_next_all ls n (lsMem.ls_create_iterator ls LS_START_TAIL)
            = some (([3, 1, 2, 4] : List Nat).take n))
      ∧ ((∀ c ∈ [lsCall.add_tail 1, lsCall.add_head 2, lsCall.add_tail 3, lsCall.add_head 4],
            lsCall.headVal c = none)
          → ([4, 2, 1, 3] : List Nat) = [1, 2, 3, 4]) :=
  ls_order_of_calls
    [lsCall.add_tail 1, lsCall.add_head 2, lsCall.add_tail 3, lsCall.add_head 4] (by decide)

end ls_order

/-! ## The serializer, variant by variant -/

/-- A `printf` call appends a text that does not depend on the buffer, or fails on every
buffer. -/
theorem sprintf_indep (fmt : List Nat) (args : List fmtArg) :
    (∀ p, _js_buffer_sprintf p fmt args = none)
    ∨ ∃ t, ∀ p, ∃ q, _js_buffer_sprintf p fmt args = some q ∧ jsBufferAppended p t q := by
  unfold _js_buffer_sprintf
  cases h : vasprintf fmt args with
  | none => exact Or.inl (fun p => rfl)
  | some t => exact Or.inr ⟨t, fun p => ⟨_, rfl, _js_buffer_cat_buf p t⟩⟩

theorem string_print_indep (s : List Nat) :
    (∀ p, _js_object_string_print s p = none)
    ∨ ∃ t, ∀ p, ∃ q, _js_object_string_print s p = some (_js_object_string_escape s, q)
        ∧ jsBufferAppended p t q := by
  rcases sprintf_indep (_js_object_string_escape s) [] with hn | ⟨t, hs⟩
  · left
    intro p
    obtain ⟨q1, e1, _⟩ := sprintf_plain p [34] (by decide)
    rw [_js_object_string_print, e1]
    simp only [hn]
  · right
    refine ⟨34 :: t ++ [34], fun p => ?_⟩
    obtain ⟨q1, e1, a1⟩ := sprintf_plain p [34] (by decide)
    obtain ⟨q2, e2, a2⟩ := hs q1
    obtain ⟨q3, e3, a3⟩ := sprintf_plain q2 [34] (by decide)
    refine ⟨q3, ?_, ?_⟩
    · rw [_js_object_string_print, e1]
      simp only [e2, e3]
    · simpa using (a1.trans a2).trans a3

theorem number_print_indep (o : jsObject) :
    (∀ p, _js_object_number_print o p = none)
    ∨ ∃ t, ∀ p, ∃ q, _js_object_number_print o p = some q ∧ jsBufferAppended p t q := by
  cases o with
  | number_l64 l64 => exact sprintf_indep _ _
  | number_d64 d64 =>
    unfold _js_object_number_print
    simp only []
    split_ifs
    · exact sprintf_indep _ _
    · exact sprintf_indep _ _
  | null => exact Or.inl (fun p => rfl)
  | boolean _ => exact Or.inl (fun p => rfl)
  | string _ => exact Or.inl (fun p => rfl)
  | array _ => exact Or.inl (fun p => rfl)
  | object _ => exact Or.inl (fun p => rfl)

mutual

/-- Printing a value appends a text that does not depend on the buffer it is appended
to, or fails on every buffer. -/
theorem print_indep : ∀ (o : jsObject),
    (∀ p, o.print p = none)
    ∨ ∃ o1 t, ∀ p, ∃ q, o.print p = some (o1, q) ∧ jsBufferAppended p t q
  | jsObject.null => by
    right
    refine ⟨jsObject.null, [110, 117, 108, 108], fun p => ?_⟩
    obtain ⟨q, h1, h2⟩ := sprintf_plain p [110, 117, 108, 108] (by decide)
    exact ⟨q, by rw [jsObject.print, _js_object_null_print, h1]; rfl, h2⟩
  | jsObject.boolean l64 => by
    right
    by_cases h : l64 ≠ 0
    · refine ⟨jsObject.boolean l64, [116, 114, 117, 101], fun p => ?_⟩
      obtain ⟨q, h1, h2⟩ := sprintf_plain p [116, 114, 117, 101] (by decide)
      exact ⟨q, by rw [jsObject.print, _js_object_boolean_print, if_pos h, h1]; rfl, h2⟩
    · refine ⟨jsObject.boolean l64, [102, 97, 108, 115, 101], fun p => ?_⟩
      obtain ⟨q, h1, h2⟩ := sprintf_plain p [102, 97, 108, 115, 101] (by decide)
      exact ⟨q, by rw [jsObject.print, _js_object_boolean_print, if_neg h, h1]; rfl, h2⟩
  | jsObject.number_l64 l64 => by
    rcases number_print_indep (jsObject.number_l64 l64) with hn | ⟨t, hs⟩
    · left
      intro p
      rw [jsObject.print, hn]
      rfl
    · right
      refine ⟨jsObject.number_l64 l64, t, fun p => ?_⟩
      obtain ⟨q, e, a⟩ := hs p
      exact ⟨q, by rw [jsObject.print, e]; rfl, a⟩
  | jsObject.number_d64 d64 => by
    rcases number_print_indep (jsObject.number_d64 d64) with hn | ⟨t, hs⟩
    · left
      intro p
      rw [jsObject.print, hn]
      rfl
    · right
      refine ⟨jsObject.number_d64 d64, t, fun p => ?_⟩
      obtain ⟨q, e, a⟩ := hs p
      exact ⟨q, by rw [jsObject.print, e]; rfl, a⟩
  | jsObject.string s => by
    rcases string_print_indep s with hn | ⟨t, hs⟩
    · left
      intro p
      rw [jsObject.print, hn]
      rfl
    · right
      refine ⟨jsObject.string (_js_object_string_escape s), t, fun p => ?_⟩
      obtain ⟨q, e, a⟩ := hs p
      exact ⟨q, by rw [jsObject.print, e]; rfl, a⟩
  | jsObject.array ⟨nodes, len⟩ => by
    rcases print_nodes_indep nodes 0 with hn | ⟨nodes1, t, hs⟩
    · left
      intro p
      obtain ⟨q1, e1, _⟩ := sprintf_plain p [91] (by decide)
      rw [jsObject.print, e1]
      simp only [hn]
    · right
      refine ⟨jsObject.array ⟨nodes1, len⟩, 91 :: t ++ [93], fun p => ?_⟩
      obtain ⟨q1, e1, a1⟩ := sprintf_plain p [91] (by decide)
      obtain ⟨q2, e2, a2⟩ := hs q1
      obtain ⟨q3, e3, a3⟩ := sprintf_plain q2 [93] (by decide)
      refine ⟨q3, ?_, ?_⟩
      · rw [jsObject.print, e1]
        simp only [e2, e3]
        rfl
      · simpa using (a1.trans a2).trans a3
  | jsObject.object ⟨table, size, mask, used⟩ => by
    rcases print_table_indep table 0 with hn | ⟨table1, n1, t, hs⟩
    · left
      intro p
      obtain ⟨q1, e1, _⟩ := sprintf_plain p [123] (by decide)
      rw [jsObject.print, e1]
      simp only [hn]
    · right
      refine ⟨jsObject.object ⟨table1, size, mask, used⟩, 123 :: t ++ [125], fun p => ?_⟩
      obtain ⟨q1, e1, a1⟩ := sprintf_plain p [123] (by decide)
      obtain ⟨q2, e2, a2⟩ := hs q1
      obtain ⟨q3, e3, a3⟩ := sprintf_plain q2 [125] (by decide)
      refine ⟨q3, ?_, ?_⟩
      · rw [jsObject.print, e1]
        simp only [e2, e3]
        rfl
      · simpa using (a1.trans a2).trans a3

theorem print_nodes_indep : ∀ (nodes : List jsObject) (n : Nat),
    (∀ p, _js_object_array_print_loop nodes n p = none)
    ∨ ∃ nodes1 t, ∀ p, ∃ q, _js_object_array_print_loop nodes n p = some (nodes1, q)
        ∧ jsBufferAppended p t q
  | [], n => Or.inr ⟨[], [], fun p =>
      ⟨p, by rw [_js_object_array_print_loop], jsBufferAppended.nil p⟩⟩
  | obj :: rest, n => by
    rcases print_indep obj with ho | ⟨obj1, t1, ho⟩
    · left
      intro p
      obtain ⟨q1, e1, _⟩ := print_comma_spec n p
      rw [_js_object_array_print_loop, e1]
      simp only [ho]
    · rcases print_nodes_indep rest (n + 1) with hr | ⟨rest1, t2, hr⟩
      · left
        intro p
        obtain ⟨q1, e1, _⟩ := print_comma_spec n p
        obtain ⟨q2, e2, _⟩ := ho q1
        rw [_js_object_array_print_loop, e1]
        simp only [e2, hr]
      · right
        refine ⟨obj1 :: rest1, (if n = 0 then [] else [44]) ++ t1 ++ t2, fun p => ?_⟩
        obtain ⟨q1, e1, a1⟩ := print_comma_spec n p
        obtain ⟨q2, e2, a2⟩ := ho q1
        obtain ⟨q3, e3, a3⟩ := hr q2
        refine ⟨q3, ?_, (a1.trans a2).trans a3⟩
        rw [_js_object_array_print_loop, e1]
        simp only [e2, e3]

theorem print_table_indep : ∀ (table : List (List jsEntry)) (n : Nat),
    (∀ p, _js_object_object_print_table table n p = none)
    ∨ ∃ table1 n1 t, ∀ p, ∃ q,
        _js_object_object_print_table table n p = some (table1, n1, q)
        ∧ jsBufferAppended p t q
  | [], n => Or.inr ⟨[], n, [], fun p =>
      ⟨p, by rw [_js_object_object_print_table], jsBufferAppended.nil p⟩⟩
  | chain :: rest, n => by
    rcases print_chain_indep chain n with hc | ⟨chain1, n1, t1, hc⟩
    · left
      intro p
      rw [_js_object_object_print_table, hc]
    · rcases print_table_indep rest n1 with hr | ⟨rest1, n2, t2, hr⟩
      · left
        intro p
        obtain ⟨q1, e1, _⟩ := hc p
        rw [_js_object_object_print_table, e1]
        simp only [hr]
      · right
        refine ⟨chain1 :: rest1, n2, t1 ++ t2, fun p => ?_⟩
        obtain ⟨q1, e1, a1⟩ := hc p
        obtain ⟨q2, e2, a2⟩ := hr q1
        refine ⟨q2, ?_, a1.trans a2⟩
        rw [_js_object_object_print_table, e1]
        simp only [e2]

theorem print_chain_indep : ∀ (chain : List jsEntry) (n : Nat),
    (∀ p, _js_object_object_print_chain chain n p = none)
    ∨ ∃ chain1 n1 t, ∀ p, ∃ q,
        _js_object_object_print_chain chain n p = some (chain1, n1, q)
        ∧ jsBufferAppended p t q
  | [], n => Or.inr ⟨[], n, [], fun p =>
      ⟨p, by rw [_js_object_object_print_chain], jsBufferAppended.nil p⟩⟩
  | ⟨none, _⟩ :: _, n => Or.inl (fun p => by rw [_js_object_object_print_chain])
  | ⟨some key, none⟩ :: next, n => by
    rcases sprintf_indep (_js_object_string_escape key) [] with hk | ⟨tk, hk⟩
    · left
      intro p
      obtain ⟨q1, e1, _⟩ := print_comma_spec n p
      obtain ⟨q2, e2, _⟩ := sprintf_plain q1 [34] (by decide)
      rw [_js_object_object_print_chain, e1]
      simp only [e2, hk]
    · rcases print_chain_indep next (n + 1) with hr | ⟨next1, n1, t2, hr⟩
      · left
        intro p
        obtain ⟨q1, e1, _⟩ := print_comma_spec n p
        obtain ⟨q2, e2, _⟩ := sprintf_plain q1 [34] (by decide)
        obtain ⟨q3, e3, _⟩ := hk q2
        obtain ⟨q4, e4, _⟩ := sprintf_plain q3 [34, 58] (by decide)
        rw [_js_object_object_print_chain, e1]
        simp only [e2, e3, e4, hr]
      · right
        refine ⟨⟨some (_js_object_string_escape key), none⟩ :: next1, n1,
          (if n = 0 then [] else [44]) ++ [34] ++ tk ++ [34, 58] ++ t2, fun p => ?_⟩
        obtain ⟨q1, e1, a1⟩ := print_comma_spec n p
        obtain ⟨q2, e2, a2⟩ := sprintf_plain q1 [34] (by decide)
        obtain ⟨q3, e3, a3⟩ := hk q2
        obtain ⟨q4, e4, a4⟩ := sprintf_plain q3 [34, 58] (by decide)
        obtain ⟨q5, e5, a5⟩ := hr q4
        refine ⟨q5, ?_, (((a1.trans a2).trans a3).trans a4).trans a5⟩
        rw [_js_object_object_print_chain, e1]
        simp only [e2, e3, e4, e5]
  | ⟨some key, some obj⟩ :: next, n => by
    rcases sprintf_indep (_js_object_string_escape key) [] with hk | ⟨tk, hk⟩
    · left
      intro p
      obtain ⟨q1, e1, _⟩ := print_comma_spec n p
      obtain ⟨q2, e2, _⟩ := sprintf_plain q1 [34] (by decide)
      rw [_js_object_object_print_chain, e1]
      simp only [e2, hk]
    · rcases print_indep obj with ho | ⟨obj1, tv, ho⟩
      · left
        intro p
        obtain ⟨q1, e1, _⟩ := print_comma_spec n p
        obtain ⟨q2, e2, _⟩ := sprintf_plain q1 [34] (by decide)
        obtain ⟨q3, e3, _⟩ := hk q2
        obtain ⟨q4, e4, _⟩ := sprintf_plain q3 [34, 58] (by decide)
        rw [_js_object_object_print_chain, e1]
        simp only [e2, e3, e4, ho]
      · rcases print_chain_indep next (n + 1) with hr | ⟨next1, n1, t2, hr⟩
        · left
          intro p
          obtain ⟨q1, e1, _⟩ := print_comma_spec n p
          obtain ⟨q2, e2, _⟩ := sprintf_plain q1 [34] (by decide)
          obtain ⟨q3, e3, _⟩ := hk q2
          obtain ⟨q4, e4, _⟩ := sprintf_plain q3 [34, 58] (by decide)
          obtain ⟨q5, e5, _⟩ := ho q4
          rw [_js_object_object_print_chain, e1]
          simp only [e2, e3, e4, e5, hr]
        · right
          refine ⟨⟨some (_js_object_string_escape key), some obj1⟩ :: next1, n1,
            (if n = 0 then [] else [44]) ++ [34] ++ tk ++ [34, 58] ++ tv ++ t2, fun p => ?_⟩
          obtain ⟨q1, e1, a1⟩ := print_comma_spec n p
          obtain ⟨q2, e2, a2⟩ := sprintf_plain q1 [34] (by decide)
          obtain ⟨q3, e3, a3⟩ := hk q2
          obtain ⟨q4, e4, a4⟩ := sprintf_plain q3 [34, 58] (by decide)
          obtain ⟨q5, e5, a5⟩ := ho q4
          obtain ⟨q6, e6, a6⟩ := hr q5
          refine ⟨q6, ?_, ((((a1.trans a2).trans a3).trans a4).trans a5).trans a6⟩
          rw [_js_object_object_print_chain, e1]
          simp only [e2, e3, e4, e5, e6]

end

/-- A value whose print is `t` appends `t` to every buffer. -/
theorem print_of_text {o : jsObject} {t : List Nat} (h : js_print_text o = some t) :
    ∃ o1, ∀ p, ∃ q, o.print p = some (o1, q) ∧ jsBufferAppended p t q := by
  rcases print_indep o with hn | ⟨o1, t1, hs⟩
  · rw [js_print_text, js_print, _js_print, hn] at h
    cases h
  · obtain ⟨q, e, a⟩ := hs (_js_buffer_new JS_BUFFER_SIZE_INIT)
    have ht : t1 = t := by
      rw [js_print_text, js_print, _js_print, e] at h
      simp only [Option.map_some', Option.some.injEq] at h
      rw [← h, a.1]
      rfl
    subst ht
    exact ⟨o1, hs⟩

/-- A value that appends `t` to every buffer has the print `t`. -/
theorem text_of_print {o : jsObject} (o1 : jsObject) {t : List Nat}
    (h : ∀ p, ∃ q, o.print p = some (o1, q) ∧ jsBufferAppended p t q) :
    js_print_text o = some t := by
  obtain ⟨q, e, a⟩ := h (_js_buffer_new JS_BUFFER_SIZE_INIT)
  rw [js_print_text, js_print, _js_print, e]
  simp only [Option.map_some', Option.some.injEq]
  rw [a.1]
  rfl

theorem jsSepText_nil (n : Nat) : jsSepText n [] = [] := by
  unfold jsSepText
  simp

theorem jsSepText_cons (n : Nat) (t : List Nat) (ts : List (List Nat)) :
    jsSepText n (t :: ts) = (if n = 0 then [] else [44]) ++ t ++ jsSepText (n + 1) ts := by
  unfold jsSepText
  by_cases hn : n = 0
  · simp [hn]
  · simp [hn]

theorem jsSepText_append (n : Nat) : ∀ (ts us : List (List Nat)),
    jsSepText n (ts ++ us) = jsSepText n ts ++ jsSepText (n + ts.length) us
  | [], us => by rw [jsSepText_nil]; rfl
  | t :: ts, us => by
    rw [List.cons_append, jsSepText_cons, jsSepText_cons, jsSepText_append (n + 1) ts us]
    simp only [List.length_cons, List.append_assoc]
    rw [show n + 1 + ts.length = n + (ts.length + 1) by omega]

theorem jsSepText_intercalate : ∀ (ts : List (List Nat)),
    jsSepText 0 ts = List.intercalate [44] ts
  | [] => by rw [jsSepText_nil]; rfl
  | [t] => by
    rw [jsSepText_cons, jsSepText_nil]
    simp [List.intercalate]
  | t :: u :: ts => by
    have ih := jsSepText_intercalate (u :: ts)
    rw [jsSepText_cons] at ih
    rw [jsSepText_cons, jsSepText_cons]
    simp only [if_true, List.nil_append, Nat.add_one_ne_zero, if_false] at ih ⊢
    have h1 : List.intercalate [44] (t :: u :: ts)
        = t ++ 44 :: List.intercalate [44] (u :: ts) := by
      simp [List.intercalate]
    rw [h1, ← ih]
    have h2 : jsSepText (0 + 1 + 1) ts = jsSepText (0 + 1) ts := by
      unfold jsSepText
      simp
    rw [h2]
    simp

/-- The array loop on elements with the prints `ts`. -/
theorem print_nodes_ref : ∀ (nodes : List jsObject) (ts : List (List Nat)),
    List.Forall₂ (fun o t => js_print_text o = some t) nodes ts →
    ∀ n, ∃ nodes1, ∀ p, ∃ q, _js_object_array_print_loop nodes n p = some (nodes1, q)
      ∧ jsBufferAppended p (jsSepText n ts) q
  | [], _, List.Forall₂.nil, n => ⟨[], fun p =>
      ⟨p, by rw [_js_object_array_print_loop], by rw [jsSepText_nil]; exact jsBufferAppended.nil p⟩⟩
  | obj :: rest, _, @List.Forall₂.cons _ _ _ _ t _ ts h hr, n => by
    obtain ⟨obj1, ho⟩ := print_of_text h
    obtain ⟨rest1, hrest⟩ := print_nodes_ref rest ts hr (n + 1)
    refine ⟨obj1 :: rest1, fun p => ?_⟩
    obtain ⟨q1, e1, a1⟩ := print_comma_spec n p
    obtain ⟨q2, e2, a2⟩ := ho q1
    obtain ⟨q3, e3, a3⟩ := hrest q2
    refine ⟨q3, ?_, ?_⟩
    · rw [_js_object_array_print_loop, e1]
      simp only [e2, e3]
    · rw [jsSepText_cons]
      exact (a1.trans a2).trans a3

/-- The member loop along a chain whose entries print as the members `ms`. -/
theorem print_chain_ref : ∀ (chain : List jsEntry) (ms : List (List Nat)),
    List.Forall₂ jsEntryPrints chain ms →
    ∀ n, ∃ chain1, ∀ p, ∃ q,
      _js_object_object_print_chain chain n p = some (chain1, n + ms.length, q)
      ∧ jsBufferAppended p (jsSepText n ms) q
  | [], _, List.Forall₂.nil, n => ⟨[], fun p =>
      ⟨p, by rw [_js_object_object_print_chain]; rfl,
        by rw [jsSepText_nil]; exact jsBufferAppended.nil p⟩⟩
  | e :: next, _, @List.Forall₂.cons _ _ _ _ m _ ms h hr, n => by
    obtain ⟨key, obj, t, he, hkey, ht, hm⟩ := h
    subst he
    subst hm
    obtain ⟨obj1, ho⟩ := print_of_text ht
    obtain ⟨next1, hnext⟩ := print_chain_ref next ms hr (n + 1)
    refine ⟨⟨some (_js_object_string_escape key), some obj1⟩ :: next1, fun p => ?_⟩
    obtain ⟨q1, e1, a1⟩ := print_comma_spec n p
    obtain ⟨q2, e2, q3, e3, a3⟩ := print_quoted key hkey q1
    obtain ⟨q4, e4, a4⟩ := sprintf_plain q3 [34, 58] (by decide)
    obtain ⟨q5, e5, a5⟩ := ho q4
    obtain ⟨q6, e6, a6⟩ := hnext q5
    refine ⟨q6, ?_, ?_⟩
    · rw [_js_object_object_print_chain, e1]
      simp only [e2, e3, e4, e5, e6, List.length_cons]
      rw [show n + 1 + ms.length = n + (ms.length + 1) by omega]
    · have := (((a1.trans a3).trans a4).trans a5).trans a6
      rw [jsSepText_cons, jsMemberRef,
        ← escape_out_eq_spec key (fun c hc => (hkey c hc).2)]
      simpa using this

theorem forall₂_append_split {α β : Type} {R : α → β → Prop} : ∀ (l1 l2 : List α)
    (ms : List β), List.Forall₂ R (l1 ++ l2) ms →
    ∃ ms1 ms2, List.Forall₂ R l1 ms1 ∧ List.Forall₂ R l2 ms2 ∧ ms = ms1 ++ ms2
  | [], l2, ms, h => ⟨[], ms, List.Forall₂.nil, h, rfl⟩
  | a :: l1, l2, _, @List.Forall₂.cons _ _ _ _ m _ ms h hr => by
    obtain ⟨ms1, ms2, h1, h2, hms⟩ := forall₂_append_split l1 l2 ms hr
    exact ⟨m :: ms1, ms2, List.Forall₂.cons h h1, h2, by rw [hms]; rfl⟩

/-- The member loop over the buckets of a table whose entries print as the members
`ms`. -/
theorem print_table_ref : ∀ (table : List (List jsEntry)) (ms : List (List Nat)),
    List.Forall₂ jsEntryPrints table.flatten ms →
    ∀ n, ∃ table1, ∀ p, ∃ q,
      _js_object_object_print_table table n p = some (table1, n + ms.length, q)
      ∧ jsBufferAppended p (jsSepText n ms) q
  | [], ms, h, n => by
    have hms : ms = [] := by
      rw [List.flatten_nil] at h
      cases h
      rfl
    subst hms
    exact ⟨[], fun p => ⟨p, by rw [_js_object_object_print_table]; rfl,
      by rw [jsSepText_nil]; exact jsBufferAppended.nil p⟩⟩
  | chain :: rest, ms, h, n => by
    rw [List.flatten_cons] at h
    obtain ⟨ms1, ms2, h1, h2, hms⟩ := forall₂_append_split _ _ _ h
    subst hms
    obtain ⟨chain1, hc⟩ := print_chain_ref chain ms1 h1 n
    obtain ⟨rest1, hrest⟩ := print_table_ref rest ms2 h2 (n + ms1.length)
    refine ⟨chain1 :: rest1, fun p => ?_⟩
    obtain ⟨q1, e1, a1⟩ := hc p
    obtain ⟨q2, e2, a2⟩ := hrest q1
    refine ⟨q2, ?_, ?_⟩
    · rw [_js_object_object_print_table, e1]
      simp only [e2, List.length_append]
      rw [Nat.add_assoc]
    · rw [jsSepText_append]
      exact a1.trans a2

/-- An Array whose elements have the prints `ts` prints the reference text. -/
theorem js_array_print_ref (nodes : List jsObject) (len : Nat) (ts : List (List Nat))
    (h : List.Forall₂ (fun o t => js_print_text o = some t) nodes ts) :
    js_print_text (jsObject.array ⟨nodes, len⟩) = some (jsArrayRef ts) := by
  obtain ⟨nodes1, hn⟩ := print_nodes_ref nodes ts h 0
  apply text_of_print (jsObject.array ⟨nodes1, len⟩)
  intro p
  obtain ⟨q1, e1, a1⟩ := sprintf_plain p [91] (by decide)
  obtain ⟨q2, e2, a2⟩ := hn q1
  obtain ⟨q3, e3, a3⟩ := sprintf_plain q2 [93] (by decide)
  refine ⟨q3, ?_, ?_⟩
  · rw [jsObject.print, e1]
    simp only [e2, e3]
    rfl
  · have := (a1.trans a2).trans a3
    rw [jsSepText_intercalate] at this
    unfold jsArrayRef
    simpa using this

/-- An Object whose entries print as the members `ms` prints the reference text. -/
theorem js_object_print_ref (ht : jsTable) (ms : List (List Nat))
    (h : List.Forall₂ jsEntryPrints (ht_toList ht) ms) :
    js_print_text (jsObject.object ht) = some (jsObjectRef ms) := by
  obtain ⟨table, size, mask, used⟩ := ht
  obtain ⟨table1, hn⟩ := print_table_ref table ms h 0
  apply text_of_print (jsObject.object ⟨table1, size, mask, used⟩)
  intro p
  obtain ⟨q1, e1, a1⟩ := sprintf_plain p [123] (by decide)
  obtain ⟨q2, e2, a2⟩ := hn q1
  obtain ⟨q3, e3, a3⟩ := sprintf_plain q2 [125] (by decide)
  refine ⟨q3, ?_, ?_⟩
  · rw [jsObject.print, e1]
    simp only [e2, e3]
    rfl
  · have := (a1.trans a2).trans a3
    rw [jsSepText_intercalate] at this
    unfold jsObjectRef
    simpa using this

/-- C23 (the code on names without `%`, and at the failing input): Null prints `null`; a
Boolean prints `true` when its payload is not zero and `false` otherwise; an Array whose
elements have the prints `ts` prints `[`, the texts `ts` joined by commas, and `]` (`[]`
when empty); an Object whose entries, in the iteration order of the Map, hold names
without `%` and print as the members `ms` (quoted escaped name, colon, print of the
value) prints `\x7b`, the members joined by commas, and `\x7d` (`\x7b\x7d` when empty).  A
`%` in a name is not copied: the escaped name is the `printf` format, so the Object with
the one member `5%%` : 1 prints as `\x7b"5%":1\x7d` where the reference text is
`\x7b"5%%":1\x7d`. -/
theorem js_print_per_variant (ht : jsTable) (ms : List (List Nat))
    (h : List.Forall₂ jsEntryPrints (ht_toList ht) ms) :
    js_print_text jsObject.null = some (bytes "null")
    ∧ (∀ l64, js_print_text (jsObject.boolean l64)
        = some (if l64 ≠ 0 then bytes "true" else bytes "false"))
    ∧ (∀ nodes len ts, List.Forall₂ (fun o t => js_print_text o = some t) nodes ts →
        js_print_text (jsObject.array ⟨nodes, len⟩) = some (jsArrayRef ts))
    ∧ js_print_text (jsObject.array ls_create) = some (bytes "[]")
    ∧ js_print_text (jsObject.object ht) = some (jsObjectRef ms)
    ∧ js_print_text (jsObject.object ht_create) = some (bytes "\x7b\x7d")
    ∧ jsObjectRef [jsMemberRef (bytes "5%%") (bytes "1")] = bytes "\x7b\"5%%\":1\x7d"
    ∧ js_print_text (jsObject.object
          (ht_add htTypeJson ht_create (some (bytes "5%%")) (some (jsObject.number_l64 1))).2)
        = some (bytes "\x7b\"5%\":1\x7d") := by
  refine ⟨rfl, ?_, js_array_print_ref, rfl, js_object_print_ref ht ms h, rfl, by decide,
    by decide⟩
  intro l64
  by_cases hl : l64 ≠ 0
  · apply text_of_print (jsObject.boolean l64)
    intro p
    obtain ⟨q, h1, h2⟩ := sprintf_plain p [116, 114, 117, 101] (by decide)
    refine ⟨q, by rw [jsObject.print, _js_object_boolean_print, if_pos hl, h1]; rfl, ?_⟩
    rw [if_pos hl]
    exact h2
  · apply text_of_print (jsObject.boolean l64)
    intro p
    obtain ⟨q, h1, h2⟩ := sprintf_plain p [102, 97, 108, 115, 101] (by decide)
    refine ⟨q, by rw [jsObject.print, _js_object_boolean_print, if_neg hl, h1]; rfl, ?_⟩
    rw [if_neg hl]
    exact h2

/-- C23 (witness): the Object parsed from `\x7b"a":0,"c":3\x7d` prints `c` before `a`, the
order of its buckets. -/
theorem js_print_per_variant_witness :
    js_print_text (jsObject.object js_example_dst)
      = some (jsObjectRef [jsMemberRef [99] (bytes "3"), jsMemberRef [97] (bytes "0")]) :=
  (js_print_per_variant js_example_dst
    [jsMemberRef [99] (bytes "3"), jsMemberRef [97] (bytes "0")]
    (List.Forall₂.cons
      ⟨[99], jsObject.number_l64 3, bytes "3", rfl,
        (by intro c hc; simp only [List.mem_singleton] at hc; subst hc; decide), rfl, rfl⟩
      (List.Forall₂.cons
        ⟨[97], jsObject.number_l64 0, bytes "0", rfl,
          (by intro c hc; simp only [List.mem_singleton] at hc; subst hc; decide), rfl, rfl⟩
        List.Forall₂.nil))).2.2.2.2.1

/-! ## The escape routine on control bytes, and its length -/

theorem jsEscapeByte_length (c : Nat) :
    (jsEscapeByte c).length = if jsEscapeDoubled c = true then 2 else 1 := by
  unfold jsEscapeByte jsEscapeDoubled
  by_cases h34 : c = 34
  · simp [h34]
  by_cases h92 : c = 92
  · simp [h92]
  by_cases h8 : c = 8
  · simp [h8]
  by_cases h12 : c = 12
  · simp [h12]
  by_cases h10 : c = 10
  · simp [h10]
  by_cases h13 : c = 13
  · simp [h13]
  by_cases h9 : c = 9
  · simp [h9]
  by_cases h32 : c < 32
  · simp [h34, h92, h8, h12, h10, h13, h9, h32]
  · simp [h34, h92, h8, h12, h10, h13, h9, h32]

theorem escape_out_bytes : ∀ (s : List Nat),
    _js_object_string_escape_out s = ((cstr s).map jsEscapeByte).flatten
  | [] => rfl
  | c :: s => by
    have ih := escape_out_bytes s
    rw [_js_object_string_escape_out, cstr]
    by_cases h0 : c = 0
    · rw [if_pos h0, if_pos h0]
      rfl
    rw [if_neg h0, if_neg h0, List.map_cons, List.flatten_cons, ← ih]
    unfold jsEscapeByte
    by_cases h34 : c = 34
    · subst h34; simp
    by_cases h92 : c = 92
    · subst h92; simp
    by_cases h31 : 31 < c
    · rw [if_pos ⟨h31, h34, h92⟩]
      have h8 : c ≠ 8 := by omega
      have h12 : c ≠ 12 := by omega
      have h10 : c ≠ 10 := by omega
      have h13 : c ≠ 13 := by omega
      have h9 : c ≠ 9 := by omega
      have h32 : ¬ c < 32 := by omega
      simp [h34, h92, h8, h12, h10, h13, h9, h32]
    · have h32 : c < 32 := by omega
      have hn : ¬ (31 < c ∧ c ≠ 34 ∧ c ≠ 92) := fun h => h31 h.1
      rw [if_neg hn, if_neg h34, if_neg h92]
      simp only [h34, h92, if_false, h32, if_true]
      by_cases h8 : c = 8
      · subst h8; simp
      by_cases h12 : c = 12
      · subst h12; simp
      by_cases h10 : c = 10
      · subst h10; simp
      by_cases h13 : c = 13
      · subst h13; simp
      by_cases h9 : c = 9
      · subst h9; simp
      simp [h8, h12, h10, h13, h9]

theorem escape_len_count : ∀ (s : List Nat),
    _js_object_string_escape_len s
      = (cstr s).length + (cstr s).countP jsEscapeDoubled
  | [] => rfl
  | c :: s => by
    have ih := escape_len_count s
    rw [_js_object_string_escape_len, cstr]
    by_cases h0 : c = 0
    · rw [if_pos h0, if_pos h0]
      rfl
    rw [if_neg h0, if_neg h0, ih, List.length_cons, List.countP_cons]
    by_cases hd : c = 34 ∨ c = 92 ∨ c = 8 ∨ c = 12 ∨ c = 10 ∨ c = 13 ∨ c = 9
    · have hb : jsEscapeDoubled c = true := by
        unfold jsEscapeDoubled
        simp only [Bool.or_eq_true, decide_eq_true_eq]
        omega
      rw [if_pos hd, if_pos hb]
      omega
    · have hb : ¬ jsEscapeDoubled c = true := by
        unfold jsEscapeDoubled
        simp only [Bool.or_eq_true, decide_eq_true_eq]
        omega
      rw [if_neg hd, if_neg hb]
      omega

theorem escape_len_out_any : ∀ (s : List Nat),
    _js_object_string_escape_len s = (_js_object_string_escape_out s).length := by
  intro s
  rw [escape_len_count, escape_out_bytes]
  generalize cstr s = t
  induction t with
  | nil => rfl
  | cons c t ih =>
    rw [List.map_cons, List.flatten_cons, List.length_append, ← ih, jsEscapeByte_length,
      List.length_cons, List.countP_cons]
    by_cases hb : jsEscapeDoubled c = true
    · rw [if_pos hb, if_pos hb]; omega
    · rw [if_neg hb, if_neg hb]; omega

/-- C34: the escape routine of the serializer, for every stored string (read up to its
terminator).  Every byte below 0x20 other than backspace, form feed, line feed, carriage
return and tab is emitted as the single byte `?`; the length the first pass computes for
the allocation is the length of the string plus the number of its bytes among the quote,
the backslash and those five control bytes; and that is exactly the number of bytes the
second pass writes, so the buffer holds the written bytes and nothing else. -/
theorem js_escape_control_bytes :
    (∀ s, _js_object_string_escape_out s = ((cstr s).map jsEscapeByte).flatten)
    ∧ (∀ c, 0 < c → c < 32 → c ≠ 8 → c ≠ 9 → c ≠ 10 → c ≠ 12 → c ≠ 13 →
        jsEscapeByte c = [63] ∧ ∀ s, _js_object_string_escape_out (c :: s)
          = 63 :: _js_object_string_escape_out s)
    ∧ (∀ s, _js_object_string_escape_len s
        = (cstr s).length + (cstr s).countP jsEscapeDoubled)
    ∧ (∀ s, (_js_object_string_escape_out s).length = _js_object_string_escape_len s)
    ∧ (∀ s, _js_object_string_escape s = _js_object_string_escape_out s)
    ∧ _js_object_string_escape [97, 1, 31, 27, 9, 34, 127, 200] = [97, 63, 63, 63, 92, 116, 92, 34, 127, 200]
    ∧ _js_object_string_escape_len [97, 1, 31, 27, 9, 34, 127, 200] = 10 := by
  refine ⟨escape_out_bytes, ?_, escape_len_count, fun s => (escape_len_out_any s).symm, ?_,
    by decide, by decide⟩
  · intro c h0 h32 h8 h9 h10 h12 h13
    have hb : jsEscapeByte c = [63] := by
      unfold jsEscapeByte
      have h34 : c ≠ 34 := by omega
      have h92 : c ≠ 92 := by omega
      simp [h34, h92, h8, h12, h10, h13, h9, h32]
    refine ⟨hb, fun s => ?_⟩
    rw [escape_out_bytes (c :: s), escape_out_bytes s, cstr, if_neg (by omega),
      List.map_cons, List.flatten_cons, hb]
    rfl
  · intro s
    unfold _js_object_string_escape
    rw [escape_len_out_any, fill_self]

/-! ## `ht_add` of a key that is stored -/

section ht_add_equal
variable {K V : Type}

theorem ht_add_wf [Inhabited V] {type : htType K} {good : K → Prop} (hl : type.lawful good)
    {ht : htHandle K V} (h : ht_wf type good ht) (hu : ht.used < 2 ^ 30) (key : K)
    (hk : good key) (val : V) :
    ht_wf type good (ht_add type ht key val).2
    ∧ (ht_add type ht key val).2.used ≤ ht.used + 1 := by
  by_cases hn : key ∈ ht_keys ht
  · obtain ⟨ht1, h1, h2, _, h4⟩ := ht_add_old hl h hk hu hn val
    rw [h1]
    exact ⟨h2, by show ht1.used ≤ _; omega⟩
  · obtain ⟨ht1, h1, h2, h3⟩ := ht_add_new hl h hk hu hn val
    rw [h1]
    refine ⟨h2, ?_⟩
    show ht1.used ≤ _
    rw [ht_wf_used_eq h2, ht_wf_used_eq h, h3.length_eq]
    simp

theorem ht_add_all_wf [Inhabited V] {type : htType K} {good : K → Prop}
    (hl : type.lawful good) :
    ∀ (pairs : List (K × V)) (ht : htHandle K V), ht_wf type good ht →
      (∀ kv ∈ pairs, good kv.1) → ht.used + pairs.length ≤ 2 ^ 30 →
      ht_wf type good (ht_add_all type ht pairs).2
  | [], ht, hwf, _, _ => hwf
  | kv :: rest, ht, hwf, hg, hu => by
    simp only [List.length_cons] at hu
    obtain ⟨h1, h2⟩ := ht_add_wf hl hwf (by omega) kv.1 (hg kv (List.mem_cons_self _ _)) kv.2
    exact ht_add_all_wf hl rest _ h1 (fun x hx => hg x (List.mem_cons_of_mem _ hx))
      (by omega)

/-- C31: `ht_add` with a key that the key comparison of the table finds equal to a stored
key.  For every well-formed table with fewer than 2^30 entries (key comparison non-zero
exactly on equal keys) and every stored entry `e`: the call returns `HT_ERR`, the entry
count and the stored entries are what they were, and `ht_find` of the key still returns
the entry `e` with its value.  Hence the keys of a table stay pairwise distinct: they are
after every `ht_add`, and in every table built from `ht_create` by `ht_add` calls, repeated
keys included. -/
theorem ht_add_equal_key_refused [Inhabited V] {type : htType K} {good : K → Prop}
    (hl : type.lawful good) {ht : htHandle K V} (h : ht_wf type good ht)
    (hu : ht.used < 2 ^ 30) {e : htEntry K V} (he : e ∈ ht_toList ht) (key : K)
    (hk : good key) (hc : type.key_compare key e.key ≠ 0) (val : V) :
    (ht_add type ht key val).1 = HT_ERR
    ∧ (ht_add type ht key val).2.used = ht.used
    ∧ (ht_toList (ht_add type ht key val).2).Perm (ht_toList ht)
    ∧ (∃ r, ht_find type (ht_add type ht key val).2 key = some r
        ∧ ht_entry (ht_add type ht key val).2 r = some e)
    ∧ (∀ k v, good k → (ht_keys (ht_add type ht k v).2).Nodup)
    ∧ (∀ pairs : List (K × V), (∀ kv ∈ pairs, good kv.1) → pairs.length ≤ 2 ^ 30 →
        (ht_keys (ht_add_all type ht_create pairs).2).Nodup) := by
  have hkey : key = e.key := (hl key e.key hk (h.good e he)).mp hc
  have hn : key ∈ ht_keys ht := List.mem_map.mpr ⟨e, he, hkey.symm⟩
  obtain ⟨ht1, h1, h2, h3, h4⟩ := ht_add_old hl h hk hu hn val
  rw [h1]
  refine ⟨rfl, h4, h3, ?_, ?_, ?_⟩
  · have he1 : e ∈ ht_toList ht1 := h3.mem_iff.mpr he
    rw [hkey]
    exact ht_find_entry hl h2 he1
  · intro k v hgk
    exact (ht_add_wf hl h hu k hgk v).1.nodup
  · intro pairs hg hlen
    exact (ht_add_all_wf hl pairs ht_create (ht_create_wf type good) hg
      (by show 0 + pairs.length ≤ 2 ^ 30; omega)).nodup

end ht_add_equal

/-- C31 (witness): adding the name `c` again to the table of `\x7b"a":0,"c":3\x7d`. -/
theorem ht_add_equal_key_refused_witness :
    (ht_add htTypeJson js_example_dst (some [99]) (some jsObject.null)).1 = HT_ERR
    ∧ (ht_add htTypeJson js_example_dst (some [99]) (some jsObject.null)).2.used = 2
    ∧ ∃ r, ht_find htTypeJson
          (ht_add htTypeJson js_example_dst (some [99]) (some jsObject.null)).2 (some [99])
          = some r
        ∧ ht_entry (ht_add htTypeJson js_example_dst (some [99]) (some jsObject.null)).2 r
          = some ⟨some [99], some (jsObject.number_l64 3)⟩ :=
  have h := ht_add_equal_key_refused htTypeJson_lawful js_example_dst_wf
    (show js_example_dst.used < 2 ^ 30 by decide)
    (show (⟨some [99], some (jsObject.number_l64 3)⟩ : jsEntry) ∈ ht_toList js_example_dst by
      simp [ht_toList, js_example_dst])
    (some [99]) (by simp [jsKeyGood]) (by decide) (some jsObject.null)
  ⟨h.1, h.2.1, h.2.2.2.1⟩

/-! ## The stack is last-in first-out -/

section st_lifo
variable {V : Type}

theorem stRepr_lt {st : stMem V} {addrs : List Nat} {vals : List V}
    (h : stRepr st addrs vals) : ∀ a ∈ addrs, a < st.mem.length := by
  intro a ha
  obtain ⟨i, hi⟩ := List.getElem?_of_mem ha
  obtain ⟨v, _, hm⟩ := h.2.2.2.2 i a hi
  by_contra hc
  rw [List.getElem?_eq_none (by omega)] at hm
  cases hm

theorem stRepr_create : stRepr (st_create : stMem V) [] [] := by
  refine ⟨rfl, List.nodup_nil, rfl, rfl, ?_⟩
  intro i a hi
  simp at hi

theorem st_next_all_null (st : stMem V) :
    ∀ fuel, st_next_all st fuel ⟨none⟩ = some []
  | 0 => rfl
  | fuel + 1 => rfl

/-- From the node at position `i` on the iterator returns the values from `vals[i]`
on. -/
theorem st_next_all_from {st : stMem V} {addrs : List Nat} {vals : List V}
    (h : stRepr st addrs vals) :
    ∀ (fuel i : Nat), st_next_all st fuel ⟨addrs[i]?⟩ = some ((vals.drop i).take fuel)
  | 0, i => by simp [st_next_all]
  | fuel + 1, i => by
    cases ha : addrs[i]? with
    | none =>
      have hi : addrs.length ≤ i := by
        by_contra hc
        rw [List.getElem?_eq_getElem (by omega)] at ha
        cases ha
      rw [st_next_all_null, List.drop_eq_nil_of_le (by rw [← h.1]; exact hi)]
      rfl
    | some a =>
      obtain ⟨v, hv, hm⟩ := h.2.2.2.2 i a ha
      have ih := st_next_all_from h fuel (i + 1)
      have hil : i < vals.length := by
        by_contra hc
        rw [List.getElem?_eq_none (by omega)] at hv
        cases hv
      have hd : vals.drop i = v :: vals.drop (i + 1) := by
        rw [List.drop_eq_getElem_cons hil]
        rw [List.getElem?_eq_getElem hil] at hv
        cases hv
        rfl
      rw [st_next_all]
      simp only [st_next, hm, Option.map_some', st_value, ih, hd, List.take_succ_cons]

theorem st_push_repr {st : stMem V} {addrs : List Nat} {vals : List V}
    (h : stRepr st addrs vals) (hlen : addrs.length + 1 < 4294967296) (val : V) :
    ∃ st1, st_push st val = some st1
      ∧ stRepr st1 (st.mem.length :: addrs) (val :: vals)
      ∧ st1.mem.length = st.mem.length + 1 := by
  have hlt := stRepr_lt h
  obtain ⟨h1, h2, h3, h5, h6⟩ := h
  have hfresh : st.mem.length ∉ addrs := fun hm => by have := hlt _ hm; omega
  have hmod : (st.len + 1) % 4294967296 = addrs.length + 1 := by rw [h5]; omega
  cases addrs with
  | nil =>
    have hl0 : st.len = 0 := h5
    have hv : vals = [] := List.length_eq_zero.mp h1.symm
    subst hv
    have hadd : st_push st val
        = some ⟨st.mem ++ [⟨none, none, val⟩], some st.mem.length,
            (st.len + 1) % 4294967296⟩ := by
      unfold st_push; simp only [hl0, if_true]
    refine ⟨_, hadd, ?_, by simp⟩
    refine ⟨rfl, by simp, rfl, by rw [hl0]; rfl, ?_⟩
    intro i a hi
    cases i with
    | zero =>
      simp only [List.getElem?_cons_zero, Option.some.injEq] at hi
      subst hi
      exact ⟨val, by simp, by simp⟩
    | succ i => simp at hi
  | cons hd tl =>
    have hl0 : st.len ≠ 0 := by rw [h5]; simp
    have hhead : st.top = some hd := h3
    obtain ⟨v0, hv0, hm0⟩ := h6 0 hd (by simp)
    simp only [if_true] at hm0
    have hhd : hd < st.mem.length := hlt hd (List.mem_cons_self _ _)
    have hadd : st_push st val
        = some ⟨st.mem.set hd ⟨some st.mem.length, (hd :: tl)[0 + 1]?, v0⟩
              ++ [⟨none, some hd, val⟩],
            some st.mem.length, (st.len + 1) % 4294967296⟩ := by
      unfold st_push; simp only [hl0, if_false, hhead, hm0]
    refine ⟨_, hadd, ?_, by simp⟩
    refine ⟨by simp [h1], List.nodup_cons.mpr ⟨hfresh, h2⟩, rfl, ?_, ?_⟩
    · show (st.len + 1) % 4294967296 = _
      rw [hmod]; rfl
    · intro i a hi
      cases i with
      | zero =>
        simp only [List.getElem?_cons_zero, Option.some.injEq] at hi
        subst hi
        refine ⟨val, by simp, ?_⟩
        show (st.mem.set hd _ ++ [_])[st.mem.length]? = _
        rw [List.getElem?_append_right (by simp)]
        simp
      | succ k =>
        have hk : (hd :: tl)[k]? = some a := by simpa using hi
        obtain ⟨v, hv, hm⟩ := h6 k a hk
        have hal : a < st.mem.length := hlt a (List.getElem?_mem hk)
        refine ⟨v, by simpa using hv, ?_⟩
        show (st.mem.set hd _ ++ [_])[a]? = _
        rw [List.getElem?_append_left (by simp; exact hal)]
        by_cases hah : a = hd
        · have hk0 : k = 0 := lsRepr_index h2 hk (by rw [hah]; simp)
          subst hk0
          subst hah
          rw [List.getElem?_set_self hhd]
          rw [hm0] at hm
          simp only [if_true, Option.some.injEq, stNode.mk.injEq, true_and] at hm
          subst hm
          simp
        · have hk0 : k ≠ 0 := by
            intro hk0; subst hk0
            simp only [List.getElem?_cons_zero, Option.some.injEq] at hk
            exact hah hk.symm
          rw [List.getElem?_set_ne (fun hc => hah hc.symm), hm]
          obtain ⟨k1, rfl⟩ : ∃ k1, k = k1 + 1 := ⟨k - 1, by omega⟩
          simp

theorem st_pop_repr {st : stMem V} {a : Nat} {addrs : List Nat} {v : V} {vals : List V}
    (h : stRepr st (a :: addrs) (v :: vals)) (hlen : addrs.length + 1 < 4294967296) :
    ∃ st1, st_pop st = some (some a, st1) ∧ stRepr st1 addrs vals
      ∧ st_value st1 a = some v ∧ st1.mem.length = st.mem.length := by
  have hlt := stRepr_lt h
  obtain ⟨h1, h2, h3, h5, h6⟩ := h
  have htop : st.top = some a := h3
  obtain ⟨v0, hv0, hm0⟩ := h6 0 a (by simp)
  simp only [List.getElem?_cons_zero, Option.some.injEq] at hv0
  subst hv0
  simp only [if_true, Nat.zero_add, List.getElem?_cons_succ] at hm0
  have hmod : (st.len + 4294967295) % 4294967296 = addrs.length := by
    rw [h5, List.length_cons]; omega
  have hnd := List.nodup_cons.mp h2
  have h1v : addrs.length = vals.length := by simpa using h1
  cases addrs with
  | nil =>
    have hpop : st_pop st = some (some a, ⟨st.mem, none, (st.len + 4294967295) % 4294967296⟩) := by
      unfold st_pop
      simp only [htop, hm0]
      rfl
    refine ⟨_, hpop, ⟨h1v, List.nodup_nil, rfl, hmod, ?_⟩, ?_, rfl⟩
    · intro i b hi
      simp at hi
    · show (st.mem[a]?).map _ = _
      rw [hm0]; rfl
  | cons n tl =>
    obtain ⟨w, hw, hmn⟩ := h6 1 n (by simp)
    have hna : n ≠ a := by
      intro hc
      exact hnd.1 (by rw [hc]; exact List.mem_cons_self _ _)
    have hnl : n < st.mem.length := hlt n (by simp)
    simp only [Nat.one_ne_zero, if_false, Nat.sub_self, List.getElem?_cons_zero] at hmn
    have hm0' : st.mem[a]? = some ⟨none, some n, v⟩ := by
      rw [hm0]; simp
    have hpop : st_pop st = some (some a,
        ⟨st.mem.set n ⟨none, (a :: n :: tl)[1 + 1]?, w⟩, some n,
          (st.len + 4294967295) % 4294967296⟩) := by
      unfold st_pop
      simp only [htop, hm0', hmn]
    refine ⟨_, hpop, ⟨h1v, hnd.2, rfl, hmod, ?_⟩, ?_, by simp⟩
    · intro i b hi
      obtain ⟨u, hu, hmb⟩ := h6 (i + 1) b (by simpa using hi)
      refine ⟨u, by simpa using hu, ?_⟩
      show (st.mem.set n _)[b]? = _
      by_cases hbn : b = n
      · have hi0 : i = 0 := lsRepr_index hnd.2 hi (by rw [hbn]; simp)
        subst hi0
        subst hbn
        rw [List.getElem?_set_self hnl]
        rw [hmn] at hmb
        simp only [Nat.zero_add, Nat.one_ne_zero, if_false, Option.some.injEq,
          stNode.mk.injEq] at hmb
        rw [← hmb.2.2]
        simp
      · have hi0 : i ≠ 0 := by
          intro hc; subst hc
          simp only [List.getElem?_cons_zero, Option.some.injEq] at hi
          exact hbn hi.symm
        rw [List.getElem?_set_ne (fun hc => hbn hc.symm), hmb]
        obtain ⟨k, rfl⟩ : ∃ k, i = k + 1 := ⟨i - 1, by omega⟩
        simp
    · show ((st.mem.set n _)[a]?).map _ = _
      rw [List.getElem?_set_ne hna, hm0']
      rfl

/-- Two stacks that hold the same nodes in the same order hold the same memory at those
nodes. -/
theorem stRepr_mem {st st1 : stMem V} {addrs : List Nat} {vals : List V}
    (h : stRepr st addrs vals) (h1 : stRepr st1 addrs vals) :
    ∀ a ∈ addrs, st1.mem[a]? = st.mem[a]? := by
  intro a ha
  obtain ⟨i, hi⟩ := List.getElem?_of_mem ha
  obtain ⟨v, hv, hm⟩ := h.2.2.2.2 i a hi
  obtain ⟨v1, hv1, hm1⟩ := h1.2.2.2.2 i a hi
  rw [hv] at hv1
  cases hv1
  rw [hm, hm1]

/-- C38: the stack is last-in first-out.  For every stack held in memory (nodes `addrs`
with values `vals`, top first, fewer than 2^32 - 1 of them) and every value `v`:
`st_push` succeeds and puts a fresh node holding `v` on top; `st_pop` then returns that
node, which still holds `v`, and leaves the stack with the nodes, order, top, length and
node contents it had before the push.  `st_pop` on a stack without a top returns NULL and
changes nothing.  A fresh iterator yields the values top first and then NULL, and
`st_length` is their number.  The stack from `st_create` is such a stack, and so is the
stack after every `st_pop` that returns a node. -/
theorem st_push_pop_lifo (st : stMem V) (addrs : List Nat) (vals : List V)
    (h : stRepr st addrs vals) (hlen : addrs.length + 1 < 4294967296) (v : V) :
    (∃ st1 st2, st_push st v = some st1
      ∧ stRepr st1 (st.mem.length :: addrs) (v :: vals)
      ∧ st_pop st1 = some (some st.mem.length, st2)
      ∧ st_value st2 st.mem.length = some v
      ∧ stRepr st2 addrs vals
      ∧ st2.top = st.top ∧ st_length st2 = st_length st
      ∧ (∀ a ∈ addrs, st2.mem[a]? = st.mem[a]?))
    ∧ (∀ s : stMem V, s.top = none → st_pop s = some (none, s))
    ∧ st_pop (st_create : stMem V) = some (none, st_create)
    ∧ (∀ n, st_next_all st n (st_create_iterator st) = some (vals.take n))
    ∧ st_length st = vals.length
    ∧ stRepr (st_create : stMem V) [] []
    ∧ (∀ a as w ws, addrs = a :: as → vals = w :: ws →
        ∃ st3, st_pop st = some (some a, st3) ∧ st_value st3 a = some w
          ∧ stRepr st3 as ws) := by
  refine ⟨?_, ?_, rfl, ?_, ?_, stRepr_create, ?_⟩
  · obtain ⟨st1, hpush, hrep1, _⟩ := st_push_repr h hlen v
    obtain ⟨st2, hpop, hrep2, hval, _⟩ := st_pop_repr hrep1 hlen
    refine ⟨st1, st2, hpush, hrep1, hpop, hval, hrep2, ?_, ?_, stRepr_mem h hrep2⟩
    · rw [hrep2.2.2.1, h.2.2.1]
    · show st2.len = st.len
      rw [hrep2.2.2.2.1, h.2.2.2.1]
  · intro s hs
    unfold st_pop
    rw [hs]
  · intro n
    have h0 := st_next_all_from h n 0
    rw [List.drop_zero] at h0
    rw [← h0]
    unfold st_create_iterator
    rw [h.2.2.1, List.head?_eq_getElem?]
  · show st.len = _
    rw [h.2.2.2.1, h.1]
  · intro a as w ws ha hv
    subst ha
    subst hv
    obtain ⟨st3, h1, h2, h3, _⟩ := st_pop_repr h (by simp only [List.length_cons] at hlen; omega)
    exact ⟨st3, h1, h3, h2⟩

end st_lifo

/-- C38 (witness): the stack after pushing 7 and then 8 on a fresh stack; 9 is pushed and
popped. -/
theorem st_push_pop_lifo_witness :
    ∃ st1 st2, st_push (⟨[⟨some 1, none, 7⟩, ⟨none, some 0, 8⟩], some 1, 2⟩ : stMem Nat) 9
        = some st1
      ∧ st_pop st1 = some (some 2, st2)
      ∧ st_value st2 2 = some 9
      ∧ st2.top = some 1 ∧ st_length st2 = 2
      ∧ (∀ n, st_next_all
            (⟨[⟨some 1, none, 7⟩, ⟨none, some 0, 8⟩], some 1, 2⟩ : stMem Nat) n
            (st_create_iterator
              (⟨[⟨some 1, none, 7⟩, ⟨none, some 0, 8⟩], some 1, 2⟩ : stMem Nat))
          = some (([8, 7] : List Nat).take n)) := by
  have hrep : stRepr (⟨[⟨some 1, none, 7⟩, ⟨none, some 0, 8⟩], some 1, 2⟩ : stMem Nat)
      [1, 0] [8, 7] := by
    refine ⟨rfl, by decide, rfl, rfl, ?_⟩
    intro i a hi
    match i, hi with
    | 0, hi =>
      simp only [List.getElem?_cons_zero, Option.some.injEq] at hi
      subst hi
      exact ⟨8, rfl, rfl⟩
    | 1, hi =>
      simp only [List.getElem?_cons_succ, List.getElem?_cons_zero, Option.some.injEq] at hi
      subst hi
      exact ⟨7, rfl, rfl⟩
    | i + 2, hi => simp at hi
  have h := st_push_pop_lifo _ [1, 0] [8, 7] hrep (by decide) 9
  obtain ⟨⟨st1, st2, h1, _, h3, h4, _, h6, h7, _⟩, _, _, h10, _⟩ := h
  exact ⟨st1, st2, h1, h3, h4, h6, h7, h10⟩

/-! ## `pb_mov` keeps an inclusive byte range -/

/-- The index computation of `pb_mov`, with the indexes as the specification normalises
them. -/
theorem pb_mov_range_spec (L : Nat) (begin endv : Int) (hL : 0 < L) (hLi : L ≤ 2147483647)
    (hb : -2147483648 ≤ begin ∧ begin ≤ 2147483647)
    (he : -2147483648 ≤ endv ∧ endv ≤ 2147483647) :
    (pbIndexSpec L begin ≤ pbIndexSpec L endv ∧ pbIndexSpec L begin < L →
      pb_mov_range L begin endv
        = (((pbIndexSpec L begin : Nat) : Int),
            ((min (pbIndexSpec L endv) (L - 1) - pbIndexSpec L begin + 1 : Nat) : Int)))
    ∧ (¬ (pbIndexSpec L begin ≤ pbIndexSpec L endv ∧ pbIndexSpec L begin < L) →
      (pb_mov_range L begin endv).2 = 0) := by
  have hw : ∀ x : Int, -2147483648 ≤ x → x ≤ 2147483647 → wrap32 x = x := by
    intro x h1 h2
    unfold wrap32
    omega
  have hwmax : wrap32 2147483648 = -2147483648 := by
    unfold wrap32
    omega
  obtain ⟨b1, hb1, hbn⟩ : ∃ b1 : Int, b1 = (pbIndexSpec L begin : Nat)
      ∧ b1 = (if begin < 0 then (if begin + L < 0 then 0 else begin + L) else begin) := by
    refine ⟨_, rfl, ?_⟩
    unfold pbIndexSpec
    split_ifs <;> omega
  obtain ⟨e1, he1, hen⟩ : ∃ e1 : Int, e1 = (pbIndexSpec L endv : Nat)
      ∧ e1 = (if endv < 0 then (if endv + L < 0 then 0 else endv + L) else endv) := by
    refine ⟨_, rfl, ?_⟩
    unfold pbIndexSpec
    split_ifs <;> omega
  have hb0 : 0 ≤ b1 ∧ b1 ≤ 2147483647 := by
    rw [hbn]; split_ifs <;> omega
  have he0 : 0 ≤ e1 ∧ e1 ≤ 2147483647 := by
    rw [hen]; split_ifs <;> omega
  have hrange : pb_mov_range L begin endv
      = (if (if b1 > e1 then 0 else wrap32 (wrap32 (e1 - b1) + 1)) ≠ 0 then
          if b1 ≥ L then (b1, 0)
          else if e1 ≥ L then
            (b1, if b1 > (L : Int) - 1 then 0 else wrap32 (wrap32 ((L : Int) - 1 - b1) + 1))
          else (b1, if b1 > e1 then 0 else wrap32 (wrap32 (e1 - b1) + 1))
        else (0, 0)) := by
    unfold pb_mov_range
    simp only [← hbn, ← hen]
  generalize pbIndexSpec L begin = b at hb1 ⊢
  generalize pbIndexSpec L endv = e at he1 ⊢
  subst hb1
  subst he1
  rw [hrange]
  constructor
  · rintro ⟨hle, hlt⟩
    have h1 : ¬ ((b : Int) > (e : Int)) := by omega
    have h2 : ¬ ((b : Int) ≥ (L : Int)) := by omega
    rw [if_neg h1, if_neg h2]
    by_cases heL : (e : Int) ≥ (L : Int)
    · have h3 : ¬ ((b : Int) > (L : Int) - 1) := by omega
      have hw1 : wrap32 ((L : Int) - 1 - b) = (L : Int) - 1 - b := hw _ (by omega) (by omega)
      have hw2 : wrap32 ((L : Int) - 1 - b + 1) = (L : Int) - 1 - b + 1 :=
        hw _ (by omega) (by omega)
      have hne : wrap32 (wrap32 ((e : Int) - b) + 1) ≠ 0 := by
        by_cases hmax : (e : Int) - b = 2147483647
        · rw [hmax, hw 2147483647 (by omega) (by omega)]
          show wrap32 2147483648 ≠ 0
          rw [hwmax]
          omega
        · have hwa : wrap32 ((e : Int) - b) = (e : Int) - b := hw _ (by omega) (by omega)
          have hwb : wrap32 ((e : Int) - b + 1) = (e : Int) - b + 1 :=
            hw _ (by omega) (by omega)
          rw [hwa, hwb]
          omega
      rw [if_pos hne, if_pos heL, if_neg h3, hw1, hw2]
      have hmin : min e (L - 1) = L - 1 := by omega
      rw [hmin]
      congr 1
      omega
    · have hw1 : wrap32 ((e : Int) - b) = (e : Int) - b := hw _ (by omega) (by omega)
      have hw2 : wrap32 ((e : Int) - b + 1) = (e : Int) - b + 1 := hw _ (by omega) (by omega)
      rw [hw1, hw2, if_pos (by omega), if_neg heL]
      have hmin : min e (L - 1) = e := by omega
      rw [hmin]
      congr 1
      omega
  · intro hn
    by_cases hgt : (b : Int) > (e : Int)
    · rw [if_pos hgt]
      simp
    · have hbL : (b : Int) ≥ (L : Int) := by omega
      rw [if_neg hgt, if_pos hbL]
      split_ifs <;> rfl

theorem pb_memmove_front (buf : List (Option Nat)) (b n : Nat) (h : b + n ≤ buf.length) :
    (pb_memmove buf 0 b n).length = buf.length
    ∧ (pb_memmove buf 0 b n).take n = (buf.drop b).take n := by
  unfold pb_memmove
  rw [if_pos ⟨h, by omega⟩]
  have hl : ((buf.drop b).take n).length = n := by
    rw [List.length_take, List.length_drop]
    omega
  constructor
  · simp only [List.take_zero, List.nil_append, List.length_append, hl, Nat.zero_add,
      List.length_drop]
    omega
  · simp only [List.take_zero, List.nil_append]
    rw [List.take_append_of_le_length (by omega), List.take_of_length_le (by omega)]

theorem pb_mov_spec (p : pbHandle) (begin endv : Int) (hinv : pb_inv p) (hL : 0 < p.len)
    (hLi : p.len ≤ 2147483647)
    (hb : -2147483648 ≤ begin ∧ begin ≤ 2147483647)
    (he : -2147483648 ≤ endv ∧ endv ≤ 2147483647) :
    pb_content (pb_mov p begin endv)
      = pbMovSpec (pb_content p) (pbIndexSpec p.len begin) (pbIndexSpec p.len endv)
    ∧ (pb_mov p begin endv).len + (pb_mov p begin endv).free = p.len + p.free
    ∧ (pb_mov p begin endv).len ≤ p.len
    ∧ pb_inv (pb_mov p begin endv) := by
  obtain ⟨hr1, hr2⟩ := pb_mov_range_spec p.len begin endv hL hLi hb he
  have hblen : p.buf.length = p.len + p.free + 1 := hinv.1
  have hclen : (pb_content p).length = p.len := by
    unfold pb_content
    rw [List.length_take, hinv.1]
    omega
  have hmov : pb_mov p begin endv
      = pb_set_len ⟨p.len, p.free,
          (if (pb_mov_range p.len begin endv).1 ≠ 0 ∧ (pb_mov_range p.len begin endv).2 ≠ 0
            then pb_memmove p.buf 0 (pb_mov_range p.len begin endv).1.toNat
              (pb_mov_range p.len begin endv).2.toNat
            else p.buf)⟩ (pb_mov_range p.len begin endv).2.toNat := by
    unfold pb_mov
    rw [if_neg (by omega)]
  rw [hmov]
  generalize pbIndexSpec p.len begin = b at hr1 hr2 ⊢
  generalize pbIndexSpec p.len endv = e at hr1 hr2 ⊢
  by_cases hc : b ≤ e ∧ b < p.len
  · rw [hr1 hc]
    simp only [Int.toNat_ofNat]
    have hn1 : 1 ≤ min e (p.len - 1) - b + 1 := by omega
    have hn2 : b + (min e (p.len - 1) - b + 1) ≤ p.len := by omega
    have hspec : pbMovSpec (pb_content p) b e
        = (p.buf.drop b).take (min e (p.len - 1) - b + 1) := by
      unfold pbMovSpec
      rw [hclen, if_pos hc]
      unfold pb_content
      rw [List.drop_take, List.take_take, Nat.min_eq_left (by omega)]
    rw [hspec]
    generalize min e (p.len - 1) - b + 1 = n at hn1 hn2 ⊢
    obtain ⟨hm1, hm2⟩ := pb_memmove_front p.buf b n (by omega)
    have hbuf : ∃ buf1 : List (Option Nat),
        (if ((b : Int) ≠ 0 ∧ (n : Int) ≠ 0) then pb_memmove p.buf 0 b n else p.buf) = buf1
        ∧ buf1.length = p.buf.length ∧ buf1.take n = (p.buf.drop b).take n := by
      by_cases hb0 : b = 0
      · subst hb0
        refine ⟨p.buf, ?_, rfl, by simp⟩
        rw [if_neg (by simp)]
      · refine ⟨pb_memmove p.buf 0 b n, ?_, hm1, hm2⟩
        rw [if_pos ⟨by omega, by omega⟩]
    obtain ⟨buf1, hb1, hb2, hb3⟩ := hbuf
    rw [hb1]
    unfold pb_set_len pb_content pb_inv
    simp only []
    refine ⟨by rw [take_set_self, hb3], by omega, by omega, ?_, ?_⟩
    · rw [List.length_set, hb2, hblen]
      omega
    · rw [List.get?_eq_getElem?, List.getElem?_set_self (by omega)]
  · have h0 := hr2 hc
    rw [h0]
    unfold pbMovSpec
    rw [hclen, if_neg hc]
    have hbuf : ∃ buf1 : List (Option Nat),
        (if ((pb_mov_range p.len begin endv).1 ≠ 0 ∧ (0 : Int) ≠ 0)
          then pb_memmove p.buf 0 (pb_mov_range p.len begin endv).1.toNat (0 : Int).toNat
          else p.buf) = buf1 ∧ buf1 = p.buf := by
      refine ⟨p.buf, ?_, rfl⟩
      rw [if_neg (by simp)]
    obtain ⟨buf1, hb1, hb2⟩ := hbuf
    rw [hb1, hb2]
    unfold pb_set_len pb_content pb_inv
    simp only [Int.toNat_zero, List.take_zero]
    refine ⟨trivial, by omega, by omega, ?_, ?_⟩
    · rw [List.length_set, hblen]
      omega
    · rw [List.get?_eq_getElem?, List.getElem?_set_self (by omega)]

/-- C35: `pb_mov` keeps an inclusive byte range.  For every buffer of `pb.c` in its
invariant with a length `L > 0` and all `int` arguments `begin` and `end`, with the
indexes normalised as the specification says (the length is added to a negative index and
a result that is still negative becomes 0): the content afterwards is the bytes the
buffer held at the positions `begin` to `min(end, L - 1)` when `begin ≤ end` and
`begin < L`, and empty otherwise; length plus free capacity is unchanged, the terminator
follows the content, and `pb_mov(p, 0, -1)` leaves the content as it is. -/
theorem pb_mov_keeps_range (p : pbHandle) (begin endv : Int) (hinv : pb_inv p)
    (hL : 0 < p.len) (hLi : p.len ≤ INT_MAX)
    (hb : -2147483648 ≤ begin ∧ begin ≤ 2147483647)
    (he : -2147483648 ≤ endv ∧ endv ≤ 2147483647) :
    pb_content (pb_mov p begin endv)
      = pbMovSpec (pb_content p) (pbIndexSpec p.len begin) (pbIndexSpec p.len endv)
    ∧ pb_size (pb_mov p begin endv) = pb_size p
    ∧ pb_inv (pb_mov p begin endv)
    ∧ pb_content (pb_mov p 0 (-1)) = pb_content p
    ∧ pb_size (pb_mov p 0 (-1)) = pb_size p := by
  obtain ⟨h1, h2, _, h4⟩ := pb_mov_spec p begin endv hinv hL hLi hb he
  obtain ⟨g1, g2, _, _⟩ := pb_mov_spec p 0 (-1) hinv hL hLi (by omega) (by omega)
  refine ⟨h1, by unfold pb_size; omega, h4, ?_, by unfold pb_size; omega⟩
  rw [g1]
  have hclen : (pb_content p).length = p.len := by
    unfold pb_content
    rw [List.length_take, hinv.1]
    omega
  have hi0 : pbIndexSpec p.len 0 = 0 := by
    unfold pbIndexSpec
    simp
  have hi1 : pbIndexSpec p.len (-1) = p.len - 1 := by
    unfold pbIndexSpec
    rw [if_pos (by omega), if_neg (by omega)]
    omega
  rw [hi0, hi1]
  unfold pbMovSpec
  rw [hclen, if_pos ⟨by omega, hL⟩, List.drop_zero, List.take_of_length_le (by omega)]

/-- C35 (witness): the buffer holding `hello`; `pb_mov(p, 1, -2)` leaves `ell`. -/
theorem pb_mov_keeps_range_witness :
    pb_content (pb_mov (pb_new_len (bytes "hello") 5) 1 (-2)) = (bytes "ell").map some
    ∧ pb_size (pb_mov (pb_new_len (bytes "hello") 5) 1 (-2)) = 5 := by
  have h := pb_mov_keeps_range (pb_new_len (bytes "hello") 5) 1 (-2)
    (pb_new_len_spec (bytes "hello") 5 (by decide)).2 (by decide) (by decide)
    (by omega) (by omega)
  refine ⟨?_, h.2.1⟩
  rw [h.1]
  decide

/-! ## `pl_replace` -/

/-- The steps of the replacement do not depend on the bound once it covers the string. -/
theorem plReplaceSteps_fuel (org rep : List Nat) (ho : org ≠ []) :
    ∀ (f1 f2 : Nat) (s : List Nat), s.length ≤ f1 → s.length ≤ f2 →
      plReplaceSteps org rep f1 s = plReplaceSteps org rep f2 s
  | 0, f2, s, h1, _ => by
    have hs : s = [] := List.length_eq_zero.mp (by omega)
    subst hs
    cases f2 <;> rfl
  | f1 + 1, 0, s, _, h2 => by
    have hs : s = [] := List.length_eq_zero.mp (by omega)
    subst hs
    rfl
  | f1 + 1, f2 + 1, [], _, _ => rfl
  | f1 + 1, f2 + 1, c :: s, h1, h2 => by
    simp only [List.length_cons] at h1 h2
    rw [plReplaceSteps, plReplaceSteps]
    have hpos : 0 < org.length := List.length_pos.mpr ho
    by_cases hst : startsWith (c :: s) org = true
    · rw [if_pos hst, if_pos hst]
      have hl : ((c :: s).drop org.length).length ≤ s.length := by
        rw [List.length_drop, List.length_cons]
        omega
      rw [plReplaceSteps_fuel org rep ho f1 f2 _ (by omega) (by omega)]
    · rw [if_neg hst, if_neg hst]
      rw [plReplaceSteps_fuel org rep ho f1 f2 s (by omega) (by omega)]

/-- The replacement, occurrence by occurrence: up to the first occurrence of `org` the
string is kept, then `rep` follows and the replacement of the rest behind the
occurrence. -/
theorem plReplaceSpec_first (org rep : List Nat) (ho : org ≠ []) : ∀ (s : List Nat),
    plReplaceSpec org rep s
      = match strstr s org with
        | none => s
        | some i => s.take i ++ rep ++ plReplaceSpec org rep (s.drop (i + org.length))
  | [] => by
    rw [strstr, if_neg ho]
    rfl
  | c :: s => by
    have ih := plReplaceSpec_first org rep ho s
    have hpos : 0 < org.length := List.length_pos.mpr ho
    unfold plReplaceSpec at ih ⊢
    rw [List.length_cons, plReplaceSteps, strstr]
    by_cases hst : startsWith (c :: s) org = true
    · rw [if_pos hst, if_pos hst]
      simp only [List.take_zero, List.nil_append, Nat.zero_add]
      rw [plReplaceSteps_fuel org rep ho s.length _ _ _ (le_refl _)]
      rw [List.length_drop, List.length_cons]
      omega
    · rw [if_neg hst, if_neg hst, ih]
      cases hf : strstr s org with
      | none => rfl
      | some i =>
        simp only [Option.map_some', List.take_succ_cons, List.cons_append]
        rw [show i + 1 + org.length = (i + org.length) + 1 by omega, List.drop_succ_cons]

theorem strstr_lt : ∀ (s org : List Nat) (i : Nat), org ≠ [] → strstr s org = some i →
    i + org.length ≤ s.length
  | [], org, i, ho, h => by rw [strstr, if_neg ho] at h; cases h
  | c :: s, org, i, ho, h => by
    rw [strstr] at h
    by_cases hst : startsWith (c :: s) org = true
    · rw [if_pos hst] at h
      cases h
      have := startsWith_length _ _ hst
      omega
    · rw [if_neg hst] at h
      cases hf : strstr s org with
      | none => rw [hf] at h; cases h
      | some j =>
        rw [hf] at h
        simp only [Option.map_some', Option.some.injEq] at h
        have := strstr_lt s org j ho hf
        simp only [List.length_cons]
        omega

/-- The loop of `pl_replace` writes the replacement of the specification. -/
theorem pl_replace_loop_spec (org rep : List Nat) (ho : org ≠ []) :
    ∀ (fuel : Nat) (top : List Nat), top.length < fuel →
      pl_replace_loop org rep fuel top = plReplaceSpec org rep top
  | 0, _, h => by omega
  | fuel + 1, top, h => by
    rw [pl_replace_loop, plReplaceSpec_first org rep ho top]
    by_cases ht : top = []
    · subst ht
      rw [if_pos rfl, strstr, if_neg ho]
    · rw [if_neg ht]
      cases hf : strstr top org with
      | none => rfl
      | some i =>
        simp only []
        have hpos : 0 < org.length := List.length_pos.mpr ho
        have hi := strstr_lt top org i ho hf
        rw [pl_replace_loop_spec org rep ho fuel _
          (by rw [List.length_drop]; omega)]

/-- The length of the replacement: `k` occurrences of `org` became `rep`, `c` bytes were
kept. -/
theorem plReplaceSteps_length (org rep : List Nat) : ∀ (fuel : Nat) (s : List Nat),
    ∃ k c, (plReplaceSteps org rep fuel s).length = c + k * rep.length
      ∧ s.length = c + k * org.length
  | 0, s => ⟨0, s.length, by rw [plReplaceSteps]; omega, by omega⟩
  | fuel + 1, [] => ⟨0, 0, by rw [plReplaceSteps]; simp, by simp⟩
  | fuel + 1, c :: s => by
    rw [plReplaceSteps]
    by_cases hst : startsWith (c :: s) org = true
    · rw [if_pos hst]
      obtain ⟨k, c1, h1, h2⟩ := plReplaceSteps_length org rep fuel ((c :: s).drop org.length)
      have hle := startsWith_length _ _ hst
      rw [List.length_drop] at h2
      refine ⟨k + 1, c1, ?_, ?_⟩
      · rw [List.length_append, h1, Nat.add_mul]
        omega
      · rw [Nat.add_mul]
        omega
    · rw [if_neg hst]
      obtain ⟨k, c1, h1, h2⟩ := plReplaceSteps_length org rep fuel s
      refine ⟨k, c1 + 1, ?_, ?_⟩
      · rw [List.length_cons, h1]
        omega
      · rw [List.length_cons, h2]
        omega

/-- The size `pl_replace` allocates covers the replacement and its terminator. -/
theorem pl_replace_size_bound (n o r k c : Nat) (ho : 0 < o) (hn : n = c + k * o) :
    c + k * r + 1 ≤ (if o < r then r * (n / o + 1) else n + 1) := by
  by_cases hlt : o < r
  · rw [if_pos hlt]
    have hk : k ≤ n / o := by
      rw [Nat.le_div_iff_mul_le ho, hn]
      omega
    have hmod := Nat.div_add_mod n o
    have hr := Nat.mod_lt n ho
    have h1 : k * r ≤ (n / o) * r := Nat.mul_le_mul_right r hk
    have h2 : k * o + (n / o - k) * o = (n / o) * o := by
      rw [← Nat.add_mul]
      congr 1
      omega
    have h3 : (n / o - k) * o ≤ (n / o - k) * r := Nat.mul_le_mul_left _ (by omega)
    have h4 : k * r + (n / o - k) * r = (n / o) * r := by
      rw [← Nat.add_mul]
      congr 1
      omega
    have h5 : o * (n / o) = (n / o) * o := Nat.mul_comm _ _
    have h6 : r * (n / o + 1) = (n / o) * r + r := by
      rw [Nat.mul_add, Nat.mul_one, Nat.mul_comm]
    rw [h6]
    omega
  · rw [if_neg hlt]
    have h1 : k * r ≤ k * o := Nat.mul_le_mul_left k (by omega)
    omega

theorem wrap32_int (n : Nat) (h : n ≤ INT_MAX) : wrap32 (n : Int) = (n : Int) := by
  unfold INT_MAX at h
  unfold wrap32
  omega

/-- The size computation of `pl_replace` on lengths that fit an `int`. -/
theorem pl_replace_len (n o r : Nat) (hn : n < INT_MAX) (ho : o ≤ INT_MAX)
    (hr : r ≤ INT_MAX) :
    (if wrap32 (o : Int) < wrap32 (r : Int) then
        wrap32 (wrap32 (r : Int) * wrap32 (Int.tdiv (wrap32 (n : Int)) (wrap32 (o : Int)) + 1))
      else wrap32 (wrap32 (n : Int) + 1))
      = wrap32 (((if o < r then r * (n / o + 1) else n + 1 : Nat) : Int)) := by
  have hdiv : n / o ≤ n := Nat.div_le_self _ _
  have e : Int.tdiv (n : Int) (o : Int) = ((n / o : Nat) : Int) := rfl
  have hq : wrap32 (((n / o : Nat) : Int) + 1) = ((n / o + 1 : Nat) : Int) := by
    have hw := wrap32_int (n / o + 1) (by unfold INT_MAX at hn ⊢; omega)
    rw [← hw]
    push_cast
    rfl
  rw [wrap32_int _ (Nat.le_of_lt hn), wrap32_int _ ho, wrap32_int _ hr, e, hq]
  by_cases h : o < r
  · rw [if_pos h, if_pos (by omega)]
    push_cast
    rfl
  · rw [if_neg h, if_neg (by omega)]
    push_cast
    rfl

/-- The model of `pl_replace` on strings whose lengths fit an `int`. -/
theorem pl_replace_in_range (src org rep : List Nat) (hs : strlen src ≠ 0)
    (ho : strlen org ≠ 0) (hsrc : strlen src < INT_MAX) (horg : strlen org ≤ INT_MAX)
    (hrep : strlen rep ≤ INT_MAX) :
    pl_replace src org rep
      = plResult.buffer ⟨wrap32 (((if strlen org < strlen rep then
            strlen rep * (strlen src / strlen org + 1) else strlen src + 1 : Nat) : Int)),
          plReplaceSpec (cstr org) (cstr rep) (cstr src)⟩ := by
  have hne : cstr org ≠ [] := by
    intro hc
    apply ho
    unfold strlen
    rw [hc]
    rfl
  have hloop := pl_replace_loop_spec (cstr org) (cstr rep) hne (strlen src + 1) (cstr src)
    (by unfold strlen; omega)
  have hlen := pl_replace_len (strlen src) (strlen org) (strlen rep) hsrc horg hrep
  have h1 : ¬ (wrap32 (strlen src : Int) = 0 ∨ wrap32 (strlen org : Int) = 0) := by
    rw [wrap32_int _ (Nat.le_of_lt hsrc), wrap32_int _ horg]
    omega
  have h2 : ¬ (INT_MAX < strlen src ∨ INT_MAX < strlen org ∨ INT_MAX < strlen rep) := by
    omega
  unfold pl_replace
  simp only []
  rw [if_neg h1, if_neg h2, hlen, hloop]

/-- The bytes `pl_replace` writes and their terminator, against the size computed without
overflow. -/
theorem pl_replace_fit (src org rep : List Nat) (ho : strlen org ≠ 0)
    (hfit : (if strlen org < strlen rep then strlen rep * (strlen src / strlen org + 1)
      else strlen src + 1) ≤ INT_MAX) :
    wrap32 (((if strlen org < strlen rep then strlen rep * (strlen src / strlen org + 1)
        else strlen src + 1 : Nat) : Int))
      = ((if strlen org < strlen rep then strlen rep * (strlen src / strlen org + 1)
        else strlen src + 1 : Nat) : Int)
    ∧ ((plReplaceSpec (cstr org) (cstr rep) (cstr src)).length : Int) + 1
      ≤ wrap32 (((if strlen org < strlen rep then strlen rep * (strlen src / strlen org + 1)
        else strlen src + 1 : Nat) : Int)) := by
  obtain ⟨k, c, h1, h2⟩ := plReplaceSteps_length (cstr org) (cstr rep) (cstr src).length
    (cstr src)
  have hb := pl_replace_size_bound (strlen src) (strlen org) (strlen rep) k c (by omega) h2
  have hstr : (cstr rep).length = strlen rep := rfl
  have hl : (plReplaceSpec (cstr org) (cstr rep) (cstr src)).length + 1
      ≤ (if strlen org < strlen rep then strlen rep * (strlen src / strlen org + 1)
        else strlen src + 1) := by
    unfold plReplaceSpec
    rw [h1, hstr]
    exact hb
  rw [wrap32_int _ hfit]
  exact ⟨rfl, by exact_mod_cast hl⟩

theorem cstr_replicate (n c : Nat) (hc : c ≠ 0) : cstr (List.replicate n c) = List.replicate n c :=
  cstr_of_ne_zero _ (fun x hx => by rw [List.eq_of_mem_replicate hx]; exact hc)

theorem strlen_replicate (n c : Nat) (hc : c ≠ 0) : strlen (List.replicate n c) = n := by
  unfold strlen
  rw [cstr_replicate n c hc, List.length_replicate]

/-- Every byte of a run of one byte is an occurrence of that byte: the replacement is
`rep`, once for each. -/
theorem plReplaceSteps_replicate (c : Nat) (rep : List Nat) : ∀ (n fuel : Nat), n ≤ fuel →
    (plReplaceSteps [c] rep fuel (List.replicate n c)).length = n * rep.length
  | 0, fuel, _ => by
    cases fuel <;> simp [plReplaceSteps]
  | n + 1, 0, h => by omega
  | n + 1, fuel + 1, h => by
    rw [List.replicate_succ, plReplaceSteps]
    have hst : startsWith (c :: List.replicate n c) [c] = true := by
      simp [startsWith]
    rw [if_pos hst]
    simp only [List.length_singleton, List.drop_succ_cons, List.drop_zero, List.length_append]
    rw [plReplaceSteps_replicate c rep n fuel (by omega), Nat.add_mul]
    omega

/-- The failing input of the size computation: `n` bytes `a`, each replaced by `m` bytes
`b`. -/
theorem pl_replace_run (n m : Nat) (hn : n ≠ 0) (hn2 : n < INT_MAX) (hm : 1 < m)
    (hm2 : m ≤ INT_MAX) :
    ∃ b, pl_replace (List.replicate n 97) [97] (List.replicate m 98) = plResult.buffer b
      ∧ b.size = wrap32 (((m * (n + 1) : Nat) : Int))
      ∧ b.written.length = n * m := by
  have h97 : strlen [97] = 1 := rfl
  have h := pl_replace_in_range (List.replicate n 97) [97] (List.replicate m 98)
    (by rw [strlen_replicate _ _ (by decide)]; exact hn) (by rw [h97]; decide)
    (by rw [strlen_replicate _ _ (by decide)]; exact hn2) (by rw [h97]; decide)
    (by rw [strlen_replicate _ _ (by decide)]; exact hm2)
  rw [strlen_replicate _ _ (by decide), strlen_replicate _ _ (by decide), h97,
    if_pos hm, Nat.div_one] at h
  refine ⟨_, h, rfl, ?_⟩
  show (plReplaceSpec (cstr [97]) (cstr (List.replicate m 98))
    (cstr (List.replicate n 97))).length = n * m
  rw [cstr_replicate _ _ (by decide), cstr_replicate _ _ (by decide)]
  have e : cstr [97] = [97] := rfl
  rw [e]
  unfold plReplaceSpec
  rw [List.length_replicate, plReplaceSteps_replicate 97 _ n n (le_refl _),
    List.length_replicate]

/-- C36: `pl_replace` returns NULL when `src` or `org` is the empty string.  Otherwise,
for strings shorter than 2^31 bytes, the bytes it writes from the start of its buffer are
`src` with every occurrence of `org`, found scanning from left to right without overlap,
replaced by `rep`, and every other byte kept in order; the replacement is what the first
occurrence gives: the bytes in front of it, `rep`, and the replacement of the rest behind
the occurrence.  The buffer holds them, and so the returned string is the replaced one,
when the size computed in `int` does not overflow.  When it does the code fails: for `src`
of 65536 bytes `a`, `org` the string `a` and `rep` of 65536 bytes `b`, the buffer is
allocated with 65536 bytes and 4294967296 bytes are written from its start. -/
theorem pl_replace_every_occurrence :
    (∀ src org rep, strlen src = 0 ∨ strlen org = 0 → pl_replace src org rep = plResult.null)
    ∧ (∀ src org rep, strlen src ≠ 0 → strlen org ≠ 0 → strlen src < INT_MAX →
        strlen org ≤ INT_MAX → strlen rep ≤ INT_MAX →
        ∃ b, pl_replace src org rep = plResult.buffer b
          ∧ b.written = plReplaceSpec (cstr org) (cstr rep) (cstr src)
          ∧ ((if strlen org < strlen rep then strlen rep * (strlen src / strlen org + 1)
                else strlen src + 1) ≤ INT_MAX →
              (b.written.length : Int) + 1 ≤ b.size))
    ∧ (∀ org rep s, org ≠ [] → plReplaceSpec org rep s
        = match strstr s org with
          | none => s
          | some i => s.take i ++ rep ++ plReplaceSpec org rep (s.drop (i + org.length)))
    ∧ pl_replace (bytes "a-b-c") (bytes "-") (bytes "::")
        = plResult.buffer ⟨12, bytes "a::b::c"⟩
    ∧ pl_replace (bytes "aaa") (bytes "aa") (bytes "b") = plResult.buffer ⟨4, bytes "ba"⟩
    ∧ pl_replace (bytes "abc") (bytes "x") (bytes "y") = plResult.buffer ⟨4, bytes "abc"⟩
    ∧ pl_replace (bytes "abab") (bytes "ab") [] = plResult.buffer ⟨5, []⟩
    ∧ pl_replace [] (bytes "x") (bytes "y") = plResult.null
    ∧ pl_replace (bytes "abc") [] (bytes "y") = plResult.null
    ∧ (∃ b, pl_replace (List.replicate 65536 97) [97] (List.replicate 65536 98)
          = plResult.buffer b
        ∧ b.size = 65536 ∧ b.written.length = 4294967296) := by
  refine ⟨?_, ?_, fun org rep s ho => plReplaceSpec_first org rep ho s, rfl, rfl,
    rfl, rfl, rfl, rfl, ?_⟩
  · intro src org rep h
    have hw : wrap32 ((0 : Nat) : Int) = 0 := by decide
    unfold pl_replace
    simp only []
    rcases h with h | h
    · rw [h, hw, if_pos (Or.inl rfl)]
    · rw [h, hw, if_pos (Or.inr rfl)]
  · intro src org rep hs ho hsrc horg hrep
    have hr := pl_replace_in_range src org rep hs ho hsrc horg hrep
    refine ⟨_, hr, rfl, ?_⟩
    intro hfit
    exact (pl_replace_fit src org rep ho hfit).2
  · obtain ⟨b, h1, h2, h3⟩ := pl_replace_run 65536 65536 (by decide)
      (by unfold INT_MAX; omega) (by decide) (by unfold INT_MAX; omega)
    refine ⟨b, h1, ?_, ?_⟩
    · rw [h2]
      decide
    · rw [h3]

/-- C37: the allocation of `pl_replace` and the bytes it writes.  For non-empty `src` and
`org` and every `rep`, all shorter than 2^31 bytes, the size passed to `pl_calloc` is
`srclen + 1`, or `replen * (srclen / orglen + 1)` when `rep` is longer than `org`,
truncated to `int`; when that number is at most `INT_MAX` the bytes written, followed by
one terminator, fit into the buffer (`a-b-c` with `-` replaced by `::` takes 7 bytes of
the 12 allocated).  When the product overflows the `int` they need not:
for `src` of 65536 bytes `a`, `org` the string `a` and `rep` of 65536 bytes `b` the
product 65536 * 65537 is truncated to 65536, the size of the buffer, and 4294967296 bytes
are written; for `src` of 46340 bytes and `rep` of 46341 bytes the size passed is
negative. -/
theorem pl_replace_within_allocation :
    (∀ src org rep, strlen src ≠ 0 → strlen org ≠ 0 → strlen src < INT_MAX →
        strlen org ≤ INT_MAX → strlen rep ≤ INT_MAX →
        ∃ b, pl_replace src org rep = plResult.buffer b
          ∧ b.size = wrap32 (((if strlen org < strlen rep then
              strlen rep * (strlen src / strlen org + 1) else strlen src + 1 : Nat) : Int))
          ∧ ((if strlen org < strlen rep then strlen rep * (strlen src / strlen org + 1)
                else strlen src + 1) ≤ INT_MAX →
              b.size = ((if strlen org < strlen rep then
                  strlen rep * (strlen src / strlen org + 1) else strlen src + 1 : Nat) : Int)
              ∧ (b.written.length : Int) + 1 ≤ b.size))
    ∧ (∃ b, pl_replace (bytes "a-b-c") (bytes "-") (bytes "::") = plResult.buffer b
        ∧ b.size = 12 ∧ b.written.length = 7)
    ∧ (∃ b, pl_replace (List.replicate 65536 97) [97] (List.replicate 65536 98)
          = plResult.buffer b
        ∧ b.size = wrap32 (65536 * 65537) ∧ b.size = 65536
        ∧ b.size < (b.written.length : Int) + 1)
    ∧ (∃ b, pl_replace (List.replicate 46340 97) [97] (List.replicate 46341 98)
          = plResult.buffer b
        ∧ b.size = wrap32 (46341 * 46341) ∧ b.size = -2147479015) := by
  refine ⟨?_, ⟨_, rfl, rfl, rfl⟩, ?_, ?_⟩
  · intro src org rep hs ho hsrc horg hrep
    have hr := pl_replace_in_range src org rep hs ho hsrc horg hrep
    refine ⟨_, hr, rfl, ?_⟩
    intro hfit
    have hf := pl_replace_fit src org rep ho hfit
    exact ⟨hf.1, hf.2⟩
  · obtain ⟨b, h1, h2, h3⟩ := pl_replace_run 65536 65536 (by decide)
      (by unfold INT_MAX; omega) (by decide) (by unfold INT_MAX; omega)
    refine ⟨b, h1, ?_, ?_, ?_⟩
    · rw [h2]; rfl
    · rw [h2]; decide
    · rw [h2, h3]; decide
  · obtain ⟨b, h1, h2, _⟩ := pl_replace_run 46340 46341 (by decide)
      (by unfold INT_MAX; omega) (by decide) (by unfold INT_MAX; omega)
    refine ⟨b, h1, ?_, ?_⟩
    · rw [h2]; rfl
    · rw [h2]; decide

/-! ## The bytes behind a parsed value are not examined -/

theorem drop_append_of_le {α : Type} (n : Nat) (a b : List α) (h : n ≤ a.length) :
    (a ++ b).drop n = a.drop n ++ b := by
  rw [List.drop_append_eq_append_drop, show n - a.length = 0 by omega, List.drop_zero]

theorem ne_nil_of_suffix_ne_nil {a b : List Nat} (h : a <:+ b) (ha : a ≠ []) : b ≠ [] := by
  intro hb
  subst hb
  exact ha (List.suffix_nil.mp h)

theorem _js_skip_append : ∀ (v s : List Nat), _js_skip v ≠ [] →
    _js_skip (v ++ s) = _js_skip v ++ s
  | [], _, h => absurd rfl h
  | c :: v, s, h => by
    rw [_js_skip] at h ⊢
    rw [List.cons_append, _js_skip]
    by_cases hc : c ≠ 0 ∧ c ≤ 32
    · rw [if_pos hc] at h ⊢
      rw [if_pos hc]
      exact _js_skip_append v s h
    · rw [if_neg hc, if_neg hc]
      rfl

theorem startsWith_append : ∀ (value lit s : List Nat), startsWith value lit = true →
    startsWith (value ++ s) lit = true
  | _, [], _, _ => by rw [startsWith]
  | [], _ :: _, _, h => by rw [startsWith] at h; cases h
  | c :: value, d :: lit, s, h => by
    rw [startsWith, Bool.and_eq_true] at h
    rw [List.cons_append, startsWith, Bool.and_eq_true]
    exact ⟨h.1, startsWith_append value lit s h.2⟩

/-- The scan of a string body that stops inside the text does not depend on what follows
the text. -/
theorem _js_string_escape_len_append : ∀ (val s : List Nat),
    val.drop (_js_string_escape_len val).2 ≠ [] →
    _js_string_escape_len (val ++ s) = _js_string_escape_len val
    ∧ _js_string_escape_out (val ++ s) = _js_string_escape_out val
  | [], _, h => by simp [_js_string_escape_len] at h
  | [c], s, h => by
    rw [List.singleton_append]
    unfold _js_string_escape_len _js_string_escape_out at *
    by_cases hq : c = 34 ∨ c = 0
    · rw [if_pos hq, if_pos hq]
      simp only [hq, if_true, and_self]
    · rw [if_neg hq] at h
      by_cases h92 : c = 92
      · rw [if_pos h92] at h
        simp at h
      · rw [if_neg h92] at h
        simp [_js_string_escape_len] at h
  | c :: x :: val1, s, h => by
    rw [List.cons_append, List.cons_append]
    unfold _js_string_escape_len _js_string_escape_out at *
    by_cases hq : c = 34 ∨ c = 0
    · rw [if_pos hq, if_pos hq]
      simp only [hq, if_true, and_self]
    · rw [if_neg hq] at h
      rw [if_neg hq, if_neg hq, if_neg hq, if_neg hq]
      by_cases h92 : c = 92
      · rw [if_pos h92] at h
        simp only [List.drop_succ_cons] at h
        obtain ⟨ih1, ih2⟩ := _js_string_escape_len_append val1 s h
        rw [if_pos h92, if_pos h92, if_neg (by simpa using h92), if_neg (by simpa using h92)]
        simp only [ih1, ih2, and_self]
      · rw [if_neg h92] at h
        simp only [List.drop_succ_cons] at h
        obtain ⟨ih1, ih2⟩ := _js_string_escape_len_append (x :: val1) s h
        rw [List.cons_append] at ih1 ih2
        rw [if_neg h92, if_neg h92, if_pos h92, if_pos h92]
        simp only [ih1, ih2, and_self]

theorem hd_drop_ne_nil {v : List Nat} (h : hd v ≠ 0) : v ≠ [] := ne_nil_of_hd_ne_zero h

/-- The string or name at `v` and the position behind it, when that position lies inside
the text. -/
theorem string_scan_append (v s : List Nat) (hv : v ≠ [])
    (hrest : (if hd ((v.drop 1).drop (_js_string_escape (v.drop 1)).2) = 34
        then ((v.drop 1).drop (_js_string_escape (v.drop 1)).2).drop 1
        else (v.drop 1).drop (_js_string_escape (v.drop 1)).2) ≠ []) :
    _js_string_escape ((v ++ s).drop 1) = _js_string_escape (v.drop 1)
    ∧ (if hd (((v ++ s).drop 1).drop (_js_string_escape (v.drop 1)).2) = 34
        then (((v ++ s).drop 1).drop (_js_string_escape (v.drop 1)).2).drop 1
        else ((v ++ s).drop 1).drop (_js_string_escape (v.drop 1)).2)
      = (if hd ((v.drop 1).drop (_js_string_escape (v.drop 1)).2) = 34
        then ((v.drop 1).drop (_js_string_escape (v.drop 1)).2).drop 1
        else (v.drop 1).drop (_js_string_escape (v.drop 1)).2) ++ s := by
  have hd1 : (v ++ s).drop 1 = v.drop 1 ++ s :=
    drop_append_of_le 1 v s (List.length_pos.mpr hv)
  have hval : (v.drop 1).drop (_js_string_escape (v.drop 1)).2 ≠ [] := by
    intro hc
    rw [hc] at hrest
    simp [hd] at hrest
  have hval' : (v.drop 1).drop (_js_string_escape_len (v.drop 1)).2 ≠ [] := hval
  obtain ⟨h1, h2⟩ := _js_string_escape_len_append (v.drop 1) s hval'
  have hesc : _js_string_escape ((v ++ s).drop 1) = _js_string_escape (v.drop 1) := by
    rw [hd1]
    unfold _js_string_escape
    rw [h1, h2]
  have hle : (_js_string_escape (v.drop 1)).2 ≤ (v.drop 1).length := by
    by_contra hc
    exact hval (List.drop_eq_nil_of_le (by omega))
  refine ⟨hesc, ?_⟩
  rw [hd1, drop_append_of_le _ _ _ hle, hd_append_of_ne_nil _ hval]
  by_cases h34 : hd ((v.drop 1).drop (_js_string_escape (v.drop 1)).2) = 34
  · rw [if_pos h34, if_pos h34, drop_append_of_le 1 _ _ (List.length_pos.mpr hval)]
  · rw [if_neg h34, if_neg h34]

theorem _js_parse_string_append (v s : List Nat) (hv : v ≠ [])
    (hrest : (_js_parse_string v).2 ≠ []) :
    _js_parse_string (v ++ s) = ((_js_parse_string v).1, (_js_parse_string v).2 ++ s) := by
  obtain ⟨h1, h2⟩ := string_scan_append v s hv hrest
  unfold _js_parse_string
  simp only [h1, h2]

theorem _js_parse_name_append (v s : List Nat) (name rest : List Nat)
    (h : _js_parse_name v = Except.ok (name, rest)) (hrest : rest ≠ []) :
    _js_parse_name (v ++ s) = Except.ok (name, rest ++ s) := by
  unfold _js_parse_name at h
  by_cases h34 : hd v ≠ 34
  · rw [if_pos h34] at h
    cases h
  · rw [if_neg h34] at h
    have hv : v ≠ [] := by
      intro hc
      subst hc
      exact h34 (by decide)
    simp only [Except.ok.injEq, Prod.mk.injEq] at h
    obtain ⟨hn, hr⟩ := h
    obtain ⟨h1, h2⟩ := string_scan_append v s hv (by rw [hr]; exact hrest)
    unfold _js_parse_name
    rw [hd_append_of_ne_nil s hv, if_neg h34]
    simp only [h1, h2, hn, hr]

theorem _js_parse_digits_append : ∀ (v s : List Nat) (num : Dbl) (n : Nat),
    (_js_parse_digits v num n).2.2 ≠ [] →
    _js_parse_digits (v ++ s) num n
      = ((_js_parse_digits v num n).1, (_js_parse_digits v num n).2.1,
          (_js_parse_digits v num n).2.2 ++ s)
  | [], _, _, _, h => by simp [_js_parse_digits] at h
  | c :: v, s, num, n, h => by
    rw [_js_parse_digits] at h ⊢
    rw [List.cons_append, _js_parse_digits]
    by_cases hc : 48 ≤ c ∧ c ≤ 57
    · rw [if_pos hc] at h ⊢
      rw [if_pos hc]
      exact _js_parse_digits_append v s _ _ h
    · rw [if_neg hc, if_neg hc]
      rfl

theorem _js_parse_subscale_append : ∀ (v s : List Nat) (sub : Int),
    (_js_parse_subscale v sub).2 ≠ [] →
    _js_parse_subscale (v ++ s) sub
      = ((_js_parse_subscale v sub).1, (_js_parse_subscale v sub).2 ++ s)
  | [], _, _, h => by simp [_js_parse_subscale] at h
  | c :: v, s, sub, h => by
    rw [_js_parse_subscale] at h ⊢
    rw [List.cons_append, _js_parse_subscale]
    by_cases hc : 48 ≤ c ∧ c ≤ 57
    · rw [if_pos hc] at h ⊢
      rw [if_pos hc]
      exact _js_parse_subscale_append v s _ h
    · rw [if_neg hc, if_neg hc]
      rfl

theorem _js_number_int_append (v s : List Nat) (h : (_js_number_int v).2 ≠ []) :
    _js_number_int (v ++ s) = ((_js_number_int v).1, (_js_number_int v).2 ++ s) := by
  have hv : v ≠ [] := ne_nil_of_suffix_ne_nil (_js_number_int_suffix v) h
  unfold _js_number_int at h ⊢
  simp only [] at h ⊢
  rw [hd_append_of_ne_nil s hv]
  generalize hw : (if hd v = 48 then v.drop 1 else v) = w at h
  have hws : (if hd v = 48 then (v ++ s).drop 1 else v ++ s) = w ++ s := by
    rw [← hw]
    by_cases h0 : hd v = 48
    · rw [if_pos h0, if_pos h0, drop_append_of_le 1 v s (List.length_pos.mpr hv)]
    · rw [if_neg h0, if_neg h0]
  rw [hws]
  have hwne : w ≠ [] := by
    intro hc
    subst hc
    simp [hd, _js_parse_digits] at h
  rw [hd_append_of_ne_nil s hwne]
  by_cases hd19 : 49 ≤ hd w ∧ hd w ≤ 57
  · simp only [if_pos hd19] at h ⊢
    rw [_js_parse_digits_append w s _ _ h]
  · simp only [if_neg hd19]

theorem _js_number_frac_append (num : Dbl) (v s : List Nat)
    (h : (_js_number_frac num v).2.2 ≠ []) (h46 : hd (_js_number_frac num v).2.2 ≠ 46) :
    _js_number_frac num (v ++ s)
      = ((_js_number_frac num v).1, (_js_number_frac num v).2.1,
          (_js_number_frac num v).2.2 ++ s) := by
  have hv : v ≠ [] := ne_nil_of_suffix_ne_nil (_js_number_frac_suffix num v) h
  unfold _js_number_frac at h h46 ⊢
  by_cases hc : hd v = 46 ∧ 48 ≤ hd (v.drop 1) ∧ hd (v.drop 1) ≤ 57
  · rw [if_pos hc] at h
    have hv1 : v.drop 1 ≠ [] := ne_nil_of_hd_ne_zero (by omega)
    have hd1 : (v ++ s).drop 1 = v.drop 1 ++ s :=
      drop_append_of_le 1 v s (List.length_pos.mpr hv)
    rw [hd_append_of_ne_nil s hv, hd1, hd_append_of_ne_nil s hv1, if_pos hc, if_pos hc]
    exact _js_parse_digits_append _ s _ _ h
  · rw [if_neg hc] at h46
    have hne : ¬ (hd (v ++ s) = 46 ∧ 48 ≤ hd ((v ++ s).drop 1) ∧ hd ((v ++ s).drop 1) ≤ 57) := by
      rw [hd_append_of_ne_nil s hv]
      exact fun hx => h46 hx.1
    rw [if_neg hc, if_neg hne]

theorem _js_number_exp_append (v s : List Nat) (h : (_js_number_exp v).2 ≠ []) :
    _js_number_exp (v ++ s) = ((_js_number_exp v).1, (_js_number_exp v).2 ++ s) := by
  have hv : v ≠ [] := ne_nil_of_suffix_ne_nil (_js_number_exp_suffix v) h
  unfold _js_number_exp at h ⊢
  rw [hd_append_of_ne_nil s hv]
  by_cases hc : hd v = 101 ∨ hd v = 69
  · simp only [if_pos hc] at h ⊢
    have hd1 : (v ++ s).drop 1 = v.drop 1 ++ s :=
      drop_append_of_le 1 v s (List.length_pos.mpr hv)
    have hw : (if hd (v.drop 1) = 43 ∨ hd (v.drop 1) = 45 then (v.drop 1).drop 1
        else v.drop 1) ≠ [] :=
      ne_nil_of_suffix_ne_nil (_js_parse_subscale_suffix _ _) h
    have hv1 : v.drop 1 ≠ [] := by
      intro hx
      rw [hx] at hw
      simp at hw
    rw [hd1, hd_append_of_ne_nil s hv1]
    have hws : (if hd (v.drop 1) = 43 ∨ hd (v.drop 1) = 45 then (v.drop 1 ++ s).drop 1
        else v.drop 1 ++ s)
        = (if hd (v.drop 1) = 43 ∨ hd (v.drop 1) = 45 then (v.drop 1).drop 1
          else v.drop 1) ++ s := by
      by_cases hsg : hd (v.drop 1) = 43 ∨ hd (v.drop 1) = 45
      · rw [if_pos hsg, if_pos hsg,
          drop_append_of_le 1 _ s (List.length_pos.mpr hv1)]
      · rw [if_neg hsg, if_neg hsg]
    rw [hws, _js_parse_subscale_append _ s _ h]
  · simp only [if_neg hc]

/-- A number followed by a byte that is not the point: the bytes behind it do not
matter. -/
theorem _js_parse_number_append (v s : List Nat) (h : (_js_parse_number v).2 ≠ [])
    (h46 : hd (_js_parse_number v).2 ≠ 46) :
    _js_parse_number (v ++ s) = ((_js_parse_number v).1, (_js_parse_number v).2 ++ s) := by
  have hv : v ≠ [] := ne_nil_of_suffix_ne_nil (_js_parse_number_suffix v) h
  unfold _js_parse_number at h h46 ⊢
  simp only [] at h h46 ⊢
  rw [hd_append_of_ne_nil s hv]
  generalize hw : (if hd v = 45 then v.drop 1 else v) = w at h h46
  have hws : (if hd v = 45 then (v ++ s).drop 1 else v ++ s) = w ++ s := by
    rw [← hw]
    by_cases h0 : hd v = 45
    · rw [if_pos h0, if_pos h0, drop_append_of_le 1 v s (List.length_pos.mpr hv)]
    · rw [if_neg h0, if_neg h0]
  rw [hws]
  have h2 : (_js_number_frac (_js_number_int w).1 (_js_number_int w).2).2.2 ≠ [] :=
    ne_nil_of_suffix_ne_nil (_js_number_exp_suffix _) h
  have h1 : (_js_number_int w).2 ≠ [] :=
    ne_nil_of_suffix_ne_nil (_js_number_frac_suffix _ _) h2
  have h246 : hd (_js_number_frac (_js_number_int w).1 (_js_number_int w).2).2.2 ≠ 46 := by
    intro hx
    have hexp : _js_number_exp (_js_number_frac (_js_number_int w).1 (_js_number_int w).2).2.2
        = (0, (_js_number_frac (_js_number_int w).1 (_js_number_int w).2).2.2) := by
      unfold _js_number_exp
      rw [if_neg (by rw [hx]; decide)]
    rw [hexp] at h46
    exact h46 hx
  rw [_js_number_int_append w s h1]
  simp only []
  rw [_js_number_frac_append _ _ s h2 h246]
  simp only []
  rw [_js_number_exp_append _ s h]

theorem parse_number_kind (v : List Nat) :
    (∃ x, (_js_parse_number v).1 = jsObject.number_l64 x)
    ∨ (∃ d, (_js_parse_number v).1 = jsObject.number_d64 d) := by
  unfold _js_parse_number
  simp only []
  split_ifs <;> simp [_js_object_set_number]

theorem startsWith_false_of_hd (value s : List Nat) (c : Nat) (lit : List Nat)
    (hv : value ≠ []) (h : hd value ≠ c) : ¬ (startsWith (value ++ s) (c :: lit) = true) := by
  intro hs
  have := startsWith_hd _ _ _ hs
  rw [hd_append_of_ne_nil s hv] at this
  exact h this

/-- A separator or a closing bracket behind blanks: the position in front of the blanks
is inside the text and does not hold a point. -/
theorem delim_of_skip (rest : List Nat)
    (h : hd (_js_skip rest) = 44 ∨ hd (_js_skip rest) = 93 ∨ hd (_js_skip rest) = 125) :
    _js_skip rest ≠ [] ∧ rest ≠ [] ∧ hd rest ≠ 46 := by
  have h1 : _js_skip rest ≠ [] := ne_nil_of_hd_ne_zero (by omega)
  refine ⟨h1, ne_nil_of_suffix_ne_nil (_js_skip_suffix rest) h1, ?_⟩
  intro h46
  rw [_js_skip_ends rest (Or.inr (by omega))] at h
  omega

theorem parse_value_ne_nil (fuel : Nat) (value : List Nat) (obj : jsObject) (rest : List Nat)
    (h : _js_parse_value fuel value = some (jsParse.ok obj rest)) : value ≠ [] := by
  intro hv
  subst hv
  cases fuel with
  | zero => rw [_js_parse_value] at h; cases h
  | succ fuel =>
    rw [_js_parse_value] at h
    simp [startsWith, hd] at h

theorem parse_array_loop_start (fuel : Nat) (ls : lsHandle jsObject) (value : List Nat)
    (obj : jsObject) (rest : List Nat)
    (h : _js_parse_array_loop fuel ls value = some (jsParse.ok obj rest)) :
    hd value = 44 ∨ hd value = 93 := by
  cases fuel with
  | zero => rw [_js_parse_array_loop] at h; cases h
  | succ fuel =>
    rw [_js_parse_array_loop] at h
    by_cases h44 : hd value = 44
    · exact Or.inl h44
    · by_cases h93 : hd value = 93
      · exact Or.inr h93
      · rw [if_neg h44, if_neg h93] at h
        cases h

theorem parse_object_loop_start (fuel : Nat) (ht : jsTable) (value : List Nat)
    (obj : jsObject) (rest : List Nat)
    (h : _js_parse_object_loop fuel ht value = some (jsParse.ok obj rest)) :
    hd value = 44 ∨ hd value = 125 := by
  cases fuel with
  | zero => rw [_js_parse_object_loop] at h; cases h
  | succ fuel =>
    rw [_js_parse_object_loop] at h
    by_cases h44 : hd value = 44
    · exact Or.inl h44
    · by_cases h125 : hd value = 125
      · exact Or.inr h125
      · rw [if_neg h44, if_neg h125] at h
        cases h

mutual

/-- A value that was parsed is parsed again, with the same result, when bytes are appended
to the text and the recursion bound is raised: always for a literal, an array and an
Object, and for a string or a number when the position behind it is inside the text and
holds no point. -/
theorem parse_value_append : ∀ (fuel : Nat) (value : List Nat) (obj : jsObject)
    (rest : List Nat), _js_parse_value fuel value = some (jsParse.ok obj rest) →
    (((∀ v, obj ≠ jsObject.string v) ∧ (∀ x, obj ≠ jsObject.number_l64 x)
        ∧ (∀ d, obj ≠ jsObject.number_d64 d)) ∨ (rest ≠ [] ∧ hd rest ≠ 46)) →
    ∀ (s : List Nat) (fuel1 : Nat), fuel ≤ fuel1 →
      _js_parse_value fuel1 (value ++ s) = some (jsParse.ok obj (rest ++ s))
  | 0, _, _, _, h, _, _, _, _ => by rw [_js_parse_value] at h; cases h
  | fuel + 1, value, obj, rest, h, hc, s, fuel1, hf => by
    obtain ⟨f1, rfl⟩ : ∃ f1, fuel1 = f1 + 1 := ⟨fuel1 - 1, by omega⟩
    have hv : value ≠ [] := parse_value_ne_nil _ _ _ _ h
    have hhd : hd (value ++ s) = hd value := hd_append_of_ne_nil s hv
    rw [_js_parse_value] at h ⊢
    by_cases h1 : startsWith value [110, 117, 108, 108] = true
    · rw [if_pos h1] at h
      rw [if_pos (startsWith_append _ _ s h1)]
      simp only [Option.some.injEq, jsParse.ok.injEq] at h ⊢
      refine ⟨h.1, ?_⟩
      rw [← h.2, drop_append_of_le 4 _ _ (startsWith_length _ _ h1)]
    rw [if_neg h1] at h
    by_cases h2 : startsWith value [102, 97, 108, 115, 101] = true
    · rw [if_pos h2] at h
      have e2 := startsWith_hd _ _ _ h2
      rw [if_neg (startsWith_false_of_hd value s 110 _ hv (by omega)),
        if_pos (startsWith_append _ _ s h2)]
      simp only [Option.some.injEq, jsParse.ok.injEq] at h ⊢
      refine ⟨h.1, ?_⟩
      rw [← h.2, drop_append_of_le 5 _ _ (startsWith_length _ _ h2)]
    rw [if_neg h2] at h
    by_cases h3 : startsWith value [116, 114, 117, 101] = true
    · rw [if_pos h3] at h
      have e3 := startsWith_hd _ _ _ h3
      rw [if_neg (startsWith_false_of_hd value s 110 _ hv (by omega)),
        if_neg (startsWith_false_of_hd value s 102 _ hv (by omega)),
        if_pos (startsWith_append _ _ s h3)]
      simp only [Option.some.injEq, jsParse.ok.injEq] at h ⊢
      refine ⟨h.1, ?_⟩
      rw [← h.2, drop_append_of_le 4 _ _ (startsWith_length _ _ h3)]
    rw [if_neg h3] at h
    by_cases h34 : hd value = 34
    · rw [if_pos h34] at h
      rw [if_neg (startsWith_false_of_hd value s 110 _ hv (by omega)),
        if_neg (startsWith_false_of_hd value s 102 _ hv (by omega)),
        if_neg (startsWith_false_of_hd value s 116 _ hv (by omega)),
        hhd, if_pos h34]
      simp only [Option.some.injEq, jsParse.ok.injEq] at h
      have hr : (_js_parse_string value).2 ≠ [] := by
        rcases hc with hc | hc
        · exact absurd h.1.symm (hc.1 _)
        · rw [h.2]; exact hc.1
      rw [_js_parse_string_append value s hv hr, h.1, h.2]
    rw [if_neg h34] at h
    by_cases hnum : hd value = 45 ∨ (48 ≤ hd value ∧ hd value ≤ 57)
    · rw [if_pos hnum] at h
      rw [if_neg (startsWith_false_of_hd value s 110 _ hv (by omega)),
        if_neg (startsWith_false_of_hd value s 102 _ hv (by omega)),
        if_neg (startsWith_false_of_hd value s 116 _ hv (by omega)),
        hhd, if_neg h34, if_pos hnum]
      simp only [Option.some.injEq, jsParse.ok.injEq] at h
      have hr : (_js_parse_number value).2 ≠ [] ∧ hd (_js_parse_number value).2 ≠ 46 := by
        rcases hc with hc | hc
        · rcases parse_number_kind value with ⟨x, hx⟩ | ⟨d, hx⟩
          · exact absurd (h.1.symm.trans hx) (hc.2.1 x)
          · exact absurd (h.1.symm.trans hx) (hc.2.2 d)
        · rw [h.2]; exact hc
      rw [_js_parse_number_append value s hr.1 hr.2, h.1, h.2]
    rw [if_neg hnum] at h
    by_cases h91 : hd value = 91
    · rw [if_pos h91] at h
      rw [if_neg (startsWith_false_of_hd value s 110 _ hv (by omega)),
        if_neg (startsWith_false_of_hd value s 102 _ hv (by omega)),
        if_neg (startsWith_false_of_hd value s 116 _ hv (by omega)),
        hhd, if_neg h34, if_neg hnum, if_pos h91]
      exact parse_array_append fuel value obj rest hv h s f1 (by omega)
    rw [if_neg h91] at h
    by_cases h123 : hd value = 123
    · rw [if_pos h123] at h
      rw [if_neg (startsWith_false_of_hd value s 110 _ hv (by omega)),
        if_neg (startsWith_false_of_hd value s 102 _ hv (by omega)),
        if_neg (startsWith_false_of_hd value s 116 _ hv (by omega)),
        hhd, if_neg h34, if_neg hnum, if_neg h91, if_pos h123]
      exact parse_object_append fuel value obj rest hv h s f1 (by omega)
    rw [if_neg h123] at h
    cases h

theorem parse_array_append : ∀ (fuel : Nat) (value : List Nat) (obj : jsObject)
    (rest : List Nat), value ≠ [] →
    _js_parse_array fuel value = some (jsParse.ok obj rest) →
    ∀ (s : List Nat) (fuel1 : Nat), fuel ≤ fuel1 →
      _js_parse_array fuel1 (value ++ s) = some (jsParse.ok obj (rest ++ s))
  | 0, _, _, _, _, h, _, _, _ => by rw [_js_parse_array] at h; cases h
  | fuel + 1, value, obj, rest, hv, h, s, fuel1, hf => by
    obtain ⟨f1, rfl⟩ : ∃ f1, fuel1 = f1 + 1 := ⟨fuel1 - 1, by omega⟩
    have hd1 : (value ++ s).drop 1 = value.drop 1 ++ s :=
      drop_append_of_le 1 value s (List.length_pos.mpr hv)
    rw [_js_parse_array] at h ⊢
    rw [hd1]
    by_cases h93 : hd (_js_skip (value.drop 1)) = 93
    · rw [if_pos h93] at h
      have hne : _js_skip (value.drop 1) ≠ [] := ne_nil_of_hd_ne_zero (by omega)
      rw [_js_skip_append _ s hne, hd_append_of_ne_nil s hne, if_pos h93]
      simp only [Option.some.injEq, jsParse.ok.injEq] at h ⊢
      refine ⟨h.1, ?_⟩
      rw [← h.2, drop_append_of_le 1 _ _ (List.length_pos.mpr hne)]
    · rw [if_neg h93] at h
      cases hp : _js_parse_value fuel (_js_skip (_js_skip (value.drop 1))) with
      | none => rw [hp] at h; cases h
      | some r =>
        cases r with
        | fail pos => rw [hp] at h; cases h
        | ok sub rest1 =>
          simp only [hp] at h
          have hx : _js_skip (_js_skip (value.drop 1)) ≠ [] := parse_value_ne_nil _ _ _ _ hp
          have hne : _js_skip (value.drop 1) ≠ [] :=
            ne_nil_of_suffix_ne_nil (_js_skip_suffix _) hx
          obtain ⟨hs1, hr1, h46⟩ := delim_of_skip rest1
            (by rcases parse_array_loop_start _ _ _ _ _ h with hh | hh
                · exact Or.inl hh
                · exact Or.inr (Or.inl hh))
          have hp1 := parse_value_append fuel _ sub rest1 hp (Or.inr ⟨hr1, h46⟩) s f1
            (by omega)
          have hl := parse_array_loop_append fuel _ _ obj rest h s f1 (by omega)
          rw [_js_skip_append _ s hne, hd_append_of_ne_nil s hne, if_neg h93,
            _js_skip_append _ s hx]
          simp only [hp1]
          rw [_js_skip_append _ s hs1]
          exact hl

theorem parse_array_loop_append : ∀ (fuel : Nat) (ls : lsHandle jsObject) (value : List Nat)
    (obj : jsObject) (rest : List Nat),
    _js_parse_array_loop fuel ls value = some (jsParse.ok obj rest) →
    ∀ (s : List Nat) (fuel1 : Nat), fuel ≤ fuel1 →
      _js_parse_array_loop fuel1 ls (value ++ s) = some (jsParse.ok obj (rest ++ s))
  | 0, _, _, _, _, h, _, _, _ => by rw [_js_parse_array_loop] at h; cases h
  | fuel + 1, ls, value, obj, rest, h, s, fuel1, hf => by
    obtain ⟨f1, rfl⟩ : ∃ f1, fuel1 = f1 + 1 := ⟨fuel1 - 1, by omega⟩
    have hv : value ≠ [] := by
      rcases parse_array_loop_start _ _ _ _ _ h with hh | hh
      · exact ne_nil_of_hd_ne_zero (by omega)
      · exact ne_nil_of_hd_ne_zero (by omega)
    have hd1 : (value ++ s).drop 1 = value.drop 1 ++ s :=
      drop_append_of_le 1 value s (List.length_pos.mpr hv)
    rw [_js_parse_array_loop] at h ⊢
    rw [hd_append_of_ne_nil s hv, hd1]
    by_cases h44 : hd value = 44
    · rw [if_pos h44] at h ⊢
      cases hp : _js_parse_value fuel (_js_skip (value.drop 1)) with
      | none => rw [hp] at h; cases h
      | some r =>
        cases r with
        | fail pos => rw [hp] at h; cases h
        | ok sub rest1 =>
          simp only [hp] at h
          have hx : _js_skip (value.drop 1) ≠ [] := parse_value_ne_nil _ _ _ _ hp
          obtain ⟨hs1, hr1, h46⟩ := delim_of_skip rest1
            (by rcases parse_array_loop_start _ _ _ _ _ h with hh | hh
                · exact Or.inl hh
                · exact Or.inr (Or.inl hh))
          have hp1 := parse_value_append fuel _ sub rest1 hp (Or.inr ⟨hr1, h46⟩) s f1
            (by omega)
          have hl := parse_array_loop_append fuel _ _ obj rest h s f1 (by omega)
          rw [_js_skip_append _ s hx]
          simp only [hp1]
          rw [_js_skip_append _ s hs1]
          exact hl
    · rw [if_neg h44] at h ⊢
      by_cases h93 : hd value = 93
      · rw [if_pos h93] at h ⊢
        simp only [Option.some.injEq, jsParse.ok.injEq] at h ⊢
        exact ⟨h.1, by rw [← h.2]⟩
      · rw [if_neg h93] at h
        cases h

theorem parse_object_append : ∀ (fuel : Nat) (value : List Nat) (obj : jsObject)
    (rest : List Nat), value ≠ [] →
    _js_parse_object fuel value = some (jsParse.ok obj rest) →
    ∀ (s : List Nat) (fuel1 : Nat), fuel ≤ fuel1 →
      _js_parse_object fuel1 (value ++ s) = some (jsParse.ok obj (rest ++ s))
  | 0, _, _, _, _, h, _, _, _ => by rw [_js_parse_object] at h; cases h
  | fuel + 1, value, obj, rest, hv, h, s, fuel1, hf => by
    obtain ⟨f1, rfl⟩ : ∃ f1, fuel1 = f1 + 1 := ⟨fuel1 - 1, by omega⟩
    have hd1 : (value ++ s).drop 1 = value.drop 1 ++ s :=
      drop_append_of_le 1 value s (List.length_pos.mpr hv)
    rw [_js_parse_object] at h ⊢
    rw [hd1]
    by_cases h125 : hd (_js_skip (value.drop 1)) = 125
    · rw [if_pos h125] at h
      have hne : _js_skip (value.drop 1) ≠ [] := ne_nil_of_hd_ne_zero (by omega)
      rw [_js_skip_append _ s hne, hd_append_of_ne_nil s hne, if_pos h125]
      simp only [Option.some.injEq, jsParse.ok.injEq] at h ⊢
      refine ⟨h.1, ?_⟩
      rw [← h.2, drop_append_of_le 1 _ _ (List.length_pos.mpr hne)]
    · rw [if_neg h125] at h
      have hx : _js_skip (_js_skip (value.drop 1)) ≠ [] := by
        intro hc
        rw [hc] at h
        cases fuel with
        | zero => rw [_js_parse_object_member] at h; cases h
        | succ fuel =>
          rw [_js_parse_object_member] at h
          simp [_js_parse_name, hd] at h
      have hne : _js_skip (value.drop 1) ≠ [] :=
        ne_nil_of_suffix_ne_nil (_js_skip_suffix _) hx
      rw [_js_skip_append _ s hne, hd_append_of_ne_nil s hne, if_neg h125,
        _js_skip_append _ s hx]
      exact parse_object_member_append fuel _ _ obj rest h s f1 (by omega)

theorem parse_object_member_append : ∀ (fuel : Nat) (ht : jsTable) (value : List Nat)
    (obj : jsObject) (rest : List Nat),
    _js_parse_object_member fuel ht value = some (jsParse.ok obj rest) →
    ∀ (s : List Nat) (fuel1 : Nat), fuel ≤ fuel1 →
      _js_parse_object_member fuel1 ht (value ++ s) = some (jsParse.ok obj (rest ++ s))
  | 0, _, _, _, _, h, _, _, _ => by rw [_js_parse_object_member] at h; cases h
  | fuel + 1, ht, value, obj, rest, h, s, fuel1, hf => by
    obtain ⟨f1, rfl⟩ : ∃ f1, fuel1 = f1 + 1 := ⟨fuel1 - 1, by omega⟩
    rw [_js_parse_object_member] at h ⊢
    cases hn : _js_parse_name value with
    | error pos => rw [hn] at h; cases h
    | ok nr =>
      obtain ⟨name, rest0⟩ := nr
      simp only [hn] at h
      by_cases hadd : (_js_object_add_object ht name jsObject.null).1 = 0
      · rw [if_pos hadd] at h; cases h
      · rw [if_neg hadd] at h
        by_cases h58 : hd (_js_skip rest0) ≠ 58
        · rw [if_pos h58] at h; cases h
        · rw [if_neg h58] at h
          have h58' : hd (_js_skip rest0) = 58 := by omega
          have hs0 : _js_skip rest0 ≠ [] := ne_nil_of_hd_ne_zero (by omega)
          have hr0 : rest0 ≠ [] := ne_nil_of_suffix_ne_nil (_js_skip_suffix _) hs0
          have hn1 := _js_parse_name_append value s name rest0 hn hr0
          cases hp : _js_parse_value fuel (_js_skip ((_js_skip rest0).drop 1)) with
          | none => rw [hp] at h; cases h
          | some r =>
            cases r with
            | fail pos => rw [hp] at h; cases h
            | ok sub rest1 =>
              simp only [hp] at h
              have hx : _js_skip ((_js_skip rest0).drop 1) ≠ [] :=
                parse_value_ne_nil _ _ _ _ hp
              obtain ⟨hs1, hr1, h46⟩ := delim_of_skip rest1
                (by rcases parse_object_loop_start _ _ _ _ _ h with hh | hh
                    · exact Or.inl hh
                    · exact Or.inr (Or.inr hh))
              have hp1 := parse_value_append fuel _ sub rest1 hp (Or.inr ⟨hr1, h46⟩) s f1
                (by omega)
              have hl := parse_object_loop_append fuel _ _ obj rest h s f1 (by omega)
              simp only [hn1]
              rw [if_neg hadd, _js_skip_append _ s hs0, hd_append_of_ne_nil s hs0,
                if_neg h58, drop_append_of_le 1 _ _ (List.length_pos.mpr hs0),
                _js_skip_append _ s hx]
              simp only [hp1]
              rw [_js_skip_append _ s hs1]
              exact hl

theorem parse_object_loop_append : ∀ (fuel : Nat) (ht : jsTable) (value : List Nat)
    (obj : jsObject) (rest : List Nat),
    _js_parse_object_loop fuel ht value = some (jsParse.ok obj rest) →
    ∀ (s : List Nat) (fuel1 : Nat), fuel ≤ fuel1 →
      _js_parse_object_loop fuel1 ht (value ++ s) = some (jsParse.ok obj (rest ++ s))
  | 0, _, _, _, _, h, _, _, _ => by rw [_js_parse_object_loop] at h; cases h
  | fuel + 1, ht, value, obj, rest, h, s, fuel1, hf => by
    obtain ⟨f1, rfl⟩ : ∃ f1, fuel1 = f1 + 1 := ⟨fuel1 - 1, by omega⟩
    have hv : value ≠ [] := by
      rcases parse_object_loop_start _ _ _ _ _ h with hh | hh
      · exact ne_nil_of_hd_ne_zero (by omega)
      · exact ne_nil_of_hd_ne_zero (by omega)
    have hd1 : (value ++ s).drop 1 = value.drop 1 ++ s :=
      drop_append_of_le 1 value s (List.length_pos.mpr hv)
    rw [_js_parse_object_loop] at h ⊢
    rw [hd_append_of_ne_nil s hv, hd1]
    by_cases h44 : hd value = 44
    · rw [if_pos h44] at h ⊢
      have hx : _js_skip (value.drop 1) ≠ [] := by
        intro hc
        rw [hc] at h
        cases fuel with
        | zero => rw [_js_parse_object_member] at h; cases h
        | succ fuel =>
          rw [_js_parse_object_member] at h
          simp [_js_parse_name, hd] at h
      rw [_js_skip_append _ s hx]
      exact parse_object_member_append fuel _ _ obj rest h s f1 (by omega)
    · rw [if_neg h44] at h ⊢
      by_cases h125 : hd value = 125
      · rw [if_pos h125] at h ⊢
        simp only [Option.some.injEq, jsParse.ok.injEq] at h ⊢
        exact ⟨h.1, by rw [← h.2]⟩
      · rw [if_neg h125] at h
        cases h

end

/-- C33: `js_parse` never examines the bytes behind the closing brace of the root Object.
For every text `T` on which `js_parse` succeeds (in particular one that ends at the closing
brace of its root) and every byte string `s`, `js_parse` of `T` followed by `s` succeeds as
well, with the same root and the same document: the value parser returns the same Object,
and the position behind it is the old one followed by `s`. -/
theorem js_parse_ignores_trailing_bytes (js : jsHandle) (T s : List Nat)
    (hok : (js_parse js T).1 = JS_TRUE) :
    js_parse js (T ++ s) = js_parse js T
    ∧ (js_parse js (T ++ s)).1 = JS_TRUE
    ∧ ∃ obj rest, obj.isObject = true
        ∧ _js_parse_value (2 * T.length + 1) (_js_skip T) = some (jsParse.ok obj rest)
        ∧ _js_parse_value (2 * (T ++ s).length + 1) (_js_skip (T ++ s))
            = some (jsParse.ok obj (rest ++ s))
        ∧ (js_parse js (T ++ s)).2.obj = some obj := by
  have hok1 : (_js_parse js T).1 = JS_TRUE := hok
  cases hp : _js_parse_value (2 * T.length + 1) (_js_skip T) with
  | none =>
    unfold _js_parse at hok1
    simp [hp, JS_ERR, JS_TRUE] at hok1
  | some r =>
    cases r with
    | fail pos =>
      unfold _js_parse at hok1
      rw [hp] at hok1
      cases pos with
      | none => simp [JS_ERR, JS_TRUE] at hok1
      | some p => simp [JS_ERR, JS_TRUE] at hok1
    | ok obj rest =>
      have hobj : obj.isObject = true := by
        unfold _js_parse at hok1
        rw [hp] at hok1
        by_cases ho : obj.isObject = true
        · exact ho
        · simp [ho, JS_ERR, JS_TRUE] at hok1
      have hclosed : (∀ v, obj ≠ jsObject.string v) ∧ (∀ x, obj ≠ jsObject.number_l64 x)
          ∧ (∀ d, obj ≠ jsObject.number_d64 d) := by
        refine ⟨?_, ?_, ?_⟩ <;> intro v hv <;> rw [hv] at hobj <;> cases hobj
      have hne : _js_skip T ≠ [] := parse_value_ne_nil _ _ _ _ hp
      have hp1 := parse_value_append _ _ obj rest hp (Or.inl hclosed) s
        (2 * (T ++ s).length + 1) (by rw [List.length_append]; omega)
      rw [← _js_skip_append T s hne] at hp1
      have hT : js_parse js T = (JS_TRUE, { js with obj := some obj }) := by
        show _js_parse js T = _
        unfold _js_parse
        rw [hp]
        simp only [hobj, if_true]
      have hTs : js_parse js (T ++ s) = (JS_TRUE, { js with obj := some obj }) := by
        show _js_parse js (T ++ s) = _
        unfold _js_parse
        rw [hp1]
        simp only [hobj, if_true]
      refine ⟨by rw [hT, hTs], by rw [hTs], obj, rest, hobj, rfl, hp1, by rw [hTs]⟩

/-- C33 (witness): `\x7b"a":1\x7dgarbage` is accepted and gives the root of `\x7b"a":1\x7d`. -/
theorem js_parse_ignores_trailing_bytes_witness :
    js_parse js_create (bytes "\x7b\"a\":1\x7d" ++ bytes "garbage")
      = js_parse js_create (bytes "\x7b\"a\":1\x7d")
    ∧ (js_parse js_create (bytes "\x7b\"a\":1\x7d" ++ bytes "garbage")).1 = JS_TRUE :=
  have h := js_parse_ignores_trailing_bytes js_create (bytes "\x7b\"a\":1\x7d")
    (bytes "garbage") rfl
  ⟨h.1, h.2.1⟩

/-! ## Parse inverts print up to the order of the Map -/

theorem text_head_named (o : jsObject) (h : o.named) :
    ∃ c t, o.text = c :: t ∧ 32 < c ∧ c ≠ 44 ∧ c ≠ 93 ∧ c ≠ 125 := by
  cases o with
  | null => exact text_head _ (by rw [jsObject.plain]; trivial)
  | boolean l64 => exact text_head _ (by rw [jsObject.plain]; rw [jsObject.named] at h; exact h)
  | number_l64 l64 =>
    exact text_head _ (by rw [jsObject.plain]; rw [jsObject.named] at h; exact h)
  | number_d64 d => rw [jsObject.named] at h; exact absurd h id
  | string val => exact text_head _ (by rw [jsObject.plain]; rw [jsObject.named] at h; exact h)
  | array val => cases val; exact ⟨91, _, by rw [jsObject.text]; rfl, by decide⟩
  | object val => cases val; exact ⟨123, _, by rw [jsObject.text]; rfl, by decide⟩

theorem jsChainText_shape_named : ∀ (chain : List jsEntry), jsChainNamed chain →
    2 * chain.length ≤ (jsChainText chain).length
    ∧ (chain = [] ∨ ∃ t, jsChainText chain = 44 :: 34 :: t)
    ∧ (jsChainReparsed chain).length = chain.length
  | [], _ => ⟨by simp, Or.inl rfl, by rw [jsChainReparsed]⟩
  | ⟨none, _⟩ :: _, h => by rw [jsChainNamed] at h; exact absurd h id
  | ⟨some _, none⟩ :: _, h => by rw [jsChainNamed] at h; exact absurd h id
  | ⟨some key, some obj⟩ :: next, h => by
    rw [jsChainNamed] at h
    have ih := jsChainText_shape_named next h.2.2
    rw [jsChainText, jsChainReparsed]
    refine ⟨?_, Or.inr ⟨_, rfl⟩, ?_⟩
    · simp only [List.length_cons, List.length_append]
      omega
    · simp only [List.length_cons, ih.2.2]

theorem jsChainsText_shape_named : ∀ (table : List (List jsEntry)), jsChainsNamed table →
    2 * table.flatten.length ≤ (jsChainsText table).length
    ∧ ((table.flatten = [] ∧ jsChainsText table = []) ∨ ∃ t, jsChainsText table = 44 :: 34 :: t)
    ∧ (jsChainsReparsed table).length = table.flatten.length
  | [], _ => ⟨by simp, Or.inl ⟨rfl, by rw [jsChainsText]⟩, by rw [jsChainsReparsed]; rfl⟩
  | chain :: rest, h => by
    rw [jsChainsNamed] at h
    obtain ⟨h1, h2, h5⟩ := jsChainText_shape_named chain h.1
    obtain ⟨h3, h4, h6⟩ := jsChainsText_shape_named rest h.2
    rw [jsChainsText, List.flatten_cons, jsChainsReparsed]
    refine ⟨?_, ?_, ?_⟩
    · simp only [List.length_append]; omega
    · rcases h2 with h2 | ⟨t, h2⟩
      · subst h2
        rw [jsChainText]
        simpa using h4
      · exact Or.inr ⟨t ++ jsChainsText rest, by rw [h2]; rfl⟩
    · simp only [List.length_append, h5, h6]

theorem jsChainReparsed_keys : ∀ (chain : List jsEntry),
    (jsChainReparsed chain).map (fun e => e.key) = chain.map (fun e => e.key)
  | [] => by rw [jsChainReparsed]
  | ⟨key, some obj⟩ :: next => by
    rw [jsChainReparsed, List.map_cons, List.map_cons, jsChainReparsed_keys next]
  | ⟨key, none⟩ :: next => by
    rw [jsChainReparsed, List.map_cons, List.map_cons, jsChainReparsed_keys next]

theorem jsChainsReparsed_keys : ∀ (table : List (List jsEntry)),
    (jsChainsReparsed table).map (fun e => e.key) = table.flatten.map (fun e => e.key)
  | [] => by rw [jsChainsReparsed]; rfl
  | chain :: rest => by
    rw [jsChainsReparsed, List.flatten_cons, List.map_append, List.map_append,
      jsChainReparsed_keys, jsChainsReparsed_keys rest]

theorem jsChainReparsed_shape : ∀ (chain : List jsEntry), jsChainNamed chain →
    ∀ e ∈ jsChainReparsed chain, ∃ name sub, e = ⟨some name, some sub⟩
  | [], _ => by rw [jsChainReparsed]; intro e he; cases he
  | ⟨none, _⟩ :: _, h => by rw [jsChainNamed] at h; exact absurd h id
  | ⟨some _, none⟩ :: _, h => by rw [jsChainNamed] at h; exact absurd h id
  | ⟨some key, some obj⟩ :: next, h => by
    rw [jsChainNamed] at h
    rw [jsChainReparsed]
    intro e he
    rcases List.mem_cons.mp he with he | he
    · exact ⟨key, obj.reparsed, he⟩
    · exact jsChainReparsed_shape next h.2.2 e he

theorem jsChainsReparsed_shape : ∀ (table : List (List jsEntry)), jsChainsNamed table →
    ∀ e ∈ jsChainsReparsed table, ∃ name sub, e = ⟨some name, some sub⟩
  | [], _ => by rw [jsChainsReparsed]; intro e he; cases he
  | chain :: rest, h => by
    rw [jsChainsNamed] at h
    rw [jsChainsReparsed]
    intro e he
    rcases List.mem_append.mp he with he | he
    · exact jsChainReparsed_shape chain h.1 e he
    · exact jsChainsReparsed_shape rest h.2 e he

/-- The members of an Object with distinct names, inserted in the order of its text into a
fresh Map: every insertion succeeds and the Map holds exactly these members. -/
theorem js_add_members_reparsed (table : List (List jsEntry))
    (hnd : (table.flatten.map (fun e => e.key)).Nodup) (hcount : table.flatten.length < 2 ^ 30)
    (hchains : jsChainsNamed table) :
    ∃ ht1, js_add_members ht_create (jsChainsReparsed table) = some ht1
      ∧ ht_wf htTypeJson jsKeyGood ht1
      ∧ (ht_toList ht1).Perm (jsChainsReparsed table) := by
  have hlen : (jsChainsReparsed table).length = table.flatten.length := by
    have := congrArg List.length (jsChainsReparsed_keys table)
    rw [List.length_map, List.length_map] at this
    exact this
  obtain ⟨ht1, hadd, hwf1, _, hperm⟩ := js_add_members_spec (jsChainsReparsed table) ht_create
    (ht_create_wf htTypeJson jsKeyGood) rfl (jsChainsReparsed_shape table hchains)
    (by rw [jsChainsReparsed_keys]; exact hnd)
    (by intro e _ hm; simp [ht_create, _ht_reset, ht_keys, ht_toList] at hm)
    (by rw [hlen]; simpa [ht_create, _ht_reset] using hcount)
  refine ⟨ht1, hadd, hwf1, ?_⟩
  simpa [ht_create, _ht_reset, ht_toList] using hperm

mutual

/-- The parser reads the text of a tree with distinct member names back as the tree it
builds by inserting the members in the order of the text. -/
theorem parse_named : ∀ (o : jsObject) (fuel : Nat) (rest : List Nat), o.named →
    o.text.length + 1 ≤ fuel → endsNumber (hd rest) →
    _js_parse_value fuel (o.text ++ rest) = some (jsParse.ok o.reparsed rest)
  | jsObject.null, fuel, rest, _, hf, hr => by
    rw [jsObject.reparsed]
    exact parse_text _ fuel rest (by rw [jsObject.plain]; trivial) hf hr
  | jsObject.boolean l64, fuel, rest, h, hf, hr => by
    rw [jsObject.reparsed]
    exact parse_text _ fuel rest (by rw [jsObject.plain]; rw [jsObject.named] at h; exact h)
      hf hr
  | jsObject.number_l64 l64, fuel, rest, h, hf, hr => by
    rw [jsObject.reparsed]
    exact parse_text _ fuel rest (by rw [jsObject.plain]; rw [jsObject.named] at h; exact h)
      hf hr
  | jsObject.number_d64 _, _, _, h, _, _ => by rw [jsObject.named] at h; exact absurd h id
  | jsObject.string s, fuel, rest, h, hf, hr => by
    rw [jsObject.reparsed]
    exact parse_text _ fuel rest (by rw [jsObject.plain]; rw [jsObject.named] at h; exact h)
      hf hr
  | jsObject.array ⟨nodes, len⟩, fuel, rest, h, hf, _ => by
    rw [jsObject.named] at h
    rw [jsObject.text] at hf ⊢
    rw [jsObject.reparsed]
    cases nodes with
    | nil =>
      rw [jsNodesText] at hf ⊢
      simp only [List.drop_nil, List.length_cons, List.length_append, List.length_nil] at hf
      obtain ⟨f, rfl⟩ : ∃ f, fuel = f + 2 := ⟨fuel - 2, by omega⟩
      rw [jsNodesReparsed]
      simp [parse_value_array, _js_parse_array, hd, _js_skip, _js_object_set_array, ls_create]
    | cons o r =>
      rw [jsNodesNamed] at h
      rw [jsNodesText] at hf ⊢
      simp only [List.cons_append, List.drop_succ_cons, List.drop_zero, List.length_cons,
        List.length_append, List.length_nil] at hf
      obtain ⟨f, rfl⟩ : ∃ f, fuel = f + 2 := ⟨fuel - 2, by omega⟩
      obtain ⟨c, t, hct, hc⟩ := text_head_named o h.1
      have hsep := hd_append_sep (jsNodesText_shape r)
        (show hd (93 :: rest) = 44 ∨ hd (93 :: rest) = 93 ∨ hd (93 :: rest) = 125 from
          Or.inr (Or.inl rfl))
      have hshape : 91 :: List.drop 1 (44 :: (o.text ++ jsNodesText r)) ++ [93] ++ rest
          = 91 :: (o.text ++ (jsNodesText r ++ 93 :: rest)) := by simp
      have hskip : _js_skip (o.text ++ (jsNodesText r ++ 93 :: rest))
          = o.text ++ (jsNodesText r ++ 93 :: rest) := by
        rw [hct]; exact _js_skip_of_lt _ hc.1
      have hhd : hd (o.text ++ (jsNodesText r ++ 93 :: rest)) ≠ 93 := by
        rw [hct]; exact hc.2.2.1
      simp only [List.cons_append] at hshape ⊢
      rw [hshape, parse_value_array, _js_parse_array]
      simp only [List.drop_succ_cons, List.drop_zero, hskip, hhd, if_false]
      rw [parse_named o f _ h.1 (by omega) (endsNumber_sep hsep).1]
      simp only []
      rw [(endsNumber_sep hsep).2, parse_nodes_named r f _ rest h.2 (by omega)]
      rw [jsNodesReparsed]
      simp [ls_add_tail, ls_create]
      omega
  | jsObject.object ⟨table, size, mask, used⟩, fuel, rest, h, hf, _ => by
    rw [jsObject.named] at h
    obtain ⟨hnd, hcount, hchains⟩ := h
    obtain ⟨hlen2, hshape, hrlen⟩ := jsChainsText_shape_named table hchains
    rw [jsObject.text] at hf ⊢
    rw [jsObject.reparsed]
    rcases hshape with ⟨hflat, htext⟩ | ⟨t, htext⟩
    · rw [htext] at hf ⊢
      simp only [List.drop_nil, List.length_cons, List.length_append, List.length_nil] at hf
      obtain ⟨f, rfl⟩ : ∃ f, fuel = f + 2 := ⟨fuel - 2, by omega⟩
      have hnil : jsChainsReparsed table = [] :=
        List.length_eq_zero.mp (by rw [hrlen, hflat]; rfl)
      rw [hnil]
      simp [parse_value_object, _js_parse_object, hd, _js_skip, _js_object_set_object,
        js_add_members]
    · rw [htext] at hf hlen2 ⊢
      simp only [List.drop_succ_cons, List.drop_zero, List.length_cons, List.length_append,
        List.length_nil] at hf hlen2
      obtain ⟨f, rfl⟩ : ∃ f, fuel = f + 2 := ⟨fuel - 2, by omega⟩
      have hshape : 123 :: List.drop 1 (44 :: 34 :: t) ++ [125] ++ rest
          = 123 :: 34 :: (t ++ 125 :: rest) := by simp
      rw [hshape, parse_value_object, _js_parse_object]
      simp only [List.drop_succ_cons, List.drop_zero,
        _js_skip_of_lt (t ++ 125 :: rest) (show 32 < 34 by decide), hd_cons,
        show ¬ ((34 : Nat) = 125) by decide, if_false]
      have hloop := parse_object_loop_comma f ht_create (34 :: (t ++ 125 :: rest))
      rw [_js_skip_of_lt _ (show 32 < 34 by decide)] at hloop
      rw [← hloop]
      have hfuel : f + 1 = (f + 1 - 2 * table.flatten.length) + 2 * table.flatten.length := by
        omega
      have hchain := parse_chains_named table (f + 1 - 2 * table.flatten.length) ht_create
        (125 :: rest) hchains (by rw [htext]; simp only [List.length_cons]; omega)
        (Or.inr (Or.inr rfl))
      rw [← hfuel, htext] at hchain
      simp only [List.cons_append] at hchain
      rw [hchain]
      obtain ⟨g, hg⟩ : ∃ g, f + 1 - 2 * table.flatten.length = g + 1 :=
        ⟨f - 2 * table.flatten.length, by omega⟩
      obtain ⟨ht1, hadd, _, _⟩ := js_add_members_reparsed table hnd hcount hchains
      rw [hadd]
      simp only [Option.getD_some]
      rw [hg, parse_object_loop_end]

theorem parse_nodes_named : ∀ (nodes : List jsObject) (fuel : Nat) (ls : lsHandle jsObject)
    (rest : List Nat), jsNodesNamed nodes → (jsNodesText nodes).length + 1 ≤ fuel →
    _js_parse_array_loop fuel ls (jsNodesText nodes ++ 93 :: rest)
      = some (jsParse.ok
          (jsObject.array ⟨ls.nodes ++ jsNodesReparsed nodes, ls.len + nodes.length⟩) rest)
  | [], fuel, ls, rest, _, hf => by
    obtain ⟨f, rfl⟩ : ∃ f, fuel = f + 1 := ⟨fuel - 1, by omega⟩
    rw [jsNodesText, jsNodesReparsed]
    simp only [List.nil_append]
    rw [parse_array_loop_end]
    cases ls
    simp
  | o :: r, fuel, ls, rest, h, hf => by
    rw [jsNodesNamed] at h
    rw [jsNodesText] at hf ⊢
    simp only [List.length_cons, List.length_append] at hf
    obtain ⟨f, rfl⟩ : ∃ f, fuel = f + 1 := ⟨fuel - 1, by omega⟩
    obtain ⟨c, t, hct, hc⟩ := text_head_named o h.1
    have hsep := hd_append_sep (jsNodesText_shape r)
      (show hd (93 :: rest) = 44 ∨ hd (93 :: rest) = 93 ∨ hd (93 :: rest) = 125 from
        Or.inr (Or.inl rfl))
    have hshape : 44 :: o.text ++ jsNodesText r ++ 93 :: rest
        = 44 :: (o.text ++ (jsNodesText r ++ 93 :: rest)) := by simp
    have hskip : _js_skip (o.text ++ (jsNodesText r ++ 93 :: rest))
        = o.text ++ (jsNodesText r ++ 93 :: rest) := by
      rw [hct]; exact _js_skip_of_lt _ hc.1
    rw [hshape, _js_parse_array_loop]
    simp only [hd_cons, if_true, List.drop_succ_cons, List.drop_zero, hskip]
    rw [parse_named o f _ h.1 (by omega) (endsNumber_sep hsep).1]
    simp only []
    rw [(endsNumber_sep hsep).2, parse_nodes_named r f _ rest h.2 (by omega)]
    rw [jsNodesReparsed]
    simp [ls_add_tail]
    omega

theorem parse_chains_named : ∀ (table : List (List jsEntry)) (fuel : Nat) (ht : jsTable)
    (tail : List Nat), jsChainsNamed table →
    (jsChainsText table).length + 1 ≤ fuel + 2 * table.flatten.length →
    (hd tail = 44 ∨ hd tail = 93 ∨ hd tail = 125) →
    _js_parse_object_loop (fuel + 2 * table.flatten.length) ht (jsChainsText table ++ tail)
      = match js_add_members ht (jsChainsReparsed table) with
        | none => some (jsParse.fail none)
        | some ht1 => _js_parse_object_loop fuel ht1 tail
  | [], fuel, ht, tail, _, _, _ => by
    rw [jsChainsText, jsChainsReparsed]
    rfl
  | chain :: rest, fuel, ht, tail, h, hf, hsep => by
    rw [jsChainsNamed] at h
    rw [jsChainsText] at hf ⊢
    rw [List.flatten_cons, List.length_append] at hf ⊢
    rw [List.length_append] at hf
    obtain ⟨hc1, hc2, _⟩ := jsChainText_shape_named chain h.1
    obtain ⟨hr1, hr2, _⟩ := jsChainsText_shape_named rest h.2
    have hsep1 : hd (jsChainsText rest ++ tail) = 44 ∨ hd (jsChainsText rest ++ tail) = 93
        ∨ hd (jsChainsText rest ++ tail) = 125 := by
      refine hd_append_sep ?_ hsep
      rcases hr2 with ⟨_, h0⟩ | ⟨t, h0⟩
      · exact Or.inl h0
      · exact Or.inr ⟨_, h0⟩
    have h1 := parse_chain_named chain (fuel + 2 * rest.flatten.length) ht
      (jsChainsText rest ++ tail) h.1 (by omega) hsep1
    have hfuel : fuel + 2 * (chain.length + rest.flatten.length)
        = fuel + 2 * rest.flatten.length + 2 * chain.length := by omega
    rw [List.append_assoc, hfuel, h1, jsChainsReparsed, js_add_members_append]
    cases js_add_members ht (jsChainReparsed chain) with
    | none => rfl
    | some ht1 =>
      simp only [Option.bind]
      exact parse_chains_named rest fuel ht1 tail h.2 (by omega) hsep

theorem parse_chain_named : ∀ (chain : List jsEntry) (fuel : Nat) (ht : jsTable)
    (tail : List Nat), jsChainNamed chain →
    (jsChainText chain).length + 1 ≤ fuel + 2 * chain.length →
    (hd tail = 44 ∨ hd tail = 93 ∨ hd tail = 125) →
    _js_parse_object_loop (fuel + 2 * chain.length) ht (jsChainText chain ++ tail)
      = match js_add_members ht (jsChainReparsed chain) with
        | none => some (jsParse.fail none)
        | some ht1 => _js_parse_object_loop fuel ht1 tail
  | [], fuel, ht, tail, _, _, _ => by
    rw [jsChainText, jsChainReparsed]
    rfl
  | ⟨none, _⟩ :: _, _, _, _, h, _, _ => by rw [jsChainNamed] at h; exact absurd h id
  | ⟨some _, none⟩ :: _, _, _, _, h, _, _ => by rw [jsChainNamed] at h; exact absurd h id
  | ⟨some key, some obj⟩ :: next, fuel, ht, tail, h, hf, hsep => by
    rw [jsChainNamed] at h
    rw [jsChainText] at hf ⊢
    simp only [List.length_cons, List.length_append] at hf
    obtain ⟨c, t, hct, hc⟩ := text_head_named obj h.2.1
    obtain ⟨hn1, hn2, _⟩ := jsChainText_shape_named next h.2.2
    have hsep1 : hd (jsChainText next ++ tail) = 44 ∨ hd (jsChainText next ++ tail) = 93
        ∨ hd (jsChainText next ++ tail) = 125 := by
      refine hd_append_sep ?_ hsep
      rcases hn2 with h0 | ⟨t, h0⟩
      · subst h0; exact Or.inl (by rw [jsChainText])
      · exact Or.inr ⟨_, h0⟩
    have hshape : 44 :: 34 :: _js_object_string_escape_out key ++ 34 :: 58 :: obj.text
          ++ jsChainText next ++ tail
        = 44 :: 34 :: (_js_object_string_escape_out key
            ++ 34 :: 58 :: (obj.text ++ (jsChainText next ++ tail))) := by simp
    have hfuel : fuel + 2 * (next.length + 1) = (fuel + 2 * next.length) + 1 + 1 := by omega
    have hv : hd (obj.text ++ (jsChainText next ++ tail)) ≠ 0 →
        32 < hd (obj.text ++ (jsChainText next ++ tail)) := by
      intro _; rw [hct]; exact hc.1
    have hmember := parse_object_member_plain (fuel + 2 * next.length) ht key _ h.1 hv
    simp only [List.cons_append] at hmember
    rw [List.length_cons, hshape, hfuel, parse_object_loop_comma,
      _js_skip_of_lt _ (show 32 < 34 by decide), hmember, jsChainReparsed, js_add_members]
    by_cases hadd : (_js_object_add_object ht key jsObject.null).1 = 0
    · rw [if_pos hadd, if_pos hadd]
    · rw [if_neg hadd, if_neg hadd,
        parse_named obj _ _ h.2.1 (by omega) (endsNumber_sep hsep1).1]
      simp only []
      rw [(endsNumber_sep hsep1).2]
      exact parse_chain_named next fuel _ tail h.2.2 (by omega) hsep

end

mutual

/-- The print of a tree with distinct member names is its text. -/
theorem print_named : ∀ (o : jsObject), o.named → js_print_text o = some o.text
  | jsObject.null, _ => js_print_text_plain _ (by rw [jsObject.plain]; trivial)
  | jsObject.boolean l64, h =>
    js_print_text_plain _ (by rw [jsObject.plain]; rw [jsObject.named] at h; exact h)
  | jsObject.number_l64 l64, h =>
    js_print_text_plain _ (by rw [jsObject.plain]; rw [jsObject.named] at h; exact h)
  | jsObject.number_d64 _, h => by rw [jsObject.named] at h; exact absurd h id
  | jsObject.string s, h =>
    js_print_text_plain _ (by rw [jsObject.plain]; rw [jsObject.named] at h; exact h)
  | jsObject.array ⟨nodes, len⟩, h => by
    rw [jsObject.named] at h
    rw [js_array_print_ref nodes len _ (print_nodes_named nodes h), jsObject.text, jsArrayRef,
      jsNodesText_intercalate]
  | jsObject.object ⟨table, size, mask, used⟩, h => by
    rw [jsObject.named] at h
    obtain ⟨ms, hms, htext⟩ := print_chains_named table h.2.2
    rw [js_object_print_ref ⟨table, size, mask, used⟩ ms hms, jsObject.text, jsObjectRef,
      ← jsSepText_intercalate, ← htext]
    unfold jsSepText
    simp

theorem print_nodes_named : ∀ (nodes : List jsObject), jsNodesNamed nodes →
    List.Forall₂ (fun o t => js_print_text o = some t) nodes (nodes.map jsObject.text)
  | [], _ => List.Forall₂.nil
  | o :: rest, h => by
    rw [jsNodesNamed] at h
    exact List.Forall₂.cons (print_named o h.1) (print_nodes_named rest h.2)

theorem print_chains_named : ∀ (table : List (List jsEntry)), jsChainsNamed table →
    ∃ ms, List.Forall₂ jsEntryPrints table.flatten ms
      ∧ (ms.map (fun t => 44 :: t)).flatten = jsChainsText table
  | [], _ => ⟨[], List.Forall₂.nil, by rw [jsChainsText]; rfl⟩
  | chain :: rest, h => by
    rw [jsChainsNamed] at h
    obtain ⟨ms1, h1, t1⟩ := print_chain_named chain h.1
    obtain ⟨ms2, h2, t2⟩ := print_chains_named rest h.2
    refine ⟨ms1 ++ ms2, ?_, ?_⟩
    · rw [List.flatten_cons]
      exact List.rel_append h1 h2
    · rw [jsChainsText, List.map_append, List.flatten_append, t1, t2]

theorem print_chain_named : ∀ (chain : List jsEntry), jsChainNamed chain →
    ∃ ms, List.Forall₂ jsEntryPrints chain ms
      ∧ (ms.map (fun t => 44 :: t)).flatten = jsChainText chain
  | [], _ => ⟨[], List.Forall₂.nil, by rw [jsChainText]; rfl⟩
  | ⟨none, _⟩ :: _, h => by rw [jsChainNamed] at h; exact absurd h id
  | ⟨some _, none⟩ :: _, h => by rw [jsChainNamed] at h; exact absurd h id
  | ⟨some key, some obj⟩ :: next, h => by
    rw [jsChainNamed] at h
    obtain ⟨ms, h1, t1⟩ := print_chain_named next h.2.2
    refine ⟨jsMemberRef key obj.text :: ms, List.Forall₂.cons
      ⟨key, obj, obj.text, rfl, h.1, print_named obj h.2.1, rfl⟩ h1, ?_⟩
    rw [jsChainText, List.map_cons, List.flatten_cons, t1, jsMemberRef,
      ← escape_out_eq_spec key (fun c hc => (h.1 c hc).2)]
    simp

end

mutual

/-- The tree the parser builds from the text of a tree with distinct member names equals
that tree up to the order of the Map. -/
theorem same_named : ∀ (o : jsObject), o.named → o.sameAs o.reparsed
  | jsObject.null, _ => by rw [jsObject.reparsed, jsObject.sameAs]
  | jsObject.boolean l64, _ => by rw [jsObject.reparsed, jsObject.sameAs]
  | jsObject.number_l64 l64, _ => by rw [jsObject.reparsed, jsObject.sameAs]
  | jsObject.number_d64 _, _ => by rw [jsObject.reparsed, jsObject.sameAs]
  | jsObject.string s, _ => by rw [jsObject.reparsed, jsObject.sameAs]
  | jsObject.array ⟨nodes, len⟩, h => by
    rw [jsObject.named] at h
    rw [jsObject.reparsed, jsObject.sameAs]
    exact ⟨_, _, rfl, same_nodes nodes h⟩
  | jsObject.object ⟨table, size, mask, used⟩, h => by
    rw [jsObject.named] at h
    obtain ⟨ht1, hadd, hwf, hperm⟩ := js_add_members_reparsed table h.1 h.2.1 h.2.2
    rw [jsObject.reparsed, hadd, Option.getD_some, jsObject.sameAs]
    refine ⟨ht1, rfl, ?_, same_chains table ht1 h.2.2 hwf
      (fun e he => hperm.mem_iff.mpr he)⟩
    have := hperm.map (fun e => e.key)
    rw [jsChainsReparsed_keys] at this
    exact this

theorem same_nodes : ∀ (nodes : List jsObject), jsNodesNamed nodes →
    jsNodesSame nodes (jsNodesReparsed nodes)
  | [], _ => by rw [jsNodesReparsed, jsNodesSame]
  | o :: rest, h => by
    rw [jsNodesNamed] at h
    rw [jsNodesReparsed, jsNodesSame]
    exact ⟨_, _, rfl, same_named o h.1, same_nodes rest h.2⟩

theorem same_chains : ∀ (table : List (List jsEntry)) (ht1 : jsTable), jsChainsNamed table →
    ht_wf htTypeJson jsKeyGood ht1 → (∀ e ∈ jsChainsReparsed table, e ∈ ht_toList ht1) →
    jsChainsSame table ht1
  | [], _, _, _, _ => by rw [jsChainsSame]; trivial
  | chain :: rest, ht1, h, hwf, hmem => by
    rw [jsChainsNamed] at h
    rw [jsChainsSame]
    rw [jsChainsReparsed] at hmem
    exact ⟨same_chain chain ht1 h.1 hwf (fun e he => hmem e (List.mem_append_left _ he)),
      same_chains rest ht1 h.2 hwf (fun e he => hmem e (List.mem_append_right _ he))⟩

theorem same_chain : ∀ (chain : List jsEntry) (ht1 : jsTable), jsChainNamed chain →
    ht_wf htTypeJson jsKeyGood ht1 → (∀ e ∈ jsChainReparsed chain, e ∈ ht_toList ht1) →
    jsChainSame chain ht1
  | [], _, _, _, _ => by rw [jsChainSame]; trivial
  | ⟨none, _⟩ :: _, _, h, _, _ => by rw [jsChainNamed] at h; exact absurd h id
  | ⟨some _, none⟩ :: _, _, h, _, _ => by rw [jsChainNamed] at h; exact absurd h id
  | ⟨some key, some obj⟩ :: next, ht1, h, hwf, hmem => by
    rw [jsChainNamed] at h
    rw [jsChainSame]
    rw [jsChainReparsed] at hmem
    have hm : (⟨some key, some obj.reparsed⟩ : jsEntry) ∈ ht_toList ht1 :=
      hmem _ (List.mem_cons_self _ _)
    obtain ⟨r, hr1, hr2⟩ := ht_find_entry htTypeJson_lawful hwf hm
    exact ⟨⟨r, obj.reparsed, hr1, hr2, same_named obj h.2.1⟩,
      same_chain next ht1 h.2.2 hwf (fun e he => hmem e (List.mem_cons_of_mem _ he))⟩

end

/-- C32: parse inverts print up to the order of the Map.  For every tree rooted at an
Object whose Objects hold pairwise distinct member names (fewer than 2^30 each), whose
leaves are Null, Booleans, integers of magnitude at most 2^53 and strings, and whose
strings and names hold no `%` and only bytes that are at least 0x20 or one of backspace,
form feed, line feed, carriage return and tab: `js_print` returns a text, `js_parse` of
that text into a fresh document succeeds, and the tree it stores has the same member
names, each mapped to an equal value, and equal arrays element by element in the same
order. -/
theorem js_parse_inverts_print (tree : jsObject) (hroot : tree.isObject = true)
    (h : tree.named) :
    ∃ text tree1, js_print_text tree = some text
      ∧ js_parse js_create text = (JS_TRUE, ⟨none, some tree1⟩)
      ∧ tree.sameAs tree1 := by
  refine ⟨tree.text, tree.reparsed, print_named tree h, ?_, same_named tree h⟩
  obtain ⟨c, t, hct, hc⟩ := text_head_named tree h
  have hv := parse_named tree (2 * tree.text.length + 1) [] h (by omega)
    (show endsNumber (hd []) by decide)
  rw [List.append_nil] at hv
  have hskip : _js_skip tree.text = tree.text := by
    rw [hct]; exact _js_skip_of_lt _ hc.1
  have hobj : tree.reparsed.isObject = true := by
    cases tree with
    | object val => cases val; rw [jsObject.reparsed]; rfl
    | null => cases hroot
    | boolean _ => cases hroot
    | number_l64 _ => cases hroot
    | number_d64 _ => cases hroot
    | string _ => cases hroot
    | array _ => cases hroot
  unfold js_parse _js_parse
  rw [hskip, hv]
  simp only [hobj, if_true]
  rfl

/-- C32 (witness): the Object with the members `b` : 2 and `a` : 1 in one bucket, `b`
first.  Its print `\x7b"b":2,"a":1\x7d` parses to an Object that holds `a` in front of `b`. -/
theorem js_parse_inverts_print_witness :
    ∃ text tree1,
      js_print_text (jsObject.object ⟨[[], [], [],
          [⟨some [98], some (jsObject.number_l64 2)⟩,
           ⟨some [97], some (jsObject.number_l64 1)⟩]], 4, 3, 2⟩) = some text
      ∧ js_parse js_create text = (JS_TRUE, ⟨none, some tree1⟩)
      ∧ (jsObject.object ⟨[[], [], [],
          [⟨some [98], some (jsObject.number_l64 2)⟩,
           ⟨some [97], some (jsObject.number_l64 1)⟩]], 4, 3, 2⟩).sameAs tree1 :=
  js_parse_inverts_print _ rfl (by
    have ha : jsStrPlain [97] := by intro c hc; simp at hc; subst hc; decide
    have hb : jsStrPlain [98] := by intro c hc; simp at hc; subst hc; decide
    rw [jsObject.named]
    refine ⟨by decide, by decide, ?_⟩
    simp only [jsChainsNamed, jsChainNamed, jsObject.named, and_true, true_and]
    exact ⟨hb, by decide, ha, by decide⟩)

/-! ## The parser stays inside a text that does not end in a backslash -/

theorem jsInText_tail {b : List Nat} {c : Nat} {p : List Nat} (h : jsInText b (c :: p))
    (hc : c ≠ 0) : jsInText b p := by
  obtain ⟨a, ha, hz, hl⟩ := h
  cases a with
  | nil =>
    simp only [List.nil_append, List.cons.injEq] at ha
    exact absurd ha.1 hc
  | cons x a1 =>
    simp only [List.cons_append, List.cons.injEq] at ha
    refine ⟨a1, ha.2, fun y hy => hz y (List.mem_cons_of_mem _ hy), ?_⟩
    cases a1 with
    | nil => simp
    | cons y a2 =>
      rw [List.getLast?_cons_cons] at hl
      exact hl

theorem jsInText_drop_one {b p : List Nat} (h : jsInText b p) (hne : hd p ≠ 0) :
    jsInText b (p.drop 1) := by
  cases p with
  | nil => exact absurd rfl hne
  | cons c p => exact jsInText_tail h hne

/-- Behind a backslash inside the text stands a byte of the text, not the terminator. -/
theorem jsInText_backslash {b p : List Nat} (h : jsInText b (92 :: p)) : hd p ≠ 0 := by
  obtain ⟨a, ha, hz, hl⟩ := h
  cases a with
  | nil =>
    simp only [List.nil_append, List.cons.injEq] at ha
    omega
  | cons x a1 =>
    simp only [List.cons_append, List.cons.injEq] at ha
    cases a1 with
    | nil =>
      rw [← ha.1] at hl
      simp at hl
    | cons y a2 =>
      rw [ha.2]
      exact hz y (by simp)

theorem jsInText_skip {b : List Nat} : ∀ (p : List Nat), jsInText b p → jsInText b (_js_skip p)
  | [], h => h
  | c :: p, h => by
    rw [_js_skip]
    by_cases hc : c ≠ 0 ∧ c ≤ 32
    · rw [if_pos hc]
      exact jsInText_skip p (jsInText_tail h hc.1)
    · rw [if_neg hc]
      exact h

theorem jsInText_startsWith {b : List Nat} : ∀ (lit p : List Nat), (∀ c ∈ lit, c ≠ 0) →
    startsWith p lit = true → jsInText b p → jsInText b (p.drop lit.length)
  | [], _, _, _, h => h
  | _ :: _, [], _, hs, _ => by rw [startsWith] at hs; cases hs
  | d :: lit, c :: p, hz, hs, h => by
    rw [startsWith, Bool.and_eq_true, beq_iff_eq] at hs
    have hc : c ≠ 0 := by
      rw [hs.1]
      exact hz d (List.mem_cons_self _ _)
    rw [List.length_cons, List.drop_succ_cons]
    exact jsInText_startsWith lit p (fun x hx => hz x (List.mem_cons_of_mem _ hx)) hs.2
      (jsInText_tail h hc)

/-- The scan of a string body ends inside the text. -/
theorem jsInText_string_scan {b : List Nat} : ∀ (val : List Nat), jsInText b val →
    jsInText b (val.drop (_js_string_escape_len val).2)
  | [], h => by
    rw [_js_string_escape_len]
    exact h
  | [c], h => by
    unfold _js_string_escape_len
    by_cases hq : c = 34 ∨ c = 0
    · rw [if_pos hq]
      exact h
    · have hc : c ≠ 0 := fun h0 => hq (Or.inr h0)
      have := jsInText_tail h hc
      obtain ⟨a, ha, _, _⟩ := this
      cases a <;> simp at ha
  | c :: x :: val1, h => by
    unfold _js_string_escape_len
    by_cases hq : c = 34 ∨ c = 0
    · rw [if_pos hq]
      exact h
    · rw [if_neg hq]
      have hc : c ≠ 0 := fun h0 => hq (Or.inr h0)
      by_cases h92 : c = 92
      · rw [if_pos h92]
        subst h92
        have hx : x ≠ 0 := jsInText_backslash h
        simp only [List.drop_succ_cons]
        exact jsInText_string_scan val1 (jsInText_tail (jsInText_tail h hc) hx)
      · rw [if_neg h92]
        simp only [List.drop_succ_cons]
        exact jsInText_string_scan (x :: val1) (jsInText_tail h hc)

theorem jsInText_quote {b p : List Nat} (h : jsInText b p) :
    jsInText b (if hd p = 34 then p.drop 1 else p) := by
  by_cases h34 : hd p = 34
  · rw [if_pos h34]
    exact jsInText_drop_one h (by omega)
  · rw [if_neg h34]
    exact h

theorem jsInText_parse_string {b v : List Nat} (h : jsInText b v) (h34 : hd v = 34) :
    jsInText b (_js_parse_string v).2 := by
  unfold _js_parse_string
  exact jsInText_quote (jsInText_string_scan _ (jsInText_drop_one h (by omega)))

theorem jsInText_parse_name {b v : List Nat} (h : jsInText b v) (name rest : List Nat)
    (hn : _js_parse_name v = Except.ok (name, rest)) : jsInText b rest := by
  unfold _js_parse_name at hn
  by_cases h34 : hd v ≠ 34
  · rw [if_pos h34] at hn; cases hn
  · rw [if_neg h34] at hn
    simp only [Except.ok.injEq, Prod.mk.injEq] at hn
    rw [← hn.2]
    exact jsInText_quote (jsInText_string_scan _ (jsInText_drop_one h (by omega)))

theorem jsInText_digits {b : List Nat} : ∀ (v : List Nat) (num : Dbl) (n : Nat),
    jsInText b v → jsInText b (_js_parse_digits v num n).2.2
  | [], _, _, h => h
  | c :: v, num, n, h => by
    rw [_js_parse_digits]
    by_cases hc : 48 ≤ c ∧ c ≤ 57
    · rw [if_pos hc]
      exact jsInText_digits v _ _ (jsInText_tail h (by omega))
    · rw [if_neg hc]
      exact h

theorem jsInText_subscale {b : List Nat} : ∀ (v : List Nat) (s : Int),
    jsInText b v → jsInText b (_js_parse_subscale v s).2
  | [], _, h => h
  | c :: v, s, h => by
    rw [_js_parse_subscale]
    by_cases hc : 48 ≤ c ∧ c ≤ 57
    · rw [if_pos hc]
      exact jsInText_subscale v _ (jsInText_tail h (by omega))
    · rw [if_neg hc]
      exact h

theorem jsInText_number_int {b v : List Nat} (h : jsInText b v) :
    jsInText b (_js_number_int v).2 := by
  unfold _js_number_int
  by_cases h0 : hd v = 48
  · simp only [h0, if_true]
    have hv : jsInText b (v.drop 1) := jsInText_drop_one h (by omega)
    by_cases h1 : 49 ≤ hd (v.drop 1) ∧ hd (v.drop 1) ≤ 57
    · rw [if_pos h1]
      exact jsInText_digits _ _ _ hv
    · rw [if_neg h1]
      exact hv
  · simp only [h0, if_false]
    by_cases h1 : 49 ≤ hd v ∧ hd v ≤ 57
    · rw [if_pos h1]
      exact jsInText_digits _ _ _ h
    · rw [if_neg h1]
      exact h

theorem jsInText_number_frac {b v : List Nat} (num : Dbl) (h : jsInText b v) :
    jsInText b (_js_number_frac num v).2.2 := by
  unfold _js_number_frac
  split
  · rename_i hc
    exact jsInText_digits _ _ _ (jsInText_drop_one h (by omega))
  · exact h

theorem jsInText_number_exp {b v : List Nat} (h : jsInText b v) :
    jsInText b (_js_number_exp v).2 := by
  unfold _js_number_exp
  split
  · rename_i hc
    have h1 : jsInText b (v.drop 1) := jsInText_drop_one h (by omega)
    simp only []
    split
    · rename_i hs
      exact jsInText_subscale _ _ (jsInText_drop_one h1 (by omega))
    · exact jsInText_subscale _ _ h1
  · exact h

theorem jsInText_parse_number {b v : List Nat} (h : jsInText b v) :
    jsInText b (_js_parse_number v).2 := by
  unfold _js_parse_number
  simp only []
  refine jsInText_number_exp (jsInText_number_frac _ (jsInText_number_int ?_))
  split
  · rename_i hc
    exact jsInText_drop_one h (by omega)
  · exact h

mutual

/-- Every position the value parser returns for a position inside the text, on success or
on failure, is inside the text. -/
theorem parse_value_in_text {b : List Nat} : ∀ (fuel : Nat) (value : List Nat) (r : jsParse),
    jsInText b value → _js_parse_value fuel value = some r →
    (∀ obj rest, r = jsParse.ok obj rest → jsInText b rest)
    ∧ (∀ pos, r = jsParse.fail (some pos) → jsInText b pos)
  | 0, _, _, _, h => by rw [_js_parse_value] at h; cases h
  | fuel + 1, value, r, hin, h => by
    rw [_js_parse_value] at h
    by_cases h1 : startsWith value [110, 117, 108, 108] = true
    · rw [if_pos h1] at h
      simp only [Option.some.injEq] at h
      subst h
      refine ⟨?_, by intro pos hp; cases hp⟩
      intro obj rest hr
      simp only [jsParse.ok.injEq] at hr
      rw [← hr.2]
      exact jsInText_startsWith [110, 117, 108, 108] value (by decide) h1 hin
    rw [if_neg h1] at h
    by_cases h2 : startsWith value [102, 97, 108, 115, 101] = true
    · rw [if_pos h2] at h
      simp only [Option.some.injEq] at h
      subst h
      refine ⟨?_, by intro pos hp; cases hp⟩
      intro obj rest hr
      simp only [jsParse.ok.injEq] at hr
      rw [← hr.2]
      exact jsInText_startsWith [102, 97, 108, 115, 101] value (by decide) h2 hin
    rw [if_neg h2] at h
    by_cases h3 : startsWith value [116, 114, 117, 101] = true
    · rw [if_pos h3] at h
      simp only [Option.some.injEq] at h
      subst h
      refine ⟨?_, by intro pos hp; cases hp⟩
      intro obj rest hr
      simp only [jsParse.ok.injEq] at hr
      rw [← hr.2]
      exact jsInText_startsWith [116, 114, 117, 101] value (by decide) h3 hin
    rw [if_neg h3] at h
    by_cases h4 : hd value = 34
    · rw [if_pos h4] at h
      simp only [Option.some.injEq] at h
      subst h
      refine ⟨?_, by intro pos hp; cases hp⟩
      intro obj rest hr
      simp only [jsParse.ok.injEq] at hr
      rw [← hr.2]; exact jsInText_parse_string hin h4
    rw [if_neg h4] at h
    by_cases h5 : hd value = 45 ∨ (48 ≤ hd value ∧ hd value ≤ 57)
    · rw [if_pos h5] at h
      simp only [Option.some.injEq] at h
      subst h
      refine ⟨?_, by intro pos hp; cases hp⟩
      intro obj rest hr
      simp only [jsParse.ok.injEq] at hr
      rw [← hr.2]; exact jsInText_parse_number hin
    rw [if_neg h5] at h
    by_cases h6 : hd value = 91
    · rw [if_pos h6] at h
      exact parse_array_in_text fuel value r hin h6 h
    rw [if_neg h6] at h
    by_cases h7 : hd value = 123
    · rw [if_pos h7] at h
      exact parse_object_in_text fuel value r hin h7 h
    rw [if_neg h7] at h
    simp only [Option.some.injEq] at h
    subst h
    refine ⟨(by intro obj rest hr; cases hr), ?_⟩
    intro pos hp
    simp only [jsParse.fail.injEq, Option.some.injEq] at hp
    rw [← hp]
    exact hin

theorem parse_array_in_text {b : List Nat} : ∀ (fuel : Nat) (value : List Nat) (r : jsParse),
    jsInText b value → hd value = 91 → _js_parse_array fuel value = some r →
    (∀ obj rest, r = jsParse.ok obj rest → jsInText b rest)
    ∧ (∀ pos, r = jsParse.fail (some pos) → jsInText b pos)
  | 0, _, _, _, _, h => by rw [_js_parse_array] at h; cases h
  | fuel + 1, value, r, hin, hopen, h => by
    have hs1 : jsInText b (_js_skip (value.drop 1)) :=
      jsInText_skip _ (jsInText_drop_one hin (by omega))
    have hs2 : jsInText b (_js_skip (_js_skip (value.drop 1))) := jsInText_skip _ hs1
    rw [_js_parse_array] at h
    by_cases h93 : hd (_js_skip (value.drop 1)) = 93
    · rw [if_pos h93] at h
      simp only [Option.some.injEq] at h
      subst h
      refine ⟨?_, by intro pos hp; cases hp⟩
      intro obj rest hr
      simp only [jsParse.ok.injEq] at hr
      rw [← hr.2]; exact jsInText_drop_one hs1 (by omega)
    · rw [if_neg h93] at h
      cases hv : _js_parse_value fuel (_js_skip (_js_skip (value.drop 1))) with
      | none => rw [hv] at h; cases h
      | some r1 =>
        obtain ⟨ho, hf⟩ := parse_value_in_text fuel _ r1 hs2 hv
        rw [hv] at h
        cases r1 with
        | fail pos1 =>
          simp only [Option.some.injEq] at h
          subst h
          refine ⟨(by intro obj rest hr; cases hr), ?_⟩
          intro pos hp
          exact hf pos hp
        | ok sub rest1 =>
          have hr1 : jsInText b (_js_skip rest1) := jsInText_skip _ (ho sub rest1 rfl)
          exact parse_array_loop_in_text fuel _ (_js_skip rest1) r hr1 h

theorem parse_array_loop_in_text {b : List Nat} : ∀ (fuel : Nat) (ls : lsHandle jsObject)
    (value : List Nat) (r : jsParse), jsInText b value →
    _js_parse_array_loop fuel ls value = some r →
    (∀ obj rest, r = jsParse.ok obj rest → jsInText b rest)
    ∧ (∀ pos, r = jsParse.fail (some pos) → jsInText b pos)
  | 0, _, _, _, _, h => by rw [_js_parse_array_loop] at h; cases h
  | fuel + 1, ls, value, r, hin, h => by
    rw [_js_parse_array_loop] at h
    by_cases h44 : hd value = 44
    · rw [if_pos h44] at h
      have hs1 : jsInText b (_js_skip (value.drop 1)) :=
        jsInText_skip _ (jsInText_drop_one hin (by omega))
      cases hv : _js_parse_value fuel (_js_skip (value.drop 1)) with
      | none => rw [hv] at h; cases h
      | some r1 =>
        obtain ⟨ho, hf⟩ := parse_value_in_text fuel _ r1 hs1 hv
        rw [hv] at h
        cases r1 with
        | fail pos1 =>
          simp only [Option.some.injEq] at h
          subst h
          refine ⟨(by intro obj rest hr; cases hr), ?_⟩
          intro pos hp
          exact hf pos hp
        | ok sub rest1 =>
          have hr1 : jsInText b (_js_skip rest1) := jsInText_skip _ (ho sub rest1 rfl)
          exact parse_array_loop_in_text fuel _ (_js_skip rest1) r hr1 h
    · rw [if_neg h44] at h
      by_cases h93 : hd value = 93
      · rw [if_pos h93] at h
        simp only [Option.some.injEq] at h
        subst h
        refine ⟨?_, by intro pos hp; cases hp⟩
        intro obj rest hr
        simp only [jsParse.ok.injEq] at hr
        rw [← hr.2]; exact jsInText_drop_one hin (by omega)
      · rw [if_neg h93] at h
        simp only [Option.some.injEq] at h
        subst h
        refine ⟨(by intro obj rest hr; cases hr), ?_⟩
        intro pos hp
        simp only [jsParse.fail.injEq, Option.some.injEq] at hp
        rw [← hp]
        exact hin

theorem parse_object_in_text {b : List Nat} : ∀ (fuel : Nat) (value : List Nat) (r : jsParse),
    jsInText b value → hd value = 123 → _js_parse_object fuel value = some r →
    (∀ obj rest, r = jsParse.ok obj rest → jsInText b rest)
    ∧ (∀ pos, r = jsParse.fail (some pos) → jsInText b pos)
  | 0, _, _, _, _, h => by rw [_js_parse_object] at h; cases h
  | fuel + 1, value, r, hin, hopen, h => by
    have hs1 : jsInText b (_js_skip (value.drop 1)) :=
      jsInText_skip _ (jsInText_drop_one hin (by omega))
    have hs2 : jsInText b (_js_skip (_js_skip (value.drop 1))) := jsInText_skip _ hs1
    rw [_js_parse_object] at h
    by_cases h125 : hd (_js_skip (value.drop 1)) = 125
    · rw [if_pos h125] at h
      simp only [Option.some.injEq] at h
      subst h
      refine ⟨?_, by intro pos hp; cases hp⟩
      intro obj rest hr
      simp only [jsParse.ok.injEq] at hr
      rw [← hr.2]; exact jsInText_drop_one hs1 (by omega)
    · rw [if_neg h125] at h
      exact parse_object_member_in_text fuel ht_create _ r hs2 h

theorem parse_object_member_in_text {b : List Nat} : ∀ (fuel : Nat) (ht : jsTable)
    (value : List Nat) (r : jsParse), jsInText b value →
    _js_parse_object_member fuel ht value = some r →
    (∀ obj rest, r = jsParse.ok obj rest → jsInText b rest)
    ∧ (∀ pos, r = jsParse.fail (some pos) → jsInText b pos)
  | 0, _, _, _, _, h => by rw [_js_parse_object_member] at h; cases h
  | fuel + 1, ht, value, r, hin, h => by
    rw [_js_parse_object_member] at h
    cases hn : _js_parse_name value with
    | error pos0 =>
      rw [hn] at h
      simp only [Option.some.injEq] at h
      subst h
      refine ⟨(by intro obj rest hr; cases hr), ?_⟩
      intro pos hp
      simp only [jsParse.fail.injEq, Option.some.injEq] at hp
      rw [← hp, (_js_parse_name_error value pos0 hn).1]
      exact hin
    | ok p =>
      obtain ⟨name, rest0⟩ := p
      have hl := jsInText_parse_name hin name rest0 hn
      rw [hn] at h
      simp only [] at h
      by_cases hadd : (_js_object_add_object ht name jsObject.null).1 = 0
      · rw [if_pos hadd] at h
        simp only [Option.some.injEq] at h
        subst h
        exact ⟨(by intro obj rest hr; cases hr), by intro pos hp; cases hp⟩
      rw [if_neg hadd] at h
      have hs0 : jsInText b (_js_skip rest0) := jsInText_skip _ hl
      by_cases h58 : hd (_js_skip rest0) ≠ 58
      · rw [if_pos h58] at h
        simp only [Option.some.injEq] at h
        subst h
        refine ⟨(by intro obj rest hr; cases hr), ?_⟩
        intro pos hp
        simp only [jsParse.fail.injEq, Option.some.injEq] at hp
        rw [← hp]; exact hs0
      rw [if_neg h58] at h
      have hs1 : jsInText b (_js_skip ((_js_skip rest0).drop 1)) :=
        jsInText_skip _ (jsInText_drop_one hs0 (by omega))
      cases hv : _js_parse_value fuel (_js_skip ((_js_skip rest0).drop 1)) with
      | none => rw [hv] at h; cases h
      | some r1 =>
        obtain ⟨ho, hf⟩ := parse_value_in_text fuel _ r1 hs1 hv
        rw [hv] at h
        cases r1 with
        | fail pos1 =>
          simp only [Option.some.injEq] at h
          subst h
          refine ⟨(by intro obj rest hr; cases hr), ?_⟩
          intro pos hp
          exact hf pos hp
        | ok sub rest1 =>
          have hr1 : jsInText b (_js_skip rest1) := jsInText_skip _ (ho sub rest1 rfl)
          exact parse_object_loop_in_text fuel _ (_js_skip rest1) r hr1 h

theorem parse_object_loop_in_text {b : List Nat} : ∀ (fuel : Nat) (ht : jsTable)
    (value : List Nat) (r : jsParse), jsInText b value →
    _js_parse_object_loop fuel ht value = some r →
    (∀ obj rest, r = jsParse.ok obj rest → jsInText b rest)
    ∧ (∀ pos, r = jsParse.fail (some pos) → jsInText b pos)
  | 0, _, _, _, _, h => by rw [_js_parse_object_loop] at h; cases h
  | fuel + 1, ht, value, r, hin, h => by
    rw [_js_parse_object_loop] at h
    by_cases h44 : hd value = 44
    · rw [if_pos h44] at h
      have hs1 : jsInText b (_js_skip (value.drop 1)) :=
        jsInText_skip _ (jsInText_drop_one hin (by omega))
      exact parse_object_member_in_text fuel ht _ r hs1 h
    · rw [if_neg h44] at h
      by_cases h125 : hd value = 125
      · rw [if_pos h125] at h
        simp only [Option.some.injEq] at h
        subst h
        refine ⟨?_, by intro pos hp; cases hp⟩
        intro obj rest hr
        simp only [jsParse.ok.injEq] at hr
        rw [← hr.2]; exact jsInText_drop_one hin (by omega)
      · rw [if_neg h125] at h
        simp only [Option.some.injEq] at h
        subst h
        refine ⟨(by intro obj rest hr; cases hr), ?_⟩
        intro pos hp
        simp only [jsParse.fail.injEq, Option.some.injEq] at hp
        rw [← hp]
        exact hin

end

theorem cstr_no_zero : ∀ (l : List Nat), ∀ c ∈ cstr l, c ≠ 0
  | [], c, h => by simp [cstr] at h
  | x :: l, c, h => by
    rw [cstr] at h
    by_cases hx : x = 0
    · rw [if_pos hx] at h
      simp at h
    · rw [if_neg hx] at h
      rcases List.mem_cons.mp h with h1 | h1
      · rw [h1]; exact hx
      · exact cstr_no_zero l c h1

theorem cstr_split : ∀ (l : List Nat), 0 ∈ l → ∃ b, l = cstr l ++ 0 :: b
  | [], h => by simp at h
  | x :: l, h => by
    rw [cstr]
    by_cases hx : x = 0
    · rw [if_pos hx, hx]
      exact ⟨l, rfl⟩
    · rw [if_neg hx]
      have hl : 0 ∈ l := by
        rcases List.mem_cons.mp h with h1 | h1
        · exact absurd h1.symm hx
        · exact h1
      obtain ⟨b, hb⟩ := cstr_split l hl
      exact ⟨b, by rw [List.cons_append, ← hb]⟩

/-- The offset of a failure on a text that does not end in a backslash is at most the
length of the text. -/
theorem js_parse_offset_in_text (str pos : List Nat)
    (h : _js_parse_value (2 * str.length + 1) (_js_skip str) = some (jsParse.fail (some pos)))
    (hl : (cstr str).getLast? ≠ some 92) : jsOffset str pos ≤ strlen str := by
  by_cases hz : 0 ∈ str
  · obtain ⟨b, hb⟩ := cstr_split str hz
    have hin : jsInText b str := ⟨cstr str, hb, cstr_no_zero str, hl⟩
    obtain ⟨a, ha, _, _⟩ := (parse_value_in_text _ _ _ (jsInText_skip _ hin) h).2 pos rfl
    unfold jsOffset strlen
    have h1 : str.length = (cstr str).length + (b.length + 1) := by
      conv_lhs => rw [hb]
      simp
    have h2 : pos.length = a.length + (b.length + 1) := by
      rw [ha]
      simp
    omega
  · have hc : cstr str = str := cstr_of_ne_zero str (fun c hc h0 => hz (h0 ▸ hc))
    unfold jsOffset strlen
    rw [hc]
    omega

/-- C15 (counterexample): after the failure of `js_parse` on `42` and on `{"a":1,"a":2}`
a fresh document holds no position at all, and a document whose failure slot holds the
offset 5 from the failure on `{"a":}` still holds 5 after the failure on the one-byte
text `7`.  And a position that is written need not lie inside the text: on the text
`{"a\` of 4 bytes, given with its terminator, the scan of the name steps over the
terminator behind the backslash and the slot holds the offset 5; when the bytes `"x` stand
behind the terminator the scan goes on there and the slot holds the offset 6. -/
theorem js_parse_failure_not_inside_text :
    (js_parse js_create (bytes "42")).1 = JS_ERR
    ∧ (js_parse js_create (bytes "42")).2.err = none
    ∧ (js_parse js_create (bytes "\x7b\"a\":1,\"a\":2\x7d")).1 = JS_ERR
    ∧ (js_parse js_create (bytes "\x7b\"a\":1,\"a\":2\x7d")).2.err = none
    ∧ (js_parse js_create (bytes "\x7b\"a\":\x7d")).2 = ⟨some 5, none⟩
    ∧ js_parse ⟨some 5, none⟩ (bytes "7") = (JS_ERR, ⟨some 5, none⟩)
    ∧ ¬ (5 ≤ (bytes "7").length)
    ∧ js_parse js_create (bytes "\x7b\"a\\" ++ [0]) = (JS_ERR, ⟨some 5, none⟩)
    ∧ strlen (bytes "\x7b\"a\\" ++ [0]) = 4
    ∧ js_parse js_create (bytes "\x7b\"a\\" ++ 0 :: bytes "\"x") = (JS_ERR, ⟨some 6, none⟩)
    ∧ strlen (bytes "\x7b\"a\\" ++ 0 :: bytes "\"x") = 4 :=
  ⟨rfl, rfl, rfl, rfl, rfl, rfl, by decide, rfl, rfl, rfl, rfl⟩

/-- C15 (amended): for every text on which `js_parse` fails, one of three cases holds.
The value parser stopped at a position `pos`: the failure slot then holds the offset of
`pos`, the number of bytes between the start of the text and the byte where matching
stopped; the offset is at most the length of the memory `str` the parser was given (the
text, and when given, its terminator and the bytes behind it), and when the last byte of
the text is no backslash it lies inside the text, between 0 and the length of the text.  Or
the value parser failed without writing a position (the path taken when the Map refuses a
member name): the slot is left as it was.  Or the text was parsed as a value that is no
Object: the slot is left as it was. -/
theorem js_parse_failure_slot (js : jsHandle) (str : List Nat)
    (hfail : (js_parse js str).1 = JS_ERR) :
    (∃ pos, _js_parse_value (2 * str.length + 1) (_js_skip str) = some (jsParse.fail (some pos))
        ∧ (js_parse js str).2.err = some (jsOffset str pos)
        ∧ str.drop (jsOffset str pos) = pos ∧ jsOffset str pos ≤ str.length
        ∧ ((cstr str).getLast? ≠ some 92 → jsOffset str pos ≤ strlen str))
    ∨ (_js_parse_value (2 * str.length + 1) (_js_skip str) = some (jsParse.fail none)
        ∧ (js_parse js str).2.err = js.err)
    ∨ (∃ obj rest, _js_parse_value (2 * str.length + 1) (_js_skip str)
          = some (jsParse.ok obj rest)
        ∧ obj.isObject = false ∧ (js_parse js str).2.err = js.err) := by
  rcases js_parse_failure_cases js str hfail with ⟨pos, h1, h2, h3⟩ | ⟨h1, h2, h3⟩
    | ⟨obj, rest, h1, h2, h3⟩
  · exact Or.inl ⟨pos, h1, by rw [h3], (jsOffset_drop h2).1, (jsOffset_drop h2).2,
      js_parse_offset_in_text str pos h1⟩
  · exact Or.inr (Or.inl ⟨h1, by rw [h3]⟩)
  · exact Or.inr (Or.inr ⟨obj, rest, h1, h2, by rw [h3]⟩)

/-- C15 (witness): `\x7b"a" 1\x7d`, given with its terminator, fails at the offset 5 of
its 7 bytes. -/
theorem js_parse_failure_slot_witness :
    (js_parse js_create (bytes "\x7b\"a\" 1\x7d" ++ [0])).2.err = some 5
    ∧ strlen (bytes "\x7b\"a\" 1\x7d" ++ [0]) = 7
    ∧ ((∃ pos, _js_parse_value (2 * (bytes "\x7b\"a\" 1\x7d" ++ [0]).length + 1)
            (_js_skip (bytes "\x7b\"a\" 1\x7d" ++ [0])) = some (jsParse.fail (some pos))
          ∧ (js_parse js_create (bytes "\x7b\"a\" 1\x7d" ++ [0])).2.err
              = some (jsOffset (bytes "\x7b\"a\" 1\x7d" ++ [0]) pos)
          ∧ (bytes "\x7b\"a\" 1\x7d" ++ [0]).drop (jsOffset (bytes "\x7b\"a\" 1\x7d" ++ [0]) pos)
              = pos
          ∧ jsOffset (bytes "\x7b\"a\" 1\x7d" ++ [0]) pos
              ≤ (bytes "\x7b\"a\" 1\x7d" ++ [0]).length
          ∧ ((cstr (bytes "\x7b\"a\" 1\x7d" ++ [0])).getLast? ≠ some 92 →
              jsOffset (bytes "\x7b\"a\" 1\x7d" ++ [0]) pos
                ≤ strlen (bytes "\x7b\"a\" 1\x7d" ++ [0])))
      ∨ (_js_parse_value (2 * (bytes "\x7b\"a\" 1\x7d" ++ [0]).length + 1)
            (_js_skip (bytes "\x7b\"a\" 1\x7d" ++ [0])) = some (jsParse.fail none)
          ∧ (js_parse js_create (bytes "\x7b\"a\" 1\x7d" ++ [0])).2.err = js_create.err)
      ∨ (∃ obj rest, _js_parse_value (2 * (bytes "\x7b\"a\" 1\x7d" ++ [0]).length + 1)
            (_js_skip (bytes "\x7b\"a\" 1\x7d" ++ [0])) = some (jsParse.ok obj rest)
          ∧ obj.isObject = false
          ∧ (js_parse js_create (bytes "\x7b\"a\" 1\x7d" ++ [0])).2.err = js_create.err)) :=
  ⟨rfl, rfl, js_parse_failure_slot js_create (bytes "\x7b\"a\" 1\x7d" ++ [0]) rfl⟩

/-! ## The printed text of a double in fixed notation, and its parse -/

namespace Dbl

/-- The rounded number of millionths of a double in the range of the fixed notation. -/
theorem fixed_millionths (neg : Bool) (m : Nat) (e : Int)
    (h1 : absLt (fin neg m e) (pow10 (-6)) = false)
    (h2 : absLt (pow10 9) (fin neg m e) = false) :
    1 ≤ rhe (num m e * 10 ^ 6) (den e) ∧ rhe (num m e * 10 ^ 6) (den e) ≤ 10 ^ 15 := by
  rw [pow10_neg_six, ← Bool.not_eq_true, absLt_fin, mag_pow10_neg_six] at h1
  rw [pow10_nine, ← Bool.not_eq_true, absLt_fin, mag_pow10_nine] at h2
  have hde : (0 : ℚ) < (den e : ℚ) := by exact_mod_cast den_pos e
  have hnear := rhe_near (num m e * 10 ^ 6) (den e) (den_pos e)
  have e1 : ((num m e * 10 ^ 6 : Nat) : ℚ) / (den e : ℚ) = mag m e * 10 ^ 6 := by
    unfold mag; push_cast; rw [div_mul_eq_mul_div]; norm_num
  rw [e1] at hnear
  generalize rhe (num m e * 10 ^ 6) (den e) = T at hnear ⊢
  generalize mag m e = D at h1 h2 hnear
  have e72 : (2 : ℚ) ^ 72 = 4722366482869645213696 := by norm_num
  rw [e72] at h1
  obtain ⟨ha, hb⟩ := abs_le.mp hnear
  have hD1 : (4722366482869645 : ℚ) / 4722366482869645213696 ≤ D := not_lt.mp h1
  have hD2 : D ≤ 10 ^ 9 := not_lt.mp h2
  constructor
  · have : (0 : ℚ) < (T : ℚ) := by linarith
    exact_mod_cast this
  · have : (T : ℚ) < 10 ^ 15 + 1 := by linarith
    have h3 : T < 10 ^ 15 + 1 := by exact_mod_cast this
    omega

end Dbl

theorem padDecimal_length : ∀ (w n : Nat), (padDecimal w n).length = w
  | 0, _ => rfl
  | w + 1, n => by
    rw [padDecimal, List.length_append, padDecimal_length w, List.length_singleton]

theorem padDecimal_isDigit : ∀ (w n : Nat), ∀ c ∈ padDecimal w n, isDigit c
  | 0, _, c, h => by simp [padDecimal] at h
  | w + 1, n, c, h => by
    rw [padDecimal, List.mem_append, List.mem_singleton] at h
    rcases h with h | h
    · exact padDecimal_isDigit w _ c h
    · unfold isDigit
      omega

theorem digitsVal_padDecimal : ∀ (w n : Nat), n < 10 ^ w → digitsVal 0 (padDecimal w n) = n
  | 0, n, h => by
    have : n = 0 := by simpa using h
    subst this
    rfl
  | w + 1, n, h => by
    have h1 : n / 10 < 10 ^ w := by
      rw [pow_succ] at h
      omega
    rw [padDecimal, digitsVal_snoc, digitsVal_padDecimal w _ h1]
    omega

theorem digitsVal_zeros (a : Nat) : ∀ (j : Nat),
    digitsVal a (List.replicate j 48) = a * 10 ^ j
  | 0 => by simp [digitsVal]
  | j + 1 => by
    have e : List.replicate (j + 1) 48 = List.replicate j 48 ++ [48] := by
      rw [← List.replicate_succ']
    rw [e, digitsVal_snoc, digitsVal_zeros a j, pow_succ]
    simp only [Nat.sub_self, Nat.add_zero]
    ring

/-- A digit string is its trimmed part followed by zeros. -/
theorem jsFracTrim_split (frac : List Nat) :
    ∃ j, frac = (frac.reverse.dropWhile (fun c => decide (c = 48))).reverse
        ++ List.replicate j 48 := by
  have h := List.takeWhile_append_dropWhile (fun c => decide (c = 48)) frac.reverse
  have hall : ∀ c ∈ (frac.reverse.takeWhile (fun c => decide (c = 48))).reverse, c = 48 := by
    intro c hc
    rw [List.mem_reverse] at hc
    simpa using List.mem_takeWhile_imp hc
  refine ⟨(frac.reverse.takeWhile (fun c => decide (c = 48))).length, ?_⟩
  have hrep : (frac.reverse.takeWhile (fun c => decide (c = 48))).reverse
      = List.replicate (frac.reverse.takeWhile (fun c => decide (c = 48))).length 48 := by
    rw [List.eq_replicate_iff]
    exact ⟨by simp, hall⟩
  rw [← hrep, ← List.reverse_append, h, List.reverse_reverse]

theorem jsFracTrim_ne_nil (frac : List Nat) : jsFracTrim frac ≠ [] := by
  unfold jsFracTrim
  simp only []
  split_ifs with h
  · simp
  · exact h

theorem jsFracTrim_length (frac : List Nat) (hne : frac ≠ []) :
    (jsFracTrim frac).length ≤ frac.length := by
  unfold jsFracTrim
  simp only []
  split_ifs with h
  · have : 0 < frac.length := List.length_pos.mpr hne
    simpa using this
  · rw [List.length_reverse]
    have := (List.dropWhile_sublist (fun c => decide (c = 48)) (l := frac.reverse)).length_le
    simpa using this

theorem jsFracTrim_idem (frac : List Nat) : jsFracTrim (jsFracTrim frac) = jsFracTrim frac := by
  unfold jsFracTrim
  simp only []
  by_cases h : (frac.reverse.dropWhile (fun c => decide (c = 48))).reverse = []
  · rw [if_pos h]
    rfl
  · rw [if_neg h, List.reverse_reverse, List.dropWhile_idempotent, if_neg h]

/-- The magnitude of a literal with the trailing zeros of its fraction removed. -/
theorem jsFixedMag_trim (I : Nat) (frac : List Nat) :
    jsFixedMag I (jsFracTrim frac) = jsFixedMag I frac := by
  obtain ⟨j, hj⟩ := jsFracTrim_split frac
  unfold jsFixedMag jsFracTrim
  simp only []
  generalize (frac.reverse.dropWhile (fun c => decide (c = 48))).reverse = K at hj
  subst hj
  have hv : digitsVal 0 (K ++ List.replicate j 48) = digitsVal 0 K * 10 ^ j := by
    rw [digitsVal_append, digitsVal_zeros]
  rw [hv, List.length_append, List.length_replicate]
  have hp : (0 : ℚ) < (10 : ℚ) ^ K.length := by positivity
  have hq : (0 : ℚ) < (10 : ℚ) ^ j := by positivity
  have hmain : ((digitsVal 0 K * 10 ^ j : Nat) : ℚ) / (10 : ℚ) ^ (K.length + j)
      = (digitsVal 0 K : ℚ) / (10 : ℚ) ^ K.length := by
    push_cast
    rw [pow_add]
    field_simp
    ring
  rw [hmain]
  by_cases hK : K = []
  · subst hK
    rw [if_pos rfl]
    simp [digitsVal]
  · rw [if_neg hK]

/-- The printer appends the text of a floating-point payload. -/
theorem print_leaf_double (d : Dbl) (buf : jsBuffer) :
    ∃ q, (jsObject.number_d64 d).print buf = some (jsObject.number_d64 d, q)
      ∧ jsBufferAppended buf (jsDblText d) q := by
  rw [jsObject.print, _js_object_number_print]
  unfold jsDblText
  by_cases h : Dbl.absLt d (Dbl.pow10 (-6)) = true ∨ Dbl.absLt (Dbl.pow10 9) d = true
  · rw [if_pos h, if_pos h]
    refine ⟨_js_buffer_cat buf (Dbl.fmt_e d) (Dbl.fmt_e d).length, ?_, _js_buffer_cat_buf buf _⟩
    unfold _js_buffer_sprintf
    rw [vasprintf_e]
    rfl
  · rw [if_neg h, if_neg h]
    refine ⟨_js_buffer_cat buf (cstr (_js_number_trim ((Dbl.fmt_lf d).take 126)))
      (cstr (_js_number_trim ((Dbl.fmt_lf d).take 126))).length, ?_, _js_buffer_cat_buf buf _⟩
    unfold _js_buffer_sprintf
    rw [vasprintf_s]
    rfl

theorem js_print_text_double (d : Dbl) :
    js_print_text (jsObject.number_d64 d) = some (jsDblText d) := by
  obtain ⟨q, h1, h2⟩ := print_leaf_double d (_js_buffer_new JS_BUFFER_SIZE_INIT)
  unfold js_print_text js_print _js_print
  rw [h1]
  simp only [Option.map]
  rw [h2.1]
  rfl

/-- The text of a double in the range of the fixed notation: the integer part, the point
and the six digits of the millionths, trimmed. -/
theorem jsDblText_fixed (neg : Bool) (m : Nat) (e : Int)
    (h1 : Dbl.absLt (Dbl.fin neg m e) (Dbl.pow10 (-6)) = false)
    (h2 : Dbl.absLt (Dbl.pow10 9) (Dbl.fin neg m e) = false) :
    jsDblText (Dbl.fin neg m e)
      = jsFixedText neg (Dbl.rhe (Dbl.num m e * 10 ^ 6) (Dbl.den e) / 10 ^ 6)
          (jsFracTrim (padDecimal 6 (Dbl.rhe (Dbl.num m e * 10 ^ 6) (Dbl.den e) % 10 ^ 6))) := by
  obtain ⟨hT1, hT2⟩ := Dbl.fixed_millionths neg m e h1 h2
  unfold jsDblText
  rw [if_neg (by simp [h1, h2])]
  simp only [Dbl.fmt_lf]
  generalize Dbl.rhe (Dbl.num m e * 10 ^ 6) (Dbl.den e) = T at hT1 hT2 ⊢
  have hI : T / 10 ^ 6 < 10 ^ (9 + 1) := by
    have : T / 10 ^ 6 ≤ 10 ^ 9 := by
      apply Nat.div_le_of_le_mul
      calc T ≤ 10 ^ 15 := hT2
        _ = 10 ^ 6 * 10 ^ 9 := by norm_num
    omega
  have hlenI := decimal_length 9 (T / 10 ^ 6) hI
  have hlenS : (if neg then [45] else ([] : List Nat)).length ≤ 1 := by
    cases neg <;> simp
  have hpre : ∀ c ∈ (if neg then [45] else []) ++ decimal (T / 10 ^ 6), c ≠ 0 ∧ c ≠ 46 := by
    intro c hc
    rw [List.mem_append] at hc
    rcases hc with h | h
    · cases neg
      · simp at h
      · simp at h; subst h; decide
    · have := decimal_digits (T / 10 ^ 6) c h
      unfold isDigit at this; omega
  have htake : List.take 126 ((if neg then [45] else []) ++ decimal (T / 10 ^ 6) ++ [46]
      ++ padDecimal 6 (T % 10 ^ 6))
      = (if neg then [45] else []) ++ decimal (T / 10 ^ 6) ++ [46]
      ++ padDecimal 6 (T % 10 ^ 6) := by
    apply List.take_of_length_le
    simp only [List.length_append, List.length_singleton, padDecimal_length]
    omega
  have htrim := number_trim_fixed ((if neg then [45] else []) ++ decimal (T / 10 ^ 6))
    (padDecimal 6 (T % 10 ^ 6)) 0 hpre (padDecimal_isDigit 6 _)
  simp only [List.replicate_zero, List.append_nil] at htrim
  rw [htake, htrim, cstr_of_ne_zero]
  · unfold jsFixedText
    rw [List.append_assoc]
  · intro c hc
    simp only [List.mem_append, List.mem_cons] at hc
    rcases hc with h | h | h
    · exact (hpre c (List.mem_append.mpr h)).1
    · omega
    · have := jsFracTrim_digits _ (padDecimal_isDigit 6 (T % 10 ^ 6)) c h
      unfold isDigit at this; omega

/-- A double whose printed text consists of a sign, digits and a point is finite and in the
range of the fixed notation. -/
theorem jsDblSteady_of_text (d : Dbl)
    (h : ∀ c ∈ jsDblText d, c = 45 ∨ c = 46 ∨ isDigit c) : jsDblSteady d := by
  have hbad : ∀ c, c = 101 ∨ c = 105 ∨ c = 110 → ¬ (c = 45 ∨ c = 46 ∨ isDigit c) := by
    intro c hc
    unfold isDigit
    omega
  cases d with
  | fin neg m e =>
    by_cases hc : Dbl.absLt (Dbl.fin neg m e) (Dbl.pow10 (-6)) = true
        ∨ Dbl.absLt (Dbl.pow10 9) (Dbl.fin neg m e) = true
    · exfalso
      unfold jsDblText at h
      rw [if_pos hc] at h
      exact hbad 101 (Or.inl rfl) (h 101 (by simp [Dbl.fmt_e]))
    · refine Or.inr ⟨?_, ?_⟩
      · cases hb : Dbl.absLt (Dbl.fin neg m e) (Dbl.pow10 (-6))
        · rfl
        · exact absurd (Or.inl hb) hc
      · cases hb : Dbl.absLt (Dbl.pow10 9) (Dbl.fin neg m e)
        · rfl
        · exact absurd (Or.inr hb) hc
  | inf neg =>
    exfalso
    have ht : jsDblText (Dbl.inf neg) = (if neg then [45] else []) ++ [105, 110, 102] := by
      unfold jsDblText
      rw [if_pos (Or.inr (by rw [Dbl.pow10_nine]; rfl))]
      rfl
    rw [ht] at h
    exact hbad 105 (Or.inr (Or.inl rfl)) (h 105 (by simp))
  | nan =>
    exfalso
    have ht : jsDblText Dbl.nan = [110, 97, 110] := by
      unfold jsDblText
      rw [if_neg (by rw [Dbl.pow10_nine]; simp [Dbl.absLt])]
      decide
    rw [ht] at h
    exact hbad 110 (Or.inr (Or.inr rfl)) (h 110 (by simp))

theorem jsFixedText_alphabet (minus : Bool) (I : Nat) (frac : List Nat)
    (hall : ∀ c ∈ frac, isDigit c) :
    ∀ c ∈ jsFixedText minus I frac, c = 45 ∨ c = 46 ∨ isDigit c := by
  intro c hc
  unfold jsFixedText at hc
  simp only [List.mem_append, List.mem_cons] at hc
  rcases hc with h | h | h | h
  · cases minus
    · simp at h
    · simp at h; exact Or.inl h
  · exact Or.inr (Or.inr (decimal_digits I c h))
  · exact Or.inr (Or.inl h)
  · exact Or.inr (Or.inr (hall c h))

theorem jsFixedText_append (minus : Bool) (I : Nat) (frac rest : List Nat) :
    jsFixedText minus I frac ++ rest
      = (if minus then [45] else []) ++ (decimal I ++ 46 :: (frac ++ rest)) := by
  unfold jsFixedText
  simp [List.append_assoc]

/-- The text of a double in the range of the fixed notation is read back as a double of
that range with the same text, whatever byte that ends a number follows. -/
theorem jsDbl_fixed_reread (neg : Bool) (m : Nat) (e : Int)
    (h1 : Dbl.absLt (Dbl.fin neg m e) (Dbl.pow10 (-6)) = false)
    (h2 : Dbl.absLt (Dbl.pow10 9) (Dbl.fin neg m e) = false) :
    ∃ d1, (∀ rest, endsNumber (hd rest) →
        _js_parse_number (jsDblText (Dbl.fin neg m e) ++ rest) = (jsObject.number_d64 d1, rest))
      ∧ jsDblSteady d1 ∧ jsDblText d1 = jsDblText (Dbl.fin neg m e) := by
  obtain ⟨hT1, hT2⟩ := Dbl.fixed_millionths neg m e h1 h2
  rw [jsDblText_fixed neg m e h1 h2]
  generalize Dbl.rhe (Dbl.num m e * 10 ^ 6) (Dbl.den e) = T at hT1 hT2 ⊢
  have hF : T % 10 ^ 6 < 10 ^ 6 := Nat.mod_lt _ (by norm_num)
  have hdm := Nat.div_add_mod T (10 ^ 6)
  have hall : ∀ c ∈ jsFracTrim (padDecimal 6 (T % 10 ^ 6)), isDigit c :=
    jsFracTrim_digits _ (padDecimal_isDigit 6 _)
  have hne : jsFracTrim (padDecimal 6 (T % 10 ^ 6)) ≠ [] := jsFracTrim_ne_nil _
  have hlen : (jsFracTrim (padDecimal 6 (T % 10 ^ 6))).length ≤ 6 := by
    have hp : padDecimal 6 (T % 10 ^ 6) ≠ [] := by
      intro h0
      have := padDecimal_length 6 (T % 10 ^ 6)
      rw [h0] at this
      simp at this
    have := jsFracTrim_length _ hp
    rw [padDecimal_length] at this
    exact this
  by_cases hT : T = 10 ^ 15
  · subst hT
    have hI : 10 ^ 15 / 10 ^ 6 = 10 ^ 9 := by norm_num
    have hF0 : jsFracTrim (padDecimal 6 (10 ^ 15 % 10 ^ 6)) = [48] := by decide
    rw [hI, hF0]
    refine ⟨Dbl.mul (Dbl.round neg (digitsVal (10 ^ 9) [48]) 1) (Dbl.pow10 (-(([48] : List Nat).length : Int))),
      ?_, ?_, ?_⟩
    · intro rest hrest
      rw [jsFixedText_append]
      exact parse_number_fraction neg (10 ^ 9) [48] rest (by simp) (by decide) (by decide) hrest
    · cases neg
      · exact Or.inr ⟨rfl, rfl⟩
      · exact Or.inr ⟨rfl, rfl⟩
    · cases neg <;> rfl
  · have hT3 : T < 10 ^ 15 := by omega
    have hI : T / 10 ^ 6 < 10 ^ 9 := by
      apply Nat.div_lt_of_lt_mul
      calc T < 10 ^ 15 := hT3
        _ = 10 ^ 6 * 10 ^ 9 := by norm_num
    have hmag : jsFixedMag (T / 10 ^ 6) (jsFracTrim (padDecimal 6 (T % 10 ^ 6)))
        = (T : ℚ) / 10 ^ 6 := by
      rw [jsFixedMag_trim]
      unfold jsFixedMag
      rw [digitsVal_padDecimal 6 _ hF, padDecimal_length]
      have hq : ((T : Nat) : ℚ) = ((10 ^ 6 * (T / 10 ^ 6) + T % 10 ^ 6 : Nat) : ℚ) := by
        rw [hdm]
      rw [hq]
      push_cast
      field_simp
      ring
    have hlo : (1 : ℚ) / 10 ^ 6 ≤ jsFixedMag (T / 10 ^ 6)
        (jsFracTrim (padDecimal 6 (T % 10 ^ 6))) := by
      rw [hmag]
      have : (1 : ℚ) ≤ (T : ℚ) := by exact_mod_cast hT1
      exact div_le_div_of_nonneg_right this (by norm_num)
    have hhi : jsFixedMag (T / 10 ^ 6) (jsFracTrim (padDecimal 6 (T % 10 ^ 6))) < 10 ^ 9 := by
      rw [hmag, div_lt_iff₀ (by norm_num)]
      have : (T : ℚ) < 10 ^ 15 := by exact_mod_cast hT3
      calc (T : ℚ) < 10 ^ 15 := this
        _ = 10 ^ 9 * 10 ^ 6 := by norm_num
    have hN : digitsVal (T / 10 ^ 6) (jsFracTrim (padDecimal 6 (T % 10 ^ 6))) ≤ 2 ^ 53 := by
      have h3 := digitsVal_split (jsFracTrim (padDecimal 6 (T % 10 ^ 6))) (T / 10 ^ 6)
      have h4 := digitsVal_lt _ hall
      have h5 : 10 ^ (jsFracTrim (padDecimal 6 (T % 10 ^ 6))).length ≤ 10 ^ 6 :=
        Nat.pow_le_pow_right (by norm_num) hlen
      have h6 : (T / 10 ^ 6 + 1) * 10 ^ (jsFracTrim (padDecimal 6 (T % 10 ^ 6))).length
          ≤ 10 ^ 9 * 10 ^ 6 := Nat.mul_le_mul (by omega) h5
      rw [Nat.add_mul, Nat.one_mul] at h6
      have h7 : (10 : Nat) ^ 9 * 10 ^ 6 ≤ 2 ^ 53 := by norm_num
      omega
    refine ⟨Dbl.mul (Dbl.round neg (digitsVal (T / 10 ^ 6)
        (jsFracTrim (padDecimal 6 (T % 10 ^ 6)))) 1)
      (Dbl.pow10 (-((jsFracTrim (padDecimal 6 (T % 10 ^ 6))).length : Int))), ?_, ?_⟩
    · intro rest hrest
      rw [jsFixedText_append]
      exact parse_number_fraction neg (T / 10 ^ 6) _ rest hne hall hN hrest
    · obtain ⟨d, hp, hpr⟩ := number_fixed_round_trip neg (T / 10 ^ 6)
        (jsFracTrim (padDecimal 6 (T % 10 ^ 6))) [] hne hlen hall hlo hhi (by decide)
      have hp0 := parse_number_fraction neg (T / 10 ^ 6) _ [] hne hall hN (by decide)
      rw [jsFixedText_append, hp0] at hp
      simp only [Prod.mk.injEq, jsObject.number_d64.injEq, and_true] at hp
      rw [← hp, js_print_text_double, jsFracTrim_idem] at hpr
      have htext : jsDblText (Dbl.mul (Dbl.round neg (digitsVal (T / 10 ^ 6)
            (jsFracTrim (padDecimal 6 (T % 10 ^ 6)))) 1)
          (Dbl.pow10 (-((jsFracTrim (padDecimal 6 (T % 10 ^ 6))).length : Int))))
          = jsFixedText neg (T / 10 ^ 6) (jsFracTrim (padDecimal 6 (T % 10 ^ 6))) := by
        have := Option.some.inj hpr
        rw [this]
        rfl
      refine ⟨jsDblSteady_of_text _ ?_, htext⟩
      rw [htext]
      exact jsFixedText_alphabet _ _ _ hall

theorem parse_subscale_stop (rest : List Nat) (s : Int) (h : ¬ isDigit (hd rest)) :
    _js_parse_subscale rest s = (s, rest) := by
  cases rest with
  | nil => rfl
  | cons c r =>
    have : ¬ (48 ≤ c ∧ c ≤ 57) := h
    rw [_js_parse_subscale, if_neg this]

theorem rhe_zero (b : Nat) (hb : 0 < b) : Dbl.rhe 0 b = 0 := by
  unfold Dbl.rhe
  simp [hb]

/-- The text of a zero: the `%e` conversion. -/
theorem jsDblText_zero (neg : Bool) (e : Int) :
    jsDblText (Dbl.fin neg 0 e)
      = (if neg then [45] else []) ++ [48, 46, 48, 48, 48, 48, 48, 48, 101, 43, 48, 48] := by
  have hlt : Dbl.absLt (Dbl.fin neg 0 e) (Dbl.pow10 (-6)) = true := by
    rw [Dbl.pow10_neg_six, Dbl.absLt_fin, Dbl.mag_pow10_neg_six, Dbl.mag_eq]
    simp
  unfold jsDblText
  rw [if_pos (Or.inl hlt)]
  have hn : Dbl.num 0 e = 0 := by unfold Dbl.num; simp
  simp only [Dbl.fmt_e, if_true, hn, Nat.zero_mul]
  rw [rhe_zero _ (by have := Dbl.den_pos e; positivity)]
  cases neg <;> rfl

/-- The text of a zero is read back as a zero, whatever byte that ends a number follows. -/
theorem jsDbl_zero_reread (neg : Bool) (e : Int) :
    ∃ d1, (∀ rest, endsNumber (hd rest) →
        _js_parse_number (jsDblText (Dbl.fin neg 0 e) ++ rest) = (jsObject.number_d64 d1, rest))
      ∧ jsDblSteady d1 ∧ jsDblText d1 = jsDblText (Dbl.fin neg 0 e) := by
  refine ⟨Dbl.fin neg 0 0, ?_, Or.inl rfl, by rw [jsDblText_zero, jsDblText_zero]⟩
  intro rest hrest
  obtain ⟨hr1, hr2, hr3, hr4⟩ := hrest
  have hstop : ∀ s, _js_parse_subscale rest s = (s, rest) :=
    fun s => parse_subscale_stop rest s hr1
  have h46 : ¬ isDigit (hd (46 :: ([48, 48, 48, 48, 48, 48] ++ 101 :: 43 :: 48 :: 48 :: rest))) := by
    rw [hd_cons]; decide
  have hint := number_int_decimal 0 (46 :: ([48, 48, 48, 48, 48, 48] ++ 101 :: 43 :: 48 :: 48 :: rest))
    (by decide) h46
  have hd0 : decimal 0 = [48] := rfl
  rw [hd0] at hint
  have hpd := parse_digits_exact [48, 48, 48, 48, 48, 48] (101 :: 43 :: 48 :: 48 :: rest) 0 0
    (by decide) (by rw [hd_cons]; decide) (by decide)
  have hfrac : _js_number_frac (Dbl.round false 0 1)
        (46 :: ([48, 48, 48, 48, 48, 48] ++ 101 :: 43 :: 48 :: 48 :: rest))
      = (Dbl.round false (digitsVal 0 [48, 48, 48, 48, 48, 48]) 1, 6,
          101 :: 43 :: 48 :: 48 :: rest) := by
    unfold _js_number_frac
    rw [if_pos (by simp [hd_cons])]
    simp only [List.drop_succ_cons, List.drop_zero]
    rw [hpd]
    rfl
  have hexp : _js_number_exp (101 :: 43 :: 48 :: 48 :: rest) = (0, rest) := by
    unfold _js_number_exp
    simp [hd_cons, _js_parse_subscale, hstop, wrap32]
  have hval : ∀ sign : Bool, Dbl.mul (Dbl.mul (Dbl.fin sign 1 0)
        (Dbl.round false (digitsVal 0 [48, 48, 48, 48, 48, 48]) 1)) (Dbl.pow10 (-((6 : Nat) : Int) + 0))
      = Dbl.fin sign 0 0 := by
    intro sign
    cases sign <;> rfl
  rw [jsDblText_zero]
  cases neg
  · simp only [Bool.false_eq_true, if_false, List.nil_append, _js_parse_number]
    have h45 : hd ([48, 46, 48, 48, 48, 48, 48, 48, 101, 43, 48, 48] ++ rest) ≠ 45 := by
      rw [List.cons_append, hd_cons]; decide
    simp only [List.cons_append, List.nil_append] at hint hfrac h45 ⊢
    simp only [h45, if_false, hint, hfrac, hexp, hval, _js_object_set_number]
    simp
  · simp only [if_true, List.cons_append, List.nil_append, _js_parse_number, hd_cons,
      List.drop_succ_cons, List.drop_zero] at hint hfrac ⊢
    simp only [hint, hfrac, hexp, hval, _js_object_set_number]
    simp


/-- The printed text of a steady double is read back, whatever byte that ends a number
follows, as a steady double with the same text. -/
theorem jsDbl_reread (d : Dbl) (h : jsDblSteady d) :
    jsDblSteady (jsDblReread d) ∧ jsDblText (jsDblReread d) = jsDblText d
    ∧ (∀ rest, endsNumber (hd rest) →
        _js_parse_number (jsDblText d ++ rest) = (jsObject.number_d64 (jsDblReread d), rest))
    ∧ ∃ c t, jsDblText d = c :: t ∧ (c = 45 ∨ isDigit c) := by
  have key : ∀ d1, (∀ rest, endsNumber (hd rest) →
        _js_parse_number (jsDblText d ++ rest) = (jsObject.number_d64 d1, rest)) →
      jsDblReread d = d1 := by
    intro d1 hp
    have h0 := hp [] (by decide)
    rw [List.append_nil] at h0
    unfold jsDblReread
    rw [h0]
  cases d with
  | fin neg m e =>
    rcases h with h | ⟨h1, h2⟩
    · subst h
      obtain ⟨d1, hp, hs, ht⟩ := jsDbl_zero_reread neg e
      rw [key d1 hp]
      refine ⟨hs, ht, hp, ?_⟩
      rw [jsDblText_zero]
      cases neg
      · exact ⟨48, _, rfl, Or.inr (by decide)⟩
      · exact ⟨45, _, rfl, Or.inl rfl⟩
    · obtain ⟨d1, hp, hs, ht⟩ := jsDbl_fixed_reread neg m e h1 h2
      rw [key d1 hp]
      refine ⟨hs, ht, hp, ?_⟩
      rw [jsDblText_fixed neg m e h1 h2]
      exact jsFixedText_cases _ _ _
  | inf neg => exact absurd h id
  | nan => exact absurd h id

/-! ## Trees with doubles in fixed notation: the text is read back and printed again -/

theorem jsChainReread_keys : ∀ (chain : List jsEntry),
    (jsChainReread chain).map (fun e => e.key) = chain.map (fun e => e.key)
  | [] => by rw [jsChainReread]
  | ⟨key, some obj⟩ :: next => by
    rw [jsChainReread, List.map_cons, List.map_cons, jsChainReread_keys next]
  | ⟨key, none⟩ :: next => by
    rw [jsChainReread, List.map_cons, List.map_cons, jsChainReread_keys next]

theorem jsChainReread_length (chain : List jsEntry) :
    (jsChainReread chain).length = chain.length := by
  have := congrArg List.length (jsChainReread_keys chain)
  rw [List.length_map, List.length_map] at this
  exact this

theorem jsChainsReread_map : ∀ (table : List (List jsEntry)),
    jsChainsReread table = table.map jsChainReread
  | [] => by rw [jsChainsReread]; rfl
  | chain :: rest => by rw [jsChainsReread, jsChainsReread_map rest]; rfl

theorem jsChainsReread_keys : ∀ (table : List (List jsEntry)),
    (jsChainsReread table).flatten.map (fun e => e.key) = table.flatten.map (fun e => e.key)
  | [] => by rw [jsChainsReread]
  | chain :: rest => by
    rw [jsChainsReread, List.flatten_cons, List.flatten_cons, List.map_append, List.map_append,
      jsChainReread_keys, jsChainsReread_keys rest]

/-- The shape of a table does not depend on the values it stores. -/
theorem jsTablePlain_reread (table : List (List jsEntry)) (size mask used : Nat)
    (h : jsTablePlain ⟨table, size, mask, used⟩) :
    jsTablePlain ⟨jsChainsReread table, size, mask, used⟩ := by
  obtain ⟨⟨hinv, hle, hgood, hnd⟩, hu, hsize, hone⟩ := h
  have hkeys : ht_keys (⟨jsChainsReread table, size, mask, used⟩ : jsTable)
      = ht_keys (⟨table, size, mask, used⟩ : jsTable) := jsChainsReread_keys table
  refine ⟨⟨⟨?_, hinv.size, hinv.mask, ?_, ?_⟩, hle, ?_, ?_⟩, hu, hsize, ?_⟩
  · show (jsChainsReread table).length = size
    rw [jsChainsReread_map, List.length_map]
    exact hinv.len
  · show used = ht_count (⟨jsChainsReread table, size, mask, used⟩ : jsTable)
    have h0 : used = ht_count (⟨table, size, mask, used⟩ : jsTable) := hinv.used
    rw [h0]
    unfold ht_count
    show _ = ((jsChainsReread table).map List.length).sum
    rw [jsChainsReread_map, List.map_map]
    congr 1
    apply List.map_congr_left
    intro chain _
    exact (jsChainReread_length chain).symm
  · intro i e he
    have he1 : e ∈ jsChainReread (table.getD i []) := by
      have hmap : (jsChainsReread table).getD i [] = jsChainReread (table.getD i []) := by
        rw [jsChainsReread_map]
        have := List.getD_map (f := jsChainReread) (l := table) (n := i) (d := [])
        rw [jsChainReread] at this
        exact this
      rw [← hmap]
      exact he
    have hk : e.key ∈ (jsChainReread (table.getD i [])).map (fun e => e.key) :=
      List.mem_map_of_mem _ he1
    rw [jsChainReread_keys] at hk
    obtain ⟨e0, he0, hk0⟩ := List.mem_map.mp hk
    rw [← hk0]
    exact hinv.bucket i e0 he0
  · intro e he
    have hk : e.key ∈ ht_keys (⟨jsChainsReread table, size, mask, used⟩ : jsTable) :=
      List.mem_map_of_mem _ he
    rw [hkeys] at hk
    obtain ⟨e0, he0, hk0⟩ := List.mem_map.mp hk
    rw [← hk0]
    exact hgood e0 he0
  · rw [hkeys]
    exact hnd
  · intro chain hchain
    have hc : chain ∈ (jsChainsReread table) := hchain
    rw [jsChainsReread_map] at hc
    obtain ⟨c0, hc0, rfl⟩ := List.mem_map.mp hc
    rw [jsChainReread_length]
    exact hone c0 hc0

mutual

/-- Reading the doubles of a steady tree back from their text gives a steady tree with the
same text. -/
theorem reread_steady : ∀ (o : jsObject), o.steady → o.reread.steady ∧ o.reread.text = o.text
  | jsObject.null, _ => by rw [jsObject.reread]; exact ⟨by rw [jsObject.steady]; trivial, rfl⟩
  | jsObject.boolean l64, h => by rw [jsObject.reread]; exact ⟨h, rfl⟩
  | jsObject.number_l64 l64, h => by rw [jsObject.reread]; exact ⟨h, rfl⟩
  | jsObject.number_d64 d64, h => by
    rw [jsObject.steady] at h
    obtain ⟨h1, h2, _⟩ := jsDbl_reread d64 h
    rw [jsObject.reread, jsObject.steady, jsObject.text, jsObject.text]
    exact ⟨h1, h2⟩
  | jsObject.string s, h => by rw [jsObject.reread]; exact ⟨h, rfl⟩
  | jsObject.array ⟨nodes, len⟩, h => by
    rw [jsObject.steady] at h
    obtain ⟨h1, h2, h3⟩ := reread_nodes_steady nodes h.2
    rw [jsObject.reread, jsObject.steady, jsObject.text, jsObject.text, h2, h3]
    exact ⟨⟨h.1, h1⟩, rfl⟩
  | jsObject.object ⟨table, size, mask, used⟩, h => by
    rw [jsObject.steady] at h
    obtain ⟨h1, h2⟩ := reread_chains_steady table h.2
    rw [jsObject.reread, jsObject.steady, jsObject.text, jsObject.text, h2]
    exact ⟨⟨jsTablePlain_reread table size mask used h.1, h1⟩, rfl⟩

theorem reread_nodes_steady : ∀ (nodes : List jsObject), jsNodesSteady nodes →
    jsNodesSteady (jsNodesReread nodes) ∧ jsNodesText (jsNodesReread nodes) = jsNodesText nodes
    ∧ (jsNodesReread nodes).length = nodes.length
  | [], _ => by rw [jsNodesReread]; exact ⟨by rw [jsNodesSteady]; trivial, rfl, rfl⟩
  | obj :: rest, h => by
    rw [jsNodesSteady] at h
    obtain ⟨h1, h2⟩ := reread_steady obj h.1
    obtain ⟨h3, h4, h5⟩ := reread_nodes_steady rest h.2
    rw [jsNodesReread, jsNodesSteady, jsNodesText, jsNodesText, h2, h4, List.length_cons,
      List.length_cons, h5]
    exact ⟨⟨h1, h3⟩, rfl, rfl⟩

theorem reread_chains_steady : ∀ (table : List (List jsEntry)), jsChainsSteady table →
    jsChainsSteady (jsChainsReread table)
    ∧ jsChainsText (jsChainsReread table) = jsChainsText table
  | [], _ => by rw [jsChainsReread]; exact ⟨by rw [jsChainsSteady]; trivial, rfl⟩
  | chain :: rest, h => by
    rw [jsChainsSteady] at h
    obtain ⟨h1, h2⟩ := reread_chain_steady chain h.1
    obtain ⟨h3, h4⟩ := reread_chains_steady rest h.2
    rw [jsChainsReread, jsChainsSteady, jsChainsText, jsChainsText, h2, h4]
    exact ⟨⟨h1, h3⟩, rfl⟩

theorem reread_chain_steady : ∀ (chain : List jsEntry), jsChainSteady chain →
    jsChainSteady (jsChainReread chain) ∧ jsChainText (jsChainReread chain) = jsChainText chain
  | [], _ => by rw [jsChainReread]; exact ⟨by rw [jsChainSteady]; trivial, rfl⟩
  | ⟨none, _⟩ :: _, h => by rw [jsChainSteady] at h; exact absurd h id
  | ⟨some _, none⟩ :: _, h => by rw [jsChainSteady] at h; exact absurd h id
  | ⟨some key, some obj⟩ :: next, h => by
    rw [jsChainSteady] at h
    obtain ⟨h1, h2⟩ := reread_steady obj h.2.1
    obtain ⟨h3, h4⟩ := reread_chain_steady next h.2.2
    rw [jsChainReread, jsChainSteady, jsChainText, jsChainText, h2, h4]
    exact ⟨⟨h.1, h1, h3⟩, rfl⟩

end

mutual

/-- A plain tree is steady, and reading its doubles back changes nothing: it has none. -/
theorem plain_steady : ∀ (o : jsObject), o.plain → o.steady ∧ o.reread = o
  | jsObject.null, _ => by rw [jsObject.reread]; exact ⟨by rw [jsObject.steady]; trivial, rfl⟩
  | jsObject.boolean l64, h => by rw [jsObject.reread]; exact ⟨h, rfl⟩
  | jsObject.number_l64 l64, h => by rw [jsObject.reread]; exact ⟨h, rfl⟩
  | jsObject.number_d64 _, h => by rw [jsObject.plain] at h; exact absurd h id
  | jsObject.string s, h => by rw [jsObject.reread]; exact ⟨h, rfl⟩
  | jsObject.array ⟨nodes, len⟩, h => by
    rw [jsObject.plain] at h
    obtain ⟨h1, h2⟩ := plain_nodes_steady nodes h.2
    rw [jsObject.reread, jsObject.steady, h2]
    exact ⟨⟨h.1, h1⟩, rfl⟩
  | jsObject.object ⟨table, size, mask, used⟩, h => by
    rw [jsObject.plain] at h
    obtain ⟨h1, h2⟩ := plain_chains_steady table h.2
    rw [jsObject.reread, jsObject.steady, h2]
    exact ⟨⟨h.1, h1⟩, rfl⟩

theorem plain_nodes_steady : ∀ (nodes : List jsObject), jsNodesPlain nodes →
    jsNodesSteady nodes ∧ jsNodesReread nodes = nodes
  | [], _ => by rw [jsNodesReread]; exact ⟨by rw [jsNodesSteady]; trivial, rfl⟩
  | obj :: rest, h => by
    rw [jsNodesPlain] at h
    obtain ⟨h1, h2⟩ := plain_steady obj h.1
    obtain ⟨h3, h4⟩ := plain_nodes_steady rest h.2
    rw [jsNodesReread, jsNodesSteady, h2, h4]
    exact ⟨⟨h1, h3⟩, rfl⟩

theorem plain_chains_steady : ∀ (table : List (List jsEntry)), jsChainsPlain table →
    jsChainsSteady table ∧ jsChainsReread table = table
  | [], _ => by rw [jsChainsReread]; exact ⟨by rw [jsChainsSteady]; trivial, rfl⟩
  | chain :: rest, h => by
    rw [jsChainsPlain] at h
    obtain ⟨h1, h2⟩ := plain_chain_steady chain h.1
    obtain ⟨h3, h4⟩ := plain_chains_steady rest h.2
    rw [jsChainsReread, jsChainsSteady, h2, h4]
    exact ⟨⟨h1, h3⟩, rfl⟩

theorem plain_chain_steady : ∀ (chain : List jsEntry), jsChainPlain chain →
    jsChainSteady chain ∧ jsChainReread chain = chain
  | [], _ => by rw [jsChainReread]; exact ⟨by rw [jsChainSteady]; trivial, rfl⟩
  | ⟨none, _⟩ :: _, h => by rw [jsChainPlain] at h; exact absurd h id
  | ⟨some _, none⟩ :: _, h => by rw [jsChainPlain] at h; exact absurd h id
  | ⟨some key, some obj⟩ :: next, h => by
    rw [jsChainPlain] at h
    obtain ⟨h1, h2⟩ := plain_steady obj h.2.1
    obtain ⟨h3, h4⟩ := plain_chain_steady next h.2.2
    rw [jsChainReread, jsChainSteady, h2, h4]
    exact ⟨⟨h.1, h1, h3⟩, rfl⟩

end

mutual

theorem print_steady : ∀ (o : jsObject) (buf : jsBuffer), o.steady →
    ∃ o1 q, o.print buf = some (o1, q) ∧ jsBufferAppended buf o.text q
  | jsObject.null, buf, _ => print_leaf_null buf
  | jsObject.boolean l64, buf, _ => print_leaf_boolean l64 buf
  | jsObject.number_l64 l64, buf, _ => print_leaf_integer l64 buf
  | jsObject.number_d64 d64, buf, _ => by
    obtain ⟨q, h1, h2⟩ := print_leaf_double d64 buf
    exact ⟨_, q, h1, by rw [jsObject.text]; exact h2⟩
  | jsObject.string s, buf, h => by
    rw [jsObject.steady] at h
    exact print_leaf_string s h buf
  | jsObject.array ⟨nodes, len⟩, buf, h => by
    rw [jsObject.steady] at h
    obtain ⟨q1, e1, a1⟩ := sprintf_plain buf [91] (by decide)
    obtain ⟨nodes1, q2, e2, a2⟩ := print_nodes_steady nodes 0 q1 h.2
    obtain ⟨q3, e3, a3⟩ := sprintf_plain q2 [93] (by decide)
    refine ⟨jsObject.array ⟨nodes1, len⟩, q3, ?_, ?_⟩
    · rw [jsObject.print, e1]
      simp only [e2, e3]
      rfl
    · have := (a1.trans a2).trans a3
      rw [jsObject.text]
      simpa using this
  | jsObject.object ⟨table, size, mask, used⟩, buf, h => by
    rw [jsObject.steady] at h
    obtain ⟨q1, e1, a1⟩ := sprintf_plain buf [123] (by decide)
    obtain ⟨table1, n1, q2, e2, a2⟩ := print_chains_steady table 0 q1 h.2
    obtain ⟨q3, e3, a3⟩ := sprintf_plain q2 [125] (by decide)
    refine ⟨jsObject.object ⟨table1, size, mask, used⟩, q3, ?_, ?_⟩
    · rw [jsObject.print, e1]
      simp only [e2, e3]
      rfl
    · have := (a1.trans a2.2).trans a3
      rw [jsObject.text]
      simpa using this

theorem print_nodes_steady : ∀ (nodes : List jsObject) (n : Nat) (buf : jsBuffer),
    jsNodesSteady nodes →
    ∃ nodes1 q, _js_object_array_print_loop nodes n buf = some (nodes1, q)
      ∧ jsBufferAppended buf ((jsNodesText nodes).drop (if n = 0 then 1 else 0)) q
  | [], n, buf, _ => by
    refine ⟨[], buf, by rw [_js_object_array_print_loop], ?_⟩
    rw [jsNodesText]
    simpa using jsBufferAppended.nil buf
  | obj :: rest, n, buf, h => by
    rw [jsNodesSteady] at h
    obtain ⟨q1, e1, a1⟩ := print_comma_spec n buf
    obtain ⟨obj1, q2, e2, a2⟩ := print_steady obj q1 h.1
    obtain ⟨rest1, q3, e3, a3⟩ := print_nodes_steady rest (n + 1) q2 h.2
    refine ⟨obj1 :: rest1, q3, ?_, ?_⟩
    · rw [_js_object_array_print_loop, e1]
      simp only [e2, e3]
    · have := (a1.trans a2).trans a3
      rw [jsNodesText]
      by_cases hn : n = 0
      · simpa [hn] using this
      · simpa [hn] using this

theorem print_chains_steady : ∀ (table : List (List jsEntry)) (n : Nat) (buf : jsBuffer),
    jsChainsSteady table →
    ∃ table1 n1 q, _js_object_object_print_table table n buf = some (table1, n1, q)
      ∧ (n = 0 ∧ jsChainsText table = [] ↔ n1 = 0)
      ∧ jsBufferAppended buf ((jsChainsText table).drop (if n = 0 then 1 else 0)) q
  | [], n, buf, _ => by
    refine ⟨[], n, buf, by rw [_js_object_object_print_table], ?_, ?_⟩
    · rw [jsChainsText]; simp
    · rw [jsChainsText]
      simpa using jsBufferAppended.nil buf
  | chain :: rest, n, buf, h => by
    rw [jsChainsSteady] at h
    obtain ⟨chain1, n1, q1, e1, c1, a1⟩ := print_chain_steady chain n buf h.1
    obtain ⟨rest1, n2, q2, e2, c2, a2⟩ := print_chains_steady rest n1 q1 h.2
    refine ⟨chain1 :: rest1, n2, q2, ?_, ?_, ?_⟩
    · rw [_js_object_object_print_table, e1]
      simp only [e2]
    · rw [jsChainsText, ← c2, ← c1]
      simp [and_assoc]
    · have := a1.trans a2
      rw [jsChainsText]
      by_cases hn : n = 0
      · by_cases hc : jsChainText chain = []
        · have hn1 : n1 = 0 := c1.mp ⟨hn, hc⟩
          simpa [hn, hc, hn1] using this
        · have hn1 : n1 ≠ 0 := fun h0 => hc (c1.mpr h0).2
          rw [if_pos hn, drop_one_append _ _ hc]
          simpa [hn, hn1] using this
      · have hn1 : n1 ≠ 0 := fun h0 => hn (c1.mpr h0).1
        simpa [hn, hn1] using this

theorem print_chain_steady : ∀ (chain : List jsEntry) (n : Nat) (buf : jsBuffer),
    jsChainSteady chain →
    ∃ chain1 n1 q, _js_object_object_print_chain chain n buf = some (chain1, n1, q)
      ∧ (n = 0 ∧ jsChainText chain = [] ↔ n1 = 0)
      ∧ jsBufferAppended buf ((jsChainText chain).drop (if n = 0 then 1 else 0)) q
  | [], n, buf, _ => by
    refine ⟨[], n, buf, by rw [_js_object_object_print_chain], ?_, ?_⟩
    · rw [jsChainText]; simp
    · rw [jsChainText]
      simpa using jsBufferAppended.nil buf
  | ⟨none, _⟩ :: _, _, _, h => by rw [jsChainSteady] at h; exact absurd h id
  | ⟨some _, none⟩ :: _, _, _, h => by rw [jsChainSteady] at h; exact absurd h id
  | ⟨some key, some obj⟩ :: next, n, buf, h => by
    rw [jsChainSteady] at h
    obtain ⟨q1, e1, a1⟩ := print_comma_spec n buf
    obtain ⟨q2, e2, q3, e3, a3⟩ := print_quoted key h.1 q1
    obtain ⟨q4, e4, a4⟩ := sprintf_plain q3 [34, 58] (by decide)
    obtain ⟨obj1, q5, e5, a5⟩ := print_steady obj q4 h.2.1
    obtain ⟨next1, n1, q6, e6, c6, a6⟩ := print_chain_steady next (n + 1) q5 h.2.2
    refine ⟨⟨some (_js_object_string_escape key), some obj1⟩ :: next1, n1, q6, ?_, ?_, ?_⟩
    · rw [_js_object_object_print_chain, e1]
      simp only [e2, e3, e4, e5, e6]
    · rw [jsChainText]
      have hn1 : n1 ≠ 0 := fun h0 => absurd (c6.mpr h0).1 (by omega)
      simp [hn1]
    · have := (((a1.trans a3).trans a4).trans a5).trans a6
      rw [jsChainText]
      by_cases hn : n = 0
      · simpa [hn] using this
      · simpa [hn] using this

end

theorem jsChainSteady_shape : ∀ (chain : List jsEntry), jsChainSteady chain →
    ∀ e ∈ chain, ∃ name sub, e = ⟨some name, some sub⟩
  | [], _ => by intro e he; exact absurd he (List.not_mem_nil _)
  | ⟨none, _⟩ :: _, h => by rw [jsChainSteady] at h; exact absurd h id
  | ⟨some _, none⟩ :: _, h => by rw [jsChainSteady] at h; exact absurd h id
  | ⟨some key, some obj⟩ :: next, h => by
    rw [jsChainSteady] at h
    intro e he
    rcases List.mem_cons.mp he with h1 | h1
    · exact ⟨key, obj, h1⟩
    · exact jsChainSteady_shape next h.2.2 e h1

theorem jsChainsSteady_shape : ∀ (table : List (List jsEntry)), jsChainsSteady table →
    ∀ e ∈ table.flatten, ∃ name sub, e = ⟨some name, some sub⟩
  | [], _ => by intro e he; simp at he
  | chain :: rest, h => by
    rw [jsChainsSteady] at h
    intro e he
    rw [List.flatten_cons] at he
    rcases List.mem_append.mp he with h1 | h1
    · exact jsChainSteady_shape chain h.1 e h1
    · exact jsChainsSteady_shape rest h.2 e h1

/-- The first byte of the text of a steady tree starts a value and is no separator. -/
theorem text_head_steady (o : jsObject) (h : o.steady) :
    ∃ c t, o.text = c :: t ∧ 32 < c ∧ c ≠ 44 ∧ c ≠ 93 ∧ c ≠ 125 := by
  cases o with
  | null => exact ⟨110, _, rfl, by decide⟩
  | boolean l64 =>
    rw [jsObject.text]
    by_cases hb : l64 ≠ 0
    · rw [if_pos hb]; exact ⟨116, _, rfl, by decide⟩
    · rw [if_neg hb]; exact ⟨102, _, rfl, by decide⟩
  | number_l64 l64 =>
    obtain ⟨c, t, hct, hc⟩ := fmt_ld_cases l64
    refine ⟨c, t, by rw [jsObject.text, hct], ?_⟩
    rcases hc with hc | hc
    · subst hc; decide
    · unfold isDigit at hc; omega
  | number_d64 d64 =>
    rw [jsObject.steady] at h
    obtain ⟨c, t, hct, hc⟩ := (jsDbl_reread d64 h).2.2.2
    refine ⟨c, t, by rw [jsObject.text]; exact hct, ?_⟩
    rcases hc with hc | hc
    · subst hc; decide
    · unfold isDigit at hc; omega
  | string val => exact ⟨34, _, by rw [jsObject.text]; rfl, by decide⟩
  | array val => cases val; exact ⟨91, _, by rw [jsObject.text]; rfl, by decide⟩
  | object val => cases val; exact ⟨123, _, by rw [jsObject.text]; rfl, by decide⟩

theorem jsChainText_shape_steady : ∀ (chain : List jsEntry), jsChainSteady chain →
    2 * chain.length ≤ (jsChainText chain).length
    ∧ (chain = [] ∨ ∃ t, jsChainText chain = 44 :: 34 :: t)
  | [], _ => ⟨by simp, Or.inl rfl⟩
  | ⟨none, _⟩ :: _, h => by rw [jsChainSteady] at h; exact absurd h id
  | ⟨some _, none⟩ :: _, h => by rw [jsChainSteady] at h; exact absurd h id
  | ⟨some key, some obj⟩ :: next, h => by
    rw [jsChainSteady] at h
    have ih := (jsChainText_shape_steady next h.2.2).1
    rw [jsChainText]
    refine ⟨?_, Or.inr ⟨_, rfl⟩⟩
    simp only [List.length_cons, List.length_append]
    omega

theorem jsChainsText_shape_steady : ∀ (table : List (List jsEntry)), jsChainsSteady table →
    2 * table.flatten.length ≤ (jsChainsText table).length
    ∧ ((table.flatten = [] ∧ jsChainsText table = []) ∨ ∃ t, jsChainsText table = 44 :: 34 :: t)
  | [], _ => ⟨by simp, Or.inl ⟨rfl, by rw [jsChainsText]⟩⟩
  | chain :: rest, h => by
    rw [jsChainsSteady] at h
    obtain ⟨h1, h2⟩ := jsChainText_shape_steady chain h.1
    obtain ⟨h3, h4⟩ := jsChainsText_shape_steady rest h.2
    rw [jsChainsText, List.flatten_cons]
    refine ⟨?_, ?_⟩
    · simp only [List.length_append]; omega
    · rcases h2 with h2 | ⟨t, h2⟩
      · subst h2
        rw [jsChainText]
        simpa using h4
      · exact Or.inr ⟨t ++ jsChainsText rest, by rw [h2]; rfl⟩

/-- Inserting the entries of a table of the parsing shape into a fresh table, in iteration
order, gives the table back. -/
theorem js_add_members_table (t : jsTable) (h : jsTablePlain t)
    (hs : ∀ e ∈ ht_toList t, ∃ name sub, e = ⟨some name, some sub⟩) :
    js_add_members ht_create (ht_toList t) = some t := by
  obtain ⟨hwf, hu, hsize, hone⟩ := h
  obtain ⟨t1, hadd, hwf1, hc1, hperm⟩ := js_add_members_spec (ht_toList t) ht_create
    (ht_create_wf htTypeJson jsKeyGood) rfl hs hwf.nodup
    (by intro e _ hm; simp [ht_create, _ht_reset, ht_keys, ht_toList] at hm)
    (by rw [← ht_wf_used_eq hwf]; simpa [ht_create, _ht_reset] using hu)
  have hperm1 : (ht_toList t1).Perm (ht_toList t) := by
    simpa [ht_create, _ht_reset, ht_toList] using hperm
  have hused : t1.used = t.used := by
    rw [ht_wf_used_eq hwf1, ht_wf_used_eq hwf, hperm1.length_eq]
  rw [hadd, ht_eq_of_perm hwf1 hwf (by rw [hc1, hsize, hused]) hperm1 hone]

mutual

/-- The parser reads the text of a steady tree back as the tree with its doubles read
back, given fuel above the length of the text and a following byte that cannot continue a
number. -/
theorem parse_steady : ∀ (o : jsObject) (fuel : Nat) (rest : List Nat), o.steady →
    o.text.length + 1 ≤ fuel → endsNumber (hd rest) →
    _js_parse_value fuel (o.text ++ rest) = some (jsParse.ok o.reread rest)
  | jsObject.null, fuel, rest, _, hf, hr => by
    rw [jsObject.reread]
    exact parse_text _ fuel rest (by rw [jsObject.plain]; trivial) hf hr
  | jsObject.boolean l64, fuel, rest, h, hf, hr => by
    rw [jsObject.reread]
    exact parse_text _ fuel rest (by rw [jsObject.plain]; rw [jsObject.steady] at h; exact h)
      hf hr
  | jsObject.number_l64 l64, fuel, rest, h, hf, hr => by
    rw [jsObject.reread]
    exact parse_text _ fuel rest (by rw [jsObject.plain]; rw [jsObject.steady] at h; exact h)
      hf hr
  | jsObject.number_d64 d64, fuel, rest, h, hf, hr => by
    obtain ⟨f, rfl⟩ : ∃ f, fuel = f + 1 := ⟨fuel - 1, by omega⟩
    rw [jsObject.steady] at h
    obtain ⟨_, _, hp, c, t, hct, hc⟩ := jsDbl_reread d64 h
    have hv := parse_value_number f c (t ++ rest) hc
    rw [jsObject.text, jsObject.reread]
    rw [← List.cons_append, ← hct, hp rest hr] at hv
    exact hv
  | jsObject.string s, fuel, rest, h, hf, hr => by
    rw [jsObject.reread]
    exact parse_text _ fuel rest (by rw [jsObject.plain]; rw [jsObject.steady] at h; exact h)
      hf hr
  | jsObject.array ⟨nodes, len⟩, fuel, rest, h, hf, _ => by
    rw [jsObject.steady] at h
    obtain ⟨hlen, hnodes⟩ := h
    rw [jsObject.reread]
    rw [jsObject.text] at hf ⊢
    cases nodes with
    | nil =>
      rw [jsNodesText] at hf ⊢
      rw [jsNodesReread]
      simp only [List.drop_nil, List.length_cons, List.length_append, List.length_nil] at hf
      obtain ⟨f, rfl⟩ : ∃ f, fuel = f + 2 := ⟨fuel - 2, by omega⟩
      subst hlen
      simp [parse_value_array, _js_parse_array, hd, _js_skip, _js_object_set_array, ls_create]
    | cons o r =>
      rw [jsNodesSteady] at hnodes
      rw [jsNodesText] at hf ⊢
      rw [jsNodesReread]
      simp only [List.cons_append, List.drop_succ_cons, List.drop_zero, List.length_cons,
        List.length_append, List.length_nil] at hf
      obtain ⟨f, rfl⟩ : ∃ f, fuel = f + 2 := ⟨fuel - 2, by omega⟩
      obtain ⟨c, t, hct, hc⟩ := text_head_steady o hnodes.1
      have hsep := hd_append_sep (jsNodesText_shape r)
        (show hd (93 :: rest) = 44 ∨ hd (93 :: rest) = 93 ∨ hd (93 :: rest) = 125 from
          Or.inr (Or.inl rfl))
      have hshape : 91 :: List.drop 1 (44 :: (o.text ++ jsNodesText r)) ++ [93] ++ rest
          = 91 :: (o.text ++ (jsNodesText r ++ 93 :: rest)) := by simp
      have hskip : _js_skip (o.text ++ (jsNodesText r ++ 93 :: rest))
          = o.text ++ (jsNodesText r ++ 93 :: rest) := by
        rw [hct]; exact _js_skip_of_lt _ hc.1
      have hhd : hd (o.text ++ (jsNodesText r ++ 93 :: rest)) ≠ 93 := by
        rw [hct]; exact hc.2.2.1
      simp only [List.cons_append] at hshape ⊢
      rw [hshape, parse_value_array, _js_parse_array]
      simp only [List.drop_succ_cons, List.drop_zero, hskip, hhd, if_false]
      rw [parse_steady o f _ hnodes.1 (by omega) (endsNumber_sep hsep).1]
      simp only []
      rw [(endsNumber_sep hsep).2, parse_nodes_steady r f _ rest hnodes.2 (by omega)]
      subst hlen
      simp [ls_add_tail, ls_create]
      omega
  | jsObject.object ⟨table, size, mask, used⟩, fuel, rest, h, hf, _ => by
    rw [jsObject.steady] at h
    obtain ⟨htab, hchains⟩ := h
    obtain ⟨hlen2, hshape⟩ := jsChainsText_shape_steady table hchains
    obtain ⟨hst, _⟩ := reread_chains_steady table hchains
    have hflat : (jsChainsReread table).flatten.length = table.flatten.length := by
      have := congrArg List.length (jsChainsReread_keys table)
      rw [List.length_map, List.length_map] at this
      exact this
    have hmem := js_add_members_table ⟨jsChainsReread table, size, mask, used⟩
      (jsTablePlain_reread table size mask used htab)
      (jsChainsSteady_shape (jsChainsReread table) hst)
    rw [jsObject.reread]
    rw [jsObject.text] at hf ⊢
    rcases hshape with ⟨hflat0, htext⟩ | ⟨t, htext⟩
    · rw [htext] at hf ⊢
      simp only [List.drop_nil, List.length_cons, List.length_append, List.length_nil] at hf
      obtain ⟨f, rfl⟩ : ∃ f, fuel = f + 2 := ⟨fuel - 2, by omega⟩
      have hnil : ht_toList (⟨jsChainsReread table, size, mask, used⟩ : jsTable) = [] := by
        apply List.length_eq_zero.mp
        show (jsChainsReread table).flatten.length = 0
        rw [hflat, hflat0]
        rfl
      rw [hnil] at hmem
      have heq : (ht_create : jsTable) = ⟨jsChainsReread table, size, mask, used⟩ := by
        simpa [js_add_members] using hmem
      rw [← heq]
      simp [parse_value_object, _js_parse_object, hd, _js_skip, _js_object_set_object]
    · rw [htext] at hf hlen2 ⊢
      simp only [List.drop_succ_cons, List.drop_zero, List.length_cons, List.length_append,
        List.length_nil] at hf hlen2
      obtain ⟨f, rfl⟩ : ∃ f, fuel = f + 2 := ⟨fuel - 2, by omega⟩
      have hshape : 123 :: List.drop 1 (44 :: 34 :: t) ++ [125] ++ rest
          = 123 :: 34 :: (t ++ 125 :: rest) := by simp
      rw [hshape, parse_value_object, _js_parse_object]
      simp only [List.drop_succ_cons, List.drop_zero,
        _js_skip_of_lt (t ++ 125 :: rest) (show 32 < 34 by decide), hd_cons,
        show ¬ ((34 : Nat) = 125) by decide, if_false]
      have hloop := parse_object_loop_comma f ht_create (34 :: (t ++ 125 :: rest))
      rw [_js_skip_of_lt _ (show 32 < 34 by decide)] at hloop
      rw [← hloop]
      have hfuel : f + 1 = (f + 1 - 2 * table.flatten.length) + 2 * table.flatten.length := by
        omega
      have hchain := parse_chains_steady table (f + 1 - 2 * table.flatten.length) ht_create
        (125 :: rest) hchains (by rw [htext]; simp only [List.length_cons]; omega)
        (Or.inr (Or.inr rfl))
      rw [← hfuel, htext] at hchain
      have hmem1 : js_add_members ht_create (jsChainsReread table).flatten
          = some (⟨jsChainsReread table, size, mask, used⟩ : jsTable) := hmem
      simp only [List.cons_append] at hchain
      rw [hchain, hmem1]
      simp only []
      obtain ⟨g, hg⟩ : ∃ g, f + 1 - 2 * table.flatten.length = g + 1 :=
        ⟨f - 2 * table.flatten.length, by omega⟩
      rw [hg, parse_object_loop_end]

theorem parse_nodes_steady : ∀ (nodes : List jsObject) (fuel : Nat) (ls : lsHandle jsObject)
    (rest : List Nat), jsNodesSteady nodes → (jsNodesText nodes).length + 1 ≤ fuel →
    _js_parse_array_loop fuel ls (jsNodesText nodes ++ 93 :: rest)
      = some (jsParse.ok
          (jsObject.array ⟨ls.nodes ++ jsNodesReread nodes, ls.len + nodes.length⟩) rest)
  | [], fuel, ls, rest, _, hf => by
    obtain ⟨f, rfl⟩ : ∃ f, fuel = f + 1 := ⟨fuel - 1, by omega⟩
    rw [jsNodesText, jsNodesReread]
    simp only [List.nil_append]
    rw [parse_array_loop_end]
    cases ls
    simp
  | o :: r, fuel, ls, rest, h, hf => by
    rw [jsNodesSteady] at h
    rw [jsNodesText] at hf ⊢
    rw [jsNodesReread]
    simp only [List.length_cons, List.length_append] at hf
    obtain ⟨f, rfl⟩ : ∃ f, fuel = f + 1 := ⟨fuel - 1, by omega⟩
    obtain ⟨c, t, hct, hc⟩ := text_head_steady o h.1
    have hsep := hd_append_sep (jsNodesText_shape r)
      (show hd (93 :: rest) = 44 ∨ hd (93 :: rest) = 93 ∨ hd (93 :: rest) = 125 from
        Or.inr (Or.inl rfl))
    have hshape : 44 :: o.text ++ jsNodesText r ++ 93 :: rest
        = 44 :: (o.text ++ (jsNodesText r ++ 93 :: rest)) := by simp
    have hskip : _js_skip (o.text ++ (jsNodesText r ++ 93 :: rest))
        = o.text ++ (jsNodesText r ++ 93 :: rest) := by
      rw [hct]; exact _js_skip_of_lt _ hc.1
    rw [hshape, _js_parse_array_loop]
    simp only [hd_cons, if_true, List.drop_succ_cons, List.drop_zero, hskip]
    rw [parse_steady o f _ h.1 (by omega) (endsNumber_sep hsep).1]
    simp only []
    rw [(endsNumber_sep hsep).2, parse_nodes_steady r f _ rest h.2 (by omega)]
    simp [ls_add_tail]
    omega

theorem parse_chains_steady : ∀ (table : List (List jsEntry)) (fuel : Nat) (ht : jsTable)
    (tail : List Nat), jsChainsSteady table →
    (jsChainsText table).length + 1 ≤ fuel + 2 * table.flatten.length →
    (hd tail = 44 ∨ hd tail = 93 ∨ hd tail = 125) →
    _js_parse_object_loop (fuel + 2 * table.flatten.length) ht (jsChainsText table ++ tail)
      = match js_add_members ht (jsChainsReread table).flatten with
        | none => some (jsParse.fail none)
        | some ht1 => _js_parse_object_loop fuel ht1 tail
  | [], fuel, ht, tail, _, _, _ => by
    rw [jsChainsText, jsChainsReread]
    rfl
  | chain :: rest, fuel, ht, tail, h, hf, hsep => by
    rw [jsChainsSteady] at h
    rw [jsChainsText] at hf ⊢
    rw [jsChainsReread]
    rw [List.flatten_cons, List.length_append] at hf ⊢
    rw [List.length_append] at hf
    obtain ⟨hc1, hc2⟩ := jsChainText_shape_steady chain h.1
    obtain ⟨hr1, hr2⟩ := jsChainsText_shape_steady rest h.2
    have hsep1 : hd (jsChainsText rest ++ tail) = 44 ∨ hd (jsChainsText rest ++ tail) = 93
        ∨ hd (jsChainsText rest ++ tail) = 125 := by
      refine hd_append_sep ?_ hsep
      rcases hr2 with ⟨_, h0⟩ | ⟨t, h0⟩
      · exact Or.inl h0
      · exact Or.inr ⟨_, h0⟩
    have h1 := parse_chain_steady chain (fuel + 2 * rest.flatten.length) ht
      (jsChainsText rest ++ tail) h.1 (by omega) hsep1
    have hfuel : fuel + 2 * (chain.length + rest.flatten.length)
        = fuel + 2 * rest.flatten.length + 2 * chain.length := by omega
    rw [List.append_assoc, hfuel, h1, List.flatten_cons, js_add_members_append]
    cases js_add_members ht (jsChainReread chain) with
    | none => rfl
    | some ht1 =>
      simp only [Option.bind]
      exact parse_chains_steady rest fuel ht1 tail h.2 (by omega) hsep

theorem parse_chain_steady : ∀ (chain : List jsEntry) (fuel : Nat) (ht : jsTable)
    (tail : List Nat), jsChainSteady chain →
    (jsChainText chain).length + 1 ≤ fuel + 2 * chain.length →
    (hd tail = 44 ∨ hd tail = 93 ∨ hd tail = 125) →
    _js_parse_object_loop (fuel + 2 * chain.length) ht (jsChainText chain ++ tail)
      = match js_add_members ht (jsChainReread chain) with
        | none => some (jsParse.fail none)
        | some ht1 => _js_parse_object_loop fuel ht1 tail
  | [], fuel, ht, tail, _, _, _ => by
    rw [jsChainText, jsChainReread]
    rfl
  | ⟨none, _⟩ :: _, _, _, _, h, _, _ => by rw [jsChainSteady] at h; exact absurd h id
  | ⟨some _, none⟩ :: _, _, _, _, h, _, _ => by rw [jsChainSteady] at h; exact absurd h id
  | ⟨some key, some obj⟩ :: next, fuel, ht, tail, h, hf, hsep => by
    rw [jsChainSteady] at h
    rw [jsChainText] at hf ⊢
    rw [jsChainReread]
    simp only [List.length_cons, List.length_append] at hf
    obtain ⟨c, t, hct, hc⟩ := text_head_steady obj h.2.1
    obtain ⟨hn1, hn2⟩ := jsChainText_shape_steady next h.2.2
    have hsep1 : hd (jsChainText next ++ tail) = 44 ∨ hd (jsChainText next ++ tail) = 93
        ∨ hd (jsChainText next ++ tail) = 125 := by
      refine hd_append_sep ?_ hsep
      rcases hn2 with h0 | ⟨t, h0⟩
      · subst h0; exact Or.inl (by rw [jsChainText])
      · exact Or.inr ⟨_, h0⟩
    have hshape : 44 :: 34 :: _js_object_string_escape_out key ++ 34 :: 58 :: obj.text
          ++ jsChainText next ++ tail
        = 44 :: 34 :: (_js_object_string_escape_out key
            ++ 34 :: 58 :: (obj.text ++ (jsChainText next ++ tail))) := by simp
    have hfuel : fuel + 2 * (next.length + 1) = (fuel + 2 * next.length) + 1 + 1 := by omega
    have hv : hd (obj.text ++ (jsChainText next ++ tail)) ≠ 0 →
        32 < hd (obj.text ++ (jsChainText next ++ tail)) := by
      intro _; rw [hct]; exact hc.1
    have hmember := parse_object_member_plain (fuel + 2 * next.length) ht key _ h.1 hv
    simp only [List.cons_append] at hmember
    rw [List.length_cons, hshape, hfuel, parse_object_loop_comma,
      _js_skip_of_lt _ (show 32 < 34 by decide), hmember, js_add_members]
    by_cases hadd : (_js_object_add_object ht key jsObject.null).1 = 0
    · rw [if_pos hadd, if_pos hadd]
    · rw [if_neg hadd, if_neg hadd,
        parse_steady obj _ _ h.2.1 (by omega) (endsNumber_sep hsep1).1]
      simp only []
      rw [(endsNumber_sep hsep1).2]
      exact parse_chain_steady next fuel _ tail h.2.2 (by omega) hsep

end

theorem jsNodesDistinct_append : ∀ (nodes : List jsObject) (o : jsObject),
    jsNodesDistinct nodes → o.distinct → jsNodesDistinct (nodes ++ [o])
  | [], o, _, ho => by
    rw [List.nil_append, jsNodesDistinct, jsNodesDistinct]
    exact ⟨ho, trivial⟩
  | n :: rest, o, h, ho => by
    rw [jsNodesDistinct] at h
    rw [List.cons_append, jsNodesDistinct]
    exact ⟨h.1, jsNodesDistinct_append rest o h.2 ho⟩

theorem jsChainDistinct_iff : ∀ (chain : List jsEntry),
    jsChainDistinct chain ↔ ∀ e ∈ chain, ∀ o, e.val = some o → o.distinct
  | [] => by
    rw [jsChainDistinct]
    exact ⟨fun _ e he => absurd he (List.not_mem_nil _), fun _ => trivial⟩
  | ⟨key, some obj⟩ :: next => by
    rw [jsChainDistinct, jsChainDistinct_iff next]
    constructor
    · intro h e he o ho
      rcases List.mem_cons.mp he with h1 | h1
      · subst h1
        simp only [Option.some.injEq] at ho
        subst ho
        exact h.1
      · exact h.2 e h1 o ho
    · intro h
      exact ⟨h _ (List.mem_cons_self _ _) obj rfl,
        fun e he o ho => h e (List.mem_cons_of_mem _ he) o ho⟩
  | ⟨key, none⟩ :: next => by
    rw [jsChainDistinct, jsChainDistinct_iff next]
    constructor
    · intro h e he o ho
      rcases List.mem_cons.mp he with h1 | h1
      · subst h1
        cases ho
      · exact h e h1 o ho
    · intro h e he o ho
      exact h e (List.mem_cons_of_mem _ he) o ho

theorem jsChainsDistinct_iff : ∀ (table : List (List jsEntry)),
    jsChainsDistinct table ↔ ∀ e ∈ table.flatten, ∀ o, e.val = some o → o.distinct
  | [] => by
    rw [jsChainsDistinct]
    exact ⟨fun _ e he => by simp at he, fun _ => trivial⟩
  | chain :: rest => by
    rw [jsChainsDistinct, jsChainDistinct_iff chain, jsChainsDistinct_iff rest,
      List.flatten_cons]
    constructor
    · intro h e he o ho
      rcases List.mem_append.mp he with h1 | h1
      · exact h.1 e h1 o ho
      · exact h.2 e h1 o ho
    · intro h
      exact ⟨fun e he o ho => h e (List.mem_append_left _ he) o ho,
        fun e he o ho => h e (List.mem_append_right _ he) o ho⟩

theorem object_distinct (ht : jsTable) :
    (jsObject.object ht).distinct ↔ ht_wf htTypeJson jsKeyGood ht
      ∧ ∀ e ∈ ht_toList ht, ∀ o, e.val = some o → o.distinct := by
  cases ht
  rw [jsObject.distinct, jsChainsDistinct_iff]
  rfl

theorem parse_string_distinct (v : List Nat) : (_js_parse_string v).1.distinct := by
  unfold _js_parse_string _js_object_set_string
  simp only []
  rw [jsObject.distinct]
  trivial

theorem set_number_distinct (d : Dbl) (idouble : Int) :
    (_js_object_set_number d idouble).distinct := by
  unfold _js_object_set_number
  split <;> (rw [jsObject.distinct]; trivial)

theorem parse_number_distinct (v : List Nat) : (_js_parse_number v).1.distinct := by
  unfold _js_parse_number
  simp only []
  split <;> split <;> exact set_number_distinct _ _

/-- The insertion of a member under a name the Object does not hold yet: the Map stays
well-formed, holds the new member beside the old ones, and grows by one entry. -/
theorem add_object_first (ht : jsTable) (name : List Nat) (sub : jsObject)
    (hwf : ht_wf htTypeJson jsKeyGood ht) (hu : ht.used < 2 ^ 30)
    (hok : (_js_object_add_object ht name jsObject.null).1 ≠ 0) :
    some name ∉ ht_keys ht
    ∧ _js_object_add_object ht name sub = (JS_OK, (_js_object_add_object ht name sub).2)
    ∧ ht_wf htTypeJson jsKeyGood (_js_object_add_object ht name sub).2
    ∧ (ht_toList (_js_object_add_object ht name sub).2).Perm
        (⟨some name, some sub⟩ :: ht_toList ht)
    ∧ (_js_object_add_object ht name sub).2.used = ht.used + 1 := by
  have hgood : jsKeyGood (some name) := by simp [jsKeyGood]
  have hn : (some name : jsKey) ∉ ht_keys ht := by
    intro hn
    obtain ⟨ht1, h1, _⟩ := ht_add_old htTypeJson_lawful hwf hgood hu hn (some jsObject.null)
    apply hok
    unfold _js_object_add_object
    rw [h1]
    rfl
  obtain ⟨ht1, h1, h2, h3⟩ := ht_add_new htTypeJson_lawful hwf hgood hu hn (some sub)
  have hadd : _js_object_add_object ht name sub = (JS_OK, ht1) := by
    unfold _js_object_add_object
    rw [h1]
    rfl
  rw [hadd]
  refine ⟨hn, rfl, h2, h3, ?_⟩
  show ht1.used = _
  rw [ht_wf_used_eq h2, ht_wf_used_eq hwf, h3.length_eq]
  rfl

mutual

/-- Every value the parser returns for a text shorter than 2^30 bytes holds each member
name once in every Object. -/
theorem parse_value_distinct : ∀ (fuel : Nat) (value : List Nat), value.length < 2 ^ 30 →
    ∀ obj rest, _js_parse_value fuel value = some (jsParse.ok obj rest) → obj.distinct
  | 0, _, _, _, _, h => by rw [_js_parse_value] at h; cases h
  | fuel + 1, value, hlen, obj, rest, h => by
    rw [_js_parse_value] at h
    by_cases h1 : startsWith value [110, 117, 108, 108] = true
    · rw [if_pos h1] at h
      simp only [Option.some.injEq, jsParse.ok.injEq] at h
      rw [← h.1, _js_object_set_null, jsObject.distinct]
      trivial
    rw [if_neg h1] at h
    by_cases h2 : startsWith value [102, 97, 108, 115, 101] = true
    · rw [if_pos h2] at h
      simp only [Option.some.injEq, jsParse.ok.injEq] at h
      rw [← h.1, _js_object_set_bool, jsObject.distinct]
      trivial
    rw [if_neg h2] at h
    by_cases h3 : startsWith value [116, 114, 117, 101] = true
    · rw [if_pos h3] at h
      simp only [Option.some.injEq, jsParse.ok.injEq] at h
      rw [← h.1, _js_object_set_bool, jsObject.distinct]
      trivial
    rw [if_neg h3] at h
    by_cases h4 : hd value = 34
    · rw [if_pos h4] at h
      simp only [Option.some.injEq, jsParse.ok.injEq] at h
      rw [← h.1]
      exact parse_string_distinct value
    rw [if_neg h4] at h
    by_cases h5 : hd value = 45 ∨ (48 ≤ hd value ∧ hd value ≤ 57)
    · rw [if_pos h5] at h
      simp only [Option.some.injEq, jsParse.ok.injEq] at h
      rw [← h.1]
      exact parse_number_distinct value
    rw [if_neg h5] at h
    by_cases h6 : hd value = 91
    · rw [if_pos h6] at h
      exact parse_array_distinct fuel value hlen obj rest h
    rw [if_neg h6] at h
    by_cases h7 : hd value = 123
    · rw [if_pos h7] at h
      exact parse_object_distinct fuel value hlen obj rest h
    rw [if_neg h7] at h
    cases h

theorem parse_array_distinct : ∀ (fuel : Nat) (value : List Nat), value.length < 2 ^ 30 →
    ∀ obj rest, _js_parse_array fuel value = some (jsParse.ok obj rest) → obj.distinct
  | 0, _, _, _, _, h => by rw [_js_parse_array] at h; cases h
  | fuel + 1, value, hlen, obj, rest, h => by
    have hs1 := _js_skip_length (value.drop 1)
    have hs2 := _js_skip_length (_js_skip (value.drop 1))
    simp only [List.length_drop] at hs1
    rw [_js_parse_array] at h
    by_cases h93 : hd (_js_skip (value.drop 1)) = 93
    · rw [if_pos h93] at h
      simp only [Option.some.injEq, jsParse.ok.injEq] at h
      rw [← h.1, _js_object_set_array, ls_create, jsObject.distinct, jsNodesDistinct]
      trivial
    · rw [if_neg h93] at h
      cases hv : _js_parse_value fuel (_js_skip (_js_skip (value.drop 1))) with
      | none => rw [hv] at h; cases h
      | some r =>
        rw [hv] at h
        cases r with
        | fail pos => cases h
        | ok sub rest1 =>
          simp only [] at h
          have hsub := parse_value_distinct fuel _ (by omega) sub rest1 hv
          have hsuf := ((parse_value_suffix fuel _ _ hv).1 sub rest1 rfl).length_le
          have hs3 := _js_skip_length rest1
          refine parse_array_loop_distinct fuel (ls_add_tail ls_create sub) (_js_skip rest1)
            ?_ (by omega) obj rest h
          exact jsNodesDistinct_append [] sub (by rw [jsNodesDistinct]; trivial) hsub

theorem parse_array_loop_distinct : ∀ (fuel : Nat) (ls : lsHandle jsObject)
    (value : List Nat), jsNodesDistinct ls.nodes → value.length < 2 ^ 30 →
    ∀ obj rest, _js_parse_array_loop fuel ls value = some (jsParse.ok obj rest) →
      obj.distinct
  | 0, _, _, _, _, _, _, h => by rw [_js_parse_array_loop] at h; cases h
  | fuel + 1, ls, value, hls, hlen, obj, rest, h => by
    have hs1 := _js_skip_length (value.drop 1)
    simp only [List.length_drop] at hs1
    rw [_js_parse_array_loop] at h
    by_cases h44 : hd value = 44
    · rw [if_pos h44] at h
      cases hv : _js_parse_value fuel (_js_skip (value.drop 1)) with
      | none => rw [hv] at h; cases h
      | some r =>
        rw [hv] at h
        cases r with
        | fail pos => cases h
        | ok sub rest1 =>
          simp only [] at h
          have hsub := parse_value_distinct fuel _ (by omega) sub rest1 hv
          have hsuf := ((parse_value_suffix fuel _ _ hv).1 sub rest1 rfl).length_le
          have hs3 := _js_skip_length rest1
          exact parse_array_loop_distinct fuel (ls_add_tail ls sub) (_js_skip rest1)
            (jsNodesDistinct_append ls.nodes sub hls hsub) (by omega) obj rest h
    · rw [if_neg h44] at h
      by_cases h93 : hd value = 93
      · rw [if_pos h93] at h
        simp only [Option.some.injEq, jsParse.ok.injEq] at h
        rw [← h.1, _js_object_set_array]
        cases ls
        rw [jsObject.distinct]
        exact hls
      · rw [if_neg h93] at h
        cases h

theorem parse_object_distinct : ∀ (fuel : Nat) (value : List Nat), value.length < 2 ^ 30 →
    ∀ obj rest, _js_parse_object fuel value = some (jsParse.ok obj rest) → obj.distinct
  | 0, _, _, _, _, h => by rw [_js_parse_object] at h; cases h
  | fuel + 1, value, hlen, obj, rest, h => by
    have hs1 := _js_skip_length (value.drop 1)
    have hs2 := _js_skip_length (_js_skip (value.drop 1))
    simp only [List.length_drop] at hs1
    have hnil : ∀ e ∈ ht_toList (ht_create : jsTable), ∀ o, e.val = some o → o.distinct := by
      intro e he
      simp [ht_create, _ht_reset, ht_toList] at he
    rw [_js_parse_object] at h
    by_cases h125 : hd (_js_skip (value.drop 1)) = 125
    · rw [if_pos h125] at h
      simp only [Option.some.injEq, jsParse.ok.injEq] at h
      rw [← h.1, _js_object_set_object]
      exact (object_distinct _).mpr ⟨ht_create_wf htTypeJson jsKeyGood, hnil⟩
    · rw [if_neg h125] at h
      refine parse_object_member_distinct fuel ht_create _
        (ht_create_wf htTypeJson jsKeyGood) hnil ?_ obj rest h
      show 0 + _ < _
      omega

theorem parse_object_member_distinct : ∀ (fuel : Nat) (ht : jsTable) (value : List Nat),
    ht_wf htTypeJson jsKeyGood ht →
    (∀ e ∈ ht_toList ht, ∀ o, e.val = some o → o.distinct) →
    ht.used + value.length < 2 ^ 30 →
    ∀ obj rest, _js_parse_object_member fuel ht value = some (jsParse.ok obj rest) →
      obj.distinct
  | 0, _, _, _, _, _, _, _, h => by rw [_js_parse_object_member] at h; cases h
  | fuel + 1, ht, value, hwf, hvals, hlen, obj, rest, h => by
    rw [_js_parse_object_member] at h
    cases hn : _js_parse_name value with
    | error pos0 => rw [hn] at h; cases h
    | ok p =>
      obtain ⟨name, rest0⟩ := p
      rw [hn] at h
      simp only [] at h
      have hl0 := _js_parse_name_length value name rest0 hn
      by_cases hadd : (_js_object_add_object ht name jsObject.null).1 = 0
      · rw [if_pos hadd] at h; cases h
      rw [if_neg hadd] at h
      by_cases h58 : hd (_js_skip rest0) ≠ 58
      · rw [if_pos h58] at h; cases h
      rw [if_neg h58] at h
      have hs1 := _js_skip_length rest0
      have hs2 := _js_skip_length ((_js_skip rest0).drop 1)
      simp only [List.length_drop] at hs2
      cases hv : _js_parse_value fuel (_js_skip ((_js_skip rest0).drop 1)) with
      | none => rw [hv] at h; cases h
      | some r =>
        rw [hv] at h
        cases r with
        | fail pos => cases h
        | ok sub rest1 =>
          simp only [] at h
          have hsub := parse_value_distinct fuel _ (by omega) sub rest1 hv
          have hsuf := ((parse_value_suffix fuel _ _ hv).1 sub rest1 rfl).length_le
          have hs3 := _js_skip_length rest1
          obtain ⟨_, _, hwf1, hperm, hused⟩ := add_object_first ht name sub hwf (by omega) hadd
          refine parse_object_loop_distinct fuel _ (_js_skip rest1) hwf1 ?_ (by omega)
            obj rest h
          intro e he o ho
          rcases List.mem_cons.mp (hperm.mem_iff.mp he) with h1 | h1
          · subst h1
            simp only [Option.some.injEq] at ho
            subst ho
            exact hsub
          · exact hvals e h1 o ho

theorem parse_object_loop_distinct : ∀ (fuel : Nat) (ht : jsTable) (value : List Nat),
    ht_wf htTypeJson jsKeyGood ht →
    (∀ e ∈ ht_toList ht, ∀ o, e.val = some o → o.distinct) →
    ht.used + value.length < 2 ^ 30 →
    ∀ obj rest, _js_parse_object_loop fuel ht value = some (jsParse.ok obj rest) →
      obj.distinct
  | 0, _, _, _, _, _, _, _, h => by rw [_js_parse_object_loop] at h; cases h
  | fuel + 1, ht, value, hwf, hvals, hlen, obj, rest, h => by
    have hs1 := _js_skip_length (value.drop 1)
    simp only [List.length_drop] at hs1
    rw [_js_parse_object_loop] at h
    by_cases h44 : hd value = 44
    · rw [if_pos h44] at h
      exact parse_object_member_distinct fuel ht _ hwf hvals (by omega) obj rest h
    · rw [if_neg h44] at h
      by_cases h125 : hd value = 125
      · rw [if_pos h125] at h
        simp only [Option.some.injEq, jsParse.ok.injEq] at h
        rw [← h.1, _js_object_set_object]
        exact (object_distinct _).mpr ⟨hwf, hvals⟩
      · rw [if_neg h125] at h
        cases h

end

/-- A successful `js_parse` of a text shorter than 2^30 bytes stores a root Object that
holds each member name once, at every depth. -/
theorem js_parse_distinct (js : jsHandle) (str : List Nat) (hlen : str.length < 2 ^ 30)
    (h : (js_parse js str).1 = JS_TRUE) :
    ∃ t, (js_parse js str).2.obj = some (jsObject.object t)
      ∧ (jsObject.object t).distinct
      ∧ (ht_keys t).Nodup ∧ t.used = (ht_keys t).length := by
  have hs := _js_skip_length str
  unfold js_parse _js_parse at h ⊢
  cases hv : _js_parse_value (2 * str.length + 1) (_js_skip str) with
  | none => rw [hv] at h; simp [JS_TRUE, JS_ERR] at h
  | some r =>
    rw [hv] at h
    cases r with
    | fail pos =>
      cases pos with
      | none => simp [JS_TRUE, JS_ERR] at h
      | some pos => simp [JS_TRUE, JS_ERR] at h
    | ok obj rest =>
      have hd := parse_value_distinct _ _ (by omega) obj rest hv
      cases obj with
      | object t =>
        refine ⟨t, by simp [jsObject.isObject], hd, ?_⟩
        have hwf := ((object_distinct t).mp hd).1
        refine ⟨hwf.nodup, ?_⟩
        rw [ht_wf_used_eq hwf, ht_keys, List.length_map]
      | null => simp [jsObject.isObject, JS_TRUE, JS_ERR] at h
      | boolean _ => simp [jsObject.isObject, JS_TRUE, JS_ERR] at h
      | number_l64 _ => simp [jsObject.isObject, JS_TRUE, JS_ERR] at h
      | number_d64 _ => simp [jsObject.isObject, JS_TRUE, JS_ERR] at h
      | string _ => simp [jsObject.isObject, JS_TRUE, JS_ERR] at h
      | array _ => simp [jsObject.isObject, JS_TRUE, JS_ERR] at h

theorem jsChainNamed_key : ∀ (chain : List jsEntry), jsChainNamed chain →
    ∀ e ∈ chain, ∀ k, e.key = some k → jsStrPlain k
  | [], _ => by intro e he; exact absurd he (List.not_mem_nil _)
  | ⟨none, _⟩ :: _, h => by rw [jsChainNamed] at h; exact absurd h id
  | ⟨some _, none⟩ :: _, h => by rw [jsChainNamed] at h; exact absurd h id
  | ⟨some key, some obj⟩ :: next, h => by
    rw [jsChainNamed] at h
    intro e he k hk
    rcases List.mem_cons.mp he with h1 | h1
    · subst h1
      simp only [Option.some.injEq] at hk
      subst hk
      exact h.1
    · exact jsChainNamed_key next h.2.2 e h1 k hk

theorem jsChainsNamed_key : ∀ (table : List (List jsEntry)), jsChainsNamed table →
    ∀ e ∈ table.flatten, ∀ k, e.key = some k → jsStrPlain k
  | [], _ => by intro e he; simp at he
  | chain :: rest, h => by
    rw [jsChainsNamed] at h
    intro e he
    rw [List.flatten_cons] at he
    rcases List.mem_append.mp he with h1 | h1
    · exact jsChainNamed_key chain h.1 e h1
    · exact jsChainsNamed_key rest h.2 e h1

/-- A repeated name behind the printed members of an Object with distinct names, whatever
the layout of its buckets: the text is rejected without a position. -/
theorem parse_repeat_named (js : jsHandle) (t : jsTable) (name more : List Nat)
    (hnamed : (jsObject.object t).named) (hdup : some name ∈ ht_keys t) :
    ∃ members, js_print_text (jsObject.object t) = some (123 :: members ++ [125])
      ∧ js_parse js (123 :: members
          ++ 44 :: 34 :: _js_object_string_escape_out name ++ 34 :: more) = (JS_ERR, js) := by
  refine ⟨(jsChainsText t.table).drop 1, ?_, ?_⟩
  · rw [print_named _ hnamed]
    cases t
    rw [jsObject.text]
  obtain ⟨table, size, mask, used⟩ := t
  rw [jsObject.named] at hnamed
  obtain ⟨hnd, hcount, hchains⟩ := hnamed
  obtain ⟨e, he, hek⟩ := List.mem_map.mp hdup
  have hname : jsStrPlain name := jsChainsNamed_key table hchains e he name hek
  have hskipv : _js_skip (34 :: _js_object_string_escape_out name ++ 34 :: more)
      = 34 :: _js_object_string_escape_out name ++ 34 :: more :=
    _js_skip_of_lt _ (show 32 < 34 by decide)
  have hpn : _js_parse_name (_js_skip (34 :: _js_object_string_escape_out name ++ 34 :: more))
      = Except.ok (name, more) := by
    rw [hskipv]; exact _js_parse_name_plain name more hname
  obtain ⟨hlen2, hshape, hlenR⟩ := jsChainsText_shape_named table hchains
  obtain ⟨ht1, hmem, hwf1, hperm1⟩ := js_add_members_reparsed table hnd hcount hchains
  have hu1 : ht1.used < 2 ^ 30 := by
    rw [ht_wf_used_eq hwf1, hperm1.length_eq, hlenR]
    exact hcount
  have hdup1 : some name ∈ ht_keys ht1 := by
    have hk := hperm1.map (fun e => e.key)
    rw [jsChainsReparsed_keys] at hk
    exact hk.mem_iff.mpr hdup
  rcases hshape with ⟨hflat, _⟩ | ⟨tt, htext⟩
  · have : e ∈ ([] : List jsEntry) := by rw [← hflat]; exact he
    exact absurd this (List.not_mem_nil _)
  · show js_parse js (123 :: (jsChainsText table).drop 1
      ++ 44 :: 34 :: _js_object_string_escape_out name ++ 34 :: more) = (JS_ERR, js)
    rw [htext] at hlen2 ⊢
    simp only [List.length_cons] at hlen2
    have hstr : 123 :: List.drop 1 (44 :: 34 :: tt)
          ++ 44 :: 34 :: _js_object_string_escape_out name ++ 34 :: more
        = 123 :: 34 :: (tt ++ 44 :: (34 :: _js_object_string_escape_out name ++ 34 :: more)) := by
      simp
    rw [hstr]
    unfold js_parse _js_parse
    rw [_js_skip_of_lt _ (show 32 < 123 by decide)]
    have hlenstr : (123 :: 34 :: (tt ++ 44 :: (34 :: _js_object_string_escape_out name
        ++ 34 :: more))).length
        = tt.length + (_js_object_string_escape_out name).length + more.length + 5 := by
      simp only [List.length_cons, List.length_append]; omega
    rw [hlenstr]
    obtain ⟨g, hg⟩ : ∃ g, 2 * (tt.length + (_js_object_string_escape_out name).length
        + more.length + 5) + 1 = (g + 2 + 2 * table.flatten.length) + 1 + 1 :=
      ⟨2 * (tt.length + (_js_object_string_escape_out name).length + more.length + 5) + 1
        - 2 * table.flatten.length - 4, by omega⟩
    rw [hg, parse_value_object, _js_parse_object]
    simp only [List.drop_succ_cons, List.drop_zero,
      _js_skip_of_lt _ (show 32 < 34 by decide), hd_cons,
      show ¬ ((34 : Nat) = 125) by decide, if_false]
    have hloop := parse_object_loop_comma (g + 2 + 2 * table.flatten.length) ht_create
      (34 :: (tt ++ 44 :: (34 :: _js_object_string_escape_out name ++ 34 :: more)))
    rw [_js_skip_of_lt _ (show 32 < 34 by decide)] at hloop
    have hchain := parse_chains_named table (g + 2 + 1) ht_create
      (44 :: (34 :: _js_object_string_escape_out name ++ 34 :: more)) hchains
      (by rw [htext]; simp only [List.length_cons]; omega) (Or.inl rfl)
    rw [htext, hmem] at hchain
    simp only [List.cons_append] at hchain hloop
    have hfuel : g + 2 + 1 + 2 * table.flatten.length
        = g + 2 + 2 * table.flatten.length + 1 := by omega
    rw [hfuel] at hchain
    have hdupl := (parse_member_duplicate (g + 1) ht1
      (34 :: _js_object_string_escape_out name ++ 34 :: more) more name hwf1 hu1
      hpn hdup1).2.2
    simp only [List.cons_append] at hdupl ⊢
    rw [← hloop, hchain, hdupl]

/-- A member under a name the Object does not hold yet: the member parser stores it and
goes on with the loop, on a Map that is well-formed and holds the name from now on. -/
theorem parse_member_first (fuel : Nat) (ht : jsTable) (value rest name : List Nat)
    (sub : jsObject) (rest1 : List Nat)
    (hwf : ht_wf htTypeJson jsKeyGood ht) (hu : ht.used < 2 ^ 30)
    (hname : _js_parse_name value = Except.ok (name, rest))
    (hnew : some name ∉ ht_keys ht) (hcolon : hd (_js_skip rest) = 58)
    (hval : _js_parse_value fuel (_js_skip ((_js_skip rest).drop 1))
      = some (jsParse.ok sub rest1)) :
    _js_parse_object_member (fuel + 1) ht value
      = _js_parse_object_loop fuel (_js_object_add_object ht name sub).2 (_js_skip rest1)
    ∧ ht_wf htTypeJson jsKeyGood (_js_object_add_object ht name sub).2
    ∧ (ht_toList (_js_object_add_object ht name sub).2).Perm
        (⟨some name, some sub⟩ :: ht_toList ht)
    ∧ (_js_object_add_object ht name sub).2.used = ht.used + 1 := by
  have hgood : jsKeyGood (some name) := by simp [jsKeyGood]
  have hok : (_js_object_add_object ht name jsObject.null).1 ≠ 0 := by
    obtain ⟨ht0, h0, _⟩ := ht_add_new htTypeJson_lawful hwf hgood hu hnew (some jsObject.null)
    unfold _js_object_add_object
    rw [h0]
    simp [HT_OK, JS_OK]
  obtain ⟨_, _, hwf1, hperm, hused⟩ := add_object_first ht name sub hwf hu hok
  refine ⟨?_, hwf1, hperm, hused⟩
  rw [_js_parse_object_member, hname]
  simp only []
  rw [if_neg hok, if_neg (by rw [hcolon]; exact fun h => h rfl), hval]

/-! ## A repeated name is refused wherever the parser meets it -/

theorem parse_value_at (fuel : Nat) (value : List Nat) (c : Nat) (hc : hd value = c)
    (h0 : c ≠ 110) (h1 : c ≠ 102) (h2 : c ≠ 116) (h3 : c ≠ 34) (h4 : c ≠ 45)
    (h5 : ¬ (48 ≤ c ∧ c ≤ 57)) :
    _js_parse_value (fuel + 1) value
      = if c = 91 then _js_parse_array fuel value
        else if c = 123 then _js_parse_object fuel value
        else some (jsParse.fail (some value)) := by
  have hs : ∀ (d : Nat) (lit : List Nat), c ≠ d → startsWith value (d :: lit) = false := by
    intro d lit hd1
    cases value with
    | nil => rfl
    | cons x v =>
      have hx : x = c := hc
      subst hx
      simp [startsWith, hd1]
  rw [_js_parse_value, hs 110 _ h0, hs 102 _ h1, hs 116 _ h2, hc]
  simp [h3, h4, h5]

/-- A failure of a call the parser makes is what the calling function returns. -/
theorem jsCall.calls_fail {c c1 : jsCall} (h : jsCall.calls c c1) (pos : Option (List Nat))
    (hf : c1.run = some (jsParse.fail pos)) : c.run = some (jsParse.fail pos) := by
  cases h with
  | value_array fuel value h91 =>
    simp only [jsCall.run] at hf ⊢
    rw [parse_value_at fuel value 91 h91 (by decide) (by decide) (by decide) (by decide)
      (by decide) (by decide)]
    simpa using hf
  | value_object fuel value h123 =>
    simp only [jsCall.run] at hf ⊢
    rw [parse_value_at fuel value 123 h123 (by decide) (by decide) (by decide) (by decide)
      (by decide) (by decide)]
    simpa using hf
  | array_value fuel value h93 =>
    simp only [jsCall.run] at hf ⊢
    rw [_js_parse_array, if_neg h93, hf]
  | array_loop fuel value sub rest h93 hv =>
    simp only [jsCall.run] at hf ⊢
    rw [_js_parse_array, if_neg h93, hv]
    exact hf
  | loop_value fuel ls value h44 =>
    simp only [jsCall.run] at hf ⊢
    rw [_js_parse_array_loop, if_pos h44, hf]
  | loop_loop fuel ls value sub rest h44 hv =>
    simp only [jsCall.run] at hf ⊢
    rw [_js_parse_array_loop, if_pos h44, hv]
    exact hf
  | object_member fuel value h125 =>
    simp only [jsCall.run] at hf ⊢
    rw [_js_parse_object, if_neg h125]
    exact hf
  | member_value fuel ht value name rest hn hadd h58 =>
    simp only [jsCall.run] at hf ⊢
    rw [_js_parse_object_member, hn]
    simp only []
    rw [if_neg hadd, if_neg (by rw [h58]; exact fun h => h rfl), hf]
  | member_loop fuel ht value name rest sub rest1 hn hadd h58 hv =>
    simp only [jsCall.run] at hf ⊢
    rw [_js_parse_object_member, hn]
    simp only []
    rw [if_neg hadd, if_neg (by rw [h58]; exact fun h => h rfl), hv]
    exact hf
  | loop_member fuel ht value h44 =>
    simp only [jsCall.run] at hf ⊢
    rw [_js_parse_object_loop, if_pos h44]
    exact hf

/-- The calls of the parser on a short text are calls on a short text, and the table of an
Object under construction stays well-formed. -/
theorem jsCall.calls_good {c c1 : jsCall} (h : jsCall.calls c c1) (hg : c.good) :
    c1.good := by
  cases h with
  | value_array fuel value h91 => exact hg
  | value_object fuel value h123 => exact hg
  | array_value fuel value h93 =>
    simp only [jsCall.good] at hg ⊢
    have hs1 := _js_skip_length (value.drop 1)
    have hs2 := _js_skip_length (_js_skip (value.drop 1))
    simp only [List.length_drop] at hs1
    omega
  | array_loop fuel value sub rest h93 hv =>
    simp only [jsCall.good] at hg ⊢
    have hs1 := _js_skip_length (value.drop 1)
    have hs2 := _js_skip_length (_js_skip (value.drop 1))
    simp only [List.length_drop] at hs1
    have hsuf := ((parse_value_suffix fuel _ _ hv).1 sub rest rfl).length_le
    have hs3 := _js_skip_length rest
    omega
  | loop_value fuel ls value h44 =>
    simp only [jsCall.good] at hg ⊢
    have hs1 := _js_skip_length (value.drop 1)
    simp only [List.length_drop] at hs1
    omega
  | loop_loop fuel ls value sub rest h44 hv =>
    simp only [jsCall.good] at hg ⊢
    have hs1 := _js_skip_length (value.drop 1)
    simp only [List.length_drop] at hs1
    have hsuf := ((parse_value_suffix fuel _ _ hv).1 sub rest rfl).length_le
    have hs3 := _js_skip_length rest
    omega
  | object_member fuel value h125 =>
    simp only [jsCall.good] at hg ⊢
    have hs1 := _js_skip_length (value.drop 1)
    have hs2 := _js_skip_length (_js_skip (value.drop 1))
    simp only [List.length_drop] at hs1
    refine ⟨ht_create_wf htTypeJson jsKeyGood, ?_⟩
    show 0 + _ < _
    omega
  | member_value fuel ht value name rest hn hadd h58 =>
    simp only [jsCall.good] at hg ⊢
    have hl0 := _js_parse_name_length value name rest hn
    have hs1 := _js_skip_length rest
    have hs2 := _js_skip_length ((_js_skip rest).drop 1)
    simp only [List.length_drop] at hs2
    omega
  | member_loop fuel ht value name rest sub rest1 hn hadd h58 hv =>
    simp only [jsCall.good] at hg ⊢
    have hl0 := _js_parse_name_length value name rest hn
    have hs1 := _js_skip_length rest
    have hs2 := _js_skip_length ((_js_skip rest).drop 1)
    simp only [List.length_drop] at hs2
    have hsuf := ((parse_value_suffix fuel _ _ hv).1 sub rest1 rfl).length_le
    have hs3 := _js_skip_length rest1
    obtain ⟨_, _, hwf1, _, hused⟩ := add_object_first ht name sub hg.1 (by omega) hadd
    exact ⟨hwf1, by omega⟩
  | loop_member fuel ht value h44 =>
    simp only [jsCall.good] at hg ⊢
    have hs1 := _js_skip_length (value.drop 1)
    simp only [List.length_drop] at hs1
    exact ⟨hg.1, by omega⟩

theorem jsCall.reach_fail {c c1 : jsCall} (h : Relation.ReflTransGen jsCall.calls c c1)
    (pos : Option (List Nat)) (hf : c1.run = some (jsParse.fail pos)) :
    c.run = some (jsParse.fail pos) := by
  induction h with
  | refl => exact hf
  | tail _ hstep ih => exact ih (jsCall.calls_fail hstep pos hf)

theorem jsCall.reach_good {c c1 : jsCall} (h : Relation.ReflTransGen jsCall.calls c c1)
    (hg : c.good) : c1.good := by
  induction h with
  | refl => exact hg
  | tail _ hstep ih => exact jsCall.calls_good hstep ih

/-- Wherever the parse of a text shorter than 2^30 bytes comes to a member whose name the
Object under construction holds already, the member is refused and `js_parse` returns
`JS_ERR`, leaving the document as it was. -/
theorem parse_repeat_reached (js : jsHandle) (str : List Nat) (fuel : Nat) (ht : jsTable)
    (value name rest : List Nat) (hlen : str.length < 2 ^ 30)
    (hreach : Relation.ReflTransGen jsCall.calls
      (jsCall.value (2 * str.length + 1) (_js_skip str)) (jsCall.member (fuel + 1) ht value))
    (hname : _js_parse_name value = Except.ok (name, rest))
    (hdup : some name ∈ ht_keys ht) :
    ht_wf htTypeJson jsKeyGood ht
    ∧ (_js_object_add_object ht name jsObject.null).1 = JS_ERR
    ∧ _js_parse_object_member (fuel + 1) ht value = some (jsParse.fail none)
    ∧ js_parse js str = (JS_ERR, js) := by
  have hs := _js_skip_length str
  have hg : (jsCall.member (fuel + 1) ht value).good :=
    jsCall.reach_good hreach (by simp only [jsCall.good]; omega)
  simp only [jsCall.good] at hg
  obtain ⟨ht1, h1, _⟩ := ht_add_old htTypeJson_lawful hg.1
    (show jsKeyGood (some name) by simp [jsKeyGood]) (by omega) hdup (some jsObject.null)
  have hadd : (_js_object_add_object ht name jsObject.null).1 = JS_ERR := by
    unfold _js_object_add_object
    rw [h1]
    rfl
  have hmember : _js_parse_object_member (fuel + 1) ht value = some (jsParse.fail none) := by
    rw [_js_parse_object_member, hname]
    simp only []
    rw [if_pos (show (_js_object_add_object ht name jsObject.null).1 = 0 from hadd)]
  refine ⟨hg.1, hadd, hmember, ?_⟩
  have hroot := jsCall.reach_fail hreach none hmember
  simp only [jsCall.run] at hroot
  unfold js_parse _js_parse
  rw [hroot]

/-- The calls of the parser on `\x7b"a":1,"b":2,"a":3\x7d` up to the member parser at the
second `"a"`, where the table holds `a` and `b`. -/
theorem js_example_repeat_reach :
    Relation.ReflTransGen jsCall.calls
      (jsCall.value (2 * (bytes "\x7b\"a\":1,\"b\":2,\"a\":3\x7d").length + 1)
        (_js_skip (bytes "\x7b\"a\":1,\"b\":2,\"a\":3\x7d")))
      (jsCall.member (32 + 1) js_example_src (bytes "\"a\":3\x7d")) := by
  refine Relation.ReflTransGen.head
    (jsCall.calls.value_object 38 (bytes "\x7b\"a\":1,\"b\":2,\"a\":3\x7d") rfl) ?_
  refine Relation.ReflTransGen.head
    (jsCall.calls.object_member 37 (bytes "\x7b\"a\":1,\"b\":2,\"a\":3\x7d") (by decide)) ?_
  refine Relation.ReflTransGen.head
    (jsCall.calls.member_loop 36 ht_create (bytes "\"a\":1,\"b\":2,\"a\":3\x7d") (bytes "a")
      (bytes ":1,\"b\":2,\"a\":3\x7d") (jsObject.number_l64 1) (bytes ",\"b\":2,\"a\":3\x7d")
      rfl (by decide) rfl rfl) ?_
  refine Relation.ReflTransGen.head
    (jsCall.calls.loop_member 35 _ (bytes ",\"b\":2,\"a\":3\x7d") rfl) ?_
  refine Relation.ReflTransGen.head
    (jsCall.calls.member_loop 34 _ (bytes "\"b\":2,\"a\":3\x7d") (bytes "b")
      (bytes ":2,\"a\":3\x7d") (jsObject.number_l64 2) (bytes ",\"a\":3\x7d")
      rfl (by decide) rfl rfl) ?_
  exact Relation.ReflTransGen.single
    (jsCall.calls.loop_member 33 _ (bytes ",\"a\":3\x7d") rfl)

/-- C8 (amended): a member name that occurs again in an object text is refused at its
second occurrence, and no parsed Object holds a name twice.
(1) For every well-formed Object table with fewer than 2^30 entries that holds `name`, and
every text whose next member name is `name`: `_js_object_add_object` returns `JS_ERR` and the
Map keeps its entries, their count, and one entry per name; the member parser returns NULL
without writing a position, and so does the member loop at a comma.
(2) A member whose name the table does not hold is stored: the member parser goes on with
the loop on a well-formed table that holds the old entries and the new one.
(3) Whenever `js_parse` accepts a text shorter than 2^30 bytes, the root it stores is an
Object whose Map, like the Map of every Object below it, is well-formed: each name is held
once and `used` is the number of names.
(4) For every text shorter than 2^30 bytes: wherever the calls of the parser on that text
come to the member parser at a name that the Object under construction holds already, at
any depth, the table is well-formed, the insertion is refused, the member parser returns
NULL without a position, and `js_parse` returns `JS_ERR` and leaves the document as it was.
(5) For every Object with distinct names, whatever the layout of its buckets, and every
name it holds: `js_print` returns a text `{members}`, and the text made of `{members`, a
comma and that name in quotes, followed by any bytes `more`, makes `js_parse` return
`JS_ERR` and leave the document as it was.
(6) The same for every plain Object, together with the refusal of the insertion by its
Map.
(7) `{"a":1,"b":2,"a":3}`, `{"a":1.5,"a":2}`, `{"o":{"k":1,"k":2}}`,
`{ "a" : 1 , "a" : 2 }` and `{"x":[{"k":1,"k":2}]}` are rejected that way, and
`{"a":1,"b":2}` is accepted. -/
theorem js_parse_duplicate_member_refused :
    (∀ (fuel : Nat) (ht : jsTable) (value rest name : List Nat),
      ht_wf htTypeJson jsKeyGood ht → ht.used < 2 ^ 30 →
      _js_parse_name (_js_skip value) = Except.ok (name, rest) → some name ∈ ht_keys ht →
      (∀ sub, ∃ ht1, _js_object_add_object ht name sub = (JS_ERR, ht1)
        ∧ (ht_toList ht1).Perm (ht_toList ht) ∧ ht1.used = ht.used
        ∧ some name ∈ ht_keys ht1 ∧ (ht_keys ht1).Nodup)
      ∧ _js_parse_object_member (fuel + 1) ht (_js_skip value) = some (jsParse.fail none)
      ∧ _js_parse_object_loop (fuel + 2) ht (44 :: value) = some (jsParse.fail none))
    ∧ (∀ (fuel : Nat) (ht : jsTable) (value rest name : List Nat) (sub : jsObject)
        (rest1 : List Nat),
      ht_wf htTypeJson jsKeyGood ht → ht.used < 2 ^ 30 →
      _js_parse_name value = Except.ok (name, rest) → some name ∉ ht_keys ht →
      hd (_js_skip rest) = 58 →
      _js_parse_value fuel (_js_skip ((_js_skip rest).drop 1)) = some (jsParse.ok sub rest1) →
      _js_parse_object_member (fuel + 1) ht value
        = _js_parse_object_loop fuel (_js_object_add_object ht name sub).2 (_js_skip rest1)
      ∧ ht_wf htTypeJson jsKeyGood (_js_object_add_object ht name sub).2
      ∧ (ht_toList (_js_object_add_object ht name sub).2).Perm
          (⟨some name, some sub⟩ :: ht_toList ht)
      ∧ (_js_object_add_object ht name sub).2.used = ht.used + 1)
    ∧ (∀ (js : jsHandle) (str : List Nat), str.length < 2 ^ 30 →
      (js_parse js str).1 = JS_TRUE →
      ∃ t, (js_parse js str).2.obj = some (jsObject.object t)
        ∧ (jsObject.object t).distinct
        ∧ (ht_keys t).Nodup ∧ t.used = (ht_keys t).length)
    ∧ (∀ (js : jsHandle) (str : List Nat) (fuel : Nat) (ht : jsTable)
        (value name rest : List Nat), str.length < 2 ^ 30 →
      Relation.ReflTransGen jsCall.calls
        (jsCall.value (2 * str.length + 1) (_js_skip str))
        (jsCall.member (fuel + 1) ht value) →
      _js_parse_name value = Except.ok (name, rest) → some name ∈ ht_keys ht →
      ht_wf htTypeJson jsKeyGood ht
        ∧ (_js_object_add_object ht name jsObject.null).1 = JS_ERR
        ∧ _js_parse_object_member (fuel + 1) ht value = some (jsParse.fail none)
        ∧ js_parse js str = (JS_ERR, js))
    ∧ (∀ (js : jsHandle) (t : jsTable) (name more : List Nat),
      (jsObject.object t).named → some name ∈ ht_keys t →
      ∃ members, js_print_text (jsObject.object t) = some (123 :: members ++ [125])
        ∧ js_parse js (123 :: members
            ++ 44 :: 34 :: _js_object_string_escape_out name ++ 34 :: more) = (JS_ERR, js))
    ∧ (∀ (js : jsHandle) (t : jsTable) (name more : List Nat),
      (jsObject.object t).plain → some name ∈ ht_keys t →
      ∃ members, js_print_text (jsObject.object t) = some (123 :: members ++ [125])
        ∧ js_parse js (123 :: members
            ++ 44 :: 34 :: _js_object_string_escape_out name ++ 34 :: more) = (JS_ERR, js)
        ∧ (∀ sub, ∃ t1, _js_object_add_object t name sub = (JS_ERR, t1)
            ∧ (ht_toList t1).Perm (ht_toList t) ∧ t1.used = t.used
            ∧ some name ∈ ht_keys t1 ∧ (ht_keys t1).Nodup))
    ∧ js_parse js_create (bytes "\x7b\"a\":1,\"b\":2,\"a\":3\x7d") = (JS_ERR, js_create)
    ∧ js_parse js_create (bytes "\x7b\"a\":1.5,\"a\":2\x7d") = (JS_ERR, js_create)
    ∧ js_parse js_create (bytes "\x7b\"o\":\x7b\"k\":1,\"k\":2\x7d\x7d") = (JS_ERR, js_create)
    ∧ js_parse js_create (bytes "\x7b \"a\" : 1 , \"a\" : 2 \x7d") = (JS_ERR, js_create)
    ∧ js_parse js_create (bytes "\x7b\"x\":[\x7b\"k\":1,\"k\":2\x7d]\x7d")
      = (JS_ERR, js_create)
    ∧ js_parse js_create (bytes "\x7b\"a\":1,\"b\":2\x7d")
      = (JS_TRUE, ⟨none, some (jsObject.object js_example_src)⟩) := by
  refine ⟨?_, ?_, ?_, ?_, ?_, ?_, rfl, rfl, rfl, rfl, rfl, rfl⟩
  · intro fuel ht value rest name hwf hu hname hdup
    exact parse_member_duplicate fuel ht value rest name hwf hu hname hdup
  · intro fuel ht value rest name sub rest1 hwf hu hname hnew hcolon hval
    exact parse_member_first fuel ht value rest name sub rest1 hwf hu hname hnew hcolon hval
  · intro js str hlen h
    exact js_parse_distinct js str hlen h
  · intro js str fuel ht value name rest hlen hreach hname hdup
    exact parse_repeat_reached js str fuel ht value name rest hlen hreach hname hdup
  · intro js t name more hnamed hdup
    exact parse_repeat_named js t name more hnamed hdup
  · intro js t name more hplain hdup
    exact parse_repeat_plain js t name more hplain hdup

/-- C8 (witness): the Object that holds `a` in front of `b` in one bucket prints as
`\x7b"a":1,"b":2\x7d`, and that text with the member `a` added once more is rejected; the
calls of the parser on it come to the member parser at the second `"a"` with the table
that holds `a` and `b`. -/
theorem js_parse_duplicate_member_refused_witness :
    js_print_text (jsObject.object ⟨[[], [], [],
        [⟨some [97], some (jsObject.number_l64 1)⟩,
         ⟨some [98], some (jsObject.number_l64 2)⟩]], 4, 3, 2⟩)
      = some (bytes "\x7b\"a\":1,\"b\":2\x7d")
    ∧ js_parse js_create (bytes "\x7b\"a\":1,\"b\":2,\"a\":3\x7d") = (JS_ERR, js_create)
    ∧ (∃ members, js_print_text (jsObject.object ⟨[[], [], [],
          [⟨some [97], some (jsObject.number_l64 1)⟩,
           ⟨some [98], some (jsObject.number_l64 2)⟩]], 4, 3, 2⟩)
        = some (123 :: members ++ [125])
      ∧ js_parse js_create (123 :: members
          ++ 44 :: 34 :: _js_object_string_escape_out (bytes "a") ++ 34 :: bytes ":3\x7d")
          = (JS_ERR, js_create))
    ∧ (ht_wf htTypeJson jsKeyGood js_example_src
      ∧ (_js_object_add_object js_example_src (bytes "a") jsObject.null).1 = JS_ERR
      ∧ _js_parse_object_member (32 + 1) js_example_src (bytes "\"a\":3\x7d")
          = some (jsParse.fail none)
      ∧ js_parse js_create (bytes "\x7b\"a\":1,\"b\":2,\"a\":3\x7d") = (JS_ERR, js_create)) :=
  ⟨rfl, rfl, js_parse_duplicate_member_refused.2.2.2.2.1 js_create _ (bytes "a")
    (bytes ":3\x7d") (by
      have ha : jsStrPlain [97] := by intro c hc; simp at hc; subst hc; decide
      have hb : jsStrPlain [98] := by intro c hc; simp at hc; subst hc; decide
      rw [jsObject.named]
      refine ⟨by decide, by decide, ?_⟩
      simp only [jsChainsNamed, jsChainNamed, jsObject.named, and_true, true_and]
      exact ⟨ha, by decide, hb, by decide⟩)
    (by simp [ht_keys, ht_toList, bytes]),
   js_parse_duplicate_member_refused.2.2.2.1 js_create
    (bytes "\x7b\"a\":1,\"b\":2,\"a\":3\x7d") 32 js_example_src (bytes "\"a\":3\x7d")
    (bytes "a") (bytes ":3\x7d") (by decide) js_example_repeat_reach rfl
    (by simp [ht_keys, ht_toList, js_example_src, bytes])⟩

end Ctl
